import Mathlib

/-! WeensyOS kernel (`pset4/kernel.cc`): frame allocator, address spaces, fork and exit

A shallow embedding of the memory and process subsystem of `src/pset4/kernel.cc`.
The kernel's global variables (`pages`, `ptable`, `current`, `next_alloc_pa`, `ticks`
and physical memory itself) become one explicit record `KState` that every
operation takes and returns.  Pointers are natural numbers (`nullptr` is `0`),
physical memory is a function from byte addresses to bytes.

The constants of `kernel.hh` (`PAGESIZE`, `MEMSIZE_PHYSICAL`, ...) and the
predicate `allocatable_physical_address` of `k-hardware.cc` are not part of the
sources at hand; they are collected in the record `Config`, over which every
definition is parametrised.
-/

namespace Weensy


/-! ## Configuration and kernel state -/

/-- The constants of `kernel.hh` and the predicate `allocatable_physical_address`
used by `kernel.cc`. -/
structure Config where
  PAGESIZE : Nat
  MEMSIZE_PHYSICAL : Nat
  MEMSIZE_VIRTUAL : Nat
  NPROC : Nat
  PROC_START_ADDR : Nat
  /-- Address of the CGA console page (`console` in the source). -/
  console : Nat
  allocatable_physical_address : Nat → Bool
  /-- Address of the root page of `kernel_pagetable` (`k-hardware.cc`). -/
  kernel_pagetable : Nat
  /-- System call numbers (`lib.hh`). -/
  SYSCALL_PANIC : Nat
  SYSCALL_GETPID : Nat
  SYSCALL_YIELD : Nat
  SYSCALL_PAGE_ALLOC : Nat
  SYSCALL_FORK : Nat
  SYSCALL_EXIT : Nat
  /-- Interrupt numbers and the user bit of the page-fault error code (`x86-64.h`). -/
  INT_SYSCALL : Nat
  INT_TIMER : Nat
  INT_PAGEFAULT : Nat
  PFERR_USER : Nat

/-- Number of physical frames, `NPAGES = MEMSIZE_PHYSICAL / PAGESIZE`. -/
def Config.NPAGES (K : Config) : Nat := K.MEMSIZE_PHYSICAL / K.PAGESIZE

/-- Sanity conditions on the constants: pages are non-empty, physical memory is a
positive whole number of pages, and only addresses inside physical memory other
than the null page are allocatable. -/
structure Config.WF (K : Config) : Prop where
  page_pos : 0 < K.PAGESIZE
  phys_pages : K.PAGESIZE ∣ K.MEMSIZE_PHYSICAL
  phys_pos : 0 < K.MEMSIZE_PHYSICAL
  alloc_lt : ∀ pa, K.allocatable_physical_address pa = true → pa < K.MEMSIZE_PHYSICAL
  alloc_pos : ∀ pa, K.allocatable_physical_address pa = true → K.PAGESIZE ≤ pa

/-- One entry of `pages[]`: `owner` is `0` for a free frame, `sharers` counts the
additional address spaces that map the frame. -/
structure pageinfo where
  owner : Int
  sharers : Int
deriving DecidableEq, Repr

/-- Process states. -/
inductive procstate where
  | P_FREE
  | P_RUNNABLE
  | P_BROKEN
deriving DecidableEq, Repr

/-- Saved registers.  The registers that `kernel.cc` reads or writes are fields;
all remaining ones are kept in `reg_other`. -/
structure regstate where
  reg_rax : Nat
  reg_rdi : Nat
  reg_rip : Nat
  reg_rsp : Nat
  reg_intno : Nat
  reg_err : Nat
  reg_other : Nat → Nat

/-- A process descriptor `proc`; `pagetable` is the physical address of the root
page-table page. -/
structure proc where
  pid : Nat
  state : procstate
  regs : regstate
  pagetable : Nat

/-- The kernel's global state. -/
structure KState where
  /-- `pages[]`, indexed by frame number. -/
  pages : Nat → pageinfo
  /-- Physical memory, byte by byte. -/
  mem : Nat → Nat
  /-- The allocation cursor, `static uintptr_t next_alloc_pa`. -/
  next_alloc_pa : Nat
  /-- The process table `ptable[]`. -/
  ptable : Nat → proc
  /-- Index in `ptable` of the running process (`current`). -/
  current : Nat
  ticks : Nat

/-- Pointwise update of a function on the naturals (an array store). -/
def upd {α : Type} (f : Nat → α) (i : Nat) (v : α) : Nat → α :=
  fun j => if j = i then v else f j

/-- The effect of `memset((void*) pa, c, n)` on physical memory. -/
def memset (m : Nat → Nat) (pa c n : Nat) : Nat → Nat :=
  fun a => if pa ≤ a ∧ a < pa + n then c else m a

/-- The effect of `memcpy((void*) dst, (void*) src, n)` on physical memory (the
ranges the kernel passes never overlap). -/
def memcpy (m : Nat → Nat) (dst src n : Nat) : Nat → Nat :=
  fun a => if dst ≤ a ∧ a < dst + n then m (src + (a - dst)) else m a

/-! ## `kalloc` and `kfree` -/

/-- The scan loop of `kalloc` (lines 119-130), with `n` iterations left.  Returns
the allocated address, or `0` (`nullptr`) when the iterations are used up. -/
def kalloc_loop (K : Config) : Nat → KState → Nat × KState
  | 0, s => (0, s)
  | n + 1, s =>
    let pa := s.next_alloc_pa
    let s1 : KState :=
      { s with next_alloc_pa := (s.next_alloc_pa + K.PAGESIZE) % K.MEMSIZE_PHYSICAL }
    if K.allocatable_physical_address pa = true ∧ (s1.pages (pa / K.PAGESIZE)).owner = 0 then
      (pa, { s1 with
              pages := upd s1.pages (pa / K.PAGESIZE) { owner := -1, sharers := 0 }
              mem := memset s1.mem pa 0 K.PAGESIZE })
    else
      kalloc_loop K n s1

/-- `kalloc(sz)` (lines 114-132): the result pointer and the new state. -/
def kalloc (K : Config) (sz : Nat) (s : KState) : Nat × KState :=
  if sz > K.PAGESIZE then (0, s) else kalloc_loop K K.MEMSIZE_PHYSICAL s

/-- `kfree(ptr)` (lines 141-154).  `none` is a failed assertion, which halts the
kernel. -/
def kfree (K : Config) (ptr : Nat) (s : KState) : Option KState :=
  if ptr % K.PAGESIZE ≠ 0 then none
  else if ptr ≠ 0 ∧ K.allocatable_physical_address ptr = false then none
  else
    some { s with
            mem := memset s.mem ptr 0 K.PAGESIZE
            pages := upd s.pages (ptr / K.PAGESIZE)
                        { (s.pages (ptr / K.PAGESIZE)) with owner := 0 } }

/-! ## Page tables

`k-vmiter.hh` (the iterators `vmiter` and `ptiter`) is not among the sources.  The
definitions of this section are modelled from the specification of the address
space: a tree of page-table levels rooted at one frame, whose leaf entries map a
virtual page to a physical frame and permission bits, together with the x86-64
format the kernel runs on (four levels, eight-byte little-endian entries, flag
bits `PTE_P = 1`, `PTE_W = 2`, `PTE_U = 4` below the frame address). -/

/-- Present bit of a page-table entry. -/
def PTE_P : Nat := 1
/-- Writable bit of a page-table entry. -/
def PTE_W : Nat := 2
/-- User-accessible bit of a page-table entry. -/
def PTE_U : Nat := 4

/-- The value of `(uintptr_t) -1`. -/
def UINTPTR_MAX : Nat := 2 ^ 64 - 1

/-- Little-endian value of the `n` bytes of memory starting at `a`. -/
def readLE (m : Nat → Nat) : Nat → Nat → Nat
  | _, 0 => 0
  | a, n + 1 => m a % 256 + 256 * readLE m (a + 1) n

/-- The eight-byte entry stored at physical address `a`. -/
def readQ (m : Nat → Nat) (a : Nat) : Nat := readLE m a 8

/-- Memory after storing the eight-byte value `v` at physical address `a`. -/
def writeQ (m : Nat → Nat) (a v : Nat) : Nat → Nat :=
  fun x => if a ≤ x ∧ x < a + 8 then v / 256 ^ (x - a) % 256 else m x

/-- Number of entries of one page-table page. -/
def Config.NENT (K : Config) : Nat := K.PAGESIZE / 8

/-- Modelled from the spec: `pageindex(va, level)` of the absent `x86-64.h`, the
index of the entry that translates `va` in a table of the given level (level 0
holds the leaf entries). -/
def pageindex (K : Config) (va level : Nat) : Nat :=
  va / K.PAGESIZE / K.NENT ^ level % K.NENT

/-- Frame address held by an entry. -/
def pte_pa (K : Config) (e : Nat) : Nat := e / K.PAGESIZE * K.PAGESIZE

/-- Flag bits held by an entry. -/
def pte_flags (K : Config) (e : Nat) : Nat := e % K.PAGESIZE

/-- Whether flag `b` (one of `PTE_P`, `PTE_W`, `PTE_U`) is set in `e`. -/
def hasflag (e b : Nat) : Bool := e / b % 2 == 1

/-- Modelled from the spec: the table walk behind `vmiter::find` of the absent
`k-vmiter.hh`.  Starting in the table page `tbl` of level `level`, it follows
present entries down to level 0 and returns the leaf entry for `va`, or `0` (an
entry that is not present) when an intermediate level is missing. -/
def vm_walk (K : Config) (m : Nat → Nat) : Nat → Nat → Nat → Nat
  | 0, tbl, va => readQ m (tbl + 8 * pageindex K va 0)
  | l + 1, tbl, va =>
    let e := readQ m (tbl + 8 * pageindex K va (l + 1))
    if hasflag e PTE_P = true then vm_walk K m l (pte_pa K e) va else 0

/-- Modelled from the spec: a `vmiter` of the absent `k-vmiter.hh`, a root page
table and a current virtual address. -/
structure vmiter where
  pt : Nat
  va : Nat

/-- The leaf entry a `vmiter` currently points at (lookup from the root, level 3). -/
def vmiter.entry (K : Config) (m : Nat → Nat) (it : vmiter) : Nat :=
  vm_walk K m 3 it.pt it.va

/-- Modelled from the spec: `vmiter::present()`. -/
def vmiter.present (K : Config) (m : Nat → Nat) (it : vmiter) : Bool :=
  hasflag (it.entry K m) PTE_P

/-- Modelled from the spec: `vmiter::writable()`, present and writable. -/
def vmiter.writable (K : Config) (m : Nat → Nat) (it : vmiter) : Bool :=
  hasflag (it.entry K m) PTE_P && hasflag (it.entry K m) PTE_W

/-- Modelled from the spec: `vmiter::user()`, present and user-accessible. -/
def vmiter.user (K : Config) (m : Nat → Nat) (it : vmiter) : Bool :=
  hasflag (it.entry K m) PTE_P && hasflag (it.entry K m) PTE_U

/-- Modelled from the spec: `vmiter::pa()`, the physical address that the current
virtual address translates to (frame address plus offset in the page), or
`(uintptr_t) -1` for a page that is not present. -/
def vmiter.pa (K : Config) (m : Nat → Nat) (it : vmiter) : Nat :=
  if it.present K m = true then pte_pa K (it.entry K m) + it.va % K.PAGESIZE else UINTPTR_MAX

/-- Modelled from the spec: `vmiter::perm()`, the permission bits of the mapping,
`0` for a page that is not present. -/
def vmiter.perm (K : Config) (m : Nat → Nat) (it : vmiter) : Nat :=
  if it.present K m = true then pte_flags K (it.entry K m) else 0

/-- Modelled from the spec: the body of `vmiter::map(pa, perm)` of the absent
`k-vmiter.hh`, from the table page `tbl` of level `level` downwards.  Missing
intermediate levels are allocated with `kalloc`, cleared and linked with all
permissions; the leaf entry becomes `pa | perm`.  A mapping with no permission
bits needs no table level: if a level is missing, nothing is allocated and
nothing is written.  The result is `0`, or `-1` when an allocation fails. -/
def vm_map (K : Config) : Nat → Nat → Nat → Nat → Nat → KState → Int × KState
  | 0, tbl, va, pa, perm, s =>
    (0, { s with mem := writeQ s.mem (tbl + 8 * pageindex K va 0) (pa + perm) })
  | l + 1, tbl, va, pa, perm, s =>
    let e := readQ s.mem (tbl + 8 * pageindex K va (l + 1))
    if hasflag e PTE_P = true then vm_map K l (pte_pa K e) va pa perm s
    else if perm = 0 then (0, s)
    else
      let r := kalloc K K.PAGESIZE s
      if r.1 = 0 then (-1, r.2)
      else
        let s1 : KState := { r.2 with mem := memset r.2.mem r.1 0 K.PAGESIZE }
        let s2 : KState :=
          { s1 with mem := writeQ s1.mem (tbl + 8 * pageindex K va (l + 1))
                             (r.1 + (PTE_P + PTE_W + PTE_U)) }
        vm_map K l r.1 va pa perm s2

/-- Number of bytes of virtual address space that a four-level tree translates
(`2 ^ 48` on x86-64). -/
def Config.VA_SPAN (K : Config) : Nat := K.PAGESIZE * K.NENT ^ 4

/-- Modelled from the spec: `va_is_canonical(va)` of the absent `x86-64.h`.  The
canonical addresses are the lower half of the translated span and its upper half
moved to the top of the 64-bit address space. -/
def va_is_canonical (K : Config) (va : Nat) : Bool :=
  decide (va < K.VA_SPAN / 2) || (decide (2 ^ 64 - K.VA_SPAN / 2 ≤ va) && decide (va < 2 ^ 64))

/-- Modelled from the spec: `vmiter::map(pa, perm)`.  The iterator's address has to
be page-aligned and canonical, otherwise an assertion of `vmiter` fails and the
kernel halts (`none`).  Mapping "no page" (`pa = (uintptr_t) -1` with no
permissions) stores the empty entry. -/
def vmiter.map (K : Config) (it : vmiter) (pa perm : Nat) (s : KState) : Option (Int × KState) :=
  if it.va % K.PAGESIZE = 0 ∧ va_is_canonical K it.va = true then
    some (vm_map K 3 it.pt it.va (if pa = UINTPTR_MAX ∧ perm = 0 then 0 else pa) perm s)
  else none

/-- Modelled from the spec: the page-table pages that `ptiter` of the absent
`k-vmiter.hh` visits below the table page `tbl` of level `level`: every
intermediate page of the tree, lower levels before the page that links them; the
root itself is not visited. -/
def pt_pages (K : Config) (m : Nat → Nat) : Nat → Nat → List Nat
  | 0, _ => []
  | l + 1, tbl =>
    (List.range K.NENT).flatMap fun i =>
      let e := readQ m (tbl + 8 * i)
      if hasflag e PTE_P = true then pt_pages K m l (pte_pa K e) ++ [pte_pa K e] else []

/-! ## Processes: `proc_free`, `schedule`, `syscall`, `exception` -/

/-- Replace the descriptor of process `pid` by `f` of it. -/
def KState.setProc (s : KState) (pid : Nat) (f : proc → proc) : KState :=
  { s with ptable := upd s.ptable pid (f (s.ptable pid)) }

/-- The first loop of `proc_free` (lines 168-177) over the page table rooted at
`pt`, at virtual address `va`, with `n` iterations of fuel.  The loop header and
the last statement of the body both advance the iterator, as in the source.
`none` is a failed `kfree` assertion (or exhausted fuel, which the fuel that
`proc_free` passes rules out).  Line 169 reads `pages[pit.pa() / PAGESIZE]` for
every page that the loop visits, also for a page that is not present, where
`pit.pa()` is no physical address and the index lies outside the array; the value
read is only used when `pit.user()` holds.  Here the read is the value of the total
function `s.pages`, so this is the loop in a run in which the read outside the array
does not fault; `proc_free_walk_reads` lists the indices that are read. -/
def proc_free_walk (K : Config) (pt : Nat) : Nat → Nat → KState → Option KState
  | 0, _, _ => none
  | n + 1, va, s =>
    if va < K.MEMSIZE_VIRTUAL then
      let pit : vmiter := { pt := pt, va := va }
      let shared : Bool := decide ((s.pages (pit.pa K s.mem / K.PAGESIZE)).sharers > 0)
      if pit.user K s.mem = true ∧ shared = false ∧ va ≠ K.console then
        match kfree K (pit.pa K s.mem) s with
        | none => none
        | some s1 => proc_free_walk K pt n (va + K.PAGESIZE + K.PAGESIZE) s1
      else if pit.user K s.mem = true ∧ shared = true ∧ va ≠ K.console then
        let f := pit.pa K s.mem / K.PAGESIZE
        let s1 : KState :=
          { s with pages := upd s.pages f { (s.pages f) with sharers := (s.pages f).sharers - 1 } }
        proc_free_walk K pt n (va + K.PAGESIZE + K.PAGESIZE) s1
      else
        proc_free_walk K pt n (va + K.PAGESIZE + K.PAGESIZE) s
    else some s

/-- Call `kfree` on every address of a list in turn (the `ptiter` loop of
`proc_free`, lines 180-184). -/
def kfree_list (K : Config) : List Nat → KState → Option KState
  | [], s => some s
  | p :: ps, s =>
    match kfree K p s with
    | none => none
    | some s1 => kfree_list K ps s1

/-- `proc_free(pid)` (lines 160-188). -/
def proc_free (K : Config) (pid : Nat) (s : KState) : Option KState :=
  let s0 := s.setProc pid fun p => { p with state := procstate.P_FREE }
  let pt := (s0.ptable pid).pagetable
  match proc_free_walk K pt (K.MEMSIZE_VIRTUAL + 1) 0 s0 with
  | none => none
  | some s1 =>
    match kfree_list K (pt_pages K s1.mem 3 pt) s1 with
    | none => none
    | some s2 => kfree K pt s2

/-- The scan of `schedule` (lines 490-503): `n` slots are still to be examined,
`pid` is the slot examined last.  Returns the slot handed to `run`, if any. -/
def schedule_scan (K : Config) (s : KState) : Nat → Nat → Option Nat
  | 0, _ => none
  | n + 1, pid =>
    let pid1 := (pid + 1) % K.NPROC
    if (s.ptable pid1).state = procstate.P_RUNNABLE then some pid1
    else schedule_scan K s n pid1

/-- What a trap handler ends in. -/
inductive Outcome where
  /-- `run(p)`: a process runs in user mode again, in the given kernel state. -/
  | resumed (s : KState)
  /-- `schedule` found nothing runnable and spins forever. -/
  | spinning (s : KState)
  /-- `panic` or a failed assertion: the machine halts. -/
  | halted

/-- `schedule()` (lines 488-504) followed by `run` (lines 511-525).  After `NPROC`
slots without a runnable process the scan only repeats itself. -/
def schedule (K : Config) (s : KState) : Outcome :=
  match schedule_scan K s K.NPROC (s.ptable s.current).pid with
  | some pid => Outcome.resumed { s with current := pid }
  | none => Outcome.spinning s

/-- What `syscall` ends in: it returns a value, or it does not return. -/
inductive SysResult where
  | ret (v : Nat) (s : KState)
  | noreturn (o : Outcome)

/-- The slot search of `SYSCALL_FORK` (lines 399-405), scanning slots `i`,
`i + 1`, ... while `n` slots are left; `0` when no slot is free. -/
def fork_find (K : Config) (s : KState) : Nat → Nat → Nat
  | 0, _ => 0
  | n + 1, i => if (s.ptable i).state = procstate.P_FREE then i else fork_find K s n (i + 1)

/-- The page walk of `SYSCALL_FORK` (lines 417-456) at virtual address `va` with
`n` iterations of fuel: `ppt` is the parent's root table, `cpt` the child's, `pid`
the child.  The result is `none` when the machine halts, `some (true, s)` when the
walk completes and `some (false, s)` when an allocation failed and `proc_free(pid)`
was called. -/
def fork_walk (K : Config) (ppt cpt pid : Nat) : Nat → Nat → KState → Option (Bool × KState)
  | 0, _, _ => none
  | n + 1, va, s =>
    if va < K.MEMSIZE_VIRTUAL then
      let pit : vmiter := { pt := ppt, va := va }
      let cit : vmiter := { pt := cpt, va := va }
      if pit.writable K s.mem = true ∧ pit.user K s.mem = true ∧ va ≠ K.console then
        let r := kalloc K K.PAGESIZE s
        if r.1 = 0 then (proc_free K pid r.2).map fun t => (false, t)
        else
          match cit.map K r.1 (pit.perm K r.2.mem) r.2 with
          | none => none
          | some r2 =>
            if r2.1 ≠ 0 then (proc_free K pid r2.2).map fun t => (false, t)
            else
              let s3 : KState :=
                { r2.2 with mem := memcpy r2.2.mem r.1 (pit.pa K r2.2.mem) K.PAGESIZE }
              fork_walk K ppt cpt pid n (va + K.PAGESIZE) s3
      else if pit.writable K s.mem = false ∧ pit.user K s.mem = true ∧ va ≠ K.console then
        match cit.map K (pit.pa K s.mem) (pit.perm K s.mem) s with
        | none => none
        | some r2 =>
          if r2.1 ≠ 0 then (proc_free K pid r2.2).map fun t => (false, t)
          else
            let f := pit.pa K r2.2.mem / K.PAGESIZE
            let s3 : KState :=
              { r2.2 with pages := upd r2.2.pages f
                            { (r2.2.pages f) with sharers := (r2.2.pages f).sharers + 1 } }
            fork_walk K ppt cpt pid n (va + K.PAGESIZE) s3
      else
        match cit.map K (pit.pa K s.mem) (pit.perm K s.mem) s with
        | none => none
        | some r2 =>
          if r2.1 ≠ 0 then (proc_free K pid r2.2).map fun t => (false, t)
          else fork_walk K ppt cpt pid n (va + K.PAGESIZE) r2.2
    else some (true, s)

/-- The `SYSCALL_FORK` case of `syscall` (lines 398-467): the returned value and the
new state, or `none` when the machine halts. -/
def sys_fork (K : Config) (s : KState) : Option (Nat × KState) :=
  let pid := fork_find K s (K.NPROC - 1) 1
  if pid = 0 then some (UINTPTR_MAX, s)
  else
    let r := kalloc K K.PAGESIZE s
    let s1 := r.2.setProc pid fun p => { p with pagetable := r.1 }
    if r.1 = 0 then (kfree K 0 s1).map fun t => (UINTPTR_MAX, t)
    else
      match fork_walk K (s1.ptable s1.current).pagetable r.1 pid
              (K.MEMSIZE_VIRTUAL + 1) 0 s1 with
      | none => none
      | some (false, t) => some (UINTPTR_MAX, t)
      | some (true, t) =>
        some (pid, t.setProc pid fun p =>
          { p with regs := { (t.ptable t.current).regs with reg_rax := 0 }
                   pid := pid
                   state := procstate.P_RUNNABLE })

/-- The `SYSCALL_PAGE_ALLOC` case of `syscall` (lines 379-396). -/
def sys_page_alloc (K : Config) (s : KState) : Option (Nat × KState) :=
  let addr := (s.ptable s.current).regs.reg_rdi
  if addr > K.PROC_START_ADDR then
    let r := kalloc K K.PAGESIZE s
    if r.1 ≠ 0 then
      let pit : vmiter := { pt := (r.2.ptable r.2.current).pagetable, va := addr }
      match pit.map K r.1 (PTE_P + PTE_W + PTE_U) r.2 with
      | none => none
      | some r2 => if r2.1 = 0 then some (0, r2.2) else none
    else some (UINTPTR_MAX, r.2)
  else some (UINTPTR_MAX, s)

/-- Turn an optional result into a `SysResult`, halting on `none`. -/
def SysResult.ofOption : Option (Nat × KState) → SysResult
  | none => SysResult.noreturn Outcome.halted
  | some (v, s) => SysResult.ret v s

/-- `syscall(regs)` (lines 349-481). -/
def syscall (K : Config) (regs : regstate) (s : KState) : SysResult :=
  let s0 := s.setProc s.current fun p => { p with regs := regs }
  if regs.reg_rax = K.SYSCALL_PANIC then SysResult.noreturn Outcome.halted
  else if regs.reg_rax = K.SYSCALL_GETPID then SysResult.ret (s0.ptable s0.current).pid s0
  else if regs.reg_rax = K.SYSCALL_YIELD then
    SysResult.noreturn
      (schedule K (s0.setProc s0.current fun p => { p with regs := { p.regs with reg_rax := 0 } }))
  else if regs.reg_rax = K.SYSCALL_PAGE_ALLOC then SysResult.ofOption (sys_page_alloc K s0)
  else if regs.reg_rax = K.SYSCALL_FORK then SysResult.ofOption (sys_fork K s0)
  else if regs.reg_rax = K.SYSCALL_EXIT then
    match proc_free K (s0.ptable s0.current).pid s0 with
    | none => SysResult.noreturn Outcome.halted
    | some s1 =>
      SysResult.noreturn
        (schedule K (s1.setProc s1.current fun p => { p with regs := { p.regs with reg_rax := 0 } }))
  else SysResult.noreturn Outcome.halted

/-- The end of `exception` (lines 333-337): resume the current process if it is
runnable, otherwise schedule. -/
def exception_finish (K : Config) (s : KState) : Outcome :=
  if (s.ptable s.current).state = procstate.P_RUNNABLE then Outcome.resumed s
  else schedule K s

/-- `exception(regs)` (lines 276-338). -/
def exception (K : Config) (regs : regstate) (s : KState) : Outcome :=
  let s0 := s.setProc s.current fun p => { p with regs := regs }
  if regs.reg_intno = K.INT_SYSCALL then
    match syscall K regs s0 with
    | SysResult.ret v s1 =>
      exception_finish K (s1.setProc s1.current fun p => { p with regs := { p.regs with reg_rax := v } })
    | SysResult.noreturn o => o
  else if regs.reg_intno = K.INT_TIMER then schedule K { s0 with ticks := s0.ticks + 1 }
  else if regs.reg_intno = K.INT_PAGEFAULT then
    if regs.reg_err / K.PFERR_USER % 2 = 0 then Outcome.halted
    else exception_finish K (s0.setProc s0.current fun p => { p with state := procstate.P_BROKEN })
  else Outcome.halted

/-! ## Boot: `kernel` and `process_setup`

The program loader (`program_loader`), `init_hardware` and `init_process` are
external to `kernel.cc`.  What the kernel sees of them is collected in `BootEnv`. -/

/-- One segment of a program image, as the loader iterator presents it. -/
structure segment where
  va : Nat
  size : Nat
  /-- Byte `i` of the initial contents. -/
  data : Nat → Nat
  data_size : Nat
  writable : Bool

/-- A program image: its segments and its entry point. -/
structure program where
  segments : List segment
  entry : Nat

/-- The environment of the kernel at boot. -/
structure BootEnv where
  /-- The state in which `init_hardware` leaves the machine: globals cleared,
  `kernel_pagetable` built. -/
  hw : KState
  /-- The program images, by program number. -/
  programs : Nat → program
  /-- The registers that `init_process` gives a new process. -/
  init_regs : regstate

/-- Memory after copying the first `n` bytes of `data` to physical address `pa`
(`memcpy` from the program image, which lies outside the modelled memory). -/
def memload (m : Nat → Nat) (pa : Nat) (data : Nat → Nat) (n : Nat) : Nat → Nat :=
  fun a => if pa ≤ a ∧ a < pa + n then data (a - pa) else m a

/-- The loop of `kernel` over `kernel_pagetable` (lines 69-76) at address `va`,
with `n` iterations of fuel; `none` is a failed assertion. -/
def kernel_map_loop (K : Config) : Nat → Nat → KState → Option KState
  | 0, _, _ => none
  | n + 1, va, s =>
    if va < K.PROC_START_ADDR then
      if va ≠ K.console then
        match ({ pt := K.kernel_pagetable, va := va } : vmiter).map K va (PTE_P + PTE_W) s with
        | none => none
        | some r => if r.1 = 0 then kernel_map_loop K n (va + K.PAGESIZE) r.2 else none
      else kernel_map_loop K n (va + K.PAGESIZE) s
    else some s

/-- The first loop of `process_setup` (lines 204-210): copy the kernel's mappings
below `PROC_START_ADDR` into the page table rooted at `pt`. -/
def setup_kernel_loop (K : Config) (pt : Nat) : Nat → Nat → KState → Option KState
  | 0, _, _ => none
  | n + 1, va, s =>
    if va < K.PROC_START_ADDR then
      let kit : vmiter := { pt := K.kernel_pagetable, va := va }
      match ({ pt := pt, va := va } : vmiter).map K (kit.pa K s.mem) (kit.perm K s.mem) s with
      | none => none
      | some r => if r.1 = 0 then setup_kernel_loop K pt n (va + K.PAGESIZE) r.2 else none
    else some s

/-- The inner loop of lines 217-233: allocate and map the pages of one segment,
from address `a` up to `stop`. -/
def setup_segment_pages (K : Config) (pt : Nat) (writable : Bool) (stop : Nat) :
    Nat → Nat → KState → Option KState
  | 0, _, _ => none
  | n + 1, a, s =>
    if a < stop then
      let r := kalloc K K.PAGESIZE s
      if r.1 = 0 then none
      else
        let perm := if writable = true then PTE_P + PTE_W + PTE_U else PTE_P + PTE_U
        match ({ pt := pt, va := a } : vmiter).map K r.1 perm r.2 with
        | none => none
        | some r2 =>
          if r2.1 = 0 then setup_segment_pages K pt writable stop n (a + K.PAGESIZE) r2.2
          else none
    else some s

/-- The loop of lines 216-234 over the segments of the image. -/
def setup_alloc (K : Config) (pt : Nat) : List segment → KState → Option KState
  | [], s => some s
  | g :: gs, s =>
    match setup_segment_pages K pt g.writable (g.va + g.size) (g.size + 1)
            (g.va / K.PAGESIZE * K.PAGESIZE) s with
    | none => none
    | some s1 => setup_alloc K pt gs s1

/-- The loop of lines 238-242: clear each segment and copy its initial contents. -/
def setup_copy (K : Config) (pt : Nat) : List segment → KState → KState
  | [], s => s
  | g :: gs, s =>
    let pa := ({ pt := pt, va := g.va } : vmiter).pa K s.mem
    setup_copy K pt gs
      { s with mem := memload (memset s.mem pa 0 g.size) pa g.data g.data_size }

/-- `process_setup(pid, program_number)` (lines 196-261); `none` is a panic or a
failed assertion. -/
def process_setup (K : Config) (E : BootEnv) (pid program_number : Nat) (s : KState) :
    Option KState :=
  let s0 := s.setProc pid fun p => { p with regs := E.init_regs }
  let r := kalloc K K.PAGESIZE s0
  let s1 := r.2.setProc pid fun p => { p with pagetable := r.1 }
  let pt := r.1
  let img := E.programs program_number
  match setup_kernel_loop K pt (K.PROC_START_ADDR + 1) 0 s1 with
  | none => none
  | some s2 =>
    match setup_alloc K pt img.segments s2 with
    | none => none
    | some s3 =>
      let s4 := setup_copy K pt img.segments s3
      let s5 := s4.setProc pid fun p => { p with regs := { p.regs with reg_rip := img.entry } }
      let stack_addr := K.MEMSIZE_VIRTUAL - K.PAGESIZE
      let r6 := kalloc K K.PAGESIZE s5
      if r6.1 = 0 then none
      else
        match ({ pt := pt, va := stack_addr } : vmiter).map K r6.1 (PTE_P + PTE_W + PTE_U) r6.2 with
        | none => none
        | some r7 =>
          if r7.1 ≠ 0 then none
          else
            some (r7.2.setProc pid fun p =>
              { p with regs := { p.regs with reg_rsp := stack_addr + K.PAGESIZE }
                       state := procstate.P_RUNNABLE })

/-- The loop of lines 79-82: `ptable[i].pid = i`, `ptable[i].state = P_FREE` for
the `n` slots from `i` on. -/
def init_ptable : Nat → Nat → KState → KState
  | 0, _, s => s
  | n + 1, i, s =>
    init_ptable n (i + 1) (s.setProc i fun p => { p with pid := i, state := procstate.P_FREE })

/-- Run `process_setup(i, i - 1)` for the `n` processes from `i` on (lines 89-91). -/
def setup_default (K : Config) (E : BootEnv) : Nat → Nat → KState → Option KState
  | 0, _, s => some s
  | n + 1, i, s =>
    match process_setup K E i (i - 1) s with
    | none => none
    | some s1 => setup_default K E n (i + 1) s1

/-- `kernel(command)` (lines 55-96), from the state that `init_hardware` leaves. -/
def kernel (K : Config) (E : BootEnv) (command : Option String) : Outcome :=
  let s0 : KState := { E.hw with ticks := 1 }
  match kernel_map_loop K (K.PROC_START_ADDR + 1) 0 s0 with
  | none => Outcome.halted
  | some s1 =>
    let s2 := init_ptable K.NPROC 0 s1
    let r :=
      if command = some "fork" then process_setup K E 1 4 s2
      else if command = some "forkexit" then process_setup K E 1 5 s2
      else setup_default K E 4 1 s2
    match r with
    | none => Outcome.halted
    | some s3 =>
      if (s3.ptable 1).state = procstate.P_RUNNABLE then Outcome.resumed { s3 with current := 1 }
      else Outcome.halted

/-! ## Executions -/

/-- A store of byte `b` by the running process at virtual address `va`, which its
page table maps present, writable and user-accessible. -/
def user_store (K : Config) (va b : Nat) (s : KState) : Option KState :=
  let it : vmiter := { pt := (s.ptable s.current).pagetable, va := va }
  if va_is_canonical K va = true ∧ it.writable K s.mem = true ∧ it.user K s.mem = true ∧ b < 256 then
    some { s with mem := upd s.mem (it.pa K s.mem) b }
  else none

/-- The states in which some process runs in user mode, in an execution of the
kernel from boot: the state at the first `run`, and from any such state the state
after a store of the running process, after a trap handled by `exception`, and
after a system call handled by `syscall`. -/
inductive Reachable (K : Config) (E : BootEnv) (command : Option String) : KState → Prop where
  | boot (s : KState) : kernel K E command = Outcome.resumed s → Reachable K E command s
  | store (s t : KState) (va b : Nat) : Reachable K E command s →
      user_store K va b s = some t → Reachable K E command t
  | trap (s t : KState) (regs : regstate) : Reachable K E command s →
      exception K regs s = Outcome.resumed t → Reachable K E command t
  | sysret (s t : KState) (regs : regstate) (v : Nat) : Reachable K E command s →
      syscall K regs s = SysResult.ret v t → Reachable K E command t
  | sysrun (s t : KState) (regs : regstate) : Reachable K E command s →
      syscall K regs s = SysResult.noreturn (Outcome.resumed t) → Reachable K E command t

/-! ## Derived notions used in the statements -/

/-- Frame `g` is allocatable and free (`owner == 0`) in state `s`. -/
def isFreeFrame (K : Config) (s : KState) (g : Nat) : Prop :=
  K.allocatable_physical_address (g * K.PAGESIZE) = true ∧ (s.pages g).owner = 0

instance (K : Config) (s : KState) (g : Nat) : Decidable (isFreeFrame K s g) := by
  unfold isFreeFrame; infer_instance

/-- The allocation cursor is a page-aligned address inside physical memory.  It is
`0` at boot and `kalloc` only ever advances it by `PAGESIZE` modulo
`MEMSIZE_PHYSICAL`. -/
def cursorOK (K : Config) (s : KState) : Prop :=
  s.next_alloc_pa % K.PAGESIZE = 0 ∧ s.next_alloc_pa < K.MEMSIZE_PHYSICAL

instance (K : Config) (s : KState) : Decidable (cursorOK K s) := by
  unfold cursorOK; infer_instance

/-- The state in which a successful `kalloc` that returns `pa` leaves `s`. -/
def kalloc_at (K : Config) (s : KState) (pa : Nat) : KState :=
  { s with
    next_alloc_pa := (pa + K.PAGESIZE) % K.MEMSIZE_PHYSICAL
    pages := upd s.pages (pa / K.PAGESIZE) { owner := -1, sharers := 0 }
    mem := memset s.mem pa 0 K.PAGESIZE }

/-- The `k`-th frame in circular order starting at the frame of the cursor. -/
def cursorFrame (K : Config) (s : KState) (k : Nat) : Nat :=
  (s.next_alloc_pa / K.PAGESIZE + k) % K.NPAGES

/-! ## A concrete machine -/

/-- The constants of the WeensyOS handout: 4 KiB pages, 2 MiB of physical memory,
3 MiB of virtual address space per process, 16 process slots, processes start at
1 MiB, the console page is at `0xB8000`.  Allocatable addresses are those outside
the null page, the I/O hole `[0xA0000, 0x100000)`, the kernel image
`[0x40000, 0x60000)` and the kernel stack page `[0x7F000, 0x80000)`. -/
def weensy : Config where
  PAGESIZE := 4096
  MEMSIZE_PHYSICAL := 0x200000
  MEMSIZE_VIRTUAL := 0x300000
  NPROC := 16
  PROC_START_ADDR := 0x100000
  console := 0xB8000
  kernel_pagetable := 0x50000
  allocatable_physical_address := fun pa =>
    decide (4096 ≤ pa) && !(decide (0xA0000 ≤ pa) && decide (pa < 0x100000))
      && (decide (pa < 0x40000) || decide (0x60000 ≤ pa))
      && (decide (pa < 0x7F000) || decide (0x80000 ≤ pa))
      && decide (pa < 0x200000)
  SYSCALL_PANIC := 3
  SYSCALL_GETPID := 1
  SYSCALL_YIELD := 2
  SYSCALL_PAGE_ALLOC := 4
  SYSCALL_FORK := 5
  SYSCALL_EXIT := 6
  INT_SYSCALL := 48
  INT_TIMER := 32
  INT_PAGEFAULT := 14
  PFERR_USER := 4

/-- All registers zero. -/
def regs0 : regstate where
  reg_rax := 0
  reg_rdi := 0
  reg_rip := 0
  reg_rsp := 0
  reg_intno := 0
  reg_err := 0
  reg_other := fun _ => 0

/-- The kernel state with all of `pages[]`, memory and the process table cleared
(the state of the kernel's zero-initialised globals). -/
def zeroState : KState where
  pages := fun _ => { owner := 0, sharers := 0 }
  mem := fun _ => 0
  next_alloc_pa := 0
  ptable := fun i => { pid := i, state := procstate.P_FREE, regs := regs0, pagetable := 0 }
  current := 0
  ticks := 0

/-! ## Observations on states -/

/-- Number of allocatable frames that are free. -/
def freeCount (K : Config) (s : KState) : Nat :=
  (List.range K.NPAGES).countP fun f => decide (isFreeFrame K s f)

/-- The page table of process `p` maps the virtual page number `v` present and
user-accessible to frame `f`, and `v` is not the console page. -/
def userMapsAt (K : Config) (s : KState) (p v f : Nat) : Prop :=
  v * K.PAGESIZE ≠ K.console ∧
  ({ pt := (s.ptable p).pagetable, va := v * K.PAGESIZE } : vmiter).user K s.mem = true ∧
  ({ pt := (s.ptable p).pagetable, va := v * K.PAGESIZE } : vmiter).pa K s.mem = f * K.PAGESIZE

instance (K : Config) (s : KState) (p v f : Nat) : Decidable (userMapsAt K s p v f) := by
  unfold userMapsAt; infer_instance

/-- Process `p` is not Free and maps frame `f` user-accessibly at some virtual page
(console page excluded). -/
def userMaps (K : Config) (s : KState) (p f : Nat) : Prop :=
  (s.ptable p).state ≠ procstate.P_FREE ∧ ∃ v, v < K.NENT ^ 4 ∧ userMapsAt K s p v f

instance (K : Config) (s : KState) (p f : Nat) : Decidable (userMaps K s p f) := by
  unfold userMaps; infer_instance

/-- Number of non-Free processes whose address space maps frame `f`
user-accessibly (console page excluded). -/
def mappers (K : Config) (s : KState) (f : Nat) : Nat :=
  (List.range K.NPROC).countP fun p => decide (userMaps K s p f)

/-- The state of an outcome in which a process runs, `d` otherwise. -/
def Outcome.state (o : Outcome) (d : KState) : KState :=
  match o with
  | Outcome.resumed s => s
  | _ => d

/-- Whether an outcome is a process running. -/
def Outcome.isResumed : Outcome → Bool
  | Outcome.resumed _ => true
  | _ => false

/-- The value returned by a system call, if it returns. -/
def SysResult.value : SysResult → Option Nat
  | SysResult.ret v _ => some v
  | _ => none

/-- The state in which a system call returns, `d` if it does not return. -/
def SysResult.state (r : SysResult) (d : KState) : KState :=
  match r with
  | SysResult.ret _ s => s
  | _ => d

/-! ## The properties claimed of `fork` and of the sharing counts -/

/-- What a successful fork does with the parent's read-only user pages, for the
parent `s.current` in the state `s` before the call, the state `t` after it and the
child `c`: every page below `MEMSIZE_VIRTUAL` other than the console page that the
parent maps present, user-accessible and not writable is mapped by the child to the
same frame with the same permission bits, and the sharers count of that frame is
one greater than before. -/
def forkShares (K : Config) (s t : KState) (c : Nat) : Prop :=
  ∀ va, va % K.PAGESIZE = 0 → va < K.MEMSIZE_VIRTUAL → va ≠ K.console →
    ({ pt := (s.ptable s.current).pagetable, va := va } : vmiter).user K s.mem = true →
    ({ pt := (s.ptable s.current).pagetable, va := va } : vmiter).writable K s.mem = false →
    ({ pt := (t.ptable c).pagetable, va := va } : vmiter).present K t.mem = true ∧
    ({ pt := (t.ptable c).pagetable, va := va } : vmiter).pa K t.mem =
      ({ pt := (s.ptable s.current).pagetable, va := va } : vmiter).pa K s.mem ∧
    ({ pt := (t.ptable c).pagetable, va := va } : vmiter).perm K t.mem =
      ({ pt := (s.ptable s.current).pagetable, va := va } : vmiter).perm K s.mem ∧
    (t.pages (({ pt := (s.ptable s.current).pagetable, va := va } : vmiter).pa K s.mem
        / K.PAGESIZE)).sharers =
      (s.pages (({ pt := (s.ptable s.current).pagetable, va := va } : vmiter).pa K s.mem
        / K.PAGESIZE)).sharers + 1

/-- What a successful fork does with the parent's writable user pages below the
address `bound`: every page other than the console page that the parent maps
present, user-accessible and writable is mapped by the child, with the same
permission bits, to a frame that was free before the fork, differs from the
parent's frame, holds the bytes that the parent's frame held before the fork and
has sharers count 0. -/
def forkCopies (K : Config) (bound : Nat) (s t : KState) (c : Nat) : Prop :=
  ∀ va, va % K.PAGESIZE = 0 → va < bound → va ≠ K.console →
    ({ pt := (s.ptable s.current).pagetable, va := va } : vmiter).user K s.mem = true →
    ({ pt := (s.ptable s.current).pagetable, va := va } : vmiter).writable K s.mem = true →
    ({ pt := (t.ptable c).pagetable, va := va } : vmiter).present K t.mem = true ∧
    ({ pt := (t.ptable c).pagetable, va := va } : vmiter).perm K t.mem =
      ({ pt := (s.ptable s.current).pagetable, va := va } : vmiter).perm K s.mem ∧
    isFreeFrame K s (({ pt := (t.ptable c).pagetable, va := va } : vmiter).pa K t.mem / K.PAGESIZE) ∧
    ({ pt := (t.ptable c).pagetable, va := va } : vmiter).pa K t.mem ≠
      ({ pt := (s.ptable s.current).pagetable, va := va } : vmiter).pa K s.mem ∧
    (∀ i, i < K.PAGESIZE →
      t.mem (({ pt := (t.ptable c).pagetable, va := va } : vmiter).pa K t.mem + i) =
      s.mem (({ pt := (s.ptable s.current).pagetable, va := va } : vmiter).pa K s.mem + i)) ∧
    (t.pages (({ pt := (t.ptable c).pagetable, va := va } : vmiter).pa K t.mem
        / K.PAGESIZE)).sharers = 0

/-- The constants of the small machine. -/
def toy : Config where
  PAGESIZE := 32
  MEMSIZE_PHYSICAL := 928
  MEMSIZE_VIRTUAL := 256
  NPROC := 4
  PROC_START_ADDR := 64
  console := 32
  kernel_pagetable := 64
  allocatable_physical_address := fun pa => decide (192 ≤ pa) && decide (pa < 928)
  SYSCALL_PANIC := 3
  SYSCALL_GETPID := 1
  SYSCALL_YIELD := 2
  SYSCALL_PAGE_ALLOC := 4
  SYSCALL_FORK := 5
  SYSCALL_EXIT := 6
  INT_SYSCALL := 48
  INT_TIMER := 32
  INT_PAGEFAULT := 14
  PFERR_USER := 4

/-- Store a list of eight-byte entries `(address, value)`. -/
def pokeQ (m : Nat → Nat) (l : List (Nat × Nat)) : Nat → Nat :=
  l.foldl (fun m p => writeQ m p.1 p.2) m

/-- The small machine after `init_hardware`: everything cleared except for
`kernel_pagetable` (root in frame 2, lower levels in frames 3-5), which maps pages
0 and 1 to frames 0 and 1, present, writable and user-accessible. -/
def toyHw : KState :=
  { zeroState with
    mem := pokeQ (fun _ => 0)
      [(64, 96 + 7), (96, 128 + 7), (128, 160 + 7), (160, 0 + 7), (168, 32 + 7)] }

/-- A program for the small machine: read-only pages at pages 2, 3 and 4 and a
writable data page at page 5. -/
def toyProg : program where
  segments := [
    { va := 64, size := 32, data := fun i => 144 + i % 7, data_size := 20, writable := false },
    { va := 96, size := 32, data := fun i => 64 + i % 5, data_size := 32, writable := false },
    { va := 128, size := 32, data := fun i => 32 + i % 3, data_size := 32, writable := false },
    { va := 160, size := 32, data := fun i => i % 2, data_size := 8, writable := true }]
  entry := 64

/-- The boot environment of the small machine: every program number loads `toyProg`. -/
def toyEnv : BootEnv where
  hw := toyHw
  programs := fun _ => toyProg
  init_regs := regs0

/-- The registers of a system call `no` with argument `arg`, trapping through
`INT_SYSCALL` of the small machine. -/
def sysregs (no arg : Nat) : regstate :=
  { regs0 with reg_rax := no, reg_rdi := arg, reg_intno := 48 }

/-- The registers of a timer interrupt of the small machine. -/
def timerregs : regstate := { regs0 with reg_intno := 32 }

/-- The small machine when process 1 first runs (`kernel("fork")`). -/
def toyBoot : KState := (kernel toy toyEnv (some "fork")).state zeroState

/-- The small machine after process 1 has forked once (child: process 2). -/
def toyForked : KState := (exception toy (sysregs 5 0) toyBoot).state zeroState

/-- The small machine after the fork, a timer interrupt that switches to the child,
and the child's `Exit`. -/
def toyForkExit : KState :=
  (exception toy (sysregs 6 0) ((exception toy timerregs toyForked).state zeroState)).state zeroState

/-- The small machine after a `PageAlloc` of process 1 at page 8, the first page
at `MEMSIZE_VIRTUAL`. -/
def toyHigh : KState := (exception toy (sysregs 4 256) toyBoot).state zeroState

/-- The small machine after that `PageAlloc` and a fork of process 1. -/
def toyHighForked : KState := (exception toy (sysregs 5 0) toyHigh).state zeroState

/-- The small machine after the first fork and a `PageAlloc` of the parent at page
64, which needs three new page-table pages and leaves two free frames. -/
def toyTall : KState := (exception toy (sysregs 4 2048) toyForked).state zeroState

/-- The typing of the kernel page table of the small machine: the root in frame 2,
the lower levels in frames 3, 4 and 5. -/
def toyRolek : Nat → Option (Nat × List Nat) := fun t =>
  if t = 2 then some (4, [])
  else if t = 3 then some (4, [0])
  else if t = 4 then some (4, [0, 0])
  else if t = 5 then some (4, [0, 0, 0])
  else none

/-! ## A small machine with a larger kernel region

On the handout machine the kernel region below `PROC_START_ADDR` is mapped one to
one and contains allocatable frames.  The machine `toyK` has this feature: pages of
32 bytes, 22 frames, a kernel region of 11 pages mapped one to one, the kernel's
page table in frames 11-16, allocatable frames 2-10 and 17-21.  A process has one
page of its own, the stack page 11. -/

/-- The constants of the machine `toyK`. -/
def toyK : Config where
  PAGESIZE := 32
  MEMSIZE_PHYSICAL := 704
  MEMSIZE_VIRTUAL := 384
  NPROC := 4
  PROC_START_ADDR := 352
  console := 32
  kernel_pagetable := 352
  allocatable_physical_address := fun pa =>
    (decide (64 ≤ pa) && decide (pa < 352)) || (decide (544 ≤ pa) && decide (pa < 704))
  SYSCALL_PANIC := 3
  SYSCALL_GETPID := 1
  SYSCALL_YIELD := 2
  SYSCALL_PAGE_ALLOC := 4
  SYSCALL_FORK := 5
  SYSCALL_EXIT := 6
  INT_SYSCALL := 48
  INT_TIMER := 32
  INT_PAGEFAULT := 14
  PFERR_USER := 4

/-- The machine `toyK` after `init_hardware`: everything cleared except for
`kernel_pagetable` (root in frame 11, second level in frame 12, third level in
frame 13, leaf tables in frames 14-16), which maps each of the pages 0-11 to the
frame of the same number. -/
def toyKHw : KState :=
  { zeroState with
    mem := pokeQ (fun _ => 0)
      ([(352, 384 + 7), (384, 416 + 7), (416, 448 + 7), (424, 480 + 7), (432, 512 + 7)] ++
        (List.range 12).map fun i => (448 + 8 * i, 32 * i + 7)) }

/-- A program for `toyK` without segments: a process has only its stack page. -/
def toyKProg : program where
  segments := []
  entry := 352

/-- The boot environment of `toyK`. -/
def toyKEnv : BootEnv where
  hw := toyKHw
  programs := fun _ => toyKProg
  init_regs := regs0

/-- The typing of the kernel page table of `toyK`: the root in frame 11, the
second level in frame 12, the third level in frame 13, leaf tables in frames 14,
15 and 16. -/
def toyKRolek : Nat → Option (Nat × List Nat) := fun t =>
  if t = 11 then some (4, [])
  else if t = 12 then some (4, [0])
  else if t = 13 then some (4, [0, 0])
  else if t = 14 then some (4, [0, 0, 0])
  else if t = 15 then some (4, [0, 0, 1])
  else if t = 16 then some (4, [0, 0, 2])
  else none

/-! ## The property claimed of `kalloc` alone -/

/-! ## States used to illustrate `schedule` and `kfree` -/

/-- The all-free state with process 2 Runnable. -/
def oneRunnable : KState :=
  { zeroState with
    ptable := upd zeroState.ptable 2
      { pid := 2, state := procstate.P_RUNNABLE, regs := regs0, pagetable := 0 } }

/-- The all-free state with a non-zero byte at physical address 0. -/
def nullDirty : KState := { zeroState with mem := upd zeroState.mem 0 1 }

/-- Whether an outcome is the halted machine. -/
def Outcome.isHalted : Outcome → Bool
  | Outcome.halted => true
  | _ => false

/-! ## Sequences of allocator calls -/

/-- Number of frames of `pages[]` that are not free. -/
def usedCount (K : Config) (s : KState) : Nat :=
  (List.range K.NPAGES).countP fun f => decide ((s.pages f).owner ≠ 0)

/-- A call of the allocator: `kalloc(sz)` or `kfree(ptr)`. -/
inductive AllocOp where
  | alloc (sz : Nat)
  | free (ptr : Nat)

/-- What a call of the allocator did: `kalloc` returned the frame at `pa`, `kalloc`
returned `nullptr`, or `kfree(ptr)` returned, on a frame that was owned or not. -/
inductive AllocEv where
  | got (pa : Nat)
  | nothing
  | freed (ptr : Nat) (owned : Bool)
deriving DecidableEq

/-- The event is a successful `kalloc`. -/
def AllocEv.isGot : AllocEv → Bool
  | AllocEv.got _ => true
  | _ => false

/-- The event is a `kfree` of a frame that was owned. -/
def AllocEv.isRelease : AllocEv → Bool
  | AllocEv.freed _ owned => owned
  | _ => false

/-- Run a sequence of allocator calls from the state `s`: the events in order and
the final state; `none` when an assertion of `kfree` fails. -/
def runOps (K : Config) : List AllocOp → KState → Option (List AllocEv × KState)
  | [], s => some ([], s)
  | AllocOp.alloc sz :: ops, s =>
    match runOps K ops (kalloc K sz s).2 with
    | none => none
    | some x =>
      some ((if (kalloc K sz s).1 = 0 then AllocEv.nothing else AllocEv.got (kalloc K sz s).1)
        :: x.1, x.2)
  | AllocOp.free ptr :: ops, s =>
    match kfree K ptr s with
    | none => none
    | some t =>
      match runOps K ops t with
      | none => none
      | some x =>
        some (AllocEv.freed ptr (decide ((s.pages (ptr / K.PAGESIZE)).owner ≠ 0)) :: x.1, x.2)

/-! ## States and registers used to illustrate the trap handlers -/

/-- The state `oneRunnable` with process 2 as the current process. -/
def selfRunning : KState := { oneRunnable with current := 2 }

/-- The registers of a page fault of the handout machine with error code `err`. -/
def faultregs (err : Nat) : regstate := { regs0 with reg_intno := 14, reg_err := err }

/-! ## The first call of `process_setup` -/

/-- The state in which `kernel` makes its first call of `process_setup` (lines
55-82): the kernel page table is remapped and the process table is cleared; `none`
is a failed assertion. -/
def kernel_init (K : Config) (E : BootEnv) : Option KState :=
  match kernel_map_loop K (K.PROC_START_ADDR + 1) 0 { E.hw with ticks := 1 } with
  | none => none
  | some s1 => some (init_ptable K.NPROC 0 s1)

/-- The small machine before its first `process_setup`. -/
def toyInit : KState := (kernel_init toy toyEnv).getD zeroState

/-- The machine `toyK` before its first `process_setup`. -/
def toyKInit : KState := (kernel_init toyK toyKEnv).getD zeroState

/-- The machine `toyK` after `process_setup(1, 4)`. -/
def toyKSetup : KState := (process_setup toyK toyKEnv 1 4 toyKInit).getD zeroState

/-- A program for `toyK` with a read-only segment of eight bytes on page 11, the
stack page. -/
def toyKSegProg : program where
  segments := [{ va := 352, size := 8, data := fun _ => 0, data_size := 0, writable := false }]
  entry := 352

/-- The boot environment of `toyK` with the program `toyKSegProg`. -/
def toyKSegEnv : BootEnv := { toyKEnv with programs := fun _ => toyKSegProg }

/-- The machine `toyK` after `process_setup(1, 4)` of the program `toyKSegProg`. -/
def toyKSegSetup : KState := (process_setup toyK toyKSegEnv 1 4 toyKInit).getD zeroState

/-- The number of times the body of the scan loop of `kalloc` (lines 119-130) runs
from the state `s` when `n` iterations are left: the loop is `kalloc_loop`, every
pass through the body counts one. -/
def kalloc_loop_iters (K : Config) : Nat → KState → Nat
  | 0, _ => 0
  | n + 1, s =>
    let pa := s.next_alloc_pa
    let s1 : KState :=
      { s with next_alloc_pa := (s.next_alloc_pa + K.PAGESIZE) % K.MEMSIZE_PHYSICAL }
    if K.allocatable_physical_address pa = true ∧ (s1.pages (pa / K.PAGESIZE)).owner = 0 then 1
    else 1 + kalloc_loop_iters K n s1

/-- The number of iterations of the scan loop in one call `kalloc(sz)` (lines
114-132). -/
def kalloc_iters (K : Config) (sz : Nat) (s : KState) : Nat :=
  if sz > K.PAGESIZE then 0 else kalloc_loop_iters K K.MEMSIZE_PHYSICAL s

/-- The handout machine with every frame owned: no frame is free. -/
def fullState : KState := { zeroState with pages := fun _ => { owner := -1, sharers := 0 } }

/-! ## A pool of twelve frames -/

/-- A program with an image of two pages, the pages 2 and 3. -/
def toyTwoProg : program where
  segments := [
    { va := 64, size := 32, data := fun i => 144 + i % 7, data_size := 20, writable := false },
    { va := 96, size := 32, data := fun i => i % 2, data_size := 8, writable := true }]
  entry := 64

/-- The boot environment in which every program number loads `toyTwoProg`. -/
def toyTwoEnv : BootEnv where
  hw := toyHw
  programs := fun _ => toyTwoProg
  init_regs := regs0

/-- The running states that follow the running state `s` in an execution: `s`
itself, and from any such state the state after a store of the running process,
after a trap handled by `exception`, and after a system call handled by
`syscall`. -/
inductive Later (K : Config) (s : KState) : KState → Prop where
  | here : Later K s s
  | store (t u : KState) (va b : Nat) : Later K s t → user_store K va b t = some u → Later K s u
  | trap (t u : KState) (regs : regstate) : Later K s t →
      exception K regs t = Outcome.resumed u → Later K s u
  | sysret (t u : KState) (regs : regstate) (v : Nat) : Later K s t →
      syscall K regs t = SysResult.ret v u → Later K s u
  | sysrun (t u : KState) (regs : regstate) : Later K s t →
      syscall K regs t = SysResult.noreturn (Outcome.resumed u) → Later K s u

/-! ## A machine with room for four processes -/

/-- The small machine with 38 frames, of which the frames 6 to 37, exactly 32, are
allocatable, and six process slots. -/
def toyWide : Config :=
  { toy with
    MEMSIZE_PHYSICAL := 1216
    NPROC := 6
    allocatable_physical_address := fun pa => decide (192 ≤ pa) && decide (pa < 1216) }

/-- The machine `toyWide` before its first `process_setup`. -/
def toyWideInit : KState := (kernel_init toyWide toyTwoEnv).getD zeroState

/-- The machine `toyWide` after `process_setup` of the processes 1 to 4. -/
def toyWideFour : KState := (setup_default toyWide toyTwoEnv 4 1 toyWideInit).getD zeroState

/-- The machine `toyWide` at its first `run` when no command is given. -/
def toyWideBoot : KState := (kernel toyWide toyTwoEnv none).state zeroState

/-- The indices at which the first loop of `proc_free` reads the array `pages`
(line 169, `pages[pit.pa() / PAGESIZE].sharers`, evaluated for every page that the
loop visits before `pit.user()` is tested), in the order of the reads, for the walk
`proc_free_walk` with the same arguments.  The array has `NPAGES` elements
(line 39). -/
def proc_free_walk_reads (K : Config) (pt : Nat) : Nat → Nat → KState → List Nat
  | 0, _, _ => []
  | n + 1, va, s =>
    if va < K.MEMSIZE_VIRTUAL then
      let pit : vmiter := { pt := pt, va := va }
      let shared : Bool := decide ((s.pages (pit.pa K s.mem / K.PAGESIZE)).sharers > 0)
      (pit.pa K s.mem / K.PAGESIZE) ::
        (if pit.user K s.mem = true ∧ shared = false ∧ va ≠ K.console then
          match kfree K (pit.pa K s.mem) s with
          | none => []
          | some s1 => proc_free_walk_reads K pt n (va + K.PAGESIZE + K.PAGESIZE) s1
        else if pit.user K s.mem = true ∧ shared = true ∧ va ≠ K.console then
          let f := pit.pa K s.mem / K.PAGESIZE
          let s1 : KState :=
            { s with pages := upd s.pages f { (s.pages f) with sharers := (s.pages f).sharers - 1 } }
          proc_free_walk_reads K pt n (va + K.PAGESIZE + K.PAGESIZE) s1
        else
          proc_free_walk_reads K pt n (va + K.PAGESIZE + K.PAGESIZE) s)
    else []

/-! ## A program image with a segment of three pages

On the small machine the level-0 page-table page of pages 4 to 7 does not exist yet
when `process_setup` maps page 4 of a new process: the frame after the one it
allocates for page 4 becomes this page-table page.  The frames of a segment that
covers the pages 3, 4 and 5 are therefore not adjacent: 10, 11 and 13, with the
page-table page in frame 12. -/

/-- A program for the small machine with one read-only segment of 96 bytes at
pages 3, 4 and 5.  The initial contents are zero except for the eight-byte values
`e0`, `e1` and `e2` at the offsets 64, 72 and 80, the start of the third page. -/
def badProg (e0 e1 e2 : Nat) : program where
  segments := [
    { va := 96, size := 96, data := pokeQ (fun _ => 0) [(64, e0), (72, e1), (80, e2)],
      data_size := 96, writable := false }]
  entry := 96

/-- The boot environment of the small machine in which every program number loads
`badProg e0 e1 e2`. -/
def badEnv (e0 e1 e2 : Nat) : BootEnv := { toyEnv with programs := fun _ => badProg e0 e1 e2 }

/-- The small machine when process 1 first runs, loaded with `badProg 709 647 709`
(709 names frame 22 read-only, 647 names frame 20 writable, both user-accessible). -/
def sharedBoot : KState := (kernel toy (badEnv 709 647 709) (some "fork")).state zeroState

/-- The state `sharedBoot` after a fork of process 1. -/
def sharedForked : KState := (exception toy (sysregs 5 0) sharedBoot).state zeroState

/-- A program for the small machine with a read-only segment of two pages, the pages
2 and 3, and a writable segment of 20 bytes inside page 5. -/
def toyLongProg : program where
  segments := [
    { va := 64, size := 64, data := fun i => 144 + i % 7, data_size := 40, writable := false },
    { va := 168, size := 20, data := fun i => i % 2, data_size := 8, writable := true }]
  entry := 64

/-- The boot environment of the small machine with the program `toyLongProg`. -/
def toyLongEnv : BootEnv := { toyEnv with programs := fun _ => toyLongProg }

/-- A program for the small machine with two segments on page 2, the first
read-only, the second writable. -/
def toyMixProg : program where
  segments := [
    { va := 64, size := 16, data := fun _ => 0, data_size := 0, writable := false },
    { va := 80, size := 16, data := fun _ => 0, data_size := 0, writable := true }]
  entry := 64

/-- The boot environment of the small machine with the program `toyMixProg`. -/
def toyMixEnv : BootEnv := { toyEnv with programs := fun _ => toyMixProg }

/-- The small machine after `process_setup(1, 0)` of the program `toyMixProg`. -/
def toyMixSetup : KState := (process_setup toy toyMixEnv 1 0 toyInit).getD zeroState

/-- The small machine after `process_setup(1, 4)` of the program
`badProg 709 647 709`. -/
def badSetup : KState := (process_setup toy (badEnv 709 647 709) 1 4 toyInit).getD zeroState

/-- The machine `toyK` with a virtual address space of 16 pages: the pages 11 to 15
are the pages of a process, page 15 is the stack page. -/
def toyGap : Config := { toyK with MEMSIZE_VIRTUAL := 512 }

/-- A program for `toyGap` with one segment of four pages, the pages 11 to 14. -/
def gapProg : program where
  segments := [{ va := 352, size := 128, data := fun _ => 0, data_size := 0, writable := true }]
  entry := 352

/-- The boot environment of `toyGap`. -/
def gapEnv : BootEnv := { toyKEnv with programs := fun _ => gapProg }

/-- The machine `toyGap` before its first `process_setup`. -/
def gapInit : KState := (kernel_init toyGap gapEnv).getD zeroState

/-- The machine `toyGap` after `process_setup(1, 4)`. -/
def gapSetup : KState := (process_setup toyGap gapEnv 1 4 gapInit).getD zeroState

/-! ## Conditions on the constants for the page tables -/

/-- Conditions on the constants under which the four-level page tables work: a
page holds a whole number (at least one) of eight-byte entries whose flag bits
lie below the frame address, physical addresses fit in an entry, the process
address space lies in the lower canonical half, and the console page lies below
`PROC_START_ADDR`. -/
structure Config.Geom (K : Config) : Prop where
  wf : K.WF
  ent : 8 ∣ K.PAGESIZE
  phys64 : K.MEMSIZE_PHYSICAL ≤ 2 ^ 64
  virt_half : K.MEMSIZE_VIRTUAL ≤ K.VA_SPAN / 2
  span64 : K.VA_SPAN ∣ 2 ^ 64
  console_low : K.console < K.PROC_START_ADDR
  console_al : K.console % K.PAGESIZE = 0
  start_al : K.PROC_START_ADDR % K.PAGESIZE = 0
  start_half : K.PROC_START_ADDR < K.VA_SPAN / 2
  console_na : K.allocatable_physical_address K.console = false

/-! ## Page-table trees

The reasoning about page tables uses a typing of the frames by their place in the
trees: a frame is the page-table page of a process at a path of entry indices
from the root, or it is no page-table page. -/

/-- A typing of the frames: `some (p, path)` for the page-table page of process
`p` reached from its root through the entries `path`. -/
abbrev Roles := Nat → Option (Nat × List Nat)

/-- The entry indices that the walk for `va` follows from a table of level `l` down
to the leaf table: those of levels `l`, ..., `1`. -/
def idxs (K : Config) (va : Nat) : Nat → List Nat
  | 0 => []
  | l + 1 => pageindex K va (l + 1) :: idxs K va l

/-- The typing is respected by memory: every present entry of a typed table page
above the leaf level links the table page typed with the extended path; and typed
paths have at most three entries. -/
def TablesOK (K : Config) (m : Nat → Nat) (role : Roles) : Prop :=
  ∀ t p path, role t = some (p, path) →
    path.length ≤ 3 ∧
    ∀ i, i < K.NENT → path.length < 3 →
      hasflag (readQ m (t * K.PAGESIZE + 8 * i)) PTE_P = true →
      role (readQ m (t * K.PAGESIZE + 8 * i) / K.PAGESIZE) = some (p, path ++ [i])

/-- Typed frames are not free: `kalloc` cannot hand them out. -/
def RolesOwned (K : Config) (s : KState) (role : Roles) : Prop :=
  ∀ t, role t ≠ none → ¬ isFreeFrame K s t

/-- What a call of `vm_map` at level `l` on the table page `tbl` of process `p` at
path `path` achieves: `rc` and `s1` are its results from the state `s`, `role1` is
the typing after the call. -/
structure MapPost (K : Config) (p : Nat) (path : List Nat) (l tbl va pa perm : Nat)
    (s : KState) (role : Roles) (rc : Int) (s1 : KState) (role1 : Roles) : Prop where
  rc_cases : rc = 0 ∨ rc = -1
  ptable_eq : s1.ptable = s.ptable
  current_eq : s1.current = s.current
  ticks_eq : s1.ticks = s.ticks
  cursor : cursorOK K s1
  /-- New typed frames were free and lie below the entry for `va`. -/
  role_ext : ∀ t, role1 t = role t ∨
    (role t = none ∧ isFreeFrame K s t ∧ s1.pages t = { owner := -1, sharers := 0 } ∧
      ∃ q, role1 t = some (p, path ++ pageindex K va l :: q))
  pages_eq : ∀ t, role1 t = role t → s1.pages t = s.pages t
  /-- Only the entry for `va` in `tbl` and table pages below it are written. -/
  mem_frame : ∀ a, s1.mem a ≠ s.mem a →
    (tbl + 8 * pageindex K va l ≤ a ∧ a < tbl + 8 * pageindex K va l + 8) ∨
    ∃ q, role1 (a / K.PAGESIZE) = some (p, path ++ pageindex K va l :: q)
  tables : TablesOK K s1.mem role1
  /-- The walk for `va` now ends in the new entry; all other walks are as before. -/
  walk : ∀ va1, vm_walk K s1.mem l tbl va1 =
    if rc = 0 ∧ idxs K va1 l = idxs K va l ∧ pageindex K va1 0 = pageindex K va 0
    then pa + perm else vm_walk K s.mem l tbl va1

/-- The addresses `va` and `vb` are translated by the same leaf entry of a tree. -/
def samePage (K : Config) (va vb : Nat) : Prop :=
  idxs K va 3 = idxs K vb 3 ∧ pageindex K va 0 = pageindex K vb 0

/-- The virtual page number of `va` within the span that a tree translates. -/
def vpn (K : Config) (va : Nat) : Nat := va / K.PAGESIZE % K.NENT ^ 4

/-- The entry is present and user-accessible. -/
def userPresent (e : Nat) : Prop := hasflag e PTE_P = true ∧ hasflag e PTE_U = true

instance (e : Nat) : Decidable (userPresent e) := by unfold userPresent; infer_instance

/-- The leaf entry that the page table of process `p` holds for `va`. -/
def KState.ent (K : Config) (s : KState) (p va : Nat) : Nat :=
  vm_walk K s.mem 3 (s.ptable p).pagetable va

/-- Process `p` is not Free. -/
def KState.live (s : KState) (p : Nat) : Prop := (s.ptable p).state ≠ procstate.P_FREE

instance (s : KState) (p : Nat) : Decidable (s.live p) := by unfold KState.live; infer_instance

/-- Process `p` maps frame `f` user-accessibly on some page other than the console
page. -/
def KState.maps (K : Config) (s : KState) (p f : Nat) : Prop :=
  ∃ va, userPresent (s.ent K p va) ∧ ¬ samePage K va K.console ∧ s.ent K p va / K.PAGESIZE = f

/-- The address space of process `p` is well formed: its root is a typed, aligned
table page; the frames it maps user-accessibly are no page-table pages, they are
allocatable and owned (the console page maps a frame that is not allocatable), and
no frame is mapped user-accessibly on two pages. -/
structure SpaceOK (K : Config) (s : KState) (role : Roles) (p : Nat) : Prop where
  root_role : role ((s.ptable p).pagetable / K.PAGESIZE) = some (p, [])
  root_al : (s.ptable p).pagetable % K.PAGESIZE = 0
  user_untyped : ∀ va, userPresent (s.ent K p va) → role (s.ent K p va / K.PAGESIZE) = none
  user_owned : ∀ va, userPresent (s.ent K p va) → ¬ samePage K va K.console →
    K.allocatable_physical_address (pte_pa K (s.ent K p va)) = true ∧
    (s.pages (s.ent K p va / K.PAGESIZE)).owner ≠ 0
  console_na : ∀ va, userPresent (s.ent K p va) → samePage K va K.console →
    K.allocatable_physical_address (pte_pa K (s.ent K p va)) = false
  inj : ∀ va vb, userPresent (s.ent K p va) → userPresent (s.ent K p vb) →
    ¬ samePage K va K.console → ¬ samePage K vb K.console →
    s.ent K p va / K.PAGESIZE = s.ent K p vb / K.PAGESIZE → samePage K va vb

/-- The invariant of the kernel state, for a typing `role` of the page-table pages. -/
structure Inv (K : Config) (s : KState) (role : Roles) : Prop where
  cursor : cursorOK K s
  tables : TablesOK K s.mem role
  /-- Page-table pages belong to processes that are not Free; they are allocatable,
  owned and not shared. -/
  typed : ∀ t p path, role t = some (p, path) →
    s.live p ∧ K.allocatable_physical_address (t * K.PAGESIZE) = true ∧
    (s.pages t).owner ≠ 0 ∧ (s.pages t).sharers = 0
  spaces : ∀ p, s.live p → p < K.NPROC ∧ SpaceOK K s role p
  /-- A frame mapped by `k` processes has at least `k - 1` sharers. -/
  count : ∀ f, (mappers K s f : Int) ≤ (s.pages f).sharers + 1
  sharers_nonneg : ∀ f, 0 ≤ (s.pages f).sharers
  free_unshared : ∀ f, (s.pages f).owner = 0 → (s.pages f).sharers = 0
  na_clear : ∀ f, K.allocatable_physical_address (f * K.PAGESIZE) = false →
    s.pages f = { owner := 0, sharers := 0 }
  pids : ∀ p, p < K.NPROC → (s.ptable p).pid = p

/-- The states `s1` and `s` have the same memory, frame table and address spaces:
they differ at most in registers, in `current`, in `ticks`, in the cursor, and in
which non-Free state a process is in. -/
def sameSpaces (s s1 : KState) : Prop :=
  s1.mem = s.mem ∧ s1.pages = s.pages ∧
  ∀ p, (s.live p → (s1.ptable p).pagetable = (s.ptable p).pagetable) ∧ (s1.live p ↔ s.live p) ∧
    (s1.ptable p).pid = (s.ptable p).pid

/-- The typing without the page-table pages of process `X`. -/
def dropRoles (role : Roles) (X : Nat) : Roles := fun t =>
  match role t with
  | some (p, path) => if p = X then none else some (p, path)
  | none => none

/-- The state `s` in the first loop of `proc_free(X)` at address `va`, started in
the state `g` with `X` marked Free: frames that `X` maps below `va` may have been
freed (if they had no sharers) or have lost one sharer; memory changed only by
the clearing of freed frames. -/
structure FreeWalk (K : Config) (g : KState) (X va : Nat) (s : KState) : Prop where
  ptable_eq : s.ptable = upd g.ptable X { (g.ptable X) with state := procstate.P_FREE }
  cursor_eq : s.next_alloc_pa = g.next_alloc_pa
  current_eq : s.current = g.current
  pages : ∀ t, s.pages t = g.pages t ∨
    ((∃ vb, vb < va ∧ userPresent (g.ent K X vb) ∧ ¬ samePage K vb K.console ∧
        g.ent K X vb / K.PAGESIZE = t) ∧
      (((g.pages t).sharers = 0 ∧ s.pages t = { (g.pages t) with owner := 0 }) ∨
       (0 < (g.pages t).sharers ∧
          s.pages t = { (g.pages t) with sharers := (g.pages t).sharers - 1 })))
  mem : ∀ a, s.mem a = g.mem a ∨
    (g.maps K X (a / K.PAGESIZE) ∧ (g.pages (a / K.PAGESIZE)).sharers = 0)

/-- The state `s` after `proc_free(X)` from the state `g`: `X` is Free; a frame that
`X` mapped may have been freed (if it had no sharers) or have lost one sharer; the
page-table pages of `X` may have been freed; memory changed only in such frames. -/
structure Freed (K : Config) (g : KState) (role : Roles) (X : Nat) (s : KState) : Prop where
  ptable_eq : s.ptable = upd g.ptable X { (g.ptable X) with state := procstate.P_FREE }
  cursor_eq : s.next_alloc_pa = g.next_alloc_pa
  current_eq : s.current = g.current
  pages : ∀ t, s.pages t = g.pages t ∨
    (g.maps K X t ∧ (g.pages t).sharers = 0 ∧ s.pages t = { (g.pages t) with owner := 0 }) ∨
    (g.maps K X t ∧ 0 < (g.pages t).sharers ∧
      s.pages t = { (g.pages t) with sharers := (g.pages t).sharers - 1 }) ∨
    ((∃ π, role t = some (X, π)) ∧ s.pages t = { (g.pages t) with owner := 0 })
  mem : ∀ a, s.mem a = g.mem a ∨ g.maps K X (a / K.PAGESIZE) ∨
    ∃ π, role (a / K.PAGESIZE) = some (X, π)
  /-- The root and every intermediate page of the tree of `X` are free afterwards. -/
  tables_freed : ∀ x, x = (g.ptable X).pagetable ∨ x ∈ pt_pages K g.mem 3 (g.ptable X).pagetable →
    (s.pages (x / K.PAGESIZE)).owner = 0
  /-- A frame that `X` neither maps nor uses in its tree keeps its entry. -/
  pages_kept : ∀ t, ¬ g.maps K X t → t * K.PAGESIZE ≠ (g.ptable X).pagetable →
    t * K.PAGESIZE ∉ pt_pages K g.mem 3 (g.ptable X).pagetable → s.pages t = g.pages t

/-- The typing with frame `f` as the root table page of process `c`. -/
def addRoot (role : Roles) (f c : Nat) : Roles := fun t => if t = f then some (c, []) else role t

/-- One step of building the address space of process `c`, from state `s` with
typing `role` to `s1` with `role1`: frames that were not free keep their entry of
`pages[]` and their type; new page-table pages belong to `c`; memory is written
only in frames that were free and in page-table pages of `c`. -/
structure Ext (K : Config) (c : Nat) (s : KState) (role : Roles) (s1 : KState) (role1 : Roles) :
    Prop where
  ptable_eq : s1.ptable = s.ptable
  current_eq : s1.current = s.current
  pages_old : ∀ t, ¬ isFreeFrame K s t → s1.pages t = s.pages t
  role_old : ∀ t, ¬ isFreeFrame K s t → role1 t = role t
  role_new : ∀ t, isFreeFrame K s t → role1 t = none ∨ ∃ π, role1 t = some (c, π)
  mem_old : ∀ a, ¬ isFreeFrame K s (a / K.PAGESIZE) →
    (∀ π, role (a / K.PAGESIZE) ≠ some (c, π)) → s1.mem a = s.mem a

/-- The state `s` with process `c` marked as not Free: while `fork` or
`process_setup` builds the address space of `c`, and while `proc_free` takes it
down, its slot is Free; the invariant is stated for this state, in which the
address space under construction counts. -/
def KState.ghost (s : KState) (c : Nat) : KState :=
  { s with ptable := upd s.ptable c { (s.ptable c) with state := procstate.P_BROKEN } }

/-- The state `s` with one more sharer of frame `f`. -/
def bumpSharers (s : KState) (f : Nat) : KState :=
  { s with pages := upd s.pages f { (s.pages f) with sharers := (s.pages f).sharers + 1 } }

/-- The running process of `s` maps frame `t` user-accessibly and not writable on
a page below `va` other than the console page. -/
def sharedBelow (K : Config) (s : KState) (va t : Nat) : Prop :=
  ∃ v, v < va ∧ v % K.PAGESIZE = 0 ∧ v ≠ K.console ∧ userPresent (s.ent K s.current v) ∧
    hasflag (s.ent K s.current v) PTE_W = false ∧ s.ent K s.current v / K.PAGESIZE = t

/-- What the walk of `fork` has done for the page at `v`, from the state `s` before
the call to the state `sk`, for the child `c`. -/
structure ChildPage (K : Config) (s : KState) (c : Nat) (sk : KState) (v : Nat) : Prop where
  copied : userPresent (s.ent K s.current v) → hasflag (s.ent K s.current v) PTE_W = true →
    v ≠ K.console →
    ∃ F, isFreeFrame K s F ∧
      sk.ent K c v = F * K.PAGESIZE + pte_flags K (s.ent K s.current v) ∧
      (sk.pages F).sharers = 0 ∧ (sk.pages F).owner ≠ 0 ∧
      ∀ i, i < K.PAGESIZE → sk.mem (F * K.PAGESIZE + i) = s.mem (pte_pa K (s.ent K s.current v) + i)
  shared : userPresent (s.ent K s.current v) → hasflag (s.ent K s.current v) PTE_W = false →
    v ≠ K.console → sk.ent K c v = s.ent K s.current v
  other : ¬ (userPresent (s.ent K s.current v) ∧ v ≠ K.console) →
    sk.ent K c v = if hasflag (s.ent K s.current v) PTE_P = true then s.ent K s.current v else 0

/-- A state `sk` inside `fork` or `process_setup`, for the state `s` before the call
and the process `c` whose address space is being built: the invariant holds with
`c` counted as not Free; the other processes are as in `s`, and so is the memory of
their page-table pages. -/
structure ForkMid (K : Config) (s : KState) (c cpt : Nat) (sk : KState) (rolek : Roles) :
    Prop where
  inv : Inv K (sk.ghost c) rolek
  current_eq : sk.current = s.current
  ptable_old : ∀ q, q ≠ c → sk.ptable q = s.ptable q
  cstate : (sk.ptable c).state = procstate.P_FREE
  cpid : (sk.ptable c).pid = (s.ptable c).pid
  croot : (sk.ptable c).pagetable = cpt
  others_mem : ∀ a q π, rolek (a / K.PAGESIZE) = some (q, π) → q ≠ c → sk.mem a = s.mem a

/-- The loop invariant of the walk of `fork` at address `va`. -/
structure ForkInv (K : Config) (s : KState) (role : Roles) (c cpt va : Nat) (sk : KState)
    (rolek : Roles) : Prop where
  mid : ForkMid K s c cpt sk rolek
  owner_old : ∀ t, ¬ isFreeFrame K s t → (sk.pages t).owner = (s.pages t).owner
  sharers_hit : ∀ t, ¬ isFreeFrame K s t → sharedBelow K s va t →
    (sk.pages t).sharers = (s.pages t).sharers + 1
  sharers_miss : ∀ t, ¬ isFreeFrame K s t → ¬ sharedBelow K s va t →
    (sk.pages t).sharers = (s.pages t).sharers
  role_old : ∀ t, ¬ isFreeFrame K s t → rolek t = role t
  role_new : ∀ t, isFreeFrame K s t → rolek t = none ∨ ∃ π, rolek t = some (c, π)
  mem_old : ∀ a, ¬ isFreeFrame K s (a / K.PAGESIZE) → sk.mem a = s.mem a
  child_rest : ∀ vb, va / K.PAGESIZE ≤ vpn K vb → sk.ent K c vb = 0
  child_done : ∀ v, v < va → v % K.PAGESIZE = 0 → ChildPage K s c sk v

/-- The state `t` after a successful `fork` of the running process of `s` with the
child `c`: the slot `c` was Free, and `t` is the state `t1` at the end of the walk
with the registers, pid and state of the child filled in. -/
structure ForkEnd (K : Config) (s : KState) (role : Roles) (t : KState) (c : Nat) : Prop where
  child_free : (s.ptable c).state = procstate.P_FREE
  child_pos : 0 < c
  child_lt : c < K.NPROC
  walked : ∃ vb cpt t1 rolef, K.MEMSIZE_VIRTUAL ≤ vb ∧ vb < K.MEMSIZE_VIRTUAL + K.PAGESIZE ∧
    vb % K.PAGESIZE = 0 ∧ ForkInv K s role c cpt vb t1 rolef ∧
    t = t1.setProc c fun p =>
      { p with regs := { (t1.ptable t1.current).regs with reg_rax := 0 }
               pid := c
               state := procstate.P_RUNNABLE }

/-- The state in which `process_setup(pid, program_number)` reaches its copy loop
(line 237): the pages of the image are allocated and mapped, nothing is copied yet;
`none` is a panic or a failed assertion before that. -/
def setup_mapped (K : Config) (E : BootEnv) (pid program_number : Nat) (s : KState) :
    Option KState :=
  let s0 := s.setProc pid fun p => { p with regs := E.init_regs }
  let r := kalloc K K.PAGESIZE s0
  let s1 := r.2.setProc pid fun p => { p with pagetable := r.1 }
  match setup_kernel_loop K r.1 (K.PROC_START_ADDR + 1) 0 s1 with
  | none => none
  | some s2 => setup_alloc K r.1 (E.programs program_number).segments s2

/-- In memory `m` the page table `pt` maps the pages of segment `g` to consecutive
frames: page `k` of the segment lies `k` pages after its first page (the first bound
on `k` below follows from the last one; it makes the property decidable).  The copy
loop of `process_setup` (lines 238-242) relies on this: it clears and fills `size`
bytes from the physical address of the first byte of the segment. -/
def copyFits (K : Config) (m : Nat → Nat) (pt : Nat) (g : segment) : Prop :=
  ∀ k, k < g.va % K.PAGESIZE + g.size → 0 < k → k * K.PAGESIZE < g.va % K.PAGESIZE + g.size →
    ({ pt := pt, va := g.va / K.PAGESIZE * K.PAGESIZE + k * K.PAGESIZE } : vmiter).pa K m =
      ({ pt := pt, va := g.va / K.PAGESIZE * K.PAGESIZE } : vmiter).pa K m + k * K.PAGESIZE

instance (K : Config) (m : Nat → Nat) (pt : Nat) (g : segment) : Decidable (copyFits K m pt g) := by
  unfold copyFits; infer_instance

/-- In `process_setup(pid, program_number)` from state `s`, the copy loop finds the
pages of every segment of the image in consecutive frames. -/
def setupFits (K : Config) (E : BootEnv) (pid program_number : Nat) (s : KState) : Prop :=
  ∀ t ∈ setup_mapped K E pid program_number s,
    ∀ g ∈ (E.programs program_number).segments, copyFits K t.mem (t.ptable pid).pagetable g

instance (K : Config) (E : BootEnv) (pid program_number : Nat) (s : KState) :
    Decidable (setupFits K E pid program_number s) := by
  unfold setupFits; infer_instance

/-- The same for the `n` calls of `process_setup` that `kernel` makes for the default
processes from `i` on (lines 89-91). -/
def defaultFits (K : Config) (E : BootEnv) : Nat → Nat → KState → Prop
  | 0, _, _ => True
  | n + 1, i, s =>
    setupFits K E i (i - 1) s ∧ ∀ s1 ∈ process_setup K E i (i - 1) s, defaultFits K E n (i + 1) s1

instance defaultFits.decide (K : Config) (E : BootEnv) :
    ∀ (n i : Nat) (s : KState), Decidable (defaultFits K E n i s)
  | 0, _, _ => isTrue trivial
  | n + 1, i, s =>
    @instDecidableAnd _ _ _
      (@Option.decidableForallMem _ _ (fun s1 => defaultFits.decide K E n (i + 1) s1) _)

/-- In every call of `process_setup` that `kernel(command)` makes, the copy loop finds
the pages of every segment of the image in consecutive frames. -/
def bootFits (K : Config) (E : BootEnv) (command : Option String) : Prop :=
  ∀ s ∈ kernel_init K E,
    if command = some "fork" then setupFits K E 1 4 s
    else if command = some "forkexit" then setupFits K E 1 5 s
    else defaultFits K E 4 1 s

instance (K : Config) (E : BootEnv) (command : Option String) :
    Decidable (bootFits K E command) := by
  unfold bootFits; infer_instance

/-- Modelled from the spec: what the kernel relies on at boot from `init_hardware`
(absent `k-hardware.cc`) and from the program loader.  The globals are cleared:
`pages[]` is all free, no process slot beyond `ptable` is in use.  The kernel page
table is a tree of table pages in frames that are not allocatable (`rolek` types
it, with `NPROC` as the owner tag); it maps every page below `PROC_START_ADDR`; if
its console entry is user-accessible, it names a frame that is not allocatable.
The stack page lies above `PROC_START_ADDR`; `ptable` has a slot for every process
that `kernel` sets up.  Every segment of a program lies between `PROC_START_ADDR`
and `MEMSIZE_VIRTUAL`, and its initial data fits in it.  The copy loop of
`process_setup` finds every segment in consecutive physical addresses (`fits`): the
frames that its pages got are consecutive. -/
structure BootOK (K : Config) (E : BootEnv) (command : Option String) : Prop where
  virt_al : K.MEMSIZE_VIRTUAL % K.PAGESIZE = 0
  virt_stack : K.PROC_START_ADDR + K.PAGESIZE ≤ K.MEMSIZE_VIRTUAL
  nproc : if command = some "fork" ∨ command = some "forkexit" then 1 < K.NPROC else 4 < K.NPROC
  pages_clear : ∀ f, E.hw.pages f = { owner := 0, sharers := 0 }
  cursor : cursorOK K E.hw
  procs_free : ∀ p, K.NPROC ≤ p → (E.hw.ptable p).state = procstate.P_FREE
  ktree : ∃ rolek : Roles, TablesOK K E.hw.mem rolek ∧
    rolek (K.kernel_pagetable / K.PAGESIZE) = some (K.NPROC, []) ∧
    ∀ t, rolek t ≠ none → K.allocatable_physical_address (t * K.PAGESIZE) = false
  kpt_al : K.kernel_pagetable % K.PAGESIZE = 0
  kmapped : ∀ va, va % K.PAGESIZE = 0 → va < K.PROC_START_ADDR →
    hasflag (vm_walk K E.hw.mem 3 K.kernel_pagetable va) PTE_P = true
  console_frame : userPresent (vm_walk K E.hw.mem 3 K.kernel_pagetable K.console) →
    K.allocatable_physical_address
      (pte_pa K (vm_walk K E.hw.mem 3 K.kernel_pagetable K.console)) = false
  segments : ∀ n g, g ∈ (E.programs n).segments →
    K.PROC_START_ADDR ≤ g.va ∧ g.va + g.size ≤ K.MEMSIZE_VIRTUAL ∧ g.data_size ≤ g.size
  fits : bootFits K E command

/-- What the processes see of the kernel page table in memory `m`: it is a tree of
table pages in frames that are not allocatable, and below `PROC_START_ADDR` only
its console entry can be user-accessible, naming a frame that is not
allocatable. -/
structure KView (K : Config) (m : Nat → Nat) (rolek : Roles) : Prop where
  tables : TablesOK K m rolek
  root : rolek (K.kernel_pagetable / K.PAGESIZE) = some (K.NPROC, [])
  root_al : K.kernel_pagetable % K.PAGESIZE = 0
  na : ∀ t, rolek t ≠ none → K.allocatable_physical_address (t * K.PAGESIZE) = false
  entries : ∀ va, va % K.PAGESIZE = 0 → va < K.PROC_START_ADDR →
    userPresent (vm_walk K m 3 K.kernel_pagetable va) →
    va = K.console ∧
    K.allocatable_physical_address (pte_pa K (vm_walk K m 3 K.kernel_pagetable va)) = false

/-- A state `sk` inside `process_setup` for process `c`, started in state `s`. -/
structure SetupInv (K : Config) (s : KState) (c cpt : Nat) (rolek : Roles) (sk : KState)
    (role1 : Roles) : Prop where
  mid : ForkMid K s c cpt sk role1
  kview : KView K sk.mem rolek

/-- No frame is free (and the cursor is well formed). -/
def NoFree (K : Config) (s : KState) : Prop := cursorOK K s ∧ ∀ g, ¬ isFreeFrame K s g

/-- The invariant of the states in which a process runs: the invariant of the
kernel state holds for some typing, and the running process is Runnable. -/
def GInv (K : Config) (s : KState) : Prop :=
  (∃ role, Inv K s role) ∧ (s.ptable s.current).state = procstate.P_RUNNABLE

/-! ## The properties claimed of `PageAlloc`, of the rest of `fork` and of `proc_free` -/

/-- After `proc_free(pid)`, from `s` to `t`: the process is Free, and the root and
every intermediate page of its page-table tree are free frames. -/
def procFreeTables (K : Config) (s t : KState) (pid : Nat) : Prop :=
  (t.ptable pid).state = procstate.P_FREE ∧
  (t.pages ((s.ptable pid).pagetable / K.PAGESIZE)).owner = 0 ∧
  ∀ x ∈ pt_pages K s.mem 3 (s.ptable pid).pagetable, (t.pages (x / K.PAGESIZE)).owner = 0

/-- The frames that process `pid` maps present and without user access have the
same owner and sharers count in `t` as in `s`. -/
def procFreeKeepsKernel (K : Config) (s t : KState) (pid : Nat) : Prop :=
  ∀ va, va % K.PAGESIZE = 0 →
    ({ pt := (s.ptable pid).pagetable, va := va } : vmiter).present K s.mem = true →
    ({ pt := (s.ptable pid).pagetable, va := va } : vmiter).user K s.mem = false →
    t.pages (({ pt := (s.ptable pid).pagetable, va := va } : vmiter).pa K s.mem / K.PAGESIZE) =
      s.pages (({ pt := (s.ptable pid).pagetable, va := va } : vmiter).pa K s.mem / K.PAGESIZE)

/-- The frames whose `pages[]` entry `proc_free(pid)` leaves alone: every frame
that is no page of the page-table tree of `pid` and that `pid` does not map
user-accessibly (console page excluded); among them the console frame. -/
def procFreeKeeps (K : Config) (s t : KState) (pid : Nat) : Prop :=
  (∀ g, g * K.PAGESIZE ≠ (s.ptable pid).pagetable →
    g * K.PAGESIZE ∉ pt_pages K s.mem 3 (s.ptable pid).pagetable →
    ¬ userMaps K s pid g → t.pages g = s.pages g) ∧
  t.pages (K.console / K.PAGESIZE) = s.pages (K.console / K.PAGESIZE)

/-! ## The steps of `process_setup` -/

/-- From the state `sk` to the state `t` inside `process_setup`: the process table is
the same, frames that were not free keep their entry of `pages[]`, and the kernel
page table translates every address as before. -/
structure Kept (K : Config) (sk t : KState) : Prop where
  ptable_eq : t.ptable = sk.ptable
  pages_old : ∀ f, ¬ isFreeFrame K sk f → t.pages f = sk.pages f
  kwalk : ∀ va, vm_walk K t.mem 3 K.kernel_pagetable va = vm_walk K sk.mem 3 K.kernel_pagetable va

/-- The leaf entry that `map(pa(), perm())` stores for the leaf entry `e`. -/
def copyEntry (e : Nat) : Nat := if hasflag e PTE_P = true then e else 0

/-- The permissions with which the pages of a segment are mapped. -/
def segPerm (writable : Bool) : Nat :=
  if writable = true then PTE_P + PTE_W + PTE_U else PTE_P + PTE_U

/-- The segments `x` and `y` have no page in common: the pages that the loop of
lines 217-233 maps for one of them end before the pages of the other begin. -/
def segApart (K : Config) (x y : segment) : Prop :=
  (x.va + x.size + K.PAGESIZE - 1) / K.PAGESIZE ≤ y.va / K.PAGESIZE ∨
  (y.va + y.size + K.PAGESIZE - 1) / K.PAGESIZE ≤ x.va / K.PAGESIZE

instance (K : Config) (x y : segment) : Decidable (segApart K x y) := by
  unfold segApart; infer_instance

/-- At least `n` frames are free. -/
def FreeN (K : Config) (s : KState) (n : Nat) : Prop :=
  ∃ L : List Nat, L.Nodup ∧ n ≤ L.length ∧ ∀ g ∈ L, isFreeFrame K s g

/-! ## The properties claimed of `process_setup` -/

/-- In the state `t`, process `c` has the mapping of the kernel page table at every
page-aligned address below `PROC_START_ADDR`: present or not, and if present the
same physical address and the same permissions. -/
def setupCopiesKernel (K : Config) (t : KState) (c : Nat) : Prop :=
  ∀ va, va % K.PAGESIZE = 0 → va < K.PROC_START_ADDR →
    ({ pt := (t.ptable c).pagetable, va := va } : vmiter).present K t.mem =
      ({ pt := K.kernel_pagetable, va := va } : vmiter).present K t.mem ∧
    ({ pt := (t.ptable c).pagetable, va := va } : vmiter).pa K t.mem =
      ({ pt := K.kernel_pagetable, va := va } : vmiter).pa K t.mem ∧
    ({ pt := (t.ptable c).pagetable, va := va } : vmiter).perm K t.mem =
      ({ pt := K.kernel_pagetable, va := va } : vmiter).perm K t.mem

/-- From `s` to `t`, the frames that process `c` maps at the page-aligned addresses
below `PROC_START_ADDR` have kept owner and sharers count. -/
def setupKeepsKernelFrames (K : Config) (s t : KState) (c : Nat) : Prop :=
  ∀ va, va % K.PAGESIZE = 0 → va < K.PROC_START_ADDR →
    ({ pt := (t.ptable c).pagetable, va := va } : vmiter).present K t.mem = true →
    t.pages (({ pt := (t.ptable c).pagetable, va := va } : vmiter).pa K t.mem / K.PAGESIZE) =
      s.pages (({ pt := (t.ptable c).pagetable, va := va } : vmiter).pa K t.mem / K.PAGESIZE)

/-! ## Address spaces across a step -/

/-- The address space of process `q` is in `t` what it is in `s`: the same root
table page, the same leaf entry for every address, the same page-table pages. -/
structure Still (K : Config) (s t : KState) (q : Nat) : Prop where
  root : (t.ptable q).pagetable = (s.ptable q).pagetable
  ent : ∀ va, t.ent K q va = s.ent K q va
  tables : ∀ x, x ∈ pt_pages K t.mem 3 (t.ptable q).pagetable ↔
    x ∈ pt_pages K s.mem 3 (s.ptable q).pagetable

/-- From `s` to `t` every process that is not Free in `s` keeps its descriptor and
its address space. -/
def Calm (K : Config) (s t : KState) : Prop :=
  ∀ q, s.live q → t.ptable q = s.ptable q ∧ Still K s t q

/-- From `s` to `t` memory, the frame table, the root tables and which processes are
Free stay the same; so does the state of every process other than `x`. -/
structure Alike (s t : KState) (x : Nat) : Prop where
  mem_eq : t.mem = s.mem
  pages_eq : t.pages = s.pages
  root : ∀ q, (t.ptable q).pagetable = (s.ptable q).pagetable
  live : ∀ q, t.live q ↔ s.live q
  state : ∀ q, q ≠ x → (t.ptable q).state = (s.ptable q).state

/-- The user-accessible mappings of the child `c` after a fork of the running process
of `s`, console page apart: each lies on a page that the parent maps
user-accessibly, and either names a frame that was free before the fork or is the
parent's entry, which is not writable. -/
def childFresh (K : Config) (s t : KState) (c : Nat) : Prop :=
  ∀ va, userPresent (t.ent K c va) → ¬ samePage K va K.console →
    userPresent (s.ent K s.current va) ∧
    (isFreeFrame K s (t.ent K c va / K.PAGESIZE) ∨
      (t.ent K c va = s.ent K s.current va ∧ hasflag (s.ent K s.current va) PTE_W = false))

/-- The running process of `s` has one new mapping in `t`: the page of `addr`,
above `PROC_START_ADDR`, is mapped present, writable and user-accessible to a frame
that was free in `s`; its other entries are as in `s`. -/
def oneFresh (K : Config) (s t : KState) : Prop :=
  ∃ addr F, K.PROC_START_ADDR < addr ∧ addr % K.PAGESIZE = 0 ∧ va_is_canonical K addr = true ∧
    isFreeFrame K s F ∧
    (∀ va, samePage K va addr →
      t.ent K s.current va = F * K.PAGESIZE + (PTE_P + PTE_W + PTE_U)) ∧
    (∀ va, ¬ samePage K va addr → t.ent K s.current va = s.ent K s.current va)

/-- How the address spaces change from a running state `s` to the next running state
`t`.  The processes other than the running process of `s` keep their state and their
address space.  The running process keeps its address space, or it has become Free
(`Exit`), or it has one new page (`PageAlloc`), or it has a child (`Fork`). -/
structure Next (K : Config) (s t : KState) : Prop where
  others : ∀ q, s.live q → q ≠ s.current →
    (t.ptable q).state = (s.ptable q).state ∧ Still K s t q
  self :
    (Still K s t s.current ∧ t.live s.current ∧ ∀ q, t.live q → s.live q) ∨
    (¬ t.live s.current ∧ ∀ q, t.live q → s.live q) ∨
    (t.live s.current ∧ (∀ q, t.live q → s.live q) ∧ oneFresh K s t) ∨
    (Still K s t s.current ∧ t.live s.current ∧
      ∃ c, ¬ s.live c ∧ (∀ q, t.live q → q = c ∨ s.live q) ∧ childFresh K s t c)

/-- What the process table of a running kernel satisfies: every descriptor carries
its index as pid, slot 0 is Free, and the current process is a Runnable process of
the table. -/
structure Slots (K : Config) (s : KState) : Prop where
  pids : ∀ i, i < K.NPROC → (s.ptable i).pid = i
  zero : (s.ptable 0).state = procstate.P_FREE
  run : (s.ptable s.current).state = procstate.P_RUNNABLE
  cur : s.current < K.NPROC

/-! ## Counting the page-table pages of an address space -/

/-- The number of page-table pages that `vm_map`, called on the table page `tbl` of
level `l` with permissions other than 0, allocates for `va` in memory `m`: the
levels below the first entry on the way to the leaf entry that is not present. -/
def missing (K : Config) (m : Nat → Nat) : Nat → Nat → Nat → Nat
  | 0, _, _ => 0
  | l + 1, tbl, va =>
    if hasflag (readQ m (tbl + 8 * pageindex K va (l + 1))) PTE_P = true then
      missing K m l (pte_pa K (readQ m (tbl + 8 * pageindex K va (l + 1)))) va
    else l + 1

/-- The number of virtual pages below `MEMSIZE_VIRTUAL`. -/
def Config.VPAGES (K : Config) : Nat := K.MEMSIZE_VIRTUAL / K.PAGESIZE

/-- The number of page-table pages of level `j - 1` that an address space needs at
most for the pages below `MEMSIZE_VIRTUAL`: one for every `NENT ^ j` pages. -/
def Config.regions (K : Config) (j : Nat) : Nat := (K.VPAGES + K.NENT ^ j - 1) / K.NENT ^ j

/-- The number of page-table pages below the root that an address space needs at
most for the pages below `MEMSIZE_VIRTUAL`: the leaf tables and the tables of the two
levels above them (4 with the constants of the handout: two leaf tables, one table
on each of the other levels). -/
def Config.TABLES (K : Config) : Nat := K.regions 1 + K.regions 2 + K.regions 3

/-- The tree rooted at `pt` has no entry for any of the pages below `MEMSIZE_VIRTUAL`
whose page number divided by `NENT ^ j` is `r`: the pages that share table page `r`
of level `j - 1`. -/
def regionEmpty (K : Config) (m : Nat → Nat) (pt j r : Nat) : Prop :=
  ∀ v, v < K.VPAGES → v / K.NENT ^ j = r → vm_walk K m 3 pt (v * K.PAGESIZE) = 0

instance (K : Config) (m : Nat → Nat) (pt j r : Nat) : Decidable (regionEmpty K m pt j r) := by
  unfold regionEmpty; infer_instance

/-- The number of table pages of level `j - 1` that the tree rooted at `pt` can still
need. -/
def regionsLeft (K : Config) (m : Nat → Nat) (pt j : Nat) : Nat :=
  (List.range (K.regions j)).countP fun r => decide (regionEmpty K m pt j r)

/-- The number of page-table pages below the root that the tree rooted at `pt` can
still need for pages below `MEMSIZE_VIRTUAL`. -/
def tablesLeft (K : Config) (m : Nat → Nat) (pt : Nat) : Nat :=
  regionsLeft K m pt 1 + regionsLeft K m pt 2 + regionsLeft K m pt 3

/-- Whether the tree rooted at `pt` has no entry yet in the region of level `j` in
which `va` lies (1 if so, else 0). -/
def emptyAt (K : Config) (m : Nat → Nat) (pt j va : Nat) : Nat :=
  if regionEmpty K m pt j (va / K.PAGESIZE / K.NENT ^ j) then 1 else 0

/-- The number of levels on which the region of `va` has no entry yet. -/
def emptiesAt (K : Config) (m : Nat → Nat) (pt va : Nat) : Nat :=
  emptyAt K m pt 1 va + emptyAt K m pt 2 va + emptyAt K m pt 3 va

/-- The number of pages that the loop of lines 217-233 maps for segment `g`. -/
def segPages (K : Config) (g : segment) : Nat :=
  (g.va % K.PAGESIZE + g.size + K.PAGESIZE - 1) / K.PAGESIZE

/-- The number of frames that `process_setup` takes at most for the program `prog`:
one for the root table, the page-table pages below it, one for every page of every
segment and one for the stack page. -/
def setupFrames (K : Config) (prog : program) : Nat :=
  1 + K.TABLES + (prog.segments.map (segPages K)).sum + 1

/-! ## A program image below `PROC_START_ADDR` -/

/-- A program for the small machine with a writable segment of 8 bytes at address 0,
below `PROC_START_ADDR`. -/
def toyLowProg : program where
  segments := [{ va := 0, size := 8, data := fun _ => 0, data_size := 0, writable := true }]
  entry := 0

/-- The boot environment of the small machine with the program `toyLowProg`. -/
def toyLowEnv : BootEnv := { toyEnv with programs := fun _ => toyLowProg }

/-- The small machine after `process_setup(1, 0)` of the program `toyLowProg`. -/
def toyLowSetup : KState := (process_setup toy toyLowEnv 1 0 toyInit).getD zeroState

end Weensy

/-! ## Debugging allocator (`pset1/m61.cc`): the overflow check of `m61_calloc`

Values of `size_t` are natural numbers below `2 ^ 64`; arithmetic on them wraps.
`m61.hh` and the base allocator are not among the sources: the size of `metadata`
and the function `base_malloc` are parameters.  The model keeps the returned pointer
and the statistics; the allocation list, the trailing byte, the heavy-hitter vector
and the contents of the payload do not influence either and are left out. -/

namespace M61

/-- Subtraction of `size_t` values, which wraps modulo `2 ^ 64`. -/
def subw (a b : Nat) : Nat := (a + (2 ^ 64 - b % 2 ^ 64)) % 2 ^ 64

/-- `overflowed(a, b)` (lines 27-30): `prod` is the wrapped product, the result is
`prod / a != b`.  `none` stands for undefined behaviour, the division by `a == 0`. -/
def overflowed (a b : Nat) : Option Bool :=
  let prod := (a * b) % 2 ^ 64
  if a = 0 then none else some (decide (prod / a ≠ b))

/-- The fields of `m61_statistics` that `gstats` carries (line 12). -/
structure m61_statistics where
  nactive : Nat
  active_size : Nat
  ntotal : Nat
  total_size : Nat
  nfail : Nat
  fail_size : Nat
  heap_min : Nat
  heap_max : Nat

/-- What `m61.cc` takes from its surroundings: `sizeof(metadata)` and the pointer
that `base_malloc` returns for a size. -/
structure Env where
  sizeof_metadata : Nat
  base_malloc : Nat → Nat

/-- `m61_malloc(sz, file, line)` (lines 64-119): the returned pointer (`0` is
`nullptr`) and the new statistics.  `none` is undefined behaviour: the store through
`metaptr` when `base_malloc` returned `nullptr`. -/
def m61_malloc (E : Env) (g : m61_statistics) (sz : Nat) : Option (Nat × m61_statistics) :=
  if sz ≥ subw (subw (subw (2 ^ 64 - 1) 1024) g.active_size) E.sizeof_metadata then
    some (0, { g with nfail := g.nfail + 1, fail_size := g.fail_size + sz })
  else
    let metaptr := E.base_malloc ((sz + E.sizeof_metadata + 8 + 8) % 2 ^ 64)
    if metaptr = 0 then none
    else
      let ptr := metaptr + E.sizeof_metadata
      let g1 : m61_statistics :=
        { g with nactive := g.nactive + 1, active_size := g.active_size + sz,
                 ntotal := g.ntotal + 1, total_size := g.total_size + sz }
      let g2 : m61_statistics :=
        if ptr < g1.heap_min ∨ g1.heap_min = 0 then { g1 with heap_min := ptr } else g1
      let g3 : m61_statistics :=
        if ptr + sz > g2.heap_max ∨ g2.heap_min = 0 then { g2 with heap_max := ptr + sz } else g2
      some (ptr, g3)

/-- `m61_calloc(nmemb, sz, file, line)` (lines 213-226): the returned pointer and the
new statistics; `none` is undefined behaviour. -/
def m61_calloc (E : Env) (g : m61_statistics) (nmemb sz : Nat) :
    Option (Nat × m61_statistics) :=
  match overflowed nmemb sz with
  | none => none
  | some true => some (0, { g with nfail := g.nfail + 1 })
  | some false => m61_malloc E g ((nmemb * sz) % 2 ^ 64)

/-- The statistics at program start (line 12). -/
def gstats0 : m61_statistics :=
  { nactive := 0, active_size := 0, ntotal := 0, total_size := 0, nfail := 0, fail_size := 0,
    heap_min := 0, heap_max := 0 }

/-- An environment for examples: `metadata` has 56 bytes, `base_malloc` returns the
address 4096. -/
def env0 : Env := { sizeof_metadata := 56, base_malloc := fun _ => 4096 }

end M61

/-! ## Buffered I/O (`pset3/io61.cc`): the cache positions across `io61_seek`

Values of `off_t` are integers; the conversion to `int` at line 207 wraps to 32
bits.  The file descriptor is represented by the file behind it, which each
function takes and returns next to the `io61_file`.  A failed assertion is `none`. -/

namespace Io61

/-- `BUFSIZE` (line 7). -/
def BUFSIZE : Int := 4096

/-- The open mode `O_RDONLY` of `fcntl.h`. -/
def O_RDONLY : Nat := 0

/-- The open mode `O_WRONLY` of `fcntl.h`. -/
def O_WRONLY : Nat := 1

/-- Conversion of an integer to `int` (32 bits, two's complement). -/
def wrap32 (x : Int) : Int := (x + 2 ^ 31) % 2 ^ 32 - 2 ^ 31

/-- Modelled from the spec: the seekable regular file behind a file descriptor, with
its bytes and the file offset of the descriptor (POSIX). -/
structure OsFile where
  data : List Nat
  off : Nat

/-- Modelled from the spec: the POSIX call `read(fd, buf, n)` on a regular file
returns the up to `n` bytes that follow the file offset and advances the offset by
their number; at or beyond the end of the file it returns no bytes. -/
def sys_read (w : OsFile) (n : Nat) : OsFile × List Nat :=
  ({ w with off := w.off + ((w.data.drop w.off).take n).length }, (w.data.drop w.off).take n)

/-- Modelled from the spec: the POSIX call `lseek(fd, pos, SEEK_SET)` on a regular
file sets the file offset to `pos` and returns `pos`, also beyond the end of the
file; a negative `pos` is refused with `-1`. -/
def sys_lseek (w : OsFile) (pos : Int) : OsFile × Int :=
  if pos < 0 then (w, -1) else ({ w with off := pos.toNat }, pos)

/-- Modelled from the spec: the POSIX call `write(fd, buf, n)` on a regular file
stores the bytes at the file offset, after filling a gap between the end of the file
and the offset with zeros, advances the offset and returns `n`; for `n == 0` it does
nothing. -/
def sys_write (w : OsFile) (bytes : List Nat) : OsFile × Int :=
  if bytes = [] then (w, 0)
  else
    ({ data := (w.data ++ List.replicate (w.off - w.data.length) 0).take w.off ++ bytes ++
               w.data.drop (w.off + bytes.length),
       off := w.off + bytes.length }, bytes.length)

/-- The fields of `struct io61_file` (lines 9-18) without `fd`. -/
structure io61_file where
  bufsize : Int
  cbuf : Nat → Nat
  tag : Int
  end_tag : Int
  pos_tag : Int
  mode : Nat
  is_dirty : Bool

/-- The two invariant assertions (lines 42-43, 54-55, 101-102, 156-157, 192-193). -/
def invariant (f : io61_file) : Prop :=
  (f.tag ≤ f.pos_tag ∧ f.pos_tag ≤ f.end_tag) ∧ f.end_tag - f.pos_tag ≤ f.bufsize

instance (f : io61_file) : Decidable (invariant f) := by
  unfold invariant; infer_instance

/-- `io61_fill(f)` (lines 39-56). -/
def io61_fill (w : OsFile) (f : io61_file) : Option (OsFile × io61_file) :=
  if ¬ invariant f then none
  else
    let f1 : io61_file := { f with tag := f.end_tag, pos_tag := f.end_tag }
    let r := sys_read w f1.bufsize.toNat
    let n : Int := r.2.length
    let f2 : io61_file :=
      if n ≥ 0 then
        { f1 with cbuf := fun i => if i < r.2.length then r.2.getD i 0 else f1.cbuf i,
                  end_tag := f1.tag + n }
      else f1
    if ¬ invariant f2 then none else some (r.1, f2)

/-- The loop of `io61_read` (lines 106-127) with `k` iterations left; `pos` bytes of
the `sz` requested are in `acc`. -/
def io61_read_loop : Nat → OsFile → io61_file → Nat → Nat → List Nat →
    Option (OsFile × io61_file × List Nat)
  | 0, w, f, _, _, acc => some (w, f, acc)
  | k + 1, w, f, pos, sz, acc =>
    if ¬ pos < sz then some (w, f, acc)
    else
      match (if f.pos_tag = f.end_tag then io61_fill w f else some (w, f)) with
      | none => none
      | some (w1, f1) =>
        if f.pos_tag = f.end_tag ∧ f1.pos_tag = f1.end_tag then some (w1, f1, acc)
        else
          let ch : Int :=
            if ((sz - pos : Nat) : Int) < f1.end_tag - f1.pos_tag then ((sz - pos : Nat) : Int)
            else f1.end_tag - f1.pos_tag
          io61_read_loop k w1 { f1 with pos_tag := f1.pos_tag + ch } (pos + ch.toNat) sz
            (acc ++ (List.range ch.toNat).map fun i => f1.cbuf ((f1.pos_tag - f1.tag).toNat + i))

/-- `io61_read(f, buf, sz)` (lines 99-129): the bytes stored into `buf`; their number
is the return value.  Every iteration of the loop that does not leave it copies at
least one byte, so `sz` iterations suffice. -/
def io61_read (w : OsFile) (f : io61_file) (sz : Nat) : Option (OsFile × io61_file × List Nat) :=
  if ¬ invariant f then none else io61_read_loop sz w f 0 sz []

/-- `io61_flush(f)` (lines 190-199), with the value of `write` as the result. -/
def io61_flush (w : OsFile) (f : io61_file) : Option (OsFile × io61_file × Int) :=
  if ¬ invariant f then none
  else
    let r := sys_write w ((List.range (f.pos_tag - f.tag).toNat).map f.cbuf)
    some (r.1, { f with tag := f.pos_tag, is_dirty := false }, r.2)

/-- `io61_writec(f, ch)` (lines 136-146).  A store outside `cbuf` is undefined
behaviour (`none`). -/
def io61_writec (w : OsFile) (f : io61_file) (ch : Nat) : Option (OsFile × io61_file × Int) :=
  match (if f.end_tag = f.tag + f.bufsize then (io61_flush w f).map fun r => (r.1, r.2.1)
         else some (w, f)) with
  | none => none
  | some (w1, f1) =>
    if f1.pos_tag - f1.tag < 0 ∨ BUFSIZE ≤ f1.pos_tag - f1.tag then none
    else
      some (w1, { f1 with cbuf := fun j => if j = (f1.pos_tag - f1.tag).toNat then ch % 256
                                           else f1.cbuf j,
                          pos_tag := f1.pos_tag + 1, end_tag := f1.end_tag + 1 }, 0)

/-- The loop of `io61_write` (lines 164-180) with `k` iterations left; `buf` holds the
bytes not yet taken, `pos` counts the bytes taken. -/
def io61_write_loop : Nat → OsFile → io61_file → List Nat → Nat →
    Option (OsFile × io61_file × Nat)
  | 0, w, f, _, pos => some (w, f, pos)
  | k + 1, w, f, buf, pos =>
    if buf = [] then some (w, f, pos)
    else
      match (if f.end_tag = f.tag + f.bufsize then (io61_flush w f).map fun r => (r.1, r.2.1)
             else some (w, f)) with
      | none => none
      | some (w1, f1) =>
        let room : Int := f1.bufsize - f1.pos_tag + f1.tag
        if room < 0 ∨ f1.pos_tag - f1.tag < 0 ∨ BUFSIZE < f1.pos_tag - f1.tag + room then none
        else
          let ch : Nat := if (buf.length : Int) < room then buf.length else room.toNat
          io61_write_loop k w1
            { f1 with cbuf := fun j =>
                        if (f1.pos_tag - f1.tag).toNat ≤ j ∧ j < (f1.pos_tag - f1.tag).toNat + ch
                        then buf.getD (j - (f1.pos_tag - f1.tag).toNat) 0 else f1.cbuf j,
                      pos_tag := f1.pos_tag + ch, end_tag := f1.end_tag + ch,
                      is_dirty := true }
            (buf.drop ch) (pos + ch)

/-- `io61_write(f, buf, sz)` (lines 154-182): the number of bytes taken.  A copy of a
negative number of bytes or beyond `cbuf` is undefined behaviour (`none`). -/
def io61_write (w : OsFile) (f : io61_file) (buf : List Nat) : Option (OsFile × io61_file × Nat) :=
  if ¬ invariant f then none
  else if f.pos_tag ≠ f.end_tag then none
  else io61_write_loop (buf.length + 1) w f buf 0

/-- `io61_seek(f, pos)` (lines 206-239). -/
def io61_seek (w : OsFile) (f : io61_file) (pos : Int) : Option (OsFile × io61_file × Int) :=
  if f.mode = O_WRONLY then
    match (if f.is_dirty = true then (io61_flush w f).map fun r => (r.1, r.2.1)
           else some (w, f)) with
    | none => none
    | some (w1, f1) =>
      if (sys_lseek w1 pos).2 = pos then
        some ((sys_lseek w1 pos).1, { f1 with pos_tag := pos, end_tag := pos, tag := pos }, 0)
      else some ((sys_lseek w1 pos).1, f1, -1)
  else
    if pos ≥ f.tag ∧ pos ≤ f.end_tag then some (w, { f with pos_tag := pos }, 0)
    else
      let aligned_pos := wrap32 (wrap32 pos - Int.tmod pos BUFSIZE)
      match io61_fill (sys_lseek w aligned_pos).1
          { f with end_tag := aligned_pos, pos_tag := aligned_pos, tag := aligned_pos } with
      | none => none
      | some (w2, f2) => some (w2, { f2 with pos_tag := pos }, 0)

/-- A file of ten bytes, offset at the start. -/
def tenBytes : OsFile := { data := [1, 2, 3, 4, 5, 6, 7, 8, 9, 10], off := 0 }

/-- An empty file, offset at the start. -/
def emptyFile : OsFile := { data := [], off := 0 }

/-- A read cache that has just been opened: empty, at offset 0. -/
def freshReader : io61_file :=
  { bufsize := BUFSIZE, cbuf := fun _ => 0, tag := 0, end_tag := 0, pos_tag := 0,
    mode := O_RDONLY, is_dirty := false }

/-- A write cache that has just been opened: empty and clean, at offset 0. -/
def freshWriter : io61_file :=
  { bufsize := BUFSIZE, cbuf := fun _ => 0, tag := 0, end_tag := 0, pos_tag := 0,
    mode := O_WRONLY, is_dirty := false }

end Io61

/-! ## Pong board (`pset6/pongboard.hh`): one move of a ball

Balls are objects outside the board that the cells point to; the model keeps them in
a heap indexed by their address.  Coordinates and directions are integers (the games
use directions of absolute value at most 1, for which `int` arithmetic does not
overflow).  The locks taken by `move` do not change what one call computes and are
left out. -/

namespace Pong

/-- The cell types (lines 10-15). -/
inductive pong_celltype where
  | cell_empty
  | cell_sticky
  | cell_obstacle
  | cell_paddle
  deriving DecidableEq

/-- One cell (lines 18-22); `none` is `nullptr`. -/
structure pong_cell where
  type_ : pong_celltype
  ball_ : Option Nat
  paddle_ : Option Nat

/-- The fields of a ball (lines 65-69) without the reference to its board. -/
structure pong_ball where
  x_ : Int
  y_ : Int
  dx_ : Int
  dy_ : Int

/-- The board (lines 25-30): `cells_` in row-major order, by index. -/
structure pong_board where
  width_ : Int
  height_ : Int
  cells_ : Nat → pong_cell
  obstacle_cell_ : pong_cell

/-- The reference that `cell(x, y)` (lines 53-59) returns: `none` is
`obstacle_cell_`, `some i` is `cells_[i]`. -/
def pong_board.cellRef (b : pong_board) (x y : Int) : Option Nat :=
  if x < 0 ∨ x ≥ b.width_ ∨ y < 0 ∨ y ≥ b.height_ then none
  else some (y * b.width_ + x).toNat

/-- The cell behind a reference. -/
def pong_board.get (b : pong_board) : Option Nat → pong_cell
  | none => b.obstacle_cell_
  | some i => b.cells_ i

/-- The value of `cell(x, y)` (lines 53-59). -/
def pong_board.cell (b : pong_board) (x y : Int) : pong_cell := b.get (b.cellRef x y)

/-- Assignment to the field `ball_` of the cell behind a reference. -/
def pong_board.setBall (b : pong_board) (r : Option Nat) (v : Option Nat) : pong_board :=
  match r with
  | none => { b with obstacle_cell_ := { b.obstacle_cell_ with ball_ := v } }
  | some i => { b with cells_ := fun j => if j = i then { (b.cells_ i) with ball_ := v }
                                          else b.cells_ j }

/-- A board and the balls on the heap. -/
structure Game where
  board : pong_board
  balls : Nat → pong_ball

/-- Assignment to the ball at address `a`. -/
def setBallAt (h : Nat → pong_ball) (a : Nat) (v : pong_ball) : Nat → pong_ball :=
  fun j => if j = a then v else h j

/-- The test `type_ == cell_obstacle || type_ == cell_paddle` of lines 117-118,
121-122 and 139-140. -/
def blocks (t : pong_celltype) : Bool :=
  decide (t = pong_celltype.cell_obstacle ∨ t = pong_celltype.cell_paddle)

/-- The first statement of the collision branch of `move` (lines 130-133) for the
ball `this` and the ball `o` in the next cell. -/
def collideX (h : Nat → pong_ball) (this o : Nat) : Nat → pong_ball :=
  if (h o).dx_ ≠ (h this).dx_ then
    setBallAt (setBallAt h o { (h o) with dx_ := (h this).dx_ }) this
      { (setBallAt h o { (h o) with dx_ := (h this).dx_ } this) with
        dx_ := -(setBallAt h o { (h o) with dx_ := (h this).dx_ } this).dx_ }
  else h

/-- The second statement of the collision branch of `move` (lines 134-137). -/
def collideY (h : Nat → pong_ball) (this o : Nat) : Nat → pong_ball :=
  if (h o).dy_ ≠ (h this).dy_ then
    setBallAt (setBallAt h o { (h o) with dy_ := (h this).dy_ }) this
      { (setBallAt h o { (h o) with dy_ := (h this).dy_ } this) with
        dy_ := -(setBallAt h o { (h o) with dy_ := (h this).dy_ } this).dy_ }
  else h

/-- The collision branch of `move` (lines 130-137). -/
def collide (h : Nat → pong_ball) (this o : Nat) : Nat → pong_ball :=
  collideY (collideX h this o) this o

/-- The direction of the ball `b` after the two reflections of lines 117-124. -/
def bounced (board : pong_board) (b : pong_ball) : Int × Int :=
  (if blocks (board.cell (b.x_ + b.dx_) b.y_).type_ = true then -b.dx_ else b.dx_,
   if blocks (board.cell b.x_ (b.y_ + b.dy_)).type_ = true then -b.dy_ else b.dy_)

/-- The indices into `mutexes_` of the nine mutexes that `move` hands to
`std::scoped_lock` (lines 98-106) for a ball in column `x`. -/
def lockIndices (board : pong_board) (x : Int) : List Int :=
  [x, x + 1, x + 2,
   x + board.width_, x + board.width_ + 1, x + board.width_ + 2,
   x + 2 * board.width_, x + 2 * board.width_ + 1, x + 2 * board.width_ + 2]

/-- The `std::scoped_lock` of lines 98-106 is taken, for a thread that holds no mutex
and with no other thread at work: each of the nine indices lies inside the array of
`(width_ + 2) * (height_ + 2)` mutexes that the constructor allocates (line 39), and
no mutex is named twice (a `std::mutex` is not recursive: a thread that locks a mutex
it already owns never gets it). -/
def locksTaken (board : pong_board) (x : Int) : Bool :=
  decide ((lockIndices board x).Nodup ∧
    ∀ i ∈ lockIndices board x, 0 ≤ i ∧ i < (board.width_ + 2) * (board.height_ + 2))

/-- `pong_ball::move()` (lines 93-157) for the ball at address `this`, called by a
thread that holds no mutex while no other thread is at work: the returned value and
the new state.  `none` is a call that does not return: the lock of lines 98-106 is
not taken, or the assertion of line 109 fails. -/
def pong_ball.move (g : Game) (this : Nat) : Option (Bool × Game) :=
  let b := g.balls this
  let cur := g.board.cellRef b.x_ b.y_
  if locksTaken g.board b.x_ = false then none
  else if (g.board.get cur).ball_ ≠ some this then none
  else if b.dx_ = 0 ∧ b.dy_ = 0 then some (false, g)
  else
    let d := bounced g.board b
    let next := g.board.cellRef (b.x_ + d.1) (b.y_ + d.2)
    match (g.board.get next).ball_ with
    | some o =>
      let h1 := setBallAt g.balls this { b with dx_ := d.1, dy_ := d.2 }
      some (false, { g with balls := collide h1 this o })
    | none =>
      if blocks (g.board.get next).type_ = true then
        let h1 := setBallAt g.balls this { b with dx_ := -d.1, dy_ := -d.2 }
        some (false, { g with balls := h1 })
      else
        let sticky := decide ((g.board.get next).type_ = pong_celltype.cell_sticky)
        some (true,
          { board := (g.board.setBall cur none).setBall next (some this),
            balls := setBallAt g.balls this
              { x_ := b.x_ + d.1, y_ := b.y_ + d.2,
                dx_ := if sticky = true then 0 else d.1,
                dy_ := if sticky = true then 0 else d.2 } })

/-- An empty cell without ball and paddle. -/
def emptyCell : pong_cell :=
  { type_ := pong_celltype.cell_empty, ball_ := none, paddle_ := none }

/-- The off-board cell as the constructor of the board makes it (line 38). -/
def obstacleCell : pong_cell :=
  { type_ := pong_celltype.cell_obstacle, ball_ := none, paddle_ := none }

/-- A board of three cells in one row: the middle cell is sticky, the right cell
holds the ball at address 7, which moves to the right. -/
def edgeGame : Game :=
  { board :=
      { width_ := 3, height_ := 1,
        cells_ := fun i =>
          if i = 1 then { type_ := pong_celltype.cell_sticky, ball_ := none, paddle_ := none }
          else if i = 2 then { emptyCell with ball_ := some 7 }
          else emptyCell,
        obstacle_cell_ := obstacleCell },
    balls := fun _ => { x_ := 2, y_ := 0, dx_ := 1, dy_ := 0 } }

/-- A board of two empty cells in one row with the ball at address 7 in the left
cell, moving to the right. -/
def narrowGame : Game :=
  { board :=
      { width_ := 2, height_ := 1,
        cells_ := fun i => if i = 0 then { emptyCell with ball_ := some 7 } else emptyCell,
        obstacle_cell_ := obstacleCell },
    balls := fun _ => { x_ := 0, y_ := 0, dx_ := 1, dy_ := 0 } }

/-- A board of three empty cells in one row and a ball at address 7 constructed at
the off-board position (-1, 0), moving to the right: the constructor (line 76) stores
it in the off-board cell. -/
def outsideGame : Game :=
  { board :=
      { width_ := 3, height_ := 1,
        cells_ := fun _ => emptyCell,
        obstacle_cell_ := { obstacleCell with ball_ := some 7 } },
    balls := fun _ => { x_ := -1, y_ := 0, dx_ := 1, dy_ := 0 } }

/-- A board of three by three empty cells with the ball at address 7 in the middle,
moving to the right and down. -/
def openGame : Game :=
  { board :=
      { width_ := 3, height_ := 3,
        cells_ := fun i => if i = 4 then { emptyCell with ball_ := some 7 } else emptyCell,
        obstacle_cell_ := obstacleCell },
    balls := fun _ => { x_ := 1, y_ := 1, dx_ := 1, dy_ := 1 } }

end Pong

namespace Weensy

/-! ## Theorems -/

section Arith

theorem Config.WF.phys_eq {K : Config} (h : K.WF) : K.MEMSIZE_PHYSICAL = K.NPAGES * K.PAGESIZE := by
  unfold Config.NPAGES
  exact (Nat.div_mul_cancel h.phys_pages).symm

theorem Config.WF.npages_pos {K : Config} (h : K.WF) : 0 < K.NPAGES := by
  unfold Config.NPAGES
  exact Nat.div_pos (Nat.le_of_dvd h.phys_pos h.phys_pages) h.page_pos

/-- Advancing the cursor from frame `f` leads to frame `(f + 1) % NPAGES`. -/
theorem cursor_step {K : Config} (h : K.WF) (f : Nat) (hf : f < K.NPAGES) :
    (f * K.PAGESIZE + K.PAGESIZE) % K.MEMSIZE_PHYSICAL = (f + 1) % K.NPAGES * K.PAGESIZE := by
  rw [h.phys_eq]
  have e : f * K.PAGESIZE + K.PAGESIZE = (f + 1) * K.PAGESIZE := by ring
  rw [e]
  rcases Nat.lt_or_ge (f + 1) K.NPAGES with h1 | h1
  · rw [Nat.mod_eq_of_lt h1, Nat.mod_eq_of_lt]
    exact Nat.mul_lt_mul_of_pos_right h1 h.page_pos
  · have e2 : f + 1 = K.NPAGES := by omega
    rw [e2, Nat.mod_self, Nat.mod_self, Nat.zero_mul]

end Arith

section Kalloc

variable {K : Config}

theorem isFreeFrame_cursor (s : KState) (c g : Nat) :
    isFreeFrame K { s with next_alloc_pa := c } g ↔ isFreeFrame K s g := Iff.rfl

theorem kalloc_at_cursor (s : KState) (c pa : Nat) :
    kalloc_at K { s with next_alloc_pa := c } pa = kalloc_at K s pa := rfl

theorem add_one_mod_add (N f j : Nat) : ((f + 1) % N + j) % N = (f + (j + 1)) % N := by
  rw [Nat.add_mod, Nat.mod_mod, ← Nat.add_mod]
  congr 1
  omega

/-- If none of the next `n` frames in cursor order is free, `n` iterations of the
scan return `nullptr` and leave the cursor `n` frames further. -/
theorem kalloc_loop_skip (h : K.WF) : ∀ (n : Nat) (s : KState) (f : Nat), f < K.NPAGES →
    s.next_alloc_pa = f * K.PAGESIZE →
    (∀ j, j < n → ¬ isFreeFrame K s ((f + j) % K.NPAGES)) →
    kalloc_loop K n s = (0, { s with next_alloc_pa := (f + n) % K.NPAGES * K.PAGESIZE }) := by
  intro n
  induction n with
  | zero =>
    intro s f hf hs _
    simp only [kalloc_loop, Nat.add_zero, Nat.mod_eq_of_lt hf, ← hs]
  | succ n ih =>
    intro s f hf hs hno
    have h0 : ¬ isFreeFrame K s f := by
      have := hno 0 (Nat.succ_pos n)
      rwa [Nat.add_zero, Nat.mod_eq_of_lt hf] at this
    have hdiv : f * K.PAGESIZE / K.PAGESIZE = f := Nat.mul_div_cancel f h.page_pos
    have hc : ¬ (K.allocatable_physical_address (s.next_alloc_pa) = true ∧
        (s.pages (s.next_alloc_pa / K.PAGESIZE)).owner = 0) := by
      rw [hs, hdiv]; exact h0
    simp only [kalloc_loop]
    rw [if_neg hc]
    have hlt : (f + 1) % K.NPAGES < K.NPAGES := Nat.mod_lt _ h.npages_pos
    rw [ih _ ((f + 1) % K.NPAGES) hlt (by simp only [hs]; exact cursor_step h f hf)
      (fun j hj => by
        rw [add_one_mod_add]
        exact hno (j + 1) (Nat.succ_lt_succ hj))]
    rw [add_one_mod_add, Nat.add_comm n 1]

/-- If the `k`-th frame in cursor order is the first free one, a scan of more than
`k` iterations allocates exactly that frame. -/
theorem kalloc_loop_found (h : K.WF) : ∀ (k n : Nat) (s : KState) (f : Nat), k < n →
    f < K.NPAGES → s.next_alloc_pa = f * K.PAGESIZE →
    isFreeFrame K s ((f + k) % K.NPAGES) →
    (∀ j, j < k → ¬ isFreeFrame K s ((f + j) % K.NPAGES)) →
    kalloc_loop K n s =
      ((f + k) % K.NPAGES * K.PAGESIZE, kalloc_at K s ((f + k) % K.NPAGES * K.PAGESIZE)) := by
  intro k
  induction k with
  | zero =>
    intro n s f hn hf hs hfree _
    obtain ⟨n, rfl⟩ : ∃ m, n = m + 1 := ⟨n - 1, by omega⟩
    simp only [Nat.add_zero, Nat.mod_eq_of_lt hf] at hfree ⊢
    have hdiv : f * K.PAGESIZE / K.PAGESIZE = f := Nat.mul_div_cancel f h.page_pos
    have hc : K.allocatable_physical_address (s.next_alloc_pa) = true ∧
        (s.pages (s.next_alloc_pa / K.PAGESIZE)).owner = 0 := by
      rw [hs, hdiv]; exact hfree
    simp only [kalloc_loop]
    rw [if_pos hc]
    simp only [hs, kalloc_at]
  | succ k ih =>
    intro n s f hn hf hs hfree hno
    obtain ⟨n, rfl⟩ : ∃ m, n = m + 1 := ⟨n - 1, by omega⟩
    have h0 : ¬ isFreeFrame K s f := by
      have := hno 0 (Nat.succ_pos k)
      rwa [Nat.add_zero, Nat.mod_eq_of_lt hf] at this
    have hdiv : f * K.PAGESIZE / K.PAGESIZE = f := Nat.mul_div_cancel f h.page_pos
    have hc : ¬ (K.allocatable_physical_address (s.next_alloc_pa) = true ∧
        (s.pages (s.next_alloc_pa / K.PAGESIZE)).owner = 0) := by
      rw [hs, hdiv]; exact h0
    simp only [kalloc_loop]
    rw [if_neg hc]
    have hlt : (f + 1) % K.NPAGES < K.NPAGES := Nat.mod_lt _ h.npages_pos
    rw [ih n _ ((f + 1) % K.NPAGES) (by omega) hlt (by simp only [hs]; exact cursor_step h f hf)
      (by rw [add_one_mod_add]; exact hfree)
      (fun j hj => by
        rw [add_one_mod_add]
        exact hno (j + 1) (Nat.succ_lt_succ hj))]
    rw [add_one_mod_add, kalloc_at_cursor]

end Kalloc

section Concrete

theorem weensy_WF : weensy.WF where
  page_pos := by decide
  phys_pages := by decide
  phys_pos := by decide
  alloc_lt := by
    intro pa h
    simp only [weensy, Bool.and_eq_true, decide_eq_true_eq] at h
    exact h.2
  alloc_pos := by
    intro pa h
    simp only [weensy, Bool.and_eq_true, decide_eq_true_eq] at h
    exact h.1.1.1.1

end Concrete

section KallocResult

/-- With a free frame, `kalloc` allocates the first one in cursor order. -/
theorem kalloc_found (K : Config) (hK : K.WF) (s : KState) (sz : Nat)
    (hsz : sz ≤ K.PAGESIZE) (hc : cursorOK K s) (hfree : ∃ g, isFreeFrame K s g) :
    ∃ k, k < K.NPAGES ∧ isFreeFrame K s (cursorFrame K s k) ∧
      (∀ j, j < k → ¬ isFreeFrame K s (cursorFrame K s j)) ∧
      kalloc K sz s = (cursorFrame K s k * K.PAGESIZE,
        kalloc_at K s (cursorFrame K s k * K.PAGESIZE)) := by
  obtain ⟨g, hg⟩ := hfree
  have hgN : g < K.NPAGES := by
    have := hK.alloc_lt _ hg.1
    rw [hK.phys_eq] at this
    exact Nat.lt_of_mul_lt_mul_right this
  set f := s.next_alloc_pa / K.PAGESIZE with hf
  have hfN : f < K.NPAGES := by
    rw [hf, Nat.div_lt_iff_lt_mul hK.page_pos, ← hK.phys_eq]
    exact hc.2
  have hs : s.next_alloc_pa = f * K.PAGESIZE :=
    (Nat.div_mul_cancel (Nat.dvd_of_mod_eq_zero hc.1)).symm
  have hex : ∃ k, k < K.NPAGES ∧ isFreeFrame K s ((f + k) % K.NPAGES) := by
    refine ⟨(g + K.NPAGES - f) % K.NPAGES, Nat.mod_lt _ hK.npages_pos, ?_⟩
    have : (f + (g + K.NPAGES - f) % K.NPAGES) % K.NPAGES = g := by
      rw [Nat.add_mod_mod, show f + (g + K.NPAGES - f) = g + K.NPAGES by omega,
        Nat.add_mod_right, Nat.mod_eq_of_lt hgN]
    rw [this]
    exact hg
  classical
  have hk := Nat.find_spec hex
  have hmin : ∀ j, j < Nat.find hex → ¬ isFreeFrame K s ((f + j) % K.NPAGES) := by
    intro j hj hfr
    exact Nat.find_min hex hj ⟨lt_trans hj hk.1, hfr⟩
  have hN : K.NPAGES ≤ K.MEMSIZE_PHYSICAL := by
    rw [hK.phys_eq]
    exact Nat.le_mul_of_pos_right _ hK.page_pos
  have hrun : kalloc K sz s = ((f + Nat.find hex) % K.NPAGES * K.PAGESIZE,
      kalloc_at K s ((f + Nat.find hex) % K.NPAGES * K.PAGESIZE)) := by
    unfold kalloc
    rw [if_neg (by omega)]
    exact kalloc_loop_found hK _ _ s f (lt_of_lt_of_le hk.1 hN) hfN hs hk.2 hmin
  exact ⟨Nat.find hex, hk.1, hk.2, hmin, hrun⟩

/-- Without a free frame, `kalloc` returns `nullptr` and only the cursor moves. -/
theorem kalloc_none (K : Config) (hK : K.WF) (s : KState) (sz : Nat)
    (hc : cursorOK K s) (hfree : ∀ g, ¬ isFreeFrame K s g) :
    ∃ c, kalloc K sz s = (0, { s with next_alloc_pa := c }) := by
  unfold kalloc
  split
  · exact ⟨s.next_alloc_pa, rfl⟩
  · have hfN : s.next_alloc_pa / K.PAGESIZE < K.NPAGES := by
      rw [Nat.div_lt_iff_lt_mul hK.page_pos, ← hK.phys_eq]
      exact hc.2
    have hs : s.next_alloc_pa = s.next_alloc_pa / K.PAGESIZE * K.PAGESIZE :=
      (Nat.div_mul_cancel (Nat.dvd_of_mod_eq_zero hc.1)).symm
    exact ⟨_, kalloc_loop_skip hK _ s _ hfN hs (fun j _ => hfree _)⟩

end KallocResult

section Claims

/-- C1: for every allocator state (cursor page-aligned and inside physical memory)
and every `sz <= PAGESIZE` for which some allocatable frame has `owner == 0`,
`kalloc(sz)` returns the first allocatable free frame in circular order starting at
the cursor `next_alloc_pa` (the `k`-th frame from the cursor, no earlier one being
free); afterwards that frame has a non-zero owner and `sharers == 0`, its
`PAGESIZE` bytes are zero, the cursor is `(returned address + PAGESIZE) mod
MEMSIZE_PHYSICAL`, and the owner, sharers and contents of every other frame are
unchanged. -/
theorem kalloc_returns_first_free (K : Config) (hK : K.WF) (s : KState) (sz : Nat)
    (hsz : sz ≤ K.PAGESIZE) (hc : cursorOK K s) (hfree : ∃ g, isFreeFrame K s g) :
    ∃ k, k < K.NPAGES ∧
      (kalloc K sz s).1 = cursorFrame K s k * K.PAGESIZE ∧
      isFreeFrame K s (cursorFrame K s k) ∧
      (∀ j, j < k → ¬ isFreeFrame K s (cursorFrame K s j)) ∧
      ((kalloc K sz s).2.pages (cursorFrame K s k)).owner ≠ 0 ∧
      ((kalloc K sz s).2.pages (cursorFrame K s k)).sharers = 0 ∧
      (∀ a, (kalloc K sz s).1 ≤ a → a < (kalloc K sz s).1 + K.PAGESIZE →
        (kalloc K sz s).2.mem a = 0) ∧
      (kalloc K sz s).2.next_alloc_pa =
        ((kalloc K sz s).1 + K.PAGESIZE) % K.MEMSIZE_PHYSICAL ∧
      (∀ g, g ≠ cursorFrame K s k → (kalloc K sz s).2.pages g = s.pages g) ∧
      (∀ a, ¬ ((kalloc K sz s).1 ≤ a ∧ a < (kalloc K sz s).1 + K.PAGESIZE) →
        (kalloc K sz s).2.mem a = s.mem a) := by
  obtain ⟨k, hk, hfr, hmin, hrun⟩ := kalloc_found K hK s sz hsz hc hfree
  have hdiv : ∀ x, x * K.PAGESIZE / K.PAGESIZE = x := fun x => Nat.mul_div_cancel x hK.page_pos
  refine ⟨k, hk, ?_⟩
  simp only [hrun, kalloc_at, hdiv, upd, memset, if_true]
  refine ⟨trivial, hfr, hmin, by decide, trivial, ?_, trivial, ?_, ?_⟩
  · intro a h1 h2
    rw [if_pos ⟨h1, h2⟩]
  · intro g' hg'
    rw [if_neg hg']
  · intro a ha
    rw [if_neg ha]

/-- Witness for C1 on the handout constants: from the cleared state the
hypotheses hold (frame 1 is allocatable and free). -/
theorem kalloc_returns_first_free_witness :
    ∃ k, k < weensy.NPAGES ∧
      (kalloc weensy 4096 zeroState).1 = cursorFrame weensy zeroState k * weensy.PAGESIZE ∧
      isFreeFrame weensy zeroState (cursorFrame weensy zeroState k) ∧
      (∀ j, j < k → ¬ isFreeFrame weensy zeroState (cursorFrame weensy zeroState j)) ∧
      ((kalloc weensy 4096 zeroState).2.pages (cursorFrame weensy zeroState k)).owner ≠ 0 ∧
      ((kalloc weensy 4096 zeroState).2.pages (cursorFrame weensy zeroState k)).sharers = 0 ∧
      (∀ a, (kalloc weensy 4096 zeroState).1 ≤ a →
        a < (kalloc weensy 4096 zeroState).1 + weensy.PAGESIZE →
        (kalloc weensy 4096 zeroState).2.mem a = 0) ∧
      (kalloc weensy 4096 zeroState).2.next_alloc_pa =
        ((kalloc weensy 4096 zeroState).1 + weensy.PAGESIZE) % weensy.MEMSIZE_PHYSICAL ∧
      (∀ g, g ≠ cursorFrame weensy zeroState k →
        (kalloc weensy 4096 zeroState).2.pages g = zeroState.pages g) ∧
      (∀ a, ¬ ((kalloc weensy 4096 zeroState).1 ≤ a ∧
          a < (kalloc weensy 4096 zeroState).1 + weensy.PAGESIZE) →
        (kalloc weensy 4096 zeroState).2.mem a = zeroState.mem a) :=
  kalloc_returns_first_free weensy weensy_WF zeroState 4096 (by decide) (by decide)
    ⟨1, by decide⟩

end Claims

/-! ### Bytes, entries and frames -/

section Memory

theorem readLE_congr (m m' : Nat → Nat) : ∀ (n a : Nat),
    (∀ i, i < n → m' (a + i) = m (a + i)) → readLE m' a n = readLE m a n := by
  intro n
  induction n with
  | zero => intro a _; rfl
  | succ n ih =>
    intro a h
    simp only [readLE]
    rw [ih (a + 1) (fun i hi => by
      have := h (i + 1) (by omega)
      rwa [show a + 1 + i = a + (i + 1) by omega])]
    have := h 0 (by omega)
    rw [Nat.add_zero] at this
    rw [this]

theorem readQ_congr (m m' : Nat → Nat) (a : Nat)
    (h : ∀ i, i < 8 → m' (a + i) = m (a + i)) : readQ m' a = readQ m a :=
  readLE_congr m m' 8 a h

theorem readLE_writeQ (m : Nat → Nat) (a v : Nat) : ∀ (n k : Nat), k + n ≤ 8 →
    readLE (writeQ m a v) (a + k) n = v / 256 ^ k % 256 ^ n := by
  intro n
  induction n with
  | zero => intro k _; simp [readLE, Nat.mod_one]
  | succ n ih =>
    intro k hk
    simp only [readLE]
    rw [show a + k + 1 = a + (k + 1) by omega, ih (k + 1) (by omega)]
    have hw : writeQ m a v (a + k) = v / 256 ^ k % 256 := by
      unfold writeQ
      rw [if_pos ⟨by omega, by omega⟩, Nat.add_sub_cancel_left]
    have e1 : (256 : Nat) ^ (k + 1) = 256 ^ k * 256 := pow_succ _ _
    have e2 : (256 : Nat) ^ (n + 1) = 256 * 256 ^ n := pow_succ' _ _
    rw [hw, Nat.mod_mod, e1, e2, Nat.mod_mul, Nat.div_div_eq_div_mul]

theorem readQ_writeQ_same (m : Nat → Nat) (a v : Nat) (hv : v < 2 ^ 64) :
    readQ (writeQ m a v) a = v := by
  have := readLE_writeQ m a v 8 0 (by omega)
  rw [Nat.add_zero, pow_zero, Nat.div_one] at this
  unfold readQ
  rw [this]
  exact Nat.mod_eq_of_lt (by norm_num at hv ⊢; exact hv)

theorem readQ_writeQ_ne (m : Nat → Nat) (a v b : Nat) (h : b + 8 ≤ a ∨ a + 8 ≤ b) :
    readQ (writeQ m a v) b = readQ m b := by
  apply readQ_congr
  intro i hi
  unfold writeQ
  rw [if_neg (by omega)]

theorem readQ_zero (m : Nat → Nat) (a : Nat) (h : ∀ i, i < 8 → m (a + i) = 0) :
    readQ m a = 0 := by
  have : readQ m a = readQ (fun _ => 0) a := readQ_congr _ _ a (fun i hi => h i hi)
  rw [this]
  rfl

end Memory

/-! ### Page-table geometry -/

section Geometry

variable {K : Config}

theorem Config.Geom.page_pos (h : K.Geom) : 0 < K.PAGESIZE := h.wf.page_pos

theorem Config.Geom.nent_mul (h : K.Geom) : 8 * K.NENT = K.PAGESIZE := by
  unfold Config.NENT
  exact Nat.mul_div_cancel' h.ent

theorem Config.Geom.page_ge (h : K.Geom) : 8 ≤ K.PAGESIZE :=
  Nat.le_of_dvd h.page_pos h.ent

theorem Config.Geom.nent_pos (h : K.Geom) : 0 < K.NENT := by
  have := h.nent_mul
  have := h.page_pos
  omega

theorem frame_add (h : 0 < K.PAGESIZE) (f i : Nat) (hi : i < K.PAGESIZE) :
    (f * K.PAGESIZE + i) / K.PAGESIZE = f := by
  rw [Nat.add_comm, Nat.add_mul_div_right _ _ h, Nat.div_eq_of_lt hi, Nat.zero_add]

theorem frame_mul (h : 0 < K.PAGESIZE) (f : Nat) : f * K.PAGESIZE / K.PAGESIZE = f :=
  Nat.mul_div_cancel f h

theorem aligned_eq (a : Nat) (h : a % K.PAGESIZE = 0) : a / K.PAGESIZE * K.PAGESIZE = a :=
  Nat.div_mul_cancel (Nat.dvd_of_mod_eq_zero h)

theorem pte_pa_aligned (e : Nat) : pte_pa K e % K.PAGESIZE = 0 := by
  unfold pte_pa
  exact Nat.mul_mod_left _ _

theorem pte_pa_frame (h : 0 < K.PAGESIZE) (e : Nat) : pte_pa K e / K.PAGESIZE = e / K.PAGESIZE := by
  unfold pte_pa
  exact Nat.mul_div_cancel _ h

/-- The bytes of entry `i` of the table page in frame `t` lie in frame `t`. -/
theorem entry_frame (h : K.Geom) (t i j : Nat) (hi : i < K.NENT) (hj : j < 8) :
    (t * K.PAGESIZE + 8 * i + j) / K.PAGESIZE = t := by
  rw [Nat.add_assoc]
  apply frame_add h.page_pos
  have := h.nent_mul
  omega

theorem pageindex_lt (h : K.Geom) (va l : Nat) : pageindex K va l < K.NENT :=
  Nat.mod_lt _ h.nent_pos

/-- An entry `pa | perm` built from an aligned address and flags below the page
size decodes to its parts. -/
theorem pte_pa_mk (h : 0 < K.PAGESIZE) (f perm : Nat) (hp : perm < K.PAGESIZE) :
    pte_pa K (f * K.PAGESIZE + perm) = f * K.PAGESIZE := by
  unfold pte_pa
  rw [frame_add h f perm hp]

theorem pte_flags_mk (f perm : Nat) (hp : perm < K.PAGESIZE) :
    pte_flags K (f * K.PAGESIZE + perm) = perm := by
  unfold pte_flags
  rw [Nat.add_comm, Nat.add_mul_mod_self_right, Nat.mod_eq_of_lt hp]

theorem pte_split (e : Nat) : pte_pa K e + pte_flags K e = e := by
  unfold pte_pa pte_flags
  rw [Nat.mul_comm]
  exact Nat.div_add_mod e K.PAGESIZE

theorem hasflag_flags (h : K.Geom) (e b : Nat) (hb : b = 1 ∨ b = 2 ∨ b = 4) :
    hasflag (pte_flags K e) b = hasflag e b := by
  unfold hasflag pte_flags
  obtain ⟨c, hc⟩ := h.ent
  have he : e = e % K.PAGESIZE + 8 * (c * (e / K.PAGESIZE)) := by
    have := Nat.mod_add_div e K.PAGESIZE
    rw [← Nat.mul_assoc, ← hc]
    exact this.symm
  have key : e % K.PAGESIZE / b % 2 = e / b % 2 := by
    generalize c * (e / K.PAGESIZE) = q at he
    generalize e % K.PAGESIZE = r at he
    rcases hb with rfl | rfl | rfl <;> omega
  rw [key]

end Geometry

/-! ### `kalloc`, relationally -/

section KallocSpec

variable {K : Config}

theorem kalloc_loop_cursorOK (h : K.WF) : ∀ (n : Nat) (s : KState), cursorOK K s →
    cursorOK K (kalloc_loop K n s).2 := by
  intro n
  induction n with
  | zero => intro s hs; exact hs
  | succ n ih =>
    intro s hs
    have hstep : cursorOK K
        { s with next_alloc_pa := (s.next_alloc_pa + K.PAGESIZE) % K.MEMSIZE_PHYSICAL } := by
      refine ⟨?_, Nat.mod_lt _ h.phys_pos⟩
      show (s.next_alloc_pa + K.PAGESIZE) % K.MEMSIZE_PHYSICAL % K.PAGESIZE = 0
      rw [Nat.mod_mod_of_dvd _ h.phys_pages, Nat.add_mod, hs.1]
      simp
    simp only [kalloc_loop]
    split
    · exact hstep
    · exact ih _ hstep

/-- What `kalloc` does, in one statement: either it fails, and then only the cursor
may have moved and no frame is free, or it returns a frame that was free and
leaves the state `kalloc_at`. -/
theorem kalloc_spec (h : K.WF) (s : KState) (hc : cursorOK K s) :
    ((kalloc K K.PAGESIZE s).1 = 0 ∧ (∀ g, ¬ isFreeFrame K s g) ∧
      ∃ c, (kalloc K K.PAGESIZE s).2 = { s with next_alloc_pa := c }) ∨
    (∃ f, (kalloc K K.PAGESIZE s).1 = f * K.PAGESIZE ∧ isFreeFrame K s f ∧
      (kalloc K K.PAGESIZE s).2 = kalloc_at K s (f * K.PAGESIZE)) := by
  by_cases hfree : ∃ g, isFreeFrame K s g
  · right
    obtain ⟨k, _, h1, _, h2⟩ := kalloc_found K h s K.PAGESIZE (le_refl _) hc hfree
    exact ⟨cursorFrame K s k, by rw [h2], h1, by rw [h2]⟩
  · left
    have hno : ∀ g, ¬ isFreeFrame K s g := fun g hg => hfree ⟨g, hg⟩
    obtain ⟨c, hc2⟩ := kalloc_none K h s K.PAGESIZE hc hno
    exact ⟨by rw [hc2], hno, c, by rw [hc2]⟩

/-- `kalloc` keeps the cursor well-formed. -/
theorem kalloc_cursorOK (h : K.WF) (s : KState) (sz : Nat) (hc : cursorOK K s) :
    cursorOK K (kalloc K sz s).2 := by
  unfold kalloc
  split
  · exact hc
  · exact kalloc_loop_cursorOK h _ s hc

end KallocSpec

section Walk

variable {K : Config}

/-- A walk only reads the table pages below its starting table. -/
theorem vm_walk_congr (hK : K.Geom) (role : Roles) (m m1 : Nat → Nat) (p : Nat)
    (hT : TablesOK K m role) : ∀ (l tbl : Nat) (path : List Nat),
    role (tbl / K.PAGESIZE) = some (p, path) → tbl % K.PAGESIZE = 0 → path.length + l = 3 →
    (∀ a q, role (a / K.PAGESIZE) = some (p, path ++ q) → m1 a = m a) →
    ∀ va, vm_walk K m1 l tbl va = vm_walk K m l tbl va := by
  intro l
  induction l with
  | zero =>
    intro tbl path hr hal _ hm va
    simp only [vm_walk]
    apply readQ_congr
    intro i hi
    apply hm _ []
    rw [List.append_nil, ← hr]
    congr 1
    have := entry_frame hK (tbl / K.PAGESIZE) (pageindex K va 0) i (pageindex_lt hK _ _) hi
    rw [aligned_eq tbl hal] at this
    exact this
  | succ l ih =>
    intro tbl path hr hal hlen hm va
    simp only [vm_walk]
    have hfr : ∀ i, i < 8 →
        (tbl + 8 * pageindex K va (l + 1) + i) / K.PAGESIZE = tbl / K.PAGESIZE := by
      intro i hi
      have := entry_frame hK (tbl / K.PAGESIZE) (pageindex K va (l + 1)) i (pageindex_lt hK _ _) hi
      rw [aligned_eq tbl hal] at this
      exact this
    have he : readQ m1 (tbl + 8 * pageindex K va (l + 1)) =
        readQ m (tbl + 8 * pageindex K va (l + 1)) := by
      apply readQ_congr
      intro i hi
      apply hm _ []
      rw [List.append_nil, hfr i hi, hr]
    rw [he]
    split
    · rename_i hp
      have hchild := (hT _ _ _ hr).2 (pageindex K va (l + 1)) (pageindex_lt hK _ _) (by omega)
        (by rw [aligned_eq tbl hal]; exact hp)
      rw [aligned_eq tbl hal] at hchild
      apply ih (pte_pa K _) (path ++ [pageindex K va (l + 1)])
      · rw [pte_pa_frame hK.page_pos]; exact hchild
      · exact pte_pa_aligned _
      · rw [List.length_append]; simp; omega
      · intro a q hq
        apply hm a ([pageindex K va (l + 1)] ++ q)
        rw [← List.append_assoc]; exact hq
    · rfl

/-- A walk through a table page whose entries are all zero finds nothing. -/
theorem vm_walk_zero (hK : K.Geom) (m : Nat → Nat) (l tbl : Nat) (hal : tbl % K.PAGESIZE = 0)
    (hz : ∀ a, a / K.PAGESIZE = tbl / K.PAGESIZE → m a = 0) (va : Nat) :
    vm_walk K m l tbl va = 0 := by
  have hq : ∀ i, i < K.NENT → readQ m (tbl + 8 * i) = 0 := by
    intro i hi
    apply readQ_zero
    intro j hj
    apply hz
    have := entry_frame hK (tbl / K.PAGESIZE) i j hi hj
    rw [aligned_eq tbl hal] at this
    exact this
  cases l with
  | zero => simp only [vm_walk]; exact hq _ (pageindex_lt hK _ _)
  | succ l =>
    simp only [vm_walk]
    rw [hq _ (pageindex_lt hK _ _)]
    rfl

end Walk

section MapLemmas

variable {K : Config}

theorem path_ne_extend (path : List Nat) (i : Nat) (q : List Nat) : path ≠ path ++ i :: q := by
  intro h
  have := congrArg List.length h
  simp at this

theorem path_extend_inj (path : List Nat) (i j : Nat) (q r : List Nat)
    (h : path ++ i :: q = path ++ j :: r) : i = j := by
  have := List.append_cancel_left h
  exact (List.cons.inj this).1

/-- Reading an entry of the table page in frame `t` only depends on frame `t`. -/
theorem readQ_frame_congr (hK : K.Geom) (tbl i : Nat) (hal : tbl % K.PAGESIZE = 0)
    (hi : i < K.NENT) (m m1 : Nat → Nat)
    (h : ∀ a, a / K.PAGESIZE = tbl / K.PAGESIZE → m1 a = m a) :
    readQ m1 (tbl + 8 * i) = readQ m (tbl + 8 * i) := by
  apply readQ_congr
  intro j hj
  apply h
  have := entry_frame hK (tbl / K.PAGESIZE) i j hi hj
  rw [aligned_eq tbl hal] at this
  exact this

theorem entry_range_frame (hK : K.Geom) (tbl i a : Nat) (hal : tbl % K.PAGESIZE = 0)
    (hi : i < K.NENT) (h1 : tbl + 8 * i ≤ a) (h2 : a < tbl + 8 * i + 8) :
    a / K.PAGESIZE = tbl / K.PAGESIZE := by
  have := entry_frame hK (tbl / K.PAGESIZE) i (a - (tbl + 8 * i)) hi (by omega)
  rw [aligned_eq tbl hal] at this
  rw [← this]
  congr 1
  omega

theorem hasflag_link (hK : K.Geom) (f : Nat) :
    hasflag (f * K.PAGESIZE + (PTE_P + PTE_W + PTE_U)) PTE_P = true := by
  obtain ⟨c, hc⟩ := hK.ent
  have e : f * K.PAGESIZE = 8 * (f * c) := by rw [hc]; ring
  unfold hasflag PTE_P PTE_W PTE_U
  rw [e]
  generalize f * c = y
  have : (8 * y + (1 + 2 + 4)) / 1 % 2 = 1 := by omega
  rw [this]
  rfl

/-- The leaf case of `vm_map`: the entry for `va` is written. -/
theorem map_post_leaf (hK : K.Geom) (p : Nat) (tbl va pa perm : Nat) (path : List Nat)
    (s : KState) (role : Roles) (hc : cursorOK K s) (hT : TablesOK K s.mem role)
    (hr : role (tbl / K.PAGESIZE) = some (p, path)) (hal : tbl % K.PAGESIZE = 0)
    (hlen : path.length + 0 = 3) (h64 : pa + perm < 2 ^ 64) :
    MapPost K p path 0 tbl va pa perm s role (vm_map K 0 tbl va pa perm s).1
      (vm_map K 0 tbl va pa perm s).2 role where
  rc_cases := Or.inl rfl
  ptable_eq := rfl
  current_eq := rfl
  ticks_eq := rfl
  cursor := hc
  role_ext := fun _ => Or.inl rfl
  pages_eq := fun _ _ => rfl
  mem_frame := by
    intro a ha
    left
    by_contra hn
    apply ha
    simp only [vm_map, writeQ]
    rw [if_neg hn]
  tables := by
    intro t q pt hrt
    refine ⟨(hT t q pt hrt).1, fun i hi hl hp => ?_⟩
    have hne : t ≠ tbl / K.PAGESIZE := by
      intro h
      rw [h, hr] at hrt
      have := (Option.some.inj hrt)
      have h2 : path = pt := (Prod.mk.inj this).2
      rw [← h2] at hl
      omega
    have heq : readQ (vm_map K 0 tbl va pa perm s).2.mem (t * K.PAGESIZE + 8 * i) =
        readQ s.mem (t * K.PAGESIZE + 8 * i) := by
      apply readQ_congr
      intro j hj
      simp only [vm_map, writeQ]
      rw [if_neg]
      intro hin
      apply hne
      have h1 := entry_frame hK t i j hi hj
      have h2 := entry_range_frame hK tbl (pageindex K va 0) (t * K.PAGESIZE + 8 * i + j) hal
        (pageindex_lt hK _ _) hin.1 hin.2
      rw [← h1, h2]
    rw [heq] at hp ⊢
    exact (hT t q pt hrt).2 i hi hl hp
  walk := by
    intro va1
    simp only [vm_walk, vm_map, idxs, true_and]
    by_cases hi : pageindex K va1 0 = pageindex K va 0
    · rw [if_pos hi, hi, readQ_writeQ_same _ _ _ h64]
    · rw [if_neg hi]
      apply readQ_writeQ_ne
      rcases Nat.lt_or_gt_of_ne hi with h | h
      · left; omega
      · right; omega

/-- Typed frames keep their type through a call. -/
theorem MapPost.role_keep {p : Nat} {path : List Nat} {l tbl va pa perm : Nat} {s : KState}
    {role : Roles} {rc : Int} {s1 : KState} {role1 : Roles}
    (h : MapPost K p path l tbl va pa perm s role rc s1 role1) (t : Nat) (ht : role t ≠ none) :
    role1 t = role t := by
  rcases h.role_ext t with h1 | h1
  · exact h1
  · exact absurd h1.1 ht

/-- The case of `vm_map` in which the entry of `tbl` for `va` is present: the
result of the call on the linked table page is a result for `tbl`. -/
theorem map_post_descend (hK : K.Geom) (p : Nat) (l tbl va pa perm : Nat) (path : List Nat)
    (s : KState) (role : Roles) (hT : TablesOK K s.mem role)
    (hr : role (tbl / K.PAGESIZE) = some (p, path)) (hal : tbl % K.PAGESIZE = 0)
    (hlen : path.length + (l + 1) = 3)
    (hp : hasflag (readQ s.mem (tbl + 8 * pageindex K va (l + 1))) PTE_P = true)
    (rc : Int) (s1 : KState) (role1 : Roles)
    (hc : MapPost K p (path ++ [pageindex K va (l + 1)]) l
      (pte_pa K (readQ s.mem (tbl + 8 * pageindex K va (l + 1)))) va pa perm s role rc s1 role1) :
    MapPost K p path (l + 1) tbl va pa perm s role rc s1 role1 := by
  have hchild : role (readQ s.mem (tbl + 8 * pageindex K va (l + 1)) / K.PAGESIZE) =
      some (p, path ++ [pageindex K va (l + 1)]) := by
    have := (hT _ _ _ hr).2 (pageindex K va (l + 1)) (pageindex_lt hK _ _) (by omega)
      (by rw [aligned_eq tbl hal]; exact hp)
    rw [aligned_eq tbl hal] at this
    exact this
  -- the frame of `tbl` is not written
  have htbl : ∀ a, a / K.PAGESIZE = tbl / K.PAGESIZE → s1.mem a = s.mem a := by
    intro a ha
    by_contra hne
    rcases hc.mem_frame a hne with ⟨h1, h2⟩ | ⟨q, hq⟩
    · have := entry_range_frame hK _ (pageindex K va l) a (pte_pa_aligned _)
        (pageindex_lt hK _ _) h1 h2
      rw [pte_pa_frame hK.page_pos, ha] at this
      rw [this, hchild] at hr
      exact path_ne_extend path _ [] (Prod.mk.inj (Option.some.inj hr)).2.symm
    · rw [ha, hc.role_keep _ (by rw [hr]; simp), hr] at hq
      have := (Prod.mk.inj (Option.some.inj hq)).2
      rw [List.append_assoc] at this
      exact path_ne_extend path _ _ this
  refine
    { rc_cases := hc.rc_cases
      ptable_eq := hc.ptable_eq
      current_eq := hc.current_eq
      ticks_eq := hc.ticks_eq
      cursor := hc.cursor
      role_ext := ?_
      pages_eq := hc.pages_eq
      mem_frame := ?_
      tables := hc.tables
      walk := ?_ }
  · intro t
    rcases hc.role_ext t with h1 | ⟨h1, h2, h3, q, hq⟩
    · exact Or.inl h1
    · refine Or.inr ⟨h1, h2, h3, pageindex K va l :: q, ?_⟩
      rw [hq, List.append_assoc]
      rfl
  · intro a ha
    right
    rcases hc.mem_frame a ha with ⟨h1, h2⟩ | ⟨q, hq⟩
    · have := entry_range_frame hK _ (pageindex K va l) a (pte_pa_aligned _)
        (pageindex_lt hK _ _) h1 h2
      rw [pte_pa_frame hK.page_pos] at this
      refine ⟨[], ?_⟩
      rw [this, hc.role_keep _ (by rw [hchild]; simp), hchild]
    · refine ⟨pageindex K va l :: q, ?_⟩
      rw [hq, List.append_assoc]
      rfl
  · intro va1
    have he : readQ s1.mem (tbl + 8 * pageindex K va1 (l + 1)) =
        readQ s.mem (tbl + 8 * pageindex K va1 (l + 1)) :=
      readQ_frame_congr hK tbl _ hal (pageindex_lt hK _ _) _ _ htbl
    by_cases hi : pageindex K va1 (l + 1) = pageindex K va (l + 1)
    · have e1 : vm_walk K s1.mem (l + 1) tbl va1 =
          vm_walk K s1.mem l (pte_pa K (readQ s.mem (tbl + 8 * pageindex K va (l + 1)))) va1 := by
        simp only [vm_walk]
        rw [he, hi, if_pos hp]
      have e2 : vm_walk K s.mem (l + 1) tbl va1 =
          vm_walk K s.mem l (pte_pa K (readQ s.mem (tbl + 8 * pageindex K va (l + 1)))) va1 := by
        simp only [vm_walk]
        rw [hi, if_pos hp]
      rw [e1, e2, hc.walk va1]
      simp only [idxs, hi, List.cons.injEq, true_and]
    · have hcond : ¬ (rc = 0 ∧ idxs K va1 (l + 1) = idxs K va (l + 1) ∧
          pageindex K va1 0 = pageindex K va 0) := by
        intro h
        simp only [idxs, List.cons.injEq] at h
        exact hi h.2.1.1
      rw [if_neg hcond]
      simp only [vm_walk]
      rw [he]
      split
      · rename_i hp1
        have hc1 : role (readQ s.mem (tbl + 8 * pageindex K va1 (l + 1)) / K.PAGESIZE) =
            some (p, path ++ [pageindex K va1 (l + 1)]) := by
          have := (hT _ _ _ hr).2 (pageindex K va1 (l + 1)) (pageindex_lt hK _ _) (by omega)
            (by rw [aligned_eq tbl hal]; exact hp1)
          rw [aligned_eq tbl hal] at this
          exact this
        apply vm_walk_congr hK role s.mem s1.mem p hT l _ (path ++ [pageindex K va1 (l + 1)])
        · rw [pte_pa_frame hK.page_pos]; exact hc1
        · exact pte_pa_aligned _
        · rw [List.length_append]; simp; omega
        · intro a q hq
          by_contra hne
          rcases hc.mem_frame a hne with ⟨h1, h2⟩ | ⟨q2, hq2⟩
          · have := entry_range_frame hK _ (pageindex K va l) a (pte_pa_aligned _)
              (pageindex_lt hK _ _) h1 h2
            rw [pte_pa_frame hK.page_pos] at this
            rw [this, hchild] at hq
            have h3 := (Prod.mk.inj (Option.some.inj hq)).2
            simp at h3
            exact hi h3.1.symm
          · rw [hc.role_keep _ (by rw [hq]; simp), hq] at hq2
            have h3 := (Prod.mk.inj (Option.some.inj hq2)).2
            simp at h3
            exact hi h3.1
      · rfl

/-- Two calls in sequence, the first of which leaves all walks as they were. -/
theorem MapPost.comp {p : Nat} {path : List Nat} {l tbl va pa perm : Nat} {s s2 s1 : KState}
    {role role2 role1 : Roles} {rc : Int}
    (h1 : MapPost K p path l tbl va pa perm s role (-1) s2 role2)
    (h2 : MapPost K p path l tbl va pa perm s2 role2 rc s1 role1) :
    MapPost K p path l tbl va pa perm s role rc s1 role1 where
  rc_cases := h2.rc_cases
  ptable_eq := h2.ptable_eq.trans h1.ptable_eq
  current_eq := h2.current_eq.trans h1.current_eq
  ticks_eq := h2.ticks_eq.trans h1.ticks_eq
  cursor := h2.cursor
  role_ext := by
    intro t
    rcases h1.role_ext t with a1 | ⟨a1, a2, a3, q, a4⟩
    · rcases h2.role_ext t with b1 | ⟨b1, b2, b3, q, b4⟩
      · exact Or.inl (b1.trans a1)
      · refine Or.inr ⟨a1 ▸ b1, ?_, b3, q, b4⟩
        have hp := h1.pages_eq t a1
        unfold isFreeFrame at b2 ⊢
        rw [hp] at b2
        exact b2
    · have b1 := h2.role_keep t (by rw [a4]; simp)
      refine Or.inr ⟨a1, a2, ?_, q, b1.trans a4⟩
      rw [h2.pages_eq t b1, a3]
  pages_eq := by
    intro t ht
    have a1 : role2 t = role t := by
      rcases h1.role_ext t with a1 | ⟨a1, _, _, q, a4⟩
      · exact a1
      · exfalso
        have b1 := h2.role_keep t (by rw [a4]; simp)
        rw [b1, a4, a1] at ht
        exact absurd ht (by simp)
    rw [h2.pages_eq t (ht.trans a1.symm), h1.pages_eq t a1]
  mem_frame := by
    intro a ha
    by_cases h : s2.mem a = s.mem a
    · rw [← h] at ha
      exact h2.mem_frame a ha
    · rcases h1.mem_frame a h with a1 | ⟨q, a1⟩
      · exact Or.inl a1
      · exact Or.inr ⟨q, by rw [h2.role_keep _ (by rw [a1]; simp), a1]⟩
  tables := h2.tables
  walk := by
    intro va1
    rw [h2.walk va1, h1.walk va1]
    have : ¬ ((-1 : Int) = 0 ∧ idxs K va1 l = idxs K va l ∧
        pageindex K va1 0 = pageindex K va 0) := by
      intro h; exact absurd h.1 (by decide)
    rw [if_neg this]

/-- Typed frames stay owned through a call. -/
theorem MapPost.roles_owned {p : Nat} {path : List Nat} {l tbl va pa perm : Nat} {s : KState}
    {role : Roles} {rc : Int} {s1 : KState} {role1 : Roles}
    (h : MapPost K p path l tbl va pa perm s role rc s1 role1) (ho : RolesOwned K s role) :
    RolesOwned K s1 role1 := by
  intro t ht
  rcases h.role_ext t with h1 | ⟨_, h2, h3, _⟩
  · rw [h1] at ht
    intro hfree
    apply ho t ht
    unfold isFreeFrame at hfree ⊢
    rw [← h.pages_eq t h1]
    exact hfree
  · intro hfree
    have := hfree.2
    rw [h3] at this
    exact absurd this (by decide)

/-- A call that changes neither memory nor `pages[]`. -/
theorem map_post_same (p : Nat) (l tbl va pa perm : Nat) (path : List Nat)
    (s s1 : KState) (role : Roles) (rc : Int) (hT : TablesOK K s.mem role)
    (hm : s1.mem = s.mem) (hpg : s1.pages = s.pages) (hpt : s1.ptable = s.ptable)
    (hcu : s1.current = s.current) (hti : s1.ticks = s.ticks) (hc : cursorOK K s1)
    (hrc : rc = -1 ∨ (rc = 0 ∧ pa + perm = 0 ∧
      hasflag (readQ s.mem (tbl + 8 * pageindex K va (l + 1))) PTE_P ≠ true)) :
    MapPost K p path (l + 1) tbl va pa perm s role rc s1 role where
  rc_cases := by rcases hrc with h | h; exact Or.inr h; exact Or.inl h.1
  ptable_eq := hpt
  current_eq := hcu
  ticks_eq := hti
  cursor := hc
  role_ext := fun _ => Or.inl rfl
  pages_eq := fun _ _ => by rw [hpg]
  mem_frame := fun a ha => absurd (by rw [hm]) ha
  tables := by rw [hm]; exact hT
  walk := by
    intro va1
    rw [hm]
    rcases hrc with h | ⟨h1, h2, h3⟩
    · rw [if_neg (by rw [h]; intro hh; exact absurd hh.1 (by decide))]
    · split
      · rename_i hcond
        simp only [idxs, List.cons.injEq] at hcond
        simp only [vm_walk]
        rw [hcond.2.1.1, if_neg h3, h2]
      · rfl

/-- The step of `vm_map` that allocates the missing table page in the free frame `f`
and links it: all walks are as before, and the entry for `va` is now present. -/
theorem map_post_link (hK : K.Geom) (p : Nat) (l tbl va pa perm : Nat) (path : List Nat)
    (s : KState) (role : Roles) (hT : TablesOK K s.mem role) (hO : RolesOwned K s role)
    (hr : role (tbl / K.PAGESIZE) = some (p, path)) (hal : tbl % K.PAGESIZE = 0)
    (hlen : path.length + (l + 1) = 3)
    (hnp : hasflag (readQ s.mem (tbl + 8 * pageindex K va (l + 1))) PTE_P ≠ true)
    (f : Nat) (hf : isFreeFrame K s f) (s2 : KState)
    (hs2 : s2 = { (kalloc_at K s (f * K.PAGESIZE)) with
      mem := writeQ (memset (kalloc_at K s (f * K.PAGESIZE)).mem (f * K.PAGESIZE) 0 K.PAGESIZE)
        (tbl + 8 * pageindex K va (l + 1)) (f * K.PAGESIZE + (PTE_P + PTE_W + PTE_U)) })
    (hcur : cursorOK K s2) :
    MapPost K p path (l + 1) tbl va pa perm s role (-1) s2
      (fun t => if t = f then some (p, path ++ [pageindex K va (l + 1)]) else role t) ∧
    readQ s2.mem (tbl + 8 * pageindex K va (l + 1)) = f * K.PAGESIZE + (PTE_P + PTE_W + PTE_U) := by
  have hP := hK.page_pos
  have hrf : role f = none := by
    by_contra h
    exact hO f h hf
  have hftbl : tbl / K.PAGESIZE ≠ f := by
    intro h
    rw [h, hrf] at hr
    exact absurd hr (by simp)
  have hflt : f * K.PAGESIZE + (PTE_P + PTE_W + PTE_U) < 2 ^ 64 := by
    have h1 := hK.wf.alloc_lt _ hf.1
    have h2 := hK.phys64
    have h3 := hK.wf.phys_eq
    have h4 := hK.page_ge
    have hfN : f < K.NPAGES := by
      rw [h3] at h1
      exact Nat.lt_of_mul_lt_mul_right h1
    have h5 : (f + 1) * K.PAGESIZE ≤ K.NPAGES * K.PAGESIZE := Nat.mul_le_mul_right _ hfN
    have h6 : (f + 1) * K.PAGESIZE = f * K.PAGESIZE + K.PAGESIZE := by ring
    unfold PTE_P PTE_W PTE_U
    omega
  -- memory of the new state, by cases
  have hmem : ∀ a, s2.mem a =
      if tbl + 8 * pageindex K va (l + 1) ≤ a ∧ a < tbl + 8 * pageindex K va (l + 1) + 8 then
        (f * K.PAGESIZE + (PTE_P + PTE_W + PTE_U)) / 256 ^ (a - (tbl + 8 * pageindex K va (l + 1))) % 256
      else if a / K.PAGESIZE = f then 0 else s.mem a := by
    intro a
    rw [hs2]
    simp only [kalloc_at, writeQ, memset]
    split
    · rfl
    · have hiff : (f * K.PAGESIZE ≤ a ∧ a < f * K.PAGESIZE + K.PAGESIZE) ↔ a / K.PAGESIZE = f := by
        constructor
        · intro ⟨h1, h2⟩
          have := frame_add hP f (a - f * K.PAGESIZE) (by omega)
          rw [← this]; congr 1; omega
        · intro h
          have h1 := Nat.div_add_mod a K.PAGESIZE
          have h2 := Nat.mod_lt a hP
          rw [h, Nat.mul_comm] at h1
          omega
      by_cases hfa : a / K.PAGESIZE = f
      · rw [if_pos (hiff.2 hfa), if_pos hfa]
      · rw [if_neg (fun h => hfa (hiff.1 h)), if_neg (fun h => hfa (hiff.1 h)), if_neg hfa]
  have hinner : ∀ a, tbl + 8 * pageindex K va (l + 1) ≤ a ∧
      a < tbl + 8 * pageindex K va (l + 1) + 8 → a / K.PAGESIZE = tbl / K.PAGESIZE :=
    fun a h => entry_range_frame hK tbl _ a hal (pageindex_lt hK _ _) h.1 h.2
  -- frames other than `f` and `tbl` are as before
  have hother : ∀ a, a / K.PAGESIZE ≠ f → a / K.PAGESIZE ≠ tbl / K.PAGESIZE → s2.mem a = s.mem a := by
    intro a h1 h2
    rw [hmem a, if_neg (fun h => h2 (hinner a h)), if_neg h1]
  have hzero : ∀ a, a / K.PAGESIZE = f → s2.mem a = 0 := by
    intro a h
    rw [hmem a, if_neg (fun h2 => hftbl ((hinner a h2).symm.trans h)), if_pos h]
  have hentry : readQ s2.mem (tbl + 8 * pageindex K va (l + 1)) =
      f * K.PAGESIZE + (PTE_P + PTE_W + PTE_U) := by
    have : s2.mem = writeQ (memset (kalloc_at K s (f * K.PAGESIZE)).mem (f * K.PAGESIZE) 0 K.PAGESIZE)
        (tbl + 8 * pageindex K va (l + 1)) (f * K.PAGESIZE + (PTE_P + PTE_W + PTE_U)) := by
      rw [hs2]
    rw [this, readQ_writeQ_same _ _ _ hflt]
  -- entries of `tbl` other than the linked one are as before
  have htblent : ∀ j, j < K.NENT → j ≠ pageindex K va (l + 1) →
      readQ s2.mem (tbl + 8 * j) = readQ s.mem (tbl + 8 * j) := by
    intro j hj hne
    apply readQ_congr
    intro k hk
    rw [hmem, if_neg (by omega), if_neg]
    have := entry_frame hK (tbl / K.PAGESIZE) j k hj hk
    rw [aligned_eq tbl hal] at this
    rw [this]
    exact hftbl
  have hpages : ∀ t, t ≠ f → s2.pages t = s.pages t := by
    intro t ht
    rw [hs2]
    simp only [kalloc_at, upd, frame_mul hP]
    rw [if_neg ht]
  have hpagef : s2.pages f = { owner := -1, sharers := 0 } := by
    rw [hs2]
    simp only [kalloc_at, upd, frame_mul hP, if_true]
  refine ⟨?_, hentry⟩
  refine
    { rc_cases := Or.inr rfl
      ptable_eq := by rw [hs2]; rfl
      current_eq := by rw [hs2]; rfl
      ticks_eq := by rw [hs2]; rfl
      cursor := hcur
      role_ext := ?_
      pages_eq := ?_
      mem_frame := ?_
      tables := ?_
      walk := ?_ }
  · intro t
    by_cases ht : t = f
    · right
      subst ht
      exact ⟨hrf, hf, hpagef, [], by simp⟩
    · left
      simp only [if_neg ht]
  · intro t ht
    apply hpages
    intro h
    subst h
    simp only [if_true, hrf] at ht
    exact absurd ht (by simp)
  · intro a ha
    by_cases h1 : tbl + 8 * pageindex K va (l + 1) ≤ a ∧ a < tbl + 8 * pageindex K va (l + 1) + 8
    · exact Or.inl h1
    · right
      refine ⟨[], ?_⟩
      have : a / K.PAGESIZE = f := by
        by_contra h2
        apply ha
        rw [hmem a, if_neg h1, if_neg h2]
      simp only [this, if_true]
  · intro t q pt hrt
    by_cases ht : t = f
    · subst ht
      simp only [if_true] at hrt
      have hpq := Prod.mk.inj (Option.some.inj hrt)
      refine ⟨by rw [← hpq.2, List.length_append]; simp; omega, fun i hi _ hp => ?_⟩
      exfalso
      have hz : readQ s2.mem (t * K.PAGESIZE + 8 * i) = 0 := by
        apply readQ_zero
        intro j hj
        exact hzero _ (entry_frame hK t i j hi hj)
      rw [hz] at hp
      exact absurd hp (by decide)
    · simp only [if_neg ht] at hrt
      refine ⟨(hT t q pt hrt).1, fun i hi hl hp => ?_⟩
      by_cases hti : t = tbl / K.PAGESIZE ∧ i = pageindex K va (l + 1)
      · obtain ⟨h1, h2⟩ := hti
        subst h1 h2
        rw [aligned_eq tbl hal, hentry, frame_add hP f _ (by
          have := hK.page_ge; unfold PTE_P PTE_W PTE_U; omega)]
        rw [hr] at hrt
        have hpq := Prod.mk.inj (Option.some.inj hrt)
        simp only [if_true]
        rw [hpq.1, hpq.2]
      · have heq : readQ s2.mem (t * K.PAGESIZE + 8 * i) = readQ s.mem (t * K.PAGESIZE + 8 * i) := by
          by_cases h1 : t = tbl / K.PAGESIZE
          · subst h1
            rw [aligned_eq tbl hal]
            exact htblent i hi (fun h => hti ⟨rfl, h⟩)
          · apply readQ_congr
            intro j hj
            apply hother
            · rw [entry_frame hK t i j hi hj]; exact ht
            · rw [entry_frame hK t i j hi hj]; exact h1
        rw [heq] at hp ⊢
        have hch := (hT t q pt hrt).2 i hi hl hp
        have hne : readQ s.mem (t * K.PAGESIZE + 8 * i) / K.PAGESIZE ≠ f := by
          intro h
          rw [h, hrf] at hch
          exact absurd hch (by simp)
        simp only [if_neg hne]
        exact hch
  · intro va1
    rw [if_neg (by intro hh; exact absurd hh.1 (by decide))]
    by_cases hi : pageindex K va1 (l + 1) = pageindex K va (l + 1)
    · simp only [vm_walk]
      rw [hi, hentry, if_pos (hasflag_link hK f), if_neg hnp]
      apply vm_walk_zero hK
      · exact pte_pa_aligned _
      · intro a ha
        apply hzero
        rw [ha, pte_pa_frame hP, frame_add hP f _ (by
          have := hK.page_ge; unfold PTE_P PTE_W PTE_U; omega)]
    · simp only [vm_walk]
      rw [htblent _ (pageindex_lt hK _ _) hi]
      split
      · rename_i hp1
        have hc1 : role (readQ s.mem (tbl + 8 * pageindex K va1 (l + 1)) / K.PAGESIZE) =
            some (p, path ++ [pageindex K va1 (l + 1)]) := by
          have := (hT _ _ _ hr).2 (pageindex K va1 (l + 1)) (pageindex_lt hK _ _) (by omega)
            (by rw [aligned_eq tbl hal]; exact hp1)
          rw [aligned_eq tbl hal] at this
          exact this
        apply vm_walk_congr hK role s.mem s2.mem p hT l _ (path ++ [pageindex K va1 (l + 1)])
        · rw [pte_pa_frame hP]; exact hc1
        · exact pte_pa_aligned _
        · rw [List.length_append]; simp; omega
        · intro a q hq
          apply hother
          · intro h
            rw [h, hrf] at hq
            exact absurd hq (by simp)
          · intro h
            rw [h, hr] at hq
            have h3 := (Prod.mk.inj (Option.some.inj hq)).2
            simp at h3
      · rfl

/-- What `vm_map` achieves, at every level: with the typing `role` of the page
tables respected before the call, there is a typing after the call for which
`MapPost` holds. -/
theorem vm_map_post (hK : K.Geom) (p : Nat) : ∀ (l tbl va pa perm : Nat) (path : List Nat)
    (s : KState) (role : Roles), cursorOK K s → TablesOK K s.mem role → RolesOwned K s role →
    role (tbl / K.PAGESIZE) = some (p, path) → tbl % K.PAGESIZE = 0 → path.length + l = 3 →
    pa + perm < 2 ^ 64 → (perm = 0 → pa = 0) →
    ∃ role1, MapPost K p path l tbl va pa perm s role (vm_map K l tbl va pa perm s).1
      (vm_map K l tbl va pa perm s).2 role1 := by
  intro l
  induction l with
  | zero =>
    intro tbl va pa perm path s role hc hT _ hr hal hlen h64 _
    exact ⟨role, map_post_leaf hK p tbl va pa perm path s role hc hT hr hal hlen h64⟩
  | succ l ih =>
    intro tbl va pa perm path s role hc hT hO hr hal hlen h64 hz
    have hP := hK.page_pos
    by_cases hp : hasflag (readQ s.mem (tbl + 8 * pageindex K va (l + 1))) PTE_P = true
    · have hv : vm_map K (l + 1) tbl va pa perm s =
          vm_map K l (pte_pa K (readQ s.mem (tbl + 8 * pageindex K va (l + 1)))) va pa perm s := by
        simp only [vm_map]
        rw [if_pos hp]
      have hchild : role (readQ s.mem (tbl + 8 * pageindex K va (l + 1)) / K.PAGESIZE) =
          some (p, path ++ [pageindex K va (l + 1)]) := by
        have := (hT _ _ _ hr).2 (pageindex K va (l + 1)) (pageindex_lt hK _ _) (by omega)
          (by rw [aligned_eq tbl hal]; exact hp)
        rw [aligned_eq tbl hal] at this
        exact this
      obtain ⟨role1, h1⟩ := ih (pte_pa K (readQ s.mem (tbl + 8 * pageindex K va (l + 1)))) va pa perm
        (path ++ [pageindex K va (l + 1)]) s role hc hT hO
        (by rw [pte_pa_frame hP]; exact hchild) (pte_pa_aligned _)
        (by rw [List.length_append]; simp; omega) h64 hz
      rw [hv]
      exact ⟨role1, map_post_descend hK p l tbl va pa perm path s role hT hr hal hlen hp _ _ _ h1⟩
    · by_cases hperm : perm = 0
      · have hv : vm_map K (l + 1) tbl va pa perm s = (0, s) := by
          simp only [vm_map]
          rw [if_neg hp, if_pos hperm]
        rw [hv]
        refine ⟨role, map_post_same p l tbl va pa perm path s s role 0 hT rfl rfl rfl rfl rfl hc
          (Or.inr ⟨rfl, ?_, hp⟩)⟩
        rw [hperm, hz hperm]
      · rcases kalloc_spec hK.wf s hc with ⟨h1, _, c, h2⟩ | ⟨f, h1, h2, h3⟩
        · have hv : vm_map K (l + 1) tbl va pa perm s = (-1, (kalloc K K.PAGESIZE s).2) := by
            simp only [vm_map]
            rw [if_neg hp, if_neg hperm, if_pos h1]
          rw [hv]
          refine ⟨role, map_post_same p l tbl va pa perm path s _ role (-1) hT ?_ ?_ ?_ ?_ ?_
            (kalloc_cursorOK hK.wf s _ hc) (Or.inl rfl)⟩ <;> rw [h2]
        · have hne : (kalloc K K.PAGESIZE s).1 ≠ 0 := by
            rw [h1]
            have := hK.wf.alloc_pos _ h2.1
            omega
          have hv : vm_map K (l + 1) tbl va pa perm s =
              vm_map K l (f * K.PAGESIZE) va pa perm
                { (kalloc_at K s (f * K.PAGESIZE)) with
                  mem := writeQ (memset (kalloc_at K s (f * K.PAGESIZE)).mem (f * K.PAGESIZE) 0
                      K.PAGESIZE)
                    (tbl + 8 * pageindex K va (l + 1)) (f * K.PAGESIZE + (PTE_P + PTE_W + PTE_U)) } := by
            simp only [vm_map]
            rw [if_neg hp, if_neg hperm, if_neg hne, h1, h3]
          have hcur2 : cursorOK K
              { (kalloc_at K s (f * K.PAGESIZE)) with
                mem := writeQ (memset (kalloc_at K s (f * K.PAGESIZE)).mem (f * K.PAGESIZE) 0
                    K.PAGESIZE)
                  (tbl + 8 * pageindex K va (l + 1)) (f * K.PAGESIZE + (PTE_P + PTE_W + PTE_U)) } := by
            have := kalloc_cursorOK hK.wf s K.PAGESIZE hc
            rw [h3] at this
            exact this
          obtain ⟨hl, hentry⟩ := map_post_link hK p l tbl va pa perm path s role hT hO hr hal hlen hp
            f h2 _ rfl hcur2
          have hO2 := hl.roles_owned hO
          have hflag : (PTE_P + PTE_W + PTE_U) < K.PAGESIZE := by
            have := hK.page_ge; unfold PTE_P PTE_W PTE_U; omega
          obtain ⟨role3, h4⟩ := ih (f * K.PAGESIZE) va pa perm (path ++ [pageindex K va (l + 1)]) _ _
            hcur2 hl.tables hO2 (by simp only [frame_mul hP, if_true])
            (Nat.mul_mod_left _ _) (by rw [List.length_append]; simp; omega) h64 hz
          rw [hv]
          refine ⟨role3, hl.comp ?_⟩
          apply map_post_descend hK p l tbl va pa perm path _ _ hl.tables
            (by rw [hl.role_keep _ (by rw [hr]; simp), hr]) hal hlen
            (by rw [hentry]; exact hasflag_link hK f)
          rw [hentry, pte_pa_mk hP f _ hflag]
          exact h4

end MapLemmas

section Pages

variable {K : Config}

theorem digits4 (N x : Nat) :
    x % N ^ 4 = x % N + N * (x / N % N + N * (x / N ^ 2 % N + N * (x / N ^ 3 % N))) := by
  have e4 : N ^ 4 = N * (N * (N * N)) := by ring
  have e2 : N ^ 2 = N * N := by ring
  have e3 : N ^ 3 = N * N * N := by ring
  rw [e4, e2, e3, Nat.mod_mul, Nat.mod_mul, Nat.mod_mul, Nat.div_div_eq_div_mul,
    Nat.div_div_eq_div_mul]

theorem pageindex_eq_vpn (va l : Nat) (hl : l ≤ 3) :
    pageindex K va l = vpn K va / K.NENT ^ l % K.NENT := by
  unfold pageindex vpn
  have e : K.NENT ^ 4 = K.NENT ^ l * K.NENT ^ (4 - l) := by
    rw [← pow_add]; congr 1; omega
  rw [e, Nat.mod_mul_right_div_self]
  have hd : K.NENT ∣ K.NENT ^ (4 - l) := dvd_pow_self _ (by omega)
  rw [Nat.mod_mod_of_dvd _ hd]

theorem samePage_iff (hK : K.Geom) (va vb : Nat) : samePage K va vb ↔ vpn K va = vpn K vb := by
  constructor
  · intro ⟨h1, h2⟩
    simp only [idxs, List.cons.injEq, and_true] at h1
    obtain ⟨h3, h4, h5⟩ := h1
    unfold pageindex at h2 h3 h4 h5
    rw [pow_zero, Nat.div_one] at h2
    rw [pow_one] at h5
    unfold vpn
    rw [digits4, digits4 K.NENT (vb / K.PAGESIZE), h2, h3, h4, h5]
    simp only [Nat.div_one]
  · intro h
    unfold samePage
    simp only [idxs, List.cons.injEq, and_true]
    rw [pageindex_eq_vpn va 3 (by omega), pageindex_eq_vpn va 2 (by omega),
      pageindex_eq_vpn va 1 (by omega), pageindex_eq_vpn va 0 (by omega),
      pageindex_eq_vpn vb 3 (by omega), pageindex_eq_vpn vb 2 (by omega),
      pageindex_eq_vpn vb 1 (by omega), pageindex_eq_vpn vb 0 (by omega), h]
    exact ⟨⟨rfl, rfl, rfl⟩, rfl⟩

theorem samePage_refl (va : Nat) : samePage K va va := ⟨rfl, rfl⟩

theorem samePage_symm {va vb : Nat} (h : samePage K va vb) : samePage K vb va :=
  ⟨h.1.symm, h.2.symm⟩

theorem samePage_trans {va vb vc : Nat} (h1 : samePage K va vb) (h2 : samePage K vb vc) :
    samePage K va vc := ⟨h1.1.trans h2.1, h1.2.trans h2.2⟩

/-- A walk depends on the address only through its page. -/
theorem vm_walk_samePage (m : Nat → Nat) : ∀ (l tbl va vb : Nat),
    idxs K va l = idxs K vb l → pageindex K va 0 = pageindex K vb 0 →
    vm_walk K m l tbl va = vm_walk K m l tbl vb := by
  intro l
  induction l with
  | zero =>
    intro tbl va vb _ h0
    simp only [vm_walk, h0]
  | succ l ih =>
    intro tbl va vb h h0
    simp only [idxs, List.cons.injEq] at h
    simp only [vm_walk, h.1]
    split
    · exact ih _ va vb h.2 h0
    · rfl

theorem span_eq : K.VA_SPAN = K.PAGESIZE * K.NENT ^ 4 := rfl

/-- Below the translated span, the page number is the address divided by the page
size. -/
theorem vpn_of_lt (hK : K.Geom) (va : Nat) (h : va < K.VA_SPAN) : vpn K va = va / K.PAGESIZE := by
  unfold vpn
  apply Nat.mod_eq_of_lt
  rw [Nat.div_lt_iff_lt_mul hK.page_pos, Nat.mul_comm]
  exact h

theorem vpn_mul (hK : K.Geom) (v : Nat) (h : v < K.NENT ^ 4) : vpn K (v * K.PAGESIZE) = v := by
  unfold vpn
  rw [frame_mul hK.page_pos, Nat.mod_eq_of_lt h]

/-- Two page-aligned addresses below the translated span lie on the same page only
if they are equal. -/
theorem samePage_aligned (hK : K.Geom) (va vb : Nat) (ha : va < K.VA_SPAN) (hb : vb < K.VA_SPAN)
    (h1 : va % K.PAGESIZE = 0) (h2 : vb % K.PAGESIZE = 0) : samePage K va vb ↔ va = vb := by
  rw [samePage_iff hK, vpn_of_lt hK va ha, vpn_of_lt hK vb hb]
  constructor
  · intro h
    rw [← aligned_eq va h1, ← aligned_eq vb h2, h]
  · intro h
    rw [h]

end Pages

section Iter

variable {K : Config}

theorem vmiter_user_iff (m : Nat → Nat) (pt va : Nat) :
    ({ pt := pt, va := va } : vmiter).user K m = true ↔ userPresent (vm_walk K m 3 pt va) := by
  unfold vmiter.user vmiter.entry userPresent
  simp

theorem vmiter_pa_of_present (m : Nat → Nat) (pt va : Nat)
    (h : hasflag (vm_walk K m 3 pt va) PTE_P = true) :
    ({ pt := pt, va := va } : vmiter).pa K m = pte_pa K (vm_walk K m 3 pt va) + va % K.PAGESIZE := by
  unfold vmiter.pa vmiter.present vmiter.entry
  simp only [h, if_true]

theorem vmiter_perm_of_present (m : Nat → Nat) (pt va : Nat)
    (h : hasflag (vm_walk K m 3 pt va) PTE_P = true) :
    ({ pt := pt, va := va } : vmiter).perm K m = pte_flags K (vm_walk K m 3 pt va) := by
  unfold vmiter.perm vmiter.present vmiter.entry
  simp only [h, if_true]

theorem vmiter_absent (m : Nat → Nat) (pt va : Nat)
    (h : hasflag (vm_walk K m 3 pt va) PTE_P ≠ true) :
    ({ pt := pt, va := va } : vmiter).pa K m = UINTPTR_MAX ∧
    ({ pt := pt, va := va } : vmiter).perm K m = 0 := by
  unfold vmiter.pa vmiter.perm vmiter.present vmiter.entry
  simp [h]

/-- The user mapping observed by `userMapsAt`, in terms of the leaf entry. -/
theorem userMapsAt_iff (hK : K.Geom) (s : KState) (p v f : Nat) :
    userMapsAt K s p v f ↔
      v * K.PAGESIZE ≠ K.console ∧ userPresent (s.ent K p (v * K.PAGESIZE)) ∧
      s.ent K p (v * K.PAGESIZE) / K.PAGESIZE = f := by
  unfold userMapsAt
  rw [vmiter_user_iff]
  constructor
  · intro ⟨h1, h2, h3⟩
    refine ⟨h1, h2, ?_⟩
    rw [vmiter_pa_of_present _ _ _ h2.1, Nat.mul_mod_left, Nat.add_zero] at h3
    unfold KState.ent
    rw [← pte_pa_frame hK.page_pos, h3, frame_mul hK.page_pos]
  · intro ⟨h1, h2, h3⟩
    refine ⟨h1, h2, ?_⟩
    rw [vmiter_pa_of_present _ _ _ h2.1, Nat.mul_mod_left, Nat.add_zero]
    unfold KState.ent at h3
    unfold pte_pa
    rw [h3]

end Iter

section Frames

variable {K : Config}

/-- Changing memory outside the typed frames keeps the typing respected. -/
theorem TablesOK.congr_mem (hK : K.Geom) {m m1 : Nat → Nat} {role : Roles} (hT : TablesOK K m role)
    (h : ∀ a, role (a / K.PAGESIZE) ≠ none → m1 a = m a) : TablesOK K m1 role := by
  intro t p path hr
  refine ⟨(hT t p path hr).1, fun i hi hl hp => ?_⟩
  have heq : readQ m1 (t * K.PAGESIZE + 8 * i) = readQ m (t * K.PAGESIZE + 8 * i) := by
    apply readQ_congr
    intro j hj
    apply h
    rw [entry_frame hK t i j hi hj, hr]
    simp
  rw [heq] at hp ⊢
  exact (hT t p path hr).2 i hi hl hp

/-- Changing memory outside the typed frames keeps the walks of a typed tree. -/
theorem vm_walk_root_congr (hK : K.Geom) {m m1 : Nat → Nat} {role : Roles} (hT : TablesOK K m role)
    (p root : Nat) (hr : role (root / K.PAGESIZE) = some (p, [])) (hal : root % K.PAGESIZE = 0)
    (h : ∀ a, role (a / K.PAGESIZE) ≠ none → m1 a = m a) (va : Nat) :
    vm_walk K m1 3 root va = vm_walk K m 3 root va := by
  apply vm_walk_congr hK role m m1 p hT 3 root [] hr hal rfl
  intro a q hq
  apply h
  rw [hq]
  simp

/-- The address range of frame `f`. -/
theorem in_frame_iff (hP : 0 < K.PAGESIZE) (f a : Nat) :
    (f * K.PAGESIZE ≤ a ∧ a < f * K.PAGESIZE + K.PAGESIZE) ↔ a / K.PAGESIZE = f := by
  constructor
  · intro ⟨h1, h2⟩
    have := frame_add hP f (a - f * K.PAGESIZE) (by omega)
    rw [← this]; congr 1; omega
  · intro h
    have h1 := Nat.div_add_mod a K.PAGESIZE
    have h2 := Nat.mod_lt a hP
    rw [h, Nat.mul_comm] at h1
    omega

theorem memset_frame (hP : 0 < K.PAGESIZE) (m : Nat → Nat) (f a c : Nat) :
    memset m (f * K.PAGESIZE) c K.PAGESIZE a = if a / K.PAGESIZE = f then c else m a := by
  unfold memset
  by_cases h : a / K.PAGESIZE = f
  · rw [if_pos ((in_frame_iff hP f a).2 h), if_pos h]
  · rw [if_neg (fun hh => h ((in_frame_iff hP f a).1 hh)), if_neg h]

end Frames

section Mappers

variable {K : Config}

theorem console_lt_span (hK : K.Geom) : K.console < K.VA_SPAN := by
  have h1 := hK.console_low
  have h2 := hK.start_half
  have := Nat.div_le_self K.VA_SPAN 2
  omega

/-- `userMaps`, the decidable observation, in terms of leaf entries at all
addresses. -/
theorem userMaps_iff (hK : K.Geom) (s : KState) (p f : Nat) :
    userMaps K s p f ↔ s.live p ∧ s.maps K p f := by
  unfold userMaps KState.live KState.maps
  apply and_congr_right
  intro _
  constructor
  · rintro ⟨v, hv, h⟩
    rw [userMapsAt_iff hK] at h
    refine ⟨v * K.PAGESIZE, h.2.1, ?_, h.2.2⟩
    rw [samePage_aligned hK _ _ (by
        rw [span_eq, Nat.mul_comm K.PAGESIZE]
        exact Nat.mul_lt_mul_of_pos_right hv hK.page_pos) (console_lt_span hK)
      (Nat.mul_mod_left _ _) hK.console_al]
    exact h.1
  · rintro ⟨va, h1, h2, h3⟩
    have hv : vpn K va < K.NENT ^ 4 := Nat.mod_lt _ (pow_pos hK.nent_pos 4)
    have hsp : samePage K (vpn K va * K.PAGESIZE) va := by
      rw [samePage_iff hK, vpn_mul hK _ hv]
    have he : s.ent K p (vpn K va * K.PAGESIZE) = s.ent K p va :=
      vm_walk_samePage _ 3 _ _ _ hsp.1 hsp.2
    refine ⟨vpn K va, hv, ?_⟩
    rw [userMapsAt_iff hK, he]
    refine ⟨?_, h1, h3⟩
    intro hc
    apply h2
    rw [← hc]
    exact samePage_symm hsp

/-- The count of mappers does not grow when the mappings only shrink. -/
theorem mappers_mono (hK : K.Geom) (s s1 : KState) (f : Nat)
    (h : ∀ p, p < K.NPROC → s1.live p → s1.maps K p f → s.live p ∧ s.maps K p f) :
    mappers K s1 f ≤ mappers K s f := by
  unfold mappers
  apply List.countP_mono_left
  intro p hp
  simp only [decide_eq_true_eq]
  rw [userMaps_iff hK, userMaps_iff hK]
  intro ⟨h1, h2⟩
  exact h p (List.mem_range.1 hp) h1 h2

theorem countP_range_le_one (n c : Nat) :
    (List.range n).countP (fun p => decide (p = c)) ≤ 1 := by
  induction n with
  | zero => simp
  | succ n ih =>
    rw [List.range_succ, List.countP_append]
    by_cases h : n = c
    · subst h
      have : (List.range n).countP (fun p => decide (p = n)) = 0 := by
        rw [List.countP_eq_zero]
        intro a ha
        have := List.mem_range.1 ha
        simp only [decide_eq_true_eq]
        omega
      rw [this]
      simp
    · have : [n].countP (fun p => decide (p = c)) = 0 := by
        simp [h]
      rw [this]
      exact ih

theorem countP_or_le (l : List Nat) (P Q : Nat → Bool) :
    l.countP (fun p => P p || Q p) ≤ l.countP P + l.countP Q := by
  induction l with
  | nil => simp
  | cons a l ih =>
    simp only [List.countP_cons]
    cases P a <;> cases Q a <;> simp <;> omega

/-- With one more process mapping the frame, the count grows by at most one. -/
theorem mappers_le_succ (hK : K.Geom) (s s1 : KState) (f c : Nat)
    (h : ∀ p, p < K.NPROC → p ≠ c → s1.live p → s1.maps K p f → s.live p ∧ s.maps K p f) :
    mappers K s1 f ≤ mappers K s f + 1 := by
  unfold mappers
  have h1 : (List.range K.NPROC).countP (fun p => decide (userMaps K s1 p f)) ≤
      (List.range K.NPROC).countP (fun p => decide (userMaps K s p f) || decide (p = c)) := by
    apply List.countP_mono_left
    intro p hp
    simp only [decide_eq_true_eq, Bool.or_eq_true]
    rw [userMaps_iff hK, userMaps_iff hK]
    intro ⟨a1, a2⟩
    by_cases hpc : p = c
    · exact Or.inr hpc
    · exact Or.inl (h p (List.mem_range.1 hp) hpc a1 a2)
  have h3 := countP_or_le (List.range K.NPROC) (fun p => decide (userMaps K s p f))
    (fun p => decide (p = c))
  have h4 := countP_range_le_one K.NPROC c
  omega

/-- Without any process mapping the frame, the count is zero. -/
theorem mappers_zero (hK : K.Geom) (s : KState) (f : Nat)
    (h : ∀ p, p < K.NPROC → s.live p → ¬ s.maps K p f) : mappers K s f = 0 := by
  unfold mappers
  rw [List.countP_eq_zero]
  intro p hp
  simp only [decide_eq_true_eq]
  rw [userMaps_iff hK]
  intro ⟨h1, h2⟩
  exact h p (List.mem_range.1 hp) h1 h2

end Mappers

section InvBasic

variable {K : Config}

theorem Inv.rolesOwned {s : KState} {role : Roles} (h : Inv K s role) : RolesOwned K s role := by
  intro t ht hfree
  obtain ⟨⟨p, path⟩, hr⟩ := Option.ne_none_iff_exists'.1 ht
  exact (h.typed t p path hr).2.2.1 hfree.2

theorem ent_congr (s s1 : KState) (p : Nat) (hm : s1.mem = s.mem)
    (hp : (s1.ptable p).pagetable = (s.ptable p).pagetable) (va : Nat) :
    s1.ent K p va = s.ent K p va := by
  unfold KState.ent
  rw [hm, hp]

/-- The invariant does not depend on registers, `current`, `ticks`, or on which
non-Free state a process is in. -/
theorem Inv.sameSpaces (hK : K.Geom) {s s1 : KState} {role : Roles} (h : Inv K s role)
    (hs : sameSpaces s s1) (hcu : cursorOK K s1) : Inv K s1 role := by
  obtain ⟨hm, hpg, hpt⟩ := hs
  have hent : ∀ p va, s.live p → s1.ent K p va = s.ent K p va :=
    fun p va hl => ent_congr s s1 p hm ((hpt p).1 hl) va
  refine
    { cursor := hcu
      tables := by rw [hm]; exact h.tables
      typed := ?_
      spaces := ?_
      count := ?_
      sharers_nonneg := by rw [hpg]; exact h.sharers_nonneg
      free_unshared := by rw [hpg]; exact h.free_unshared
      na_clear := by rw [hpg]; exact h.na_clear
      pids := fun p hp => by rw [(hpt p).2.2]; exact h.pids p hp }
  · intro t p path hr
    rw [hpg]
    exact ⟨(hpt p).2.1.2 (h.typed t p path hr).1, (h.typed t p path hr).2⟩
  · intro p hp
    have hl := (hpt p).2.1.1 hp
    obtain ⟨h1, h2⟩ := h.spaces p hl
    refine ⟨h1, ?_⟩
    exact
      { root_role := by rw [(hpt p).1 hl]; exact h2.root_role
        root_al := by rw [(hpt p).1 hl]; exact h2.root_al
        user_untyped := by intro va; rw [hent p va hl]; exact h2.user_untyped va
        user_owned := by intro va; rw [hent p va hl, hpg]; exact h2.user_owned va
        console_na := by intro va; rw [hent p va hl]; exact h2.console_na va
        inj := by intro va vb; rw [hent p va hl, hent p vb hl]; exact h2.inj va vb }
  · intro f
    rw [hpg]
    have : mappers K s1 f ≤ mappers K s f := by
      apply mappers_mono hK
      intro p _ h1 ⟨va, a1, a2, a3⟩
      have hl := (hpt p).2.1.1 h1
      rw [hent p va hl] at a1 a3
      exact ⟨hl, va, a1, a2, a3⟩
    have := h.count f
    omega

/-- The invariant survives a change of memory outside the page-table pages. -/
theorem Inv.mem_congr (hK : K.Geom) {s : KState} {role : Roles} (h : Inv K s role)
    (m1 : Nat → Nat) (hm : ∀ a, role (a / K.PAGESIZE) ≠ none → m1 a = s.mem a) :
    Inv K { s with mem := m1 } role := by
  have hent : ∀ p va, s.live p → ({ s with mem := m1 } : KState).ent K p va = s.ent K p va := by
    intro p va hl
    have hs := (h.spaces p hl).2
    exact vm_walk_root_congr hK h.tables p _ hs.root_role hs.root_al hm va
  refine
    { cursor := h.cursor
      tables := h.tables.congr_mem hK hm
      typed := h.typed
      spaces := ?_
      count := ?_
      sharers_nonneg := h.sharers_nonneg
      free_unshared := h.free_unshared
      na_clear := h.na_clear
      pids := h.pids }
  · intro p hp
    have hl : s.live p := hp
    obtain ⟨h1, h2⟩ := h.spaces p hl
    refine ⟨h1, ?_⟩
    exact
      { root_role := h2.root_role
        root_al := h2.root_al
        user_untyped := by intro va; rw [hent p va hl]; exact h2.user_untyped va
        user_owned := by intro va; rw [hent p va hl]; exact h2.user_owned va
        console_na := by intro va; rw [hent p va hl]; exact h2.console_na va
        inj := by intro va vb; rw [hent p va hl, hent p vb hl]; exact h2.inj va vb }
  · intro f
    have : mappers K { s with mem := m1 } f ≤ mappers K s f := by
      apply mappers_mono hK
      intro p _ h1 h2
      have hl : s.live p := h1
      refine ⟨hl, ?_⟩
      obtain ⟨va, a1, a2, a3⟩ := h2
      rw [hent p va hl] at a1 a3
      exact ⟨va, a1, a2, a3⟩
    have := h.count f
    show (mappers K { s with mem := m1 } f : Int) ≤ (s.pages f).sharers + 1
    omega

end InvBasic

section Alloc

variable {K : Config}

theorem readLE_lt (m : Nat → Nat) : ∀ (n a : Nat), readLE m a n < 256 ^ n := by
  intro n
  induction n with
  | zero => intro a; simp [readLE]
  | succ n ih =>
    intro a
    simp only [readLE]
    have h1 := ih (a + 1)
    have h2 : m a % 256 < 256 := Nat.mod_lt _ (by norm_num)
    rw [pow_succ]
    omega

theorem readQ_lt (m : Nat → Nat) (a : Nat) : readQ m a < 2 ^ 64 := by
  have := readLE_lt m 8 a
  unfold readQ
  norm_num at this ⊢
  exact this

theorem vm_walk_lt (m : Nat → Nat) : ∀ (l tbl va : Nat), vm_walk K m l tbl va < 2 ^ 64 := by
  intro l
  induction l with
  | zero => intro tbl va; simp only [vm_walk]; exact readQ_lt _ _
  | succ l ih =>
    intro tbl va
    simp only [vm_walk]
    split
    · exact ih _ _
    · norm_num

/-- A free frame is not mapped user-accessibly by any process that is not Free. -/
theorem Inv.free_unmapped {s : KState} {role : Roles} (h : Inv K s role) (f : Nat)
    (hf : isFreeFrame K s f) (q : Nat) (hq : s.live q) (va : Nat)
    (hu : userPresent (s.ent K q va)) : s.ent K q va / K.PAGESIZE ≠ f := by
  intro he
  have hs := (h.spaces q hq).2
  by_cases hc : samePage K va K.console
  · have := hs.console_na va hu hc
    unfold pte_pa at this
    rw [he, hf.1] at this
    exact absurd this (by simp)
  · have := (hs.user_owned va hu hc).2
    rw [he] at this
    exact this hf.2

theorem Inv.free_untyped {s : KState} {role : Roles} (h : Inv K s role) (f : Nat)
    (hf : isFreeFrame K s f) : role f = none := by
  by_contra hne
  exact h.rolesOwned f hne hf

/-- Marking a free frame allocated and clearing it keeps the invariant. -/
theorem Inv.alloc_at (hK : K.Geom) {s : KState} {role : Roles} (h : Inv K s role) (f : Nat)
    (hf : isFreeFrame K s f) (hc : cursorOK K (kalloc_at K s (f * K.PAGESIZE))) :
    Inv K (kalloc_at K s (f * K.PAGESIZE)) role := by
  have hP := hK.page_pos
  have hrf := h.free_untyped f hf
  have hmem : ∀ a, role (a / K.PAGESIZE) ≠ none →
      (kalloc_at K s (f * K.PAGESIZE)).mem a = s.mem a := by
    intro a ha
    simp only [kalloc_at]
    rw [memset_frame hP, if_neg]
    intro hh
    rw [hh] at ha
    exact ha hrf
  have hent : ∀ p va, s.live p → (kalloc_at K s (f * K.PAGESIZE)).ent K p va = s.ent K p va := by
    intro p va hl
    have hs := (h.spaces p hl).2
    exact vm_walk_root_congr hK h.tables p _ hs.root_role hs.root_al hmem va
  have hpg : ∀ t, t ≠ f → (kalloc_at K s (f * K.PAGESIZE)).pages t = s.pages t := by
    intro t ht
    simp only [kalloc_at, upd, frame_mul hP]
    rw [if_neg ht]
  have hpf : (kalloc_at K s (f * K.PAGESIZE)).pages f = { owner := -1, sharers := 0 } := by
    simp only [kalloc_at, upd, frame_mul hP, if_true]
  refine
    { cursor := hc
      tables := h.tables.congr_mem hK hmem
      typed := ?_
      spaces := ?_
      count := ?_
      sharers_nonneg := ?_
      free_unshared := ?_
      na_clear := ?_
      pids := h.pids }
  · intro t p path hr
    have hne : t ≠ f := by
      intro hh; rw [hh, hrf] at hr; exact absurd hr (by simp)
    rw [hpg t hne]
    exact h.typed t p path hr
  · intro p hp
    have hl : s.live p := hp
    obtain ⟨h1, h2⟩ := h.spaces p hl
    refine ⟨h1, ?_⟩
    exact
      { root_role := h2.root_role
        root_al := h2.root_al
        user_untyped := by intro va; rw [hent p va hl]; exact h2.user_untyped va
        user_owned := by
          intro va
          rw [hent p va hl]
          intro hu hc
          rw [hpg _ (h.free_unmapped f hf p hl va hu)]
          exact h2.user_owned va hu hc
        console_na := by intro va; rw [hent p va hl]; exact h2.console_na va
        inj := by intro va vb; rw [hent p va hl, hent p vb hl]; exact h2.inj va vb }
  · intro t
    have hm : mappers K (kalloc_at K s (f * K.PAGESIZE)) t ≤ mappers K s t := by
      apply mappers_mono hK
      intro p _ h1 h2
      have hl : s.live p := h1
      refine ⟨hl, ?_⟩
      obtain ⟨va, a1, a2, a3⟩ := h2
      rw [hent p va hl] at a1 a3
      exact ⟨va, a1, a2, a3⟩
    by_cases ht : t = f
    · subst ht
      rw [hpf]
      have h0 : mappers K s t = 0 := by
        apply mappers_zero hK
        intro p _ hl ⟨va, a1, _, a3⟩
        exact h.free_unmapped t hf p hl va a1 a3
      show (mappers K (kalloc_at K s (t * K.PAGESIZE)) t : Int) ≤ 0 + 1
      omega
    · rw [hpg t ht]
      have := h.count t
      omega
  · intro t
    by_cases ht : t = f
    · subst ht; rw [hpf]
    · rw [hpg t ht]; exact h.sharers_nonneg t
  · intro t
    by_cases ht : t = f
    · subst ht; rw [hpf]; intro hh; exact absurd hh (by decide)
    · rw [hpg t ht]; exact h.free_unshared t
  · intro t hna
    have ht : t ≠ f := by
      intro hh; rw [hh, hf.1] at hna; exact absurd hna (by simp)
    rw [hpg t ht]
    exact h.na_clear t hna

/-- `kalloc` keeps the invariant; a frame it returns was free. -/
theorem Inv.alloc (hK : K.Geom) {s : KState} {role : Roles} (h : Inv K s role) :
    Inv K (kalloc K K.PAGESIZE s).2 role ∧
    (kalloc K K.PAGESIZE s).2.ptable = s.ptable ∧
    (kalloc K K.PAGESIZE s).2.current = s.current ∧
    ((kalloc K K.PAGESIZE s).1 = 0 ∨
      ∃ f, (kalloc K K.PAGESIZE s).1 = f * K.PAGESIZE ∧ 0 < f ∧ isFreeFrame K s f ∧
        (kalloc K K.PAGESIZE s).2 = kalloc_at K s (f * K.PAGESIZE)) := by
  have hc := kalloc_cursorOK hK.wf s K.PAGESIZE h.cursor
  rcases kalloc_spec hK.wf s h.cursor with ⟨h1, _, c, h2⟩ | ⟨f, h1, h2, h3⟩
  · refine ⟨?_, by rw [h2], by rw [h2], Or.inl h1⟩
    rw [h2] at hc ⊢
    exact h.sameSpaces hK ⟨rfl, rfl, fun p => ⟨fun _ => rfl, Iff.rfl, rfl⟩⟩ hc
  · rw [h3] at hc
    refine ⟨by rw [h3]; exact h.alloc_at hK f h2 hc, by rw [h3]; rfl, by rw [h3]; rfl,
      Or.inr ⟨f, h1, ?_, h2, h3⟩⟩
    have := hK.wf.alloc_pos _ h2.1
    have := hK.page_pos
    by_contra hf0
    have : f = 0 := by omega
    subst this
    omega

end Alloc

section Install

variable {K : Config}

/-- Installing a leaf entry in the tree of a process that is not Free keeps the
invariant, when a new user-accessible mapping names an untyped frame: on the
console page one that is not allocatable, elsewhere an owned allocatable frame that
the process maps on no other page and whose sharers account for the new mapper.
The state `s2` is the state after the call, with the sharers of the mapped frame
possibly raised. -/
theorem Inv.install (hK : K.Geom) {s : KState} {role : Roles} (h : Inv K s role) (p : Nat)
    (hl : s.live p) {va pa perm : Nat} {rc : Int} {s1 : KState} {role1 : Roles}
    (hm : MapPost K p [] 3 (s.ptable p).pagetable va pa perm s role rc s1 role1)
    (s2 : KState) (hmem : s2.mem = s1.mem) (hpt : s2.ptable = s1.ptable)
    (hcu : s2.next_alloc_pa = s1.next_alloc_pa)
    (hpages : ∀ t, s2.pages t = s1.pages t ∨
      (rc = 0 ∧ userPresent (pa + perm) ∧ ¬ samePage K va K.console ∧
        t = (pa + perm) / K.PAGESIZE ∧
        (s2.pages t).owner = (s1.pages t).owner ∧ (s1.pages t).sharers ≤ (s2.pages t).sharers))
    (hnew : rc = 0 → userPresent (pa + perm) →
      role ((pa + perm) / K.PAGESIZE) = none ∧
      (samePage K va K.console →
        K.allocatable_physical_address (pte_pa K (pa + perm)) = false) ∧
      (¬ samePage K va K.console →
        K.allocatable_physical_address (pte_pa K (pa + perm)) = true ∧
        (s.pages ((pa + perm) / K.PAGESIZE)).owner ≠ 0 ∧
        (∀ vb, userPresent (s.ent K p vb) → ¬ samePage K vb K.console →
          s.ent K p vb / K.PAGESIZE = (pa + perm) / K.PAGESIZE → samePage K vb va) ∧
        (mappers K s ((pa + perm) / K.PAGESIZE) : Int) + 1 ≤
          (s2.pages ((pa + perm) / K.PAGESIZE)).sharers + 1)) :
    Inv K s2 role1 := by
  have hlive : ∀ q, s2.live q ↔ s.live q := by
    intro q; unfold KState.live; rw [hpt, hm.ptable_eq]
  have hroot : ∀ q, (s2.ptable q).pagetable = (s.ptable q).pagetable := by
    intro q; rw [hpt, hm.ptable_eq]
  have hps := (h.spaces p hl).2
  have hnf : ∀ t, ¬ isFreeFrame K s t → role1 t = role t := by
    intro t ht
    rcases hm.role_ext t with h1 | ⟨_, h2, _⟩
    · exact h1
    · exact absurd h2 ht
  have hpg1 : ∀ t, ¬ isFreeFrame K s t → s1.pages t = s.pages t :=
    fun t ht => hm.pages_eq t (hnf t ht)
  have hsh1 : ∀ t, (s1.pages t).sharers = (s.pages t).sharers := by
    intro t
    rcases hm.role_ext t with h1 | ⟨_, h2, h3, _⟩
    · rw [hm.pages_eq t h1]
    · rw [h3, h.free_unshared t h2.2]
  have hsh2 : ∀ t, (s.pages t).sharers ≤ (s2.pages t).sharers := by
    intro t
    rcases hpages t with h1 | ⟨_, _, _, _, _, h1⟩
    · rw [h1, hsh1]
    · rw [← hsh1]; exact h1
  have hown2 : ∀ t, (s2.pages t).owner = (s1.pages t).owner := by
    intro t
    rcases hpages t with h1 | ⟨_, _, _, _, h1, _⟩
    · rw [h1]
    · exact h1
  have hentA : ∀ vb, rc = 0 → samePage K vb va → s2.ent K p vb = pa + perm := by
    intro vb h1 h2
    unfold KState.ent
    rw [hmem, hroot p, hm.walk vb]
    exact if_pos ⟨h1, h2⟩
  have hentB : ∀ vb, ¬ (rc = 0 ∧ samePage K vb va) → s2.ent K p vb = s.ent K p vb := by
    intro vb h1
    unfold KState.ent
    rw [hmem, hroot p, hm.walk vb]
    exact if_neg h1
  have hentq : ∀ q, s.live q → q ≠ p → ∀ vb, s2.ent K q vb = s.ent K q vb := by
    intro q hq hne vb
    have hs := (h.spaces q hq).2
    unfold KState.ent
    rw [hmem, hroot q]
    apply vm_walk_congr hK role s.mem s1.mem q h.tables 3 _ [] hs.root_role hs.root_al rfl
    intro a π ha
    by_contra hne2
    rcases hm.mem_frame a hne2 with h1 | ⟨π1, h1⟩
    · have := entry_range_frame hK _ _ a hps.root_al (pageindex_lt hK va 3) h1.1 h1.2
      rw [this, hps.root_role] at ha
      simp only [Option.some.injEq, Prod.mk.injEq] at ha
      exact hne ha.1.symm
    · have := hm.role_keep (a / K.PAGESIZE) (by rw [ha]; simp)
      rw [this, ha] at h1
      simp only [Option.some.injEq, Prod.mk.injEq] at h1
      exact hne h1.1
  have hcase : ∀ q vb, s.live q →
      (q = p ∧ rc = 0 ∧ samePage K vb va ∧ s2.ent K q vb = pa + perm) ∨
      (s2.ent K q vb = s.ent K q vb ∧ ¬ (q = p ∧ rc = 0 ∧ samePage K vb va)) := by
    intro q vb hq
    by_cases h1 : q = p ∧ rc = 0 ∧ samePage K vb va
    · left
      obtain ⟨rfl, h2, h3⟩ := h1
      exact ⟨rfl, h2, h3, hentA vb h2 h3⟩
    · right
      refine ⟨?_, h1⟩
      by_cases h2 : q = p
      · subst h2
        exact hentB vb (fun hh => h1 ⟨rfl, hh⟩)
      · exact hentq q hq h2 vb
  have hold : ∀ q vb, s.live q → userPresent (s.ent K q vb) →
      ¬ isFreeFrame K s (s.ent K q vb / K.PAGESIZE) :=
    fun q vb hq hu hf => h.free_unmapped _ hf q hq vb hu rfl
  have hnewnf : rc = 0 → userPresent (pa + perm) →
      ¬ isFreeFrame K s ((pa + perm) / K.PAGESIZE) := by
    intro h1 h2 hf
    obtain ⟨_, h3, h4⟩ := hnew h1 h2
    by_cases hc : samePage K va K.console
    · have := h3 hc
      unfold pte_pa at this
      rw [hf.1] at this
      exact absurd this (by simp)
    · exact (h4 hc).2.1 hf.2
  refine
    { cursor := by unfold cursorOK; rw [hcu]; exact hm.cursor
      tables := by rw [hmem]; exact hm.tables
      typed := ?_
      spaces := ?_
      count := ?_
      sharers_nonneg := fun t => le_trans (h.sharers_nonneg t) (hsh2 t)
      free_unshared := ?_
      na_clear := ?_
      pids := fun q hq => by rw [hpt, hm.ptable_eq]; exact h.pids q hq }
  · intro t q path hr
    rcases hm.role_ext t with h1 | ⟨h1, h2, h3, π, h4⟩
    · rw [h1] at hr
      obtain ⟨a1, a2, a3, a4⟩ := h.typed t q path hr
      have e2 : s2.pages t = s1.pages t := by
        rcases hpages t with e | ⟨b1, b2, _, b3, _⟩
        · exact e
        · rw [b3, (hnew b1 b2).1] at hr
          exact absurd hr (by simp)
      rw [e2, hm.pages_eq t h1]
      exact ⟨(hlive q).2 a1, a2, a3, a4⟩
    · rw [h4] at hr
      simp only [Option.some.injEq, Prod.mk.injEq] at hr
      have e2 : s2.pages t = s1.pages t := by
        rcases hpages t with e | ⟨b1, b2, _, b3, _⟩
        · exact e
        · rw [b3] at h2
          exact absurd h2 (hnewnf b1 b2)
      rw [e2, h3, ← hr.1]
      exact ⟨(hlive p).2 hl, h2.1, by decide, rfl⟩
  · intro q hq2
    have hq : s.live q := (hlive q).1 hq2
    obtain ⟨g1, g2⟩ := h.spaces q hq
    refine ⟨g1, ?_⟩
    have hutyp : ∀ vb, userPresent (s2.ent K q vb) →
        role (s2.ent K q vb / K.PAGESIZE) = none ∧
        ¬ isFreeFrame K s (s2.ent K q vb / K.PAGESIZE) := by
      intro vb hu
      rcases hcase q vb hq with ⟨_, c1, _, c2⟩ | ⟨c1, _⟩
      · rw [c2] at hu ⊢
        exact ⟨(hnew c1 hu).1, hnewnf c1 hu⟩
      · rw [c1] at hu ⊢
        exact ⟨g2.user_untyped vb hu, hold q vb hq hu⟩
    exact
      { root_role := by
          rw [hroot q, hm.role_keep _ (by rw [g2.root_role]; simp)]
          exact g2.root_role
        root_al := by rw [hroot q]; exact g2.root_al
        user_untyped := by
          intro vb hu
          obtain ⟨a1, a2⟩ := hutyp vb hu
          rw [hnf _ a2]
          exact a1
        user_owned := by
          intro vb hu hc
          obtain ⟨a1, a2⟩ := hutyp vb hu
          rw [hown2, hpg1 _ a2]
          rcases hcase q vb hq with ⟨_, c1, c3, c2⟩ | ⟨c1, _⟩
          · rw [c2] at hu ⊢
            have hcv : ¬ samePage K va K.console :=
              fun hh => hc (samePage_trans c3 hh)
            obtain ⟨b1, b2, _⟩ := (hnew c1 hu).2.2 hcv
            exact ⟨b1, b2⟩
          · rw [c1] at hu ⊢
            exact g2.user_owned vb hu hc
        console_na := by
          intro vb hu hc
          rcases hcase q vb hq with ⟨_, c1, c3, c2⟩ | ⟨c1, _⟩
          · rw [c2] at hu ⊢
            exact (hnew c1 hu).2.1 (samePage_trans (samePage_symm c3) hc)
          · rw [c1] at hu ⊢
            exact g2.console_na vb hu hc
        inj := by
          intro vb vc hub huc hcb hcc hfr
          rcases hcase q vb hq with ⟨b0, b1, b3, b2⟩ | ⟨b1, b2⟩
          · rcases hcase q vc hq with ⟨_, c1, c3, c2⟩ | ⟨c1, c2⟩
            · exact samePage_trans b3 (samePage_symm c3)
            · exfalso
              rw [b2] at hub hfr
              rw [c1] at huc hfr
              subst b0
              have hcv : ¬ samePage K va K.console :=
                fun hh => hcb (samePage_trans b3 hh)
              have := ((hnew b1 hub).2.2 hcv).2.2.1 vc huc hcc hfr.symm
              exact c2 ⟨rfl, b1, this⟩
          · rcases hcase q vc hq with ⟨c0, c1, c3, c2⟩ | ⟨c1, c2⟩
            · exfalso
              rw [b1] at hub hfr
              rw [c2] at huc hfr
              subst c0
              have hcv : ¬ samePage K va K.console :=
                fun hh => hcc (samePage_trans c3 hh)
              have := ((hnew c1 huc).2.2 hcv).2.2.1 vb hub hcb hfr
              exact b2 ⟨rfl, c1, this⟩
            · rw [b1] at hub hfr
              rw [c1] at huc hfr
              exact g2.inj vb vc hub huc hcb hcc hfr }
  · intro t
    by_cases hN : (rc = 0 ∧ userPresent (pa + perm) ∧ ¬ samePage K va K.console) ∧
        t = (pa + perm) / K.PAGESIZE
    · obtain ⟨⟨n1, n2, n3⟩, rfl⟩ := hN
      have hle : mappers K s2 ((pa + perm) / K.PAGESIZE) ≤
          mappers K s ((pa + perm) / K.PAGESIZE) + 1 := by
        apply mappers_le_succ hK s s2 _ p
        intro q _ hne hq2 ⟨vb, a1, a2, a3⟩
        have hq : s.live q := (hlive q).1 hq2
        rw [hentq q hq hne vb] at a1 a3
        exact ⟨hq, vb, a1, a2, a3⟩
      have := ((hnew n1 n2).2.2 n3).2.2.2
      omega
    · have hle : mappers K s2 t ≤ mappers K s t := by
        apply mappers_mono hK
        intro q _ hq2 ⟨vb, a1, a2, a3⟩
        have hq : s.live q := (hlive q).1 hq2
        refine ⟨hq, vb, ?_⟩
        rcases hcase q vb hq with ⟨_, c1, c3, c2⟩ | ⟨c1, _⟩
        · exfalso
          rw [c2] at a1 a3
          exact hN ⟨⟨c1, a1, fun hh => a2 (samePage_trans c3 hh)⟩, a3.symm⟩
        · rw [c1] at a1 a3
          exact ⟨a1, a2, a3⟩
      have := h.count t
      have := hsh2 t
      omega
  · intro t ho
    rcases hpages t with e | ⟨b1, b2, b3, b4, b5, _⟩
    · rw [e] at ho ⊢
      rcases hm.role_ext t with h1 | ⟨_, _, h3, _⟩
      · rw [hm.pages_eq t h1] at ho ⊢
        exact h.free_unshared t ho
      · rw [h3]
    · exfalso
      rw [b5, b4, hpg1 _ (hnewnf b1 b2)] at ho
      exact ((hnew b1 b2).2.2 b3).2.1 ho
  · intro t hna
    have hnfree : ¬ isFreeFrame K s t := by
      intro hf; rw [hf.1] at hna; exact absurd hna (by simp)
    rcases hpages t with e | ⟨b1, b2, b3, b4, _⟩
    · rw [e, hpg1 t hnfree]
      exact h.na_clear t hna
    · exfalso
      have := ((hnew b1 b2).2.2 b3).1
      unfold pte_pa at this
      rw [← b4, hna] at this
      exact absurd this (by simp)

end Install

section Commute

variable {K : Config}

/-- The allocator does not look at the process table. -/
theorem kalloc_loop_ptable (pt : Nat → proc) : ∀ (n : Nat) (s : KState),
    kalloc_loop K n { s with ptable := pt } =
      ((kalloc_loop K n s).1, { (kalloc_loop K n s).2 with ptable := pt }) := by
  intro n
  induction n with
  | zero => intro s; rfl
  | succ n ih =>
    intro s
    simp only [kalloc_loop]
    split
    · rfl
    · exact ih { s with next_alloc_pa := (s.next_alloc_pa + K.PAGESIZE) % K.MEMSIZE_PHYSICAL }

theorem kalloc_ptable (pt : Nat → proc) (sz : Nat) (s : KState) :
    kalloc K sz { s with ptable := pt } =
      ((kalloc K sz s).1, { (kalloc K sz s).2 with ptable := pt }) := by
  unfold kalloc
  split
  · rfl
  · exact kalloc_loop_ptable pt _ s

/-- Mapping a page does not look at the process table. -/
theorem vm_map_ptable (pt : Nat → proc) : ∀ (l tbl va pa perm : Nat) (s : KState),
    vm_map K l tbl va pa perm { s with ptable := pt } =
      ((vm_map K l tbl va pa perm s).1, { (vm_map K l tbl va pa perm s).2 with ptable := pt }) := by
  intro l
  induction l with
  | zero => intro tbl va pa perm s; rfl
  | succ l ih =>
    intro tbl va pa perm s
    simp only [vm_map]
    split
    · exact ih _ _ _ _ _
    · split
      · rfl
      · rw [kalloc_ptable]
        simp only
        split
        · rfl
        · exact ih (kalloc K K.PAGESIZE s).1 va pa perm
            { (kalloc K K.PAGESIZE s).2 with
              mem := writeQ (memset (kalloc K K.PAGESIZE s).2.mem (kalloc K K.PAGESIZE s).1 0
                  K.PAGESIZE) (tbl + 8 * pageindex K va (l + 1))
                ((kalloc K K.PAGESIZE s).1 + (PTE_P + PTE_W + PTE_U)) }

theorem kalloc_loop_ptable_eq : ∀ (n : Nat) (s : KState),
    (kalloc_loop K n s).2.ptable = s.ptable ∧ (kalloc_loop K n s).2.current = s.current ∧
    (kalloc_loop K n s).2.ticks = s.ticks := by
  intro n
  induction n with
  | zero => intro s; exact ⟨rfl, rfl, rfl⟩
  | succ n ih =>
    intro s
    simp only [kalloc_loop]
    split
    · exact ⟨rfl, rfl, rfl⟩
    · exact ih _

theorem kalloc_ptable_eq (sz : Nat) (s : KState) :
    (kalloc K sz s).2.ptable = s.ptable ∧ (kalloc K sz s).2.current = s.current ∧
    (kalloc K sz s).2.ticks = s.ticks := by
  unfold kalloc
  split
  · exact ⟨rfl, rfl, rfl⟩
  · exact kalloc_loop_ptable_eq _ s

theorem vm_map_ptable_eq : ∀ (l tbl va pa perm : Nat) (s : KState),
    (vm_map K l tbl va pa perm s).2.ptable = s.ptable ∧
    (vm_map K l tbl va pa perm s).2.current = s.current := by
  intro l
  induction l with
  | zero => intro tbl va pa perm s; exact ⟨rfl, rfl⟩
  | succ l ih =>
    intro tbl va pa perm s
    simp only [vm_map]
    split
    · exact ih _ _ _ _ _
    · split
      · exact ⟨rfl, rfl⟩
      · split
        · exact ⟨(kalloc_ptable_eq _ s).1, (kalloc_ptable_eq _ s).2.1⟩
        · have := ih (kalloc K K.PAGESIZE s).1 va pa perm
            { (kalloc K K.PAGESIZE s).2 with
              mem := writeQ (memset (kalloc K K.PAGESIZE s).2.mem (kalloc K K.PAGESIZE s).1 0
                  K.PAGESIZE) (tbl + 8 * pageindex K va (l + 1))
                ((kalloc K K.PAGESIZE s).1 + (PTE_P + PTE_W + PTE_U)) }
          exact ⟨this.1.trans (kalloc_ptable_eq _ s).1, this.2.trans (kalloc_ptable_eq _ s).2.1⟩

/-- A call of `vmiter::map` that returns was made at a page-aligned canonical
address. -/
theorem vmiter_map_some {it : vmiter} {pa perm : Nat} {s : KState} {r : Int × KState}
    (h : it.map K pa perm s = some r) :
    (it.va % K.PAGESIZE = 0 ∧ va_is_canonical K it.va = true) ∧
    r = vm_map K 3 it.pt it.va (if pa = UINTPTR_MAX ∧ perm = 0 then 0 else pa) perm s := by
  unfold vmiter.map at h
  split at h
  · rename_i hc
    exact ⟨hc, (Option.some.inj h).symm⟩
  · exact absurd h (by simp)

end Commute

section PageAlloc

variable {K : Config}

/-- A page-aligned canonical address above `PROC_START_ADDR` is not on the console
page. -/
theorem not_console (hK : K.Geom) (va : Nat) (hal : va % K.PAGESIZE = 0)
    (hcan : va_is_canonical K va = true) (hva : K.PROC_START_ADDR ≤ va) :
    ¬ samePage K va K.console := by
  have hP := hK.page_pos
  have hcl := console_lt_span hK
  rw [samePage_iff hK, vpn_of_lt hK _ hcl]
  have h1 := hK.console_low
  have h2 := hK.start_half
  have h3 := hK.console_al
  have hsp : K.VA_SPAN / 2 ≤ K.VA_SPAN := Nat.div_le_self _ _
  unfold va_is_canonical at hcan
  simp only [Bool.or_eq_true, Bool.and_eq_true, decide_eq_true_eq] at hcan
  rcases hcan with hlo | ⟨hhi, hlt⟩
  · rw [vpn_of_lt hK va (by omega)]
    intro he
    have a1 := aligned_eq (K := K) va hal
    have a2 := aligned_eq (K := K) K.console h3
    rw [he] at a1
    omega
  · obtain ⟨k, hk⟩ := hK.span64
    have hk0 : 0 < k := by
      rcases Nat.eq_zero_or_pos k with h0 | h0
      · rw [h0] at hk; simp at hk
      · exact h0
    obtain ⟨j, hj⟩ : ∃ j, k = j + 1 := ⟨k - 1, by omega⟩
    rw [hj, Nat.mul_add, Nat.mul_one] at hk
    -- va = SPAN * j + r with SPAN / 2 ≤ r < SPAN
    have hr1 : K.VA_SPAN * j ≤ va := by omega
    obtain ⟨r, hr⟩ : ∃ r, va = K.VA_SPAN * j + r := ⟨va - K.VA_SPAN * j, by omega⟩
    have hr2 : r < K.VA_SPAN := by omega
    have hr3 : K.VA_SPAN / 2 ≤ r := by omega
    have hral : r % K.PAGESIZE = 0 := by
      have : (K.VA_SPAN * j + r) % K.PAGESIZE = r % K.PAGESIZE := by
        rw [span_eq, Nat.mul_assoc, Nat.mul_add_mod]
      rw [← this, ← hr]
      exact hal
    have hv : vpn K va = r / K.PAGESIZE := by
      unfold vpn
      rw [hr, span_eq, Nat.mul_assoc, Nat.mul_add_div hP, Nat.mul_add_mod]
      apply Nat.mod_eq_of_lt
      rw [Nat.div_lt_iff_lt_mul hP, Nat.mul_comm, ← span_eq]
      exact hr2
    rw [hv]
    intro he
    have a1 := aligned_eq (K := K) r hral
    have a2 := aligned_eq (K := K) K.console h3
    rw [he] at a1
    omega

/-- Allocating a frame leaves the leaf entries of the address spaces as they are. -/
theorem kalloc_at_ent (hK : K.Geom) {s : KState} {role : Roles} (h : Inv K s role) (f : Nat)
    (hf : isFreeFrame K s f) (q : Nat) (hq : s.live q) (va : Nat) :
    (kalloc_at K s (f * K.PAGESIZE)).ent K q va = s.ent K q va := by
  have hs := (h.spaces q hq).2
  apply vm_walk_root_congr hK h.tables q _ hs.root_role hs.root_al
  intro a ha
  simp only [kalloc_at]
  rw [memset_frame hK.page_pos, if_neg]
  intro hh
  rw [hh] at ha
  exact ha (h.free_untyped f hf)

/-- Directly after its allocation a frame is mapped by no address space. -/
theorem kalloc_at_unmapped (hK : K.Geom) {s : KState} {role : Roles} (h : Inv K s role) (f : Nat)
    (hf : isFreeFrame K s f) (q : Nat) (hq : (kalloc_at K s (f * K.PAGESIZE)).live q) (va : Nat)
    (hu : userPresent ((kalloc_at K s (f * K.PAGESIZE)).ent K q va)) :
    (kalloc_at K s (f * K.PAGESIZE)).ent K q va / K.PAGESIZE ≠ f := by
  have hl : s.live q := hq
  rw [kalloc_at_ent hK h f hf q hl] at hu ⊢
  exact h.free_unmapped f hf q hl va hu

theorem kalloc_at_pages (hP : 0 < K.PAGESIZE) (s : KState) (f : Nat) :
    (kalloc_at K s (f * K.PAGESIZE)).pages f = { owner := -1, sharers := 0 } := by
  simp only [kalloc_at, upd, frame_mul hP, if_true]

/-- Mapping an owned, untyped, allocatable frame that no address space maps, on a
page other than the console page of a process that is not Free, keeps the
invariant. -/
theorem Inv.install_fresh (hK : K.Geom) {s : KState} {role : Roles} (h : Inv K s role) (p : Nat)
    (hl : s.live p) (f va perm : Nat)
    (hfa : K.allocatable_physical_address (f * K.PAGESIZE) = true)
    (hfo : (s.pages f).owner ≠ 0) (hfr : role f = none)
    (hfu : ∀ q, s.live q → ∀ vb, userPresent (s.ent K q vb) → s.ent K q vb / K.PAGESIZE ≠ f)
    (hperm : perm < K.PAGESIZE) (hnc : ¬ samePage K va K.console)
    {rc : Int} {s1 : KState} {role1 : Roles}
    (hm : MapPost K p [] 3 (s.ptable p).pagetable va (f * K.PAGESIZE) perm s role rc s1 role1) :
    Inv K s1 role1 := by
  have hP := hK.page_pos
  have hfe : (f * K.PAGESIZE + perm) / K.PAGESIZE = f := frame_add hP f perm hperm
  have hnf : ¬ isFreeFrame K s f := fun hh => hfo hh.2
  apply h.install hK p hl hm _ rfl rfl rfl (fun t => Or.inl rfl)
  intro _ _
  rw [hfe, pte_pa_mk hP f perm hperm]
  refine ⟨hfr, fun hc => absurd hc hnc, fun _ => ⟨hfa, hfo, ?_, ?_⟩⟩
  · intro vb hu _ he
    exact absurd he (hfu p hl vb hu)
  · have hz : mappers K s f = 0 := by
      apply mappers_zero hK
      intro q _ hq ⟨vb, a1, _, a3⟩
      exact hfu q hq vb a1 a3
    have e1 : role1 f = role f := by
      rcases hm.role_ext f with e | ⟨_, e, _⟩
      · exact e
      · exact absurd e hnf
    rw [hm.pages_eq f e1, hz]
    have := h.sharers_nonneg f
    omega

theorem alloc_lt_64 (hK : K.Geom) (f perm : Nat)
    (hfa : K.allocatable_physical_address (f * K.PAGESIZE) = true) (hperm : perm < K.PAGESIZE) :
    f * K.PAGESIZE + perm < 2 ^ 64 := by
  have h1 := hK.wf.alloc_lt _ hfa
  have h2 := hK.phys64
  obtain ⟨c, hc⟩ := hK.wf.phys_pages
  rw [hc, Nat.mul_comm K.PAGESIZE c] at h1
  have h3 : f < c := Nat.lt_of_mul_lt_mul_right h1
  have h4 : (f + 1) * K.PAGESIZE ≤ c * K.PAGESIZE := Nat.mul_le_mul_right _ h3
  rw [Nat.add_mul, Nat.one_mul] at h4
  rw [hc, Nat.mul_comm K.PAGESIZE c] at h2
  omega

theorem Inv.map_fresh (hK : K.Geom) {s : KState} {role : Roles} (h : Inv K s role) (p : Nat)
    (hl : s.live p) (f va perm : Nat)
    (hfa : K.allocatable_physical_address (f * K.PAGESIZE) = true)
    (hfo : (s.pages f).owner ≠ 0) (hfr : role f = none)
    (hfu : ∀ q, s.live q → ∀ vb, userPresent (s.ent K q vb) → s.ent K q vb / K.PAGESIZE ≠ f)
    (hperm : perm < K.PAGESIZE) (hp0 : perm ≠ 0) (hnc : ¬ samePage K va K.console) :
    ∃ role1,
      MapPost K p [] 3 (s.ptable p).pagetable va (f * K.PAGESIZE) perm s role
        (vm_map K 3 (s.ptable p).pagetable va (f * K.PAGESIZE) perm s).1
        (vm_map K 3 (s.ptable p).pagetable va (f * K.PAGESIZE) perm s).2 role1 ∧
      Inv K (vm_map K 3 (s.ptable p).pagetable va (f * K.PAGESIZE) perm s).2 role1 := by
  have hs := (h.spaces p hl).2
  obtain ⟨role1, hm⟩ := vm_map_post hK p 3 (s.ptable p).pagetable va (f * K.PAGESIZE) perm []
    s role h.cursor h.tables h.rolesOwned hs.root_role hs.root_al rfl
    (alloc_lt_64 hK f perm hfa hperm) (fun e => absurd e hp0)
  exact ⟨role1, hm, h.install_fresh hK p hl f va perm hfa hfo hfr hfu hperm hnc hm⟩

/-- `SYSCALL_PAGE_ALLOC` keeps the invariant. -/
theorem Inv.page_alloc (hK : K.Geom) {s : KState} {role : Roles} (h : Inv K s role)
    (hl : s.live s.current) (v : Nat) (t : KState) (he : sys_page_alloc K s = some (v, t)) :
    (∃ role1, Inv K t role1) ∧ t.ptable = s.ptable ∧ t.current = s.current := by
  have hP := hK.page_pos
  have hP8 := hK.page_ge
  obtain ⟨hi, hpt, hcur, hres⟩ := h.alloc hK
  unfold sys_page_alloc at he
  simp only at he
  split at he
  · rename_i haddr
    split at he
    · rename_i hr1
      rcases hres with h0 | ⟨f, hf1, _, hf2, hf3⟩
      · exact absurd h0 hr1
      · generalize hmap : vmiter.map K _ _ _ _ = o at he
        cases o with
        | none => exact absurd he (by simp)
        | some r2 =>
          obtain ⟨hc, hr2⟩ := vmiter_map_some hmap
          simp only at hc hr2 he
          split at he
          · simp only [Option.some.injEq, Prod.mk.injEq] at he
            have hperm : ¬ ((kalloc K K.PAGESIZE s).1 = UINTPTR_MAX ∧ PTE_P + PTE_W + PTE_U = 0) :=
              fun hh => absurd hh.2 (by decide)
            rw [if_neg hperm] at hr2
            have hl2 : (kalloc K K.PAGESIZE s).2.live s.current := by
              unfold KState.live; rw [hpt]; exact hl
            have hnc := not_console hK _ hc.1 hc.2 (Nat.le_of_lt haddr)
            have hfresh : ∀ q, (kalloc K K.PAGESIZE s).2.live q → ∀ vb,
                userPresent ((kalloc K K.PAGESIZE s).2.ent K q vb) →
                (kalloc K K.PAGESIZE s).2.ent K q vb / K.PAGESIZE ≠ f := by
              rw [hf3]
              exact fun q hq vb hu => kalloc_at_unmapped hK h f hf2 q hq vb hu
            have hown : ((kalloc K K.PAGESIZE s).2.pages f).owner ≠ 0 := by
              rw [hf3, kalloc_at_pages hP]; decide
            obtain ⟨role1, hm, hinv⟩ := hi.map_fresh hK s.current hl2 f
              (s.ptable s.current).regs.reg_rdi (PTE_P + PTE_W + PTE_U) hf2.1 hown
              (h.free_untyped f hf2) hfresh (by unfold PTE_P PTE_W PTE_U; omega) (by decide) hnc
            rw [hcur, hf1] at hr2
            rw [← he.2, hr2]
            exact ⟨⟨role1, hinv⟩, hm.ptable_eq.trans hpt, hm.current_eq.trans hcur⟩
          · exact absurd he (by simp)
    · simp only [Option.some.injEq, Prod.mk.injEq] at he
      rw [← he.2]
      exact ⟨⟨role, hi⟩, hpt, hcur⟩
  · simp only [Option.some.injEq, Prod.mk.injEq] at he
    rw [← he.2]
    exact ⟨⟨role, h⟩, rfl, rfl⟩

end PageAlloc

section Counting

variable {K : Config}

theorem countP_succ_le (l : List Nat) (P Q : Nat → Bool) (x0 : Nat)
    (h : ∀ x ∈ l, P x = true → Q x = true) (hx : x0 ∈ l) (hq : Q x0 = true)
    (hp : P x0 = false) : l.countP P + 1 ≤ l.countP Q := by
  induction l with
  | nil => simp at hx
  | cons a l ih =>
    simp only [List.countP_cons]
    have hmono : l.countP P ≤ l.countP Q :=
      List.countP_mono_left (fun x hx => h x (List.mem_cons_of_mem _ hx))
    have ha := h a (List.mem_cons_self _ _)
    rcases List.mem_cons.1 hx with e | hx1
    · subst e
      simp only [hq, hp, if_true]
      simp
      omega
    · have := ih (fun x hx => h x (List.mem_cons_of_mem _ hx)) hx1
      cases hpa : P a
      · simp
        split <;> omega
      · simp [ha hpa]
        omega

/-- A process that stops being counted lowers the number of mappers. -/
theorem mappers_drop (hK : K.Geom) (g s : KState) (t X : Nat) (hX : X < K.NPROC)
    (hlX : g.live X) (hmX : g.maps K X t) (hnl : ¬ s.live X)
    (h : ∀ q, q < K.NPROC → s.live q → s.maps K q t → g.live q ∧ g.maps K q t) :
    mappers K s t + 1 ≤ mappers K g t := by
  unfold mappers
  apply countP_succ_le _ _ _ X
  · intro q hq
    simp only [decide_eq_true_eq]
    rw [userMaps_iff hK, userMaps_iff hK]
    intro ⟨h1, h2⟩
    exact h q (List.mem_range.1 hq) h1 h2
  · exact List.mem_range.2 hX
  · simp only [decide_eq_true_eq]
    rw [userMaps_iff hK]
    exact ⟨hlX, hmX⟩
  · simp only [decide_eq_false_iff_not]
    rw [userMaps_iff hK]
    exact fun hh => hnl hh.1

/-- Two processes mapping a frame count as two mappers. -/
theorem mappers_two (hK : K.Geom) (g : KState) (t X q : Nat) (hX : X < K.NPROC)
    (hq : q < K.NPROC) (hne : q ≠ X) (hlX : g.live X) (hmX : g.maps K X t)
    (hlq : g.live q) (hmq : g.maps K q t) : 2 ≤ mappers K g t := by
  unfold mappers
  have h1 : (List.range K.NPROC).countP (fun p => decide (userMaps K g p t) && decide (p ≠ X)) + 1
      ≤ (List.range K.NPROC).countP (fun p => decide (userMaps K g p t)) := by
    apply countP_succ_le _ _ _ X
    · intro p _ hp
      simp only [Bool.and_eq_true, decide_eq_true_eq] at hp ⊢
      exact hp.1
    · exact List.mem_range.2 hX
    · simp only [decide_eq_true_eq]
      rw [userMaps_iff hK]
      exact ⟨hlX, hmX⟩
    · simp
  have h2 : 0 < (List.range K.NPROC).countP
      (fun p => decide (userMaps K g p t) && decide (p ≠ X)) := by
    apply List.countP_pos_iff.2
    refine ⟨q, List.mem_range.2 hq, ?_⟩
    simp only [Bool.and_eq_true, decide_eq_true_eq]
    rw [userMaps_iff hK]
    exact ⟨⟨hlq, hmq⟩, hne⟩
  omega

end Counting

section Free

variable {K : Config}

theorem kfree_some (s : KState) (ptr : Nat) (hal : ptr % K.PAGESIZE = 0)
    (ha : K.allocatable_physical_address ptr = true) :
    kfree K ptr s = some { s with
      mem := memset s.mem ptr 0 K.PAGESIZE
      pages := upd s.pages (ptr / K.PAGESIZE) { (s.pages (ptr / K.PAGESIZE)) with owner := 0 } } := by
  unfold kfree
  rw [if_neg (by simp [hal]), if_neg (by simp [ha])]

/-- The page-table pages that `ptiter` visits are typed pages of the tree. -/
theorem pt_pages_typed (hK : K.Geom) {m : Nat → Nat} {role : Roles} (hT : TablesOK K m role)
    (X : Nat) : ∀ (l tbl : Nat) (path : List Nat), role (tbl / K.PAGESIZE) = some (X, path) →
    tbl % K.PAGESIZE = 0 → path.length + l = 3 → ∀ x ∈ pt_pages K m l tbl,
    x % K.PAGESIZE = 0 ∧ ∃ π, role (x / K.PAGESIZE) = some (X, path ++ π) := by
  intro l
  induction l with
  | zero => intro tbl path _ _ _ x hx; simp [pt_pages] at hx
  | succ l ih =>
    intro tbl path hr hal hlen x hx
    simp only [pt_pages, List.mem_flatMap, List.mem_range] at hx
    obtain ⟨i, hi, hx⟩ := hx
    split at hx
    · rename_i hp
      have hlink := (hT _ X path hr).2 i hi (by omega)
      rw [aligned_eq tbl hal] at hlink
      have hr2 := hlink hp
      rw [← pte_pa_frame hK.page_pos] at hr2
      rcases List.mem_append.1 hx with h1 | h1
      · obtain ⟨a1, π, a2⟩ := ih _ (path ++ [i]) hr2 (pte_pa_aligned _) (by simp; omega) x h1
        refine ⟨a1, [i] ++ π, ?_⟩
        rw [a2, List.append_assoc]
      · simp only [List.mem_singleton] at h1
        rw [h1]
        exact ⟨pte_pa_aligned _, [i], hr2⟩
    · simp at hx

/-- The page-table pages that `ptiter` visits depend only on the typed pages of
memory. -/
theorem pt_pages_mem_congr (hK : K.Geom) {m m1 : Nat → Nat} {role : Roles}
    (hT : TablesOK K m role) (hm : ∀ a, role (a / K.PAGESIZE) ≠ none → m1 a = m a) (X : Nat) :
    ∀ (l tbl : Nat) (path : List Nat), role (tbl / K.PAGESIZE) = some (X, path) →
    tbl % K.PAGESIZE = 0 → path.length + l = 3 → ∀ x,
    x ∈ pt_pages K m1 l tbl ↔ x ∈ pt_pages K m l tbl := by
  intro l
  induction l with
  | zero => intro tbl path _ _ _ x; simp [pt_pages]
  | succ l ih =>
    intro tbl path hr hal hlen x
    have hread : ∀ i, i < K.NENT →
        readQ m1 (tbl + 8 * i) = readQ m (tbl + 8 * i) := by
      intro i hi
      apply readQ_congr
      intro j hj
      apply hm
      rw [entry_range_frame hK tbl i _ hal hi (by omega) (by omega), hr]
      simp
    simp only [pt_pages, List.mem_flatMap, List.mem_range]
    constructor
    · rintro ⟨i, hi, hx⟩
      refine ⟨i, hi, ?_⟩
      rw [hread i hi] at hx
      split at hx
      · rename_i hp
        rw [if_pos hp]
        have hlink := (hT _ X path hr).2 i hi (by omega)
        rw [aligned_eq tbl hal] at hlink
        have hlink2 := hlink hp
        rw [← pte_pa_frame hK.page_pos] at hlink2
        simp only [List.mem_append, List.mem_singleton] at hx ⊢
        rcases hx with hx | hx
        · left
          exact (ih _ _ hlink2 (pte_pa_aligned _) (by simp; omega) x).1 hx
        · exact Or.inr hx
      · simp at hx
    · rintro ⟨i, hi, hx⟩
      refine ⟨i, hi, ?_⟩
      rw [hread i hi]
      split at hx
      · rename_i hp
        rw [if_pos hp]
        have hlink := (hT _ X path hr).2 i hi (by omega)
        rw [aligned_eq tbl hal] at hlink
        have hlink2 := hlink hp
        rw [← pte_pa_frame hK.page_pos] at hlink2
        simp only [List.mem_append, List.mem_singleton] at hx ⊢
        rcases hx with hx | hx
        · left
          exact (ih _ _ hlink2 (pte_pa_aligned _) (by simp; omega) x).2 hx
        · exact Or.inr hx
      · simp at hx

/-- Freeing a list of frames leaves free frames free and frees the frames of the
list. -/
theorem kfree_list_owner : ∀ (L : List Nat) (s s2 : KState), kfree_list K L s = some s2 →
    (∀ t, (s.pages t).owner = 0 → (s2.pages t).owner = 0) ∧
    ∀ x ∈ L, (s2.pages (x / K.PAGESIZE)).owner = 0 := by
  intro L
  induction L with
  | nil =>
    intro s s2 h
    simp only [kfree_list, Option.some.injEq] at h
    subst h
    exact ⟨fun t ht => ht, fun x hx => absurd hx (List.not_mem_nil x)⟩
  | cons y L ih =>
    intro s s2 h
    simp only [kfree_list] at h
    cases hk : kfree K y s with
    | none => rw [hk] at h; exact absurd h (by simp)
    | some s1 =>
      rw [hk] at h
      simp only at h
      obtain ⟨a1, a2⟩ := ih s1 s2 h
      have hs1 : ∀ t, (s1.pages t).owner = 0 ∨ s1.pages t = s.pages t := by
        intro t
        unfold kfree at hk
        split at hk
        · exact absurd hk (by simp)
        · split at hk
          · exact absurd hk (by simp)
          · simp only [Option.some.injEq] at hk
            rw [← hk]
            by_cases ht : t = y / K.PAGESIZE
            · left; simp [upd, ht]
            · right; simp [upd, ht]
      have hy : (s1.pages (y / K.PAGESIZE)).owner = 0 := by
        unfold kfree at hk
        split at hk
        · exact absurd hk (by simp)
        · split at hk
          · exact absurd hk (by simp)
          · simp only [Option.some.injEq] at hk
            rw [← hk]
            simp [upd]
      refine ⟨fun t ht => a1 t ?_, fun x hx => ?_⟩
      · rcases hs1 t with h1 | h1
        · exact h1
        · rw [h1]; exact ht
      · rcases List.mem_cons.1 hx with hx | hx
        · rw [hx]
          exact a1 _ hy
        · exact a2 x hx

/-- Freeing a list of page-aligned allocatable frames succeeds; it clears these
frames and marks them free. -/
theorem kfree_list_spec : ∀ (L : List Nat) (s : KState),
    (∀ x ∈ L, x % K.PAGESIZE = 0 ∧ K.allocatable_physical_address x = true) →
    ∃ s2, kfree_list K L s = some s2 ∧ s2.ptable = s.ptable ∧
      s2.next_alloc_pa = s.next_alloc_pa ∧ s2.current = s.current ∧
      (∀ t, s2.pages t = s.pages t ∨
        (t * K.PAGESIZE ∈ L ∧ s2.pages t = { (s.pages t) with owner := 0 })) ∧
      (∀ a, s2.mem a = s.mem a ∨ a / K.PAGESIZE * K.PAGESIZE ∈ L) := by
  intro L
  induction L with
  | nil => intro s _; exact ⟨s, rfl, rfl, rfl, rfl, fun t => Or.inl rfl, fun a => Or.inl rfl⟩
  | cons x L ih =>
    intro s hL
    obtain ⟨hx1, hx2⟩ := hL x (List.mem_cons_self _ _)
    simp only [kfree_list, kfree_some s x hx1 hx2]
    obtain ⟨s2, e1, e2, e3, e4, e5, e6⟩ := ih
      { s with
        mem := memset s.mem x 0 K.PAGESIZE
        pages := upd s.pages (x / K.PAGESIZE) { (s.pages (x / K.PAGESIZE)) with owner := 0 } }
      (fun y hy => hL y (List.mem_cons_of_mem _ hy))
    refine ⟨s2, e1, e2, e3, e4, ?_, ?_⟩
    · intro t
      by_cases ht : t = x / K.PAGESIZE
      · right
        refine ⟨by rw [ht, aligned_eq x hx1]; exact List.mem_cons_self _ _, ?_⟩
        rcases e5 t with h1 | ⟨_, h1⟩
        · rw [h1]; simp only [upd, if_pos ht, ht, if_true]
        · rw [h1]; simp only [upd, if_pos ht, ht, if_true]
      · rcases e5 t with h1 | ⟨h0, h1⟩
        · left; rw [h1]; simp only [upd, if_neg ht]
        · right
          refine ⟨List.mem_cons_of_mem _ h0, ?_⟩
          rw [h1]; simp only [upd, if_neg ht]
    · intro a
      rcases e6 a with h1 | h1
      · by_cases ha : a / K.PAGESIZE = x / K.PAGESIZE
        · right
          rw [ha, aligned_eq x hx1]
          exact List.mem_cons_self _ _
        · left
          rw [h1]
          simp only [memset]
          rw [if_neg]
          intro hh
          apply ha
          have := (in_frame_iff (K := K) (by
            rcases Nat.eq_zero_or_pos K.PAGESIZE with h0 | h0
            · rw [h0] at hh; omega
            · exact h0) (x / K.PAGESIZE) a).1 (by rw [aligned_eq x hx1]; exact hh)
          exact this
      · right; exact List.mem_cons_of_mem _ h1

end Free

section FreeWalkSec

variable {K : Config}

theorem FreeWalk.mono {g : KState} {X va vb : Nat} {s : KState} (h : FreeWalk K g X va s)
    (hle : va ≤ vb) : FreeWalk K g X vb s :=
  { ptable_eq := h.ptable_eq
    cursor_eq := h.cursor_eq
    current_eq := h.current_eq
    pages := fun t => by
      rcases h.pages t with h1 | ⟨⟨v, a1, a2⟩, h2⟩
      · exact Or.inl h1
      · exact Or.inr ⟨⟨v, by omega, a2⟩, h2⟩
    mem := h.mem }

/-- During the walk the tree of `X` is read as in the state `g`. -/
theorem FreeWalk.ent {g : KState} {role : Roles} (hK : K.Geom) (h : Inv K g role) {X va : Nat}
    (hX : g.live X) {s : KState} (hw : FreeWalk K g X va s) (q : Nat) (hq : g.live q) (vb : Nat) :
    vm_walk K s.mem 3 (g.ptable q).pagetable vb = g.ent K q vb := by
  have hs := (h.spaces q hq).2
  have hsX := (h.spaces X hX).2
  apply vm_walk_root_congr hK h.tables q _ hs.root_role hs.root_al
  intro a ha
  rcases hw.mem a with h1 | ⟨⟨v, a1, _, a3⟩, _⟩
  · exact h1
  · exfalso
    rw [← a3] at ha
    exact ha (hsX.user_untyped v a1)

theorem proc_free_walk_spec (hK : K.Geom) {g : KState} {role : Roles} (h : Inv K g role) (X : Nat)
    (hX : g.live X) : ∀ (n va : Nat) (s : KState), va % K.PAGESIZE = 0 →
    K.MEMSIZE_VIRTUAL + 1 ≤ va + (n + 1) → FreeWalk K g X va s →
    ∃ s1 vb, proc_free_walk K (g.ptable X).pagetable (n + 1) va s = some s1 ∧
      FreeWalk K g X vb s1 := by
  have hP := hK.page_pos
  have hsX := (h.spaces X hX).2
  intro n
  induction n with
  | zero =>
    intro va s _ hf hw
    simp only [proc_free_walk]
    rw [if_neg (by omega)]
    exact ⟨s, va, rfl, hw⟩
  | succ n ih =>
    intro va s hal hf hw
    rw [proc_free_walk]
    by_cases hlt : va < K.MEMSIZE_VIRTUAL
    · rw [if_pos hlt]
      have he := hw.ent hK h hX X hX va
      have hal2 : (va + K.PAGESIZE + K.PAGESIZE) % K.PAGESIZE = 0 := by
        rw [Nat.add_mod_right, Nat.add_mod_right]; exact hal
      have hf2 : K.MEMSIZE_VIRTUAL + 1 ≤ va + K.PAGESIZE + K.PAGESIZE + (n + 1) := by omega
      have huser := vmiter_user_iff (K := K) s.mem (g.ptable X).pagetable va
      rw [he] at huser
      have hspan : va < K.VA_SPAN := by
        have := hK.virt_half
        have := Nat.div_le_self K.VA_SPAN 2
        omega
      by_cases hu : userPresent (g.ent K X va) ∧ va ≠ K.console
      · obtain ⟨hu1, hu2⟩ := hu
        have hnc : ¬ samePage K va K.console := fun hh =>
          hu2 ((samePage_aligned hK va K.console hspan (console_lt_span hK) hal hK.console_al).1 hh)
        have hpa : vmiter.pa K s.mem { pt := (g.ptable X).pagetable, va := va } =
            pte_pa K (g.ent K X va) := by
          rw [vmiter_pa_of_present _ _ _ (by rw [he]; exact hu1.1), he, hal, Nat.add_zero]
        have hpg : s.pages (g.ent K X va / K.PAGESIZE) = g.pages (g.ent K X va / K.PAGESIZE) := by
          rcases hw.pages (g.ent K X va / K.PAGESIZE) with h1 | ⟨⟨vb, a1, a2, a3, a4⟩, _⟩
          · exact h1
          · exfalso
            have hsame := hsX.inj vb va a2 hu1 a3 hnc a4
            rw [samePage_iff hK, vpn_of_lt hK vb (by omega), vpn_of_lt hK va hspan] at hsame
            have h1 : vb / K.PAGESIZE < va / K.PAGESIZE := by
              rw [Nat.div_lt_iff_lt_mul hP, aligned_eq va hal]
              exact a1
            omega
        have hmaps : g.maps K X (g.ent K X va / K.PAGESIZE) := ⟨va, hu1, hnc, rfl⟩
        simp only [hpa, pte_pa_frame hP, hpg]
        by_cases hsh : (g.pages (g.ent K X va / K.PAGESIZE)).sharers > 0
        · rw [if_neg (fun hh => by simp [hsh] at hh), if_pos ⟨huser.2 hu1, by simp [hsh], hu2⟩]
          apply ih _ _ hal2 hf2
          exact
            { ptable_eq := hw.ptable_eq
              cursor_eq := hw.cursor_eq
              current_eq := hw.current_eq
              pages := fun t => by
                by_cases ht : t = g.ent K X va / K.PAGESIZE
                · right
                  subst ht
                  refine ⟨⟨va, by omega, hu1, hnc, rfl⟩, Or.inr ⟨hsh, ?_⟩⟩
                  simp only [upd, if_true]
                · rcases (hw.mono (show va ≤ va + K.PAGESIZE + K.PAGESIZE by omega)).pages t
                    with h1 | h1
                  · left; simp only [upd, if_neg ht]; exact h1
                  · right
                    refine ⟨h1.1, ?_⟩
                    simp only [upd, if_neg ht]
                    exact h1.2
              mem := hw.mem }
        · have hs0 : (g.pages (g.ent K X va / K.PAGESIZE)).sharers = 0 := by
            have := h.sharers_nonneg (g.ent K X va / K.PAGESIZE)
            omega
          rw [if_pos ⟨huser.2 hu1, by simp [hsh], hu2⟩,
            kfree_some s _ (pte_pa_aligned _) (hsX.user_owned va hu1 hnc).1]
          simp only [pte_pa_frame hP, hpg]
          apply ih _ _ hal2 hf2
          exact
            { ptable_eq := hw.ptable_eq
              cursor_eq := hw.cursor_eq
              current_eq := hw.current_eq
              pages := fun t => by
                by_cases ht : t = g.ent K X va / K.PAGESIZE
                · right
                  subst ht
                  refine ⟨⟨va, by omega, hu1, hnc, rfl⟩, Or.inl ⟨hs0, ?_⟩⟩
                  simp only [upd, if_true]
                · rcases (hw.mono (show va ≤ va + K.PAGESIZE + K.PAGESIZE by omega)).pages t
                    with h1 | h1
                  · left; simp only [upd, if_neg ht]; exact h1
                  · right
                    refine ⟨h1.1, ?_⟩
                    simp only [upd, if_neg ht]
                    exact h1.2
              mem := fun a => by
                by_cases ha : a / K.PAGESIZE = g.ent K X va / K.PAGESIZE
                · right
                  rw [ha]
                  exact ⟨hmaps, hs0⟩
                · rcases hw.mem a with h1 | h1
                  · left
                    show memset s.mem (g.ent K X va / K.PAGESIZE * K.PAGESIZE) 0 K.PAGESIZE a = _
                    rw [memset_frame hP, if_neg ha]
                    exact h1
                  · exact Or.inr h1 }
      · have hnu : ¬ (vmiter.user K s.mem { pt := (g.ptable X).pagetable, va := va } = true ∧
            va ≠ K.console) := fun hh => hu ⟨huser.1 hh.1, hh.2⟩
        simp only
        rw [if_neg (fun hh => hnu ⟨hh.1, hh.2.2⟩), if_neg (fun hh => hnu ⟨hh.1, hh.2.2⟩)]
        exact ih _ _ hal2 hf2 (hw.mono (by omega))
    · rw [if_neg hlt]
      exact ⟨s, va, rfl, hw⟩

theorem dropRoles_some {role : Roles} {X t p : Nat} {π : List Nat} :
    dropRoles role X t = some (p, π) ↔ role t = some (p, π) ∧ p ≠ X := by
  unfold dropRoles
  cases hr : role t with
  | none => simp
  | some v =>
    obtain ⟨q, ρ⟩ := v
    simp only
    by_cases hq : q = X
    · rw [if_pos hq]
      simp only [Option.some.injEq, Prod.mk.injEq]
      constructor
      · intro hh; exact absurd hh (by simp)
      · intro ⟨⟨h1, _⟩, h2⟩; exact absurd (h1 ▸ hq) h2
    · rw [if_neg hq]
      simp only [Option.some.injEq, Prod.mk.injEq]
      constructor
      · intro ⟨h1, h2⟩; exact ⟨⟨h1, h2⟩, h1 ▸ hq⟩
      · intro ⟨h1, _⟩; exact h1

theorem dropRoles_none {role : Roles} {X t : Nat} (h : role t = none) :
    dropRoles role X t = none := by
  unfold dropRoles
  rw [h]

/-- `proc_free(X)` of a process that is not Free succeeds. -/
theorem proc_free_result (hK : K.Geom) {g : KState} {role : Roles} (h : Inv K g role) (X : Nat)
    (hX : g.live X) : ∃ s, proc_free K X g = some s ∧ Freed K g role X s := by
  have hP := hK.page_pos
  have hsX := (h.spaces X hX).2
  have hroot := h.typed _ X [] hsX.root_role
  have hw0 : FreeWalk K g X 0 (g.setProc X fun p => { p with state := procstate.P_FREE }) :=
    { ptable_eq := rfl
      cursor_eq := rfl
      current_eq := rfl
      pages := fun t => Or.inl rfl
      mem := fun a => Or.inl rfl }
  have hpt : ((g.setProc X fun p => { p with state := procstate.P_FREE }).ptable X).pagetable =
      (g.ptable X).pagetable := by
    simp only [KState.setProc, upd, if_true]
  obtain ⟨s1, vb, e1, hw⟩ := proc_free_walk_spec hK h X hX K.MEMSIZE_VIRTUAL 0 _
    (Nat.zero_mod _) (by omega) hw0
  have hmem1 : ∀ a, role (a / K.PAGESIZE) ≠ none → s1.mem a = g.mem a := by
    intro a ha
    rcases hw.mem a with h1 | ⟨⟨v, a1, _, a3⟩, _⟩
    · exact h1
    · exfalso
      rw [← a3] at ha
      exact ha (hsX.user_untyped v a1)
  have hT1 : TablesOK K s1.mem role := h.tables.congr_mem hK hmem1
  have hpg1 : ∀ t, role t ≠ none → s1.pages t = g.pages t := by
    intro t ht
    rcases hw.pages t with h1 | ⟨⟨v, _, a1, _, a3⟩, _⟩
    · exact h1
    · exfalso
      rw [← a3] at ht
      exact ht (hsX.user_untyped v a1)
  have hL := pt_pages_typed hK hT1 X 3 (g.ptable X).pagetable [] hsX.root_role hsX.root_al rfl
  have hL2 : ∀ x ∈ pt_pages K s1.mem 3 (g.ptable X).pagetable,
      x % K.PAGESIZE = 0 ∧ K.allocatable_physical_address x = true := by
    intro x hx
    obtain ⟨a1, π, a2⟩ := hL x hx
    refine ⟨a1, ?_⟩
    have := (h.typed _ X _ a2).2.1
    rw [aligned_eq x a1] at this
    exact this
  obtain ⟨s2, e2, f1, f2, f3, f4, f5⟩ := kfree_list_spec _ s1 hL2
  have hown2 := kfree_list_owner (K := K) _ s1 s2 e2
  have hmemL : ∀ x, x ∈ pt_pages K s1.mem 3 (g.ptable X).pagetable ↔
      x ∈ pt_pages K g.mem 3 (g.ptable X).pagetable :=
    pt_pages_mem_congr hK h.tables hmem1 X 3 _ [] hsX.root_role hsX.root_al rfl
  have hra : K.allocatable_physical_address (g.ptable X).pagetable = true := by
    have := hroot.2.1
    rw [aligned_eq _ hsX.root_al] at this
    exact this
  refine ⟨{ s2 with
      mem := memset s2.mem (g.ptable X).pagetable 0 K.PAGESIZE
      pages := upd s2.pages ((g.ptable X).pagetable / K.PAGESIZE)
        { (s2.pages ((g.ptable X).pagetable / K.PAGESIZE)) with owner := 0 } }, ?_, ?_⟩
  · unfold proc_free
    simp only [hpt, e1, e2]
    exact kfree_some s2 _ hsX.root_al hra
  · have hpg2 : ∀ t, s2.pages t = s1.pages t ∨
        ((∃ π, role t = some (X, π)) ∧ s2.pages t = { (g.pages t) with owner := 0 }) := by
      intro t
      rcases f4 t with h1 | ⟨h0, h1⟩
      · exact Or.inl h1
      · right
        obtain ⟨_, π, a2⟩ := hL _ h0
        rw [frame_mul hP] at a2
        refine ⟨⟨_, a2⟩, ?_⟩
        rw [h1, hpg1 t (by rw [a2]; simp)]
    exact
      { ptable_eq := f1.trans hw.ptable_eq
        cursor_eq := f2.trans hw.cursor_eq
        current_eq := f3.trans hw.current_eq
        pages := fun t => by
          show upd s2.pages _ _ t = _ ∨ _
          by_cases ht : t = (g.ptable X).pagetable / K.PAGESIZE
          · right; right; right
            subst ht
            refine ⟨⟨_, hsX.root_role⟩, ?_⟩
            simp only [upd, if_true]
            rcases hpg2 ((g.ptable X).pagetable / K.PAGESIZE) with h1 | ⟨_, h1⟩
            · rw [h1, hpg1 _ (by rw [hsX.root_role]; simp)]
            · rw [h1]
          · simp only [upd, if_neg ht]
            rcases hpg2 t with h1 | h1
            · rw [h1]
              rcases hw.pages t with h2 | ⟨⟨v, _, a1, a2, a3⟩, h2 | h2⟩
              · exact Or.inl h2
              · exact Or.inr (Or.inl ⟨⟨v, a1, a2, a3⟩, h2⟩)
              · exact Or.inr (Or.inr (Or.inl ⟨⟨v, a1, a2, a3⟩, h2⟩))
            · exact Or.inr (Or.inr (Or.inr h1))
        mem := fun a => by
          show memset s2.mem _ 0 K.PAGESIZE a = _ ∨ _
          by_cases ha : a / K.PAGESIZE = (g.ptable X).pagetable / K.PAGESIZE
          · right; right
            rw [ha]
            exact ⟨_, hsX.root_role⟩
          · rw [← aligned_eq (g.ptable X).pagetable hsX.root_al, memset_frame hP, if_neg ha]
            rcases f5 a with h1 | h1
            · rw [h1]
              rcases hw.mem a with h2 | h2
              · exact Or.inl h2
              · exact Or.inr (Or.inl h2.1)
            · right; right
              obtain ⟨_, π, a2⟩ := hL _ h1
              rw [frame_mul hP] at a2
              exact ⟨_, a2⟩
        tables_freed := fun x hx => by
          show (upd s2.pages _ _ (x / K.PAGESIZE)).owner = 0
          by_cases hxr : x / K.PAGESIZE = (g.ptable X).pagetable / K.PAGESIZE
          · simp only [upd, if_pos hxr]
          · simp only [upd, if_neg hxr]
            rcases hx with hx | hx
            · exact absurd (by rw [hx]) hxr
            · exact hown2.2 x ((hmemL x).2 hx)
        pages_kept := fun t hnm hnr hnl => by
          show upd s2.pages _ _ t = _
          have htr : t ≠ (g.ptable X).pagetable / K.PAGESIZE := by
            intro hh
            apply hnr
            rw [hh]
            exact Nat.div_mul_cancel (Nat.dvd_of_mod_eq_zero hsX.root_al)
          simp only [upd, if_neg htr]
          rcases f4 t with h1 | ⟨h0, _⟩
          · rw [h1]
            rcases hw.pages t with h2 | ⟨⟨v, _, a1, a2, a3⟩, _⟩
            · exact h2
            · exact absurd ⟨v, a1, a2, a3⟩ hnm
          · exact absurd ((hmemL _).1 h0) hnl }

/-- After `proc_free(X)` the invariant holds without the tree of `X`. -/
theorem Inv.of_freed (hK : K.Geom) {g : KState} {role : Roles} (h : Inv K g role) (X : Nat)
    (hX : g.live X) {s : KState} (hf : Freed K g role X s) : Inv K s (dropRoles role X) := by
  have hP := hK.page_pos
  obtain ⟨hXn, hsX⟩ := h.spaces X hX
  have hmapsX : ∀ t, g.maps K X t → role t = none ∧
      K.allocatable_physical_address (t * K.PAGESIZE) = true := by
    intro t ⟨v, a1, a2, a3⟩
    rw [← a3]
    exact ⟨hsX.user_untyped v a1, (hsX.user_owned v a1 a2).1⟩
  have hlive : ∀ q, s.live q ↔ (g.live q ∧ q ≠ X) := by
    intro q
    unfold KState.live
    rw [hf.ptable_eq]
    by_cases hq : q = X
    · subst hq
      simp [upd]
    · simp [upd, hq]
  have hproc : ∀ q, q ≠ X → s.ptable q = g.ptable q := by
    intro q hq
    rw [hf.ptable_eq]
    simp [upd, hq]
  have hmemq : ∀ q, q ≠ X → ∀ a π, role (a / K.PAGESIZE) = some (q, π) → s.mem a = g.mem a := by
    intro q hq a π ha
    rcases hf.mem a with h1 | h1 | ⟨ρ, h1⟩
    · exact h1
    · rw [(hmapsX _ h1).1] at ha
      exact absurd ha (by simp)
    · rw [h1] at ha
      simp only [Option.some.injEq, Prod.mk.injEq] at ha
      exact absurd ha.1.symm hq
  have hent : ∀ q, g.live q → q ≠ X → ∀ va, s.ent K q va = g.ent K q va := by
    intro q hq hne va
    have hs := (h.spaces q hq).2
    unfold KState.ent
    rw [hproc q hne]
    exact vm_walk_congr hK role g.mem s.mem q h.tables 3 _ [] hs.root_role hs.root_al rfl
      (fun a π ha => hmemq q hne a _ ha) va
  have hmaps : ∀ q t, s.live q → s.maps K q t → g.live q ∧ g.maps K q t := by
    intro q t hq ⟨v, a1, a2, a3⟩
    obtain ⟨hq1, hq2⟩ := (hlive q).1 hq
    rw [hent q hq1 hq2] at a1 a3
    exact ⟨hq1, v, a1, a2, a3⟩
  have hmle : ∀ t, mappers K s t ≤ mappers K g t :=
    fun t => mappers_mono hK g s t (fun q _ h1 h2 => hmaps q t h1 h2)
  refine
    { cursor := by unfold cursorOK; rw [hf.cursor_eq]; exact h.cursor
      tables := ?_
      typed := ?_
      spaces := ?_
      count := ?_
      sharers_nonneg := ?_
      free_unshared := ?_
      na_clear := ?_
      pids := fun q hq => by
        by_cases hne : q = X
        · subst hne
          rw [hf.ptable_eq]
          simp only [upd, if_true]
          exact h.pids q hq
        · rw [hproc q hne]; exact h.pids q hq }
  · intro t p π hr
    obtain ⟨hr1, hne⟩ := dropRoles_some.1 hr
    refine ⟨(h.tables t p π hr1).1, fun i hi hl hp => ?_⟩
    have heq : readQ s.mem (t * K.PAGESIZE + 8 * i) = readQ g.mem (t * K.PAGESIZE + 8 * i) := by
      apply readQ_congr
      intro j hj
      apply hmemq p hne _ π
      rw [entry_frame hK t i j hi hj, hr1]
    rw [heq] at hp ⊢
    exact dropRoles_some.2 ⟨(h.tables t p π hr1).2 i hi hl hp, hne⟩
  · intro t p π hr
    obtain ⟨hr1, hne⟩ := dropRoles_some.1 hr
    obtain ⟨a1, a2, a3, a4⟩ := h.typed t p π hr1
    have hpg : s.pages t = g.pages t := by
      rcases hf.pages t with h1 | ⟨h1, _⟩ | ⟨h1, _⟩ | ⟨⟨ρ, h1⟩, _⟩
      · exact h1
      · rw [(hmapsX t h1).1] at hr1; exact absurd hr1 (by simp)
      · rw [(hmapsX t h1).1] at hr1; exact absurd hr1 (by simp)
      · rw [h1] at hr1
        simp only [Option.some.injEq, Prod.mk.injEq] at hr1
        exact absurd hr1.1.symm hne
    rw [hpg]
    exact ⟨(hlive p).2 ⟨a1, hne⟩, a2, a3, a4⟩
  · intro q hq2
    obtain ⟨hq, hne⟩ := (hlive q).1 hq2
    obtain ⟨g1, g2⟩ := h.spaces q hq
    refine ⟨g1, ?_⟩
    exact
      { root_role := by
          rw [hproc q hne]
          exact dropRoles_some.2 ⟨g2.root_role, hne⟩
        root_al := by rw [hproc q hne]; exact g2.root_al
        user_untyped := by
          intro va
          rw [hent q hq hne]
          exact fun hu => dropRoles_none (g2.user_untyped va hu)
        user_owned := by
          intro va
          rw [hent q hq hne]
          intro hu hc
          obtain ⟨b1, b2⟩ := g2.user_owned va hu hc
          refine ⟨b1, ?_⟩
          have hqm : g.maps K q (g.ent K q va / K.PAGESIZE) := ⟨va, hu, hc, rfl⟩
          rcases hf.pages (g.ent K q va / K.PAGESIZE) with h1 | ⟨h1, h0, _⟩ | ⟨_, _, h1⟩ |
            ⟨⟨ρ, h1⟩, _⟩
          · rw [h1]; exact b2
          · exfalso
            have h2 := mappers_two hK g _ X q hXn g1 hne hX h1 hq hqm
            have h3 := h.count (g.ent K q va / K.PAGESIZE)
            rw [h0] at h3
            omega
          · rw [h1]; exact b2
          · rw [g2.user_untyped va hu] at h1
            exact absurd h1 (by simp)
        console_na := by
          intro va
          rw [hent q hq hne]
          exact g2.console_na va
        inj := by
          intro va vb
          rw [hent q hq hne, hent q hq hne]
          exact g2.inj va vb }
  · intro t
    have h1 := h.count t
    have h2 := hmle t
    rcases hf.pages t with e | ⟨_, _, e⟩ | ⟨hm, _, e⟩ | ⟨_, e⟩
    · rw [e]; omega
    · rw [e]; show (mappers K s t : Int) ≤ (g.pages t).sharers + 1; omega
    · rw [e]
      have h3 := mappers_drop hK g s t X hXn hX hm (fun hh => ((hlive X).1 hh).2 rfl)
        (fun q _ a1 a2 => hmaps q t a1 a2)
      show (mappers K s t : Int) ≤ (g.pages t).sharers - 1 + 1
      omega
    · rw [e]; show (mappers K s t : Int) ≤ (g.pages t).sharers + 1; omega
  · intro t
    have h1 := h.sharers_nonneg t
    rcases hf.pages t with e | ⟨_, _, e⟩ | ⟨_, h2, e⟩ | ⟨_, e⟩
    · rw [e]; exact h1
    · rw [e]; exact h1
    · rw [e]; show 0 ≤ (g.pages t).sharers - 1; omega
    · rw [e]; exact h1
  · intro t
    rcases hf.pages t with e | ⟨_, h2, e⟩ | ⟨_, h2, e⟩ | ⟨⟨π, hr⟩, e⟩
    · rw [e]; exact h.free_unshared t
    · rw [e]; exact fun _ => h2
    · rw [e]
      intro ho
      have := h.free_unshared t ho
      omega
    · rw [e]
      exact fun _ => (h.typed t X π hr).2.2.2
  · intro t hna
    rcases hf.pages t with e | ⟨h1, _⟩ | ⟨h1, _⟩ | ⟨⟨π, hr⟩, _⟩
    · rw [e]; exact h.na_clear t hna
    · rw [(hmapsX t h1).2] at hna; exact absurd hna (by simp)
    · rw [(hmapsX t h1).2] at hna; exact absurd hna (by simp)
    · rw [(h.typed t X π hr).2.1] at hna; exact absurd hna (by simp)

end FreeWalkSec

section Ghost

variable {K : Config}

theorem proc_free_ghost (X : Nat) (s : KState) : proc_free K X (s.ghost X) = proc_free K X s := by
  have : ((s.ghost X).setProc X fun p => { p with state := procstate.P_FREE }) =
      (s.setProc X fun p => { p with state := procstate.P_FREE }) := by
    simp only [KState.ghost, KState.setProc]
    congr 1
    funext j
    simp only [upd]
    by_cases hj : j = X
    · simp [hj]
    · simp [hj]
  unfold proc_free
  simp only [this]

theorem kalloc_ghost (c sz : Nat) (s : KState) :
    kalloc K sz (s.ghost c) = ((kalloc K sz s).1, (kalloc K sz s).2.ghost c) := by
  unfold KState.ghost
  rw [kalloc_ptable, (kalloc_ptable_eq sz s).1]

theorem vm_map_ghost (c l tbl va pa perm : Nat) (s : KState) :
    vm_map K l tbl va pa perm (s.ghost c) =
      ((vm_map K l tbl va pa perm s).1, (vm_map K l tbl va pa perm s).2.ghost c) := by
  unfold KState.ghost
  rw [vm_map_ptable, (vm_map_ptable_eq l tbl va pa perm s).1]

theorem ghost_live (s : KState) (c : Nat) : (s.ghost c).live c := by
  simp [KState.ghost, KState.live, upd]

theorem ghost_live_iff (s : KState) (c q : Nat) (hq : q ≠ c) : (s.ghost c).live q ↔ s.live q := by
  simp [KState.ghost, KState.live, upd, hq]

theorem ghost_pagetable (s : KState) (c q : Nat) :
    ((s.ghost c).ptable q).pagetable = (s.ptable q).pagetable := by
  by_cases hq : q = c
  · subst hq; simp [KState.ghost, upd]
  · simp [KState.ghost, upd, hq]

theorem ghost_ent (s : KState) (c q va : Nat) : (s.ghost c).ent K q va = s.ent K q va := by
  unfold KState.ent
  rw [ghost_pagetable]
  rfl

theorem isFreeFrame_congr {s s1 : KState} {t : Nat} (h : s1.pages t = s.pages t) :
    isFreeFrame K s1 t ↔ isFreeFrame K s t := by
  unfold isFreeFrame
  rw [h]

end Ghost

section ExtSec

variable {K : Config}

theorem Ext.refl (c : Nat) (s : KState) (role : Roles) (ho : RolesOwned K s role) :
    Ext K c s role s role :=
  { ptable_eq := rfl
    current_eq := rfl
    pages_old := fun _ _ => rfl
    role_old := fun _ _ => rfl
    role_new := fun t ht => Or.inl (by
      by_contra hne
      exact ho t hne ht)
    mem_old := fun _ _ _ => rfl }

theorem Ext.andThen {c : Nat} {s s1 s2 : KState} {role role1 role2 : Roles}
    (e1 : Ext K c s role s1 role1) (e2 : Ext K c s1 role1 s2 role2) : Ext K c s role s2 role2 := by
  have hnf : ∀ t, ¬ isFreeFrame K s t → ¬ isFreeFrame K s1 t :=
    fun t ht hh => ht ((isFreeFrame_congr (e1.pages_old t ht)).1 hh)
  exact
    { ptable_eq := e2.ptable_eq.trans e1.ptable_eq
      current_eq := e2.current_eq.trans e1.current_eq
      pages_old := fun t ht => (e2.pages_old t (hnf t ht)).trans (e1.pages_old t ht)
      role_old := fun t ht => (e2.role_old t (hnf t ht)).trans (e1.role_old t ht)
      role_new := fun t ht => by
        by_cases h1 : isFreeFrame K s1 t
        · exact e2.role_new t h1
        · rw [e2.role_old t h1]
          exact e1.role_new t ht
      mem_old := fun a ha hr => by
        rw [e2.mem_old a (hnf _ ha) (by rw [e1.role_old _ ha]; exact hr)]
        exact e1.mem_old a ha hr }

theorem Ext.of_kalloc (hK : K.Geom) (c : Nat) (s : KState) (role : Roles) (hc : cursorOK K s)
    (ho : RolesOwned K s role) : Ext K c s role (kalloc K K.PAGESIZE s).2 role := by
  have hP := hK.page_pos
  rcases kalloc_spec hK.wf s hc with ⟨_, _, x, h2⟩ | ⟨f, _, h2, h3⟩
  · rw [h2]
    exact
      { ptable_eq := rfl
        current_eq := rfl
        pages_old := fun _ _ => rfl
        role_old := fun _ _ => rfl
        role_new := fun t ht => Or.inl (by
          by_contra hne
          exact ho t hne ht)
        mem_old := fun _ _ _ => rfl }
  · rw [h3]
    exact
      { ptable_eq := rfl
        current_eq := rfl
        pages_old := fun t ht => by
          have : t ≠ f := fun hh => ht (hh ▸ h2)
          simp only [kalloc_at, upd, frame_mul hP, if_neg this]
        role_old := fun _ _ => rfl
        role_new := fun t ht => Or.inl (by
          by_contra hne
          exact ho t hne ht)
        mem_old := fun a ha _ => by
          have : a / K.PAGESIZE ≠ f := fun hh => ha (hh ▸ h2)
          simp only [kalloc_at]
          rw [memset_frame hP, if_neg this] }

theorem Ext.of_map (hK : K.Geom) {c : Nat} {root va pa perm : Nat} {s s1 : KState}
    {role role1 : Roles} {rc : Int}
    (hm : MapPost K c [] 3 root va pa perm s role rc s1 role1) (ho : RolesOwned K s role)
    (hr : role (root / K.PAGESIZE) = some (c, [])) (hal : root % K.PAGESIZE = 0) :
    Ext K c s role s1 role1 := by
  have hrole : ∀ t, ¬ isFreeFrame K s t → role1 t = role t := by
    intro t ht
    rcases hm.role_ext t with h1 | ⟨_, h2, _⟩
    · exact h1
    · exact absurd h2 ht
  exact
    { ptable_eq := hm.ptable_eq
      current_eq := hm.current_eq
      pages_old := fun t ht => hm.pages_eq t (hrole t ht)
      role_old := hrole
      role_new := fun t ht => by
        rcases hm.role_ext t with h1 | ⟨_, _, _, q, h2⟩
        · left
          rw [h1]
          by_contra hne
          exact ho t hne ht
        · exact Or.inr ⟨_, h2⟩
      mem_old := fun a ha hra => by
        by_contra hne
        rcases hm.mem_frame a hne with h1 | ⟨q, h1⟩
        · have := entry_range_frame hK _ _ a hal (pageindex_lt hK va 3) h1.1 h1.2
          rw [this] at hra
          exact hra [] hr
        · rw [hrole _ ha] at h1
          exact hra _ h1 }

end ExtSec

section NewRoot

variable {K : Config}

/-- A freshly allocated frame as the empty root table of a process that was Free. -/
theorem Inv.new_root (hK : K.Geom) {s : KState} {role : Roles} (h : Inv K s role) (c : Nat)
    (hc : ¬ s.live c) (hcn : c < K.NPROC) (f : Nat) (hf : isFreeFrame K s f)
    (hcur : cursorOK K (kalloc_at K s (f * K.PAGESIZE))) (s1 : KState)
    (hmem : s1.mem = (kalloc_at K s (f * K.PAGESIZE)).mem)
    (hpages : s1.pages = (kalloc_at K s (f * K.PAGESIZE)).pages)
    (hcu : s1.next_alloc_pa = (kalloc_at K s (f * K.PAGESIZE)).next_alloc_pa)
    (hpt : ∀ q, q ≠ c → s1.ptable q = s.ptable q)
    (hc1 : (s1.ptable c).pagetable = f * K.PAGESIZE)
    (hc2 : (s1.ptable c).pid = (s.ptable c).pid) (hc3 : s1.live c) :
    Inv K s1 (addRoot role f c) := by
  have hP := hK.page_pos
  have h1 := h.alloc_at hK f hf hcur
  have hrf := h.free_untyped f hf
  have hlive : ∀ q, q ≠ c → (s1.live q ↔ s.live q) := by
    intro q hq; unfold KState.live; rw [hpt q hq]
  have hzero : ∀ a, a / K.PAGESIZE = f → s1.mem a = 0 := by
    intro a ha
    rw [hmem]
    simp only [kalloc_at]
    rw [memset_frame hP, if_pos ha]
  have hentc : ∀ va, s1.ent K c va = 0 := by
    intro va
    unfold KState.ent
    rw [hc1]
    apply vm_walk_zero hK _ 3 _ (Nat.mul_mod_left _ _)
    intro a ha
    rw [frame_mul hP] at ha
    exact hzero a ha
  have hentq : ∀ q, q ≠ c → ∀ va, s1.ent K q va = (kalloc_at K s (f * K.PAGESIZE)).ent K q va := by
    intro q hq va
    unfold KState.ent
    rw [hmem, hpt q hq]
    rfl
  have hnu : ¬ userPresent 0 := by
    intro hh
    exact absurd hh.1 (by decide)
  have hadd : ∀ t, t ≠ f → addRoot role f c t = role t := by
    intro t ht; simp only [addRoot, if_neg ht]
  have haddf : addRoot role f c f = some (c, []) := by simp only [addRoot, if_true]
  refine
    { cursor := by unfold cursorOK; rw [hcu]; exact hcur
      tables := ?_
      typed := ?_
      spaces := ?_
      count := ?_
      sharers_nonneg := by rw [hpages]; exact h1.sharers_nonneg
      free_unshared := by rw [hpages]; exact h1.free_unshared
      na_clear := by rw [hpages]; exact h1.na_clear
      pids := fun q hq => by
        by_cases hqc : q = c
        · subst hqc; rw [hc2]; exact h.pids q hq
        · rw [hpt q hqc]; exact h.pids q hq }
  · intro t p π hr
    by_cases ht : t = f
    · subst ht
      rw [haddf] at hr
      simp only [Option.some.injEq, Prod.mk.injEq] at hr
      rw [← hr.2]
      refine ⟨by simp, fun i hi _ hp => ?_⟩
      exfalso
      have hz : readQ s1.mem (t * K.PAGESIZE + 8 * i) = 0 := by
        apply readQ_zero
        intro j hj
        exact hzero _ (entry_frame hK t i j hi hj)
      rw [hz] at hp
      exact absurd hp (by decide)
    · rw [hadd t ht] at hr
      rw [hmem]
      refine ⟨(h1.tables t p π hr).1, fun i hi hl hp => ?_⟩
      have := (h1.tables t p π hr).2 i hi hl hp
      rw [hadd _ (fun hh => by rw [hh, hrf] at this; exact absurd this (by simp))]
      exact this
  · intro t p π hr
    rw [hpages]
    by_cases ht : t = f
    · subst ht
      rw [haddf] at hr
      simp only [Option.some.injEq, Prod.mk.injEq] at hr
      rw [← hr.1, kalloc_at_pages hP]
      exact ⟨hc3, hf.1, by decide, rfl⟩
    · rw [hadd t ht] at hr
      obtain ⟨a1, a2⟩ := h1.typed t p π hr
      have hpc : p ≠ c := fun hh => hc (hh ▸ a1)
      exact ⟨(hlive p hpc).2 a1, a2⟩
  · intro q hq
    by_cases hqc : q = c
    · subst hqc
      refine ⟨hcn, ?_⟩
      exact
        { root_role := by rw [hc1, frame_mul hP]; exact haddf
          root_al := by rw [hc1]; exact Nat.mul_mod_left _ _
          user_untyped := by intro va; rw [hentc]; exact fun hh => absurd hh hnu
          user_owned := by intro va; rw [hentc]; exact fun hh => absurd hh hnu
          console_na := by intro va; rw [hentc]; exact fun hh => absurd hh hnu
          inj := by intro va vb; rw [hentc]; exact fun hh => absurd hh hnu }
    · have hl : s.live q := (hlive q hqc).1 hq
      obtain ⟨g1, g2⟩ := h1.spaces q hl
      refine ⟨g1, ?_⟩
      exact
        { root_role := by
            have : role ((s.ptable q).pagetable / K.PAGESIZE) = some (q, []) := g2.root_role
            rw [hpt q hqc, hadd _ (fun hh => by rw [hh, hrf] at this; exact absurd this (by simp))]
            exact this
          root_al := by
            have : (s.ptable q).pagetable % K.PAGESIZE = 0 := g2.root_al
            rw [hpt q hqc]; exact this
          user_untyped := by
            intro va
            rw [hentq q hqc]
            intro hu
            rw [hadd _ (kalloc_at_unmapped hK h f hf q hl va hu)]
            exact g2.user_untyped va hu
          user_owned := by
            intro va
            rw [hentq q hqc, hpages]
            exact g2.user_owned va
          console_na := by
            intro va
            rw [hentq q hqc]
            exact g2.console_na va
          inj := by
            intro va vb
            rw [hentq q hqc, hentq q hqc]
            exact g2.inj va vb }
  · intro t
    rw [hpages]
    have : mappers K s1 t ≤ mappers K (kalloc_at K s (f * K.PAGESIZE)) t := by
      apply mappers_mono hK
      intro q _ hq ⟨va, a1, a2, a3⟩
      have hqc : q ≠ c := by
        intro hh
        subst hh
        rw [hentc] at a1
        exact hnu a1
      rw [hentq q hqc] at a1 a3
      exact ⟨(hlive q hqc).1 hq, va, a1, a2, a3⟩
    have := h1.count t
    omega

end NewRoot

section ForkHelpers

variable {K : Config}

theorem aligned_lt_succ (hP : 0 < K.PAGESIZE) (v va : Nat) (h1 : v % K.PAGESIZE = 0)
    (h2 : va % K.PAGESIZE = 0) (h : v < va + K.PAGESIZE) : v < va ∨ v = va := by
  have a1 := aligned_eq (K := K) v h1
  have a2 := aligned_eq (K := K) va h2
  have h3 : v / K.PAGESIZE < va / K.PAGESIZE + 1 := by
    apply Nat.lt_of_mul_lt_mul_right (a := K.PAGESIZE)
    rw [Nat.add_mul, Nat.one_mul, a1, a2]
    exact h
  have h4 : v / K.PAGESIZE * K.PAGESIZE ≤ va / K.PAGESIZE * K.PAGESIZE :=
    Nat.mul_le_mul_right _ (by omega)
  omega

theorem hasflag_zero (b : Nat) : hasflag 0 b = false := by
  unfold hasflag
  simp

theorem not_userPresent_zero : ¬ userPresent 0 := fun h => by
  have := h.1
  rw [hasflag_zero] at this
  exact absurd this (by simp)

/-- The flags of an entry made of a frame address and permission bits. -/
theorem hasflag_mk (hK : K.Geom) (f perm b : Nat) (hp : perm < K.PAGESIZE)
    (hb : b = 1 ∨ b = 2 ∨ b = 4) :
    hasflag (f * K.PAGESIZE + perm) b = hasflag perm b := by
  rw [← hasflag_flags hK (f * K.PAGESIZE + perm) b hb, pte_flags_mk f perm hp]

theorem pte_flags_lt (hP : 0 < K.PAGESIZE) (e : Nat) : pte_flags K e < K.PAGESIZE :=
  Nat.mod_lt _ hP

theorem pte_flags_ne_zero (hK : K.Geom) (e : Nat) (h : hasflag e PTE_P = true) :
    pte_flags K e ≠ 0 := by
  intro h0
  rw [← hasflag_flags hK e PTE_P (Or.inl rfl), h0, hasflag_zero] at h
  exact absurd h (by simp)

theorem userPresent_mk (hK : K.Geom) (f e : Nat) :
    userPresent (f * K.PAGESIZE + pte_flags K e) ↔ userPresent e := by
  unfold userPresent
  rw [hasflag_mk hK f _ PTE_P (pte_flags_lt hK.page_pos e) (Or.inl rfl),
    hasflag_mk hK f _ PTE_U (pte_flags_lt hK.page_pos e) (Or.inr (Or.inr rfl)),
    hasflag_flags hK e PTE_P (Or.inl rfl), hasflag_flags hK e PTE_U (Or.inr (Or.inr rfl))]

/-- Walks of the trees of `s` in a memory that agrees with that of `s` on the frames
that are not free. -/
theorem walk_old (hK : K.Geom) {s : KState} {role : Roles} (h : Inv K s role) (m : Nat → Nat)
    (hm : ∀ a, ¬ isFreeFrame K s (a / K.PAGESIZE) → m a = s.mem a) (q : Nat) (hq : s.live q)
    (vb : Nat) : vm_walk K m 3 (s.ptable q).pagetable vb = s.ent K q vb := by
  have hs := (h.spaces q hq).2
  apply vm_walk_root_congr hK h.tables q _ hs.root_role hs.root_al
  intro a ha
  exact hm a (h.rolesOwned _ ha)

theorem lt_span_of_lt_virt (hK : K.Geom) (va : Nat) (h : va < K.MEMSIZE_VIRTUAL) :
    va < K.VA_SPAN := by
  have := hK.virt_half
  have := Nat.div_le_self K.VA_SPAN 2
  omega

theorem canonical_of_lt_virt (hK : K.Geom) (va : Nat) (h : va < K.MEMSIZE_VIRTUAL) :
    va_is_canonical K va = true := by
  have := hK.virt_half
  unfold va_is_canonical
  simp only [Bool.or_eq_true, decide_eq_true_eq]
  left
  omega

theorem ForkInv.nonfree {s : KState} {role : Roles} {c cpt va : Nat} {sk : KState}
    {rolek : Roles} (fi : ForkInv K s role c cpt va sk rolek) (t : Nat)
    (ht : ¬ isFreeFrame K s t) : ¬ isFreeFrame K sk t := by
  intro hh
  apply ht
  refine ⟨hh.1, ?_⟩
  rw [← fi.owner_old t ht]
  exact hh.2

theorem ForkInv.parent_ent (hK : K.Geom) {s : KState} {role : Roles} (h : Inv K s role)
    {c cpt va : Nat} (hc : ¬ s.live c) {sk : KState} {rolek : Roles}
    (fi : ForkInv K s role c cpt va sk rolek) (q : Nat) (hq : s.live q) (vb : Nat) :
    sk.ent K q vb = s.ent K q vb := by
  have hqc : q ≠ c := fun hh => hc (hh ▸ hq)
  unfold KState.ent
  rw [fi.mid.ptable_old q hqc]
  exact walk_old hK h sk.mem fi.mem_old q hq vb

/-- A page that the child maps lies below the address that the walk has reached. -/
theorem ForkInv.child_page (hK : K.Geom) {s : KState} {role : Roles} {c cpt va : Nat}
    {sk : KState} {rolek : Roles} (fi : ForkInv K s role c cpt va sk rolek)
    (hal : va % K.PAGESIZE = 0) (vb : Nat) (hu : sk.ent K c vb ≠ 0) :
    ∃ v, v < va ∧ v % K.PAGESIZE = 0 ∧ v < K.VA_SPAN ∧ samePage K vb v ∧
      sk.ent K c vb = sk.ent K c v := by
  have hP := hK.page_pos
  have hlt : vpn K vb < va / K.PAGESIZE := by
    by_contra hge
    exact hu (fi.child_rest vb (by omega))
  have hv4 : vpn K vb < K.NENT ^ 4 := by
    unfold vpn
    apply Nat.mod_lt
    exact pow_pos hK.nent_pos 4
  have hsame : samePage K vb (vpn K vb * K.PAGESIZE) := by
    rw [samePage_iff hK, vpn_mul hK _ hv4]
  refine ⟨vpn K vb * K.PAGESIZE, ?_, Nat.mul_mod_left _ _, ?_, hsame, ?_⟩
  · have := Nat.mul_lt_mul_of_pos_right hlt hP
    rw [aligned_eq va hal] at this
    exact this
  · rw [span_eq, Nat.mul_comm K.PAGESIZE]
    exact Nat.mul_lt_mul_of_pos_right hv4 hP
  · unfold KState.ent
    exact vm_walk_samePage sk.mem 3 _ _ _ hsame.1 hsame.2

/-- The running process maps no frame read-only on two pages. -/
theorem shared_once (hK : K.Geom) {s : KState} {role : Roles} (h : Inv K s role)
    (hcur : s.live s.current) (va t : Nat) (hal : va % K.PAGESIZE = 0)
    (hva : va < K.MEMSIZE_VIRTUAL) (hb : sharedBelow K s va t)
    (hu : userPresent (s.ent K s.current va)) (hnc : va ≠ K.console)
    (ht : t = s.ent K s.current va / K.PAGESIZE) : False := by
  obtain ⟨v, a1, a2, a3, a4, _, a6⟩ := hb
  have hsp := lt_span_of_lt_virt hK va hva
  have hc1 : ¬ samePage K v K.console := fun hh =>
    a3 ((samePage_aligned hK v K.console (by omega) (console_lt_span hK) a2 hK.console_al).1 hh)
  have hc2 : ¬ samePage K va K.console := fun hh =>
    hnc ((samePage_aligned hK va K.console hsp (console_lt_span hK) hal hK.console_al).1 hh)
  have := (h.spaces _ hcur).2.inj v va a4 hu hc1 hc2 (by rw [a6, ht])
  have := (samePage_aligned hK v va (by omega) hsp a2 hal).1 this
  omega

/-- One iteration of the walk of `fork` re-establishes the loop invariant. -/
theorem ForkInv.advance (hK : K.Geom) {s : KState} {role : Roles} (h : Inv K s role)
    (hcur : s.live s.current) {c cpt va : Nat} (hc : ¬ s.live c) {sk : KState} {rolek : Roles}
    (fi : ForkInv K s role c cpt va sk rolek) (hal : va % K.PAGESIZE = 0)
    (hva : va < K.MEMSIZE_VIRTUAL) {sk1 : KState} {role1 : Roles}
    (hmid : ForkMid K s c cpt sk1 role1)
    (hpages : ∀ t, ¬ isFreeFrame K sk t →
      (((userPresent (s.ent K s.current va) ∧ hasflag (s.ent K s.current va) PTE_W = false ∧
          va ≠ K.console) ∧ t = s.ent K s.current va / K.PAGESIZE) →
        sk1.pages t = { (sk.pages t) with sharers := (sk.pages t).sharers + 1 }) ∧
      (¬ ((userPresent (s.ent K s.current va) ∧ hasflag (s.ent K s.current va) PTE_W = false ∧
          va ≠ K.console) ∧ t = s.ent K s.current va / K.PAGESIZE) →
        sk1.pages t = sk.pages t))
    (hrole_old : ∀ t, ¬ isFreeFrame K sk t → role1 t = rolek t)
    (hrole_new : ∀ t, isFreeFrame K sk t → role1 t = none ∨ ∃ π, role1 t = some (c, π))
    (hmem : ∀ a, ¬ isFreeFrame K sk (a / K.PAGESIZE) →
      (∀ π, rolek (a / K.PAGESIZE) ≠ some (c, π)) → sk1.mem a = sk.mem a)
    (hent : ∀ vb, ¬ samePage K vb va → sk1.ent K c vb = sk.ent K c vb)
    (hnew : ChildPage K s c sk1 va) :
    ForkInv K s role c cpt (va + K.PAGESIZE) sk1 role1 := by
  have hP := hK.page_pos
  have hsp := lt_span_of_lt_virt hK va hva
  have hsC := (h.spaces _ hcur).2
  have hncva : va ≠ K.console → ¬ samePage K va K.console := fun hnc hh =>
    hnc ((samePage_aligned hK va K.console hsp (console_lt_span hK) hal hK.console_al).1 hh)
  -- the frame shared in this iteration is not free
  have hBnf : userPresent (s.ent K s.current va) → va ≠ K.console →
      ¬ isFreeFrame K s (s.ent K s.current va / K.PAGESIZE) :=
    fun hu hnc hh => (hsC.user_owned va hu (hncva hnc)).2 hh.2
  have hsplit : ∀ t, sharedBelow K s (va + K.PAGESIZE) t ↔
      (sharedBelow K s va t ∨
        ((userPresent (s.ent K s.current va) ∧ hasflag (s.ent K s.current va) PTE_W = false ∧
          va ≠ K.console) ∧ t = s.ent K s.current va / K.PAGESIZE)) := by
    intro t
    constructor
    · intro ⟨v, a1, a2, a3, a4, a5, a6⟩
      rcases aligned_lt_succ hP v va a2 hal a1 with hlt | heq
      · exact Or.inl ⟨v, hlt, a2, a3, a4, a5, a6⟩
      · subst heq
        exact Or.inr ⟨⟨a4, a5, a3⟩, a6.symm⟩
    · intro hh
      rcases hh with ⟨v, a1, a2⟩ | ⟨⟨b1, b2, b3⟩, b4⟩
      · exact ⟨v, by omega, a2⟩
      · exact ⟨va, by omega, hal, b3, b1, b2, b4.symm⟩
  have hrc : ∀ t π, ¬ isFreeFrame K s t → rolek t ≠ some (c, π) := by
    intro t π ht hr
    rw [fi.role_old t ht] at hr
    exact hc (h.typed t c π hr).1
  exact
    { mid := hmid
      owner_old := fun t ht => by
        rw [← fi.owner_old t ht]
        by_cases hB : (userPresent (s.ent K s.current va) ∧
            hasflag (s.ent K s.current va) PTE_W = false ∧ va ≠ K.console) ∧
            t = s.ent K s.current va / K.PAGESIZE
        · rw [(hpages t (fi.nonfree t ht)).1 hB]
        · rw [(hpages t (fi.nonfree t ht)).2 hB]
      sharers_hit := fun t ht hs => by
        rcases (hsplit t).1 hs with h1 | h1
        · have hB : ¬ ((userPresent (s.ent K s.current va) ∧
              hasflag (s.ent K s.current va) PTE_W = false ∧ va ≠ K.console) ∧
              t = s.ent K s.current va / K.PAGESIZE) :=
            fun hh => shared_once hK h hcur va t hal hva h1 hh.1.1 hh.1.2.2 hh.2
          rw [(hpages t (fi.nonfree t ht)).2 hB]
          exact fi.sharers_hit t ht h1
        · have hnb : ¬ sharedBelow K s va t :=
            fun hh => shared_once hK h hcur va t hal hva hh h1.1.1 h1.1.2.2 h1.2
          rw [(hpages t (fi.nonfree t ht)).1 h1]
          show (sk.pages t).sharers + 1 = _
          rw [fi.sharers_miss t ht hnb]
      sharers_miss := fun t ht hs => by
        have h1 : ¬ sharedBelow K s va t := fun hh => hs ((hsplit t).2 (Or.inl hh))
        have h2 := fun hh => hs ((hsplit t).2 (Or.inr hh))
        rw [(hpages t (fi.nonfree t ht)).2 h2]
        exact fi.sharers_miss t ht h1
      role_old := fun t ht => (hrole_old t (fi.nonfree t ht)).trans (fi.role_old t ht)
      role_new := fun t ht => by
        by_cases h1 : isFreeFrame K sk t
        · exact hrole_new t h1
        · rw [hrole_old t h1]
          exact fi.role_new t ht
      mem_old := fun a ha => by
        rw [hmem a (fi.nonfree _ ha) (fun π => hrc _ π ha)]
        exact fi.mem_old a ha
      child_rest := fun vb hvb => by
        rw [Nat.add_div_right _ hP] at hvb
        have hns : ¬ samePage K vb va := by
          rw [samePage_iff hK, vpn_of_lt hK va hsp]
          omega
        rw [hent vb hns]
        exact fi.child_rest vb (by omega)
      child_done := fun v hv hv2 => by
        rcases aligned_lt_succ hP v va hv2 hal hv with hlt | heq
        · have cp := fi.child_done v hlt hv2
          have hns : ¬ samePage K v va := fun hh => by
            have := (samePage_aligned hK v va (by omega) hsp hv2 hal).1 hh
            omega
          have hentv := hent v hns
          exact
            { copied := fun b1 b2 b3 => by
                obtain ⟨F, f1, f2, f3, f4, f5⟩ := cp.copied b1 b2 b3
                have hFk : ¬ isFreeFrame K sk F := fun hh => f4 hh.2
                have hFB : ¬ ((userPresent (s.ent K s.current va) ∧
                    hasflag (s.ent K s.current va) PTE_W = false ∧ va ≠ K.console) ∧
                    F = s.ent K s.current va / K.PAGESIZE) :=
                  fun hh => hBnf hh.1.1 hh.1.2.2 (hh.2 ▸ f1)
                have hFr : rolek F = none := by
                  have hu : userPresent ((sk.ghost c).ent K c v) := by
                    rw [ghost_ent, f2]
                    exact (userPresent_mk hK F _).2 b1
                  have := (fi.mid.inv.spaces c (ghost_live sk c)).2.user_untyped v hu
                  rw [ghost_ent, f2, frame_add hP F _ (pte_flags_lt hP _)] at this
                  exact this
                refine ⟨F, f1, by rw [hentv]; exact f2, ?_, ?_, ?_⟩
                · rw [(hpages F hFk).2 hFB]; exact f3
                · rw [(hpages F hFk).2 hFB]; exact f4
                · intro i hi
                  rw [hmem _ (by rw [frame_add hP F i hi]; exact hFk)
                    (by rw [frame_add hP F i hi, hFr]; simp)]
                  exact f5 i hi
              shared := fun b1 b2 b3 => by rw [hentv]; exact cp.shared b1 b2 b3
              other := fun b1 => by rw [hentv]; exact cp.other b1 }
        · subst heq
          exact hnew }

end ForkHelpers

section ForkSteps

variable {K : Config}

theorem ForkMid.root_role {s : KState} {c cpt : Nat} {sk : KState} {rolek : Roles}
    (hmid : ForkMid K s c cpt sk rolek) :
    rolek (cpt / K.PAGESIZE) = some (c, []) ∧ cpt % K.PAGESIZE = 0 ∧
    ((sk.ghost c).ptable c).pagetable = cpt := by
  have hs := (hmid.inv.spaces c (ghost_live sk c)).2
  have hroot : ((sk.ghost c).ptable c).pagetable = cpt := by
    rw [ghost_pagetable, hmid.croot]
  have h1 := hs.root_role
  have h2 := hs.root_al
  rw [hroot] at h1 h2
  exact ⟨h1, h2, hroot⟩

/-- A call of `vm_map` on the tree of the child, seen in the state in which the
child counts as not Free. -/
theorem fork_map (hK : K.Geom) {s : KState} {c cpt : Nat} {sk : KState} {rolek : Roles}
    (hmid : ForkMid K s c cpt sk rolek) (va pa perm : Nat) (hlt : pa + perm < 2 ^ 64)
    (h0 : perm = 0 → pa = 0) :
    ∃ role1,
      MapPost K c [] 3 ((sk.ghost c).ptable c).pagetable va pa perm (sk.ghost c) rolek
        (vm_map K 3 cpt va pa perm sk).1 ((vm_map K 3 cpt va pa perm sk).2.ghost c) role1 ∧
      Ext K c sk rolek (vm_map K 3 cpt va pa perm sk).2 role1 ∧
      (∀ vb, (vm_map K 3 cpt va pa perm sk).1 = 0 → samePage K vb va →
        (vm_map K 3 cpt va pa perm sk).2.ent K c vb = pa + perm) ∧
      (∀ vb, ¬ ((vm_map K 3 cpt va pa perm sk).1 = 0 ∧ samePage K vb va) →
        (vm_map K 3 cpt va pa perm sk).2.ent K c vb = sk.ent K c vb) := by
  obtain ⟨hr, hal, hroot⟩ := hmid.root_role
  obtain ⟨role1, hm⟩ := vm_map_post hK c 3 cpt va pa perm [] (sk.ghost c) rolek hmid.inv.cursor
    hmid.inv.tables hmid.inv.rolesOwned hr hal rfl hlt h0
  rw [vm_map_ghost] at hm
  have hpe := vm_map_ptable_eq (K := K) 3 cpt va pa perm sk
  have he := Ext.of_map hK hm hmid.inv.rolesOwned hr hal
  have hcr : ((vm_map K 3 cpt va pa perm sk).2.ptable c).pagetable = cpt := by
    rw [hpe.1, hmid.croot]
  refine ⟨role1, by rw [hroot]; exact hm, ?_, ?_, ?_⟩
  · exact
      { ptable_eq := hpe.1
        current_eq := hpe.2
        pages_old := he.pages_old
        role_old := he.role_old
        role_new := he.role_new
        mem_old := he.mem_old }
  · intro vb h1 h2
    unfold KState.ent
    rw [hcr]
    exact (hm.walk vb).trans (if_pos ⟨h1, h2⟩)
  · intro vb h1
    unfold KState.ent
    rw [hcr, hmid.croot]
    exact (hm.walk vb).trans (if_neg h1)

/-- A step that extends the tree of `c` leaves the page-table pages of the other
processes as they were before `fork`. -/
theorem ForkMid.mem_ext {s : KState} {c cpt : Nat} {sk : KState} {rolek : Roles}
    (hmid : ForkMid K s c cpt sk rolek) {sk1 : KState} {role1 : Roles}
    (he : Ext K c sk rolek sk1 role1) :
    ∀ a q π, role1 (a / K.PAGESIZE) = some (q, π) → q ≠ c → sk1.mem a = s.mem a := by
  intro a q π hr hq
  by_cases hf : isFreeFrame K sk (a / K.PAGESIZE)
  · rcases he.role_new _ hf with h0 | ⟨π1, h1⟩
    · rw [h0] at hr
      exact absurd hr (by simp)
    · rw [h1] at hr
      simp only [Option.some.injEq, Prod.mk.injEq] at hr
      exact absurd hr.1.symm hq
  · have hro := he.role_old _ hf
    rw [hr] at hro
    rw [he.mem_old a hf (fun π1 h1 => by
      rw [h1] at hro
      simp only [Option.some.injEq, Prod.mk.injEq] at hro
      exact hq hro.1)]
    exact hmid.others_mem a q π hro.symm hq

/-- A step that writes no page-table page leaves the page-table pages of the other
processes as they were before `fork`. -/
theorem ForkMid.mem_same {s : KState} {c cpt : Nat} {sk : KState} {rolek : Roles}
    (hmid : ForkMid K s c cpt sk rolek) {m : Nat → Nat}
    (hm : ∀ a, rolek (a / K.PAGESIZE) ≠ none → m a = sk.mem a) :
    ∀ a q π, rolek (a / K.PAGESIZE) = some (q, π) → q ≠ c → m a = s.mem a := by
  intro a q π hr hq
  rw [hm a (by rw [hr]; simp)]
  exact hmid.others_mem a q π hr hq

/-- The state after a step is again a state inside `fork`. -/
theorem ForkMid.step {s : KState} {c cpt : Nat} {sk : KState} {rolek : Roles}
    (hmid : ForkMid K s c cpt sk rolek) {sk1 : KState} {role1 : Roles}
    (hinv : Inv K (sk1.ghost c) role1) (hpt : sk1.ptable = sk.ptable)
    (hcur : sk1.current = sk.current)
    (hmem : ∀ a q π, role1 (a / K.PAGESIZE) = some (q, π) → q ≠ c → sk1.mem a = s.mem a) :
    ForkMid K s c cpt sk1 role1 :=
  { inv := hinv
    current_eq := hcur.trans hmid.current_eq
    ptable_old := fun q hq => by rw [hpt]; exact hmid.ptable_old q hq
    cstate := by rw [hpt]; exact hmid.cstate
    cpid := by rw [hpt]; exact hmid.cpid
    croot := by rw [hpt]; exact hmid.croot
    others_mem := hmem }

/-- The entry that the running process has for `va`, read in a state inside
`fork`. -/
theorem ForkInv.cur_ent (hK : K.Geom) {s : KState} {role : Roles} (h : Inv K s role)
    (hcur : s.live s.current) {c cpt va : Nat} (hc : ¬ s.live c) {sk : KState} {rolek : Roles}
    (fi : ForkInv K s role c cpt va sk rolek) (vb : Nat) :
    (sk.ghost c).live s.current ∧ (sk.ghost c).ent K s.current vb = s.ent K s.current vb := by
  have hne : s.current ≠ c := fun hh => hc (hh ▸ hcur)
  refine ⟨?_, ?_⟩
  · rw [ghost_live_iff _ _ _ hne]
    unfold KState.live
    rw [fi.mid.ptable_old _ hne]
    exact hcur
  · rw [ghost_ent]
    exact fi.parent_ent hK h hc _ hcur vb

/-- The branch of the walk of `fork` that copies the parent's entry as it is. -/
theorem fork_step_other (hK : K.Geom) {s : KState} {role : Roles} (h : Inv K s role)
    (hcur : s.live s.current) {c cpt va : Nat} (hc : ¬ s.live c) {sk : KState} {rolek : Roles}
    (fi : ForkInv K s role c cpt va sk rolek) (hal : va % K.PAGESIZE = 0)
    (hva : va < K.MEMSIZE_VIRTUAL)
    (hne : ¬ (userPresent (s.ent K s.current va) ∧ va ≠ K.console)) (pa perm : Nat)
    (hsum : pa + perm =
      if hasflag (s.ent K s.current va) PTE_P = true then s.ent K s.current va else 0)
    (h0 : perm = 0 → pa = 0) :
    ∃ role1, ForkMid K s c cpt (vm_map K 3 cpt va pa perm sk).2 role1 ∧
      ((vm_map K 3 cpt va pa perm sk).1 = 0 →
        ForkInv K s role c cpt (va + K.PAGESIZE) (vm_map K 3 cpt va pa perm sk).2 role1) := by
  have hlt : pa + perm < 2 ^ 64 := by
    rw [hsum]
    split
    · exact vm_walk_lt _ _ _ _
    · norm_num
  obtain ⟨role1, hm, he, hw1, hw2⟩ := fork_map hK fi.mid va pa perm hlt h0
  obtain ⟨hcl, hce⟩ := fi.cur_ent hK h hcur hc va
  have hsC := (fi.mid.inv.spaces _ hcl).2
  have hinv : Inv K ((vm_map K 3 cpt va pa perm sk).2.ghost c) role1 := by
    apply fi.mid.inv.install hK c (ghost_live sk c) hm _ rfl rfl rfl (fun t => Or.inl rfl)
    intro _ hu
    rw [hsum] at hu ⊢
    by_cases hp : hasflag (s.ent K s.current va) PTE_P = true
    · rw [if_pos hp] at hu ⊢
      have hcon : va = K.console := by
        by_contra hh
        exact hne ⟨hu, hh⟩
      have hsame : samePage K va K.console := by rw [hcon]; exact samePage_refl _
      have hu2 : userPresent ((sk.ghost c).ent K s.current va) := by rw [hce]; exact hu
      have h1 := hsC.user_untyped va hu2
      have h2 := hsC.console_na va hu2 hsame
      rw [hce] at h1 h2
      exact ⟨h1, fun _ => h2, fun hh => absurd hsame hh⟩
    · rw [if_neg hp] at hu
      exact absurd hu not_userPresent_zero
  have hmid := fi.mid.step hinv he.ptable_eq he.current_eq (fi.mid.mem_ext he)
  refine ⟨role1, hmid, fun hrc => ?_⟩
  apply fi.advance hK h hcur hc hal hva hmid
  · intro t ht
    exact ⟨fun hh => absurd ⟨hh.1.1, hh.1.2.2⟩ hne, fun _ => he.pages_old t ht⟩
  · exact he.role_old
  · exact he.role_new
  · exact he.mem_old
  · exact fun vb hvb => hw2 vb (fun hh => hvb hh.2)
  · exact
      { copied := fun b1 _ b3 => absurd ⟨b1, b3⟩ hne
        shared := fun b1 _ b3 => absurd ⟨b1, b3⟩ hne
        other := fun _ => by
          rw [hw1 va hrc (samePage_refl _)]
          exact hsum }

/-- After a step, memory in the frames that were not free before `fork` is as
before `fork`. -/
theorem ForkInv.mem_step {s : KState} {role : Roles} (h : Inv K s role) {c cpt va : Nat}
    (hc : ¬ s.live c) {sk : KState} {rolek : Roles} (fi : ForkInv K s role c cpt va sk rolek)
    {sk1 : KState} {role1 : Roles} (he : Ext K c sk rolek sk1 role1) (a : Nat)
    (ha : ¬ isFreeFrame K s (a / K.PAGESIZE)) : sk1.mem a = s.mem a := by
  rw [he.mem_old a (fi.nonfree _ ha) (fun π hr => by
    rw [fi.role_old _ ha] at hr
    exact hc (h.typed _ c π hr).1)]
  exact fi.mem_old a ha

/-- A frame that the child maps user-accessibly outside the console page was free
before `fork`, or the parent maps it read-only on the same page. -/
theorem ForkInv.child_frame (hK : K.Geom) {s : KState} {role : Roles} {c cpt va : Nat}
    {sk : KState} {rolek : Roles} (fi : ForkInv K s role c cpt va sk rolek)
    (hal : va % K.PAGESIZE = 0) (hva : va < K.MEMSIZE_VIRTUAL) (vb : Nat)
    (hu : userPresent (sk.ent K c vb)) (hnc : ¬ samePage K vb K.console) :
    isFreeFrame K s (sk.ent K c vb / K.PAGESIZE) ∨
    sharedBelow K s va (sk.ent K c vb / K.PAGESIZE) := by
  have hP := hK.page_pos
  have hne : sk.ent K c vb ≠ 0 := fun hh => by
    rw [hh] at hu
    exact not_userPresent_zero hu
  obtain ⟨v, a1, a2, a3, a4, a5⟩ := fi.child_page hK hal vb hne
  have cp := fi.child_done v a1 a2
  rw [a5] at hu ⊢
  have hvc : v ≠ K.console := fun hh => hnc (hh ▸ a4)
  by_cases hup : userPresent (s.ent K s.current v)
  · by_cases hw : hasflag (s.ent K s.current v) PTE_W = true
    · obtain ⟨F, f1, f2, _⟩ := cp.copied hup hw hvc
      left
      rw [f2, frame_add hP F _ (pte_flags_lt hP _)]
      exact f1
    · have hw2 : hasflag (s.ent K s.current v) PTE_W = false := by
        cases hh : hasflag (s.ent K s.current v) PTE_W
        · rfl
        · exact absurd hh hw
      right
      rw [cp.shared hup hw2 hvc]
      exact ⟨v, a1, a2, hvc, hup, hw2, rfl⟩
  · exfalso
    have := cp.other (fun hh => hup hh.1)
    rw [this] at hu
    split at hu
    · exact hup hu
    · exact not_userPresent_zero hu

/-- The branch of the walk of `fork` that shares a read-only page. -/
theorem fork_step_share (hK : K.Geom) {s : KState} {role : Roles} (h : Inv K s role)
    (hcur : s.live s.current) {c cpt va : Nat} (hc : ¬ s.live c) {sk : KState} {rolek : Roles}
    (fi : ForkInv K s role c cpt va sk rolek) (hal : va % K.PAGESIZE = 0)
    (hva : va < K.MEMSIZE_VIRTUAL) (hu : userPresent (s.ent K s.current va))
    (hw : hasflag (s.ent K s.current va) PTE_W = false) (hnc : va ≠ K.console) :
    (∀ a, ¬ isFreeFrame K s (a / K.PAGESIZE) →
      (vm_map K 3 cpt va (pte_pa K (s.ent K s.current va))
        (pte_flags K (s.ent K s.current va)) sk).2.mem a = s.mem a) ∧
    ((vm_map K 3 cpt va (pte_pa K (s.ent K s.current va))
        (pte_flags K (s.ent K s.current va)) sk).1 ≠ 0 →
      ∃ role1, ForkMid K s c cpt (vm_map K 3 cpt va (pte_pa K (s.ent K s.current va))
        (pte_flags K (s.ent K s.current va)) sk).2 role1) ∧
    ((vm_map K 3 cpt va (pte_pa K (s.ent K s.current va))
        (pte_flags K (s.ent K s.current va)) sk).1 = 0 →
      ∃ role1, ForkInv K s role c cpt (va + K.PAGESIZE)
        (bumpSharers (vm_map K 3 cpt va (pte_pa K (s.ent K s.current va))
          (pte_flags K (s.ent K s.current va)) sk).2 (s.ent K s.current va / K.PAGESIZE)) role1) := by
  have hP := hK.page_pos
  have hsum : pte_pa K (s.ent K s.current va) + pte_flags K (s.ent K s.current va) =
      s.ent K s.current va := pte_split _
  obtain ⟨role1, hm, he, hw1, hw2⟩ := fork_map hK fi.mid va (pte_pa K (s.ent K s.current va))
    (pte_flags K (s.ent K s.current va)) (by rw [hsum]; exact vm_walk_lt _ _ _ _)
    (fun h0 => absurd h0 (pte_flags_ne_zero hK _ hu.1))
  obtain ⟨hcl, hce⟩ := fi.cur_ent hK h hcur hc va
  have hsC := (fi.mid.inv.spaces _ hcl).2
  have hsp := lt_span_of_lt_virt hK va hva
  have hncs : ¬ samePage K va K.console := fun hh =>
    hnc ((samePage_aligned hK va K.console hsp (console_lt_span hK) hal hK.console_al).1 hh)
  have hu2 : userPresent ((sk.ghost c).ent K s.current va) := by rw [hce]; exact hu
  have hunt := hsC.user_untyped va hu2
  have hown := hsC.user_owned va hu2 hncs
  rw [hce] at hunt hown
  have hnfk : ¬ isFreeFrame K sk (s.ent K s.current va / K.PAGESIZE) := fun hh => hown.2 hh.2
  have hnfs : ¬ isFreeFrame K s (s.ent K s.current va / K.PAGESIZE) := fun hh =>
    ((h.spaces _ hcur).2.user_owned va hu hncs).2 hh.2
  refine ⟨fun a ha => fi.mem_step h hc he a ha, fun hrc => ?_, fun hrc => ?_⟩
  · refine ⟨role1, fi.mid.step ?_ he.ptable_eq he.current_eq (fi.mid.mem_ext he)⟩
    exact fi.mid.inv.install hK c (ghost_live sk c) hm _ rfl rfl rfl (fun t => Or.inl rfl)
      (fun h1 => absurd h1 hrc)
  · refine ⟨role1, ?_⟩
    have hinv : Inv K (KState.ghost
        (bumpSharers (vm_map K 3 cpt va (pte_pa K (s.ent K s.current va))
          (pte_flags K (s.ent K s.current va)) sk).2 (s.ent K s.current va / K.PAGESIZE)) c) role1 := by
      apply fi.mid.inv.install hK c (ghost_live sk c) hm (KState.ghost
        (bumpSharers (vm_map K 3 cpt va (pte_pa K (s.ent K s.current va))
          (pte_flags K (s.ent K s.current va)) sk).2 (s.ent K s.current va / K.PAGESIZE)) c) rfl rfl rfl
      · intro t
        rw [hsum]
        by_cases ht : t = s.ent K s.current va / K.PAGESIZE
        · right
          refine ⟨hrc, hu, hncs, ht, ?_, ?_⟩
          · simp only [KState.ghost, bumpSharers, upd, if_pos ht]
            rw [ht]
          · simp only [KState.ghost, bumpSharers, upd, if_pos ht]
            rw [ht]
            omega
        · left
          simp only [KState.ghost, bumpSharers, upd, if_neg ht]
      · intro _ _
        rw [hsum]
        refine ⟨hunt, fun hh => absurd hh hncs, fun _ => ⟨hown.1, hown.2, ?_, ?_⟩⟩
        · intro vb b1 b2 b3
          rw [ghost_ent] at b1 b3
          rcases fi.child_frame hK hal hva vb b1 b2 with hf | hs
          · rw [b3] at hf
            exact absurd hf hnfs
          · rw [b3] at hs
            exact (shared_once hK h hcur va _ hal hva hs hu hnc rfl).elim
        · have h1 := fi.mid.inv.count (s.ent K s.current va / K.PAGESIZE)
          have h2 := he.pages_old _ hnfk
          simp only [KState.ghost, bumpSharers, upd, if_true]
          rw [h2]
          exact Int.add_le_add_right h1 1
    have hmid := fi.mid.step hinv he.ptable_eq he.current_eq
      (fun a q π hr hq => fi.mid.mem_ext he a q π hr hq)
    apply fi.advance hK h hcur hc hal hva hmid
    · intro t ht
      constructor
      · intro hh
        simp only [bumpSharers, upd, if_pos hh.2]
        rw [hh.2, he.pages_old _ hnfk]
      · intro hh
        have : t ≠ s.ent K s.current va / K.PAGESIZE := fun h1 => hh ⟨⟨hu, hw, hnc⟩, h1⟩
        simp only [bumpSharers, upd, if_neg this]
        exact he.pages_old t ht
    · exact he.role_old
    · exact he.role_new
    · exact he.mem_old
    · exact fun vb hvb => hw2 vb (fun hh => hvb hh.2)
    · exact
        { copied := fun _ b2 _ => by rw [hw] at b2; exact absurd b2 (by simp)
          shared := fun _ _ _ => (hw1 va hrc (samePage_refl _)).trans hsum
          other := fun b1 => absurd ⟨hu, hnc⟩ b1 }

theorem ent_eq (s : KState) (c cpt : Nat) (h : (s.ptable c).pagetable = cpt) (vb : Nat) :
    s.ent K c vb = vm_walk K s.mem 3 cpt vb := by
  unfold KState.ent
  rw [h]

theorem memcpy_frame (hP : 0 < K.PAGESIZE) (m : Nat → Nat) (f src a : Nat) :
    memcpy m (f * K.PAGESIZE) src K.PAGESIZE a =
      if a / K.PAGESIZE = f then m (src + (a - f * K.PAGESIZE)) else m a := by
  unfold memcpy
  by_cases h : a / K.PAGESIZE = f
  · rw [if_pos ((in_frame_iff hP f a).2 h), if_pos h]
  · rw [if_neg (fun hh => h ((in_frame_iff hP f a).1 hh)), if_neg h]

/-- The branch of the walk of `fork` that copies a writable page. -/
theorem fork_step_copy (hK : K.Geom) {s : KState} {role : Roles} (h : Inv K s role)
    (hcur : s.live s.current) {c cpt va : Nat} (hc : ¬ s.live c) {sk : KState} {rolek : Roles}
    (fi : ForkInv K s role c cpt va sk rolek) (hal : va % K.PAGESIZE = 0)
    (hva : va < K.MEMSIZE_VIRTUAL) (hu : userPresent (s.ent K s.current va))
    (hw : hasflag (s.ent K s.current va) PTE_W = true) (hnc : va ≠ K.console)
    (r : Nat × KState) (hr : r = kalloc K K.PAGESIZE sk) :
    (∀ a, ¬ isFreeFrame K s (a / K.PAGESIZE) → r.2.mem a = s.mem a) ∧
    (r.1 = 0 → ForkMid K s c cpt r.2 rolek) ∧
    (r.1 ≠ 0 → ∀ r2, r2 = vm_map K 3 cpt va r.1 (pte_flags K (s.ent K s.current va)) r.2 →
      (∀ a, ¬ isFreeFrame K s (a / K.PAGESIZE) → r2.2.mem a = s.mem a) ∧
      ∃ role1, ForkMid K s c cpt r2.2 role1 ∧
        (r2.1 = 0 → ForkInv K s role c cpt (va + K.PAGESIZE)
          { r2.2 with mem := memcpy r2.2.mem r.1 (pte_pa K (s.ent K s.current va)) K.PAGESIZE }
          role1)) := by
  have hP := hK.page_pos
  subst hr
  have hia := fi.mid.inv.alloc hK
  rw [kalloc_ghost] at hia
  simp only at hia
  obtain ⟨hinv1, _, _, hres⟩ := hia
  have he1 := Ext.of_kalloc hK c sk rolek fi.mid.inv.cursor fi.mid.inv.rolesOwned
  have hmid1 := fi.mid.step hinv1 he1.ptable_eq he1.current_eq (fi.mid.mem_ext he1)
  refine ⟨fun a ha => fi.mem_step h hc he1 a ha, fun _ => hmid1, fun hr1 r2 hr2 => ?_⟩
  subst hr2
  rcases hres with h0 | ⟨f, hf1, _, hfree, hka⟩
  · exact absurd h0 hr1
  rw [hf1]
  have hsp := lt_span_of_lt_virt hK va hva
  have hncs : ¬ samePage K va K.console := fun hh =>
    hnc ((samePage_aligned hK va K.console hsp (console_lt_span hK) hal hK.console_al).1 hh)
  have hfl := pte_flags_lt (K := K) hP (s.ent K s.current va)
  have hfreek : isFreeFrame K sk f := hfree
  have hpgf : (kalloc K K.PAGESIZE sk).2.pages f = { owner := -1, sharers := 0 } := by
    have : ((kalloc K K.PAGESIZE sk).2.ghost c).pages f = { owner := -1, sharers := 0 } := by
      rw [hka]; exact kalloc_at_pages hP _ f
    exact this
  have hnf1 : ¬ isFreeFrame K (kalloc K K.PAGESIZE sk).2 f := fun hh => by
    have := hh.2
    rw [hpgf] at this
    exact absurd this (by decide)
  have hrolef : rolek f = none := fi.mid.inv.free_untyped f hfree
  obtain ⟨role1, hm, he2, hw1, hw2⟩ := fork_map hK hmid1 va (f * K.PAGESIZE)
    (pte_flags K (s.ent K s.current va)) (alloc_lt_64 hK f _ hfree.1 hfl)
    (fun h0 => absurd h0 (pte_flags_ne_zero hK _ hu.1))
  have hinv2 : Inv K ((vm_map K 3 cpt va (f * K.PAGESIZE) (pte_flags K (s.ent K s.current va))
      (kalloc K K.PAGESIZE sk).2).2.ghost c) role1 := by
    apply hinv1.install_fresh hK c (ghost_live _ c) f va _ hfree.1 _ hrolef _ hfl hncs hm
    · show ((kalloc K K.PAGESIZE sk).2.pages f).owner ≠ 0
      rw [hpgf]; decide
    · rw [hka]
      exact fun q hq vb hu => kalloc_at_unmapped hK fi.mid.inv f hfree q hq vb hu
  have he := he1.andThen he2
  have hmid2 := hmid1.step hinv2 he2.ptable_eq he2.current_eq (hmid1.mem_ext he2)
  have hmem2 := fun a ha => fi.mem_step h hc he a ha
  refine ⟨hmem2, role1, hmid2, fun hrc => ?_⟩
  have hrole1f : role1 f = none := by rw [he2.role_old f hnf1]; exact hrolef
  have hfs : isFreeFrame K s f := by
    by_contra hh
    exact fi.nonfree f hh hfreek
  -- walks of the child's tree do not read frame `f`
  have hroot1 := hmid1.root_role
  have hroot2 := hmid2.root_role
  have hwalkA : ∀ vb, (kalloc K K.PAGESIZE sk).2.ent K c vb = sk.ent K c vb := by
    intro vb
    rw [ent_eq _ c cpt hmid1.croot, ent_eq _ c cpt fi.mid.croot]
    apply vm_walk_root_congr hK fi.mid.inv.tables c cpt fi.mid.root_role.1 fi.mid.root_role.2.1
    intro a ha
    have hmemk : ((kalloc K K.PAGESIZE sk).2.ghost c).mem a = (sk.ghost c).mem a := by
      rw [hka]
      simp only [kalloc_at]
      rw [memset_frame hP, if_neg]
      intro hh
      rw [hh] at ha
      exact ha hrolef
    exact hmemk
  have hinv3 : Inv K (KState.ghost
      { (vm_map K 3 cpt va (f * K.PAGESIZE) (pte_flags K (s.ent K s.current va))
          (kalloc K K.PAGESIZE sk).2).2 with
        mem := memcpy (vm_map K 3 cpt va (f * K.PAGESIZE) (pte_flags K (s.ent K s.current va))
          (kalloc K K.PAGESIZE sk).2).2.mem (f * K.PAGESIZE)
          (pte_pa K (s.ent K s.current va)) K.PAGESIZE } c) role1 := by
    have := hinv2.mem_congr hK (memcpy (vm_map K 3 cpt va (f * K.PAGESIZE)
      (pte_flags K (s.ent K s.current va)) (kalloc K K.PAGESIZE sk).2).2.mem (f * K.PAGESIZE)
      (pte_pa K (s.ent K s.current va)) K.PAGESIZE) (by
        intro a ha
        rw [memcpy_frame hP, if_neg]
        · rfl
        · intro hh
          rw [hh] at ha
          exact ha hrole1f)
    exact this
  have hmid3 := hmid2.step hinv3 rfl rfl (hmid2.mem_same (by
    intro a ha
    show memcpy _ _ _ _ a = _
    rw [memcpy_frame hP, if_neg]
    intro hh
    rw [hh] at ha
    exact ha hrole1f))
  have hwalkB : ∀ vb, vm_walk K (memcpy (vm_map K 3 cpt va (f * K.PAGESIZE)
        (pte_flags K (s.ent K s.current va)) (kalloc K K.PAGESIZE sk).2).2.mem (f * K.PAGESIZE)
        (pte_pa K (s.ent K s.current va)) K.PAGESIZE) 3 cpt vb =
      (vm_map K 3 cpt va (f * K.PAGESIZE) (pte_flags K (s.ent K s.current va))
        (kalloc K K.PAGESIZE sk).2).2.ent K c vb := by
    intro vb
    rw [ent_eq _ c cpt hmid2.croot]
    apply vm_walk_root_congr hK hinv2.tables c cpt hroot2.1 hroot2.2.1
    intro a ha
    rw [memcpy_frame hP, if_neg]
    · rfl
    · intro hh
      rw [hh] at ha
      exact ha hrole1f
  have hent3 : ∀ vb, KState.ent K
      { (vm_map K 3 cpt va (f * K.PAGESIZE) (pte_flags K (s.ent K s.current va))
          (kalloc K K.PAGESIZE sk).2).2 with
        mem := memcpy (vm_map K 3 cpt va (f * K.PAGESIZE) (pte_flags K (s.ent K s.current va))
          (kalloc K K.PAGESIZE sk).2).2.mem (f * K.PAGESIZE)
          (pte_pa K (s.ent K s.current va)) K.PAGESIZE } c vb =
      (vm_map K 3 cpt va (f * K.PAGESIZE) (pte_flags K (s.ent K s.current va))
        (kalloc K K.PAGESIZE sk).2).2.ent K c vb := by
    intro vb
    rw [← hwalkB vb]
    exact ent_eq _ c cpt hmid3.croot vb
  apply fi.advance hK h hcur hc hal hva hmid3
  · intro t ht
    exact ⟨fun hh => by rw [hw] at hh; exact absurd hh.1.2.1 (by simp),
      fun _ => he.pages_old t ht⟩
  · exact he.role_old
  · exact he.role_new
  · intro a ha hra
    show memcpy _ _ _ _ a = _
    rw [memcpy_frame hP, if_neg]
    · exact he.mem_old a ha hra
    · intro hh
      rw [hh] at ha
      exact ha hfreek
  · intro vb hvb
    rw [hent3, hw2 vb (fun hh => hvb hh.2), hwalkA]
  · exact
      { copied := fun _ _ _ => by
          refine ⟨f, hfs, ?_, ?_, ?_, ?_⟩
          · rw [hent3]
            exact hw1 va hrc (samePage_refl _)
          · show ((vm_map K 3 cpt va (f * K.PAGESIZE) _ (kalloc K K.PAGESIZE sk).2).2.pages f).sharers = 0
            rw [he2.pages_old f hnf1, hpgf]
          · show ((vm_map K 3 cpt va (f * K.PAGESIZE) _ (kalloc K K.PAGESIZE sk).2).2.pages f).owner ≠ 0
            rw [he2.pages_old f hnf1, hpgf]
            decide
          · intro i hi
            show memcpy _ _ _ _ _ = _
            rw [memcpy_frame hP, if_pos (frame_add hP f i hi), Nat.add_sub_cancel_left]
            apply hmem2
            have hfr : (pte_pa K (s.ent K s.current va) + i) / K.PAGESIZE =
                s.ent K s.current va / K.PAGESIZE := by
              unfold pte_pa
              exact frame_add hP _ i hi
            rw [hfr]
            exact fun hh => ((h.spaces _ hcur).2.user_owned va hu hncs).2 hh.2
        shared := fun _ b2 _ => by rw [hw] at b2; exact absurd b2 (by simp)
        other := fun b1 => absurd ⟨hu, hnc⟩ b1 }

/-- The page-table pages that `ptiter` visits in the tree of a process depend only
on the memory of the typed pages of this process. -/
theorem pt_pages_congr_proc (hK : K.Geom) {m m1 : Nat → Nat} {role : Roles}
    (hT : TablesOK K m role) (X : Nat) :
    ∀ (l tbl : Nat) (path : List Nat), role (tbl / K.PAGESIZE) = some (X, path) →
    tbl % K.PAGESIZE = 0 → path.length + l = 3 →
    (∀ a q, role (a / K.PAGESIZE) = some (X, path ++ q) → m1 a = m a) → ∀ x,
    x ∈ pt_pages K m1 l tbl ↔ x ∈ pt_pages K m l tbl := by
  intro l
  induction l with
  | zero => intro tbl path _ _ _ _ x; simp [pt_pages]
  | succ l ih =>
    intro tbl path hr hal hlen hm x
    have hread : ∀ i, i < K.NENT →
        readQ m1 (tbl + 8 * i) = readQ m (tbl + 8 * i) := by
      intro i hi
      apply readQ_congr
      intro j hj
      apply hm _ []
      rw [List.append_nil, entry_range_frame hK tbl i _ hal hi (by omega) (by omega), hr]
    have hsub : ∀ i, i < K.NENT → hasflag (readQ m (tbl + 8 * i)) PTE_P = true →
        ∀ y, y ∈ pt_pages K m1 l (pte_pa K (readQ m (tbl + 8 * i))) ↔
          y ∈ pt_pages K m l (pte_pa K (readQ m (tbl + 8 * i))) := by
      intro i hi hp y
      have hlink := (hT _ X path hr).2 i hi (by omega)
      rw [aligned_eq tbl hal] at hlink
      have hlink2 := hlink hp
      rw [← pte_pa_frame hK.page_pos] at hlink2
      apply ih _ (path ++ [i]) hlink2 (pte_pa_aligned _) (by simp; omega)
      intro a q hq
      apply hm a ([i] ++ q)
      rw [← List.append_assoc]
      exact hq
    simp only [pt_pages, List.mem_flatMap, List.mem_range]
    constructor
    · rintro ⟨i, hi, hx⟩
      refine ⟨i, hi, ?_⟩
      rw [hread i hi] at hx
      split at hx
      · rename_i hp
        rw [if_pos hp]
        simp only [List.mem_append, List.mem_singleton] at hx ⊢
        rcases hx with hx | hx
        · exact Or.inl ((hsub i hi hp x).1 hx)
        · exact Or.inr hx
      · simp at hx
    · rintro ⟨i, hi, hx⟩
      refine ⟨i, hi, ?_⟩
      rw [hread i hi]
      split at hx
      · rename_i hp
        rw [if_pos hp]
        simp only [List.mem_append, List.mem_singleton] at hx ⊢
        rcases hx with hx | hx
        · exact Or.inl ((hsub i hi hp x).2 hx)
        · exact Or.inr hx
      · simp at hx

/-- A process whose typed pages have the same contents in `t` as in `s`, and whose
root is the same, has the same address space in `t` as in `s`. -/
theorem Inv.still (hK : K.Geom) {s : KState} {role : Roles} (h : Inv K s role) {q : Nat}
    (hl : s.live q) {t : KState} (hpt : (t.ptable q).pagetable = (s.ptable q).pagetable)
    (hm : ∀ a π, role (a / K.PAGESIZE) = some (q, π) → t.mem a = s.mem a) : Still K s t q := by
  have hs := (h.spaces q hl).2
  refine ⟨hpt, fun va => ?_, fun x => ?_⟩
  · unfold KState.ent
    rw [hpt]
    exact vm_walk_congr hK role s.mem t.mem q h.tables 3 _ [] hs.root_role hs.root_al rfl
      (fun a π hr => hm a π hr) va
  · rw [hpt]
    exact pt_pages_congr_proc hK h.tables q 3 _ [] hs.root_role hs.root_al rfl
      (fun a π hr => hm a π hr) x

/-- The same, read from the later state: the typing is that of `t`. -/
theorem Inv.still_back (hK : K.Geom) {t : KState} {role : Roles} (h : Inv K t role) {q : Nat}
    (hl : t.live q) {s : KState} (hpt : (t.ptable q).pagetable = (s.ptable q).pagetable)
    (hm : ∀ a π, role (a / K.PAGESIZE) = some (q, π) → s.mem a = t.mem a) : Still K s t q := by
  have hs := (h.spaces q hl).2
  refine ⟨hpt, fun va => ?_, fun x => ?_⟩
  · unfold KState.ent
    rw [← hpt]
    exact (vm_walk_congr hK role t.mem s.mem q h.tables 3 _ [] hs.root_role hs.root_al rfl
      (fun a π hr => hm a π hr) va).symm
  · rw [← hpt]
    exact (pt_pages_congr_proc hK h.tables q 3 _ [] hs.root_role hs.root_al rfl
      (fun a π hr => hm a π hr) x).symm

theorem Still.unchanged (s : KState) (q : Nat) : Still K s s q :=
  ⟨rfl, fun _ => rfl, fun _ => Iff.rfl⟩

theorem Still.follow {s t u : KState} {q : Nat} (h1 : Still K s t q) (h2 : Still K t u q) :
    Still K s u q :=
  ⟨h2.root.trans h1.root, fun va => (h2.ent va).trans (h1.ent va),
    fun x => (h2.tables x).trans (h1.tables x)⟩

/-- A change of the state outside memory and the root of `q` keeps the address
space of `q`. -/
theorem Still.of_eq {s t : KState} {q : Nat} (hm : t.mem = s.mem)
    (hp : (t.ptable q).pagetable = (s.ptable q).pagetable) : Still K s t q :=
  ⟨hp, fun va => ent_congr s t q hm hp va, fun x => by rw [hm, hp]⟩

end ForkSteps

section ForkWalk

variable {K : Config}

theorem vmiter_at (m : Nat → Nat) (pt va e : Nat) (he : vm_walk K m 3 pt va = e)
    (hal : va % K.PAGESIZE = 0) :
    ({ pt := pt, va := va } : vmiter).writable K m = (hasflag e PTE_P && hasflag e PTE_W) ∧
    ({ pt := pt, va := va } : vmiter).user K m = (hasflag e PTE_P && hasflag e PTE_U) ∧
    ({ pt := pt, va := va } : vmiter).pa K m =
      (if hasflag e PTE_P = true then pte_pa K e else UINTPTR_MAX) ∧
    ({ pt := pt, va := va } : vmiter).perm K m =
      (if hasflag e PTE_P = true then pte_flags K e else 0) := by
  unfold vmiter.writable vmiter.user vmiter.pa vmiter.perm vmiter.present vmiter.entry
  simp only [he, hal, Nat.add_zero, and_self]

theorem vmiter_map_eq (pt va pa perm : Nat) (s : KState) (hal : va % K.PAGESIZE = 0)
    (hcan : va_is_canonical K va = true) :
    ({ pt := pt, va := va } : vmiter).map K pa perm s =
      some (vm_map K 3 pt va (if pa = UINTPTR_MAX ∧ perm = 0 then 0 else pa) perm s) := by
  unfold vmiter.map
  rw [if_pos ⟨hal, hcan⟩]

/-- `proc_free` of the child after a failed allocation in `fork` re-establishes the
invariant; the processes that were not Free before `fork` are as they were. -/
theorem fork_fail (hK : K.Geom) {s : KState} {c cpt : Nat} {sk : KState} {rolek : Roles}
    (hmid : ForkMid K s c cpt sk rolek) (hc : ¬ s.live c) (t : KState)
    (ht : proc_free K c sk = some t) :
    ∃ role1, Inv K t role1 ∧ t.current = s.current ∧
      (∀ q, (t.ptable q).state = (s.ptable q).state) ∧ Calm K s t := by
  rw [← proc_free_ghost] at ht
  obtain ⟨t1, e, hf⟩ := proc_free_result hK hmid.inv c (ghost_live sk c)
  rw [e] at ht
  have := Option.some.inj ht
  subst this
  have hpq : ∀ q, q ≠ c → t1.ptable q = s.ptable q := by
    intro q hq
    rw [hf.ptable_eq]
    simp only [upd, if_neg hq, KState.ghost]
    exact hmid.ptable_old q hq
  refine ⟨_, hmid.inv.of_freed hK c (ghost_live sk c) hf, hf.current_eq.trans hmid.current_eq,
    ?_, ?_⟩
  · intro q
    rw [hf.ptable_eq]
    by_cases hq : q = c
    · subst hq
      simp only [upd, if_true]
      unfold KState.live at hc
      simp only [ne_eq, not_not] at hc
      exact hc.symm
    · simp only [upd, if_neg hq, KState.ghost]
      rw [hmid.ptable_old q hq]
  · intro q hl
    have hq : q ≠ c := fun hh => hc (hh ▸ hl)
    have hgq : (sk.ghost c).ptable q = s.ptable q := by
      simp only [KState.ghost, upd, if_neg hq]
      exact hmid.ptable_old q hq
    have hlg : (sk.ghost c).live q := by
      unfold KState.live
      rw [hgq]
      exact hl
    have hsC := (hmid.inv.spaces c (ghost_live sk c)).2
    have hB : Still K s (sk.ghost c) q :=
      hmid.inv.still_back hK hlg (by rw [hgq])
        (fun a π hr => (hmid.others_mem a q π hr hq).symm)
    have hA : Still K (sk.ghost c) t1 q := by
      apply hmid.inv.still hK hlg (by rw [hpq q hq, hgq])
      intro a π hr
      rcases hf.mem a with h1 | ⟨va, h1, _, h3⟩ | ⟨π1, h1⟩
      · exact h1
      · have := hsC.user_untyped va h1
        rw [h3, hr] at this
        exact absurd this (by simp)
      · rw [hr] at h1
        simp only [Option.some.injEq, Prod.mk.injEq] at h1
        exact absurd h1.1 hq
    exact ⟨hpq q hq, hB.follow hA⟩

theorem fork_find_spec (s : KState) : ∀ (n i : Nat), 0 < i →
    fork_find K s n i = 0 ∨
    (0 < fork_find K s n i ∧ fork_find K s n i < i + n ∧
      (s.ptable (fork_find K s n i)).state = procstate.P_FREE) := by
  intro n
  induction n with
  | zero => intro i _; left; rfl
  | succ n ih =>
    intro i hi
    simp only [fork_find]
    split
    · right
      rename_i hf
      exact ⟨hi, by omega, hf⟩
    · rcases ih (i + 1) (by omega) with h0 | ⟨h1, h2, h3⟩
      · exact Or.inl h0
      · exact Or.inr ⟨h1, by omega, h3⟩

/-- The walk of `fork`: when it completes, the loop invariant holds at its end; when
an allocation fails, the invariant of the kernel holds after `proc_free`. -/
theorem fork_walk_spec (hK : K.Geom) {s : KState} {role : Roles} (h : Inv K s role)
    (hcur : s.live s.current) {c cpt : Nat} (hc : ¬ s.live c) :
    ∀ (n va : Nat) (sk : KState) (rolek : Roles), va % K.PAGESIZE = 0 →
    va < K.MEMSIZE_VIRTUAL + K.PAGESIZE →
    ForkInv K s role c cpt va sk rolek → ∀ (b : Bool) (t : KState),
    fork_walk K (s.ptable s.current).pagetable cpt c n va sk = some (b, t) →
    (b = true → ∃ vb rolef, K.MEMSIZE_VIRTUAL ≤ vb ∧ vb < K.MEMSIZE_VIRTUAL + K.PAGESIZE ∧
      vb % K.PAGESIZE = 0 ∧ ForkInv K s role c cpt vb t rolef) ∧
    (b = false → ∃ role1, Inv K t role1 ∧ t.current = s.current ∧
      (∀ q, (t.ptable q).state = (s.ptable q).state) ∧ Calm K s t) := by
  have hP := hK.page_pos
  intro n
  induction n with
  | zero => intro va sk rolek _ _ _ b t hres; simp [fork_walk] at hres
  | succ n ih =>
    intro va sk rolek hal hbd fi b t hres
    rw [fork_walk] at hres
    by_cases hlt : va < K.MEMSIZE_VIRTUAL
    · rw [if_pos hlt] at hres
      have hcan := canonical_of_lt_virt hK va hlt
      have hal2 : (va + K.PAGESIZE) % K.PAGESIZE = 0 := by rw [Nat.add_mod_right]; exact hal
      have hbd2 : va + K.PAGESIZE < K.MEMSIZE_VIRTUAL + K.PAGESIZE := by omega
      have hfail : ∀ (sk1 : KState) (role1 : Roles), ForkMid K s c cpt sk1 role1 →
          (proc_free K c sk1).map (fun t => (false, t)) = some (b, t) →
          (b = true → ∃ vb rolef, K.MEMSIZE_VIRTUAL ≤ vb ∧ vb < K.MEMSIZE_VIRTUAL + K.PAGESIZE ∧
      vb % K.PAGESIZE = 0 ∧ ForkInv K s role c cpt vb t rolef) ∧
          (b = false → ∃ role1, Inv K t role1 ∧ t.current = s.current ∧
            (∀ q, (t.ptable q).state = (s.ptable q).state) ∧ Calm K s t) := by
        intro sk1 role1 hmid hr
        obtain ⟨t1, e1, e2⟩ := Option.map_eq_some'.1 hr
        simp only [Prod.mk.injEq] at e2
        rw [← e2.2, ← e2.1]
        exact ⟨fun hh => absurd hh (by simp), fun _ => fork_fail hK hmid hc t1 e1⟩
      have hwalk : ∀ m, (∀ a, ¬ isFreeFrame K s (a / K.PAGESIZE) → m a = s.mem a) →
          vm_walk K m 3 (s.ptable s.current).pagetable va = s.ent K s.current va :=
        fun m hm => walk_old hK h m hm _ hcur va
      obtain ⟨w1, w2, w3, w4⟩ := vmiter_at sk.mem _ va _ (hwalk sk.mem fi.mem_old) hal
      simp only at hres
      rw [w1, w2] at hres
      by_cases hu : userPresent (s.ent K s.current va) ∧ va ≠ K.console
      · obtain ⟨hu1, hu2⟩ := hu
        have hpres := hu1.1
        have huser := hu1.2
        by_cases hw : hasflag (s.ent K s.current va) PTE_W = true
        · rw [if_pos ⟨by rw [hpres, hw]; rfl, by rw [hpres, huser]; rfl, hu2⟩] at hres
          obtain ⟨m1, f1, f2⟩ := fork_step_copy hK h hcur hc fi hal hlt hu1 hw hu2 _ rfl
          by_cases hr0 : (kalloc K K.PAGESIZE sk).1 = 0
          · rw [if_pos hr0] at hres
            exact hfail _ _ (f1 hr0) hres
          · rw [if_neg hr0] at hres
            obtain ⟨_, _, _, p4⟩ := vmiter_at (kalloc K K.PAGESIZE sk).2.mem _ va _ (hwalk _ m1) hal
            rw [p4, if_pos hpres, vmiter_map_eq _ _ _ _ _ hal hcan,
              if_neg (fun hh => pte_flags_ne_zero hK _ hpres hh.2)] at hres
            simp only at hres
            obtain ⟨m2, role1, hmid2, hfi⟩ := f2 hr0 _ rfl
            by_cases hrc : (vm_map K 3 cpt va (kalloc K K.PAGESIZE sk).1
                (pte_flags K (s.ent K s.current va)) (kalloc K K.PAGESIZE sk).2).1 = 0
            · rw [if_neg (not_not.2 hrc)] at hres
              obtain ⟨_, _, p3, _⟩ := vmiter_at (vm_map K 3 cpt va (kalloc K K.PAGESIZE sk).1
                (pte_flags K (s.ent K s.current va)) (kalloc K K.PAGESIZE sk).2).2.mem _ va _
                (hwalk _ m2) hal
              rw [p3, if_pos hpres] at hres
              exact ih _ _ _ hal2 hbd2 (hfi hrc) b t hres
            · rw [if_pos hrc] at hres
              exact hfail _ _ hmid2 hres
        · have hw2 : hasflag (s.ent K s.current va) PTE_W = false := by
            cases hh : hasflag (s.ent K s.current va) PTE_W
            · rfl
            · exact absurd hh hw
          rw [if_neg (fun hh => by rw [hpres, hw2] at hh; exact absurd hh.1 (by simp)),
            if_pos ⟨by rw [hpres, hw2]; rfl, by rw [hpres, huser]; rfl, hu2⟩,
            w3, w4, if_pos hpres, if_pos hpres, vmiter_map_eq _ _ _ _ _ hal hcan,
            if_neg (fun hh => pte_flags_ne_zero hK _ hpres hh.2)] at hres
          simp only at hres
          obtain ⟨m2, f1, f2⟩ := fork_step_share hK h hcur hc fi hal hlt hu1 hw2 hu2
          by_cases hrc : (vm_map K 3 cpt va (pte_pa K (s.ent K s.current va))
              (pte_flags K (s.ent K s.current va)) sk).1 = 0
          · rw [if_neg (not_not.2 hrc)] at hres
            obtain ⟨_, _, p3, _⟩ := vmiter_at (vm_map K 3 cpt va (pte_pa K (s.ent K s.current va))
              (pte_flags K (s.ent K s.current va)) sk).2.mem _ va _ (hwalk _ m2) hal
            rw [p3, if_pos hpres, pte_pa_frame hP] at hres
            obtain ⟨role1, hfi⟩ := f2 hrc
            exact ih _ _ _ hal2 hbd2 hfi b t hres
          · rw [if_pos hrc] at hres
            obtain ⟨role1, hmid2⟩ := f1 hrc
            exact hfail _ _ hmid2 hres
      · have hnA : ¬ ((hasflag (s.ent K s.current va) PTE_P && hasflag (s.ent K s.current va) PTE_W)
            = true ∧ (hasflag (s.ent K s.current va) PTE_P && hasflag (s.ent K s.current va) PTE_U)
            = true ∧ va ≠ K.console) := by
          intro hh
          simp only [Bool.and_eq_true] at hh
          exact hu ⟨hh.2.1, hh.2.2⟩
        have hnB : ¬ ((hasflag (s.ent K s.current va) PTE_P && hasflag (s.ent K s.current va) PTE_W)
            = false ∧ (hasflag (s.ent K s.current va) PTE_P && hasflag (s.ent K s.current va) PTE_U)
            = true ∧ va ≠ K.console) := by
          intro hh
          simp only [Bool.and_eq_true] at hh
          exact hu ⟨hh.2.1, hh.2.2⟩
        rw [if_neg hnA, if_neg hnB, w3, w4, vmiter_map_eq _ _ _ _ _ hal hcan] at hres
        simp only at hres
        have hsum : (if (if hasflag (s.ent K s.current va) PTE_P = true
              then pte_pa K (s.ent K s.current va) else UINTPTR_MAX) = UINTPTR_MAX ∧
              (if hasflag (s.ent K s.current va) PTE_P = true
                then pte_flags K (s.ent K s.current va) else 0) = 0 then 0
            else (if hasflag (s.ent K s.current va) PTE_P = true
              then pte_pa K (s.ent K s.current va) else UINTPTR_MAX)) +
            (if hasflag (s.ent K s.current va) PTE_P = true
              then pte_flags K (s.ent K s.current va) else 0) =
            if hasflag (s.ent K s.current va) PTE_P = true then s.ent K s.current va else 0 := by
          by_cases hp : hasflag (s.ent K s.current va) PTE_P = true
          · simp only [hp, if_true]
            rw [if_neg (fun hh => pte_flags_ne_zero hK _ hp hh.2)]
            exact pte_split _
          · simp [hp]
        have h0 : (if hasflag (s.ent K s.current va) PTE_P = true
              then pte_flags K (s.ent K s.current va) else 0) = 0 →
            (if (if hasflag (s.ent K s.current va) PTE_P = true
              then pte_pa K (s.ent K s.current va) else UINTPTR_MAX) = UINTPTR_MAX ∧
              (if hasflag (s.ent K s.current va) PTE_P = true
                then pte_flags K (s.ent K s.current va) else 0) = 0 then 0
            else (if hasflag (s.ent K s.current va) PTE_P = true
              then pte_pa K (s.ent K s.current va) else UINTPTR_MAX)) = 0 := by
          by_cases hp : hasflag (s.ent K s.current va) PTE_P = true
          · simp only [hp, if_true]
            intro hh
            exact absurd hh (pte_flags_ne_zero hK _ hp)
          · simp [hp]
        obtain ⟨role1, hmid2, hfi⟩ := fork_step_other hK h hcur hc fi hal hlt hu _ _ hsum h0
        generalize vm_map K 3 cpt va _ _ sk = X at hres hmid2 hfi
        by_cases hrc : X.1 = 0
        · rw [if_neg (not_not.2 hrc)] at hres
          exact ih _ _ _ hal2 hbd2 (hfi hrc) b t hres
        · rw [if_pos hrc] at hres
          exact hfail _ _ hmid2 hres
    · rw [if_neg hlt] at hres
      simp only [Option.some.injEq, Prod.mk.injEq] at hres
      rw [← hres.1, ← hres.2]
      exact ⟨fun _ => ⟨va, rolek, Nat.le_of_not_lt hlt, hbd, hal, fi⟩, fun hh => absurd hh (by simp)⟩

end ForkWalk

section ForkDone

variable {K : Config}

theorem vmiter_present_at (m : Nat → Nat) (pt va e : Nat) (he : vm_walk K m 3 pt va = e) :
    ({ pt := pt, va := va } : vmiter).present K m = hasflag e PTE_P := by
  unfold vmiter.present vmiter.entry
  rw [he]

/-- At the end of the walk of `fork` the child is a copy of the parent. -/
theorem fork_done (hK : K.Geom) {s : KState} {role : Roles} (h : Inv K s role)
    (hcur : s.live s.current) {c cpt : Nat} (hc : ¬ s.live c) (hcn : c < K.NPROC)
    {vb : Nat} {t1 : KState} {rolef : Roles} (hvb : K.MEMSIZE_VIRTUAL ≤ vb)
    (fi : ForkInv K s role c cpt vb t1 rolef) (t : KState) (hm : t.mem = t1.mem)
    (hpg : t.pages = t1.pages) (hcu : t.next_alloc_pa = t1.next_alloc_pa)
    (hpt : ∀ q, q ≠ c → t.ptable q = t1.ptable q) (hroot : (t.ptable c).pagetable = cpt)
    (hpid : (t.ptable c).pid = c) (hlive : t.live c) :
    Inv K t rolef ∧ forkShares K s t c ∧ forkCopies K K.MEMSIZE_VIRTUAL s t c := by
  have hP := hK.page_pos
  have hsC := (h.spaces _ hcur).2
  have hent : ∀ va, vm_walk K t.mem 3 (t.ptable c).pagetable va = t1.ent K c va := by
    intro va
    rw [hm, hroot, ent_eq _ c cpt fi.mid.croot]
  have hpar : ∀ va, vm_walk K s.mem 3 (s.ptable s.current).pagetable va = s.ent K s.current va :=
    fun va => rfl
  refine ⟨?_, ?_, ?_⟩
  · apply fi.mid.inv.sameSpaces hK ⟨hm, hpg, fun p => ?_⟩
    · unfold cursorOK; rw [hcu]; exact fi.mid.inv.cursor
    · by_cases hp : p = c
      · subst hp
        refine ⟨fun _ => ?_, ⟨fun _ => ghost_live t1 p, fun _ => hlive⟩, ?_⟩
        · rw [hroot, ghost_pagetable, fi.mid.croot]
        · rw [hpid]
          have : ((t1.ghost p).ptable p).pid = (t1.ptable p).pid := by
            simp [KState.ghost, upd]
          rw [this, fi.mid.cpid]
          exact (h.pids p hcn).symm
      · have e1 : (t1.ghost c).ptable p = t1.ptable p := by simp [KState.ghost, upd, hp]
        refine ⟨fun _ => ?_, ?_, ?_⟩
        · rw [hpt p hp, e1]
        · unfold KState.live; rw [hpt p hp, e1]
        · rw [hpt p hp, e1]
  · intro va hal hva hnc huser hwr
    obtain ⟨w1, w2, w3, w4⟩ := vmiter_at s.mem _ va _ (hpar va) hal
    rw [w2] at huser
    rw [w1] at hwr
    simp only [Bool.and_eq_true] at huser
    have hw : hasflag (s.ent K s.current va) PTE_W = false := by
      rw [huser.1] at hwr
      simpa using hwr
    have hu : userPresent (s.ent K s.current va) := huser
    have cp := fi.child_done va (by omega) hal
    have hce := cp.shared hu hw hnc
    have hwalk := (hent va).trans hce
    obtain ⟨c1, c2, c3, c4⟩ := vmiter_at t.mem _ va _ hwalk hal
    rw [vmiter_present_at _ _ _ _ hwalk, c3, c4, w3, w4]
    simp only [if_pos huser.1]
    rw [pte_pa_frame hP, hpg]
    refine ⟨huser.1, trivial, trivial, ?_⟩
    have hncs : ¬ samePage K va K.console := fun hh =>
      hnc ((samePage_aligned hK va K.console (lt_span_of_lt_virt hK va hva)
        (console_lt_span hK) hal hK.console_al).1 hh)
    have hnf : ¬ isFreeFrame K s (s.ent K s.current va / K.PAGESIZE) :=
      fun hh => (hsC.user_owned va hu hncs).2 hh.2
    exact fi.sharers_hit _ hnf ⟨va, by omega, hal, hnc, hu, hw, rfl⟩
  · intro va hal hva hnc huser hwr
    obtain ⟨w1, w2, w3, w4⟩ := vmiter_at s.mem _ va _ (hpar va) hal
    rw [w2] at huser
    rw [w1] at hwr
    simp only [Bool.and_eq_true] at huser hwr
    have hu : userPresent (s.ent K s.current va) := huser
    have cp := fi.child_done va (by omega) hal
    obtain ⟨F, f1, f2, f3, f4, f5⟩ := cp.copied hu hwr.2 hnc
    have hwalk := (hent va).trans f2
    have hfl := pte_flags_lt (K := K) hP (s.ent K s.current va)
    have hpF : hasflag (F * K.PAGESIZE + pte_flags K (s.ent K s.current va)) PTE_P = true := by
      rw [hasflag_mk hK F _ PTE_P hfl (Or.inl rfl), hasflag_flags hK _ PTE_P (Or.inl rfl)]
      exact huser.1
    obtain ⟨c1, c2, c3, c4⟩ := vmiter_at t.mem _ va _ hwalk hal
    rw [vmiter_present_at _ _ _ _ hwalk, c3, c4, w3, w4]
    simp only [if_pos huser.1, if_pos hpF]
    rw [pte_pa_mk hP F _ hfl, pte_flags_mk F _ hfl, frame_mul hP, hpg, hm]
    have hncs : ¬ samePage K va K.console := fun hh =>
      hnc ((samePage_aligned hK va K.console (lt_span_of_lt_virt hK va hva)
        (console_lt_span hK) hal hK.console_al).1 hh)
    have hnf : ¬ isFreeFrame K s (s.ent K s.current va / K.PAGESIZE) :=
      fun hh => (hsC.user_owned va hu hncs).2 hh.2
    refine ⟨hpF, rfl, f1, ?_, f5, f3⟩
    intro hh
    apply hnf
    have : F = s.ent K s.current va / K.PAGESIZE := by
      unfold pte_pa at hh
      exact Nat.eq_of_mul_eq_mul_right hP hh
    rw [← this]
    exact f1

theorem kfree_null (s : KState) :
    kfree K 0 s = some { s with
      mem := memset s.mem 0 0 K.PAGESIZE
      pages := upd s.pages (0 / K.PAGESIZE) { (s.pages (0 / K.PAGESIZE)) with owner := 0 } } := by
  unfold kfree
  simp

/-- Frame 0 is not allocatable. -/
theorem frame_zero_na (hK : K.Geom) : K.allocatable_physical_address (0 * K.PAGESIZE) = false := by
  cases hh : K.allocatable_physical_address (0 * K.PAGESIZE)
  · rfl
  · have := hK.wf.alloc_pos _ hh
    have := hK.page_pos
    omega

/-- `kfree(nullptr)` keeps the invariant. -/
theorem Inv.kfree_zero (hK : K.Geom) {s : KState} {role : Roles} (h : Inv K s role) (t : KState)
    (hm : t.mem = memset s.mem 0 0 K.PAGESIZE)
    (hpg : t.pages = upd s.pages (0 / K.PAGESIZE) { (s.pages (0 / K.PAGESIZE)) with owner := 0 })
    (hcu : t.next_alloc_pa = s.next_alloc_pa)
    (hpt : ∀ p, (s.live p → (t.ptable p).pagetable = (s.ptable p).pagetable) ∧
      (t.live p ↔ s.live p) ∧ (t.ptable p).pid = (s.ptable p).pid) : Inv K t role := by
  have hP := hK.page_pos
  have hna := frame_zero_na hK
  have hr0 : role 0 = none := by
    cases hh : role 0 with
    | none => rfl
    | some v =>
      obtain ⟨p, π⟩ := v
      have := (h.typed 0 p π hh).2.1
      rw [hna] at this
      exact absurd this (by simp)
  have h1 : Inv K { s with mem := memset s.mem 0 0 K.PAGESIZE } role := by
    apply h.mem_congr hK
    intro a ha
    have := memset_frame (K := K) hP s.mem 0 a 0
    rw [Nat.zero_mul] at this
    rw [this, if_neg]
    intro hh
    rw [hh] at ha
    exact ha hr0
  apply h1.sameSpaces hK ⟨hm, ?_, hpt⟩
  · unfold cursorOK; rw [hcu]; exact h.cursor
  · rw [hpg]
    funext j
    simp only [upd]
    split
    · rename_i hj
      rw [hj, Nat.zero_div]
      have := h.na_clear 0 hna
      show _ = s.pages 0
      rw [this]
    · rfl

/-- `SYSCALL_FORK` keeps the invariant; when it succeeds, the child shares the
parent's read-only pages and has copies of its writable pages below
`MEMSIZE_VIRTUAL`. -/
theorem sys_fork_spec (hK : K.Geom) {s : KState} {role : Roles} (h : Inv K s role)
    (hcur : s.live s.current) (v : Nat) (t : KState) (hres : sys_fork K s = some (v, t)) :
    (∃ role1, Inv K t role1) ∧ t.current = s.current ∧
    (t.ptable s.current).state = (s.ptable s.current).state ∧
    (v ≠ UINTPTR_MAX → forkShares K s t v ∧ forkCopies K K.MEMSIZE_VIRTUAL s t v ∧
      ForkEnd K s role t v) ∧
    (ForkEnd K s role t v ∨ (Calm K s t ∧ ∀ q, t.live q → s.live q)) := by
  have hP := hK.page_pos
  unfold sys_fork at hres
  simp only at hres
  rcases fork_find_spec (K := K) s (K.NPROC - 1) 1 (by decide) with h0 | ⟨hc0, hclt, hfree⟩
  · rw [if_pos h0] at hres
    simp only [Option.some.injEq, Prod.mk.injEq] at hres
    rw [← hres.1, ← hres.2]
    exact ⟨⟨role, h⟩, rfl, rfl, fun hh => absurd rfl hh,
      Or.inr ⟨fun q _ => ⟨rfl, Still.unchanged s q⟩, fun q hq => hq⟩⟩
  rw [if_neg (by omega)] at hres
  generalize fork_find K s (K.NPROC - 1) 1 = c at hres hc0 hclt hfree
  have hc : ¬ s.live c := by
    unfold KState.live
    rw [hfree]
    simp
  have hcn : c < K.NPROC := by omega
  have hne : s.current ≠ c := fun hh => hc (hh ▸ hcur)
  obtain ⟨hi, hpt, hcu, hr⟩ := h.alloc hK
  rcases hr with h0 | ⟨f, hf1, hf0, hf2, hf3⟩
  · rw [if_pos h0, kfree_null] at hres
    simp only [Option.map_some', Option.some.injEq, Prod.mk.injEq] at hres
    rw [← hres.1, ← hres.2]
    refine ⟨⟨role, ?_⟩, ?_, ?_, fun hh => absurd rfl hh, Or.inr ⟨fun q hq => ?_, fun q hq => ?_⟩⟩
    rotate_left 3
    · have hqc : q ≠ c := fun hh => hc (hh ▸ hq)
      have hmem0 : (kalloc K K.PAGESIZE s).2.mem = s.mem := by
        rcases kalloc_spec hK.wf s h.cursor with ⟨_, _, c0, e0⟩ | ⟨f, e1, e2, _⟩
        · rw [e0]
        · exfalso
          have := hK.wf.alloc_pos _ e2.1
          omega
      refine ⟨?_, h.still hK hq ?_ fun a π hr => ?_⟩
      · simp only [KState.setProc, upd, if_neg hqc]
        rw [hpt]
      · simp only [KState.setProc, upd, if_neg hqc]
        rw [hpt]
      show memset (kalloc K K.PAGESIZE s).2.mem 0 0 K.PAGESIZE a = s.mem a
      have := memset_frame (K := K) hP (kalloc K K.PAGESIZE s).2.mem 0 a 0
      rw [Nat.zero_mul] at this
      rw [this, if_neg, hmem0]
      intro hh
      rw [hh] at hr
      have := (h.typed 0 q π hr).2.1
      rw [frame_zero_na hK] at this
      exact absurd this (by simp)
    · by_cases hqc : q = c
      · exfalso
        apply hq
        subst hqc
        simp only [KState.setProc, upd, if_true]
        rw [hpt]
        exact hfree
      · unfold KState.live at hq ⊢
        simp only [KState.setProc, upd, if_neg hqc] at hq
        rw [hpt] at hq
        exact hq
    · refine hi.kfree_zero hK _ ?_ ?_ ?_ ?_
      · rfl
      · rfl
      · rfl
      intro p
      by_cases hp : p = c
      · subst hp
        refine ⟨fun hl => ?_, ?_, ?_⟩
        · exfalso
          apply hc
          unfold KState.live at hl ⊢
          rw [← hpt]
          exact hl
        · simp [KState.live, KState.setProc, upd]
        · simp [KState.setProc, upd]
      · refine ⟨fun _ => ?_, ?_, ?_⟩ <;> simp [KState.live, KState.setProc, upd, hp]
    · exact hcu
    · simp only [KState.setProc, upd, if_neg hne]
      rw [hpt]
  · have hr1 : (kalloc K K.PAGESIZE s).1 ≠ 0 := by
      rw [hf1]
      exact Nat.ne_of_gt (Nat.mul_pos hf0 hP)
    rw [if_neg hr1] at hres
    have hcurs : cursorOK K (kalloc_at K s (f * K.PAGESIZE)) := by rw [← hf3]; exact hi.cursor
    rw [hf1, hf3] at hres
    have hppt : (((kalloc_at K s (f * K.PAGESIZE)).setProc c fun p =>
          { p with pagetable := f * K.PAGESIZE }).ptable
        ((kalloc_at K s (f * K.PAGESIZE)).setProc c fun p =>
          { p with pagetable := f * K.PAGESIZE }).current).pagetable =
        (s.ptable s.current).pagetable := by
      simp [KState.setProc, upd, kalloc_at, hne]
    rw [hppt] at hres
    have hzero : ∀ a, a / K.PAGESIZE = f → (kalloc_at K s (f * K.PAGESIZE)).mem a = 0 := by
      intro a ha
      simp only [kalloc_at]
      rw [memset_frame hP, if_pos ha]
    have hpgs : ∀ x, x ≠ f → (kalloc_at K s (f * K.PAGESIZE)).pages x = s.pages x := by
      intro x hx
      simp only [kalloc_at, upd, frame_mul hP, if_neg hx]
    have hnef : ∀ x, ¬ isFreeFrame K s x → x ≠ f := fun x hx hh => hx (hh ▸ hf2)
    have fi0 : ForkInv K s role c (f * K.PAGESIZE) 0
        ((kalloc_at K s (f * K.PAGESIZE)).setProc c fun p =>
          { p with pagetable := f * K.PAGESIZE }) (addRoot role f c) :=
      { mid :=
          { inv := by
              refine h.new_root hK c hc hcn f hf2 hcurs _ ?_ ?_ ?_ ?_ ?_ ?_ ?_
              · rfl
              · rfl
              · rfl
              · intro q hq
                simp [KState.ghost, KState.setProc, upd, hq, kalloc_at]
              · simp [KState.ghost, KState.setProc, upd]
              · simp [KState.ghost, KState.setProc, upd, kalloc_at]
              · exact ghost_live _ c
            current_eq := rfl
            ptable_old := fun q hq => by simp [KState.setProc, upd, hq, kalloc_at]
            cstate := by
              simp only [KState.setProc, upd, if_true, kalloc_at]
              exact hfree
            cpid := by simp [KState.setProc, upd, kalloc_at]
            croot := by simp [KState.setProc, upd]
            others_mem := fun a q π hr hq => by
              show (kalloc_at K s (f * K.PAGESIZE)).mem a = _
              simp only [kalloc_at]
              rw [memset_frame hP, if_neg]
              intro hh
              rw [hh] at hr
              simp only [addRoot, if_true, Option.some.injEq, Prod.mk.injEq] at hr
              exact hq hr.1.symm }
        owner_old := fun x hx => by
          show ((kalloc_at K s (f * K.PAGESIZE)).pages x).owner = _
          rw [hpgs x (hnef x hx)]
        sharers_hit := fun x _ ⟨v, hv, _⟩ => absurd hv (Nat.not_lt_zero v)
        sharers_miss := fun x hx _ => by
          show ((kalloc_at K s (f * K.PAGESIZE)).pages x).sharers = _
          rw [hpgs x (hnef x hx)]
        role_old := fun x hx => by simp only [addRoot, if_neg (hnef x hx)]
        role_new := fun x hx => by
          by_cases hxf : x = f
          · right
            exact ⟨[], by simp only [addRoot, if_pos hxf]⟩
          · left
            simp only [addRoot, if_neg hxf]
            exact h.free_untyped x hx
        mem_old := fun a ha => by
          show (kalloc_at K s (f * K.PAGESIZE)).mem a = _
          simp only [kalloc_at]
          rw [memset_frame hP, if_neg (hnef _ ha)]
        child_rest := fun vb _ => by
          rw [ent_eq _ c (f * K.PAGESIZE) (by simp [KState.setProc, upd])]
          apply vm_walk_zero hK _ 3 _ (Nat.mul_mod_left _ _)
          intro a ha
          rw [frame_mul hP] at ha
          exact hzero a ha
        child_done := fun v hv _ => absurd hv (Nat.not_lt_zero v) }
    cases hfw : fork_walk K (s.ptable s.current).pagetable (f * K.PAGESIZE) c
        (K.MEMSIZE_VIRTUAL + 1) 0
        ((kalloc_at K s (f * K.PAGESIZE)).setProc c fun p =>
          { p with pagetable := f * K.PAGESIZE }) with
    | none =>
      rw [hfw] at hres
      exact absurd hres (by simp)
    | some bt =>
      obtain ⟨b, t1⟩ := bt
      rw [hfw] at hres
      obtain ⟨g1, g2⟩ := fork_walk_spec hK h hcur hc _ 0 _ _ (Nat.zero_mod _) (by omega) fi0 b t1 hfw
      cases b with
      | false =>
        simp only [Option.some.injEq, Prod.mk.injEq] at hres
        obtain ⟨role1, a1, a2, a3, a4⟩ := g2 rfl
        rw [← hres.1, ← hres.2]
        exact ⟨⟨role1, a1⟩, a2, a3 _, fun hh => absurd rfl hh,
          Or.inr ⟨a4, fun q hq => by unfold KState.live at hq ⊢; rw [← a3 q]; exact hq⟩⟩
      | true =>
        simp only [Option.some.injEq, Prod.mk.injEq] at hres
        obtain ⟨vb, rolef, hvb, hvb2, hvb3, fi⟩ := g1 rfl
        have hd := fork_done hK h hcur hc hcn hvb fi t (by rw [← hres.2]; rfl)
          (by rw [← hres.2]; rfl) (by rw [← hres.2]; rfl)
          (fun q hq => by rw [← hres.2]; simp [KState.setProc, upd, hq])
          (by rw [← hres.2]; simp only [KState.setProc, upd, if_true]; exact fi.mid.croot)
          (by rw [← hres.2]; simp [KState.setProc, upd])
          (by rw [← hres.2]; simp [KState.live, KState.setProc, upd])
        rw [← hres.1]
        have hend : ForkEnd K s role t c :=
          { child_free := hfree
            child_pos := hc0
            child_lt := hcn
            walked := ⟨vb, _, t1, rolef, hvb, hvb2, hvb3, fi, hres.2.symm⟩ }
        refine ⟨⟨rolef, hd.1⟩, ?_, ?_, fun _ => ⟨hd.2.1, hd.2.2, hend⟩, Or.inl hend⟩
        · rw [← hres.2]
          exact fi.mid.current_eq
        · rw [← hres.2]
          simp only [KState.setProc, upd, if_neg hne]
          rw [fi.mid.ptable_old _ hne]

end ForkDone

section Transitions

variable {K : Config}

/-- Changing a descriptor without changing its page table, its pid or whether it
is Free keeps the invariant. -/
theorem Inv.setProc (hK : K.Geom) {s : KState} {role : Roles} (h : Inv K s role) (p : Nat)
    (f : proc → proc) (h1 : (f (s.ptable p)).pagetable = (s.ptable p).pagetable)
    (h2 : (f (s.ptable p)).pid = (s.ptable p).pid)
    (h3 : (f (s.ptable p)).state = procstate.P_FREE ↔ (s.ptable p).state = procstate.P_FREE) :
    Inv K (s.setProc p f) role := by
  refine h.sameSpaces hK ⟨rfl, rfl, fun q => ?_⟩ ?_
  swap
  · exact h.cursor
  by_cases hq : q = p
  · subst hq
    simp only [KState.setProc, KState.live, upd, if_true]
    exact ⟨fun _ => h1, not_congr h3, h2⟩
  · simp [KState.setProc, KState.live, upd, hq]

theorem Inv.setRegs (hK : K.Geom) {s : KState} {role : Roles} (h : Inv K s role) (p : Nat)
    (g : proc → regstate) : Inv K (s.setProc p fun q => { q with regs := g q }) role :=
  h.setProc hK p _ rfl rfl Iff.rfl

theorem GInv.live {s : KState} (h : GInv K s) : s.live s.current := by
  unfold KState.live
  rw [h.2]
  decide

theorem GInv.saveRegs (hK : K.Geom) {s : KState} (h : GInv K s) (g : proc → regstate) :
    GInv K (s.setProc s.current fun q => { q with regs := g q }) := by
  obtain ⟨⟨role, hi⟩, hr⟩ := h
  refine ⟨⟨role, hi.setRegs hK _ g⟩, ?_⟩
  simp only [KState.setProc, upd, if_true]
  exact hr

theorem schedule_scan_spec (s : KState) : ∀ (n pid q : Nat),
    schedule_scan K s n pid = some q → (s.ptable q).state = procstate.P_RUNNABLE := by
  intro n
  induction n with
  | zero => intro pid q hq; simp [schedule_scan] at hq
  | succ n ih =>
    intro pid q hq
    simp only [schedule_scan] at hq
    split at hq
    · rename_i hr
      simp only [Option.some.injEq] at hq
      rw [← hq]
      exact hr
    · exact ih _ q hq

/-- `schedule` resumes a Runnable process in an unchanged kernel state. -/
theorem schedule_inv (hK : K.Geom) {s : KState} {role : Roles} (h : Inv K s role) (t : KState)
    (ht : schedule K s = Outcome.resumed t) : GInv K t := by
  unfold schedule at ht
  split at ht
  · rename_i pid hp
    simp only [Outcome.resumed.injEq] at ht
    rw [← ht]
    exact ⟨⟨role, h.sameSpaces hK ⟨rfl, rfl, fun q => ⟨fun _ => rfl, Iff.rfl, rfl⟩⟩ h.cursor⟩,
      schedule_scan_spec s _ _ _ hp⟩
  · exact absurd ht (by simp)

theorem exception_finish_inv (hK : K.Geom) {s : KState} {role : Roles} (h : Inv K s role)
    (t : KState) (ht : exception_finish K s = Outcome.resumed t) : GInv K t := by
  unfold exception_finish at ht
  split at ht
  · rename_i hr
    simp only [Outcome.resumed.injEq] at ht
    rw [← ht]
    exact ⟨⟨role, h⟩, hr⟩
  · exact schedule_inv hK h t ht

/-- A store of the running process keeps the invariant. -/
theorem user_store_inv (hK : K.Geom) {s : KState} (h : GInv K s) (va b : Nat) (t : KState)
    (ht : user_store K va b s = some t) : GInv K t := by
  have hP := hK.page_pos
  obtain ⟨⟨role, hi⟩, hr⟩ := h
  have hl : s.live s.current := GInv.live ⟨⟨role, hi⟩, hr⟩
  unfold user_store at ht
  simp only at ht
  split at ht
  · rename_i hc
    simp only [Option.some.injEq] at ht
    rw [← ht]
    refine ⟨⟨role, ?_⟩, hr⟩
    apply hi.mem_congr hK
    intro a ha
    obtain ⟨_, _, hu, _⟩ := hc
    rw [vmiter_user_iff] at hu
    have hpa := vmiter_pa_of_present (K := K) s.mem (s.ptable s.current).pagetable va hu.1
    simp only [upd]
    rw [if_neg]
    intro hh
    apply ha
    rw [hh, hpa]
    unfold pte_pa
    rw [frame_add hP _ _ (Nat.mod_lt _ hP)]
    exact (hi.spaces _ hl).2.user_untyped va hu
  · exact absurd ht (by simp)

theorem ofOption_ret {o : Option (Nat × KState)} {v : Nat} {t : KState}
    (h : SysResult.ofOption o = SysResult.ret v t) : o = some (v, t) := by
  cases o with
  | none => simp [SysResult.ofOption] at h
  | some x =>
    obtain ⟨a, b⟩ := x
    simp only [SysResult.ofOption, SysResult.ret.injEq] at h
    rw [h.1, h.2]

theorem ofOption_noreturn {o : Option (Nat × KState)} {t : KState}
    (h : SysResult.ofOption o = SysResult.noreturn (Outcome.resumed t)) : False := by
  cases o with
  | none => simp [SysResult.ofOption] at h
  | some x =>
    obtain ⟨a, b⟩ := x
    simp [SysResult.ofOption] at h

/-- `proc_free` of the running process, as `SYSCALL_EXIT` calls it. -/
theorem exit_inv (hK : K.Geom) {s : KState} {role : Roles} (h : Inv K s role)
    (hl : s.live s.current) (t : KState)
    (ht : proc_free K (s.ptable s.current).pid s = some t) :
    Inv K t (dropRoles role s.current) ∧ Freed K s role s.current t := by
  have hn := (h.spaces _ hl).1
  rw [h.pids _ hn] at ht
  obtain ⟨t1, e, hf⟩ := proc_free_result hK h s.current hl
  rw [e] at ht
  have := Option.some.inj ht
  subst this
  exact ⟨h.of_freed hK _ hl hf, hf⟩

/-- Every way in which `syscall` lets a process run keeps the invariant. -/
theorem syscall_inv (hK : K.Geom) {s : KState} (h : GInv K s) (regs : regstate) :
    (∀ v t, syscall K regs s = SysResult.ret v t → GInv K t) ∧
    (∀ t, syscall K regs s = SysResult.noreturn (Outcome.resumed t) → GInv K t) := by
  have h0 := h.saveRegs hK (fun _ => regs)
  obtain ⟨⟨role, hi⟩, hr⟩ := h0
  have hl : (s.setProc s.current fun p => { p with regs := regs }).live
      (s.setProc s.current fun p => { p with regs := regs }).current := GInv.live ⟨⟨role, hi⟩, hr⟩
  constructor
  · intro v t ht
    unfold syscall at ht
    simp only at ht
    split at ht
    · exact absurd ht (by simp)
    split at ht
    · simp only [SysResult.ret.injEq] at ht
      rw [← ht.2]
      exact ⟨⟨role, hi⟩, hr⟩
    split at ht
    · exact absurd ht (by simp)
    split at ht
    · have := ofOption_ret ht
      obtain ⟨⟨role1, a1⟩, a2, a3⟩ := hi.page_alloc hK hl v t this
      refine ⟨⟨role1, a1⟩, ?_⟩
      rw [a2, a3]
      exact hr
    split at ht
    · have := ofOption_ret ht
      obtain ⟨⟨role1, a1⟩, a2, a3, _⟩ := sys_fork_spec hK hi hl v t this
      refine ⟨⟨role1, a1⟩, ?_⟩
      rw [a2, a3]
      exact hr
    split at ht
    · split at ht <;> exact absurd ht (by simp)
    · exact absurd ht (by simp)
  · intro t ht
    unfold syscall at ht
    simp only at ht
    split at ht
    · exact absurd ht (by simp)
    split at ht
    · exact absurd ht (by simp)
    split at ht
    · simp only [SysResult.noreturn.injEq] at ht
      exact schedule_inv hK (hi.setRegs hK _ _) t ht
    split at ht
    · exact (ofOption_noreturn ht).elim
    split at ht
    · exact (ofOption_noreturn ht).elim
    split at ht
    · split at ht
      · exact absurd ht (by simp)
      · rename_i s1 hs1
        simp only [SysResult.noreturn.injEq] at ht
        obtain ⟨a1, _⟩ := exit_inv hK hi hl s1 hs1
        exact schedule_inv hK (a1.setRegs hK _ _) t ht
    · exact absurd ht (by simp)

/-- Every way in which `exception` lets a process run keeps the invariant. -/
theorem exception_inv (hK : K.Geom) {s : KState} (h : GInv K s) (regs : regstate) (t : KState)
    (ht : exception K regs s = Outcome.resumed t) : GInv K t := by
  have h0 := h.saveRegs hK (fun _ => regs)
  unfold exception at ht
  simp only at ht
  split at ht
  · split at ht
    · rename_i v s1 hs1
      obtain ⟨⟨role1, a1⟩, _⟩ := (syscall_inv hK h0 regs).1 v s1 hs1
      exact exception_finish_inv hK (a1.setRegs hK _ _) t ht
    · rename_i o ho
      rw [ht] at ho
      exact (syscall_inv hK h0 regs).2 t ho
  split at ht
  · obtain ⟨⟨role, hi⟩, _⟩ := h0
    refine @schedule_inv K hK _ role ?_ t ht
    refine hi.sameSpaces hK ⟨rfl, rfl, fun q => ⟨fun _ => rfl, Iff.rfl, rfl⟩⟩ ?_
    exact hi.cursor
  split at ht
  · split at ht
    · exact absurd ht (by simp)
    · obtain ⟨⟨role, hi⟩, hr⟩ := h0
      refine exception_finish_inv hK (hi.setProc hK _ _ rfl rfl ?_) t ht
      constructor
      · intro hh
        exact absurd hh (by simp)
      · intro hh
        rw [hr] at hh
        exact absurd hh (by simp)
  · exact absurd ht (by simp)

end Transitions

section BootLoops

variable {K : Config}

/-- When the leaf entry for `va` is present, `vm_map` allocates nothing. -/
theorem vm_map_present : ∀ (l tbl va pa perm : Nat) (s : KState),
    hasflag (vm_walk K s.mem l tbl va) PTE_P = true →
    (vm_map K l tbl va pa perm s).1 = 0 ∧ (vm_map K l tbl va pa perm s).2.pages = s.pages ∧
    (vm_map K l tbl va pa perm s).2.next_alloc_pa = s.next_alloc_pa ∧
    (vm_map K l tbl va pa perm s).2.ticks = s.ticks := by
  intro l
  induction l with
  | zero => intro tbl va pa perm s _; exact ⟨rfl, rfl, rfl, rfl⟩
  | succ l ih =>
    intro tbl va pa perm s hp
    simp only [vm_walk] at hp
    simp only [vm_map]
    split at hp
    · rename_i he
      rw [if_pos he]
      exact ih _ va pa perm s hp
    · rw [hasflag_zero] at hp
      exact absurd hp (by simp)

theorem KView.congr_view (hK : K.Geom) {m m1 : Nat → Nat} {rolek : Roles} (h : KView K m rolek)
    (hm : ∀ a, rolek (a / K.PAGESIZE) ≠ none → m1 a = m a) : KView K m1 rolek :=
  { tables := h.tables.congr_mem hK hm
    root := h.root
    root_al := h.root_al
    na := h.na
    entries := fun va hal hva => by
      rw [vm_walk_root_congr hK h.tables K.NPROC _ h.root h.root_al hm va]
      exact h.entries va hal hva }

theorem init_ptable_spec : ∀ (n i : Nat) (s : KState),
    (init_ptable n i s).pages = s.pages ∧ (init_ptable n i s).mem = s.mem ∧
    (init_ptable n i s).next_alloc_pa = s.next_alloc_pa ∧
    (∀ p, i ≤ p → p < i + n →
      ((init_ptable n i s).ptable p).pid = p ∧
      ((init_ptable n i s).ptable p).state = procstate.P_FREE) ∧
    (∀ p, p < i ∨ i + n ≤ p → (init_ptable n i s).ptable p = s.ptable p) := by
  intro n
  induction n with
  | zero =>
    intro i s
    exact ⟨rfl, rfl, rfl, fun p h1 h2 => absurd h2 (by omega), fun _ _ => rfl⟩
  | succ n ih =>
    intro i s
    simp only [init_ptable]
    obtain ⟨a1, a2, a3, a4, a5⟩ := ih (i + 1)
      (s.setProc i fun p => { p with pid := i, state := procstate.P_FREE })
    refine ⟨a1, a2, a3, ?_, ?_⟩
    · intro p h1 h2
      by_cases hp : p = i
      · subst hp
        rw [a5 p (Or.inl (by omega))]
        simp [KState.setProc, upd]
      · exact a4 p (by omega) (by omega)
    · intro p hp
      rw [a5 p (by omega)]
      have : p ≠ i := by omega
      simp [KState.setProc, upd, this]

/-- An entry made of a page-aligned address and the permissions present and
writable is not user-accessible. -/
theorem kernel_entry_not_user (hK : K.Geom) (va : Nat) (hal : va % K.PAGESIZE = 0) :
    ¬ userPresent (va + (PTE_P + PTE_W)) := by
  intro h
  have h2 := h.2
  rw [← aligned_eq va hal, hasflag_mk hK _ _ PTE_U (by
    have := hK.page_ge
    unfold PTE_P PTE_W
    omega) (Or.inr (Or.inr rfl))] at h2
  exact absurd h2 (by decide)

/-- The loop of `kernel` over `kernel_pagetable`: it changes only leaf entries of
the kernel page table. -/
theorem kernel_map_loop_spec (hK : K.Geom) (rolek : Roles)
    (hna : ∀ t, rolek t ≠ none → K.allocatable_physical_address (t * K.PAGESIZE) = false)
    (hroot : rolek (K.kernel_pagetable / K.PAGESIZE) = some (K.NPROC, []))
    (hral : K.kernel_pagetable % K.PAGESIZE = 0) (m0 : Nat → Nat)
    (hcon : userPresent (vm_walk K m0 3 K.kernel_pagetable K.console) →
      K.allocatable_physical_address (pte_pa K (vm_walk K m0 3 K.kernel_pagetable K.console))
        = false) :
    ∀ (n va : Nat) (s : KState), va % K.PAGESIZE = 0 → cursorOK K s →
    (∀ f, s.pages f = { owner := 0, sharers := 0 }) → TablesOK K s.mem rolek →
    (∀ vb, vb % K.PAGESIZE = 0 → vb < K.PROC_START_ADDR →
      hasflag (vm_walk K s.mem 3 K.kernel_pagetable vb) PTE_P = true) →
    (∀ vb, vb % K.PAGESIZE = 0 → vb < va → vb ≠ K.console →
      vm_walk K s.mem 3 K.kernel_pagetable vb = vb + (PTE_P + PTE_W)) →
    vm_walk K s.mem 3 K.kernel_pagetable K.console = vm_walk K m0 3 K.kernel_pagetable K.console →
    ∀ t, kernel_map_loop K n va s = some t →
      t.pages = s.pages ∧ t.next_alloc_pa = s.next_alloc_pa ∧ t.ptable = s.ptable ∧
      t.current = s.current ∧ KView K t.mem rolek := by
  have hP := hK.page_pos
  intro n
  induction n with
  | zero => intro va s _ _ _ _ _ _ _ t ht; simp [kernel_map_loop] at ht
  | succ n ih =>
    intro va s hal hc hpg hT hcomp hdone hcs t ht
    rw [kernel_map_loop] at ht
    have hal2 : (va + K.PAGESIZE) % K.PAGESIZE = 0 := by rw [Nat.add_mod_right]; exact hal
    by_cases hlt : va < K.PROC_START_ADDR
    · rw [if_pos hlt] at ht
      have hsp : va < K.VA_SPAN := by
        have := hK.start_half
        have := Nat.div_le_self K.VA_SPAN 2
        omega
      have hcan : va_is_canonical K va = true := by
        have := hK.start_half
        unfold va_is_canonical
        simp only [Bool.or_eq_true, decide_eq_true_eq]
        left; omega
      by_cases hvc : va = K.console
      · rw [if_neg (not_not.2 hvc)] at ht
        refine ih _ s hal2 hc hpg hT hcomp ?_ hcs t ht
        intro vb h1 h2 h3
        rcases aligned_lt_succ hP vb va h1 hal h2 with h4 | h4
        · exact hdone vb h1 h4 h3
        · exact absurd (h4.trans hvc) h3
      · rw [if_pos hvc, vmiter_map_eq _ _ _ _ _ hal hcan,
          if_neg (fun hh => absurd hh.2 (by decide))] at ht
        simp only at ht
        have hpres := vm_map_present (K := K) 3 K.kernel_pagetable va va (PTE_P + PTE_W) s
          (hcomp va hal hlt)
        rw [if_pos hpres.1] at ht
        have hown : RolesOwned K s rolek := by
          intro x hx hfree
          have := hfree.1
          rw [hna x hx] at this
          exact absurd this (by simp)
        have h64 : va + (PTE_P + PTE_W) < 2 ^ 64 := by
          have h1 := hK.span64
          have h2 : K.VA_SPAN ≤ 2 ^ 64 := Nat.le_of_dvd (by norm_num) h1
          have h3 := hK.page_ge
          have h4 : va + K.PAGESIZE ≤ K.VA_SPAN := by
            have a1 := aligned_eq (K := K) va hal
            have : va / K.PAGESIZE < K.NENT ^ 4 := by
              rw [Nat.div_lt_iff_lt_mul hP, Nat.mul_comm, ← span_eq]
              exact hsp
            have : (va / K.PAGESIZE + 1) * K.PAGESIZE ≤ K.NENT ^ 4 * K.PAGESIZE :=
              Nat.mul_le_mul_right _ this
            rw [Nat.add_mul, Nat.one_mul, a1, Nat.mul_comm (K.NENT ^ 4), ← span_eq] at this
            exact this
          unfold PTE_P PTE_W
          omega
        obtain ⟨role1, hm⟩ := vm_map_post hK K.NPROC 3 K.kernel_pagetable va va (PTE_P + PTE_W)
          [] s rolek hc hT hown hroot hral rfl h64 (fun hh => absurd hh (by decide))
        have hrole : role1 = rolek := by
          funext x
          rcases hm.role_ext x with e | ⟨_, _, e, _⟩
          · exact e
          · rw [hpres.2.1, hpg] at e
            exact absurd e (by simp)
        rw [hrole] at hm
        have hwalk : ∀ vb, vb % K.PAGESIZE = 0 → vb < K.PROC_START_ADDR →
            vm_walk K (vm_map K 3 K.kernel_pagetable va va (PTE_P + PTE_W) s).2.mem 3
              K.kernel_pagetable vb =
            if vb = va then va + (PTE_P + PTE_W) else vm_walk K s.mem 3 K.kernel_pagetable vb := by
          intro vb h1 h2
          have hspb : vb < K.VA_SPAN := by
            have := hK.start_half
            have := Nat.div_le_self K.VA_SPAN 2
            omega
          rw [hm.walk vb]
          by_cases hb : vb = va
          · rw [if_pos hb, if_pos ⟨hpres.1, hb ▸ samePage_refl vb⟩]
          · rw [if_neg hb, if_neg]
            intro hh
            exact hb ((samePage_aligned hK vb va hspb hsp h1 hal).1 hh.2)
        obtain ⟨b1, b2, b3, b4, b5⟩ := ih _ _ hal2 hm.cursor
          (by intro f; rw [hpres.2.1]; exact hpg f) hm.tables
          (by
            intro vb h1 h2
            rw [hwalk vb h1 h2]
            split
            · rw [← aligned_eq va hal, hasflag_mk hK _ _ PTE_P (by
                have := hK.page_ge
                unfold PTE_P PTE_W
                omega) (Or.inl rfl)]
              decide
            · exact hcomp vb h1 h2)
          (by
            intro vb h1 h2 h3
            rcases aligned_lt_succ hP vb va h1 hal h2 with h4 | h4
            · rw [hwalk vb h1 (by omega), if_neg (by omega)]
              exact hdone vb h1 h4 h3
            · rw [hwalk vb h1 (by omega), if_pos h4, h4])
          (by
            rw [hwalk K.console hK.console_al hK.console_low, if_neg (fun hh => hvc hh.symm)]
            exact hcs) t ht
        exact ⟨b1.trans hpres.2.1, b2.trans hpres.2.2.1, b3.trans hm.ptable_eq,
          b4.trans hm.current_eq, b5⟩
    · rw [if_neg hlt] at ht
      simp only [Option.some.injEq] at ht
      rw [← ht]
      refine ⟨rfl, rfl, rfl, rfl, ?_⟩
      exact
        { tables := hT
          root := hroot
          root_al := hral
          na := hna
          entries := fun vb h1 h2 hu => by
            by_cases hb : vb = K.console
            · refine ⟨hb, ?_⟩
              rw [hb, hcs] at hu ⊢
              exact hcon hu
            · exfalso
              rw [hdone vb h1 (by omega) hb] at hu
              exact kernel_entry_not_user hK vb h1 hu }

end BootLoops

section NoFreeSec

variable {K : Config}

theorem kalloc_nofree (hK : K.Geom) (s : KState) (h : NoFree K s) :
    (kalloc K K.PAGESIZE s).1 = 0 ∧ NoFree K (kalloc K K.PAGESIZE s).2 := by
  rcases kalloc_spec hK.wf s h.1 with ⟨h1, _, x, h3⟩ | ⟨f, _, h2, _⟩
  · refine ⟨h1, kalloc_cursorOK hK.wf s _ h.1, ?_⟩
    rw [h3]
    exact h.2
  · exact absurd h2 (h.2 f)

theorem vm_map_nofree (hK : K.Geom) : ∀ (l tbl va pa perm : Nat) (s : KState), NoFree K s →
    NoFree K (vm_map K l tbl va pa perm s).2 := by
  intro l
  induction l with
  | zero => intro tbl va pa perm s h; exact h
  | succ l ih =>
    intro tbl va pa perm s h
    simp only [vm_map]
    split
    · exact ih _ _ _ _ _ h
    · split
      · exact h
      · rw [if_pos (kalloc_nofree hK s h).1]
        exact (kalloc_nofree hK s h).2

theorem setup_kernel_loop_nofree (hK : K.Geom) (pt : Nat) : ∀ (n va : Nat) (s t : KState),
    NoFree K s → setup_kernel_loop K pt n va s = some t → NoFree K t := by
  intro n
  induction n with
  | zero => intro va s t _ ht; simp [setup_kernel_loop] at ht
  | succ n ih =>
    intro va s t h ht
    rw [setup_kernel_loop] at ht
    split at ht
    · simp only at ht
      generalize hmap : vmiter.map K _ _ _ _ = o at ht
      cases o with
      | none => exact absurd ht (by simp)
      | some r =>
        obtain ⟨_, hr⟩ := vmiter_map_some hmap
        simp only at ht
        split at ht
        · refine ih _ _ t ?_ ht
          rw [hr]
          exact vm_map_nofree hK _ _ _ _ _ _ h
        · exact absurd ht (by simp)
    · simp only [Option.some.injEq] at ht
      rw [← ht]
      exact h

theorem setup_segment_pages_nofree (hK : K.Geom) (pt : Nat) (w : Bool) (stop : Nat) :
    ∀ (n a : Nat) (s t : KState), NoFree K s →
    setup_segment_pages K pt w stop n a s = some t → NoFree K t := by
  intro n
  induction n with
  | zero => intro a s t _ ht; simp [setup_segment_pages] at ht
  | succ n ih =>
    intro a s t h ht
    rw [setup_segment_pages] at ht
    split at ht
    · simp only at ht
      rw [if_pos (kalloc_nofree hK s h).1] at ht
      exact absurd ht (by simp)
    · simp only [Option.some.injEq] at ht
      rw [← ht]
      exact h

theorem setup_alloc_nofree (hK : K.Geom) (pt : Nat) : ∀ (gs : List segment) (s t : KState),
    NoFree K s → setup_alloc K pt gs s = some t → NoFree K t := by
  intro gs
  induction gs with
  | nil =>
    intro s t h ht
    simp only [setup_alloc, Option.some.injEq] at ht
    rw [← ht]
    exact h
  | cons g gs ih =>
    intro s t h ht
    simp only [setup_alloc] at ht
    split at ht
    · exact absurd ht (by simp)
    · rename_i s1 hs1
      exact ih s1 t (setup_segment_pages_nofree hK pt _ _ _ _ s s1 h hs1) ht

theorem setup_copy_pages (pt : Nat) : ∀ (gs : List segment) (s : KState),
    (setup_copy K pt gs s).pages = s.pages ∧
    (setup_copy K pt gs s).next_alloc_pa = s.next_alloc_pa ∧
    (setup_copy K pt gs s).ptable = s.ptable ∧ (setup_copy K pt gs s).current = s.current := by
  intro gs
  induction gs with
  | nil => intro s; exact ⟨rfl, rfl, rfl, rfl⟩
  | cons g gs ih =>
    intro s
    simp only [setup_copy]
    exact ih _

theorem NoFree.congr_pages {s t : KState} (h : NoFree K s) (hp : t.pages = s.pages)
    (hc : t.next_alloc_pa = s.next_alloc_pa) : NoFree K t := by
  refine ⟨?_, fun g hg => h.2 g ?_⟩
  · unfold cursorOK; rw [hc]; exact h.1
  · unfold isFreeFrame at hg ⊢
    rw [← hp]
    exact hg

/-- `process_setup` does not return when its first allocation fails. -/
theorem process_setup_nofree (hK : K.Geom) (E : BootEnv) (pid n : Nat) (s : KState)
    (h : NoFree K s) : process_setup K E pid n s = none := by
  unfold process_setup
  simp only
  have h0 : NoFree K (s.setProc pid fun p => { p with regs := E.init_regs }) :=
    h.congr_pages rfl rfl
  have h1 := (kalloc_nofree hK _ h0).2
  have h2 : NoFree K ((kalloc K K.PAGESIZE
      (s.setProc pid fun p => { p with regs := E.init_regs })).2.setProc pid fun p =>
        { p with pagetable := (kalloc K K.PAGESIZE
          (s.setProc pid fun p => { p with regs := E.init_regs })).1 }) := h1.congr_pages rfl rfl
  split
  · rfl
  · rename_i s2 hs2
    have h3 := setup_kernel_loop_nofree hK _ _ _ _ s2 h2 hs2
    split
    · rfl
    · rename_i s3 hs3
      have h4 := setup_alloc_nofree hK _ _ _ s3 h3 hs3
      have hcp := setup_copy_pages (K := K)
        (kalloc K K.PAGESIZE (s.setProc pid fun p => { p with regs := E.init_regs })).1
        (E.programs n).segments s3
      have h5 : NoFree K ((setup_copy K
          (kalloc K K.PAGESIZE (s.setProc pid fun p => { p with regs := E.init_regs })).1
          (E.programs n).segments s3).setProc pid fun p =>
            { p with regs := { p.regs with reg_rip := (E.programs n).entry } }) :=
        h4.congr_pages hcp.1 hcp.2.1
      rw [if_pos (kalloc_nofree hK _ h5).1]

end NoFreeSec

section SetupSec

variable {K : Config}

/-- The arguments with which a leaf entry `e` is copied by `map(pa(), perm())`. -/
theorem copy_args (hK : K.Geom) (e : Nat) :
    (if (if hasflag e PTE_P = true then pte_pa K e else UINTPTR_MAX) = UINTPTR_MAX ∧
        (if hasflag e PTE_P = true then pte_flags K e else 0) = 0 then 0
      else (if hasflag e PTE_P = true then pte_pa K e else UINTPTR_MAX)) +
      (if hasflag e PTE_P = true then pte_flags K e else 0) =
      (if hasflag e PTE_P = true then e else 0) ∧
    ((if hasflag e PTE_P = true then pte_flags K e else 0) = 0 →
      (if (if hasflag e PTE_P = true then pte_pa K e else UINTPTR_MAX) = UINTPTR_MAX ∧
        (if hasflag e PTE_P = true then pte_flags K e else 0) = 0 then 0
      else (if hasflag e PTE_P = true then pte_pa K e else UINTPTR_MAX)) = 0) := by
  by_cases hp : hasflag e PTE_P = true
  · simp only [hp, if_true]
    rw [if_neg (fun hh => pte_flags_ne_zero hK _ hp hh.2)]
    exact ⟨pte_split _, fun hh => absurd hh (pte_flags_ne_zero hK _ hp)⟩
  · simp [hp]

/-- A step that extends the tree of `c` keeps the view of the kernel page table. -/
theorem SetupInv.of_ext (hK : K.Geom) {s : KState} {c cpt : Nat} {rolek : Roles} {sk : KState}
    {role1 : Roles} (si : SetupInv K s c cpt rolek sk role1) {sk2 : KState} {role2 : Roles}
    (he : Ext K c sk role1 sk2 role2) (hinv : Inv K (sk2.ghost c) role2) :
    SetupInv K s c cpt rolek sk2 role2 :=
  { mid := si.mid.step hinv he.ptable_eq he.current_eq (si.mid.mem_ext he)
    kview := si.kview.congr_view hK (fun a ha => by
      have hna := si.kview.na _ ha
      apply he.mem_old a
      · intro hh
        have := hh.1
        rw [hna] at this
        exact absurd this (by simp)
      · intro π hr
        have := (si.mid.inv.typed _ c π hr).2.1
        rw [hna] at this
        exact absurd this (by simp)) }

/-- Allocating a frame does not change the leaf entries of the tree of `c`. -/
theorem kalloc_child_ent (hK : K.Geom) {s : KState} {c cpt : Nat} {sk : KState} {role1 : Roles}
    (hmid : ForkMid K s c cpt sk role1) (vb : Nat) :
    (kalloc K K.PAGESIZE sk).2.ent K c vb = sk.ent K c vb := by
  have hpe := kalloc_ptable_eq (K := K) K.PAGESIZE sk
  rw [ent_eq _ c cpt (by rw [hpe.1]; exact hmid.croot), ent_eq _ c cpt hmid.croot]
  apply vm_walk_root_congr hK hmid.inv.tables c cpt hmid.root_role.1 hmid.root_role.2.1
  intro a ha
  rcases kalloc_spec hK.wf sk hmid.inv.cursor with ⟨_, _, x, h3⟩ | ⟨f, _, h2, h3⟩
  · rw [h3]; rfl
  · rw [h3]
    simp only [kalloc_at]
    rw [memset_frame hK.page_pos, if_neg]
    · rfl
    · intro hh
      rw [hh] at ha
      exact ha (hmid.inv.free_untyped f h2)

/-- The first loop of `process_setup`. -/
theorem setup_kernel_loop_spec (hK : K.Geom) {s : KState} {c cpt : Nat} {rolek : Roles} :
    ∀ (n va : Nat) (sk : KState) (role1 : Roles), va % K.PAGESIZE = 0 →
    SetupInv K s c cpt rolek sk role1 → ∀ t, setup_kernel_loop K cpt n va sk = some t →
    ∃ role2, SetupInv K s c cpt rolek t role2 := by
  have hP := hK.page_pos
  intro n
  induction n with
  | zero => intro va sk role1 _ _ t ht; simp [setup_kernel_loop] at ht
  | succ n ih =>
    intro va sk role1 hal si t ht
    rw [setup_kernel_loop] at ht
    by_cases hlt : va < K.PROC_START_ADDR
    · rw [if_pos hlt] at ht
      have hcan : va_is_canonical K va = true := by
        have := hK.start_half
        unfold va_is_canonical
        simp only [Bool.or_eq_true, decide_eq_true_eq]
        left; omega
      have hal2 : (va + K.PAGESIZE) % K.PAGESIZE = 0 := by rw [Nat.add_mod_right]; exact hal
      obtain ⟨_, _, w3, w4⟩ := vmiter_at (K := K) sk.mem K.kernel_pagetable va _ rfl hal
      simp only at ht
      rw [w3, w4, vmiter_map_eq _ _ _ _ _ hal hcan] at ht
      simp only at ht
      obtain ⟨hsum, h0⟩ := copy_args hK (vm_walk K sk.mem 3 K.kernel_pagetable va)
      have h64 : (if (if hasflag (vm_walk K sk.mem 3 K.kernel_pagetable va) PTE_P = true
            then pte_pa K (vm_walk K sk.mem 3 K.kernel_pagetable va) else UINTPTR_MAX)
            = UINTPTR_MAX ∧
          (if hasflag (vm_walk K sk.mem 3 K.kernel_pagetable va) PTE_P = true
            then pte_flags K (vm_walk K sk.mem 3 K.kernel_pagetable va) else 0) = 0 then 0
          else (if hasflag (vm_walk K sk.mem 3 K.kernel_pagetable va) PTE_P = true
            then pte_pa K (vm_walk K sk.mem 3 K.kernel_pagetable va) else UINTPTR_MAX)) +
          (if hasflag (vm_walk K sk.mem 3 K.kernel_pagetable va) PTE_P = true
            then pte_flags K (vm_walk K sk.mem 3 K.kernel_pagetable va) else 0) < 2 ^ 64 := by
        rw [hsum]
        split
        · exact vm_walk_lt _ _ _ _
        · norm_num
      obtain ⟨role2, hm, he, _, _⟩ := fork_map hK si.mid va _ _ h64 h0
      have hinv := si.mid.inv.install hK c (ghost_live sk c) hm _ rfl rfl rfl
        (fun t => Or.inl rfl) (by
          intro _ hu
          rw [hsum] at hu ⊢
          by_cases hp : hasflag (vm_walk K sk.mem 3 K.kernel_pagetable va) PTE_P = true
          · rw [if_pos hp] at hu ⊢
            obtain ⟨e1, e2⟩ := si.kview.entries va hal hlt hu
            have hsame : samePage K va K.console := by rw [e1]; exact samePage_refl _
            refine ⟨?_, fun _ => e2, fun hh => absurd hsame hh⟩
            cases hr : role1 (vm_walk K sk.mem 3 K.kernel_pagetable va / K.PAGESIZE) with
            | none => rfl
            | some x =>
              obtain ⟨p, π⟩ := x
              have := (si.mid.inv.typed _ p π hr).2.1
              unfold pte_pa at e2
              rw [e2] at this
              exact absurd this (by simp)
          · rw [if_neg hp] at hu
            exact absurd hu not_userPresent_zero)
      have si2 := si.of_ext hK he hinv
      generalize vm_map K 3 cpt va _ _ sk = X at ht si2
      split at ht
      · exact ih _ _ _ hal2 si2 t ht
      · exact absurd ht (by simp)
    · rw [if_neg hlt] at ht
      simp only [Option.some.injEq] at ht
      rw [← ht]
      exact ⟨role1, si⟩

/-- An address at or above `PROC_START_ADDR` is not on the console page. -/
theorem not_console_above (hK : K.Geom) (va : Nat) (hsp : va < K.VA_SPAN)
    (hva : K.PROC_START_ADDR ≤ va) : ¬ samePage K va K.console := by
  have hP := hK.page_pos
  rw [samePage_iff hK, vpn_of_lt hK va hsp, vpn_of_lt hK _ (console_lt_span hK)]
  intro hh
  have h1 := hK.console_low
  have h2 := aligned_eq (K := K) _ hK.start_al
  have h3 : K.PROC_START_ADDR / K.PAGESIZE ≤ va / K.PAGESIZE := Nat.div_le_div_right hva
  have h4 : K.console / K.PAGESIZE < K.PROC_START_ADDR / K.PAGESIZE := by
    rw [Nat.div_lt_iff_lt_mul hP, h2]
    exact h1
  omega

/-- One page of a segment: allocate a frame and map it user-accessibly. -/
theorem setup_step_fresh (hK : K.Geom) {s : KState} {c cpt : Nat} {rolek : Roles} {sk : KState}
    {role1 : Roles} (si : SetupInv K s c cpt rolek sk role1) (a perm : Nat)
    (hlt : a < K.MEMSIZE_VIRTUAL) (hge : K.PROC_START_ADDR ≤ a)
    (hperm : perm = PTE_P + PTE_W + PTE_U ∨ perm = PTE_P + PTE_U)
    (hr : (kalloc K K.PAGESIZE sk).1 ≠ 0) :
    ∃ role2, SetupInv K s c cpt rolek
        (vm_map K 3 cpt a (kalloc K K.PAGESIZE sk).1 perm (kalloc K K.PAGESIZE sk).2).2 role2 ∧
      (∀ vb, userPresent (sk.ent K c vb) →
        (vm_map K 3 cpt a (kalloc K K.PAGESIZE sk).1 perm (kalloc K K.PAGESIZE sk).2).1 = 0 →
        userPresent ((vm_map K 3 cpt a (kalloc K K.PAGESIZE sk).1 perm
          (kalloc K K.PAGESIZE sk).2).2.ent K c vb)) ∧
      ((vm_map K 3 cpt a (kalloc K K.PAGESIZE sk).1 perm (kalloc K K.PAGESIZE sk).2).1 = 0 →
        userPresent ((vm_map K 3 cpt a (kalloc K K.PAGESIZE sk).1 perm
          (kalloc K K.PAGESIZE sk).2).2.ent K c a)) := by
  have hP := hK.page_pos
  have hP8 := hK.page_ge
  have hpl : perm < K.PAGESIZE := by
    rcases hperm with e | e <;> rw [e] <;> simp only [PTE_P, PTE_W, PTE_U] <;> omega
  have hp0 : perm ≠ 0 := by
    rcases hperm with e | e <;> rw [e] <;> decide
  have hia := si.mid.inv.alloc hK
  rw [kalloc_ghost] at hia
  simp only at hia
  obtain ⟨hinv1, _, _, hres⟩ := hia
  have he1 := Ext.of_kalloc hK c sk role1 si.mid.inv.cursor si.mid.inv.rolesOwned
  have si1 := si.of_ext hK he1 hinv1
  rcases hres with h0 | ⟨f, hf1, _, hfree, hka⟩
  · exact absurd h0 hr
  rw [hf1]
  have hncs := not_console_above hK a (lt_span_of_lt_virt hK a hlt) hge
  have hpgf : (kalloc K K.PAGESIZE sk).2.pages f = { owner := -1, sharers := 0 } := by
    have : ((kalloc K K.PAGESIZE sk).2.ghost c).pages f = { owner := -1, sharers := 0 } := by
      rw [hka]; exact kalloc_at_pages hP _ f
    exact this
  have hrolef : role1 f = none := si.mid.inv.free_untyped f hfree
  obtain ⟨role2, hm, he2, hw1, hw2⟩ := fork_map hK si1.mid a (f * K.PAGESIZE) perm
    (alloc_lt_64 hK f _ hfree.1 hpl) (fun h0 => absurd h0 hp0)
  have hinv2 : Inv K ((vm_map K 3 cpt a (f * K.PAGESIZE) perm
      (kalloc K K.PAGESIZE sk).2).2.ghost c) role2 := by
    apply hinv1.install_fresh hK c (ghost_live _ c) f a _ hfree.1 _ hrolef _ hpl hncs hm
    · show ((kalloc K K.PAGESIZE sk).2.pages f).owner ≠ 0
      rw [hpgf]; decide
    · rw [hka]
      exact fun q hq vb hu => kalloc_at_unmapped hK si.mid.inv f hfree q hq vb hu
  have hup : userPresent (f * K.PAGESIZE + perm) := by
    unfold userPresent
    rw [hasflag_mk hK f perm PTE_P hpl (Or.inl rfl),
      hasflag_mk hK f perm PTE_U hpl (Or.inr (Or.inr rfl))]
    rcases hperm with e | e <;> rw [e] <;> decide
  refine ⟨role2, si1.of_ext hK he2 hinv2, ?_, ?_⟩
  · intro vb hu hrc
    by_cases hs : samePage K vb a
    · rw [hw1 vb hrc hs]
      exact hup
    · rw [hw2 vb (fun hh => hs hh.2), kalloc_child_ent hK si.mid vb]
      exact hu
  · intro hrc
    rw [hw1 a hrc (samePage_refl _)]
    exact hup

/-- The loop over the pages of one segment. -/
theorem setup_segment_pages_spec (hK : K.Geom) {s : KState} {c cpt : Nat} {rolek : Roles}
    (w : Bool) (stop : Nat) (hstop : stop ≤ K.MEMSIZE_VIRTUAL) :
    ∀ (n a : Nat) (sk : KState) (role1 : Roles), a % K.PAGESIZE = 0 →
    K.PROC_START_ADDR ≤ a → SetupInv K s c cpt rolek sk role1 →
    ∀ t, setup_segment_pages K cpt w stop n a sk = some t →
    ∃ role2, SetupInv K s c cpt rolek t role2 ∧
      (∀ vb, userPresent (sk.ent K c vb) → userPresent (t.ent K c vb)) ∧
      (∀ vb, a ≤ vb → vb < stop → userPresent (t.ent K c vb)) := by
  have hP := hK.page_pos
  intro n
  induction n with
  | zero => intro a sk role1 _ _ _ t ht; simp [setup_segment_pages] at ht
  | succ n ih =>
    intro a sk role1 hal hge si t ht
    rw [setup_segment_pages] at ht
    by_cases hlt : a < stop
    · rw [if_pos hlt] at ht
      simp only at ht
      by_cases hr : (kalloc K K.PAGESIZE sk).1 = 0
      · rw [if_pos hr] at ht
        exact absurd ht (by simp)
      · rw [if_neg hr] at ht
        have hcan := canonical_of_lt_virt hK a (by omega)
        have hperm : (if w = true then PTE_P + PTE_W + PTE_U else PTE_P + PTE_U) =
            PTE_P + PTE_W + PTE_U ∨
            (if w = true then PTE_P + PTE_W + PTE_U else PTE_P + PTE_U) = PTE_P + PTE_U := by
          cases w <;> simp
        rw [vmiter_map_eq _ _ _ _ _ hal hcan, if_neg (fun hh => by
          rcases hperm with e | e <;> rw [e] at hh <;> exact absurd hh.2 (by decide))] at ht
        simp only at ht
        obtain ⟨role2, si2, m1, m2⟩ := setup_step_fresh hK si a _ (by omega) hge hperm hr
        generalize vm_map K 3 cpt a _ _ _ = X at ht si2 m1 m2
        split at ht
        · rename_i hrc
          have hal2 : (a + K.PAGESIZE) % K.PAGESIZE = 0 := by
            rw [Nat.add_mod_right]; exact hal
          obtain ⟨role3, si3, m3, m4⟩ := ih _ _ _ hal2 (by omega) si2 t ht
          refine ⟨role3, si3, fun vb hu => m3 vb (m1 vb hu hrc), fun vb h1 h2 => ?_⟩
          by_cases hvb : vb < a + K.PAGESIZE
          · have hs : samePage K vb a := by
              rw [samePage_iff hK, vpn_of_lt hK vb (lt_span_of_lt_virt hK vb (by omega)),
                vpn_of_lt hK a (lt_span_of_lt_virt hK a (by omega))]
              have hq : vb / K.PAGESIZE = a / K.PAGESIZE := by
                have h3 := aligned_eq (K := K) a hal
                have h4 := Nat.div_add_mod vb K.PAGESIZE
                have h5 := Nat.mod_lt vb hP
                rw [Nat.mul_comm] at h4
                apply Nat.le_antisymm
                · apply Nat.le_of_lt_succ
                  rw [Nat.div_lt_iff_lt_mul hP, Nat.succ_mul, h3]
                  exact hvb
                · exact Nat.div_le_div_right h1
              exact hq
            have : t.ent K c vb = t.ent K c a := by
              unfold KState.ent
              exact vm_walk_samePage t.mem 3 _ _ _ hs.1 hs.2
            rw [this]
            exact m3 a (m2 hrc)
          · exact m4 vb (by omega) h2
        · exact absurd ht (by simp)
    · rw [if_neg hlt] at ht
      simp only [Option.some.injEq] at ht
      rw [← ht]
      exact ⟨role1, si, fun _ hu => hu, fun vb h1 h2 => absurd h2 (by omega)⟩

end SetupSec

section SetupProc

variable {K : Config}

theorem samePage_round (hK : K.Geom) (va : Nat) :
    samePage K (va / K.PAGESIZE * K.PAGESIZE) va := by
  rw [samePage_iff hK]
  unfold vpn
  rw [frame_mul hK.page_pos]

/-- Whether a segment lies in consecutive physical addresses depends only on the leaf
entries of the page table. -/
theorem copyFits_congr {m m1 : Nat → Nat} {pt : Nat}
    (h : ∀ vb, vm_walk K m1 3 pt vb = vm_walk K m 3 pt vb) (g : segment) :
    copyFits K m1 pt g ↔ copyFits K m pt g := by
  have hpa : ∀ vb, ({ pt := pt, va := vb } : vmiter).pa K m1 =
      ({ pt := pt, va := vb } : vmiter).pa K m := by
    intro vb
    simp only [vmiter.pa, vmiter.present, vmiter.entry, h]
  unfold copyFits
  simp only [hpa]

/-- A segment whose pages are present and lie in consecutive frames has its bytes at
consecutive physical addresses. -/
theorem copyFits.bytes (hK : K.Geom) {m : Nat → Nat} {pt : Nat} {g : segment}
    (h : copyFits K m pt g) (hlt : g.va + g.size ≤ K.MEMSIZE_VIRTUAL)
    (hp : ∀ i, i < g.size → hasflag (vm_walk K m 3 pt (g.va + i)) PTE_P = true) :
    ∀ i, i < g.size →
      ({ pt := pt, va := g.va + i } : vmiter).pa K m =
        ({ pt := pt, va := g.va } : vmiter).pa K m + i := by
  have hP := hK.page_pos
  have hdm := Nat.div_add_mod g.va K.PAGESIZE
  rw [Nat.mul_comm] at hdm
  have hr := Nat.mod_lt g.va hP
  -- the physical address of a byte, from that of the start of its page
  have hbyte : ∀ i, i < g.size →
      ({ pt := pt, va := g.va + i } : vmiter).pa K m =
        ({ pt := pt, va := g.va / K.PAGESIZE * K.PAGESIZE +
          (g.va % K.PAGESIZE + i) / K.PAGESIZE * K.PAGESIZE } : vmiter).pa K m +
          (g.va % K.PAGESIZE + i) % K.PAGESIZE := by
    intro i hi
    have hdi := Nat.div_add_mod (g.va % K.PAGESIZE + i) K.PAGESIZE
    rw [Nat.mul_comm] at hdi
    have hd := Nat.mod_lt (g.va % K.PAGESIZE + i) hP
    have hal : (g.va / K.PAGESIZE * K.PAGESIZE +
        (g.va % K.PAGESIZE + i) / K.PAGESIZE * K.PAGESIZE) % K.PAGESIZE = 0 := by
      rw [← Nat.add_mul]
      exact Nat.mul_mod_left _ _
    have heq : g.va + i = g.va / K.PAGESIZE * K.PAGESIZE +
        (g.va % K.PAGESIZE + i) / K.PAGESIZE * K.PAGESIZE +
        (g.va % K.PAGESIZE + i) % K.PAGESIZE := by omega
    have hs : samePage K (g.va + i) (g.va / K.PAGESIZE * K.PAGESIZE +
        (g.va % K.PAGESIZE + i) / K.PAGESIZE * K.PAGESIZE) := by
      rw [samePage_iff hK, vpn_of_lt hK _ (lt_span_of_lt_virt hK _ (by omega)),
        vpn_of_lt hK _ (lt_span_of_lt_virt hK _ (by omega))]
      rw [heq, ← Nat.add_mul, Nat.add_comm, Nat.add_mul_div_right _ _ hP,
        Nat.div_eq_of_lt hd, Nat.zero_add, Nat.mul_div_cancel _ hP]
    have hw := vm_walk_samePage m 3 pt _ _ hs.1 hs.2
    have h1 := hp i hi
    rw [vmiter_pa_of_present m pt (g.va + i) h1,
      vmiter_pa_of_present m pt _ (by rw [← hw]; exact h1), hw, hal, Nat.add_zero]
    congr 1
    rw [heq, Nat.add_mod, hal, Nat.zero_add, Nat.mod_mod, Nat.mod_mod]
  intro i hi
  have h0 := hbyte 0 (by omega)
  simp only [Nat.add_zero] at h0
  rw [Nat.div_eq_of_lt hr, Nat.zero_mul, Nat.add_zero, Nat.mod_eq_of_lt hr] at h0
  rw [hbyte i hi, h0]
  have hdi := Nat.div_add_mod (g.va % K.PAGESIZE + i) K.PAGESIZE
  rw [Nat.mul_comm] at hdi
  by_cases hk : (g.va % K.PAGESIZE + i) / K.PAGESIZE = 0
  · rw [hk] at hdi ⊢
    simp only [Nat.zero_mul, Nat.add_zero] at hdi ⊢
    omega
  · have hle : (g.va % K.PAGESIZE + i) / K.PAGESIZE * K.PAGESIZE ≤ g.va % K.PAGESIZE + i := by
      omega
    have hkl : (g.va % K.PAGESIZE + i) / K.PAGESIZE ≤ g.va % K.PAGESIZE + i :=
      Nat.div_le_self _ _
    rw [h _ (by omega) (Nat.pos_of_ne_zero hk) (by omega)]
    omega

/-- The state from which `process_setup` copies the image, when the first loops of
`process_setup` end in the states `s2` and `s3`. -/
theorem setup_mapped_eq (E : BootEnv) (c n : Nat) (s s2 s3 : KState)
    (h2 : setup_kernel_loop K (kalloc K K.PAGESIZE
        (s.setProc c fun p => { p with regs := E.init_regs })).1 (K.PROC_START_ADDR + 1) 0
      ((kalloc K K.PAGESIZE (s.setProc c fun p => { p with regs := E.init_regs })).2.setProc c
        fun p => { p with pagetable := (kalloc K K.PAGESIZE
          (s.setProc c fun p => { p with regs := E.init_regs })).1 }) = some s2)
    (h3 : setup_alloc K (kalloc K K.PAGESIZE
        (s.setProc c fun p => { p with regs := E.init_regs })).1 (E.programs n).segments s2
      = some s3) :
    setup_mapped K E c n s = some s3 := by
  unfold setup_mapped
  simp only
  rw [h2]
  exact h3

/-- The loop of `process_setup` that allocates the pages of the segments. -/
theorem setup_alloc_spec (hK : K.Geom) {s : KState} {c cpt : Nat} {rolek : Roles} :
    ∀ (gs : List segment) (sk : KState) (role1 : Roles),
    (∀ g ∈ gs, K.PROC_START_ADDR ≤ g.va ∧ g.va + g.size ≤ K.MEMSIZE_VIRTUAL) →
    SetupInv K s c cpt rolek sk role1 → ∀ t, setup_alloc K cpt gs sk = some t →
    ∃ role2, SetupInv K s c cpt rolek t role2 ∧
      (∀ vb, userPresent (sk.ent K c vb) → userPresent (t.ent K c vb)) ∧
      (∀ g ∈ gs, ∀ i, i < g.size → userPresent (t.ent K c (g.va + i))) := by
  have hP := hK.page_pos
  intro gs
  induction gs with
  | nil =>
    intro sk role1 _ si t ht
    simp only [setup_alloc, Option.some.injEq] at ht
    rw [← ht]
    exact ⟨role1, si, fun _ hu => hu, fun g hg => absurd hg (List.not_mem_nil g)⟩
  | cons g gs ih =>
    intro sk role1 hgs si t ht
    simp only [setup_alloc] at ht
    split at ht
    · exact absurd ht (by simp)
    · rename_i s1 hs1
      obtain ⟨hg1, hg2⟩ := hgs g (List.mem_cons_self _ _)
      have hge : K.PROC_START_ADDR ≤ g.va / K.PAGESIZE * K.PAGESIZE := by
        have h2 := aligned_eq (K := K) _ hK.start_al
        have h3 : K.PROC_START_ADDR / K.PAGESIZE ≤ g.va / K.PAGESIZE := Nat.div_le_div_right hg1
        have := Nat.mul_le_mul_right K.PAGESIZE h3
        omega
      obtain ⟨role2, si2, m1, m2⟩ := setup_segment_pages_spec hK g.writable (g.va + g.size) hg2
        _ _ sk role1 (Nat.mul_mod_left _ _) hge si s1 hs1
      obtain ⟨role3, si3, m3, m4⟩ := ih s1 role2
        (fun x hx => hgs x (List.mem_cons_of_mem _ hx)) si2 t ht
      refine ⟨role3, si3, fun vb hu => m3 vb (m1 vb hu), ?_⟩
      intro x hx i hi
      rcases List.mem_cons.1 hx with e | e
      · subst e
        apply m3
        have := Nat.div_mul_le_self x.va K.PAGESIZE
        exact m2 (x.va + i) (by omega) (by omega)
      · exact m4 x e i hi

/-- The loop of `process_setup` that clears the segments and copies their data. -/
theorem setup_copy_spec (hK : K.Geom) {s : KState} {c cpt : Nat} {rolek : Roles}
    {role1 : Roles} : ∀ (gs : List segment) (sk : KState),
    (∀ g ∈ gs, K.PROC_START_ADDR ≤ g.va ∧ g.va + g.size ≤ K.MEMSIZE_VIRTUAL ∧
      copyFits K sk.mem cpt g ∧ g.data_size ≤ g.size ∧
      (∀ i, i < g.size → userPresent (sk.ent K c (g.va + i)))) →
    SetupInv K s c cpt rolek sk role1 →
    SetupInv K s c cpt rolek (setup_copy K cpt gs sk) role1 := by
  have hP := hK.page_pos
  intro gs
  induction gs with
  | nil => intro sk _ si; exact si
  | cons g gs ih =>
    intro sk hgs si
    simp only [setup_copy]
    obtain ⟨g1, g2, g3, g4, g5⟩ := hgs g (List.mem_cons_self _ _)
    have hchg : ∀ a, memload (memset sk.mem
        (vmiter.pa K sk.mem { pt := cpt, va := g.va }) 0 g.size)
        (vmiter.pa K sk.mem { pt := cpt, va := g.va }) g.data g.data_size a ≠ sk.mem a →
        role1 (a / K.PAGESIZE) = none ∧ rolek (a / K.PAGESIZE) = none := by
      intro a ha
      have hin : vmiter.pa K sk.mem { pt := cpt, va := g.va } ≤ a ∧
          a < vmiter.pa K sk.mem { pt := cpt, va := g.va } + g.size := by
        by_contra hh
        apply ha
        unfold memload memset
        rw [if_neg (fun h1 => hh ⟨h1.1, by omega⟩), if_neg hh]
      obtain ⟨i, hi, hai⟩ : ∃ i, i < g.size ∧
          a = vmiter.pa K sk.mem { pt := cpt, va := g.va } + i :=
        ⟨a - vmiter.pa K sk.mem { pt := cpt, va := g.va }, by omega, by omega⟩
      have hu : userPresent (sk.ent K c (g.va + i)) := g5 i hi
      have hu2 : userPresent ((sk.ghost c).ent K c (g.va + i)) := by rw [ghost_ent]; exact hu
      have hwalk : vm_walk K sk.mem 3 cpt (g.va + i) = sk.ent K c (g.va + i) :=
        (ent_eq sk c cpt si.mid.croot (g.va + i)).symm
      have hpa := vmiter_pa_of_present (K := K) sk.mem cpt (g.va + i) (by rw [hwalk]; exact hu.1)
      rw [hwalk] at hpa
      have hfr : a / K.PAGESIZE = sk.ent K c (g.va + i) / K.PAGESIZE := by
        rw [hai, ← g3.bytes hK g2 (fun j hj => by
          rw [← ent_eq sk c cpt si.mid.croot]; exact (g5 j hj).1) i hi, hpa]
        unfold pte_pa
        apply frame_add hP
        exact Nat.mod_lt _ hP
      have hsC := (si.mid.inv.spaces c (ghost_live sk c)).2
      have hnc := not_console_above hK (g.va + i) (lt_span_of_lt_virt hK _ (by omega)) (by omega)
      have h1 := hsC.user_untyped (g.va + i) hu2
      have h2 := (hsC.user_owned (g.va + i) hu2 hnc).1
      rw [ghost_ent] at h1 h2
      rw [hfr]
      refine ⟨h1, ?_⟩
      cases hr : rolek (sk.ent K c (g.va + i) / K.PAGESIZE) with
      | none => rfl
      | some x =>
        have := si.kview.na _ (by rw [hr]; simp)
        unfold pte_pa at h2
        rw [h2] at this
        exact absurd this (by simp)
    have hsame : ∀ a, role1 (a / K.PAGESIZE) ≠ none ∨ rolek (a / K.PAGESIZE) ≠ none →
        memload (memset sk.mem (vmiter.pa K sk.mem { pt := cpt, va := g.va }) 0 g.size)
          (vmiter.pa K sk.mem { pt := cpt, va := g.va }) g.data g.data_size a = sk.mem a := by
      intro a ha
      by_contra hne
      obtain ⟨b1, b2⟩ := hchg a hne
      rcases ha with ha | ha
      · exact ha b1
      · exact ha b2
    have hinv := si.mid.inv.mem_congr hK _ (fun a ha => hsame a (Or.inl ha))
    have hent : ∀ vb, KState.ent K
        { sk with mem := (memload (memset sk.mem
            (vmiter.pa K sk.mem { pt := cpt, va := g.va }) 0 g.size)
            (vmiter.pa K sk.mem { pt := cpt, va := g.va }) g.data g.data_size) } c vb =
        sk.ent K c vb := by
      intro vb
      show vm_walk K _ 3 (sk.ptable c).pagetable vb = vm_walk K sk.mem 3 (sk.ptable c).pagetable vb
      rw [si.mid.croot]
      exact vm_walk_root_congr hK si.mid.inv.tables c cpt si.mid.root_role.1
        si.mid.root_role.2.1 (fun a ha => hsame a (Or.inl ha)) vb
    apply ih
    · intro x hx
      obtain ⟨a1, a2, a3, a4, a5⟩ := hgs x (List.mem_cons_of_mem _ hx)
      refine ⟨a1, a2, ?_, a4, fun i hi => ?_⟩
      · exact (copyFits_congr (fun vb => by
          have := hent vb
          rw [ent_eq _ c cpt (by exact si.mid.croot), ent_eq sk c cpt si.mid.croot] at this
          exact this) x).2 a3
      · rw [hent]
        exact a5 i hi
    · exact
        { mid := si.mid.step hinv rfl rfl
            (si.mid.mem_same (fun a ha => hsame a (Or.inl ha)))
          kview := si.kview.congr_view hK (fun a ha => hsame a (Or.inr ha)) }

theorem ForkMid.childRegs (hK : K.Geom) {s : KState} {c cpt : Nat} {sk : KState} {role1 : Roles}
    (hmid : ForkMid K s c cpt sk role1) (g : proc → regstate) :
    ForkMid K s c cpt (sk.setProc c fun p => { p with regs := g p }) role1 :=
  { inv := by
      have := hmid.inv.setRegs hK c (fun _ => g (sk.ptable c))
      have e : (sk.ghost c).setProc c (fun q => { q with regs := g (sk.ptable c) }) =
          (sk.setProc c fun p => { p with regs := g p }).ghost c := by
        simp only [KState.ghost, KState.setProc]
        congr 1
        funext j
        simp only [upd]
        by_cases hj : j = c
        · simp [hj]
        · simp [hj]
      rw [e] at this
      exact this
    current_eq := hmid.current_eq
    ptable_old := fun q hq => by
      simp only [KState.setProc, upd, if_neg hq]
      exact hmid.ptable_old q hq
    cstate := by
      simp only [KState.setProc, upd, if_true]
      exact hmid.cstate
    cpid := by
      simp only [KState.setProc, upd, if_true]
      exact hmid.cpid
    croot := by
      simp only [KState.setProc, upd, if_true]
      exact hmid.croot
    others_mem := hmid.others_mem }

/-- `process_setup` of a Free slot keeps the invariant and makes the process
Runnable. -/
theorem process_setup_spec (hK : K.Geom) (E : BootEnv)
    (hseg : ∀ n g, g ∈ (E.programs n).segments →
      K.PROC_START_ADDR ≤ g.va ∧ g.va + g.size ≤ K.MEMSIZE_VIRTUAL ∧ g.data_size ≤ g.size)
    (hval : K.MEMSIZE_VIRTUAL % K.PAGESIZE = 0)
    (hvs : K.PROC_START_ADDR + K.PAGESIZE ≤ K.MEMSIZE_VIRTUAL)
    {s : KState} {role rolek : Roles} (h : Inv K s role) (kv : KView K s.mem rolek)
    (c n : Nat) (hfit : setupFits K E c n s) (hc : ¬ s.live c) (hcn : c < K.NPROC) (t : KState)
    (ht : process_setup K E c n s = some t) :
    ∃ role2, Inv K t role2 ∧ KView K t.mem rolek ∧
      (t.ptable c).state = procstate.P_RUNNABLE ∧ (∀ q, q ≠ c → t.ptable q = s.ptable q) ∧
      t.current = s.current ∧ Calm K s t := by
  have hP := hK.page_pos
  have h0 := h.setRegs hK c (fun _ => E.init_regs)
  have hc0 : ¬ (s.setProc c fun p => { p with regs := E.init_regs }).live c := by
    simp only [KState.live, KState.setProc, upd, if_true]
    exact hc
  have hcf : ((s.setProc c fun p => { p with regs := E.init_regs }).ptable c).state =
      procstate.P_FREE := by
    unfold KState.live at hc0
    simpa using hc0
  have hcf2 : (s.ptable c).state = procstate.P_FREE := by
    unfold KState.live at hc
    simpa using hc
  rcases kalloc_spec hK.wf _ h0.cursor with ⟨_, hno, _⟩ | ⟨f, hf1, hf2, hf3⟩
  · have := process_setup_nofree hK E c n s ⟨h.cursor, hno⟩
    rw [this] at ht
    exact absurd ht (by simp)
  have hcurs : cursorOK K (kalloc_at K (s.setProc c fun p => { p with regs := E.init_regs })
      (f * K.PAGESIZE)) := by
    rw [← hf3]; exact kalloc_cursorOK hK.wf _ _ h0.cursor
  have hrk : rolek f = none := by
    cases hr : rolek f with
    | none => rfl
    | some x =>
      have := kv.na f (by rw [hr]; simp)
      rw [hf2.1] at this
      exact absurd this (by simp)
  have si1 : SetupInv K (s.setProc c fun p => { p with regs := E.init_regs }) c (f * K.PAGESIZE)
      rolek ((kalloc_at K (s.setProc c fun p => { p with regs := E.init_regs })
        (f * K.PAGESIZE)).setProc c fun p => { p with pagetable := f * K.PAGESIZE })
      (addRoot role f c) :=
    { mid :=
        { inv := by
            refine h0.new_root hK c hc0 hcn f hf2 hcurs _ ?_ ?_ ?_ ?_ ?_ ?_ ?_
            · rfl
            · rfl
            · rfl
            · intro q hq
              simp [KState.ghost, KState.setProc, upd, hq, kalloc_at]
            · simp [KState.ghost, KState.setProc, upd]
            · simp [KState.ghost, KState.setProc, upd, kalloc_at]
            · exact ghost_live _ c
          current_eq := rfl
          ptable_old := fun q hq => by simp [KState.setProc, upd, hq, kalloc_at]
          cstate := by
            simp only [KState.setProc, upd, if_true, kalloc_at]
            exact hcf2
          cpid := by simp [KState.setProc, upd, kalloc_at]
          croot := by simp [KState.setProc, upd]
          others_mem := fun a q π hr hq => by
            show (kalloc_at K _ (f * K.PAGESIZE)).mem a = _
            simp only [kalloc_at]
            rw [memset_frame hP, if_neg]
            intro hh
            rw [hh] at hr
            simp only [addRoot, if_true, Option.some.injEq, Prod.mk.injEq] at hr
            exact hq hr.1.symm }
      kview := kv.congr_view hK (fun a ha => by
        show (kalloc_at K _ (f * K.PAGESIZE)).mem a = _
        simp only [kalloc_at]
        rw [memset_frame hP, if_neg]
        · rfl
        · intro hh
          rw [hh] at ha
          exact ha hrk) }
  have hmap := setup_mapped_eq (K := K) E c n s
  unfold process_setup at ht
  simp only at ht
  rw [hf1, hf3] at ht hmap
  split at ht
  · exact absurd ht (by simp)
  rename_i s2 hs2
  obtain ⟨role2, si2⟩ := setup_kernel_loop_spec hK _ 0 _ _ (Nat.zero_mod _) si1 s2 hs2
  split at ht
  · exact absurd ht (by simp)
  rename_i s3 hs3
  obtain ⟨role3, si3, _, m3⟩ := setup_alloc_spec hK _ s2 role2
    (fun g hg => ⟨(hseg n g hg).1, (hseg n g hg).2.1⟩) si2 s3 hs3
  have hfit3 : ∀ g ∈ (E.programs n).segments, copyFits K s3.mem (f * K.PAGESIZE) g := by
    intro g hg
    have := hfit s3 (hmap s2 s3 hs2 hs3) g hg
    rw [si3.mid.croot] at this
    exact this
  have si4 := setup_copy_spec hK (E.programs n).segments s3
    (fun g hg => ⟨(hseg n g hg).1, (hseg n g hg).2.1, hfit3 g hg, (hseg n g hg).2.2,
      m3 g hg⟩) si3
  have si5 : SetupInv K (s.setProc c fun p => { p with regs := E.init_regs }) c (f * K.PAGESIZE)
      rolek ((setup_copy K (f * K.PAGESIZE) (E.programs n).segments s3).setProc c fun p =>
        { p with regs := { p.regs with reg_rip := (E.programs n).entry } }) role3 :=
    { mid := si4.mid.childRegs hK _
      kview := si4.kview }
  split at ht
  · exact absurd ht (by simp)
  rename_i hr6
  have hsa : (K.MEMSIZE_VIRTUAL - K.PAGESIZE) % K.PAGESIZE = 0 := by
    obtain ⟨k, hk⟩ := Nat.dvd_of_mod_eq_zero hval
    have hk1 : 1 ≤ k := by
      rcases Nat.eq_zero_or_pos k with h0 | h0
      · rw [h0] at hk; omega
      · exact h0
    obtain ⟨j, hj⟩ : ∃ j, k = j + 1 := ⟨k - 1, by omega⟩
    rw [hk, hj, Nat.mul_add, Nat.mul_one, Nat.add_sub_cancel]
    exact Nat.mul_mod_right _ _
  have hslt : K.MEMSIZE_VIRTUAL - K.PAGESIZE < K.MEMSIZE_VIRTUAL := by omega
  rw [vmiter_map_eq _ _ _ _ _ hsa (canonical_of_lt_virt hK _ hslt),
    if_neg (fun hh => absurd hh.2 (by decide))] at ht
  simp only at ht
  obtain ⟨role7, si7, _, _⟩ := setup_step_fresh hK si5 (K.MEMSIZE_VIRTUAL - K.PAGESIZE)
    (PTE_P + PTE_W + PTE_U) hslt (by omega) (Or.inl rfl) hr6
  generalize vm_map K 3 (f * K.PAGESIZE) (K.MEMSIZE_VIRTUAL - K.PAGESIZE) _ _ _ = X at ht si7
  split at ht
  · exact absurd ht (by simp)
  simp only [Option.some.injEq] at ht
  rw [← ht]
  have hpq : ∀ q, q ≠ c → X.2.ptable q = s.ptable q := by
    intro q hq
    rw [si7.mid.ptable_old q hq]
    simp [KState.setProc, upd, hq]
  refine ⟨role7, ?_, si7.kview, ?_, ?_, si7.mid.current_eq, ?_⟩
  · refine si7.mid.inv.sameSpaces hK ⟨rfl, rfl, fun p => ?_⟩ ?_
    · by_cases hp : p = c
      · subst hp
        refine ⟨fun _ => ?_, ?_, ?_⟩
        · simp [KState.setProc, KState.ghost, upd]
        · simp [KState.live, KState.setProc, KState.ghost, upd]
        · simp [KState.setProc, KState.ghost, upd]
      · refine ⟨fun _ => ?_, ?_, ?_⟩ <;> simp [KState.live, KState.setProc, KState.ghost, upd, hp]
    · exact si7.mid.inv.cursor
  · simp [KState.setProc, upd]
  · intro q hq
    simp only [KState.setProc, upd, if_neg hq]
    have := si7.mid.ptable_old q hq
    rw [this]
    simp [KState.setProc, upd, hq]
  · intro q hl
    have hq : q ≠ c := fun hh => hc (hh ▸ hl)
    have hgq : (X.2.ghost c).ptable q = s.ptable q := by
      simp only [KState.ghost, upd, if_neg hq]
      exact hpq q hq
    have hlg : (X.2.ghost c).live q := by
      unfold KState.live
      rw [hgq]
      exact hl
    have hB : Still K s (X.2.ghost c) q :=
      si7.mid.inv.still_back hK hlg (by rw [hgq])
        (fun a π hr => (si7.mid.others_mem a q π hr hq).symm)
    have hA : Still K (X.2.ghost c)
        (X.2.setProc c fun p =>
          { p with regs := { p.regs with reg_rsp := K.MEMSIZE_VIRTUAL - K.PAGESIZE + K.PAGESIZE }
                   state := procstate.P_RUNNABLE }) q :=
      Still.of_eq rfl (by simp [KState.setProc, KState.ghost, upd, hq])
    refine ⟨?_, hB.follow hA⟩
    simp only [KState.setProc, upd, if_neg hq]
    exact hpq q hq

end SetupProc

section Boot

variable {K : Config}

/-- The loop of `kernel` that sets up the default processes. -/
theorem setup_default_spec (hK : K.Geom) (E : BootEnv)
    (hseg : ∀ n g, g ∈ (E.programs n).segments →
      K.PROC_START_ADDR ≤ g.va ∧ g.va + g.size ≤ K.MEMSIZE_VIRTUAL ∧ g.data_size ≤ g.size)
    (hval : K.MEMSIZE_VIRTUAL % K.PAGESIZE = 0)
    (hvs : K.PROC_START_ADDR + K.PAGESIZE ≤ K.MEMSIZE_VIRTUAL) {rolek : Roles} :
    ∀ (n i : Nat) (s : KState) (role : Roles), Inv K s role → KView K s.mem rolek →
    defaultFits K E n i s →
    (∀ p, i ≤ p → ¬ s.live p) → i + n ≤ K.NPROC → ∀ t, setup_default K E n i s = some t →
    ∃ role2, Inv K t role2 ∧ KView K t.mem rolek ∧ (∀ q, q < i → t.ptable q = s.ptable q) ∧
      (0 < n → (t.ptable i).state = procstate.P_RUNNABLE) ∧ t.current = s.current := by
  intro n
  induction n with
  | zero =>
    intro i s role h kv _ _ _ t ht
    simp only [setup_default, Option.some.injEq] at ht
    rw [← ht]
    exact ⟨role, h, kv, fun _ _ => rfl, fun hh => absurd hh (by omega), rfl⟩
  | succ n ih =>
    intro i s role h kv hfit hfree hle t ht
    simp only [setup_default] at ht
    split at ht
    · exact absurd ht (by simp)
    · rename_i s1 hs1
      obtain ⟨role1, a1, a2, a3, a4, a5⟩ := process_setup_spec hK E hseg hval hvs h kv i (i - 1)
        hfit.1 (hfree i (le_refl _)) (by omega) s1 hs1
      obtain ⟨role2, b1, b2, b3, _, b5⟩ := ih (i + 1) s1 role1 a1 a2 (hfit.2 s1 hs1)
        (fun p hp => by
          unfold KState.live
          rw [a4 p (by omega)]
          exact hfree p (by omega)) (by omega) t ht
      refine ⟨role2, b1, b2, fun q hq => ?_, fun _ => ?_, b5.trans a5.1⟩
      · rw [b3 q (by omega), a4 q (by omega)]
      · rw [b3 i (by omega)]
        exact a3

/-- What `BootOK` says about the calls of `process_setup`, for the state `s1` after
the loop of `kernel` over `kernel_pagetable`. -/
theorem BootOK.fits_at {E : BootEnv} {command : Option String} (hB : BootOK K E command)
    {s1 : KState}
    (hs1 : kernel_map_loop K (K.PROC_START_ADDR + 1) 0 { E.hw with ticks := 1 } = some s1) :
    if command = some "fork" then setupFits K E 1 4 (init_ptable K.NPROC 0 s1)
    else if command = some "forkexit" then setupFits K E 1 5 (init_ptable K.NPROC 0 s1)
    else defaultFits K E 4 1 (init_ptable K.NPROC 0 s1) := by
  apply hB.fits
  unfold kernel_init
  rw [hs1]
  rfl

/-- The state in which `kernel` first runs a process satisfies the invariant. -/
theorem kernel_boot (hK : K.Geom) (E : BootEnv) (command : Option String)
    (hB : BootOK K E command) (s : KState) (hs : kernel K E command = Outcome.resumed s) :
    GInv K s := by
  obtain ⟨rolek, hT, hroot, hna⟩ := hB.ktree
  unfold kernel at hs
  simp only at hs
  split at hs
  · exact absurd hs (by simp)
  rename_i s1 hs1
  obtain ⟨p1, p2, p3, p4, kv⟩ := kernel_map_loop_spec hK rolek hna hroot hB.kpt_al E.hw.mem
    hB.console_frame _ 0 { E.hw with ticks := 1 } (Nat.zero_mod _) hB.cursor hB.pages_clear hT
    hB.kmapped (fun vb _ h2 _ => absurd h2 (Nat.not_lt_zero vb)) rfl s1 hs1
  obtain ⟨q1, q2, q3, q4, q5⟩ := init_ptable_spec K.NPROC 0 s1
  have hfree : ∀ p, ¬ (init_ptable K.NPROC 0 s1).live p := by
    intro p
    unfold KState.live
    by_cases hp : p < K.NPROC
    · rw [(q4 p (Nat.zero_le _) (by omega)).2]
      simp
    · rw [q5 p (Or.inr (by omega)), p3]
      have := hB.procs_free p (by omega)
      simp only [ne_eq, not_not]
      exact this
  have hpg : ∀ f, (init_ptable K.NPROC 0 s1).pages f = { owner := 0, sharers := 0 } := by
    intro f
    rw [q1, p1]
    exact hB.pages_clear f
  have h2 : Inv K (init_ptable K.NPROC 0 s1) (fun _ => none) :=
    { cursor := by
        unfold cursorOK
        rw [q3, p2]
        exact hB.cursor
      tables := fun t p π hr => absurd hr (by simp)
      typed := fun t p π hr => absurd hr (by simp)
      spaces := fun p hp => absurd hp (hfree p)
      count := fun f => by
        rw [mappers_zero hK _ f (fun p _ hp => absurd hp (hfree p)), hpg f]
        decide
      sharers_nonneg := fun f => by rw [hpg f]
      free_unshared := fun f _ => by rw [hpg f]
      na_clear := fun f _ => hpg f
      pids := fun p hp => (q4 p (Nat.zero_le _) (by omega)).1 }
  have kv2 : KView K (init_ptable K.NPROC 0 s1).mem rolek := by rw [q2]; exact kv
  have hfin : ∀ (s3 : KState) (role3 : Roles), Inv K s3 role3 →
      (if (s3.ptable 1).state = procstate.P_RUNNABLE
        then Outcome.resumed { s3 with current := 1 } else Outcome.halted) =
        Outcome.resumed s → GInv K s := by
    intro s3 role3 h3 hh
    split at hh
    · rename_i hr
      simp only [Outcome.resumed.injEq] at hh
      rw [← hh]
      refine ⟨⟨role3, ?_⟩, hr⟩
      refine h3.sameSpaces hK ⟨rfl, rfl, fun q => ⟨fun _ => rfl, Iff.rfl, rfl⟩⟩ ?_
      exact h3.cursor
    · exact absurd hh (by simp)
  have hn := hB.nproc
  have hfit := hB.fits_at hs1
  by_cases hc1 : command = some "fork"
  · rw [if_pos (Or.inl hc1)] at hn
    rw [if_pos hc1] at hs hfit
    split at hs
    · exact absurd hs (by simp)
    · rename_i s3 hs3
      obtain ⟨role3, a1, _⟩ := process_setup_spec hK E hB.segments hB.virt_al hB.virt_stack h2 kv2
        1 4 hfit (hfree 1) hn s3 hs3
      exact hfin s3 role3 a1 hs
  · by_cases hc2 : command = some "forkexit"
    · rw [if_pos (Or.inr hc2)] at hn
      rw [if_neg hc1, if_pos hc2] at hs hfit
      split at hs
      · exact absurd hs (by simp)
      · rename_i s3 hs3
        obtain ⟨role3, a1, _⟩ := process_setup_spec hK E hB.segments hB.virt_al hB.virt_stack h2
          kv2 1 5 hfit (hfree 1) hn s3 hs3
        exact hfin s3 role3 a1 hs
    · rw [if_neg (fun hh => hh.elim hc1 hc2)] at hn
      rw [if_neg hc1, if_neg hc2] at hs hfit
      split at hs
      · exact absurd hs (by simp)
      · rename_i s3 hs3
        obtain ⟨role3, a1, _⟩ := setup_default_spec hK E hB.segments hB.virt_al hB.virt_stack
          4 1 _ _ h2 kv2 hfit (fun p _ => hfree p) (by omega) s3 hs3
        exact hfin s3 role3 a1 hs

/-- Every state in which a process runs satisfies the invariant. -/
theorem reachable_inv (hK : K.Geom) (E : BootEnv) (command : Option String)
    (hB : BootOK K E command) (s : KState) (hs : Reachable K E command s) : GInv K s := by
  induction hs with
  | boot s h => exact kernel_boot hK E command hB s h
  | store s t va b _ h ih => exact user_store_inv hK ih va b t h
  | trap s t regs _ h ih => exact exception_inv hK ih regs t h
  | sysret s t regs v _ h ih => exact (syscall_inv hK ih regs).1 v t h
  | sysrun s t regs _ h ih => exact (syscall_inv hK ih regs).2 t h

end Boot

section SmallMachine

set_option maxRecDepth 1000000

theorem Outcome.eq_resumed_state (o : Outcome) (d : KState) (h : o.isResumed = true) :
    o = Outcome.resumed (o.state d) := by
  cases o <;> simp_all [Outcome.isResumed, Outcome.state]

theorem SysResult.eq_ret_state (r : SysResult) (d : KState) (v : Nat) (h : r.value = some v) :
    r = SysResult.ret v (r.state d) := by
  cases r <;> simp_all [SysResult.value, SysResult.state]

theorem setProc_regs_twice (s : KState) (regs : regstate) :
    (s.setProc s.current fun p => { p with regs := regs }).setProc
      (s.setProc s.current fun p => { p with regs := regs }).current
      (fun p => { p with regs := regs }) = s.setProc s.current fun p => { p with regs := regs } := by
  unfold KState.setProc
  simp only [KState.mk.injEq, true_and, and_true]
  funext i
  simp only [upd]
  split <;> rfl

/-- The handler `syscall` saves the registers itself: it does the same on the state
in which `exception` has saved them already. -/
theorem syscall_saved (K : Config) (regs : regstate) (s : KState) :
    syscall K regs (s.setProc s.current fun p => { p with regs := regs }) = syscall K regs s := by
  unfold syscall
  simp only [setProc_regs_twice]

/-- The end of `exception` never halts the machine. -/
theorem exception_finish_runs (K : Config) (s : KState) :
    (exception_finish K s).isHalted = false := by
  unfold exception_finish schedule
  split
  · rfl
  · split <;> rfl

/-- If the trap of a system call halts the machine, the system call has not
returned. -/
theorem syscall_none_of_halted (K : Config) (regs : regstate) (s : KState)
    (h1 : regs.reg_intno = K.INT_SYSCALL) (h : (exception K regs s).isHalted = true) :
    (syscall K regs s).value = none := by
  unfold exception at h
  simp only [if_pos h1, syscall_saved] at h
  cases hs : syscall K regs s with
  | ret v s1 =>
    rw [hs] at h
    simp only at h
    rw [exception_finish_runs] at h
    exact absurd h (by decide)
  | noreturn o => rfl

set_option maxRecDepth 1000000 in
/-- The runs of the small machine used below: the traps return to a process, the first
fork returns the child 2, which runs after the next timer interrupt, and the exit of the
child leaves the sharers count of frame 11 at 1. -/
theorem toy_facts :
    ((kernel toy toyEnv (some "fork")).isResumed = true ∧
    (exception toy (sysregs 5 0) toyBoot).isResumed = true ∧
    (exception toy timerregs toyForked).isResumed = true ∧
    (exception toy (sysregs 6 0)
       ((exception toy timerregs toyForked).state zeroState)).isResumed = true ∧
    (exception toy (sysregs 4 256) toyBoot).isResumed = true ∧
    (exception toy (sysregs 4 2048) toyForked).isResumed = true) ∧
    ((syscall toy (sysregs 5 0) toyBoot).value = some 2 ∧ toyBoot.current = 1 ∧
    toyForked.current = 1 ∧
    ((exception toy timerregs toyForked).state zeroState).current = 2) ∧
    ((toyForked.ptable 2).state ≠ procstate.P_FREE) ∧
    (freeCount toy toyBoot = 13 ∧ freeCount toy toyForkExit = 11 ∧
    (toyBoot.pages 11).sharers = 0 ∧ (toyForkExit.pages 11).sharers = 1) ∧
    (mappers toy toyForkExit 11 = 1) := by
  decide!

/-- The traps of the small machine used below return to a process. -/
theorem toy_runs :
    (kernel toy toyEnv (some "fork")).isResumed = true ∧
    (exception toy (sysregs 5 0) toyBoot).isResumed = true ∧
    (exception toy timerregs toyForked).isResumed = true ∧
    (exception toy (sysregs 6 0)
       ((exception toy timerregs toyForked).state zeroState)).isResumed = true ∧
    (exception toy (sysregs 4 256) toyBoot).isResumed = true ∧
    (exception toy (sysregs 4 2048) toyForked).isResumed = true :=
  toy_facts.1

/-- The first fork of the small machine returns the child 2 to process 1; the next
timer interrupt runs the child. -/
theorem toy_first_fork :
    (syscall toy (sysregs 5 0) toyBoot).value = some 2 ∧ toyBoot.current = 1 ∧
    toyForked.current = 1 ∧
    ((exception toy timerregs toyForked).state zeroState).current = 2 :=
  toy_facts.2.1

/-- After the first fork the child 2 is not Free. -/
theorem toy_child_state :
    (toyForked.ptable 2).state ≠ procstate.P_FREE :=
  toy_facts.2.2.1

/-- A second fork of process 1 fails and loses a frame. -/
theorem toy_fork_fails :
    (syscall toy (sysregs 5 0) toyForked).value = some UINTPTR_MAX ∧
    freeCount toy toyForked = 6 ∧
    freeCount toy ((syscall toy (sysregs 5 0) toyForked).state zeroState) = 5 ∧
    (toyForked.pages 11).sharers = 1 ∧
    (((syscall toy (sysregs 5 0) toyForked).state zeroState).pages 11).sharers = 2 ∧
    (((syscall toy (sysregs 5 0) toyForked).state zeroState).ptable 3).state
       = procstate.P_FREE := by
  decide!

set_option maxRecDepth 1000000 in
/-- Pages and frames of the small machine in the states after boot, after the first fork
and after a PageAlloc at page 8. -/
theorem toy_page_facts :
    (userMapsAt toy toyForked 2 7 22 ∧ (toyForked.pages 22).sharers = 0 ∧
    userMapsAt toy toyForked 2 3 11 ∧
    (proc_free toy 2 toyForked).isSome = true ∧
    (((proc_free toy 2 toyForked).getD zeroState).pages 22).owner = -1 ∧
    (((proc_free toy 2 toyForked).getD zeroState).pages 11).sharers = 1) ∧
    ((syscall toy (sysregs 5 0) toyHigh).value = some 2 ∧ toyHigh.current = 1 ∧
    ({ pt := (toyHigh.ptable 1).pagetable, va := 256 } : vmiter).writable toy toyHigh.mem = true ∧
    ({ pt := (toyHigh.ptable 1).pagetable, va := 256 } : vmiter).user toy toyHigh.mem = true ∧
    ({ pt := (((syscall toy (sysregs 5 0) toyHigh).state zeroState).ptable 2).pagetable,
       va := 256 } : vmiter).present
       toy ((syscall toy (sysregs 5 0) toyHigh).state zeroState).mem = false) ∧
    ((toyBoot.ptable 1).state = procstate.P_RUNNABLE ∧
    ({ pt := (toyBoot.ptable 1).pagetable, va := 32 } : vmiter).user toy toyBoot.mem = true ∧
    ({ pt := (toyBoot.ptable 1).pagetable, va := 32 } : vmiter).pa toy toyBoot.mem = 32 ∧
    (toyBoot.pages 1).owner = 0 ∧
    ({ pt := (toyBoot.ptable 1).pagetable, va := 0 } : vmiter).present toy toyBoot.mem = true ∧
    ({ pt := (toyBoot.ptable 1).pagetable, va := 0 } : vmiter).pa toy toyBoot.mem = 0 ∧
    (toyBoot.pages 0).owner = 0 ∧
    ({ pt := (toyBoot.ptable 1).pagetable, va := 64 } : vmiter).user toy toyBoot.mem = true) ∧
    (((toyBoot.setProc toyBoot.current fun p => { p with regs := sysregs 5 0 }).ptable 1).state
      = procstate.P_RUNNABLE ∧
    ((toyBoot.setProc toyBoot.current fun p => { p with regs := sysregs 5 0 }).ptable 2).state
      = procstate.P_FREE ∧
    (kalloc toy toy.PAGESIZE
      (toyBoot.setProc toyBoot.current fun p => { p with regs := sysregs 5 0 })).1 = 512) ∧
    ((toyBoot.ptable toyBoot.current).pid = 1 ∧
    proc_free_walk_reads toy
      (((toyBoot.setProc toyBoot.current fun p => { p with regs := sysregs 6 0 }).setProc 1
        fun p => { p with state := procstate.P_FREE }).ptable 1).pagetable
      (toy.MEMSIZE_VIRTUAL + 1) 0
      ((toyBoot.setProc toyBoot.current fun p => { p with regs := sysregs 6 0 }).setProc 1
        fun p => { p with state := procstate.P_FREE })
      = [0, 10, 12, 576460752303423487] ∧
    ({ pt := (toyBoot.ptable 1).pagetable, va := 192 } : vmiter).present toy toyBoot.mem
      = false) ∧
    ((syscall toy (sysregs 4 4096) toyBoot).value = none ∧
    (exception toy (sysregs 4 4096) toyBoot).isHalted = true ∧
    13 ≤ freeCount toy toyBoot) := by
  decide!

/-- The pages 3 and 7 of the child 2 and what `proc_free(2)` does with their
frames. -/
theorem toy_child_free :
    userMapsAt toy toyForked 2 7 22 ∧ (toyForked.pages 22).sharers = 0 ∧
    userMapsAt toy toyForked 2 3 11 ∧
    (proc_free toy 2 toyForked).isSome = true ∧
    (((proc_free toy 2 toyForked).getD zeroState).pages 22).owner = -1 ∧
    (((proc_free toy 2 toyForked).getD zeroState).pages 11).sharers = 1 :=
  toy_page_facts.1

/-- Free frames and the sharers count of frame 11 before the fork and after the
exit of the child. -/
theorem toy_exit_counts :
    freeCount toy toyBoot = 13 ∧ freeCount toy toyForkExit = 11 ∧
    (toyBoot.pages 11).sharers = 0 ∧ (toyForkExit.pages 11).sharers = 1 :=
  toy_facts.2.2.2.1

/-- With two free frames left, a `PageAlloc` at page 16, which needs a frame and
two page-table pages, halts the machine. -/
theorem toy_tall :
    freeCount toy toyTall = 2 ∧ toyTall.current = 1 ∧
    (kalloc toy toy.PAGESIZE toyTall).1 ≠ 0 ∧
    (exception toy (sysregs 4 512) toyTall).isHalted = true := by
  decide!

theorem toyBoot_reachable : Reachable toy toyEnv (some "fork") toyBoot :=
  Reachable.boot _ (Outcome.eq_resumed_state _ _ toy_runs.1)

theorem toyForked_reachable : Reachable toy toyEnv (some "fork") toyForked :=
  Reachable.trap _ _ _ toyBoot_reachable (Outcome.eq_resumed_state _ _ toy_runs.2.1)

theorem toyForkExit_reachable : Reachable toy toyEnv (some "fork") toyForkExit :=
  Reachable.trap _ _ _
    (Reachable.trap _ _ _ toyForked_reachable (Outcome.eq_resumed_state _ _ toy_runs.2.2.1))
    (Outcome.eq_resumed_state _ _ toy_runs.2.2.2.1)

/-- On the small machine, system call 5 is `SYSCALL_FORK` on the state with the
saved registers. -/
theorem toy_syscall_fork (s : KState) :
    syscall toy (sysregs 5 0) s =
      SysResult.ofOption
        (sys_fork toy (s.setProc s.current fun p => { p with regs := sysregs 5 0 })) := rfl

theorem ofOption_value (o : Option (Nat × KState)) (v : Nat)
    (h : (SysResult.ofOption o).value = some v) :
    o = some (v, (SysResult.ofOption o).state zeroState) := by
  cases o with
  | none => simp [SysResult.ofOption, SysResult.value] at h
  | some x =>
    obtain ⟨a, b⟩ := x
    simp only [SysResult.ofOption, SysResult.value, Option.some.injEq] at h
    simp only [SysResult.ofOption, SysResult.state, h]

/-- The first fork of the small machine succeeds and returns the child 2. -/
theorem toy_fork_boot :
    sys_fork toy (toyBoot.setProc toyBoot.current fun p => { p with regs := sysregs 5 0 }) =
      some (2, (syscall toy (sysregs 5 0) toyBoot).state zeroState) := by
  have h := toy_first_fork.1
  rw [toy_syscall_fork] at h ⊢
  exact ofOption_value _ _ h

theorem toyTall_reachable : Reachable toy toyEnv (some "fork") toyTall :=
  Reachable.trap _ _ _ toyForked_reachable
    (Outcome.eq_resumed_state _ _ toy_runs.2.2.2.2.2)

end SmallMachine

section SmallMachineBoot

set_option maxRecDepth 1000000

theorem toy_geom : toy.Geom :=
  { wf :=
      { page_pos := by decide
        phys_pages := ⟨29, by decide⟩
        phys_pos := by decide
        alloc_lt := fun pa h => by
          simp only [toy, Bool.and_eq_true, decide_eq_true_eq] at h
          exact h.2
        alloc_pos := fun pa h => by
          simp only [toy, Bool.and_eq_true, decide_eq_true_eq] at h
          show 32 ≤ pa
          omega }
    ent := ⟨4, by decide⟩
    phys64 := by decide
    virt_half := by decide
    span64 := ⟨2 ^ 51, by decide⟩
    console_low := by decide
    console_al := by decide
    start_al := by decide
    start_half := by decide
    console_na := by decide }

theorem toy_tables : TablesOK toy toyHw.mem toyRolek := by
  intro t p path hr
  unfold toyRolek at hr
  have hN : toy.NENT = 4 := by decide
  split at hr
  · rename_i h
    subst h
    simp only [Option.some.injEq, Prod.mk.injEq] at hr
    obtain ⟨rfl, rfl⟩ := hr
    refine ⟨by decide, fun i hi _ hp => ?_⟩
    rw [hN] at hi
    interval_cases i
    · decide!
    · exact absurd hp (by decide!)
    · exact absurd hp (by decide!)
    · exact absurd hp (by decide!)
  split at hr
  · rename_i h
    subst h
    simp only [Option.some.injEq, Prod.mk.injEq] at hr
    obtain ⟨rfl, rfl⟩ := hr
    refine ⟨by decide, fun i hi _ hp => ?_⟩
    rw [hN] at hi
    interval_cases i
    · decide!
    · exact absurd hp (by decide!)
    · exact absurd hp (by decide!)
    · exact absurd hp (by decide!)
  split at hr
  · rename_i h
    subst h
    simp only [Option.some.injEq, Prod.mk.injEq] at hr
    obtain ⟨rfl, rfl⟩ := hr
    refine ⟨by decide, fun i hi _ hp => ?_⟩
    rw [hN] at hi
    interval_cases i
    · decide!
    · exact absurd hp (by decide!)
    · exact absurd hp (by decide!)
    · exact absurd hp (by decide!)
  split at hr
  · simp only [Option.some.injEq, Prod.mk.injEq] at hr
    obtain ⟨rfl, rfl⟩ := hr
    exact ⟨by decide, fun i _ hl _ => absurd hl (by decide)⟩
  · exact absurd hr (by simp)

set_option maxRecDepth 1000000 in
/-- On the small machine the copy loop of `process_setup` finds every segment in
consecutive physical addresses. -/
theorem toy_fits : bootFits toy toyEnv (some "fork") := by
  decide!

theorem toy_boot_ok : BootOK toy toyEnv (some "fork") :=
  { virt_al := by decide
    virt_stack := by decide
    nproc := by
      rw [if_pos (Or.inl rfl)]
      decide
    pages_clear := fun _ => rfl
    cursor := by decide
    procs_free := fun _ _ => rfl
    ktree := by
      refine ⟨toyRolek, toy_tables, by decide, fun t ht => ?_⟩
      unfold toyRolek at ht
      have : t = 2 ∨ t = 3 ∨ t = 4 ∨ t = 5 := by
        by_contra hh
        simp only [not_or] at hh
        apply ht
        rw [if_neg hh.1, if_neg hh.2.1, if_neg hh.2.2.1, if_neg hh.2.2.2]
      rcases this with h | h | h | h <;> subst h <;> decide
    kpt_al := by decide
    kmapped := fun va h1 h2 => by
      have h3 : toy.PAGESIZE = 32 := rfl
      have h4 : toy.PROC_START_ADDR = 64 := rfl
      rw [h3] at h1
      rw [h4] at h2
      have : va = 0 ∨ va = 32 := by omega
      rcases this with h | h <;> subst h <;> decide!
    console_frame := fun _ => by decide!
    segments := fun n g hg => by
      have : g ∈ toyProg.segments := hg
      simp only [toyProg, List.mem_cons, List.mem_singleton, List.not_mem_nil, or_false] at this
      rcases this with h | h | h | h <;> subst h <;> decide
    fits := toy_fits }

end SmallMachineBoot

section Claims

set_option maxRecDepth 1000000

/-- With a free frame and a request of at most one page, `kalloc` does not return
`nullptr`. -/
theorem kalloc_ne_zero (K : Config) (hK : K.WF) (s : KState) (sz : Nat)
    (hsz : sz ≤ K.PAGESIZE) (hc : cursorOK K s) (hfree : ∃ g, isFreeFrame K s g) :
    (kalloc K sz s).1 ≠ 0 := by
  obtain ⟨k, _, hf, _, he⟩ := kalloc_found K hK s sz hsz hc hfree
  rw [he]
  have h1 := hK.alloc_pos _ hf.1
  have h2 := hK.page_pos
  show cursorFrame K s k * K.PAGESIZE ≠ 0
  omega

/-- The parent's view of its address space does not depend on its saved registers. -/
theorem forkShares_setRegs (K : Config) (s t : KState) (c : Nat) (g : proc → regstate)
    (h : forkShares K (s.setProc s.current fun q => { q with regs := g q }) t c) :
    forkShares K s t c := by
  intro va h1 h2 h3 h4 h5
  have := h va h1 h2 h3
  simp only [KState.setProc, upd, if_true] at this
  exact this h4 h5

theorem forkCopies_setRegs (K : Config) (b : Nat) (s t : KState) (c : Nat) (g : proc → regstate)
    (h : forkCopies K b (s.setProc s.current fun q => { q with regs := g q }) t c) :
    forkCopies K b s t c := by
  intro va h1 h2 h3 h4 h5
  have := h va h1 h2 h3
  simp only [KState.setProc, upd, if_true, isFreeFrame] at this
  exact this h4 h5

/-- What a successful fork in a reachable state does. -/
theorem fork_reachable {K : Config} (hK : K.Geom) (E : BootEnv) (command : Option String)
    (hB : BootOK K E command) (s : KState) (hs : Reachable K E command s)
    (regs : regstate) (v : Nat) (t : KState)
    (hf : sys_fork K (s.setProc s.current fun p => { p with regs := regs }) = some (v, t))
    (hv : v ≠ UINTPTR_MAX) : forkShares K s t v ∧ forkCopies K K.MEMSIZE_VIRTUAL s t v := by
  have hg := (reachable_inv hK E command hB s hs).saveRegs hK (fun _ => regs)
  obtain ⟨role, hi⟩ := hg.1
  have := (sys_fork_spec hK hi hg.live v t hf).2.2.2.1 hv
  exact ⟨forkShares_setRegs K s t v _ this.1, forkCopies_setRegs K _ s t v _ this.2.1⟩

/-- For a boot that satisfies `BootOK`: in every state `s` reachable from it, when
`SYSCALL_FORK` (run, as `syscall` does, on the state with the saved registers)
succeeds with child `v` and final state `t`, then for every page below `MEMSIZE_VIRTUAL` other than the console
page that the parent maps present, user-accessible and not writable, the child maps
that page to the same frame with the same permission bits, and the sharers count of
the frame is one greater than before the fork. -/
theorem fork_shares_readonly_pages (K : Config) (hK : K.Geom) (E : BootEnv)
    (command : Option String) (hB : BootOK K E command) (s : KState)
    (hs : Reachable K E command s) (regs : regstate) (v : Nat) (t : KState)
    (hf : sys_fork K (s.setProc s.current fun p => { p with regs := regs }) = some (v, t))
    (hv : v ≠ UINTPTR_MAX) : forkShares K s t v :=
  (fork_reachable hK E command hB s hs regs v t hf hv).1

/-- The first fork of the small machine: process 1 forks the child 2, which shares
the read-only pages of process 1. -/
theorem fork_shares_readonly_pages_witness :
    Reachable toy toyEnv (some "fork") toyBoot ∧
    sys_fork toy (toyBoot.setProc toyBoot.current fun p => { p with regs := sysregs 5 0 }) =
      some (2, (syscall toy (sysregs 5 0) toyBoot).state zeroState) ∧
    forkShares toy toyBoot ((syscall toy (sysregs 5 0) toyBoot).state zeroState) 2 :=
  ⟨toyBoot_reachable, toy_fork_boot,
   fork_shares_readonly_pages toy toy_geom toyEnv (some "fork") toy_boot_ok toyBoot
     toyBoot_reachable (sysregs 5 0) 2 _ toy_fork_boot (by decide)⟩

/-- C5 (the code differs): on the small machine, in the reachable state after the
first fork, a second fork of process 1 fails for lack of memory and returns -1,
the chosen slot 3 is Free again, but the number of free frames has dropped from 6
to 5 and the sharers count of frame 11 has risen from 1 to 2. -/
theorem failed_fork_leaks :
    Reachable toy toyEnv (some "fork") toyForked ∧
    (syscall toy (sysregs 5 0) toyForked).value = some UINTPTR_MAX ∧
    (((syscall toy (sysregs 5 0) toyForked).state zeroState).ptable 3).state
      = procstate.P_FREE ∧
    freeCount toy toyForked = 6 ∧
    freeCount toy ((syscall toy (sysregs 5 0) toyForked).state zeroState) = 5 ∧
    (toyForked.pages 11).sharers = 1 ∧
    (((syscall toy (sysregs 5 0) toyForked).state zeroState).pages 11).sharers = 2 :=
  ⟨toyForked_reachable, toy_fork_fails.1, toy_fork_fails.2.2.2.2.2, toy_fork_fails.2.1,
   toy_fork_fails.2.2.1, toy_fork_fails.2.2.2.1, toy_fork_fails.2.2.2.2.1⟩

/-- C6 (the code differs): on the small machine, in the reachable state after the
first fork, the child 2 maps page 7 (below `MEMSIZE_VIRTUAL`) present and
user-accessible to frame 22, whose sharers count is 0; `proc_free(2)` returns, and
afterwards frame 22 is still owned: the walk of `proc_free` advances two pages per
iteration and never looks at page 7. -/
theorem proc_free_skips_exclusive_frame :
    Reachable toy toyEnv (some "fork") toyForked ∧
    7 * toy.PAGESIZE < toy.MEMSIZE_VIRTUAL ∧
    userMapsAt toy toyForked 2 7 22 ∧ (toyForked.pages 22).sharers = 0 ∧
    (proc_free toy 2 toyForked).isSome = true ∧
    (((proc_free toy 2 toyForked).getD zeroState).pages 22).owner ≠ 0 :=
  ⟨toyForked_reachable, by decide, toy_child_free.1, toy_child_free.2.1,
   toy_child_free.2.2.2.1, by rw [toy_child_free.2.2.2.2.1]; decide⟩

/-- C7 (the code differs): on the small machine, in the reachable state after the
first fork, the child 2 maps page 3 (below `MEMSIZE_VIRTUAL`) present and
user-accessible to frame 11, whose sharers count is 1; `proc_free(2)` returns, and
afterwards the sharers count of frame 11 is still 1: the walk of `proc_free` never
looks at page 3. -/
theorem proc_free_skips_shared_frame :
    Reachable toy toyEnv (some "fork") toyForked ∧
    3 * toy.PAGESIZE < toy.MEMSIZE_VIRTUAL ∧
    userMapsAt toy toyForked 2 3 11 ∧ (toyForked.pages 11).sharers = 1 ∧
    (proc_free toy 2 toyForked).isSome = true ∧
    (((proc_free toy 2 toyForked).getD zeroState).pages 11).sharers = 1 :=
  ⟨toyForked_reachable, by decide, toy_child_free.2.2.1, toy_fork_fails.2.2.2.1,
   toy_child_free.2.2.2.1, toy_child_free.2.2.2.2.2⟩

/-- C8 (the code differs): on the small machine, process 1 forks in the reachable
state `toyBoot`, with child 2; a timer interrupt hands the processor to the child,
which issues `Exit` at once.  The result is the state `toyForkExit`: it has 11 free
frames where `toyBoot` has 13, and frame 11 has sharers count 1 where it had 0. -/
theorem fork_exit_leaks :
    Reachable toy toyEnv (some "fork") toyBoot ∧
    (syscall toy (sysregs 5 0) toyBoot).value = some 2 ∧
    ((exception toy timerregs toyForked).state zeroState).current = 2 ∧
    Reachable toy toyEnv (some "fork") toyForkExit ∧
    freeCount toy toyBoot = 13 ∧ freeCount toy toyForkExit = 11 ∧
    (toyBoot.pages 11).sharers = 0 ∧ (toyForkExit.pages 11).sharers = 1 :=
  ⟨toyBoot_reachable, toy_first_fork.1, toy_first_fork.2.2.2,
   toyForkExit_reachable, toy_exit_counts.1, toy_exit_counts.2.1,
   toy_exit_counts.2.2.1, toy_exit_counts.2.2.2⟩

/-- For a boot that satisfies `BootOK`: in every state reachable from it, every free
frame has sharers count 0.
So have the frames on which `kfree` is called without a test of the count: frame 0
(`kfree(nullptr)` in a fork that cannot allocate the root table) and every
page-table page of a process that is not Free (the second loop and the last
statement of `proc_free`); the remaining call, in the first loop of `proc_free`, is
guarded by the test `sharers == 0`. -/
theorem reachable_free_unshared (K : Config) (hK : K.Geom) (E : BootEnv)
    (command : Option String) (hB : BootOK K E command) (s : KState)
    (hs : Reachable K E command s) :
    (∀ f, (s.pages f).owner = 0 → (s.pages f).sharers = 0) ∧
    (s.pages (0 / K.PAGESIZE)).sharers = 0 ∧
    ∀ p, (s.ptable p).state ≠ procstate.P_FREE →
      (s.pages ((s.ptable p).pagetable / K.PAGESIZE)).sharers = 0 ∧
      ∀ x ∈ pt_pages K s.mem 3 (s.ptable p).pagetable, (s.pages (x / K.PAGESIZE)).sharers = 0 := by
  obtain ⟨⟨role, hi⟩, _⟩ := reachable_inv hK E command hB s hs
  refine ⟨hi.free_unshared, ?_, fun p hl => ?_⟩
  · rw [Nat.zero_div, hi.na_clear 0 (frame_zero_na hK)]
  · have hsp := (hi.spaces p hl).2
    refine ⟨(hi.typed _ p [] hsp.root_role).2.2.2, fun x hx => ?_⟩
    obtain ⟨_, π, hr⟩ := pt_pages_typed hK hi.tables p 3 _ [] hsp.root_role hsp.root_al
      (by simp) x hx
    exact (hi.typed _ p _ hr).2.2.2

/-- The state of the small machine after the first fork: its free frames have
sharers count 0. -/
theorem reachable_free_unshared_witness :
    Reachable toy toyEnv (some "fork") toyForked ∧
    ((∀ f, (toyForked.pages f).owner = 0 → (toyForked.pages f).sharers = 0) ∧
    (toyForked.pages (0 / toy.PAGESIZE)).sharers = 0 ∧
    ∀ p, (toyForked.ptable p).state ≠ procstate.P_FREE →
      (toyForked.pages ((toyForked.ptable p).pagetable / toy.PAGESIZE)).sharers = 0 ∧
      ∀ x ∈ pt_pages toy toyForked.mem 3 (toyForked.ptable p).pagetable,
        (toyForked.pages (x / toy.PAGESIZE)).sharers = 0) :=
  ⟨toyForked_reachable,
   reachable_free_unshared toy toy_geom toyEnv (some "fork") toy_boot_ok toyForked
     toyForked_reachable⟩

end Claims

section Basics

variable {K : Config}

/-- The scan of `schedule` finds the first Runnable slot after `pid`, if there is
one among the next `n` slots. -/
theorem schedule_scan_first (s : KState) : ∀ (n pid : Nat),
    (∃ k, 1 ≤ k ∧ k ≤ n ∧ (s.ptable ((pid + k) % K.NPROC)).state = procstate.P_RUNNABLE) →
    ∃ k, 1 ≤ k ∧ k ≤ n ∧ schedule_scan K s n pid = some ((pid + k) % K.NPROC) ∧
      (s.ptable ((pid + k) % K.NPROC)).state = procstate.P_RUNNABLE ∧
      ∀ j, 1 ≤ j → j < k → (s.ptable ((pid + j) % K.NPROC)).state ≠ procstate.P_RUNNABLE := by
  intro n
  induction n with
  | zero =>
    rintro pid ⟨k, h1, h2, _⟩
    omega
  | succ n ih =>
    rintro pid ⟨k0, h1, h2, h3⟩
    simp only [schedule_scan]
    by_cases hr : (s.ptable ((pid + 1) % K.NPROC)).state = procstate.P_RUNNABLE
    · rw [if_pos hr]
      exact ⟨1, le_refl _, by omega, rfl, hr, fun j hj1 hj2 => by omega⟩
    · rw [if_neg hr]
      have hk0 : k0 ≠ 1 := fun hh => hr (hh ▸ h3)
      have hstep : ∀ j, ((pid + 1) % K.NPROC + j) % K.NPROC = (pid + (j + 1)) % K.NPROC := by
        intro j
        rw [Nat.mod_add_mod]
        congr 1
        omega
      obtain ⟨k, a1, a2, a3, a4, a5⟩ := ih ((pid + 1) % K.NPROC) ⟨k0 - 1, by omega, by omega, by
        rw [hstep]
        have : k0 - 1 + 1 = k0 := by omega
        rw [this]
        exact h3⟩
      rw [hstep] at a3 a4
      refine ⟨k + 1, by omega, by omega, a3, a4, fun j hj1 hj2 => ?_⟩
      by_cases hj : j = 1
      · rw [hj]
        exact hr
      · have := a5 (j - 1) (by omega) (by omega)
        rw [hstep] at this
        have e : j - 1 + 1 = j := by omega
        rw [e] at this
        exact this

/-- Every slot is reached from every pid in at most `NPROC` steps. -/
theorem slot_reached (p pid : Nat) (hp : p < K.NPROC) :
    ∃ k, 1 ≤ k ∧ k ≤ K.NPROC ∧ (pid + k) % K.NPROC = p := by
  have hr : pid % K.NPROC < K.NPROC := Nat.mod_lt _ (by omega)
  by_cases h : pid % K.NPROC < p
  · refine ⟨p - pid % K.NPROC, by omega, by omega, ?_⟩
    rw [← Nat.mod_add_mod]
    have : pid % K.NPROC + (p - pid % K.NPROC) = p := by omega
    rw [this]
    exact Nat.mod_eq_of_lt hp
  · refine ⟨p + K.NPROC - pid % K.NPROC, by omega, by omega, ?_⟩
    rw [← Nat.mod_add_mod]
    have : pid % K.NPROC + (p + K.NPROC - pid % K.NPROC) = p + K.NPROC := by omega
    rw [this, Nat.add_mod_right]
    exact Nat.mod_eq_of_lt hp

/-- The slot search of `fork` returns the first Free slot from `i` on, or 0. -/
theorem fork_find_least (s : KState) : ∀ (n i : Nat), 0 < i →
    (fork_find K s n i = 0 ∧ ∀ j, i ≤ j → j < i + n → (s.ptable j).state ≠ procstate.P_FREE) ∨
    (i ≤ fork_find K s n i ∧ fork_find K s n i < i + n ∧
      (s.ptable (fork_find K s n i)).state = procstate.P_FREE ∧
      ∀ j, i ≤ j → j < fork_find K s n i → (s.ptable j).state ≠ procstate.P_FREE) := by
  intro n
  induction n with
  | zero =>
    intro i _
    left
    exact ⟨rfl, fun j h1 h2 => by omega⟩
  | succ n ih =>
    intro i hi
    simp only [fork_find]
    split
    · rename_i hf
      right
      exact ⟨le_refl _, by omega, hf, fun j h1 h2 => by omega⟩
    · rename_i hf
      rcases ih (i + 1) (by omega) with ⟨h0, h1⟩ | ⟨h1, h2, h3, h4⟩
      · left
        refine ⟨h0, fun j hj1 hj2 => ?_⟩
        by_cases hj : j = i
        · rw [hj]
          exact hf
        · exact h1 j (by omega) (by omega)
      · right
        refine ⟨by omega, by omega, h3, fun j hj1 hj2 => ?_⟩
        by_cases hj : j = i
        · rw [hj]
          exact hf
        · exact h4 j (by omega) hj2

/-- C11: for every process table with a Runnable slot `p < NPROC` and every current
process, with pid `pid`, `schedule()` runs the process `(pid + k) mod NPROC` for the
smallest `k` in `1..NPROC` for which that slot is Runnable: it has examined the `k`
slots `(pid + 1) mod NPROC`, ..., `(pid + k) mod NPROC`, at most `NPROC`, and the
state is otherwise unchanged. -/
theorem schedule_runs_first_runnable (K : Config) (s : KState)
    (hr : ∃ p, p < K.NPROC ∧ (s.ptable p).state = procstate.P_RUNNABLE) :
    ∃ k, 1 ≤ k ∧ k ≤ K.NPROC ∧
      schedule K s =
        Outcome.resumed { s with current := ((s.ptable s.current).pid + k) % K.NPROC } ∧
      (s.ptable (((s.ptable s.current).pid + k) % K.NPROC)).state = procstate.P_RUNNABLE ∧
      ∀ j, 1 ≤ j → j < k →
        (s.ptable (((s.ptable s.current).pid + j) % K.NPROC)).state ≠ procstate.P_RUNNABLE := by
  obtain ⟨p, hp, hrun⟩ := hr
  obtain ⟨k0, b1, b2, b3⟩ := slot_reached (K := K) p (s.ptable s.current).pid hp
  obtain ⟨k, a1, a2, a3, a4, a5⟩ := schedule_scan_first (K := K) s K.NPROC
    (s.ptable s.current).pid ⟨k0, b1, b2, by rw [b3]; exact hrun⟩
  refine ⟨k, a1, a2, ?_, a4, a5⟩
  unfold schedule
  rw [a3]

/-- In the state `oneRunnable` of the handout machine (current process 0, only
process 2 Runnable) `schedule()` runs a process. -/
theorem schedule_runs_first_runnable_witness :
    ∃ k, 1 ≤ k ∧ k ≤ weensy.NPROC ∧
      schedule weensy oneRunnable =
        Outcome.resumed
          { oneRunnable with
            current := ((oneRunnable.ptable oneRunnable.current).pid + k) % weensy.NPROC } ∧
      (oneRunnable.ptable
        (((oneRunnable.ptable oneRunnable.current).pid + k) % weensy.NPROC)).state
          = procstate.P_RUNNABLE ∧
      ∀ j, 1 ≤ j → j < k →
        (oneRunnable.ptable
          (((oneRunnable.ptable oneRunnable.current).pid + j) % weensy.NPROC)).state
            ≠ procstate.P_RUNNABLE :=
  schedule_runs_first_runnable weensy oneRunnable ⟨2, by decide, by decide⟩

/-- C12: for every state `s` and every saved register set whose target address
`reg_rdi` is at most `PROC_START_ADDR`, `SYSCALL_PAGE_ALLOC` (run, as `syscall`
does, on the state with the saved registers) returns -1 and leaves the state as it
is: `pages[]`, memory, the allocation cursor and the page table and state of every
process are those of `s`. -/
theorem page_alloc_low_fails (K : Config) (s : KState) (regs : regstate)
    (h : regs.reg_rdi ≤ K.PROC_START_ADDR) :
    sys_page_alloc K (s.setProc s.current fun p => { p with regs := regs }) =
      some (UINTPTR_MAX, s.setProc s.current fun p => { p with regs := regs }) ∧
    (s.setProc s.current fun p => { p with regs := regs }).pages = s.pages ∧
    (s.setProc s.current fun p => { p with regs := regs }).mem = s.mem ∧
    (s.setProc s.current fun p => { p with regs := regs }).next_alloc_pa = s.next_alloc_pa ∧
    ∀ q, ((s.setProc s.current fun p => { p with regs := regs }).ptable q).pagetable
        = (s.ptable q).pagetable ∧
      ((s.setProc s.current fun p => { p with regs := regs }).ptable q).state
        = (s.ptable q).state := by
  refine ⟨?_, rfl, rfl, rfl, fun q => ?_⟩
  · unfold sys_page_alloc
    have : ¬ (((s.setProc s.current fun p => { p with regs := regs }).ptable
        (s.setProc s.current fun p => { p with regs := regs }).current).regs.reg_rdi
          > K.PROC_START_ADDR) := by
      simp only [KState.setProc, upd, if_true]
      omega
    simp only [if_neg this]
  · by_cases hq : q = s.current
    · subst hq
      simp [KState.setProc, upd]
    · simp [KState.setProc, upd, hq]

/-- On the handout machine `PageAlloc(0x100000)` of the all-free state fails. -/
theorem page_alloc_low_fails_witness :
    (sysregs 4 0x100000).reg_rdi ≤ weensy.PROC_START_ADDR ∧
    sys_page_alloc weensy
        (zeroState.setProc zeroState.current fun p => { p with regs := sysregs 4 0x100000 }) =
      some (UINTPTR_MAX,
        zeroState.setProc zeroState.current fun p => { p with regs := sysregs 4 0x100000 }) :=
  ⟨by decide, (page_alloc_low_fails weensy zeroState (sysregs 4 0x100000) (by decide)).1⟩

/-- C19: `kfree(ptr)` fails an assertion exactly when `ptr` is not page-aligned, or
is not null and not allocatable.  For a page-aligned allocatable `ptr` it returns;
afterwards the frame of `ptr` is free with its sharers count as before, its
`PAGESIZE` bytes are zero, and every other entry of `pages[]`, every other byte of
memory, the allocation cursor and the process table are unchanged. -/
theorem kfree_frees_frame (K : Config) (ptr : Nat) (s : KState) :
    (kfree K ptr s = none ↔
      (ptr % K.PAGESIZE ≠ 0 ∨ (ptr ≠ 0 ∧ K.allocatable_physical_address ptr = false))) ∧
    (ptr % K.PAGESIZE = 0 → K.allocatable_physical_address ptr = true →
      ∃ t, kfree K ptr s = some t ∧
        (t.pages (ptr / K.PAGESIZE)).owner = 0 ∧
        (t.pages (ptr / K.PAGESIZE)).sharers = (s.pages (ptr / K.PAGESIZE)).sharers ∧
        (∀ i, i < K.PAGESIZE → t.mem (ptr + i) = 0) ∧
        (∀ g, g ≠ ptr / K.PAGESIZE → t.pages g = s.pages g) ∧
        (∀ a, a < ptr ∨ ptr + K.PAGESIZE ≤ a → t.mem a = s.mem a) ∧
        t.next_alloc_pa = s.next_alloc_pa ∧ t.ptable = s.ptable ∧ t.current = s.current) := by
  constructor
  · unfold kfree
    constructor
    · intro h
      by_contra hn
      simp only [not_or, not_and, ne_eq, not_not] at hn
      rw [if_neg (by simpa using hn.1), if_neg (by
        intro hh
        exact absurd hh.2 (by simpa using hn.2 hh.1))] at h
      exact absurd h (by simp)
    · rintro (h | h)
      · rw [if_pos h]
      · by_cases h1 : ptr % K.PAGESIZE ≠ 0
        · rw [if_pos h1]
        · rw [if_neg h1, if_pos h]
  · intro hal ha
    refine ⟨_, kfree_some s ptr hal ha, ?_, ?_, ?_, ?_, ?_, rfl, rfl, rfl⟩
    · simp [upd]
    · simp [upd]
    · intro i hi
      simp only [memset]
      rw [if_pos ⟨by omega, by omega⟩]
    · intro g hg
      simp only [upd, if_neg hg]
    · intro a ha2
      simp only [memset]
      rw [if_neg (by omega)]

/-- On the handout machine `kfree(0x1000)` returns and frees frame 1. -/
theorem kfree_frees_frame_witness :
    ∃ t, kfree weensy 4096 zeroState = some t ∧
        (t.pages (4096 / weensy.PAGESIZE)).owner = 0 ∧
        (t.pages (4096 / weensy.PAGESIZE)).sharers
          = (zeroState.pages (4096 / weensy.PAGESIZE)).sharers ∧
        (∀ i, i < weensy.PAGESIZE → t.mem (4096 + i) = 0) ∧
        (∀ g, g ≠ 4096 / weensy.PAGESIZE → t.pages g = zeroState.pages g) ∧
        (∀ a, a < 4096 ∨ 4096 + weensy.PAGESIZE ≤ a → t.mem a = zeroState.mem a) ∧
        t.next_alloc_pa = zeroState.next_alloc_pa ∧ t.ptable = zeroState.ptable ∧
        t.current = zeroState.current :=
  (kfree_frees_frame weensy 4096 zeroState).2 (by decide) (by decide)

/-- C20 (the code differs): `kfree(nullptr)` passes both assertions and then clears
the `PAGESIZE` bytes at address 0 and stores `pages[0].owner = 0`.  In the state
`nullDirty` of the handout machine, whose byte at address 0 is 1, the state after
`kfree(nullptr)` has the byte 0 there: it is not the state before. -/
theorem kfree_null_clears_page_zero :
    ∃ t, kfree weensy 0 nullDirty = some t ∧ nullDirty.mem 0 = 1 ∧ t.mem 0 = 0 ∧
      t ≠ nullDirty := by
  refine ⟨_, kfree_null (K := weensy) nullDirty, rfl, rfl, fun h => ?_⟩
  have h1 := congrArg (fun x => x.mem 0) h
  revert h1
  decide

end Basics

section PageAllocSpec

variable {K : Config}

/-- With `n` free frames there is a list of `n` distinct free frames. -/
theorem free_list (K : Config) (s : KState) (n : Nat) (h : n ≤ freeCount K s) :
    ∃ L : List Nat, L.Nodup ∧ n ≤ L.length ∧ ∀ g ∈ L, isFreeFrame K s g := by
  refine ⟨(List.range K.NPAGES).filter (fun f => decide (isFreeFrame K s f)),
    (List.nodup_range _).filter _, ?_, fun g hg => ?_⟩
  · rw [← List.countP_eq_length_filter]
    exact h
  · simpa using (List.mem_filter.1 hg).2

/-- After an allocation the other free frames are still free. -/
theorem free_list_alloc (hK : K.WF) (s : KState) (f n : Nat) (m : Nat → Nat)
    (h : ∃ L : List Nat, L.Nodup ∧ n + 1 ≤ L.length ∧ ∀ g ∈ L, isFreeFrame K s g) :
    ∃ L : List Nat, L.Nodup ∧ n ≤ L.length ∧
      ∀ g ∈ L, isFreeFrame K { (kalloc_at K s (f * K.PAGESIZE)) with mem := m } g := by
  obtain ⟨L, h1, h2, h3⟩ := h
  refine ⟨L.erase f, h1.erase f, ?_, fun g hg => ?_⟩
  · by_cases hf : f ∈ L
    · rw [List.length_erase_of_mem hf]
      omega
    · rw [List.erase_of_not_mem hf]
      omega
  · have hg2 := (h1.mem_erase_iff).1 hg
    have := h3 g hg2.2
    refine ⟨this.1, ?_⟩
    show ((kalloc_at K s (f * K.PAGESIZE)).pages g).owner = 0
    simp only [kalloc_at, upd, frame_mul hK.page_pos, if_neg hg2.1]
    exact this.2

end PageAllocSpec

section ForkRest

set_option maxRecDepth 1000000

/-- C14 (the code differs): on the small machine, in the reachable state `toyTall`
two frames are free.  `PageAlloc(512)` of the running process 1 needs a frame for
the page and two new page-table pages: `kalloc` returns the frame, `vmiter::map`
fails for lack of the second table page, and the assertion `r == 0` halts the
machine; the system call returns nothing. -/
theorem page_alloc_halts_without_table_frame :
    Reachable toy toyEnv (some "fork") toyTall ∧ freeCount toy toyTall = 2 ∧
    toy.PROC_START_ADDR < (sysregs 4 512).reg_rdi ∧
    (kalloc toy toy.PAGESIZE toyTall).1 ≠ 0 ∧
    (syscall toy (sysregs 4 512) toyTall).value = none ∧
    (exception toy (sysregs 4 512) toyTall).isHalted = true :=
  ⟨toyTall_reachable, toy_tall.1, by decide, toy_tall.2.2.1,
   syscall_none_of_halted toy _ _ rfl toy_tall.2.2.2, toy_tall.2.2.2⟩

/-- For a boot that satisfies `BootOK`, with the value that line 169 reads outside
`pages[]` left unused as in `proc_free_walk`: in every state `s` reachable from the
boot and for every process `pid` that is not Free, `proc_free(pid)` returns;
afterwards the process is Free and
the root and every intermediate page of its page-table tree are free frames; every
frame that is no page of this tree and that the process does not map
user-accessibly (console page excluded), in particular the console frame, has the
owner and the sharers count it had before. -/
theorem proc_free_frees_tables (K : Config) (hK : K.Geom) (E : BootEnv)
    (command : Option String) (hB : BootOK K E command) (s : KState)
    (hs : Reachable K E command s) (pid : Nat)
    (hl : (s.ptable pid).state ≠ procstate.P_FREE) :
    ∃ t, proc_free K pid s = some t ∧ procFreeTables K s t pid ∧ procFreeKeeps K s t pid := by
  have hP := hK.page_pos
  obtain ⟨⟨role, hi⟩, _⟩ := reachable_inv hK E command hB s hs
  obtain ⟨t, e, hf⟩ := proc_free_result hK hi pid hl
  have hsX := (hi.spaces pid hl).2
  have hkeep : ∀ g, g * K.PAGESIZE ≠ (s.ptable pid).pagetable →
      g * K.PAGESIZE ∉ pt_pages K s.mem 3 (s.ptable pid).pagetable →
      ¬ userMaps K s pid g → t.pages g = s.pages g := by
    intro g h1 h2 h3
    apply hf.pages_kept g _ h1 h2
    intro hm
    apply h3
    rw [userMaps_iff hK]
    exact ⟨hl, hm⟩
  refine ⟨t, e, ⟨?_, hf.tables_freed _ (Or.inl rfl), fun x hx => hf.tables_freed x (Or.inr hx)⟩,
    hkeep, ?_⟩
  · rw [hf.ptable_eq]
    simp only [upd, if_true]
  · have hna : K.allocatable_physical_address (K.console / K.PAGESIZE * K.PAGESIZE) = false := by
      rw [aligned_eq _ hK.console_al]
      exact hK.console_na
    apply hkeep
    · intro hh
      have := (hi.typed _ pid [] hsX.root_role).2.1
      rw [aligned_eq _ hsX.root_al, ← hh, hna] at this
      exact absurd this (by simp)
    · intro hh
      obtain ⟨_, π, hr⟩ := pt_pages_typed hK hi.tables pid 3 _ [] hsX.root_role hsX.root_al
        (by simp) _ hh
      have := (hi.typed _ pid _ hr).2.1
      rw [frame_mul hP, hna] at this
      exact absurd this (by simp)
    · intro hh
      rw [userMaps_iff hK] at hh
      obtain ⟨_, va, hu, hnc, he⟩ := hh
      have := (hsX.user_owned va hu hnc).1
      unfold pte_pa at this
      rw [he, hna] at this
      exact absurd this (by simp)

/-- In the state of the small machine after the first fork, `proc_free(2)` frees the
page-table pages of the child. -/
theorem proc_free_frees_tables_witness :
    Reachable toy toyEnv (some "fork") toyForked ∧
    (toyForked.ptable 2).state ≠ procstate.P_FREE ∧
    ∃ t, proc_free toy 2 toyForked = some t ∧ procFreeTables toy toyForked t 2 ∧
      procFreeKeeps toy toyForked t 2 :=
  ⟨toyForked_reachable, toy_child_state,
   proc_free_frees_tables toy toy_geom toyEnv (some "fork") toy_boot_ok toyForked
     toyForked_reachable 2 toy_child_state⟩

end ForkRest

section KernelRegion

set_option maxRecDepth 1000000

theorem toyK_geom : toyK.Geom :=
  { wf :=
      { page_pos := by decide
        phys_pages := ⟨22, by decide⟩
        phys_pos := by decide
        alloc_lt := fun pa h => by
          simp only [toyK, Bool.and_eq_true, Bool.or_eq_true, decide_eq_true_eq] at h
          show pa < 704
          omega
        alloc_pos := fun pa h => by
          simp only [toyK, Bool.and_eq_true, Bool.or_eq_true, decide_eq_true_eq] at h
          show 32 ≤ pa
          omega }
    ent := ⟨4, by decide⟩
    phys64 := by decide
    virt_half := by decide
    span64 := ⟨2 ^ 51, by decide⟩
    console_low := by decide
    console_al := by decide
    start_al := by decide
    start_half := by decide
    console_na := by decide }

theorem toyK_tables : TablesOK toyK toyKHw.mem toyKRolek := by
  intro t p path hr
  unfold toyKRolek at hr
  have hN : toyK.NENT = 4 := by decide
  split at hr
  · rename_i h
    subst h
    simp only [Option.some.injEq, Prod.mk.injEq] at hr
    obtain ⟨rfl, rfl⟩ := hr
    refine ⟨by decide, fun i hi _ hp => ?_⟩
    rw [hN] at hi
    interval_cases i
    · decide!
    · exact absurd hp (by decide!)
    · exact absurd hp (by decide!)
    · exact absurd hp (by decide!)
  split at hr
  · rename_i h
    subst h
    simp only [Option.some.injEq, Prod.mk.injEq] at hr
    obtain ⟨rfl, rfl⟩ := hr
    refine ⟨by decide, fun i hi _ hp => ?_⟩
    rw [hN] at hi
    interval_cases i
    · decide!
    · exact absurd hp (by decide!)
    · exact absurd hp (by decide!)
    · exact absurd hp (by decide!)
  split at hr
  · rename_i h
    subst h
    simp only [Option.some.injEq, Prod.mk.injEq] at hr
    obtain ⟨rfl, rfl⟩ := hr
    refine ⟨by decide, fun i hi _ hp => ?_⟩
    rw [hN] at hi
    interval_cases i
    · decide!
    · decide!
    · decide!
    · exact absurd hp (by decide!)
  split at hr
  · simp only [Option.some.injEq, Prod.mk.injEq] at hr
    obtain ⟨rfl, rfl⟩ := hr
    exact ⟨by decide, fun i _ hl _ => absurd hl (by decide)⟩
  split at hr
  · simp only [Option.some.injEq, Prod.mk.injEq] at hr
    obtain ⟨rfl, rfl⟩ := hr
    exact ⟨by decide, fun i _ hl _ => absurd hl (by decide)⟩
  split at hr
  · simp only [Option.some.injEq, Prod.mk.injEq] at hr
    obtain ⟨rfl, rfl⟩ := hr
    exact ⟨by decide, fun i _ hl _ => absurd hl (by decide)⟩
  · exact absurd hr (by simp)

/-- The boot environment of `toyK` meets the assumptions on `init_hardware` and the
loader. -/
theorem toyK_boot_ok : BootOK toyK toyKEnv (some "fork") :=
  { virt_al := by decide
    virt_stack := by decide
    nproc := by
      rw [if_pos (Or.inl rfl)]
      decide
    pages_clear := fun _ => rfl
    cursor := by decide
    procs_free := fun _ _ => rfl
    ktree := by
      refine ⟨toyKRolek, toyK_tables, by decide, fun t ht => ?_⟩
      unfold toyKRolek at ht
      have : t = 11 ∨ t = 12 ∨ t = 13 ∨ t = 14 ∨ t = 15 ∨ t = 16 := by
        by_contra hh
        simp only [not_or] at hh
        apply ht
        rw [if_neg hh.1, if_neg hh.2.1, if_neg hh.2.2.1, if_neg hh.2.2.2.1,
          if_neg hh.2.2.2.2.1, if_neg hh.2.2.2.2.2]
      rcases this with h | h | h | h | h | h <;> subst h <;> decide
    kpt_al := by decide
    kmapped := fun va h1 h2 => by
      have h3 : toyK.PAGESIZE = 32 := rfl
      have h4 : toyK.PROC_START_ADDR = 352 := rfl
      rw [h3] at h1
      rw [h4] at h2
      have : va = 0 ∨ va = 32 ∨ va = 64 ∨ va = 96 ∨ va = 128 ∨ va = 160 ∨ va = 192 ∨
          va = 224 ∨ va = 256 ∨ va = 288 ∨ va = 320 := by omega
      rcases this with h | h | h | h | h | h | h | h | h | h | h <;> subst h <;> decide!
    console_frame := fun _ => by decide!
    segments := fun n g hg => by
      have : g ∈ toyKProg.segments := hg
      simp [toyKProg] at this
    fits := fun s _ => by
      rw [if_pos rfl]
      intro t _ g hg
      have : g ∈ toyKProg.segments := hg
      simp [toyKProg] at this }

end KernelRegion

section Allocator

variable {K : Config}

/-- The result of `kalloc` as far as `pages[]` is concerned, for any cursor. -/
theorem kalloc_loop_pages (hK : K.WF) : ∀ (n : Nat) (s : KState),
    ((kalloc_loop K n s).1 = 0 ∧ (kalloc_loop K n s).2.pages = s.pages) ∨
    ((kalloc_loop K n s).1 ≠ 0 ∧ K.allocatable_physical_address (kalloc_loop K n s).1 = true ∧
      (s.pages ((kalloc_loop K n s).1 / K.PAGESIZE)).owner = 0 ∧
      (kalloc_loop K n s).2.pages =
        upd s.pages ((kalloc_loop K n s).1 / K.PAGESIZE) { owner := -1, sharers := 0 }) := by
  intro n
  induction n with
  | zero => intro s; left; exact ⟨rfl, rfl⟩
  | succ n ih =>
    intro s
    simp only [kalloc_loop]
    split
    · rename_i h
      right
      have := hK.alloc_pos _ h.1
      have := hK.page_pos
      exact ⟨by omega, h.1, h.2, rfl⟩
    · exact ih _

theorem kalloc_pages (hK : K.WF) (sz : Nat) (s : KState) :
    ((kalloc K sz s).1 = 0 ∧ (kalloc K sz s).2.pages = s.pages) ∨
    ((kalloc K sz s).1 ≠ 0 ∧ K.allocatable_physical_address (kalloc K sz s).1 = true ∧
      (s.pages ((kalloc K sz s).1 / K.PAGESIZE)).owner = 0 ∧
      (kalloc K sz s).2.pages =
        upd s.pages ((kalloc K sz s).1 / K.PAGESIZE) { owner := -1, sharers := 0 }) := by
  unfold kalloc
  split
  · left; exact ⟨rfl, rfl⟩
  · exact kalloc_loop_pages hK _ s

/-- The shape of a `kfree` that returns. -/
theorem kfree_shape {ptr : Nat} {s t : KState} (h : kfree K ptr s = some t) :
    ptr % K.PAGESIZE = 0 ∧ (ptr = 0 ∨ K.allocatable_physical_address ptr = true) ∧
    t = { s with
          mem := memset s.mem ptr 0 K.PAGESIZE
          pages := upd s.pages (ptr / K.PAGESIZE)
                      { (s.pages (ptr / K.PAGESIZE)) with owner := 0 } } := by
  unfold kfree at h
  split at h
  · exact absurd h (by simp)
  · rename_i h1
    split at h
    · exact absurd h (by simp)
    · rename_i h2
      simp only [Option.some.injEq] at h
      refine ⟨by simpa using h1, ?_, h.symm⟩
      by_cases h0 : ptr = 0
      · exact Or.inl h0
      · right
        cases ha : K.allocatable_physical_address ptr
        · exact absurd ⟨h0, ha⟩ h2
        · rfl

/-- Counting a predicate that became true at one index. -/
theorem countP_range_flip : ∀ (N f : Nat) (p q : Nat → Bool), f < N →
    (∀ g, g ≠ f → q g = p g) → p f = false → q f = true →
    (List.range N).countP q = (List.range N).countP p + 1 := by
  intro N
  induction N with
  | zero => intro f p q hf; omega
  | succ N ih =>
    intro f p q hf h hp hq
    rw [List.range_succ, List.countP_append, List.countP_append]
    by_cases hfN : f = N
    · subst hfN
      have e : (List.range f).countP q = (List.range f).countP p := by
        apply List.countP_congr
        intro x hx
        have : x ≠ f := Nat.ne_of_lt (List.mem_range.1 hx)
        rw [h x this]
      rw [e]
      simp [List.countP_cons, hp, hq]
    · have := ih f p q (by omega) h hp hq
      rw [this]
      have e : q N = p N := h N (fun hh => hfN hh.symm)
      simp [List.countP_cons, e]
      omega

theorem countP_range_same (N : Nat) (p q : Nat → Bool) (h : ∀ g, q g = p g) :
    (List.range N).countP q = (List.range N).countP p := by
  apply List.countP_congr
  intro x _
  rw [h x]

/-- A frame that is allocatable or is frame 0 is a frame of `pages[]`. -/
theorem frame_lt_npages (hK : K.WF) (ptr : Nat)
    (h : ptr = 0 ∨ K.allocatable_physical_address ptr = true) : ptr / K.PAGESIZE < K.NPAGES := by
  rcases h with h | h
  · rw [h, Nat.zero_div]
    exact hK.npages_pos
  · have := hK.alloc_lt _ h
    rw [hK.phys_eq] at this
    exact (Nat.div_lt_iff_lt_mul hK.page_pos).2 this

theorem usedCount_alloc (hK : K.WF) (sz : Nat) (s : KState) :
    usedCount K (kalloc K sz s).2 =
      usedCount K s + (if (kalloc K sz s).1 = 0 then 0 else 1) := by
  unfold usedCount
  rcases kalloc_pages hK sz s with ⟨h0, h1⟩ | ⟨h0, h1, h2, h3⟩
  · rw [if_pos h0, h1]
    rfl
  · rw [if_neg h0, h3]
    apply countP_range_flip _ ((kalloc K sz s).1 / K.PAGESIZE)
    · exact frame_lt_npages hK _ (Or.inr h1)
    · intro g hg
      simp only [upd, if_neg hg]
    · simp only [h2]
      decide
    · simp only [upd, if_true]
      decide

theorem usedCount_free (hK : K.WF) {ptr : Nat} {s t : KState} (h : kfree K ptr s = some t) :
    usedCount K t + (if (s.pages (ptr / K.PAGESIZE)).owner ≠ 0 then 1 else 0) = usedCount K s := by
  obtain ⟨_, ha, ht⟩ := kfree_shape h
  have hpg : t.pages = upd s.pages (ptr / K.PAGESIZE)
      { (s.pages (ptr / K.PAGESIZE)) with owner := 0 } := by rw [ht]
  unfold usedCount
  rw [hpg]
  by_cases ho : (s.pages (ptr / K.PAGESIZE)).owner ≠ 0
  · rw [if_pos ho]
    symm
    apply countP_range_flip _ (ptr / K.PAGESIZE)
    · exact frame_lt_npages hK _ ha
    · intro g hg
      simp only [upd, if_neg hg]
    · simp only [upd, if_true]
      decide
    · simpa using ho
  · rw [if_neg ho, Nat.add_zero]
    apply countP_range_same
    intro g
    by_cases hg : g = ptr / K.PAGESIZE
    · subst hg
      simp only [upd, if_true]
      simp only [ne_eq, not_not] at ho
      simp [ho]
    · simp only [upd, if_neg hg]

/-- A free frame stays free until `kalloc` returns it; so every `kalloc` that
reports exhaustion comes after the `kalloc` that returned the frame. -/
theorem reuse_before_exhaustion (hK : K.WF) (f : Nat) : ∀ (ops : List AllocOp) (s : KState)
    (evs : List AllocEv) (t : KState), cursorOK K s → isFreeFrame K s f →
    (∀ sz, AllocOp.alloc sz ∈ ops → sz ≤ K.PAGESIZE) → runOps K ops s = some (evs, t) →
    ∀ pre post, evs = pre ++ AllocEv.nothing :: post → AllocEv.got (f * K.PAGESIZE) ∈ pre := by
  intro ops
  induction ops with
  | nil =>
    intro s evs t _ _ _ h pre post he
    simp only [runOps, Option.some.injEq, Prod.mk.injEq] at h
    rw [← h.1] at he
    exact absurd he (by simp)
  | cons op ops ih =>
    intro s evs t hc hfree hsz h pre post he
    cases op with
    | alloc sz =>
      simp only [runOps] at h
      cases hr : runOps K ops (kalloc K sz s).2 with
      | none => rw [hr] at h; exact absurd h (by simp)
      | some x =>
        rw [hr] at h
        simp only [Option.some.injEq, Prod.mk.injEq] at h
        obtain ⟨k, _, hf, _, hke⟩ := kalloc_found K hK s sz
          (hsz sz (List.mem_cons_self _ _)) hc ⟨f, hfree⟩
        have hne : (kalloc K sz s).1 ≠ 0 := by
          rw [hke]
          have := hK.alloc_pos _ hf.1
          have := hK.page_pos
          show cursorFrame K s k * K.PAGESIZE ≠ 0
          omega
        rw [if_neg hne] at h
        cases pre with
        | nil =>
          rw [← h.1] at he
          simp at he
        | cons a pre1 =>
          rw [← h.1] at he
          simp only [List.cons_append, List.cons.injEq] at he
          by_cases hcf : cursorFrame K s k = f
          · rw [← he.1, hke, hcf]
            exact List.mem_cons_self _ _
          · apply List.mem_cons_of_mem
            have hc2 := kalloc_cursorOK hK s sz hc
            have hfree2 : isFreeFrame K (kalloc K sz s).2 f := by
              rw [hke]
              refine ⟨hfree.1, ?_⟩
              show ((kalloc_at K s (cursorFrame K s k * K.PAGESIZE)).pages f).owner = 0
              simp only [kalloc_at, upd, Nat.mul_div_cancel _ hK.page_pos]
              rw [if_neg (fun hh : f = cursorFrame K s k => hcf hh.symm)]
              exact hfree.2
            exact ih _ x.1 x.2 hc2 hfree2
              (fun sz1 h1 => hsz sz1 (List.mem_cons_of_mem _ h1)) hr pre1 post he.2
    | free ptr =>
      simp only [runOps] at h
      cases hk : kfree K ptr s with
      | none => rw [hk] at h; exact absurd h (by simp)
      | some t1 =>
        rw [hk] at h
        simp only at h
        cases hr : runOps K ops t1 with
        | none => rw [hr] at h; exact absurd h (by simp)
        | some x =>
          rw [hr] at h
          simp only [Option.some.injEq, Prod.mk.injEq] at h
          obtain ⟨_, _, ht1⟩ := kfree_shape hk
          cases pre with
          | nil =>
            rw [← h.1] at he
            simp at he
          | cons a pre1 =>
            rw [← h.1] at he
            simp only [List.cons_append, List.cons.injEq] at he
            apply List.mem_cons_of_mem
            have hc2 : cursorOK K t1 := by rw [ht1]; exact hc
            have hfree2 : isFreeFrame K t1 f := by
              rw [ht1]
              refine ⟨hfree.1, ?_⟩
              show (upd s.pages _ _ f).owner = 0
              by_cases hh : f = ptr / K.PAGESIZE
              · simp only [upd, if_pos hh]
              · simp only [upd, if_neg hh]
                exact hfree.2
            exact ih _ x.1 x.2 hc2 hfree2
              (fun sz1 h1 => hsz sz1 (List.mem_cons_of_mem _ h1)) hr pre1 post he.2

/-- C21: for every state, `kalloc(sz)` with `sz > PAGESIZE` returns `nullptr` and
leaves the whole state (every entry of `pages[]`, memory, the cursor) as it is; and
`kalloc(sz)` with `sz <= PAGESIZE`, also with `sz = 0`, returns the same pointer and
the same state as `kalloc(PAGESIZE)`, and it allocates one whole page: whenever the
cursor is a page address inside physical memory and some allocatable frame is free,
it returns the address, not `nullptr`, of a frame `f` that was free, which then has
`owner = -1` and `sharers = 0` and holds `PAGESIZE` zero bytes, while the entry in
`pages[]` of every other frame and the memory outside the frame are as before. -/
theorem kalloc_size (K : Config) (hK : K.WF) (s : KState) :
    (∀ sz, K.PAGESIZE < sz → kalloc K sz s = (0, s)) ∧
    (∀ sz, sz ≤ K.PAGESIZE → kalloc K sz s = kalloc K K.PAGESIZE s) ∧
    (∀ sz, sz ≤ K.PAGESIZE → cursorOK K s → (∃ g, isFreeFrame K s g) →
      ∃ f, isFreeFrame K s f ∧ (kalloc K sz s).1 = f * K.PAGESIZE ∧
        (kalloc K sz s).1 ≠ 0 ∧
        (kalloc K sz s).2.pages f = { owner := -1, sharers := 0 } ∧
        (∀ a, f * K.PAGESIZE ≤ a → a < f * K.PAGESIZE + K.PAGESIZE →
          (kalloc K sz s).2.mem a = 0) ∧
        (∀ g, g ≠ f → (kalloc K sz s).2.pages g = s.pages g) ∧
        (∀ a, ¬ (f * K.PAGESIZE ≤ a ∧ a < f * K.PAGESIZE + K.PAGESIZE) →
          (kalloc K sz s).2.mem a = s.mem a)) := by
  refine ⟨?_, ?_, ?_⟩
  · intro sz h
    unfold kalloc
    rw [if_pos h]
  · intro sz h
    unfold kalloc
    rw [if_neg (by omega), if_neg (by omega)]
  · intro sz hsz hc hfree
    obtain ⟨k, _, hfr, _, hrun⟩ := kalloc_found K hK s sz hsz hc hfree
    have hdiv : ∀ x, x * K.PAGESIZE / K.PAGESIZE = x :=
      fun x => Nat.mul_div_cancel x hK.page_pos
    refine ⟨cursorFrame K s k, hfr, by rw [hrun], ?_, ?_⟩
    · rw [hrun]
      have := hK.alloc_pos _ hfr.1
      have := hK.page_pos
      show cursorFrame K s k * K.PAGESIZE ≠ 0
      omega
    · simp only [hrun, kalloc_at, hdiv, upd, memset, if_true]
      refine ⟨trivial, ?_, ?_, ?_⟩
      · intro a h1 h2
        rw [if_pos ⟨h1, h2⟩]
      · intro g hg
        rw [if_neg hg]
      · intro a ha
        rw [if_neg ha]

/-- On the handout machine, from the cleared state: `kalloc(4097)` fails without
effect, `kalloc(0)` is `kalloc(4096)`, and `kalloc(0)` returns the frame at `0x1000`,
the first allocatable frame, marked as owned. -/
theorem kalloc_size_witness :
    kalloc weensy 4097 zeroState = (0, zeroState) ∧
    kalloc weensy 0 zeroState = kalloc weensy weensy.PAGESIZE zeroState ∧
    (kalloc weensy 0 zeroState).1 = 4096 ∧
    (kalloc weensy 0 zeroState).2.pages 1 = { owner := -1, sharers := 0 } ∧
    (0 ≤ weensy.PAGESIZE ∧ cursorOK weensy zeroState ∧ isFreeFrame weensy zeroState 1 ∧
      ∃ f, isFreeFrame weensy zeroState f ∧
        (kalloc weensy 0 zeroState).1 = f * weensy.PAGESIZE ∧
        (kalloc weensy 0 zeroState).1 ≠ 0 ∧
        (kalloc weensy 0 zeroState).2.pages f = { owner := -1, sharers := 0 } ∧
        (∀ a, f * weensy.PAGESIZE ≤ a → a < f * weensy.PAGESIZE + weensy.PAGESIZE →
          (kalloc weensy 0 zeroState).2.mem a = 0) ∧
        (∀ g, g ≠ f → (kalloc weensy 0 zeroState).2.pages g = zeroState.pages g) ∧
        (∀ a, ¬ (f * weensy.PAGESIZE ≤ a ∧ a < f * weensy.PAGESIZE + weensy.PAGESIZE) →
          (kalloc weensy 0 zeroState).2.mem a = zeroState.mem a)) :=
  ⟨(kalloc_size weensy weensy_WF zeroState).1 4097 (by decide),
   (kalloc_size weensy weensy_WF zeroState).2.1 0 (by decide),
   by decide, by decide,
   by decide, by decide, by decide,
   (kalloc_size weensy weensy_WF zeroState).2.2 0 (by decide) (by decide) ⟨1, by decide⟩⟩

/-- C22: for every state whose cursor is a page-aligned address below
`MEMSIZE_PHYSICAL` and every `sz <= PAGESIZE`, `kalloc(sz)` returns `nullptr` if and
only if no allocatable frame is free.  And after `kfree(ptr)` of an allocatable
frame, in every sequence of calls of `kalloc` (with `sz <= PAGESIZE`) and `kfree`
that follows, every `kalloc` that returns `nullptr` is preceded by a `kalloc` that
returned `ptr`. -/
theorem kalloc_fails_iff_none_free (K : Config) (hK : K.WF) (s : KState) (hc : cursorOK K s) :
    (∀ sz, sz ≤ K.PAGESIZE → ((kalloc K sz s).1 = 0 ↔ ∀ g, ¬ isFreeFrame K s g)) ∧
    (∀ ptr s1, kfree K ptr s = some s1 → K.allocatable_physical_address ptr = true →
      ∀ ops evs t, (∀ sz, AllocOp.alloc sz ∈ ops → sz ≤ K.PAGESIZE) →
      runOps K ops s1 = some (evs, t) →
      ∀ pre post, evs = pre ++ AllocEv.nothing :: post → AllocEv.got ptr ∈ pre) := by
  constructor
  · intro sz hsz
    constructor
    · intro h0 g hg
      obtain ⟨k, _, hf, _, hke⟩ := kalloc_found K hK s sz hsz hc ⟨g, hg⟩
      rw [hke] at h0
      have := hK.alloc_pos _ hf.1
      have := hK.page_pos
      have h1 : cursorFrame K s k * K.PAGESIZE = 0 := h0
      omega
    · intro hno
      obtain ⟨c, he⟩ := kalloc_none K hK s sz hc hno
      rw [he]
  · intro ptr s1 hk ha ops evs t hsz hr pre post he
    obtain ⟨hal, _, ht1⟩ := kfree_shape hk
    have hptr : ptr / K.PAGESIZE * K.PAGESIZE = ptr :=
      Nat.div_mul_cancel (Nat.dvd_of_mod_eq_zero hal)
    have hc1 : cursorOK K s1 := by rw [ht1]; exact hc
    have hfree : isFreeFrame K s1 (ptr / K.PAGESIZE) := by
      rw [ht1]
      refine ⟨by rw [hptr]; exact ha, ?_⟩
      show (upd s.pages _ _ (ptr / K.PAGESIZE)).owner = 0
      simp only [upd, if_true]
    have := reuse_before_exhaustion hK (ptr / K.PAGESIZE) ops s1 evs t hc1 hfree hsz hr pre post he
    rw [hptr] at this
    exact this

/-- On the handout machine, from the all-free state: `kalloc(4096)` does not return
`nullptr`, since frame 1 is free. -/
theorem kalloc_fails_iff_none_free_witness :
    cursorOK weensy zeroState ∧
    ((kalloc weensy 4096 zeroState).1 = 0 ↔ ∀ g, ¬ isFreeFrame weensy zeroState g) :=
  ⟨by decide, (kalloc_fails_iff_none_free weensy weensy_WF zeroState (by decide)).1 4096
    (by decide)⟩

/-- C23: for every sequence of calls of `kalloc` and `kfree` that runs without a
failed assertion, from any state `s` to the state `t`: the number of frames that are
not free in `t` is their number in `s`, plus the number of calls of `kalloc` that
returned a frame, minus the number of calls of `kfree` on a frame that was not
free.  (One call: a successful `kalloc` adds one, a `kfree` of an owned frame takes
one away, a failed `kalloc` and a `kfree` of a free frame change nothing.) -/
theorem used_count_tracks_calls (K : Config) (hK : K.WF) (ops : List AllocOp) (s : KState)
    (evs : List AllocEv) (t : KState) (h : runOps K ops s = some (evs, t)) :
    (usedCount K t : Int) =
      usedCount K s + evs.countP AllocEv.isGot - evs.countP AllocEv.isRelease := by
  induction ops generalizing s evs with
  | nil =>
    simp only [runOps, Option.some.injEq, Prod.mk.injEq] at h
    rw [← h.1, ← h.2]
    simp
  | cons op ops ih =>
    cases op with
    | alloc sz =>
      simp only [runOps] at h
      cases hr : runOps K ops (kalloc K sz s).2 with
      | none => rw [hr] at h; exact absurd h (by simp)
      | some x =>
        rw [hr] at h
        simp only [Option.some.injEq, Prod.mk.injEq] at h
        have h1 := ih _ x.1 (by rw [hr, ← h.2])
        have h2 := usedCount_alloc hK sz s
        rw [← h.1]
        by_cases h0 : (kalloc K sz s).1 = 0
        · rw [if_pos h0] at h2 ⊢
          simp only [List.countP_cons, AllocEv.isGot, AllocEv.isRelease]
          simp only [Bool.false_eq_true, if_false, Nat.add_zero]
          omega
        · rw [if_neg h0] at h2 ⊢
          simp only [List.countP_cons, AllocEv.isGot, AllocEv.isRelease]
          simp only [Bool.false_eq_true, if_false, if_true, Nat.add_zero]
          push_cast
          omega
    | free ptr =>
      simp only [runOps] at h
      cases hk : kfree K ptr s with
      | none => rw [hk] at h; exact absurd h (by simp)
      | some t1 =>
        rw [hk] at h
        simp only at h
        cases hr : runOps K ops t1 with
        | none => rw [hr] at h; exact absurd h (by simp)
        | some x =>
          rw [hr] at h
          simp only [Option.some.injEq, Prod.mk.injEq] at h
          have h1 := ih _ x.1 (by rw [hr, ← h.2])
          have h2 := usedCount_free hK hk
          rw [← h.1]
          by_cases ho : (s.pages (ptr / K.PAGESIZE)).owner ≠ 0
          · rw [if_pos ho] at h2
            simp only [List.countP_cons, AllocEv.isGot, AllocEv.isRelease, decide_eq_true ho]
            simp only [Bool.false_eq_true, if_false, if_true, Nat.add_zero]
            push_cast
            omega
          · rw [if_neg ho] at h2
            simp only [List.countP_cons, AllocEv.isGot, AllocEv.isRelease, decide_eq_false ho]
            simp only [Bool.false_eq_true, if_false, Nat.add_zero]
            omega

/-- On the small machine, from the cleared state: two calls of `kalloc` return the
frames at 192 and 224, `kfree(192)` frees an owned frame, `kalloc(33)` fails,
a second `kfree(192)` meets a free frame, and a last `kalloc` returns the frame at
256.  No frame was in use at the start; three calls of `kalloc` returned a frame and
one call of `kfree` met an owned frame, and two frames are in use at the end. -/
theorem used_count_tracks_calls_witness :
    ∃ t, runOps toy [AllocOp.alloc 32, AllocOp.alloc 32, AllocOp.free 192, AllocOp.alloc 33,
        AllocOp.free 192, AllocOp.alloc 32] zeroState =
      some ([AllocEv.got 192, AllocEv.got 224, AllocEv.freed 192 true, AllocEv.nothing,
        AllocEv.freed 192 false, AllocEv.got 256], t) ∧
    usedCount toy zeroState = 0 ∧ usedCount toy t = 2 ∧
    (usedCount toy t : Int) =
      usedCount toy zeroState
        + [AllocEv.got 192, AllocEv.got 224, AllocEv.freed 192 true, AllocEv.nothing,
            AllocEv.freed 192 false, AllocEv.got 256].countP AllocEv.isGot
        - [AllocEv.got 192, AllocEv.got 224, AllocEv.freed 192 true, AllocEv.nothing,
            AllocEv.freed 192 false, AllocEv.got 256].countP AllocEv.isRelease := by
  have hev : (runOps toy [AllocOp.alloc 32, AllocOp.alloc 32, AllocOp.free 192,
      AllocOp.alloc 33, AllocOp.free 192, AllocOp.alloc 32] zeroState).map Prod.fst =
      some [AllocEv.got 192, AllocEv.got 224, AllocEv.freed 192 true, AllocEv.nothing,
        AllocEv.freed 192 false, AllocEv.got 256] := by decide
  have hcnt : (runOps toy [AllocOp.alloc 32, AllocOp.alloc 32, AllocOp.free 192,
      AllocOp.alloc 33, AllocOp.free 192, AllocOp.alloc 32] zeroState).map
      (fun x => usedCount toy x.2) = some 2 := by decide
  obtain ⟨x, h⟩ : ∃ x, runOps toy [AllocOp.alloc 32, AllocOp.alloc 32, AllocOp.free 192,
      AllocOp.alloc 33, AllocOp.free 192, AllocOp.alloc 32] zeroState = some x := by
    cases h : runOps toy [AllocOp.alloc 32, AllocOp.alloc 32, AllocOp.free 192,
        AllocOp.alloc 33, AllocOp.free 192, AllocOp.alloc 32] zeroState with
    | none => rw [h] at hev; exact absurd hev (by simp)
    | some x => exact ⟨x, rfl⟩
  rw [h] at hev hcnt
  simp only [Option.map_some', Option.some.injEq] at hev hcnt
  have hx : x = (x.1, x.2) := rfl
  rw [hx, hev] at h
  exact ⟨x.2, h, by decide, hcnt,
    used_count_tracks_calls toy toy_geom.wf _ zeroState _ x.2 h⟩

end Allocator

section Traps

variable {K : Config}

/-- Saving registers in the current descriptor changes no state, page table or pid. -/
theorem setProc_regs_fields (s : KState) (f : regstate → regstate) (q : Nat) :
    ((s.setProc s.current fun p => { p with regs := f p.regs }).ptable q).state
        = (s.ptable q).state ∧
    ((s.setProc s.current fun p => { p with regs := f p.regs }).ptable q).pagetable
        = (s.ptable q).pagetable ∧
    ((s.setProc s.current fun p => { p with regs := f p.regs }).ptable q).pid
        = (s.ptable q).pid ∧
    (q ≠ s.current →
      (s.setProc s.current fun p => { p with regs := f p.regs }).ptable q = s.ptable q) := by
  by_cases hq : q = s.current
  · subst hq
    simp [KState.setProc, upd]
  · simp [KState.setProc, upd, hq]

/-- A slot that the circular scan reaches again after `k` steps, `1 ≤ k ≤ NPROC`,
is reached after exactly `NPROC` steps. -/
theorem scan_full_circle (c k N : Nat) (hc : c < N) (h1 : 1 ≤ k) (h2 : k ≤ N)
    (h : (c + k) % N = c) : k = N := by
  by_cases hlt : c + k < N
  · rw [Nat.mod_eq_of_lt hlt] at h
    omega
  · have e : (c + k) % N = c + k - N := by
      rw [Nat.mod_eq_sub_mod (by omega), Nat.mod_eq_of_lt (by omega)]
    rw [e] at h
    omega

/-- C24: when a syscall returns to the tail of `exception` (only `SYSCALL_GETPID`,
`SYSCALL_PAGE_ALLOC` and `SYSCALL_FORK` do), and after a page fault with the user bit,
`exception` resumes the current process if its state is `P_RUNNABLE` and otherwise
ends in `schedule()`.  In particular `SYSCALL_GETPID` of a Runnable caller resumes
the caller with `reg_rax` equal to its pid, the other saved registers being those of
the trap, and `pages[]`, memory, the cursor and the state, page table and pid of
every process are unchanged. -/
theorem exception_tail_resumes_current (K : Config) (s : KState) (regs : regstate) :
    (regs.reg_intno = K.INT_SYSCALL →
      ∀ v s1, syscall K regs (s.setProc s.current fun p => { p with regs := regs })
          = SysResult.ret v s1 →
        (regs.reg_rax = K.SYSCALL_GETPID ∨ regs.reg_rax = K.SYSCALL_PAGE_ALLOC ∨
          regs.reg_rax = K.SYSCALL_FORK) ∧
        ∀ t, t = (s1.setProc s1.current fun p => { p with regs := { p.regs with reg_rax := v } }) →
          exception K regs s =
            if (t.ptable t.current).state = procstate.P_RUNNABLE then Outcome.resumed t
            else schedule K t) ∧
    (regs.reg_intno = K.INT_PAGEFAULT → K.INT_PAGEFAULT ≠ K.INT_SYSCALL →
      K.INT_PAGEFAULT ≠ K.INT_TIMER → regs.reg_err / K.PFERR_USER % 2 ≠ 0 →
      ∀ t, t = ((s.setProc s.current fun p => { p with regs := regs }).setProc s.current
            fun p => { p with state := procstate.P_BROKEN }) →
        exception K regs s =
          if (t.ptable t.current).state = procstate.P_RUNNABLE then Outcome.resumed t
          else schedule K t) ∧
    (regs.reg_intno = K.INT_SYSCALL → regs.reg_rax = K.SYSCALL_GETPID →
      K.SYSCALL_GETPID ≠ K.SYSCALL_PANIC →
      (s.ptable s.current).state = procstate.P_RUNNABLE →
      ∃ t, exception K regs s = Outcome.resumed t ∧ t.current = s.current ∧
        (t.ptable s.current).regs = { regs with reg_rax := (s.ptable s.current).pid } ∧
        t.pages = s.pages ∧ t.mem = s.mem ∧ t.next_alloc_pa = s.next_alloc_pa ∧
        ∀ q, (t.ptable q).state = (s.ptable q).state ∧
          (t.ptable q).pagetable = (s.ptable q).pagetable ∧
          (t.ptable q).pid = (s.ptable q).pid ∧
          (q ≠ s.current → t.ptable q = s.ptable q)) := by
  refine ⟨?_, ?_, ?_⟩
  · intro hint v s1 hs
    refine ⟨?_, ?_⟩
    · unfold syscall at hs
      by_cases h1 : regs.reg_rax = K.SYSCALL_PANIC
      · simp only [if_pos h1] at hs
        exact absurd hs (by simp)
      · by_cases h2 : regs.reg_rax = K.SYSCALL_GETPID
        · exact Or.inl h2
        · by_cases h3 : regs.reg_rax = K.SYSCALL_YIELD
          · simp only [if_neg h1, if_neg h2, if_pos h3] at hs
            exact absurd hs (by simp)
          · by_cases h4 : regs.reg_rax = K.SYSCALL_PAGE_ALLOC
            · exact Or.inr (Or.inl h4)
            · by_cases h5 : regs.reg_rax = K.SYSCALL_FORK
              · exact Or.inr (Or.inr h5)
              · by_cases h6 : regs.reg_rax = K.SYSCALL_EXIT
                · simp only [if_neg h1, if_neg h2, if_neg h3, if_neg h4, if_neg h5, if_pos h6]
                    at hs
                  split at hs <;> exact absurd hs (by simp)
                · simp only [if_neg h1, if_neg h2, if_neg h3, if_neg h4, if_neg h5, if_neg h6]
                    at hs
                  exact absurd hs (by simp)
    · intro t ht
      unfold exception
      simp only [if_pos hint, hs, exception_finish]
      rw [ht]
  · intro hint hd1 hd2 hu t ht
    unfold exception
    rw [hint]
    simp only [if_neg hd1, if_neg hd2, if_true, if_neg hu, exception_finish]
    rw [ht]
    rfl
  · intro hint hno hd hrun
    refine ⟨((s.setProc s.current fun p => { p with regs := regs }).setProc s.current
      fun p => { p with regs := { p.regs with reg_rax := (s.ptable s.current).pid } }),
      ?_, rfl, ?_, rfl, rfl, rfl, ?_⟩
    · unfold exception syscall
      have h1 : ¬ regs.reg_rax = K.SYSCALL_PANIC := by rw [hno]; exact hd
      simp only [if_pos hint, if_neg h1, if_pos hno, exception_finish]
      have e : ((s.setProc s.current fun p => { p with regs := regs }).setProc
          (s.setProc s.current fun p => { p with regs := regs }).current
            fun p => { p with regs := regs }) =
          (s.setProc s.current fun p => { p with regs := regs }) :=
        setProc_regs_twice s regs
      simp only [e]
      have hp : ((s.setProc s.current fun p => { p with regs := regs }).ptable
          (s.setProc s.current fun p => { p with regs := regs }).current).pid
            = (s.ptable s.current).pid := by
        simp [KState.setProc, upd]
      have hc : (s.setProc s.current fun p => { p with regs := regs }).current = s.current := rfl
      simp only [hp, hc]
      rw [if_pos]
      · simp [KState.setProc, upd]
      · simp [KState.setProc, upd, hrun]
    · simp [KState.setProc, upd]
    · intro q
      by_cases hq : q = s.current
      · subst hq
        simp [KState.setProc, upd]
      · simp [KState.setProc, upd, hq]

/-- On the handout machine, process 2 (Runnable, the current process) calls
`SYSCALL_GETPID` and is resumed. -/
theorem exception_tail_resumes_current_witness :
    (sysregs 1 0).reg_intno = weensy.INT_SYSCALL ∧
    (sysregs 1 0).reg_rax = weensy.SYSCALL_GETPID ∧
    (selfRunning.ptable selfRunning.current).state = procstate.P_RUNNABLE ∧
    ∃ t, exception weensy (sysregs 1 0) selfRunning = Outcome.resumed t ∧
      t.current = selfRunning.current ∧
      (t.ptable selfRunning.current).regs =
        { sysregs 1 0 with reg_rax := (selfRunning.ptable selfRunning.current).pid } ∧
      t.pages = selfRunning.pages ∧ t.mem = selfRunning.mem ∧
      t.next_alloc_pa = selfRunning.next_alloc_pa ∧
      ∀ q, (t.ptable q).state = (selfRunning.ptable q).state ∧
        (t.ptable q).pagetable = (selfRunning.ptable q).pagetable ∧
        (t.ptable q).pid = (selfRunning.ptable q).pid ∧
        (q ≠ selfRunning.current → t.ptable q = selfRunning.ptable q) :=
  ⟨rfl, rfl, by decide,
   (exception_tail_resumes_current weensy selfRunning (sysregs 1 0)).2.2 rfl rfl (by decide)
     (by decide)⟩

/-- C25: when the current process is a process of the table (its slot is below
`NPROC`, carries its own index as pid and is `P_RUNNABLE`) and calls `SYSCALL_YIELD`,
`syscall` does not return: it ends in `run` of the first Runnable slot after the
caller in circular pid order, which is the caller itself exactly when no other slot
is Runnable.  The caller's saved registers are those of the trap with `reg_rax = 0`,
and `pages[]`, memory, the cursor and the state, page table and pid of every process
are unchanged. -/
theorem yield_runs_next_runnable (K : Config) (s : KState) (regs : regstate)
    (hno : regs.reg_rax = K.SYSCALL_YIELD)
    (hd1 : K.SYSCALL_YIELD ≠ K.SYSCALL_PANIC) (hd2 : K.SYSCALL_YIELD ≠ K.SYSCALL_GETPID)
    (hlt : s.current < K.NPROC) (hpid : (s.ptable s.current).pid = s.current)
    (hrun : (s.ptable s.current).state = procstate.P_RUNNABLE) :
    ∃ k t, 1 ≤ k ∧ k ≤ K.NPROC ∧
      syscall K regs s = SysResult.noreturn (Outcome.resumed t) ∧
      t.current = (s.current + k) % K.NPROC ∧
      (s.ptable t.current).state = procstate.P_RUNNABLE ∧
      (∀ j, 1 ≤ j → j < k →
        (s.ptable ((s.current + j) % K.NPROC)).state ≠ procstate.P_RUNNABLE) ∧
      (t.current = s.current ↔
        ∀ q, q < K.NPROC → q ≠ s.current → (s.ptable q).state ≠ procstate.P_RUNNABLE) ∧
      (t.ptable s.current).regs = { regs with reg_rax := 0 } ∧
      t.pages = s.pages ∧ t.mem = s.mem ∧ t.next_alloc_pa = s.next_alloc_pa ∧
      ∀ q, (t.ptable q).state = (s.ptable q).state ∧
        (t.ptable q).pagetable = (s.ptable q).pagetable ∧
        (t.ptable q).pid = (s.ptable q).pid ∧
        (q ≠ s.current → t.ptable q = s.ptable q) := by
  have hst : ∀ q, (((s.setProc s.current fun p => { p with regs := regs }).setProc s.current
      fun p => { p with regs := { p.regs with reg_rax := 0 } }).ptable q).state
        = (s.ptable q).state := by
    intro q
    by_cases hq : q = s.current
    · subst hq
      simp [KState.setProc, upd]
    · simp [KState.setProc, upd, hq]
  have hp : (((s.setProc s.current fun p => { p with regs := regs }).setProc s.current
      fun p => { p with regs := { p.regs with reg_rax := 0 } }).ptable s.current).pid
        = s.current := by
    simp [KState.setProc, upd, hpid]
  obtain ⟨k0, b1, b2, b3⟩ := slot_reached (K := K) s.current s.current hlt
  obtain ⟨k, a1, a2, a3, a4, a5⟩ := schedule_scan_first (K := K)
    ((s.setProc s.current fun p => { p with regs := regs }).setProc s.current
      fun p => { p with regs := { p.regs with reg_rax := 0 } }) K.NPROC s.current
    ⟨k0, b1, b2, by rw [b3, hst]; exact hrun⟩
  rw [hst] at a4
  have hslot : (s.current + k) % K.NPROC < K.NPROC := Nat.mod_lt _ (by omega)
  refine ⟨k, { ((s.setProc s.current fun p => { p with regs := regs }).setProc s.current
      fun p => { p with regs := { p.regs with reg_rax := 0 } }) with
      current := (s.current + k) % K.NPROC }, a1, a2, ?_, rfl, a4, ?_, ?_, ?_, rfl, rfl, rfl, ?_⟩
  · unfold syscall
    rw [hno] at *
    simp only [if_neg hd1, if_neg hd2, if_true]
    have hc : (s.setProc s.current fun p => { p with regs := regs }).current = s.current := rfl
    simp only [hc]
    unfold schedule
    have hcc : (((s.setProc s.current fun p => { p with regs := regs }).setProc s.current
      fun p => { p with regs := { p.regs with reg_rax := 0 } })).current = s.current := rfl
    rw [hcc, hp, a3]
  · intro j h1 h2
    have := a5 j h1 h2
    rw [hst] at this
    exact this
  · show (s.current + k) % K.NPROC = s.current ↔ _
    constructor
    · intro he q hq hne hqr
      have hk := scan_full_circle _ _ _ hlt a1 a2 he
      obtain ⟨j, j1, j2, j3⟩ := slot_reached (K := K) q s.current hq
      have hj : j < k := by
        rcases Nat.lt_or_ge j k with h | h
        · exact h
        · have : j = K.NPROC := by omega
          rw [this, Nat.add_mod_right, Nat.mod_eq_of_lt hlt] at j3
          exact absurd j3.symm hne
      have := a5 j j1 hj
      rw [hst, j3] at this
      exact this hqr
    · intro hno2
      by_contra hne
      exact hno2 _ hslot hne a4
  · simp [KState.setProc, upd]
  · intro q
    by_cases hq : q = s.current
    · subst hq
      simp [KState.setProc, upd]
    · simp [KState.setProc, upd, hq]

/-- On the handout machine, process 2 (the only Runnable process) yields and runs
again. -/
theorem yield_runs_next_runnable_witness :
    (sysregs 2 0).reg_rax = weensy.SYSCALL_YIELD ∧ selfRunning.current < weensy.NPROC ∧
    (selfRunning.ptable selfRunning.current).pid = selfRunning.current ∧
    (selfRunning.ptable selfRunning.current).state = procstate.P_RUNNABLE ∧
    ∃ k t, 1 ≤ k ∧ k ≤ weensy.NPROC ∧
      syscall weensy (sysregs 2 0) selfRunning = SysResult.noreturn (Outcome.resumed t) ∧
      t.current = (selfRunning.current + k) % weensy.NPROC ∧
      (selfRunning.ptable t.current).state = procstate.P_RUNNABLE ∧
      (∀ j, 1 ≤ j → j < k →
        (selfRunning.ptable ((selfRunning.current + j) % weensy.NPROC)).state
          ≠ procstate.P_RUNNABLE) ∧
      (t.current = selfRunning.current ↔
        ∀ q, q < weensy.NPROC → q ≠ selfRunning.current →
          (selfRunning.ptable q).state ≠ procstate.P_RUNNABLE) ∧
      (t.ptable selfRunning.current).regs = { sysregs 2 0 with reg_rax := 0 } ∧
      t.pages = selfRunning.pages ∧ t.mem = selfRunning.mem ∧
      t.next_alloc_pa = selfRunning.next_alloc_pa ∧
      ∀ q, (t.ptable q).state = (selfRunning.ptable q).state ∧
        (t.ptable q).pagetable = (selfRunning.ptable q).pagetable ∧
        (t.ptable q).pid = (selfRunning.ptable q).pid ∧
        (q ≠ selfRunning.current → t.ptable q = selfRunning.ptable q) :=
  ⟨rfl, by decide, by decide, by decide,
   yield_runs_next_runnable weensy selfRunning (sysregs 2 0) rfl (by decide) (by decide)
     (by decide) (by decide) (by decide)⟩

/-- C26: for a page fault (`INT_PAGEFAULT`, a number different from `INT_SYSCALL` and
`INT_TIMER`): if the error code lacks `PFERR_USER` the kernel panics, so `exception`
ends halted and resumes nothing; if it has `PFERR_USER`, `exception` ends in
`schedule()` on the state in which the current process is `P_BROKEN`, every other
descriptor, the page table of the current process, `pages[]`, memory and the cursor
are unchanged; and a process that `schedule()` then runs is another, Runnable
process, in that state. -/
theorem page_fault_breaks_process (K : Config) (s : KState) (regs : regstate)
    (hint : regs.reg_intno = K.INT_PAGEFAULT) (hd1 : K.INT_PAGEFAULT ≠ K.INT_SYSCALL)
    (hd2 : K.INT_PAGEFAULT ≠ K.INT_TIMER) :
    (regs.reg_err / K.PFERR_USER % 2 = 0 → exception K regs s = Outcome.halted) ∧
    (regs.reg_err / K.PFERR_USER % 2 ≠ 0 →
      ∃ sB, exception K regs s = schedule K sB ∧
        (sB.ptable s.current).state = procstate.P_BROKEN ∧
        (sB.ptable s.current).pagetable = (s.ptable s.current).pagetable ∧
        (sB.ptable s.current).pid = (s.ptable s.current).pid ∧
        (∀ q, q ≠ s.current → sB.ptable q = s.ptable q) ∧
        sB.current = s.current ∧ sB.pages = s.pages ∧ sB.mem = s.mem ∧
        sB.next_alloc_pa = s.next_alloc_pa ∧
        ∀ t, schedule K sB = Outcome.resumed t →
          t.current ≠ s.current ∧ (t.ptable t.current).state = procstate.P_RUNNABLE ∧
          t.ptable = sB.ptable ∧ t.pages = s.pages ∧ t.mem = s.mem ∧
          t.next_alloc_pa = s.next_alloc_pa) := by
  constructor
  · intro hu
    unfold exception
    rw [hint]
    simp only [if_neg hd1, if_neg hd2, if_true, if_pos hu]
  · intro hu
    have hb : (((s.setProc s.current fun p => { p with regs := regs }).setProc s.current
        fun p => { p with state := procstate.P_BROKEN }).ptable s.current).state
          = procstate.P_BROKEN := by
      simp [KState.setProc, upd]
    refine ⟨((s.setProc s.current fun p => { p with regs := regs }).setProc s.current
        fun p => { p with state := procstate.P_BROKEN }), ?_, hb, ?_, ?_, ?_, rfl, rfl, rfl, rfl,
        ?_⟩
    · unfold exception
      rw [hint]
      simp only [if_neg hd1, if_neg hd2, if_true, if_neg hu, exception_finish]
      rw [if_neg]
      · rfl
      · have hc : (s.setProc s.current fun p => { p with regs := regs }).current = s.current := rfl
        rw [hc]
        show ¬ (((s.setProc s.current fun p => { p with regs := regs }).setProc s.current
          fun p => { p with state := procstate.P_BROKEN }).ptable s.current).state
            = procstate.P_RUNNABLE
        rw [hb]
        decide
    · simp [KState.setProc, upd]
    · simp [KState.setProc, upd]
    · intro q hq
      simp [KState.setProc, upd, hq]
    · intro t ht
      unfold schedule at ht
      generalize hsc : schedule_scan K _ K.NPROC _ = o at ht
      cases o with
      | none => exact absurd ht (by simp)
      | some pid =>
        simp only [Outcome.resumed.injEq] at ht
        have hr := schedule_scan_spec (K := K) _ _ _ _ hsc
        rw [← ht]
        refine ⟨?_, hr, rfl, rfl, rfl, rfl⟩
        intro he
        have he2 : pid = s.current := he
        rw [he2, hb] at hr
        exact absurd hr (by decide)

/-- On the handout machine: a page fault with error code 0 halts, and a page fault
with error code 4 (user) of process 2 leaves process 2 Broken. -/
theorem page_fault_breaks_process_witness :
    (faultregs 0).reg_intno = weensy.INT_PAGEFAULT ∧
    (faultregs 0).reg_err / weensy.PFERR_USER % 2 = 0 ∧
    exception weensy (faultregs 0) selfRunning = Outcome.halted :=
  ⟨rfl, by decide,
   (page_fault_breaks_process weensy selfRunning (faultregs 0) rfl (by decide) (by decide)).1
     (by decide)⟩

/-- C27: for every state, a syscall number other than the six numbers of the
`switch` makes `syscall` panic, and a trap number other than `INT_SYSCALL`,
`INT_TIMER` and `INT_PAGEFAULT` makes `exception` panic: both end halted, which is
the outcome that resumes no process.  The state in which either `switch` is reached
is the state of the trap with the registers saved in the current descriptor (lines
278 and 351): `pages[]`, memory, the cursor and the state, page table and pid of
every process are those of the trap, and every other descriptor is unchanged. -/
theorem unknown_number_panics (K : Config) (s : KState) (regs : regstate) :
    (regs.reg_rax ≠ K.SYSCALL_PANIC → regs.reg_rax ≠ K.SYSCALL_GETPID →
      regs.reg_rax ≠ K.SYSCALL_YIELD → regs.reg_rax ≠ K.SYSCALL_PAGE_ALLOC →
      regs.reg_rax ≠ K.SYSCALL_FORK → regs.reg_rax ≠ K.SYSCALL_EXIT →
      syscall K regs s = SysResult.noreturn Outcome.halted) ∧
    (regs.reg_intno ≠ K.INT_SYSCALL → regs.reg_intno ≠ K.INT_TIMER →
      regs.reg_intno ≠ K.INT_PAGEFAULT → exception K regs s = Outcome.halted) ∧
    (s.setProc s.current fun p => { p with regs := regs }).pages = s.pages ∧
    (s.setProc s.current fun p => { p with regs := regs }).mem = s.mem ∧
    (s.setProc s.current fun p => { p with regs := regs }).next_alloc_pa = s.next_alloc_pa ∧
    ∀ q, ((s.setProc s.current fun p => { p with regs := regs }).ptable q).state
          = (s.ptable q).state ∧
      ((s.setProc s.current fun p => { p with regs := regs }).ptable q).pagetable
          = (s.ptable q).pagetable ∧
      ((s.setProc s.current fun p => { p with regs := regs }).ptable q).pid
          = (s.ptable q).pid ∧
      (q ≠ s.current →
        (s.setProc s.current fun p => { p with regs := regs }).ptable q = s.ptable q) := by
  refine ⟨?_, ?_, rfl, rfl, rfl, fun q => setProc_regs_fields s (fun _ => regs) q⟩
  · intro h1 h2 h3 h4 h5 h6
    unfold syscall
    simp only [if_neg h1, if_neg h2, if_neg h3, if_neg h4, if_neg h5, if_neg h6]
  · intro h1 h2 h3
    unfold exception
    simp only [if_neg h1, if_neg h2, if_neg h3]

/-- On the handout machine syscall number 7 and trap number 0 panic. -/
theorem unknown_number_panics_witness :
    syscall weensy (sysregs 7 0) selfRunning = SysResult.noreturn Outcome.halted ∧
    exception weensy regs0 selfRunning = Outcome.halted :=
  ⟨(unknown_number_panics weensy selfRunning (sysregs 7 0)).1 (by decide) (by decide)
     (by decide) (by decide) (by decide) (by decide),
   (unknown_number_panics weensy selfRunning regs0).2.1 (by decide) (by decide) (by decide)⟩

end Traps

section SlotZero

variable {K : Config}

theorem vmiter_map_ptable {it : vmiter} {pa perm : Nat} {s : KState} {r : Int × KState}
    (h : it.map K pa perm s = some r) : r.2.ptable = s.ptable := by
  rw [(vmiter_map_some h).2]
  exact (vm_map_ptable_eq _ _ _ _ _ s).1

theorem kfree_ptable {ptr : Nat} {s t : KState} (h : kfree K ptr s = some t) :
    t.ptable = s.ptable := by
  rw [(kfree_shape h).2.2]

theorem proc_free_walk_ptable (pt : Nat) : ∀ (n va : Nat) (s t : KState),
    proc_free_walk K pt n va s = some t → t.ptable = s.ptable := by
  intro n
  induction n with
  | zero => intro va s t h; simp [proc_free_walk] at h
  | succ n ih =>
    intro va s t h
    simp only [proc_free_walk] at h
    split at h
    · split at h
      · split at h
        · exact absurd h (by simp)
        · rename_i s1 hs1
          exact (ih _ _ _ h).trans (kfree_ptable hs1)
      · split at h
        · exact (ih _ _ _ h).trans rfl
        · exact ih _ _ _ h
    · simp only [Option.some.injEq] at h
      rw [← h]

theorem kfree_list_ptable : ∀ (L : List Nat) (s t : KState),
    kfree_list K L s = some t → t.ptable = s.ptable := by
  intro L
  induction L with
  | nil =>
    intro s t h
    simp only [kfree_list, Option.some.injEq] at h
    rw [← h]
  | cons p ps ih =>
    intro s t h
    simp only [kfree_list] at h
    split at h
    · exact absurd h (by simp)
    · rename_i s1 hs1
      exact (ih _ _ h).trans (kfree_ptable hs1)

/-- `proc_free(pid)` changes the process table in slot `pid` only, whose state
becomes `P_FREE`. -/
theorem proc_free_ptable {pid : Nat} {s t : KState} (h : proc_free K pid s = some t) :
    t.ptable = upd s.ptable pid { (s.ptable pid) with state := procstate.P_FREE } := by
  unfold proc_free at h
  simp only at h
  split at h
  · exact absurd h (by simp)
  · rename_i s1 hs1
    split at h
    · exact absurd h (by simp)
    · rename_i s2 hs2
      rw [kfree_ptable h, kfree_list_ptable _ _ _ hs2, proc_free_walk_ptable _ _ _ _ _ hs1]
      rfl

theorem proc_free_slot_zero {pid : Nat} {s t : KState} (h : proc_free K pid s = some t)
    (hz : (s.ptable 0).state = procstate.P_FREE) : (t.ptable 0).state = procstate.P_FREE := by
  rw [proc_free_ptable h]
  by_cases hp : 0 = pid
  · simp only [upd, if_pos hp]
  · simp only [upd, if_neg hp]
    exact hz

theorem fork_walk_slot_zero (ppt cpt pid : Nat) : ∀ (n va : Nat) (s : KState) (b : Bool)
    (t : KState), fork_walk K ppt cpt pid n va s = some (b, t) →
    (s.ptable 0).state = procstate.P_FREE → (t.ptable 0).state = procstate.P_FREE := by
  intro n
  induction n with
  | zero => intro va s b t h; simp [fork_walk] at h
  | succ n ih =>
    intro va s b t h hz
    have hfail : ∀ (u : KState), (u.ptable 0).state = procstate.P_FREE →
        (proc_free K pid u).map (fun t => (false, t)) = some (b, t) →
        (t.ptable 0).state = procstate.P_FREE := by
      intro u hu hh
      cases hpf : proc_free K pid u with
      | none => rw [hpf] at hh; exact absurd hh (by simp)
      | some w =>
        rw [hpf] at hh
        simp only [Option.map_some', Option.some.injEq, Prod.mk.injEq] at hh
        rw [← hh.2]
        exact proc_free_slot_zero hpf hu
    simp only [fork_walk] at h
    split at h
    · split at h
      · split at h
        · refine hfail _ ?_ h
          rw [(kalloc_ptable_eq _ s).1]
          exact hz
        · split at h
          · exact absurd h (by simp)
          · rename_i r2 hr2
            have hz2 : (r2.2.ptable 0).state = procstate.P_FREE := by
              rw [vmiter_map_ptable hr2, (kalloc_ptable_eq _ s).1]
              exact hz
            split at h
            · exact hfail _ hz2 h
            · exact ih _ _ b t h hz2
      · split at h
        · split at h
          · exact absurd h (by simp)
          · rename_i r2 hr2
            have hz2 : (r2.2.ptable 0).state = procstate.P_FREE := by
              rw [vmiter_map_ptable hr2]
              exact hz
            split at h
            · exact hfail _ hz2 h
            · exact ih _ _ b t h hz2
        · split at h
          · exact absurd h (by simp)
          · rename_i r2 hr2
            have hz2 : (r2.2.ptable 0).state = procstate.P_FREE := by
              rw [vmiter_map_ptable hr2]
              exact hz
            split at h
            · exact hfail _ hz2 h
            · exact ih _ _ b t h hz2
    · simp only [Option.some.injEq, Prod.mk.injEq] at h
      rw [← h.2]
      exact hz

/-- `SYSCALL_FORK` returns -1 or a child pid that is not 0, and leaves slot 0 Free. -/
theorem sys_fork_slot_zero {s : KState} {v : Nat} {t : KState}
    (h : sys_fork K s = some (v, t)) :
    v ≠ 0 ∧ ((s.ptable 0).state = procstate.P_FREE → (t.ptable 0).state = procstate.P_FREE) := by
  unfold sys_fork at h
  simp only at h
  split at h
  · simp only [Option.some.injEq, Prod.mk.injEq] at h
    rw [← h.1, ← h.2]
    exact ⟨by decide, id⟩
  · rename_i hc
    have hz1 : (s.ptable 0).state = procstate.P_FREE →
        ((((kalloc K K.PAGESIZE s).2.setProc (fork_find K s (K.NPROC - 1) 1) fun p =>
          { p with pagetable := (kalloc K K.PAGESIZE s).1 }).ptable 0).state
            = procstate.P_FREE) := by
      intro hz
      simp only [KState.setProc, upd, (kalloc_ptable_eq _ s).1]
      rw [if_neg (fun hh => hc hh.symm)]
      exact hz
    split at h
    · cases hk : kfree K 0 ((kalloc K K.PAGESIZE s).2.setProc (fork_find K s (K.NPROC - 1) 1)
          fun p => { p with pagetable := (kalloc K K.PAGESIZE s).1 }) with
      | none => rw [hk] at h; exact absurd h (by simp)
      | some w =>
        rw [hk] at h
        simp only [Option.map_some', Option.some.injEq, Prod.mk.injEq] at h
        rw [← h.1, ← h.2]
        refine ⟨by decide, fun hz => ?_⟩
        rw [kfree_ptable hk]
        exact hz1 hz
    · split at h
      · exact absurd h (by simp)
      · rename_i t1 hw
        simp only [Option.some.injEq, Prod.mk.injEq] at h
        rw [← h.1, ← h.2]
        exact ⟨by decide, fun hz => fork_walk_slot_zero _ _ _ _ _ _ _ _ hw (hz1 hz)⟩
      · rename_i t1 hw
        simp only [Option.some.injEq, Prod.mk.injEq] at h
        rw [← h.1, ← h.2]
        refine ⟨hc, fun hz => ?_⟩
        have := fork_walk_slot_zero _ _ _ _ _ _ _ _ hw (hz1 hz)
        simp only [KState.setProc, upd]
        rw [if_neg (fun hh => hc hh.symm)]
        exact this

theorem sys_page_alloc_ptable {s : KState} {v : Nat} {t : KState}
    (h : sys_page_alloc K s = some (v, t)) : t.ptable = s.ptable := by
  unfold sys_page_alloc at h
  simp only at h
  split at h
  · split at h
    · split at h
      · exact absurd h (by simp)
      · rename_i r2 hr2
        split at h
        · simp only [Option.some.injEq, Prod.mk.injEq] at h
          rw [← h.2, vmiter_map_ptable hr2]
          exact (kalloc_ptable_eq _ s).1
        · exact absurd h (by simp)
    · simp only [Option.some.injEq, Prod.mk.injEq] at h
      rw [← h.2]
      exact (kalloc_ptable_eq _ s).1
  · simp only [Option.some.injEq, Prod.mk.injEq] at h
    rw [← h.2]

theorem schedule_ptable {s t : KState} (h : schedule K s = Outcome.resumed t) :
    t.ptable = s.ptable := by
  unfold schedule at h
  split at h
  · simp only [Outcome.resumed.injEq] at h
    rw [← h]
  · exact absurd h (by simp)

theorem setRegs_slot_zero (s : KState) (f : regstate → regstate)
    (hz : (s.ptable 0).state = procstate.P_FREE) :
    ((s.setProc s.current fun p => { p with regs := f p.regs }).ptable 0).state
      = procstate.P_FREE := by
  rw [(setProc_regs_fields s f 0).1]
  exact hz

theorem ofOption_cases {o : Option (Nat × KState)} :
    (∀ v t, SysResult.ofOption o = SysResult.ret v t → o = some (v, t)) ∧
    (∀ t, SysResult.ofOption o ≠ SysResult.noreturn (Outcome.resumed t)) := by
  cases o with
  | none =>
    exact ⟨fun v t h => by simp [SysResult.ofOption] at h,
      fun t h => by simp [SysResult.ofOption] at h⟩
  | some x =>
    obtain ⟨v0, t0⟩ := x
    refine ⟨fun v t h => ?_, fun t h => by simp [SysResult.ofOption] at h⟩
    simp only [SysResult.ofOption, SysResult.ret.injEq] at h
    rw [h.1, h.2]

/-- A system call leaves slot 0 Free, whether it returns or runs a process. -/
theorem syscall_slot_zero {s : KState} (regs : regstate)
    (hz : (s.ptable 0).state = procstate.P_FREE) :
    (∀ v t, syscall K regs s = SysResult.ret v t → (t.ptable 0).state = procstate.P_FREE) ∧
    (∀ t, syscall K regs s = SysResult.noreturn (Outcome.resumed t) →
      (t.ptable 0).state = procstate.P_FREE) := by
  have hz0 := setRegs_slot_zero s (fun _ => regs) hz
  constructor
  · intro v t ht
    unfold syscall at ht
    simp only at ht
    split at ht
    · exact absurd ht (by simp)
    · split at ht
      · simp only [SysResult.ret.injEq] at ht
        rw [← ht.2]
        exact hz0
      · split at ht
        · exact absurd ht (by simp)
        · split at ht
          · rw [sys_page_alloc_ptable (ofOption_cases.1 v t ht)]
            exact hz0
          · split at ht
            · exact (sys_fork_slot_zero (ofOption_cases.1 v t ht)).2 hz0
            · split at ht
              · split at ht <;> exact absurd ht (by simp)
              · exact absurd ht (by simp)
  · intro t ht
    unfold syscall at ht
    simp only at ht
    split at ht
    · exact absurd ht (by simp)
    · split at ht
      · exact absurd ht (by simp)
      · split at ht
        · simp only [SysResult.noreturn.injEq] at ht
          rw [schedule_ptable ht]
          exact setRegs_slot_zero _ (fun r => { r with reg_rax := 0 }) hz0
        · split at ht
          · exact absurd ht (ofOption_cases.2 t)
          · split at ht
            · exact absurd ht (ofOption_cases.2 t)
            · split at ht
              · split at ht
                · exact absurd ht (by simp)
                · rename_i s1 hs1
                  simp only [SysResult.noreturn.injEq] at ht
                  rw [schedule_ptable ht]
                  have h1 := proc_free_slot_zero hs1 hz0
                  exact setRegs_slot_zero s1 (fun r => { r with reg_rax := 0 }) h1
              · exact absurd ht (by simp)

/-- A trap of a running (Runnable) process leaves slot 0 Free. -/
theorem exception_slot_zero {s : KState} (regs : regstate) (t : KState)
    (hz : (s.ptable 0).state = procstate.P_FREE)
    (hrun : (s.ptable s.current).state = procstate.P_RUNNABLE)
    (ht : exception K regs s = Outcome.resumed t) : (t.ptable 0).state = procstate.P_FREE := by
  have hz0 := setRegs_slot_zero s (fun _ => regs) hz
  have hfin : ∀ u, (u.ptable 0).state = procstate.P_FREE →
      exception_finish K u = Outcome.resumed t → (t.ptable 0).state = procstate.P_FREE := by
    intro u hu hh
    unfold exception_finish at hh
    split at hh
    · simp only [Outcome.resumed.injEq] at hh
      rw [← hh]
      exact hu
    · rw [schedule_ptable hh]
      exact hu
  unfold exception at ht
  simp only at ht
  split at ht
  · split at ht
    · rename_i v s1 hs1
      have h1 := (syscall_slot_zero regs hz0).1 v s1 hs1
      exact hfin _ (setRegs_slot_zero s1 (fun r => { r with reg_rax := v }) h1) ht
    · rename_i o ho
      rw [ht] at ho
      exact (syscall_slot_zero regs hz0).2 t ho
  · split at ht
    · rw [schedule_ptable ht]
      exact hz0
    · split at ht
      · split at ht
        · exact absurd ht (by simp)
        · refine hfin _ ?_ ht
          have hc : s.current ≠ 0 := by
            intro hh
            rw [hh, hz] at hrun
            exact absurd hrun (by decide)
          show (((s.setProc s.current fun p => { p with regs := regs }).setProc s.current
            fun p => { p with state := procstate.P_BROKEN }).ptable 0).state = procstate.P_FREE
          simp only [KState.setProc, upd]
          rw [if_neg (fun hh => hc hh.symm), if_neg (fun hh => hc hh.symm)]
          exact hz
      · exact absurd ht (by simp)

/-- At the first `run`, slot 0 is Free: `kernel` clears every slot and sets up
processes from slot 1 on. -/
theorem kernel_boot_slot_zero (hK : K.Geom) (E : BootEnv) (command : Option String)
    (hB : BootOK K E command) (s : KState) (hs : kernel K E command = Outcome.resumed s) :
    (s.ptable 0).state = procstate.P_FREE := by
  obtain ⟨rolek, hT, hroot, hna⟩ := hB.ktree
  unfold kernel at hs
  simp only at hs
  split at hs
  · exact absurd hs (by simp)
  rename_i s1 hs1
  obtain ⟨p1, p2, p3, p4, kv⟩ := kernel_map_loop_spec hK rolek hna hroot hB.kpt_al E.hw.mem
    hB.console_frame _ 0 { E.hw with ticks := 1 } (Nat.zero_mod _) hB.cursor hB.pages_clear hT
    hB.kmapped (fun vb _ h2 _ => absurd h2 (Nat.not_lt_zero vb)) rfl s1 hs1
  obtain ⟨q1, q2, q3, q4, q5⟩ := init_ptable_spec K.NPROC 0 s1
  have hfree : ∀ p, ¬ (init_ptable K.NPROC 0 s1).live p := by
    intro p
    unfold KState.live
    by_cases hp : p < K.NPROC
    · rw [(q4 p (Nat.zero_le _) (by omega)).2]
      simp
    · rw [q5 p (Or.inr (by omega)), p3]
      have := hB.procs_free p (by omega)
      simp only [ne_eq, not_not]
      exact this
  have hpg : ∀ f, (init_ptable K.NPROC 0 s1).pages f = { owner := 0, sharers := 0 } := by
    intro f
    rw [q1, p1]
    exact hB.pages_clear f
  have h2 : Inv K (init_ptable K.NPROC 0 s1) (fun _ => none) :=
    { cursor := by
        unfold cursorOK
        rw [q3, p2]
        exact hB.cursor
      tables := fun t p π hr => absurd hr (by simp)
      typed := fun t p π hr => absurd hr (by simp)
      spaces := fun p hp => absurd hp (hfree p)
      count := fun f => by
        rw [mappers_zero hK _ f (fun p _ hp => absurd hp (hfree p)), hpg f]
        decide
      sharers_nonneg := fun f => by rw [hpg f]
      free_unshared := fun f _ => by rw [hpg f]
      na_clear := fun f _ => hpg f
      pids := fun p hp => (q4 p (Nat.zero_le _) (by omega)).1 }
  have kv2 : KView K (init_ptable K.NPROC 0 s1).mem rolek := by rw [q2]; exact kv
  have hz : ((init_ptable K.NPROC 0 s1).ptable 0).state = procstate.P_FREE := by
    have := hfree 0
    unfold KState.live at this
    simpa using this
  have hfin : ∀ (s3 : KState), s3.ptable 0 = (init_ptable K.NPROC 0 s1).ptable 0 →
      (if (s3.ptable 1).state = procstate.P_RUNNABLE
        then Outcome.resumed { s3 with current := 1 } else Outcome.halted) =
        Outcome.resumed s → (s.ptable 0).state = procstate.P_FREE := by
    intro s3 h3 hh
    split at hh
    · simp only [Outcome.resumed.injEq] at hh
      rw [← hh]
      show (s3.ptable 0).state = procstate.P_FREE
      rw [h3]
      exact hz
    · exact absurd hh (by simp)
  have hn := hB.nproc
  have hfit := hB.fits_at hs1
  by_cases hc1 : command = some "fork"
  · rw [if_pos (Or.inl hc1)] at hn
    rw [if_pos hc1] at hs hfit
    split at hs
    · exact absurd hs (by simp)
    · rename_i s3 hs3
      obtain ⟨role3, _, _, _, a4, _⟩ := process_setup_spec hK E hB.segments hB.virt_al
        hB.virt_stack h2 kv2 1 4 hfit (hfree 1) hn s3 hs3
      exact hfin s3 (a4 0 (by decide)) hs
  · by_cases hc2 : command = some "forkexit"
    · rw [if_pos (Or.inr hc2)] at hn
      rw [if_neg hc1, if_pos hc2] at hs hfit
      split at hs
      · exact absurd hs (by simp)
      · rename_i s3 hs3
        obtain ⟨role3, _, _, _, a4, _⟩ := process_setup_spec hK E hB.segments hB.virt_al
          hB.virt_stack h2 kv2 1 5 hfit (hfree 1) hn s3 hs3
        exact hfin s3 (a4 0 (by decide)) hs
    · rw [if_neg (fun hh => hh.elim hc1 hc2)] at hn
      rw [if_neg hc1, if_neg hc2] at hs hfit
      split at hs
      · exact absurd hs (by simp)
      · rename_i s3 hs3
        obtain ⟨role3, _, _, a3, _⟩ := setup_default_spec hK E hB.segments hB.virt_al
          hB.virt_stack 4 1 _ _ h2 kv2 hfit (fun p _ => hfree p) (by omega) s3 hs3
        exact hfin s3 (a3 0 (by decide)) hs

/-- In every state in which a process runs, slot 0 is Free. -/
theorem reachable_slot_zero (hK : K.Geom) (E : BootEnv) (command : Option String)
    (hB : BootOK K E command) (s : KState) (hs : Reachable K E command s) :
    (s.ptable 0).state = procstate.P_FREE := by
  induction hs with
  | boot s h => exact kernel_boot_slot_zero hK E command hB s h
  | store s t va b _ h ih =>
    unfold user_store at h
    simp only at h
    split at h
    · simp only [Option.some.injEq] at h
      rw [← h]
      exact ih
    · exact absurd h (by simp)
  | trap s t regs hr h ih =>
    exact exception_slot_zero regs t ih (reachable_inv hK E command hB s hr).2 h
  | sysret s t regs v _ h ih => exact (syscall_slot_zero regs ih).1 v t h
  | sysrun s t regs _ h ih => exact (syscall_slot_zero regs ih).2 t h

end SlotZero

section SetupFun

variable {K : Config}

theorem Kept.id_step (sk : KState) : Kept K sk sk :=
  { ptable_eq := rfl
    pages_old := fun _ _ => rfl
    kwalk := fun _ => rfl }

/-- A frame that is free after the steps was free before. -/
theorem Kept.free_back {sk t : KState} (h : Kept K sk t) {f : Nat} (hf : isFreeFrame K t f) :
    isFreeFrame K sk f := by
  by_contra hn
  exact hn ((isFreeFrame_congr (h.pages_old f hn)).1 hf)

theorem Kept.chain {a b d : KState} (h1 : Kept K a b) (h2 : Kept K b d) : Kept K a d :=
  { ptable_eq := h2.ptable_eq.trans h1.ptable_eq
    pages_old := fun f hf =>
      (h2.pages_old f (fun hh => hf (h1.free_back hh))).trans (h1.pages_old f hf)
    kwalk := fun va => (h2.kwalk va).trans (h1.kwalk va) }

/-- A step that extends the tree of `c` keeps the frames in use and the kernel page
table. -/
theorem Kept.of_step (hK : K.Geom) {s : KState} {c cpt : Nat} {rolek : Roles} {sk : KState}
    {role1 : Roles} (si : SetupInv K s c cpt rolek sk role1) {sk2 : KState} {role2 : Roles}
    (he : Ext K c sk role1 sk2 role2) : Kept K sk sk2 :=
  { ptable_eq := he.ptable_eq
    pages_old := he.pages_old
    kwalk := vm_walk_root_congr hK si.kview.tables K.NPROC K.kernel_pagetable si.kview.root
      si.kview.root_al (fun a ha => by
        have hna := si.kview.na _ ha
        apply he.mem_old a
        · intro hh
          have := hh.1
          rw [hna] at this
          exact absurd this (by simp)
        · intro π hr
          have := (si.mid.inv.typed _ c π hr).2.1
          rw [hna] at this
          exact absurd this (by simp)) }

/-- Two page-aligned addresses of the translated span lie on one page only if they
are equal. -/
theorem not_samePage_aligned (hK : K.Geom) (va vb : Nat) (h1 : va % K.PAGESIZE = 0)
    (h2 : vb % K.PAGESIZE = 0) (hva : va < K.VA_SPAN) (hvb : vb < K.VA_SPAN) (hne : va ≠ vb) :
    ¬ samePage K va vb := by
  rw [samePage_iff hK, vpn_of_lt hK va hva, vpn_of_lt hK vb hvb]
  intro he
  apply hne
  rw [← aligned_eq (K := K) va h1, ← aligned_eq (K := K) vb h2, he]

/-- Addresses of the translated span with different page numbers lie on different
pages. -/
theorem not_samePage_lt (hK : K.Geom) (va vb : Nat) (hvb : vb < K.VA_SPAN)
    (h : va / K.PAGESIZE < vb / K.PAGESIZE) : ¬ samePage K va vb := by
  have hP := hK.page_pos
  have hva : va < K.VA_SPAN := by
    have h1 : va / K.PAGESIZE ≤ vb / K.PAGESIZE := Nat.le_of_lt h
    by_contra hh
    have : vb / K.PAGESIZE ≤ va / K.PAGESIZE := Nat.div_le_div_right (by omega)
    omega
  rw [samePage_iff hK, vpn_of_lt hK va hva, vpn_of_lt hK vb hvb]
  omega

theorem ent_samePage (s : KState) (c va vb : Nat) (h : samePage K va vb) :
    s.ent K c va = s.ent K c vb := by
  unfold KState.ent
  exact vm_walk_samePage s.mem 3 _ _ _ h.1 h.2

theorem start_lt_span (hK : K.Geom) : K.PROC_START_ADDR < K.VA_SPAN := by
  have := hK.start_half
  have := Nat.div_le_self K.VA_SPAN 2
  omega

/-- The first loop of `process_setup`: the child gets the kernel's leaf entry for
every page below `PROC_START_ADDR`. -/
theorem setup_kernel_loop_fun (hK : K.Geom) {s : KState} {c cpt : Nat} {rolek : Roles} :
    ∀ (n va : Nat) (sk : KState) (role1 : Roles), va % K.PAGESIZE = 0 →
    SetupInv K s c cpt rolek sk role1 → ∀ t, setup_kernel_loop K cpt n va sk = some t →
    ∃ role2, SetupInv K s c cpt rolek t role2 ∧ Kept K sk t ∧
      (∀ vb, vb % K.PAGESIZE = 0 → va ≤ vb → vb < K.PROC_START_ADDR →
        t.ent K c vb = copyEntry (vm_walk K sk.mem 3 K.kernel_pagetable vb)) ∧
      (∀ vb, vb % K.PAGESIZE = 0 → vb < va → t.ent K c vb = sk.ent K c vb) := by
  have hP := hK.page_pos
  have hsl := start_lt_span hK
  intro n
  induction n with
  | zero => intro va sk role1 _ _ t ht; simp [setup_kernel_loop] at ht
  | succ n ih =>
    intro va sk role1 hal si t ht
    rw [setup_kernel_loop] at ht
    by_cases hlt : va < K.PROC_START_ADDR
    · rw [if_pos hlt] at ht
      have hcan : va_is_canonical K va = true := by
        have := hK.start_half
        unfold va_is_canonical
        simp only [Bool.or_eq_true, decide_eq_true_eq]
        left; omega
      have hal2 : (va + K.PAGESIZE) % K.PAGESIZE = 0 := by rw [Nat.add_mod_right]; exact hal
      obtain ⟨_, _, w3, w4⟩ := vmiter_at (K := K) sk.mem K.kernel_pagetable va _ rfl hal
      simp only at ht
      rw [w3, w4, vmiter_map_eq _ _ _ _ _ hal hcan] at ht
      simp only at ht
      obtain ⟨hsum, h0⟩ := copy_args hK (vm_walk K sk.mem 3 K.kernel_pagetable va)
      have h64 : (if (if hasflag (vm_walk K sk.mem 3 K.kernel_pagetable va) PTE_P = true
            then pte_pa K (vm_walk K sk.mem 3 K.kernel_pagetable va) else UINTPTR_MAX)
            = UINTPTR_MAX ∧
          (if hasflag (vm_walk K sk.mem 3 K.kernel_pagetable va) PTE_P = true
            then pte_flags K (vm_walk K sk.mem 3 K.kernel_pagetable va) else 0) = 0 then 0
          else (if hasflag (vm_walk K sk.mem 3 K.kernel_pagetable va) PTE_P = true
            then pte_pa K (vm_walk K sk.mem 3 K.kernel_pagetable va) else UINTPTR_MAX)) +
          (if hasflag (vm_walk K sk.mem 3 K.kernel_pagetable va) PTE_P = true
            then pte_flags K (vm_walk K sk.mem 3 K.kernel_pagetable va) else 0) < 2 ^ 64 := by
        rw [hsum]
        split
        · exact vm_walk_lt _ _ _ _
        · norm_num
      obtain ⟨role2, hm, he, hw1, hw2⟩ := fork_map hK si.mid va _ _ h64 h0
      have hinv := si.mid.inv.install hK c (ghost_live sk c) hm _ rfl rfl rfl
        (fun t => Or.inl rfl) (by
          intro _ hu
          rw [hsum] at hu ⊢
          by_cases hp : hasflag (vm_walk K sk.mem 3 K.kernel_pagetable va) PTE_P = true
          · rw [if_pos hp] at hu ⊢
            obtain ⟨e1, e2⟩ := si.kview.entries va hal hlt hu
            have hsame : samePage K va K.console := by rw [e1]; exact samePage_refl _
            refine ⟨?_, fun _ => e2, fun hh => absurd hsame hh⟩
            cases hr : role1 (vm_walk K sk.mem 3 K.kernel_pagetable va / K.PAGESIZE) with
            | none => rfl
            | some x =>
              obtain ⟨p, π⟩ := x
              have := (si.mid.inv.typed _ p π hr).2.1
              unfold pte_pa at e2
              rw [e2] at this
              exact absurd this (by simp)
          · rw [if_neg hp] at hu
            exact absurd hu not_userPresent_zero)
      have si2 := si.of_ext hK he hinv
      have kp := Kept.of_step hK si he
      rw [hsum] at hw1
      generalize vm_map K 3 cpt va _ _ sk = X at ht si2 hw1 hw2 kp
      split at ht
      · rename_i hrc
        obtain ⟨role3, si3, kp3, e1, e2⟩ := ih _ _ _ hal2 si2 t ht
        refine ⟨role3, si3, kp.chain kp3, ?_, ?_⟩
        · intro vb hvb h1 h2
          by_cases hv : vb = va
          · subst hv
            rw [e2 vb hvb (by omega), hw1 vb hrc (samePage_refl _)]
            rfl
          · have h3 : va + K.PAGESIZE ≤ vb := by
              by_contra hh
              rcases aligned_lt_succ hP vb va hvb hal (by omega) with h | h
              · omega
              · exact hv h
            rw [e1 vb hvb h3 h2, kp.kwalk vb]
        · intro vb hvb h1
          rw [e2 vb hvb (by omega)]
          apply hw2 vb
          intro hh
          exact not_samePage_aligned hK vb va hvb hal (by omega) (by omega) (by omega) hh.2
      · exact absurd ht (by simp)
    · rw [if_neg hlt] at ht
      simp only [Option.some.injEq] at ht
      rw [← ht]
      exact ⟨role1, si, Kept.id_step sk, fun vb _ h1 h2 => absurd h2 (by omega), fun _ _ _ => rfl⟩

/-- One page of a segment or the stack page: a frame that was free is allocated and
mapped; the other pages of the child are as before. -/
theorem setup_step_fun (hK : K.Geom) {s : KState} {c cpt : Nat} {rolek : Roles} {sk : KState}
    {role1 : Roles} (si : SetupInv K s c cpt rolek sk role1) (a perm : Nat)
    (hlt : a < K.MEMSIZE_VIRTUAL) (hge : K.PROC_START_ADDR ≤ a)
    (hperm : perm = PTE_P + PTE_W + PTE_U ∨ perm = PTE_P + PTE_U)
    (hr : (kalloc K K.PAGESIZE sk).1 ≠ 0) :
    ∃ f role2, isFreeFrame K sk f ∧
      SetupInv K s c cpt rolek
        (vm_map K 3 cpt a (kalloc K K.PAGESIZE sk).1 perm (kalloc K K.PAGESIZE sk).2).2 role2 ∧
      Kept K sk
        (vm_map K 3 cpt a (kalloc K K.PAGESIZE sk).1 perm (kalloc K K.PAGESIZE sk).2).2 ∧
      ((vm_map K 3 cpt a (kalloc K K.PAGESIZE sk).1 perm (kalloc K K.PAGESIZE sk).2).1 = 0 →
        ∀ vb, samePage K vb a →
          (vm_map K 3 cpt a (kalloc K K.PAGESIZE sk).1 perm
            (kalloc K K.PAGESIZE sk).2).2.ent K c vb = f * K.PAGESIZE + perm) ∧
      (∀ vb, ¬ samePage K vb a →
        (vm_map K 3 cpt a (kalloc K K.PAGESIZE sk).1 perm
          (kalloc K K.PAGESIZE sk).2).2.ent K c vb = sk.ent K c vb) := by
  have hP := hK.page_pos
  have hP8 := hK.page_ge
  have hpl : perm < K.PAGESIZE := by
    rcases hperm with e | e <;> rw [e] <;> simp only [PTE_P, PTE_W, PTE_U] <;> omega
  have hp0 : perm ≠ 0 := by
    rcases hperm with e | e <;> rw [e] <;> decide
  have hia := si.mid.inv.alloc hK
  rw [kalloc_ghost] at hia
  simp only at hia
  obtain ⟨hinv1, _, _, hres⟩ := hia
  have he1 := Ext.of_kalloc hK c sk role1 si.mid.inv.cursor si.mid.inv.rolesOwned
  have si1 := si.of_ext hK he1 hinv1
  have kp1 := Kept.of_step hK si he1
  rcases hres with h0 | ⟨f, hf1, _, hfree, hka⟩
  · exact absurd h0 hr
  refine ⟨f, ?_⟩
  rw [hf1]
  have hncs := not_console_above hK a (lt_span_of_lt_virt hK a hlt) hge
  have hpgf : (kalloc K K.PAGESIZE sk).2.pages f = { owner := -1, sharers := 0 } := by
    have : ((kalloc K K.PAGESIZE sk).2.ghost c).pages f = { owner := -1, sharers := 0 } := by
      rw [hka]; exact kalloc_at_pages hP _ f
    exact this
  have hrolef : role1 f = none := si.mid.inv.free_untyped f hfree
  obtain ⟨role2, hm, he2, hw1, hw2⟩ := fork_map hK si1.mid a (f * K.PAGESIZE) perm
    (alloc_lt_64 hK f _ hfree.1 hpl) (fun h0 => absurd h0 hp0)
  have hinv2 : Inv K ((vm_map K 3 cpt a (f * K.PAGESIZE) perm
      (kalloc K K.PAGESIZE sk).2).2.ghost c) role2 := by
    apply hinv1.install_fresh hK c (ghost_live _ c) f a _ hfree.1 _ hrolef _ hpl hncs hm
    · show ((kalloc K K.PAGESIZE sk).2.pages f).owner ≠ 0
      rw [hpgf]; decide
    · rw [hka]
      exact fun q hq vb hu => kalloc_at_unmapped hK si.mid.inv f hfree q hq vb hu
  have kp2 := Kept.of_step hK si1 he2
  refine ⟨role2, hfree, si1.of_ext hK he2 hinv2, kp1.chain kp2, ?_, ?_⟩
  · intro hrc vb hs
    exact hw1 vb hrc hs
  · intro vb hs
    rw [hw2 vb (fun hh => hs hh.2), kalloc_child_ent hK si.mid vb]

/-- Two addresses with the same page number lie on one page. -/
theorem samePage_of_div (hK : K.Geom) (va vb : Nat) (hva : va < K.VA_SPAN) (hvb : vb < K.VA_SPAN)
    (h : va / K.PAGESIZE = vb / K.PAGESIZE) : samePage K va vb := by
  rw [samePage_iff hK, vpn_of_lt hK va hva, vpn_of_lt hK vb hvb]
  exact h

/-- Addresses of the translated span with different page numbers lie on different
pages. -/
theorem not_samePage_ne (hK : K.Geom) (va vb : Nat) (hva : va < K.VA_SPAN) (hvb : vb < K.VA_SPAN)
    (h : va / K.PAGESIZE ≠ vb / K.PAGESIZE) : ¬ samePage K va vb := by
  rw [samePage_iff hK, vpn_of_lt hK va hva, vpn_of_lt hK vb hvb]
  exact h

/-- An address of the page that starts at the aligned address `a`. -/
theorem div_eq_of_page (hP : 0 < K.PAGESIZE) (a vb : Nat) (hal : a % K.PAGESIZE = 0)
    (h1 : a ≤ vb) (h2 : vb < a + K.PAGESIZE) : vb / K.PAGESIZE = a / K.PAGESIZE := by
  have h3 := aligned_eq (K := K) a hal
  apply Nat.le_antisymm
  · apply Nat.le_of_lt_succ
    rw [Nat.div_lt_iff_lt_mul hP, Nat.succ_mul, h3]
    exact h2
  · exact Nat.div_le_div_right h1

/-- An address beyond the page that starts at the aligned address `a`. -/
theorem div_lt_of_next (hP : 0 < K.PAGESIZE) (a u : Nat)
    (h : a + K.PAGESIZE ≤ u) : a / K.PAGESIZE < u / K.PAGESIZE := by
  have h4 : (a + K.PAGESIZE) / K.PAGESIZE ≤ u / K.PAGESIZE := Nat.div_le_div_right h
  rw [Nat.add_div_right _ hP] at h4
  exact h4

/-- The loop over the pages of a segment: every page from `a` up to `stop` is mapped
to a frame that was free; the other pages of the child are as before. -/
theorem setup_segment_pages_fun (hK : K.Geom) {s : KState} {c cpt : Nat} {rolek : Roles}
    (w : Bool) (stop : Nat) (hstop : stop ≤ K.MEMSIZE_VIRTUAL) :
    ∀ (n a : Nat) (sk : KState) (role1 : Roles), a % K.PAGESIZE = 0 →
    K.PROC_START_ADDR ≤ a → SetupInv K s c cpt rolek sk role1 →
    ∀ t, setup_segment_pages K cpt w stop n a sk = some t →
    ∃ role2, SetupInv K s c cpt rolek t role2 ∧ Kept K sk t ∧
      (∀ vb, a ≤ vb → vb < stop →
        ∃ f, isFreeFrame K sk f ∧ t.ent K c vb = f * K.PAGESIZE + segPerm w) ∧
      (∀ vb, (∀ u, a ≤ u → u < stop → ¬ samePage K vb u) → t.ent K c vb = sk.ent K c vb) := by
  have hP := hK.page_pos
  intro n
  induction n with
  | zero => intro a sk role1 _ _ _ t ht; simp [setup_segment_pages] at ht
  | succ n ih =>
    intro a sk role1 hal hge si t ht
    rw [setup_segment_pages] at ht
    by_cases hlt : a < stop
    · rw [if_pos hlt] at ht
      simp only at ht
      by_cases hr : (kalloc K K.PAGESIZE sk).1 = 0
      · rw [if_pos hr] at ht
        exact absurd ht (by simp)
      · rw [if_neg hr] at ht
        have hcan := canonical_of_lt_virt hK a (by omega)
        have hperm : segPerm w = PTE_P + PTE_W + PTE_U ∨ segPerm w = PTE_P + PTE_U := by
          unfold segPerm
          cases w <;> simp
        have hfold : (if w = true then PTE_P + PTE_W + PTE_U else PTE_P + PTE_U) = segPerm w := rfl
        rw [hfold] at ht
        rw [vmiter_map_eq _ _ _ _ _ hal hcan, if_neg (fun hh => by
          rcases hperm with e | e <;> rw [e] at hh <;> exact absurd hh.2 (by decide))] at ht
        simp only at ht
        obtain ⟨f, role2, hf, si2, kp, m1, m2⟩ := setup_step_fun hK si a _ (by omega) hge hperm hr
        generalize vm_map K 3 cpt a _ _ _ = X at ht si2 kp m1 m2
        split at ht
        · rename_i hrc
          have hal2 : (a + K.PAGESIZE) % K.PAGESIZE = 0 := by
            rw [Nat.add_mod_right]; exact hal
          obtain ⟨role3, si3, kp3, e1, e2⟩ := ih _ _ _ hal2 (by omega) si2 t ht
          have hspan : ∀ u, u < stop → u < K.VA_SPAN := fun u hu =>
            lt_span_of_lt_virt hK u (by omega)
          refine ⟨role3, si3, kp.chain kp3, ?_, ?_⟩
          · intro vb h1 h2
            by_cases hvb : vb < a + K.PAGESIZE
            · refine ⟨f, hf, ?_⟩
              have hq := div_eq_of_page hP a vb hal h1 hvb
              rw [e2 vb (fun u hu1 hu2 => not_samePage_lt hK vb u (hspan u hu2) (by
                have := div_lt_of_next hP a u hu1
                omega))]
              exact m1 hrc vb (samePage_of_div hK vb a (hspan vb h2) (hspan a hlt) hq)
            · obtain ⟨f2, hf2, he2⟩ := e1 vb (by omega) h2
              exact ⟨f2, kp.free_back hf2, he2⟩
          · intro vb hvb
            rw [e2 vb (fun u hu1 hu2 => hvb u (by omega) hu2)]
            exact m2 vb (hvb a (le_refl _) hlt)
        · exact absurd ht (by simp)
    · rw [if_neg hlt] at ht
      simp only [Option.some.injEq] at ht
      rw [← ht]
      exact ⟨role1, si, Kept.id_step sk, fun vb h1 h2 => absurd h2 (by omega), fun _ _ => rfl⟩

/-- The pages of segments that lie apart are different. -/
theorem segApart.not_samePage (hK : K.Geom) {x y : segment} (h : segApart K x y) (u v : Nat)
    (hu1 : x.va / K.PAGESIZE * K.PAGESIZE ≤ u) (hu2 : u < x.va + x.size)
    (hv1 : y.va / K.PAGESIZE * K.PAGESIZE ≤ v) (hv2 : v < y.va + y.size)
    (hx : x.va + x.size ≤ K.MEMSIZE_VIRTUAL) (hy : y.va + y.size ≤ K.MEMSIZE_VIRTUAL) :
    ¬ samePage K u v := by
  have hP := hK.page_pos
  apply not_samePage_ne hK u v (lt_span_of_lt_virt hK u (by omega))
    (lt_span_of_lt_virt hK v (by omega))
  have a1 : x.va / K.PAGESIZE ≤ u / K.PAGESIZE := by
    have := Nat.div_le_div_right (c := K.PAGESIZE) hu1
    rwa [Nat.mul_div_cancel _ hP] at this
  have a2 : y.va / K.PAGESIZE ≤ v / K.PAGESIZE := by
    have := Nat.div_le_div_right (c := K.PAGESIZE) hv1
    rwa [Nat.mul_div_cancel _ hP] at this
  have a3 : u / K.PAGESIZE < (x.va + x.size + K.PAGESIZE - 1) / K.PAGESIZE := by
    have h1 : (u + K.PAGESIZE) / K.PAGESIZE ≤ (x.va + x.size + K.PAGESIZE - 1) / K.PAGESIZE :=
      Nat.div_le_div_right (by omega)
    rw [Nat.add_div_right _ hP] at h1
    exact h1
  have a4 : v / K.PAGESIZE < (y.va + y.size + K.PAGESIZE - 1) / K.PAGESIZE := by
    have h1 : (v + K.PAGESIZE) / K.PAGESIZE ≤ (y.va + y.size + K.PAGESIZE - 1) / K.PAGESIZE :=
      Nat.div_le_div_right (by omega)
    rw [Nat.add_div_right _ hP] at h1
    exact h1
  unfold segApart at h
  omega

/-- The loop of `process_setup` that allocates the pages of the segments: every page
of a segment is mapped to a frame that was free, with the permissions of the segment
that was mapped last on this page. -/
theorem setup_alloc_fun (hK : K.Geom) {s : KState} {c cpt : Nat} {rolek : Roles} :
    ∀ (gs : List segment) (sk : KState) (role1 : Roles),
    (∀ g ∈ gs, K.PROC_START_ADDR ≤ g.va ∧ g.va + g.size ≤ K.MEMSIZE_VIRTUAL) →
    SetupInv K s c cpt rolek sk role1 → ∀ t, setup_alloc K cpt gs sk = some t →
    ∃ role2, SetupInv K s c cpt rolek t role2 ∧ Kept K sk t ∧
      (∀ vb, (∀ g ∈ gs, ∀ u, g.va / K.PAGESIZE * K.PAGESIZE ≤ u → u < g.va + g.size →
        ¬ samePage K vb u) → t.ent K c vb = sk.ent K c vb) ∧
      (∀ g ∈ gs, ∀ vb, g.va / K.PAGESIZE * K.PAGESIZE ≤ vb → vb < g.va + g.size →
        ∃ f w, isFreeFrame K sk f ∧ t.ent K c vb = f * K.PAGESIZE + segPerm w ∧
        (gs.Pairwise (segApart K) → w = g.writable)) := by
  have hP := hK.page_pos
  intro gs
  induction gs with
  | nil =>
    intro sk role1 _ si t ht
    simp only [setup_alloc, Option.some.injEq] at ht
    rw [← ht]
    exact ⟨role1, si, Kept.id_step sk, fun _ _ => rfl, fun g hg => absurd hg (List.not_mem_nil g)⟩
  | cons g gs ih =>
    intro sk role1 hgs si t ht
    simp only [setup_alloc] at ht
    split at ht
    · exact absurd ht (by simp)
    · rename_i s1 hs1
      obtain ⟨hg1, hg2⟩ := hgs g (List.mem_cons_self _ _)
      have hge : K.PROC_START_ADDR ≤ g.va / K.PAGESIZE * K.PAGESIZE := by
        have h2 := aligned_eq (K := K) _ hK.start_al
        have h3 : K.PROC_START_ADDR / K.PAGESIZE ≤ g.va / K.PAGESIZE := Nat.div_le_div_right hg1
        have := Nat.mul_le_mul_right K.PAGESIZE h3
        omega
      obtain ⟨role2, si2, kp2, e1, e2⟩ := setup_segment_pages_fun hK g.writable
        (g.va + g.size) hg2 _ _ sk role1 (Nat.mul_mod_left _ _) hge si s1 hs1
      obtain ⟨role3, si3, kp3, m1, m2⟩ := ih s1 role2
        (fun x hx => hgs x (List.mem_cons_of_mem _ hx)) si2 t ht
      refine ⟨role3, si3, kp2.chain kp3, ?_, ?_⟩
      · intro vb hvb
        rw [m1 vb (fun x hx => hvb x (List.mem_cons_of_mem _ hx))]
        exact e2 vb (hvb g (List.mem_cons_self _ _))
      · intro x hx vb hv1 hv2
        rcases List.mem_cons.1 hx with e | e
        · subst e
          by_cases hsp : ∃ y ∈ gs, ∃ u, y.va / K.PAGESIZE * K.PAGESIZE ≤ u ∧ u < y.va + y.size ∧
              samePage K vb u
          · obtain ⟨y, hy, u, hu1, hu2, hxy⟩ := hsp
            obtain ⟨f2, w2, a1, a2, _⟩ := m2 y hy u hu1 hu2
            refine ⟨f2, w2, kp2.free_back a1, ?_, ?_⟩
            · rw [ent_samePage t c _ _ hxy]
              exact a2
            · intro hpw
              exact absurd hxy (((List.pairwise_cons.1 hpw).1 y hy).not_samePage hK vb u hv1 hv2
                hu1 hu2 hg2 (hgs y (List.mem_cons_of_mem _ hy)).2)
          · have hno : ∀ y ∈ gs, ∀ u, y.va / K.PAGESIZE * K.PAGESIZE ≤ u → u < y.va + y.size →
                ¬ samePage K vb u := fun y hy u hu1 hu2 hh => hsp ⟨y, hy, u, hu1, hu2, hh⟩
            obtain ⟨f, hf, he⟩ := e1 vb hv1 hv2
            refine ⟨f, x.writable, hf, ?_, fun _ => rfl⟩
            rw [m1 vb hno]
            exact he
        · obtain ⟨f3, w3, b1, b2, b3⟩ := m2 x e vb hv1 hv2
          exact ⟨f3, w3, kp2.free_back b1, b2, fun hpw => b3 (List.pairwise_cons.1 hpw).2⟩

/-- The loop of `process_setup` that clears the segments and copies their data
changes no leaf entry of the child and nothing of the kernel page table, when every
segment lies in consecutive physical addresses. -/
theorem setup_copy_fun (hK : K.Geom) {s : KState} {c cpt : Nat} {rolek : Roles}
    {role1 : Roles} : ∀ (gs : List segment) (sk : KState),
    (∀ g ∈ gs, K.PROC_START_ADDR ≤ g.va ∧ g.va + g.size ≤ K.MEMSIZE_VIRTUAL ∧
      copyFits K sk.mem cpt g ∧ g.data_size ≤ g.size ∧
      (∀ i, i < g.size → userPresent (sk.ent K c (g.va + i)))) →
    SetupInv K s c cpt rolek sk role1 →
    SetupInv K s c cpt rolek (setup_copy K cpt gs sk) role1 ∧
    Kept K sk (setup_copy K cpt gs sk) ∧
    ∀ vb, (setup_copy K cpt gs sk).ent K c vb = sk.ent K c vb := by
  have hP := hK.page_pos
  intro gs
  induction gs with
  | nil => intro sk _ si; exact ⟨si, Kept.id_step sk, fun _ => rfl⟩
  | cons g gs ih =>
    intro sk hgs si
    simp only [setup_copy]
    obtain ⟨g1, g2, g3, g4, g5⟩ := hgs g (List.mem_cons_self _ _)
    have hchg : ∀ a, memload (memset sk.mem
        (vmiter.pa K sk.mem { pt := cpt, va := g.va }) 0 g.size)
        (vmiter.pa K sk.mem { pt := cpt, va := g.va }) g.data g.data_size a ≠ sk.mem a →
        role1 (a / K.PAGESIZE) = none ∧ rolek (a / K.PAGESIZE) = none := by
      intro a ha
      have hin : vmiter.pa K sk.mem { pt := cpt, va := g.va } ≤ a ∧
          a < vmiter.pa K sk.mem { pt := cpt, va := g.va } + g.size := by
        by_contra hh
        apply ha
        unfold memload memset
        rw [if_neg (fun h1 => hh ⟨h1.1, by omega⟩), if_neg hh]
      obtain ⟨i, hi, hai⟩ : ∃ i, i < g.size ∧
          a = vmiter.pa K sk.mem { pt := cpt, va := g.va } + i :=
        ⟨a - vmiter.pa K sk.mem { pt := cpt, va := g.va }, by omega, by omega⟩
      have hu : userPresent (sk.ent K c (g.va + i)) := g5 i hi
      have hu2 : userPresent ((sk.ghost c).ent K c (g.va + i)) := by rw [ghost_ent]; exact hu
      have hwalk : vm_walk K sk.mem 3 cpt (g.va + i) = sk.ent K c (g.va + i) :=
        (ent_eq sk c cpt si.mid.croot (g.va + i)).symm
      have hpa := vmiter_pa_of_present (K := K) sk.mem cpt (g.va + i) (by rw [hwalk]; exact hu.1)
      rw [hwalk] at hpa
      have hfr : a / K.PAGESIZE = sk.ent K c (g.va + i) / K.PAGESIZE := by
        rw [hai, ← g3.bytes hK g2 (fun j hj => by
          rw [← ent_eq sk c cpt si.mid.croot]; exact (g5 j hj).1) i hi, hpa]
        unfold pte_pa
        apply frame_add hP
        exact Nat.mod_lt _ hP
      have hsC := (si.mid.inv.spaces c (ghost_live sk c)).2
      have hnc := not_console_above hK (g.va + i) (lt_span_of_lt_virt hK _ (by omega)) (by omega)
      have h1 := hsC.user_untyped (g.va + i) hu2
      have h2 := (hsC.user_owned (g.va + i) hu2 hnc).1
      rw [ghost_ent] at h1 h2
      rw [hfr]
      refine ⟨h1, ?_⟩
      cases hr : rolek (sk.ent K c (g.va + i) / K.PAGESIZE) with
      | none => rfl
      | some x =>
        have := si.kview.na _ (by rw [hr]; simp)
        unfold pte_pa at h2
        rw [h2] at this
        exact absurd this (by simp)
    have hsame : ∀ a, role1 (a / K.PAGESIZE) ≠ none ∨ rolek (a / K.PAGESIZE) ≠ none →
        memload (memset sk.mem (vmiter.pa K sk.mem { pt := cpt, va := g.va }) 0 g.size)
          (vmiter.pa K sk.mem { pt := cpt, va := g.va }) g.data g.data_size a = sk.mem a := by
      intro a ha
      by_contra hne
      obtain ⟨b1, b2⟩ := hchg a hne
      rcases ha with ha | ha
      · exact ha b1
      · exact ha b2
    have hinv := si.mid.inv.mem_congr hK _ (fun a ha => hsame a (Or.inl ha))
    have hent : ∀ vb, KState.ent K
        { sk with mem := (memload (memset sk.mem
            (vmiter.pa K sk.mem { pt := cpt, va := g.va }) 0 g.size)
            (vmiter.pa K sk.mem { pt := cpt, va := g.va }) g.data g.data_size) } c vb =
        sk.ent K c vb := by
      intro vb
      show vm_walk K _ 3 (sk.ptable c).pagetable vb = vm_walk K sk.mem 3 (sk.ptable c).pagetable vb
      rw [si.mid.croot]
      exact vm_walk_root_congr hK si.mid.inv.tables c cpt si.mid.root_role.1
        si.mid.root_role.2.1 (fun a ha => hsame a (Or.inl ha)) vb
    have kp1 : Kept K sk { sk with mem := (memload (memset sk.mem
            (vmiter.pa K sk.mem { pt := cpt, va := g.va }) 0 g.size)
            (vmiter.pa K sk.mem { pt := cpt, va := g.va }) g.data g.data_size) } :=
      { ptable_eq := rfl
        pages_old := fun _ _ => rfl
        kwalk := vm_walk_root_congr hK si.kview.tables K.NPROC K.kernel_pagetable si.kview.root
          si.kview.root_al (fun a ha => hsame a (Or.inr ha)) }
    obtain ⟨r1, r2, r3⟩ := ih { sk with mem := (memload (memset sk.mem
            (vmiter.pa K sk.mem { pt := cpt, va := g.va }) 0 g.size)
            (vmiter.pa K sk.mem { pt := cpt, va := g.va }) g.data g.data_size) }
      (by
        intro x hx
        obtain ⟨a1, a2, a3, a4, a5⟩ := hgs x (List.mem_cons_of_mem _ hx)
        refine ⟨a1, a2, ?_, a4, fun i hi => ?_⟩
        · exact (copyFits_congr (fun vb => by
            have := hent vb
            rw [ent_eq _ c cpt (by exact si.mid.croot), ent_eq sk c cpt si.mid.croot] at this
            exact this) x).2 a3
        · rw [hent]
          exact a5 i hi)
      { mid := si.mid.step hinv rfl rfl
            (si.mid.mem_same (fun a ha => hsame a (Or.inl ha)))
        kview := si.kview.congr_view hK (fun a ha => hsame a (Or.inr ha)) }
    exact ⟨r1, kp1.chain r2, fun vb => (r3 vb).trans (hent vb)⟩

theorem userPresent_seg (hK : K.Geom) (f : Nat) (w : Bool) :
    userPresent (f * K.PAGESIZE + segPerm w) := by
  have hP8 := hK.page_ge
  have hpl : segPerm w < K.PAGESIZE := by
    unfold segPerm
    cases w <;> simp [PTE_P, PTE_W, PTE_U] <;> omega
  unfold userPresent
  rw [hasflag_mk hK f _ PTE_P hpl (Or.inl rfl), hasflag_mk hK f _ PTE_U hpl (Or.inr (Or.inr rfl))]
  unfold segPerm
  cases w <;> decide

/-- What `process_setup` of a Free slot achieves, for a program whose segments lie
between `PROC_START_ADDR` and `MEMSIZE_VIRTUAL` and are found in consecutive physical
addresses by the copy loop. -/
theorem process_setup_fun (hK : K.Geom) (E : BootEnv) (c n : Nat)
    (hseg : ∀ g ∈ (E.programs n).segments,
      K.PROC_START_ADDR ≤ g.va ∧ g.va + g.size ≤ K.MEMSIZE_VIRTUAL ∧ g.data_size ≤ g.size)
    (hval : K.MEMSIZE_VIRTUAL % K.PAGESIZE = 0)
    (hvs : K.PROC_START_ADDR + K.PAGESIZE ≤ K.MEMSIZE_VIRTUAL)
    {s : KState} {role rolek : Roles} (h : Inv K s role) (kv : KView K s.mem rolek)
    (hfit : setupFits K E c n s)
    (hc : ¬ s.live c) (hcn : c < K.NPROC) (t : KState)
    (ht : process_setup K E c n s = some t) :
    (∃ role2, Inv K t role2 ∧ KView K t.mem rolek) ∧
    (t.ptable c).state = procstate.P_RUNNABLE ∧ (∀ q, q ≠ c → t.ptable q = s.ptable q) ∧
    t.current = s.current ∧
    (t.ptable c).regs =
      { E.init_regs with reg_rip := (E.programs n).entry, reg_rsp := K.MEMSIZE_VIRTUAL } ∧
    (∀ f, ¬ isFreeFrame K s f → t.pages f = s.pages f) ∧
    (∀ va, vm_walk K t.mem 3 K.kernel_pagetable va = vm_walk K s.mem 3 K.kernel_pagetable va) ∧
    (∀ va, va % K.PAGESIZE = 0 → va < K.PROC_START_ADDR →
      t.ent K c va = copyEntry (vm_walk K s.mem 3 K.kernel_pagetable va)) ∧
    (∃ fs, isFreeFrame K s fs ∧
      t.ent K c (K.MEMSIZE_VIRTUAL - K.PAGESIZE) = fs * K.PAGESIZE + (PTE_P + PTE_W + PTE_U)) ∧
    (∀ g ∈ (E.programs n).segments, ∀ i, i < g.size →
      g.va + i < K.MEMSIZE_VIRTUAL - K.PAGESIZE →
      ∃ f w, isFreeFrame K s f ∧ t.ent K c (g.va + i) = f * K.PAGESIZE + segPerm w ∧
        ((E.programs n).segments.Pairwise (segApart K) → w = g.writable)) := by
  have hP := hK.page_pos
  have h0 := h.setRegs hK c (fun _ => E.init_regs)
  have hc0 : ¬ (s.setProc c fun p => { p with regs := E.init_regs }).live c := by
    simp only [KState.live, KState.setProc, upd, if_true]
    exact hc
  have hcf : ((s.setProc c fun p => { p with regs := E.init_regs }).ptable c).state =
      procstate.P_FREE := by
    unfold KState.live at hc0
    simpa using hc0
  have hcf2 : (s.ptable c).state = procstate.P_FREE := by
    unfold KState.live at hc
    simpa using hc
  rcases kalloc_spec hK.wf _ h0.cursor with ⟨_, hno, _⟩ | ⟨f, hf1, hf2, hf3⟩
  · have := process_setup_nofree hK E c n s ⟨h.cursor, hno⟩
    rw [this] at ht
    exact absurd ht (by simp)
  have hcurs : cursorOK K (kalloc_at K (s.setProc c fun p => { p with regs := E.init_regs })
      (f * K.PAGESIZE)) := by
    rw [← hf3]; exact kalloc_cursorOK hK.wf _ _ h0.cursor
  have hrk : rolek f = none := by
    cases hr : rolek f with
    | none => rfl
    | some x =>
      have := kv.na f (by rw [hr]; simp)
      rw [hf2.1] at this
      exact absurd this (by simp)
  have si1 : SetupInv K (s.setProc c fun p => { p with regs := E.init_regs }) c (f * K.PAGESIZE)
      rolek ((kalloc_at K (s.setProc c fun p => { p with regs := E.init_regs })
        (f * K.PAGESIZE)).setProc c fun p => { p with pagetable := f * K.PAGESIZE })
      (addRoot role f c) :=
    { mid :=
        { inv := by
            refine h0.new_root hK c hc0 hcn f hf2 hcurs _ ?_ ?_ ?_ ?_ ?_ ?_ ?_
            · rfl
            · rfl
            · rfl
            · intro q hq
              simp [KState.ghost, KState.setProc, upd, hq, kalloc_at]
            · simp [KState.ghost, KState.setProc, upd]
            · simp [KState.ghost, KState.setProc, upd, kalloc_at]
            · exact ghost_live _ c
          current_eq := rfl
          ptable_old := fun q hq => by simp [KState.setProc, upd, hq, kalloc_at]
          cstate := by
            simp only [KState.setProc, upd, if_true, kalloc_at]
            exact hcf2
          cpid := by simp [KState.setProc, upd, kalloc_at]
          croot := by simp [KState.setProc, upd]
          others_mem := fun a q π hr hq => by
            show (kalloc_at K _ (f * K.PAGESIZE)).mem a = _
            simp only [kalloc_at]
            rw [memset_frame hP, if_neg]
            intro hh
            rw [hh] at hr
            simp only [addRoot, if_true, Option.some.injEq, Prod.mk.injEq] at hr
            exact hq hr.1.symm }
      kview := kv.congr_view hK (fun a ha => by
        show (kalloc_at K _ (f * K.PAGESIZE)).mem a = _
        simp only [kalloc_at]
        rw [memset_frame hP, if_neg]
        · rfl
        · intro hh
          rw [hh] at ha
          exact ha hrk) }
  -- the state after the root table is allocated, relative to `s`
  have hfs : isFreeFrame K s f := hf2
  have pg1 : ∀ g, ¬ isFreeFrame K s g →
      ((kalloc_at K (s.setProc c fun p => { p with regs := E.init_regs })
        (f * K.PAGESIZE)).setProc c fun p => { p with pagetable := f * K.PAGESIZE }).pages g
        = s.pages g := by
    intro g hg
    show (upd _ _ _ g) = _
    rw [frame_mul hP]
    have hne : g ≠ f := fun hh => hg (hh ▸ hfs)
    simp only [upd, if_neg hne]
    rfl
  have kw1 : ∀ va, vm_walk K
      ((kalloc_at K (s.setProc c fun p => { p with regs := E.init_regs })
        (f * K.PAGESIZE)).setProc c fun p => { p with pagetable := f * K.PAGESIZE }).mem 3
        K.kernel_pagetable va = vm_walk K s.mem 3 K.kernel_pagetable va :=
    vm_walk_root_congr hK kv.tables K.NPROC K.kernel_pagetable kv.root kv.root_al (fun a ha => by
      show (kalloc_at K _ (f * K.PAGESIZE)).mem a = _
      simp only [kalloc_at]
      rw [memset_frame hP, if_neg]
      · rfl
      · intro hh
        rw [hh] at ha
        exact ha hrk)
  have rg1 : (((kalloc_at K (s.setProc c fun p => { p with regs := E.init_regs })
        (f * K.PAGESIZE)).setProc c fun p => { p with pagetable := f * K.PAGESIZE }).ptable
          c).regs = E.init_regs := by
    simp [KState.setProc, upd, kalloc_at]
  have fr1 : ∀ g, isFreeFrame K
      ((kalloc_at K (s.setProc c fun p => { p with regs := E.init_regs })
        (f * K.PAGESIZE)).setProc c fun p => { p with pagetable := f * K.PAGESIZE }) g →
      isFreeFrame K s g := by
    intro g hg
    by_contra hn
    exact hn ((isFreeFrame_congr (pg1 g hn)).1 hg)
  have hmap := setup_mapped_eq (K := K) E c n s
  unfold process_setup at ht
  simp only at ht
  rw [hf1, hf3] at ht hmap
  generalize hs1 : ((kalloc_at K (s.setProc c fun p => { p with regs := E.init_regs })
        (f * K.PAGESIZE)).setProc c fun p => { p with pagetable := f * K.PAGESIZE }) = s1
    at ht si1 pg1 kw1 rg1 fr1 hmap
  split at ht
  · exact absurd ht (by simp)
  rename_i s2 hs2
  obtain ⟨role2, si2, kp2, ek, _⟩ := setup_kernel_loop_fun hK _ 0 _ _ (Nat.zero_mod _) si1 s2 hs2
  split at ht
  · exact absurd ht (by simp)
  rename_i s3 hs3
  obtain ⟨role3, si3, kp3, ma1, ma2⟩ := setup_alloc_fun hK _ s2 role2
    (fun g hg => ⟨(hseg g hg).1, (hseg g hg).2.1⟩) si2 s3 hs3
  have hfit3 : ∀ g ∈ (E.programs n).segments, copyFits K s3.mem (f * K.PAGESIZE) g := by
    intro g hg
    have := hfit s3 (hmap s2 s3 hs2 hs3) g hg
    rw [si3.mid.croot] at this
    exact this
  obtain ⟨si4, kp4, e4⟩ := setup_copy_fun hK (E.programs n).segments s3
    (fun g hg => ⟨(hseg g hg).1, (hseg g hg).2.1, hfit3 g hg, (hseg g hg).2.2,
      fun i hi => by
        obtain ⟨f2, w2, _, a2, _⟩ := ma2 g hg (g.va + i)
          (by have := Nat.div_mul_le_self g.va K.PAGESIZE; omega) (by omega)
        rw [a2]
        exact userPresent_seg hK f2 w2⟩) si3
  have kp14 : Kept K s1 (setup_copy K (f * K.PAGESIZE) (E.programs n).segments s3) :=
    (kp2.chain kp3).chain kp4
  have si5 : SetupInv K (s.setProc c fun p => { p with regs := E.init_regs }) c (f * K.PAGESIZE)
      rolek ((setup_copy K (f * K.PAGESIZE) (E.programs n).segments s3).setProc c fun p =>
        { p with regs := { p.regs with reg_rip := (E.programs n).entry } }) role3 :=
    { mid := si4.mid.childRegs hK _
      kview := si4.kview }
  have e5 : ∀ vb, KState.ent K
      ((setup_copy K (f * K.PAGESIZE) (E.programs n).segments s3).setProc c fun p =>
        { p with regs := { p.regs with reg_rip := (E.programs n).entry } }) c vb =
      s3.ent K c vb := by
    intro vb
    rw [← e4 vb]
    unfold KState.ent
    simp [KState.setProc, upd]
  have rg5 : (((setup_copy K (f * K.PAGESIZE) (E.programs n).segments s3).setProc c fun p =>
        { p with regs := { p.regs with reg_rip := (E.programs n).entry } }).ptable c).regs =
      { E.init_regs with reg_rip := (E.programs n).entry } := by
    simp only [KState.setProc, upd, if_true]
    rw [kp14.ptable_eq, rg1]
  generalize hs5 : ((setup_copy K (f * K.PAGESIZE) (E.programs n).segments s3).setProc c fun p =>
        { p with regs := { p.regs with reg_rip := (E.programs n).entry } }) = s5
    at ht si5 e5 rg5
  have pg5 : ∀ g, s5.pages g = (setup_copy K (f * K.PAGESIZE) (E.programs n).segments s3).pages g := by
    intro g; rw [← hs5]; rfl
  have kw5 : ∀ va, vm_walk K s5.mem 3 K.kernel_pagetable va =
      vm_walk K (setup_copy K (f * K.PAGESIZE) (E.programs n).segments s3).mem 3
        K.kernel_pagetable va := by
    intro va; rw [← hs5]; rfl
  split at ht
  · exact absurd ht (by simp)
  rename_i hr6
  have hsa : (K.MEMSIZE_VIRTUAL - K.PAGESIZE) % K.PAGESIZE = 0 := by
    obtain ⟨k, hk⟩ := Nat.dvd_of_mod_eq_zero hval
    have hk1 : 1 ≤ k := by
      rcases Nat.eq_zero_or_pos k with h0 | h0
      · rw [h0] at hk; omega
      · exact h0
    obtain ⟨j, hj⟩ : ∃ j, k = j + 1 := ⟨k - 1, by omega⟩
    rw [hk, hj, Nat.mul_add, Nat.mul_one, Nat.add_sub_cancel]
    exact Nat.mul_mod_right _ _
  have hslt : K.MEMSIZE_VIRTUAL - K.PAGESIZE < K.MEMSIZE_VIRTUAL := by omega
  rw [vmiter_map_eq _ _ _ _ _ hsa (canonical_of_lt_virt hK _ hslt),
    if_neg (fun hh => absurd hh.2 (by decide))] at ht
  simp only at ht
  obtain ⟨fs, role7, hfs5, si7, kp7, m1, m2⟩ := setup_step_fun hK si5
    (K.MEMSIZE_VIRTUAL - K.PAGESIZE) (PTE_P + PTE_W + PTE_U) hslt (by omega) (Or.inl rfl) hr6
  generalize vm_map K 3 (f * K.PAGESIZE) (K.MEMSIZE_VIRTUAL - K.PAGESIZE)
    (kalloc K K.PAGESIZE s5).1 (PTE_P + PTE_W + PTE_U) (kalloc K K.PAGESIZE s5).2 = X
    at ht si7 kp7 m1 m2
  split at ht
  · exact absurd ht (by simp)
  rename_i hrc
  have hrc0 : X.1 = 0 := by
    by_contra hh
    exact hrc hh
  simp only [Option.some.injEq] at ht
  have hent : ∀ vb, t.ent K c vb = X.2.ent K c vb := by
    intro vb
    rw [← ht]
    unfold KState.ent
    simp [KState.setProc, upd]
  have hstk : (K.MEMSIZE_VIRTUAL - K.PAGESIZE) < K.VA_SPAN := lt_span_of_lt_virt hK _ hslt
  have hstart : K.PROC_START_ADDR / K.PAGESIZE * K.PAGESIZE = K.PROC_START_ADDR :=
    aligned_eq (K := K) _ hK.start_al
  have hfree5 : ∀ g, isFreeFrame K s5 g → isFreeFrame K s g := by
    intro g hg
    apply fr1
    apply kp14.free_back
    exact (isFreeFrame_congr (pg5 g)).1 hg
  refine ⟨?_, ?_, ?_, ?_, ?_, ?_, ?_, ?_, ?_, ?_⟩
  · rw [← ht]
    refine ⟨role7, ?_, si7.kview⟩
    refine si7.mid.inv.sameSpaces hK ⟨rfl, rfl, fun p => ?_⟩ ?_
    · by_cases hp : p = c
      · subst hp
        refine ⟨fun _ => ?_, ?_, ?_⟩
        · simp [KState.setProc, KState.ghost, upd]
        · simp [KState.live, KState.setProc, KState.ghost, upd]
        · simp [KState.setProc, KState.ghost, upd]
      · refine ⟨fun _ => ?_, ?_, ?_⟩ <;> simp [KState.live, KState.setProc, KState.ghost, upd, hp]
    · exact si7.mid.inv.cursor
  · rw [← ht]
    simp [KState.setProc, upd]
  · intro q hq
    rw [← ht]
    simp only [KState.setProc, upd, if_neg hq]
    have := si7.mid.ptable_old q hq
    rw [this]
    simp [KState.setProc, upd, hq]
  · rw [← ht]
    exact si7.mid.current_eq
  · rw [← ht]
    simp only [KState.setProc, upd, if_true]
    rw [kp7.ptable_eq, rg5]
    have : K.MEMSIZE_VIRTUAL - K.PAGESIZE + K.PAGESIZE = K.MEMSIZE_VIRTUAL := by omega
    rw [this]
  · intro g hg
    have h1 : ¬ isFreeFrame K s1 g := fun hh => hg (fr1 g hh)
    have h5 : ¬ isFreeFrame K s5 g := fun hh => hg (hfree5 g hh)
    have : t.pages g = X.2.pages g := by rw [← ht]; rfl
    rw [this, kp7.pages_old g h5, pg5 g, kp14.pages_old g h1, pg1 g hg]
  · intro va
    have : vm_walk K t.mem 3 K.kernel_pagetable va = vm_walk K X.2.mem 3 K.kernel_pagetable va := by
      rw [← ht]; rfl
    rw [this, kp7.kwalk va, kw5 va, kp14.kwalk va, kw1 va]
  · intro va hal hlt
    have hlt2 : va / K.PAGESIZE < K.PROC_START_ADDR / K.PAGESIZE := by
      rw [Nat.div_lt_iff_lt_mul hP, hstart]
      exact hlt
    rw [hent va, m2 va, e5 va, ma1 va, ek va hal (Nat.zero_le _) hlt, kw1 va]
    · intro g hg u hu1 hu2
      apply not_samePage_lt hK va u (lt_span_of_lt_virt hK _ (by
        have := hseg g hg; omega))
      refine Nat.lt_of_lt_of_le hlt2 ?_
      have h3 : K.PROC_START_ADDR / K.PAGESIZE ≤ g.va / K.PAGESIZE :=
        Nat.div_le_div_right (hseg g hg).1
      have h4 := Nat.div_le_div_right (c := K.PAGESIZE) hu1
      rw [Nat.mul_div_cancel _ hP] at h4
      omega
    · apply not_samePage_lt hK va _ hstk
      exact Nat.lt_of_lt_of_le hlt2 (Nat.div_le_div_right (by omega))
  · refine ⟨fs, hfree5 fs hfs5, ?_⟩
    rw [hent]
    exact m1 hrc0 _ (samePage_refl _)
  · intro g hg i hi hlow
    obtain ⟨f2, w2, a1, a2, a3⟩ := ma2 g hg (g.va + i)
      (by have := Nat.div_mul_le_self g.va K.PAGESIZE; omega) (by omega)
    refine ⟨f2, w2, fr1 f2 (kp2.free_back a1), ?_, a3⟩
    rw [hent (g.va + i), m2 (g.va + i), e5 (g.va + i), a2]
    apply not_samePage_lt hK (g.va + i) _ hstk
    have hsa2 := aligned_eq (K := K) _ hsa
    rw [Nat.div_lt_iff_lt_mul hP, hsa2]
    exact hlow

end SetupFun

section SetupReturns

variable {K : Config}

theorem FreeN.fewer {s : KState} {n m : Nat} (h : FreeN K s n) (hm : m ≤ n) : FreeN K s m := by
  obtain ⟨L, h1, h2, h3⟩ := h
  exact ⟨L, h1, by omega, h3⟩

theorem FreeN.same_pages {s t : KState} {n : Nat} (h : FreeN K s n) (hp : t.pages = s.pages) :
    FreeN K t n := by
  obtain ⟨L, h1, h2, h3⟩ := h
  refine ⟨L, h1, h2, fun g hg => ?_⟩
  have := h3 g hg
  unfold isFreeFrame at this ⊢
  rw [hp]
  exact this

theorem FreeN.of_count (s : KState) (n : Nat) (h : n ≤ freeCount K s) : FreeN K s n :=
  free_list K s n h

/-- With a free frame, `kalloc` returns one; the other free frames stay free. -/
theorem kalloc_free (hK : K.WF) (s : KState) (n : Nat) (hc : cursorOK K s)
    (h : FreeN K s (n + 1)) :
    (kalloc K K.PAGESIZE s).1 ≠ 0 ∧ cursorOK K (kalloc K K.PAGESIZE s).2 ∧
    FreeN K (kalloc K K.PAGESIZE s).2 n := by
  have hc2 := kalloc_cursorOK hK s K.PAGESIZE hc
  rcases kalloc_spec hK s hc with ⟨_, hno, _⟩ | ⟨f, hf1, hf2, hf3⟩
  · obtain ⟨L, _, h2, h3⟩ := h
    cases L with
    | nil => simp at h2
    | cons g L => exact absurd (h3 g (List.mem_cons_self _ _)) (hno g)
  · refine ⟨?_, hc2, ?_⟩
    · rw [hf1]
      have := hK.alloc_pos _ hf2.1
      have := hK.page_pos
      omega
    · rw [hf3]
      exact free_list_alloc hK s f n (kalloc_at K s (f * K.PAGESIZE)).mem h

/-- With a free frame for every level, `vm_map` succeeds; the other free frames stay
free. -/
theorem vm_map_free (hK : K.WF) (n : Nat) : ∀ (l tbl va pa perm : Nat) (s : KState),
    cursorOK K s → FreeN K s (n + l) →
    (vm_map K l tbl va pa perm s).1 = 0 ∧ cursorOK K (vm_map K l tbl va pa perm s).2 ∧
    FreeN K (vm_map K l tbl va pa perm s).2 n := by
  intro l
  induction l with
  | zero =>
    intro tbl va pa perm s hc h
    exact ⟨rfl, hc, h.same_pages rfl⟩
  | succ l ih =>
    intro tbl va pa perm s hc h
    simp only [vm_map]
    split
    · exact ih _ _ _ _ s hc (h.fewer (by omega))
    · split
      · exact ⟨rfl, hc, h.fewer (by omega)⟩
      · obtain ⟨hne, hc2, h2⟩ := kalloc_free hK s (n + l) hc h
        rw [if_neg hne]
        apply ih
        · exact hc2
        · exact h2.same_pages rfl

end SetupReturns

section SetupClaims

variable {K : Config}

theorem getD_of_isSome {α : Type} (o : Option α) (d : α) (h : o.isSome = true) :
    o = some (o.getD d) := by
  cases o with
  | none => exact absurd h (by simp)
  | some x => rfl

/-- The state in which `kernel` first calls `process_setup` satisfies the invariant:
no process is live, no frame is in use, and the kernel page table is in place. -/
theorem kernel_init_inv (hK : K.Geom) (E : BootEnv) (command : Option String)
    (hB : BootOK K E command) (s : KState) (hs : kernel_init K E = some s) :
    Inv K s (fun _ => none) ∧ (∃ rolek, KView K s.mem rolek) ∧ (∀ p, ¬ s.live p) ∧
    ∀ f, s.pages f = { owner := 0, sharers := 0 } := by
  obtain ⟨rolek, hT, hroot, hna⟩ := hB.ktree
  unfold kernel_init at hs
  split at hs
  · exact absurd hs (by simp)
  rename_i s1 hs1
  simp only [Option.some.injEq] at hs
  obtain ⟨p1, p2, p3, p4, kv⟩ := kernel_map_loop_spec hK rolek hna hroot hB.kpt_al E.hw.mem
    hB.console_frame _ 0 { E.hw with ticks := 1 } (Nat.zero_mod _) hB.cursor hB.pages_clear hT
    hB.kmapped (fun vb _ h2 _ => absurd h2 (Nat.not_lt_zero vb)) rfl s1 hs1
  obtain ⟨q1, q2, q3, q4, q5⟩ := init_ptable_spec K.NPROC 0 s1
  have hfree : ∀ p, ¬ (init_ptable K.NPROC 0 s1).live p := by
    intro p
    unfold KState.live
    by_cases hp : p < K.NPROC
    · rw [(q4 p (Nat.zero_le _) (by omega)).2]
      simp
    · rw [q5 p (Or.inr (by omega)), p3]
      have := hB.procs_free p (by omega)
      simp only [ne_eq, not_not]
      exact this
  have hpg : ∀ f, (init_ptable K.NPROC 0 s1).pages f = { owner := 0, sharers := 0 } := by
    intro f
    rw [q1, p1]
    exact hB.pages_clear f
  rw [← hs]
  refine ⟨?_, ⟨rolek, by rw [q2]; exact kv⟩, hfree, hpg⟩
  exact
    { cursor := by
        unfold cursorOK
        rw [q3, p2]
        exact hB.cursor
      tables := fun t p π hr => absurd hr (by simp)
      typed := fun t p π hr => absurd hr (by simp)
      spaces := fun p hp => absurd hp (hfree p)
      count := fun f => by
        rw [mappers_zero hK _ f (fun p _ hp => absurd hp (hfree p)), hpg f]
        decide
      sharers_nonneg := fun f => by rw [hpg f]
      free_unshared := fun f _ => by rw [hpg f]
      na_clear := fun f _ => hpg f
      pids := fun p hp => (q4 p (Nat.zero_le _) (by omega)).1 }

/-- What `vmiter` reports for a leaf entry `f * PAGESIZE + perm`. -/
theorem vmiter_of_entry (hK : K.Geom) (m : Nat → Nat) (pt va f perm : Nat)
    (hal : va % K.PAGESIZE = 0) (hperm : perm < K.PAGESIZE)
    (he : vm_walk K m 3 pt va = f * K.PAGESIZE + perm) :
    ({ pt := pt, va := va } : vmiter).present K m = hasflag perm PTE_P ∧
    ({ pt := pt, va := va } : vmiter).writable K m = (hasflag perm PTE_P && hasflag perm PTE_W) ∧
    ({ pt := pt, va := va } : vmiter).user K m = (hasflag perm PTE_P && hasflag perm PTE_U) ∧
    ({ pt := pt, va := va } : vmiter).pa K m =
      (if hasflag perm PTE_P = true then f * K.PAGESIZE else UINTPTR_MAX) := by
  obtain ⟨a1, a2, a3, _⟩ := vmiter_at (K := K) m pt va _ he hal
  have a0 := vmiter_present_at (K := K) m pt va _ he
  have hp := hasflag_mk hK f perm PTE_P hperm (Or.inl rfl)
  have hw := hasflag_mk hK f perm PTE_W hperm (Or.inr (Or.inl rfl))
  have hu := hasflag_mk hK f perm PTE_U hperm (Or.inr (Or.inr rfl))
  have hpa : pte_pa K (f * K.PAGESIZE + perm) = f * K.PAGESIZE := by
    unfold pte_pa
    rw [frame_add hK.page_pos f perm hperm]
  rw [a0, a1, a2, a3, hp, hw, hu, hpa]
  exact ⟨rfl, rfl, rfl, rfl⟩

theorem segPerm_lt (hK : K.Geom) (w : Bool) : segPerm w < K.PAGESIZE := by
  have := hK.page_ge
  unfold segPerm
  cases w <;> simp [PTE_P, PTE_W, PTE_U] <;> omega

theorem segPerm_flags (w : Bool) :
    hasflag (segPerm w) PTE_P = true ∧ hasflag (segPerm w) PTE_U = true ∧
    hasflag (segPerm w) PTE_W = w := by
  cases w <;> decide

end SetupClaims

section SetupEval

set_option maxRecDepth 1000000

/-- The small machine reaches its first `process_setup` with 23 free frames. -/
theorem toy_init_facts :
    (kernel_init toy toyEnv).isSome = true ∧ freeCount toy toyInit = 23 ∧
    (toyInit.ptable 1).state = procstate.P_FREE := by
  decide!

set_option maxRecDepth 1000000 in
/-- Evaluation of `process_setup(1, 4)` on the machine `toyK`, for the programs of
`toyKEnv` and of `toyKSegEnv`. -/
theorem toyK_setup_group :
    ((kernel_init toyK toyKEnv).isSome = true ∧
    (process_setup toyK toyKEnv 1 4 toyKInit).isSome = true ∧
    (toyKInit.ptable 1).state = procstate.P_FREE) ∧
    (({ pt := (toyKSetup.ptable 1).pagetable, va := 64 } : vmiter).present toyK toyKSetup.mem
      = true ∧
    ({ pt := (toyKSetup.ptable 1).pagetable, va := 64 } : vmiter).pa toyK toyKSetup.mem = 64 ∧
    (toyKInit.pages 2).owner = 0 ∧ (toyKSetup.pages 2).owner = -1) ∧
    ((process_setup toyK toyKSegEnv 1 4 toyKInit).isSome = true ∧
    ({ pt := (toyKSegSetup.ptable 1).pagetable, va := 352 } : vmiter).writable toyK
      toyKSegSetup.mem = true) := by
  decide!

/-- On `toyK`, `process_setup(1, 4)` returns. -/
theorem toyK_setup_runs :
    (kernel_init toyK toyKEnv).isSome = true ∧
    (process_setup toyK toyKEnv 1 4 toyKInit).isSome = true ∧
    (toyKInit.ptable 1).state = procstate.P_FREE :=
  toyK_setup_group.1

/-- On `toyK`, process 1 maps the kernel page 2 to frame 2 after `process_setup`;
the frame was free before and is owned afterwards. -/
theorem toyK_setup_facts :
    ({ pt := (toyKSetup.ptable 1).pagetable, va := 64 } : vmiter).present toyK toyKSetup.mem
      = true ∧
    ({ pt := (toyKSetup.ptable 1).pagetable, va := 64 } : vmiter).pa toyK toyKSetup.mem = 64 ∧
    (toyKInit.pages 2).owner = 0 ∧ (toyKSetup.pages 2).owner = -1 :=
  toyK_setup_group.2.1

/-- On `toyK`, `process_setup(1, 4)` of the program with a read-only segment on the
stack page returns; afterwards the page is writable. -/
theorem toyK_seg_facts :
    (process_setup toyK toyKSegEnv 1 4 toyKInit).isSome = true ∧
    ({ pt := (toyKSegSetup.ptable 1).pagetable, va := 352 } : vmiter).writable toyK
      toyKSegSetup.mem = true :=
  toyK_setup_group.2.2

end SetupEval

section ScanLength

variable {K : Config}

theorem kalloc_loop_iters_full (hK : K.WF) (n : Nat) (s : KState) (hc : cursorOK K s)
    (hno : ∀ g, ¬ isFreeFrame K s g) :
    kalloc_loop_iters K n s = n ∧ (kalloc_loop K n s).1 = 0 := by
  induction n generalizing s with
  | zero => exact ⟨rfl, rfl⟩
  | succ n ih =>
    have hP := hK.page_pos
    have hcond : ¬ (K.allocatable_physical_address s.next_alloc_pa = true ∧
        (s.pages (s.next_alloc_pa / K.PAGESIZE)).owner = 0) := by
      intro h
      apply hno (s.next_alloc_pa / K.PAGESIZE)
      refine ⟨?_, h.2⟩
      rw [Nat.div_mul_cancel (Nat.dvd_of_mod_eq_zero hc.1)]
      exact h.1
    have hc1 : cursorOK K
        { s with next_alloc_pa := (s.next_alloc_pa + K.PAGESIZE) % K.MEMSIZE_PHYSICAL } := by
      refine ⟨?_, Nat.mod_lt _ hK.phys_pos⟩
      show (s.next_alloc_pa + K.PAGESIZE) % K.MEMSIZE_PHYSICAL % K.PAGESIZE = 0
      rw [Nat.mod_mod_of_dvd _ hK.phys_pages, Nat.add_mod, hc.1]
      simp
    have h1 := ih { s with next_alloc_pa := (s.next_alloc_pa + K.PAGESIZE) % K.MEMSIZE_PHYSICAL }
      hc1 hno
    constructor
    · show (if _ then 1 else 1 + kalloc_loop_iters K n _) = n + 1
      rw [if_neg hcond, h1.1]
      omega
    · show (if _ then _ else kalloc_loop K n _).1 = 0
      rw [if_neg hcond]
      exact h1.2

theorem fullState_none_free (g : Nat) : ¬ isFreeFrame weensy fullState g := by
  intro h
  have h2 : ((-1 : Int) = 0) := h.2
  exact absurd h2 (by decide)

/-- C34: when no allocatable frame is free, `kalloc(sz)` with `sz <= PAGESIZE` returns
`nullptr` after exactly `MEMSIZE_PHYSICAL` iterations of its scan loop, which is
`PAGESIZE` times the number of frames `NPAGES = MEMSIZE_PHYSICAL / PAGESIZE`: the
cursor passes over the pool `PAGESIZE` times, not once. -/
theorem kalloc_scans_memsize_iterations (K : Config) (hK : K.WF) (s : KState)
    (hc : cursorOK K s) (hno : ∀ g, ¬ isFreeFrame K s g) (sz : Nat) (hsz : sz ≤ K.PAGESIZE) :
    (kalloc K sz s).1 = 0 ∧ kalloc_iters K sz s = K.MEMSIZE_PHYSICAL ∧
    kalloc_iters K sz s = K.PAGESIZE * K.NPAGES ∧
    (1 < K.PAGESIZE → K.NPAGES < kalloc_iters K sz s) := by
  have h := kalloc_loop_iters_full hK K.MEMSIZE_PHYSICAL s hc hno
  have hi : kalloc_iters K sz s = K.MEMSIZE_PHYSICAL := by
    unfold kalloc_iters
    rw [if_neg (by omega)]
    exact h.1
  refine ⟨?_, hi, ?_, ?_⟩
  · unfold kalloc
    rw [if_neg (by omega)]
    exact h.2
  · rw [hi]
    unfold Config.NPAGES
    rw [Nat.mul_div_cancel' hK.phys_pages]
  · intro h1
    rw [hi]
    unfold Config.NPAGES
    exact Nat.div_lt_self hK.phys_pos h1

/-- On the handout machine with every frame owned, `kalloc(4096)` returns `nullptr`
after 2097152 iterations; the machine has 512 frames. -/
theorem kalloc_scans_memsize_iterations_witness :
    cursorOK weensy fullState ∧ (∀ g, ¬ isFreeFrame weensy fullState g) ∧
    (kalloc weensy 4096 fullState).1 = 0 ∧ kalloc_iters weensy 4096 fullState = 2097152 ∧
    weensy.NPAGES = 512 :=
  ⟨by decide, fullState_none_free,
    (kalloc_scans_memsize_iterations weensy weensy_WF fullState (by decide)
      fullState_none_free 4096 (by decide)).1,
    (kalloc_scans_memsize_iterations weensy weensy_WF fullState (by decide)
      fullState_none_free 4096 (by decide)).2.1,
    by decide⟩

end ScanLength

section BootProcesses

variable {K : Config}

/-- `kernel` in terms of the state before the first `process_setup`. -/
theorem kernel_after_init (E : BootEnv) (command : Option String) :
    kernel K E command =
      match kernel_init K E with
      | none => Outcome.halted
      | some s2 =>
        match (if command = some "fork" then process_setup K E 1 4 s2
               else if command = some "forkexit" then process_setup K E 1 5 s2
               else setup_default K E 4 1 s2) with
        | none => Outcome.halted
        | some s3 =>
          if (s3.ptable 1).state = procstate.P_RUNNABLE then
            Outcome.resumed { s3 with current := 1 }
          else Outcome.halted := by
  unfold kernel kernel_init
  simp only
  generalize kernel_map_loop K (K.PROC_START_ADDR + 1) 0 _ = o
  cases o <;> rfl

theorem setup_default_succ (E : BootEnv) (n i : Nat) (s t : KState)
    (h : setup_default K E (n + 1) i s = some t) :
    ∃ t1, process_setup K E i (i - 1) s = some t1 ∧ setup_default K E n (i + 1) t1 = some t := by
  simp only [setup_default] at h
  cases h1 : process_setup K E i (i - 1) s with
  | none => rw [h1] at h; exact absurd h (by simp)
  | some t1 =>
    rw [h1] at h
    exact ⟨t1, rfl, h⟩

theorem setup_default_four (E : BootEnv) (s0 t : KState)
    (h : setup_default K E 4 1 s0 = some t) :
    ∃ t1 t2 t3, process_setup K E 1 0 s0 = some t1 ∧ process_setup K E 2 1 t1 = some t2 ∧
      process_setup K E 3 2 t2 = some t3 ∧ process_setup K E 4 3 t3 = some t := by
  obtain ⟨t1, e1, r1⟩ := setup_default_succ E 3 1 s0 t h
  obtain ⟨t2, e2, r2⟩ := setup_default_succ E 2 2 t1 t r1
  obtain ⟨t3, e3, r3⟩ := setup_default_succ E 1 3 t2 t r2
  obtain ⟨t4, e4, r4⟩ := setup_default_succ E 0 4 t3 t r3
  simp only [setup_default, Option.some.injEq] at r4
  rw [r4] at e4
  exact ⟨t1, t2, t3, e1, e2, e3, e4⟩

theorem not_live_of_state {s : KState} {p : Nat} (h : (s.ptable p).state = procstate.P_FREE) :
    ¬ s.live p := by
  unfold KState.live
  rw [h]
  simp

end BootProcesses

section Steps

variable {K : Config}

/-! ## Address spaces across the steps of an execution -/

theorem Alike.unmoved (s : KState) (x : Nat) : Alike s s x :=
  ⟨rfl, rfl, fun _ => rfl, fun _ => Iff.rfl, fun _ _ => rfl⟩

theorem Alike.join {s t u : KState} {x : Nat} (h1 : Alike s t x) (h2 : Alike t u x) :
    Alike s u x :=
  ⟨h2.mem_eq.trans h1.mem_eq, h2.pages_eq.trans h1.pages_eq,
    fun q => (h2.root q).trans (h1.root q), fun q => (h2.live q).trans (h1.live q),
    fun q hq => (h2.state q hq).trans (h1.state q hq)⟩

/-- Changing the descriptor of `x` without changing its page table or whether it is
Free. -/
theorem Alike.of_setProc (s : KState) (x : Nat) (f : proc → proc)
    (h1 : (f (s.ptable x)).pagetable = (s.ptable x).pagetable)
    (h3 : (f (s.ptable x)).state = procstate.P_FREE ↔ (s.ptable x).state = procstate.P_FREE) :
    Alike s (s.setProc x f) x := by
  refine ⟨rfl, rfl, fun q => ?_, fun q => ?_, fun q hq => ?_⟩
  · by_cases hq : q = x
    · subst hq
      simp only [KState.setProc, upd, if_true]
      exact h1
    · simp [KState.setProc, upd, hq]
  · by_cases hq : q = x
    · subst hq
      simp only [KState.setProc, KState.live, upd, if_true]
      exact not_congr h3
    · simp [KState.setProc, KState.live, upd, hq]
  · simp [KState.setProc, upd, hq]

/-- `schedule` resumes a process in an unchanged kernel state. -/
theorem Alike.schedule {s t : KState} (x : Nat) (ht : schedule K s = Outcome.resumed t) :
    Alike s t x := by
  unfold Weensy.schedule at ht
  split at ht
  · simp only [Outcome.resumed.injEq] at ht
    rw [← ht]
    exact ⟨rfl, rfl, fun _ => rfl, fun _ => Iff.rfl, fun _ _ => rfl⟩
  · exact absurd ht (by simp)

theorem Alike.finish {s t : KState} (x : Nat) (ht : exception_finish K s = Outcome.resumed t) :
    Alike s t x := by
  unfold exception_finish at ht
  split at ht
  · simp only [Outcome.resumed.injEq] at ht
    rw [← ht]
    exact Alike.unmoved s x
  · exact Alike.schedule x ht

theorem Alike.to_still {s t : KState} {x : Nat} (h : Alike s t x) (q : Nat) : Still K s t q :=
  Still.of_eq h.mem_eq (h.root q)

theorem Alike.free_iff {s t : KState} {x : Nat} (h : Alike s t x) (g : Nat) :
    isFreeFrame K t g ↔ isFreeFrame K s g := by
  unfold isFreeFrame
  rw [h.pages_eq]

/-- A step that changes no address space. -/
theorem Next.of_alike {s t : KState} (h : Alike s t s.current) (hl : s.live s.current) :
    Next K s t :=
  { others := fun q _ hq => ⟨h.state q hq, h.to_still q⟩
    self := Or.inl ⟨h.to_still _, (h.live _).2 hl, fun q hq => (h.live q).1 hq⟩ }

/-- A step after a change that leaves the address spaces alone. -/
theorem Next.pre {s s0 t : KState} (ha : Alike s s0 s.current) (hc : s0.current = s.current)
    (hn : Next K s0 t) : Next K s t := by
  have hst : ∀ q, Still K s s0 q := fun q => ha.to_still q
  refine ⟨fun q hq hne => ?_, ?_⟩
  · obtain ⟨a1, a2⟩ := hn.others q ((ha.live q).2 hq) (by rw [hc]; exact hne)
    exact ⟨a1.trans (ha.state q hne), (hst q).follow a2⟩
  · have hself := hn.self
    unfold oneFresh childFresh at hself ⊢
    rw [hc] at hself
    rcases hself with ⟨a1, a2, a3⟩ | ⟨a2, a3⟩ | ⟨a2, a3, a4⟩ | ⟨a1, a2, c, a3, a4, a5⟩
    · exact Or.inl ⟨(hst _).follow a1, a2, fun q hq => (ha.live q).1 (a3 q hq)⟩
    · exact Or.inr (Or.inl ⟨a2, fun q hq => (ha.live q).1 (a3 q hq)⟩)
    · refine Or.inr (Or.inr (Or.inl ⟨a2, fun q hq => (ha.live q).1 (a3 q hq), ?_⟩))
      obtain ⟨addr, F, b1, b2, b3, b4, b5, b6⟩ := a4
      exact ⟨addr, F, b1, b2, b3, (ha.free_iff F).1 b4, b5,
        fun va hva => (b6 va hva).trans ((hst _).ent va)⟩
    · refine Or.inr (Or.inr (Or.inr ⟨(hst _).follow a1, a2, c, fun hh => a3 ((ha.live c).2 hh),
        fun q hq => (a4 q hq).imp id (fun hh => (ha.live q).1 hh), ?_⟩))
      intro va hu hnc
      have := a5 va hu hnc
      rw [(hst _).ent va] at this
      exact ⟨this.1, this.2.imp (fun hh => (ha.free_iff _).1 hh) id⟩

/-- A step followed by a change that leaves the address spaces alone. -/
theorem Next.post {s t1 t : KState} (hn : Next K s t1) (ha : Alike t1 t s.current) :
    Next K s t := by
  have hst : ∀ q, Still K t1 t q := fun q => ha.to_still q
  refine ⟨fun q hq hne => ?_, ?_⟩
  · obtain ⟨a1, a2⟩ := hn.others q hq hne
    exact ⟨(ha.state q hne).trans a1, a2.follow (hst q)⟩
  · have hself := hn.self
    unfold oneFresh childFresh at hself ⊢
    rcases hself with ⟨a1, a2, a3⟩ | ⟨a2, a3⟩ | ⟨a2, a3, a4⟩ | ⟨a1, a2, c, a3, a4, a5⟩
    · exact Or.inl ⟨a1.follow (hst _), (ha.live _).2 a2, fun q hq => a3 q ((ha.live q).1 hq)⟩
    · exact Or.inr (Or.inl ⟨fun hh => a2 ((ha.live _).1 hh), fun q hq => a3 q ((ha.live q).1 hq)⟩)
    · refine Or.inr (Or.inr (Or.inl ⟨(ha.live _).2 a2, fun q hq => a3 q ((ha.live q).1 hq), ?_⟩))
      obtain ⟨addr, F, b1, b2, b3, b4, b5, b6⟩ := a4
      exact ⟨addr, F, b1, b2, b3, b4, fun va hva => ((hst _).ent va).trans (b5 va hva),
        fun va hva => ((hst _).ent va).trans (b6 va hva)⟩
    · refine Or.inr (Or.inr (Or.inr ⟨a1.follow (hst _), (ha.live _).2 a2, c, a3,
        fun q hq => a4 q ((ha.live q).1 hq), ?_⟩))
      intro va hu hnc
      rw [(hst c).ent va] at hu ⊢
      exact a5 va hu hnc

end Steps

section StepCases

variable {K : Config}

theorem Alike.setRegsAt (s : KState) (p x : Nat) (g : proc → regstate) :
    Alike s (s.setProc p fun q => { q with regs := g q }) x := by
  refine ⟨rfl, rfl, fun q => ?_, fun q => ?_, fun q _ => ?_⟩
  · by_cases hq : q = p
    · subst hq; simp [KState.setProc, upd]
    · simp [KState.setProc, upd, hq]
  · by_cases hq : q = p
    · subst hq; simp [KState.setProc, KState.live, upd]
    · simp [KState.setProc, KState.live, upd, hq]
  · by_cases hq : q = p
    · subst hq; simp [KState.setProc, upd]
    · simp [KState.setProc, upd, hq]

/-- A store of the running process changes no address space. -/
theorem store_next (hK : K.Geom) {s : KState} (h : GInv K s) (va b : Nat) (t : KState)
    (ht : user_store K va b s = some t) : Next K s t := by
  have hP := hK.page_pos
  have hl : s.live s.current := GInv.live h
  obtain ⟨⟨role, hi⟩, hr⟩ := h
  unfold user_store at ht
  simp only at ht
  split at ht
  · rename_i hc
    simp only [Option.some.injEq] at ht
    have hst : ∀ q, s.live q → Still K s t q := by
      intro q hq
      refine hi.still hK hq (by rw [← ht]) fun a π ha => ?_
      rw [← ht]
      obtain ⟨_, _, hu, _⟩ := hc
      rw [vmiter_user_iff] at hu
      have hpa := vmiter_pa_of_present (K := K) s.mem (s.ptable s.current).pagetable va hu.1
      show upd s.mem _ b a = s.mem a
      simp only [upd]
      rw [if_neg]
      intro hh
      rw [hh, hpa] at ha
      unfold pte_pa at ha
      have hun := (hi.spaces _ hl).2.user_untyped va hu
      unfold KState.ent at hun
      rw [frame_add hP _ _ (Nat.mod_lt _ hP), hun] at ha
      exact absurd ha (by simp)
    have hpt : t.ptable = s.ptable := by rw [← ht]
    refine ⟨fun q hq _ => ⟨by rw [hpt], hst q hq⟩, Or.inl ⟨hst _ hl, ?_, fun q hq => ?_⟩⟩
    · unfold KState.live; rw [hpt]; exact hl
    · unfold KState.live at hq ⊢; rw [hpt] at hq; exact hq
  · exact absurd ht (by simp)

/-- `SYSCALL_PAGE_ALLOC` changes the address space of the running process only, and
only on the page of its argument. -/
theorem page_alloc_next (hK : K.Geom) {s : KState} {role : Roles} (h : Inv K s role)
    (hl : s.live s.current) (v : Nat) (t : KState) (he : sys_page_alloc K s = some (v, t)) :
    Next K s t := by
  have hP := hK.page_pos
  have hP8 := hK.page_ge
  obtain ⟨hi, hpt, hcur, hres⟩ := h.alloc hK
  unfold sys_page_alloc at he
  simp only at he
  split at he
  · rename_i haddr
    split at he
    · rename_i hr1
      rcases hres with h0 | ⟨f, hf1, _, hf2, hf3⟩
      · exact absurd h0 hr1
      · generalize hmap : vmiter.map K _ _ _ _ = o at he
        cases o with
        | none => exact absurd he (by simp)
        | some r2 =>
          obtain ⟨hc, hr2⟩ := vmiter_map_some hmap
          simp only at hc hr2 he
          split at he
          · rename_i hrc
            simp only [Option.some.injEq, Prod.mk.injEq] at he
            have hperm : ¬ ((kalloc K K.PAGESIZE s).1 = UINTPTR_MAX ∧ PTE_P + PTE_W + PTE_U = 0) :=
              fun hh => absurd hh.2 (by decide)
            rw [if_neg hperm] at hr2
            have hl2 : (kalloc K K.PAGESIZE s).2.live s.current := by
              unfold KState.live; rw [hpt]; exact hl
            have hnc := not_console hK _ hc.1 hc.2 (Nat.le_of_lt haddr)
            have hfresh : ∀ q, (kalloc K K.PAGESIZE s).2.live q → ∀ vb,
                userPresent ((kalloc K K.PAGESIZE s).2.ent K q vb) →
                (kalloc K K.PAGESIZE s).2.ent K q vb / K.PAGESIZE ≠ f := by
              rw [hf3]
              exact fun q hq vb hu => kalloc_at_unmapped hK h f hf2 q hq vb hu
            have hown : ((kalloc K K.PAGESIZE s).2.pages f).owner ≠ 0 := by
              rw [hf3, kalloc_at_pages hP]; decide
            obtain ⟨role1, hm, hinv⟩ := hi.map_fresh hK s.current hl2 f
              (s.ptable s.current).regs.reg_rdi (PTE_P + PTE_W + PTE_U) hf2.1 hown
              (h.free_untyped f hf2) hfresh (by unfold PTE_P PTE_W PTE_U; omega) (by decide) hnc
            rw [hcur, hf1] at hr2
            rw [hr2] at he hrc
            generalize vm_map K 3 ((kalloc K K.PAGESIZE s).2.ptable s.current).pagetable
              (s.ptable s.current).regs.reg_rdi (f * K.PAGESIZE) (PTE_P + PTE_W + PTE_U)
              (kalloc K K.PAGESIZE s).2 = r at hm hinv he hrc
            obtain ⟨rc, t1⟩ := r
            simp only at hm hinv he hrc
            obtain ⟨_, he2⟩ := he
            subst he2
            subst hrc
            have hpt2 : t1.ptable = s.ptable := hm.ptable_eq.trans hpt
            have hroot := (h.spaces _ hl).2
            have hkm : ∀ a, role (a / K.PAGESIZE) ≠ none →
                (kalloc K K.PAGESIZE s).2.mem a = s.mem a := by
              intro a ha
              rw [hf3]
              simp only [kalloc_at]
              rw [memset_frame hP, if_neg]
              intro hh
              rw [hh] at ha
              exact ha (h.free_untyped f hf2)
            have hmem : ∀ a q π, role (a / K.PAGESIZE) = some (q, π) → q ≠ s.current →
                t1.mem a = s.mem a := by
              intro a q π hr hq
              by_cases heq : t1.mem a = (kalloc K K.PAGESIZE s).2.mem a
              · rw [heq]
                exact hkm a (by rw [hr]; simp)
              · exfalso
                rcases hm.mem_frame a heq with ⟨b1, b2⟩ | ⟨π2, b⟩
                · have := entry_range_frame hK _ _ a (by rw [hpt]; exact hroot.root_al)
                    (pageindex_lt hK _ 3) b1 b2
                  rw [this, hpt, hroot.root_role] at hr
                  simp only [Option.some.injEq, Prod.mk.injEq] at hr
                  exact hq hr.1.symm
                · rcases hm.role_ext (a / K.PAGESIZE) with e | ⟨e, _⟩
                  · rw [e, hr] at b
                    simp only [Option.some.injEq, Prod.mk.injEq] at b
                    exact hq b.1
                  · rw [e] at hr
                    exact absurd hr (by simp)
            refine ⟨fun q hq hne => ⟨by rw [hpt2], h.still hK hq (by rw [hpt2])
              (fun a π hr => hmem a q π hr hne)⟩, Or.inr (Or.inr (Or.inl ⟨?_, fun q hq => ?_, ?_⟩))⟩
            · unfold KState.live; rw [hpt2]; exact hl
            · unfold KState.live at hq ⊢; rw [hpt2] at hq; exact hq
            · have hent : ∀ va, t1.ent K s.current va = vm_walk K t1.mem 3
                  ((kalloc K K.PAGESIZE s).2.ptable s.current).pagetable va := by
                intro va
                unfold KState.ent
                rw [hpt2, hpt]
              refine ⟨_, f, haddr, hc.1, hc.2, hf2, fun va hva => ?_, fun va hva => ?_⟩
              · rw [hent va, hm.walk va, if_pos ⟨rfl, hva.1, hva.2⟩]
              · rw [hent va, hm.walk va, if_neg (fun hh => hva ⟨hh.2.1, hh.2.2⟩)]
                have := kalloc_at_ent hK h f hf2 s.current hl va
                rw [← hf3] at this
                exact this
          · exact absurd he (by simp)
    · rename_i hr1
      simp only [Option.some.injEq, Prod.mk.injEq] at he
      rw [← he.2]
      rcases kalloc_spec hK.wf s h.cursor with ⟨_, _, c0, e0⟩ | ⟨f, e1, e2, _⟩
      · rw [e0]
        exact Next.of_alike ⟨rfl, rfl, fun _ => rfl, fun _ => Iff.rfl, fun _ _ => rfl⟩ hl
      · exfalso
        apply hr1
        rw [e1]
        have := hK.wf.alloc_pos _ e2.1
        omega
  · simp only [Option.some.injEq, Prod.mk.injEq] at he
    rw [← he.2]
    exact Next.of_alike (Alike.unmoved s _) hl

/-- `proc_free` of the running process changes no other address space. -/
theorem exit_next (hK : K.Geom) {s : KState} {role : Roles} (h : Inv K s role)
    (hl : s.live s.current) (t : KState)
    (ht : proc_free K (s.ptable s.current).pid s = some t) : Next K s t := by
  obtain ⟨_, hf⟩ := exit_inv hK h hl t ht
  have hpq : ∀ q, q ≠ s.current → t.ptable q = s.ptable q := by
    intro q hq
    rw [hf.ptable_eq]
    simp only [upd, if_neg hq]
  have hpc : (t.ptable s.current).state = procstate.P_FREE := by
    rw [hf.ptable_eq]
    simp only [upd, if_true]
  refine ⟨fun q hq hne => ⟨by rw [hpq q hne], h.still hK hq (by rw [hpq q hne]) fun a π hr => ?_⟩,
    Or.inr (Or.inl ⟨fun hh => hh hpc, fun q hq => ?_⟩)⟩
  · rcases hf.mem a with e | ⟨va, hu, _, e⟩ | ⟨π2, e⟩
    · exact e
    · have := (h.spaces _ hl).2.user_untyped va hu
      rw [e, hr] at this
      exact absurd this (by simp)
    · rw [hr] at e
      simp only [Option.some.injEq, Prod.mk.injEq] at e
      exact absurd e.1 hne
  · by_cases hqc : q = s.current
    · rw [hqc]; exact hl
    · unfold KState.live at hq ⊢
      rw [hpq q hqc] at hq
      exact hq

/-- After a successful fork the old address spaces are what they were, and the
child maps user-accessibly, outside the console page, only frames that were free
and pages that the parent maps read-only. -/
theorem ForkEnd.to_next (hK : K.Geom) {s : KState} {role : Roles} (h : Inv K s role)
    (hl : s.live s.current) {t : KState} {c : Nat} (he : ForkEnd K s role t c) : Next K s t := by
  have hP := hK.page_pos
  obtain ⟨vb, cpt, t1, rolef, hvb, _, hvb3, fi, ht⟩ := he.walked
  have hc : ¬ s.live c := fun hh => hh he.child_free
  have hm : t.mem = t1.mem := by rw [ht]; rfl
  have hpq : ∀ q, q ≠ c → t.ptable q = s.ptable q := by
    intro q hq
    rw [ht]
    simp only [KState.setProc, upd, if_neg hq]
    exact fi.mid.ptable_old q hq
  have hpc : (t.ptable c).pagetable = (t1.ptable c).pagetable := by
    rw [ht]
    simp [KState.setProc, upd]
  have hlc : t.live c := by
    rw [ht]
    simp [KState.live, KState.setProc, upd]
  have hst : ∀ q, s.live q → Still K s t q := by
    intro q hq
    have hqc : q ≠ c := fun hh => hc (hh ▸ hq)
    refine h.still hK hq (by rw [hpq q hqc]) fun a π hr => ?_
    rw [hm]
    exact fi.mem_old a (h.rolesOwned _ (by rw [hr]; simp))
  have hlive : ∀ q, q ≠ c → (t.live q ↔ s.live q) := by
    intro q hq
    unfold KState.live
    rw [hpq q hq]
  refine ⟨fun q hq _ => ⟨by rw [hpq q (fun hh => hc (hh ▸ hq))], hst q hq⟩,
    Or.inr (Or.inr (Or.inr ⟨hst _ hl, ?_, c, hc, fun q hq => ?_, ?_⟩))⟩
  · exact (hlive _ (fun hh => hc (hh ▸ hl))).2 hl
  · by_cases hqc : q = c
    · exact Or.inl hqc
    · exact Or.inr ((hlive q hqc).1 hq)
  · intro va hu hnc
    have hent : ∀ x, t.ent K c x = t1.ent K c x := fun x => ent_congr t1 t c hm hpc x
    rw [hent] at hu ⊢
    have hrd := samePage_round hK va
    rw [ent_samePage t1 c va _ (samePage_symm hrd)] at hu ⊢
    rw [ent_samePage s s.current va _ (samePage_symm hrd)]
    have hvnc : va / K.PAGESIZE * K.PAGESIZE ≠ K.console := by
      intro hh
      apply hnc
      rw [← hh]
      exact samePage_symm hrd
    generalize va / K.PAGESIZE * K.PAGESIZE = v at hu hvnc hrd
    by_cases hlt : vpn K v * K.PAGESIZE < vb
    · have hsp : samePage K v (vpn K v * K.PAGESIZE) := by
        rw [samePage_iff hK, vpn_mul hK]
        unfold vpn
        exact Nat.mod_lt _ (Nat.pos_pow_of_pos 4 hK.nent_pos)
      rw [ent_samePage t1 c v _ hsp] at hu ⊢
      rw [ent_samePage s s.current v _ hsp]
      have hvnc2 : vpn K v * K.PAGESIZE ≠ K.console := by
        intro hh
        apply hnc
        rw [← hh]
        exact samePage_trans (samePage_symm hrd) hsp
      have cp := fi.child_done _ hlt (Nat.mul_mod_left _ _)
      generalize vpn K v * K.PAGESIZE = w at hu hvnc2 cp
      by_cases hup : userPresent (s.ent K s.current w)
      · refine ⟨hup, ?_⟩
        cases hw : hasflag (s.ent K s.current w) PTE_W with
        | true =>
          left
          obtain ⟨F, hF, e, _⟩ := cp.copied hup hw hvnc2
          rw [e, frame_add hP _ _ (pte_flags_lt hP _)]
          exact hF
        | false =>
          right
          exact ⟨cp.shared hup hw hvnc2, rfl⟩
      · exfalso
        have e := cp.other (fun hh => hup hh.1)
        rw [e] at hu
        split at hu
        · exact hup hu
        · exact not_userPresent_zero hu
    · exfalso
      have h1 : vb / K.PAGESIZE ≤ vpn K v := by
        apply Nat.div_le_of_le_mul
        rw [Nat.mul_comm]
        omega
      rw [fi.child_rest v h1] at hu
      exact not_userPresent_zero hu

/-- `SYSCALL_FORK` changes no address space; when it succeeds there is one more. -/
theorem fork_next (hK : K.Geom) {s : KState} {role : Roles} (h : Inv K s role)
    (hl : s.live s.current) (v : Nat) (t : KState) (he : sys_fork K s = some (v, t)) :
    Next K s t := by
  rcases (sys_fork_spec hK h hl v t he).2.2.2.2 with hend | ⟨hcalm, hlive⟩
  · exact hend.to_next hK h hl
  · refine ⟨fun q hq _ => ⟨by rw [(hcalm q hq).1], (hcalm q hq).2⟩,
      Or.inl ⟨(hcalm _ hl).2, ?_, hlive⟩⟩
    unfold KState.live
    rw [(hcalm _ hl).1]
    exact hl

/-- Every way in which `syscall` lets a process run changes the address spaces as
`Next` says. -/
theorem syscall_next (hK : K.Geom) {s : KState} (h : GInv K s) (regs : regstate) :
    (∀ v t, syscall K regs s = SysResult.ret v t → Next K s t) ∧
    (∀ t, syscall K regs s = SysResult.noreturn (Outcome.resumed t) → Next K s t) := by
  have hls : s.live s.current := GInv.live h
  have ha0 : Alike s (s.setProc s.current fun p => { p with regs := regs }) s.current :=
    Alike.setRegsAt s s.current s.current (fun _ => regs)
  have h0 := h.saveRegs hK (fun _ => regs)
  obtain ⟨⟨role, hi⟩, hr⟩ := h0
  have hl : (s.setProc s.current fun p => { p with regs := regs }).live
      (s.setProc s.current fun p => { p with regs := regs }).current := GInv.live ⟨⟨role, hi⟩, hr⟩
  constructor
  · intro v t ht
    unfold syscall at ht
    simp only at ht
    split at ht
    · exact absurd ht (by simp)
    split at ht
    · simp only [SysResult.ret.injEq] at ht
      rw [← ht.2]
      exact Next.of_alike ha0 hls
    split at ht
    · exact absurd ht (by simp)
    split at ht
    · exact Next.pre ha0 rfl (page_alloc_next hK hi hl v t (ofOption_ret ht))
    split at ht
    · exact Next.pre ha0 rfl (fork_next hK hi hl v t (ofOption_ret ht))
    split at ht
    · split at ht <;> exact absurd ht (by simp)
    · exact absurd ht (by simp)
  · intro t ht
    unfold syscall at ht
    simp only at ht
    split at ht
    · exact absurd ht (by simp)
    split at ht
    · exact absurd ht (by simp)
    split at ht
    · simp only [SysResult.noreturn.injEq] at ht
      exact Next.of_alike (ha0.join ((Alike.setRegsAt _ _ s.current _).join
        (Alike.schedule s.current ht))) hls
    split at ht
    · exact (ofOption_noreturn ht).elim
    split at ht
    · exact (ofOption_noreturn ht).elim
    split at ht
    · split at ht
      · exact absurd ht (by simp)
      · rename_i s1 hs1
        simp only [SysResult.noreturn.injEq] at ht
        exact Next.pre ha0 rfl (Next.post (exit_next hK hi hl s1 hs1)
          ((Alike.setRegsAt _ _ s.current _).join (Alike.schedule s.current ht)))
    · exact absurd ht (by simp)

/-- Every way in which `exception` lets a process run changes the address spaces as
`Next` says. -/
theorem exception_next (hK : K.Geom) {s : KState} (h : GInv K s) (regs : regstate) (t : KState)
    (ht : exception K regs s = Outcome.resumed t) : Next K s t := by
  have hls : s.live s.current := GInv.live h
  have ha0 : Alike s (s.setProc s.current fun p => { p with regs := regs }) s.current :=
    Alike.setRegsAt s s.current s.current (fun _ => regs)
  have h0 := h.saveRegs hK (fun _ => regs)
  unfold exception at ht
  simp only at ht
  split at ht
  · split at ht
    · rename_i v s1 hs1
      exact Next.pre ha0 rfl (Next.post ((syscall_next hK h0 regs).1 v s1 hs1)
        ((Alike.setRegsAt _ _ s.current _).join (Alike.finish s.current ht)))
    · rename_i o ho
      rw [ht] at ho
      exact Next.pre ha0 rfl ((syscall_next hK h0 regs).2 t ho)
  split at ht
  · refine Next.of_alike (ha0.join (Alike.join ?_ (Alike.schedule s.current ht))) hls
    exact ⟨rfl, rfl, fun _ => rfl, fun _ => Iff.rfl, fun _ _ => rfl⟩
  split at ht
  · split at ht
    · exact absurd ht (by simp)
    · refine Next.of_alike (ha0.join (Alike.join ?_ (Alike.finish s.current ht))) hls
      refine Alike.of_setProc _ s.current _ rfl ⟨fun hh => absurd hh (by simp), fun hh => ?_⟩
      obtain ⟨_, hr⟩ := h0
      simp only [KState.setProc, upd, if_true] at hr hh
      rw [hr] at hh
      exact absurd hh (by simp)
  · exact absurd ht (by simp)

end StepCases

section Separation

variable {K : Config}

end Separation

section BootSeparation

variable {K : Config}

/-! ## Separation of the address spaces at boot -/

end BootSeparation

section FourProcesses

set_option maxRecDepth 1000000

/-- Evaluation on the machine `toyWide`, whose pool has exactly 32 allocatable
frames: the copy loop of `process_setup` finds every segment in consecutive physical
addresses, for each of the four default processes; all 32 frames are free after the
kernel's initialisation; the four calls of `process_setup` return and leave no free
frame; `kernel` resumes process 1. -/
theorem toyWide_facts :
    bootFits toyWide toyTwoEnv none ∧
    ((kernel_init toyWide toyTwoEnv).isSome = true ∧ freeCount toyWide toyWideInit = 32) ∧
    (defaultFits toyWide toyTwoEnv 4 1 toyWideInit ∧
      (setup_default toyWide toyTwoEnv 4 1 toyWideInit).isSome = true ∧
      cursorOK toyWide toyWideFour ∧ freeCount toyWide toyWideFour = 0) ∧
    (kernel toyWide toyTwoEnv none).isResumed = true := by
  decide!

theorem toyWide_runs : (kernel toyWide toyTwoEnv none).isResumed = true :=
  toyWide_facts.2.2.2

end FourProcesses

section Isolation

variable {K : Config}

set_option maxRecDepth 1000000

theorem console_on_console (hK : K.Geom) (va : Nat) (h1 : K.console ≤ va)
    (h2 : va < K.console + K.PAGESIZE) : samePage K va K.console := by
  have hP := hK.page_pos
  have hcl := console_lt_span hK
  have hsl := start_lt_span hK
  have hlow := hK.console_low
  have hal := hK.start_al
  have hc := aligned_eq (K := K) K.console hK.console_al
  have hd : va / K.PAGESIZE = K.console / K.PAGESIZE := by
    apply Nat.div_eq_of_lt_le
    · rw [hc]; exact h1
    · rw [Nat.add_mul, Nat.one_mul, hc]; exact h2
  have hva : va < K.VA_SPAN := by
    have hs := aligned_eq (K := K) K.PROC_START_ADDR hal
    have h3 : K.console / K.PAGESIZE < K.PROC_START_ADDR / K.PAGESIZE := by
      apply Nat.lt_of_mul_lt_mul_right (a := K.PAGESIZE)
      rw [hc, hs]
      exact hlow
    have h4 := Nat.mul_le_mul_right K.PAGESIZE (Nat.succ_le_of_lt h3)
    rw [Nat.succ_mul, hc, hs] at h4
    omega
  rw [samePage_iff hK, vpn_of_lt hK va hva, vpn_of_lt hK _ hcl]
  exact hd

theorem Later.reachable {E : BootEnv} {command : Option String} {s t : KState}
    (hs : Reachable K E command s) (h : Later K s t) : Reachable K E command t := by
  induction h with
  | here => exact hs
  | store t u va b _ h ih => exact Reachable.store _ _ _ _ ih h
  | trap t u regs _ h ih => exact Reachable.trap _ _ _ ih h
  | sysret t u regs v _ h ih => exact Reachable.sysret _ _ _ _ ih h
  | sysrun t u regs _ h ih => exact Reachable.sysrun _ _ _ ih h

/-- A process that does not run keeps its state and its address space in every
later running state, as long as it is not Runnable. -/
theorem Later.keeps_broken (hK : K.Geom) (E : BootEnv) (command : Option String)
    (hB : BootOK K E command) {s t : KState} (hs : Reachable K E command s) (h : Later K s t)
    (p : Nat) (hp : (s.ptable p).state = procstate.P_BROKEN) :
    (t.ptable p).state = procstate.P_BROKEN ∧ Still K s t p := by
  induction h with
  | here => exact ⟨hp, Still.unchanged s p⟩
  | store t u va b hl h ih =>
    have hg := reachable_inv hK E command hB t (hl.reachable hs)
    have hne : p ≠ t.current := fun hh => by
      have := hg.2
      rw [← hh, ih.1] at this
      exact absurd this (by decide)
    obtain ⟨a1, a2⟩ := (store_next hK hg va b u h).others p (by
      unfold KState.live; rw [ih.1]; decide) hne
    exact ⟨a1.trans ih.1, ih.2.follow a2⟩
  | trap t u regs hl h ih =>
    have hg := reachable_inv hK E command hB t (hl.reachable hs)
    have hne : p ≠ t.current := fun hh => by
      have := hg.2
      rw [← hh, ih.1] at this
      exact absurd this (by decide)
    obtain ⟨a1, a2⟩ := (exception_next hK hg regs u h).others p (by
      unfold KState.live; rw [ih.1]; decide) hne
    exact ⟨a1.trans ih.1, ih.2.follow a2⟩
  | sysret t u regs v hl h ih =>
    have hg := reachable_inv hK E command hB t (hl.reachable hs)
    have hne : p ≠ t.current := fun hh => by
      have := hg.2
      rw [← hh, ih.1] at this
      exact absurd this (by decide)
    obtain ⟨a1, a2⟩ := ((syscall_next hK hg regs).1 v u h).others p (by
      unfold KState.live; rw [ih.1]; decide) hne
    exact ⟨a1.trans ih.1, ih.2.follow a2⟩
  | sysrun t u regs hl h ih =>
    have hg := reachable_inv hK E command hB t (hl.reachable hs)
    have hne : p ≠ t.current := fun hh => by
      have := hg.2
      rw [← hh, ih.1] at this
      exact absurd this (by decide)
    obtain ⟨a1, a2⟩ := ((syscall_next hK hg regs).2 u h).others p (by
      unfold KState.live; rw [ih.1]; decide) hne
    exact ⟨a1.trans ih.1, ih.2.follow a2⟩

/-- The frames of an address space are owned: the root table, the page-table pages,
and the frames mapped user-accessibly outside the console page. -/
theorem Inv.frames_owned (hK : K.Geom) {s : KState} {role : Roles} (h : Inv K s role) (p : Nat)
    (hp : s.live p) :
    (s.pages ((s.ptable p).pagetable / K.PAGESIZE)).owner ≠ 0 ∧
    (∀ x ∈ pt_pages K s.mem 3 (s.ptable p).pagetable, (s.pages (x / K.PAGESIZE)).owner ≠ 0) ∧
    ∀ va, userPresent (s.ent K p va) → ¬ samePage K va K.console →
      (s.pages (s.ent K p va / K.PAGESIZE)).owner ≠ 0 := by
  have hs := (h.spaces p hp).2
  refine ⟨(h.typed _ p [] hs.root_role).2.2.1, fun x hx => ?_, fun va hu hnc =>
    (hs.user_owned va hu hnc).2⟩
  obtain ⟨_, π, hr⟩ := pt_pages_typed hK h.tables p 3 _ [] hs.root_role hs.root_al rfl x hx
  exact (h.typed _ p _ hr).2.2.1

/-- For a boot that satisfies `BootOK`, Broken is an absorbing state.  In an
execution from the boot let `s` be a
running state in which process `p` is Broken, and `t` any later running state, after
any number of stores, traps and system calls.  Then `p` is Broken in `t`; `p` is not
the process that runs in `t`; the slot search of `Fork`, on `t` with any saved
registers, does not choose `p`; the address space of `p` is in `t` what it was in
`s`; and its frames are not free in `t`: the root table, every page-table page, and
every frame mapped user-accessibly outside the console page. -/
theorem broken_is_absorbing (K : Config) (hK : K.Geom) (E : BootEnv) (command : Option String)
    (hB : BootOK K E command) (s : KState) (hs : Reachable K E command s) (p : Nat)
    (hp : (s.ptable p).state = procstate.P_BROKEN) (t : KState) (ht : Later K s t) :
    (t.ptable p).state = procstate.P_BROKEN ∧ t.current ≠ p ∧
    (∀ regs : regstate,
      fork_find K (t.setProc t.current fun q => { q with regs := regs }) (K.NPROC - 1) 1 ≠ p) ∧
    Still K s t p ∧
    (t.pages ((s.ptable p).pagetable / K.PAGESIZE)).owner ≠ 0 ∧
    (∀ x ∈ pt_pages K s.mem 3 (s.ptable p).pagetable, (t.pages (x / K.PAGESIZE)).owner ≠ 0) ∧
    ∀ va, userPresent (s.ent K p va) → ¬ samePage K va K.console →
      (t.pages (s.ent K p va / K.PAGESIZE)).owner ≠ 0 := by
  obtain ⟨hb, hst⟩ := ht.keeps_broken hK E command hB hs p hp
  have hrt := ht.reachable hs
  have hg := reachable_inv hK E command hB t hrt
  obtain ⟨role, hi⟩ := hg.1
  have hl : t.live p := by unfold KState.live; rw [hb]; decide
  have hne : t.current ≠ p := fun hh => by
    have := hg.2
    rw [hh, hb] at this
    exact absurd this (by decide)
  obtain ⟨f1, f2, f3⟩ := hi.frames_owned hK p hl
  refine ⟨hb, hne, fun regs hf => ?_, hst, ?_, fun x hx => ?_, fun va hu hnc => ?_⟩
  · rcases fork_find_spec (K := K) (t.setProc t.current fun q => { q with regs := regs })
      (K.NPROC - 1) 1 (by decide) with h0 | ⟨_, _, hfree⟩
    · rw [hf] at h0
      have := reachable_slot_zero hK E command hB t hrt
      rw [h0] at hb
      rw [this] at hb
      exact absurd hb (by decide)
    · rw [hf] at hfree
      simp only [KState.setProc, upd, if_neg (fun hh : p = t.current => hne hh.symm)] at hfree
      rw [hb] at hfree
      exact absurd hfree (by decide)
  · rw [← hst.root]
    exact f1
  · exact f2 x ((hst.tables x).2 hx)
  · rw [← hst.ent va] at hu ⊢
    exact f3 va hu hnc

end Isolation

section SlotFacts

variable {K : Config}

/-! ## The process table along an execution, from the code alone -/

theorem setProc_ptable_ne (s : KState) (c : Nat) (f : proc → proc) {q : Nat} (hq : q ≠ c) :
    (s.setProc c f).ptable q = s.ptable q := by
  simp [KState.setProc, upd, hq]

theorem setProc_ptable_self (s : KState) (c : Nat) (f : proc → proc) :
    (s.setProc c f).ptable c = f (s.ptable c) := by
  simp [KState.setProc, upd]

theorem vmiter_map_current {it : vmiter} {pa perm : Nat} {s : KState} {r : Int × KState}
    (h : it.map K pa perm s = some r) : r.2.current = s.current := by
  rw [(vmiter_map_some h).2]
  exact (vm_map_ptable_eq _ _ _ _ _ s).2

theorem kfree_current {ptr : Nat} {s t : KState} (h : kfree K ptr s = some t) :
    t.current = s.current := by
  rw [(kfree_shape h).2.2]

theorem proc_free_walk_current (pt : Nat) : ∀ (n va : Nat) (s t : KState),
    proc_free_walk K pt n va s = some t → t.current = s.current := by
  intro n
  induction n with
  | zero => intro va s t h; simp [proc_free_walk] at h
  | succ n ih =>
    intro va s t h
    simp only [proc_free_walk] at h
    split at h
    · split at h
      · split at h
        · exact absurd h (by simp)
        · rename_i s1 hs1
          exact (ih _ _ _ h).trans (kfree_current hs1)
      · split at h
        · exact (ih _ _ _ h).trans rfl
        · exact ih _ _ _ h
    · simp only [Option.some.injEq] at h
      rw [← h]

theorem kfree_list_current : ∀ (L : List Nat) (s t : KState),
    kfree_list K L s = some t → t.current = s.current := by
  intro L
  induction L with
  | nil =>
    intro s t h
    simp only [kfree_list, Option.some.injEq] at h
    rw [← h]
  | cons p ps ih =>
    intro s t h
    simp only [kfree_list] at h
    split at h
    · exact absurd h (by simp)
    · rename_i s1 hs1
      exact (ih _ _ h).trans (kfree_current hs1)

theorem proc_free_current {pid : Nat} {s t : KState} (h : proc_free K pid s = some t) :
    t.current = s.current := by
  unfold proc_free at h
  simp only at h
  split at h
  · exact absurd h (by simp)
  · rename_i s1 hs1
    split at h
    · exact absurd h (by simp)
    · rename_i s2 hs2
      rw [kfree_current h, kfree_list_current _ _ _ hs2, proc_free_walk_current _ _ _ _ _ hs1]
      rfl

/-- The page walk of a fork leaves the process table as it is when it completes, and
sets the child Free when it fails. -/
theorem fork_walk_procs (ppt cpt pid : Nat) : ∀ (n va : Nat) (s : KState) (b : Bool)
    (t : KState), fork_walk K ppt cpt pid n va s = some (b, t) →
    t.current = s.current ∧
    (b = true → t.ptable = s.ptable) ∧
    (b = false →
      t.ptable = upd s.ptable pid { (s.ptable pid) with state := procstate.P_FREE }) := by
  intro n
  induction n with
  | zero => intro va s b t h; simp [fork_walk] at h
  | succ n ih =>
    intro va s b t h
    have hfail : ∀ (u : KState), u.ptable = s.ptable → u.current = s.current →
        (proc_free K pid u).map (fun t => (false, t)) = some (b, t) →
        t.current = s.current ∧
        (b = true → t.ptable = s.ptable) ∧
        (b = false →
          t.ptable = upd s.ptable pid { (s.ptable pid) with state := procstate.P_FREE }) := by
      intro u hu hc hh
      cases hpf : proc_free K pid u with
      | none => rw [hpf] at hh; exact absurd hh (by simp)
      | some w =>
        rw [hpf] at hh
        simp only [Option.map_some', Option.some.injEq, Prod.mk.injEq] at hh
        rw [← hh.2, ← hh.1]
        refine ⟨(proc_free_current hpf).trans hc, fun h0 => absurd h0 (by simp), fun _ => ?_⟩
        rw [proc_free_ptable hpf, hu]
    have hnext : ∀ (u : KState),
        fork_walk K ppt cpt pid n (va + K.PAGESIZE) u = some (b, t) →
        u.ptable = s.ptable → u.current = s.current →
        t.current = s.current ∧
        (b = true → t.ptable = s.ptable) ∧
        (b = false →
          t.ptable = upd s.ptable pid { (s.ptable pid) with state := procstate.P_FREE }) := by
      intro u hh hu hc
      obtain ⟨a1, a2, a3⟩ := ih _ _ b t hh
      rw [hu] at a2 a3
      exact ⟨a1.trans hc, a2, a3⟩
    simp only [fork_walk] at h
    split at h
    · split at h
      · split at h
        · exact hfail _ (kalloc_ptable_eq _ s).1 (kalloc_ptable_eq _ s).2.1 h
        · split at h
          · exact absurd h (by simp)
          · rename_i r2 hr2
            have hp2 : r2.2.ptable = s.ptable := by
              rw [vmiter_map_ptable hr2, (kalloc_ptable_eq _ s).1]
            have hc2 : r2.2.current = s.current := by
              rw [vmiter_map_current hr2, (kalloc_ptable_eq _ s).2.1]
            split at h
            · exact hfail _ hp2 hc2 h
            · exact hnext _ h hp2 hc2
      · split at h
        · split at h
          · exact absurd h (by simp)
          · rename_i r2 hr2
            split at h
            · exact hfail _ (vmiter_map_ptable hr2) (vmiter_map_current hr2) h
            · exact hnext _ h (vmiter_map_ptable hr2) (vmiter_map_current hr2)
        · split at h
          · exact absurd h (by simp)
          · rename_i r2 hr2
            split at h
            · exact hfail _ (vmiter_map_ptable hr2) (vmiter_map_current hr2) h
            · exact hnext _ h (vmiter_map_ptable hr2) (vmiter_map_current hr2)
    · simp only [Option.some.injEq, Prod.mk.injEq] at h
      rw [← h.2, ← h.1]
      exact ⟨rfl, fun _ => rfl, fun h0 => absurd h0 (by simp)⟩

/-- What `SYSCALL_FORK` does to the process table.  It returns -1 and leaves the
state, the pid and the registers of every slot as they are; or it returns the slot
that the search of lines 399-405 found, which was Free, and changes the descriptor of
this slot only: its registers are those of the caller with `rax = 0`, its pid is the
slot index and its state is Runnable. -/
theorem sys_fork_procs {s : KState} {v : Nat} {t : KState}
    (h : sys_fork K s = some (v, t)) :
    t.current = s.current ∧
    ((v = UINTPTR_MAX ∧ ∀ q, (t.ptable q).state = (s.ptable q).state ∧
        (t.ptable q).pid = (s.ptable q).pid ∧ (t.ptable q).regs = (s.ptable q).regs ∧
        ((s.ptable q).state ≠ procstate.P_FREE → t.ptable q = s.ptable q)) ∨
     (v = fork_find K s (K.NPROC - 1) 1 ∧ v ≠ 0 ∧ v < K.NPROC ∧
        (s.ptable v).state = procstate.P_FREE ∧
        (∀ q, q ≠ v → t.ptable q = s.ptable q) ∧
        (t.ptable v).regs = { (s.ptable s.current).regs with reg_rax := 0 } ∧
        (t.ptable v).pid = v ∧ (t.ptable v).state = procstate.P_RUNNABLE)) := by
  unfold sys_fork at h
  simp only at h
  split at h
  · simp only [Option.some.injEq, Prod.mk.injEq] at h
    rw [← h.1, ← h.2]
    exact ⟨rfl, Or.inl ⟨rfl, fun _ => ⟨rfl, rfl, rfl, fun _ => rfl⟩⟩⟩
  · rename_i hc
    have hff : 0 < fork_find K s (K.NPROC - 1) 1 ∧ fork_find K s (K.NPROC - 1) 1 < K.NPROC ∧
        (s.ptable (fork_find K s (K.NPROC - 1) 1)).state = procstate.P_FREE := by
      rcases fork_find_spec (K := K) s (K.NPROC - 1) 1 (by decide) with h0 | ⟨h1, h2, h3⟩
      · exact absurd h0 hc
      · exact ⟨h1, by omega, h3⟩
    generalize fork_find K s (K.NPROC - 1) 1 = pid at h hc hff
    have hs1 : ∀ q, ((((kalloc K K.PAGESIZE s).2.setProc pid fun p =>
          { p with pagetable := (kalloc K K.PAGESIZE s).1 }).ptable q).state
            = (s.ptable q).state) ∧
        ((((kalloc K K.PAGESIZE s).2.setProc pid fun p =>
          { p with pagetable := (kalloc K K.PAGESIZE s).1 }).ptable q).pid
            = (s.ptable q).pid) ∧
        ((((kalloc K K.PAGESIZE s).2.setProc pid fun p =>
          { p with pagetable := (kalloc K K.PAGESIZE s).1 }).ptable q).regs
            = (s.ptable q).regs) ∧
        (q ≠ pid → ((kalloc K K.PAGESIZE s).2.setProc pid fun p =>
          { p with pagetable := (kalloc K K.PAGESIZE s).1 }).ptable q = s.ptable q) := by
      intro q
      simp only [KState.setProc, upd, (kalloc_ptable_eq _ s).1]
      by_cases hq : q = pid
      · rw [if_pos hq, hq]
        exact ⟨rfl, rfl, rfl, fun hh => absurd rfl hh⟩
      · rw [if_neg hq]
        exact ⟨rfl, rfl, rfl, fun _ => rfl⟩
    have hc1 : ((kalloc K K.PAGESIZE s).2.setProc pid fun p =>
        { p with pagetable := (kalloc K K.PAGESIZE s).1 }).current = s.current :=
      (kalloc_ptable_eq _ s).2.1
    split at h
    · cases hk : kfree K 0 ((kalloc K K.PAGESIZE s).2.setProc pid
          fun p => { p with pagetable := (kalloc K K.PAGESIZE s).1 }) with
      | none => rw [hk] at h; exact absurd h (by simp)
      | some w =>
        rw [hk] at h
        simp only [Option.map_some', Option.some.injEq, Prod.mk.injEq] at h
        rw [← h.1, ← h.2]
        refine ⟨(kfree_current hk).trans hc1, Or.inl ⟨rfl, fun q => ?_⟩⟩
        rw [kfree_ptable hk]
        refine ⟨(hs1 q).1, (hs1 q).2.1, (hs1 q).2.2.1, fun hf => (hs1 q).2.2.2 ?_⟩
        intro hh
        rw [hh] at hf
        exact hf hff.2.2
    · split at h
      · exact absurd h (by simp)
      · rename_i t1 hw
        simp only [Option.some.injEq, Prod.mk.injEq] at h
        rw [← h.1, ← h.2]
        obtain ⟨a1, _, a3⟩ := fork_walk_procs _ _ _ _ _ _ _ _ hw
        refine ⟨a1.trans hc1, Or.inl ⟨rfl, fun q => ?_⟩⟩
        rw [a3 rfl]
        by_cases hq : q = pid
        · simp only [upd, if_pos hq]
          rw [hq]
          exact ⟨by rw [hff.2.2], (hs1 pid).2.1, (hs1 pid).2.2.1,
            fun hf => absurd hff.2.2 hf⟩
        · simp only [upd, if_neg hq]
          exact ⟨(hs1 q).1, (hs1 q).2.1, (hs1 q).2.2.1, fun _ => (hs1 q).2.2.2 hq⟩
      · rename_i t1 hw
        simp only [Option.some.injEq, Prod.mk.injEq] at h
        rw [← h.1, ← h.2]
        obtain ⟨a1, a2, _⟩ := fork_walk_procs _ _ _ _ _ _ _ _ hw
        have a2 := a2 rfl
        refine ⟨a1.trans hc1, Or.inr ⟨rfl, hc, hff.2.1, hff.2.2, fun q hq => ?_, ?_, ?_, ?_⟩⟩
        · simp only [KState.setProc, upd, if_neg hq]
          rw [a2]
          exact (hs1 q).2.2.2 hq
        · simp only [KState.setProc, upd, if_true]
          rw [a2, a1, hc1, (hs1 s.current).2.2.1]
        · simp only [KState.setProc, upd, if_true]
        · simp only [KState.setProc, upd, if_true]

/-- The descriptor of the slot that the search of `SYSCALL_FORK` found: its page
table is what the first `kalloc` of the fork returned, every other descriptor is
untouched, and after a fork that fails the slot is Free. -/
theorem sys_fork_table {s : KState} {v : Nat} {t : KState}
    (h : sys_fork K s = some (v, t)) (hc : fork_find K s (K.NPROC - 1) 1 ≠ 0) :
    (∀ q, q ≠ fork_find K s (K.NPROC - 1) 1 → t.ptable q = s.ptable q) ∧
    (t.ptable (fork_find K s (K.NPROC - 1) 1)).pagetable = (kalloc K K.PAGESIZE s).1 ∧
    (v = fork_find K s (K.NPROC - 1) 1 ∨
      (v = UINTPTR_MAX ∧
        (t.ptable (fork_find K s (K.NPROC - 1) 1)).state = procstate.P_FREE)) := by
  have hff : (s.ptable (fork_find K s (K.NPROC - 1) 1)).state = procstate.P_FREE := by
    rcases fork_find_spec (K := K) s (K.NPROC - 1) 1 (by decide) with h0 | ⟨_, _, h3⟩
    · exact absurd h0 hc
    · exact h3
  unfold sys_fork at h
  simp only at h
  rw [if_neg hc] at h
  generalize fork_find K s (K.NPROC - 1) 1 = pid at h hc hff ⊢
  have hq1 : ∀ q, q ≠ pid → ((kalloc K K.PAGESIZE s).2.setProc pid fun p =>
      { p with pagetable := (kalloc K K.PAGESIZE s).1 }).ptable q = s.ptable q := by
    intro q hq
    rw [setProc_ptable_ne _ _ _ hq, (kalloc_ptable_eq _ s).1]
  have hp1 : ((kalloc K K.PAGESIZE s).2.setProc pid fun p =>
      { p with pagetable := (kalloc K K.PAGESIZE s).1 }).ptable pid =
      { (s.ptable pid) with pagetable := (kalloc K K.PAGESIZE s).1 } := by
    rw [setProc_ptable_self, (kalloc_ptable_eq _ s).1]
  split at h
  · cases hk : kfree K 0 ((kalloc K K.PAGESIZE s).2.setProc pid
        fun p => { p with pagetable := (kalloc K K.PAGESIZE s).1 }) with
    | none => rw [hk] at h; exact absurd h (by simp)
    | some w =>
      rw [hk] at h
      simp only [Option.map_some', Option.some.injEq, Prod.mk.injEq] at h
      rw [← h.1, ← h.2, kfree_ptable hk]
      exact ⟨hq1, by rw [hp1], Or.inr ⟨rfl, by rw [hp1]; exact hff⟩⟩
  · split at h
    · exact absurd h (by simp)
    · rename_i t1 hw
      simp only [Option.some.injEq, Prod.mk.injEq] at h
      rw [← h.1, ← h.2]
      obtain ⟨_, _, a3⟩ := fork_walk_procs _ _ _ _ _ _ _ _ hw
      rw [a3 rfl]
      refine ⟨fun q hq => ?_, ?_, Or.inr ⟨rfl, ?_⟩⟩
      · simp only [upd, if_neg hq]
        exact hq1 q hq
      · simp only [upd, if_true]
        rw [hp1]
      · simp only [upd, if_true]
    · rename_i t1 hw
      simp only [Option.some.injEq, Prod.mk.injEq] at h
      rw [← h.1, ← h.2]
      obtain ⟨_, a2, _⟩ := fork_walk_procs _ _ _ _ _ _ _ _ hw
      have a2 := a2 rfl
      refine ⟨fun q hq => ?_, ?_, Or.inl rfl⟩
      · rw [setProc_ptable_ne _ _ _ hq, a2]
        exact hq1 q hq
      · rw [setProc_ptable_self]
        show (t1.ptable pid).pagetable = _
        rw [a2, hp1]

theorem sys_page_alloc_current {s : KState} {v : Nat} {t : KState}
    (h : sys_page_alloc K s = some (v, t)) : t.current = s.current := by
  unfold sys_page_alloc at h
  simp only at h
  split at h
  · split at h
    · split at h
      · exact absurd h (by simp)
      · rename_i r2 hr2
        split at h
        · simp only [Option.some.injEq, Prod.mk.injEq] at h
          rw [← h.2, vmiter_map_current hr2]
          exact (kalloc_ptable_eq _ s).2.1
        · exact absurd h (by simp)
    · simp only [Option.some.injEq, Prod.mk.injEq] at h
      rw [← h.2]
      exact (kalloc_ptable_eq _ s).2.1
  · simp only [Option.some.injEq, Prod.mk.injEq] at h
    rw [← h.2]

theorem schedule_scan_lt (hn : 0 < K.NPROC) (s : KState) : ∀ (n pid q : Nat),
    schedule_scan K s n pid = some q → q < K.NPROC := by
  intro n
  induction n with
  | zero => intro pid q hq; simp [schedule_scan] at hq
  | succ n ih =>
    intro pid q hq
    simp only [schedule_scan] at hq
    split at hq
    · simp only [Option.some.injEq] at hq
      rw [← hq]
      exact Nat.mod_lt _ hn
    · exact ih _ _ hq

/-- The process that `schedule` runs is a Runnable process of the table. -/
theorem Slots.of_schedule (hn : 0 < K.NPROC) {s t : KState}
    (hp : ∀ i, i < K.NPROC → (s.ptable i).pid = i)
    (hz : (s.ptable 0).state = procstate.P_FREE)
    (h : schedule K s = Outcome.resumed t) : Slots K t ∧ t.ptable = s.ptable := by
  have hpt := schedule_ptable h
  unfold Weensy.schedule at h
  generalize hsc : schedule_scan K s K.NPROC (s.ptable s.current).pid = o at h
  cases o with
  | none => exact absurd h (by simp)
  | some pid =>
    simp only [Outcome.resumed.injEq] at h
    refine ⟨⟨by rw [hpt]; exact hp, by rw [hpt]; exact hz, ?_, ?_⟩, hpt⟩
    · rw [hpt, ← h]
      exact schedule_scan_spec (K := K) _ _ _ _ hsc
    · rw [← h]
      exact schedule_scan_lt hn _ _ _ _ hsc

/-- Saving registers in the descriptor of the current process. -/
theorem Slots.of_saveRegs {s : KState} (h : Slots K s) (f : regstate → regstate) :
    Slots K (s.setProc s.current fun p => { p with regs := f p.regs }) :=
  ⟨fun i hi => by rw [(setProc_regs_fields s f i).2.2.1]; exact h.pids i hi,
   by rw [(setProc_regs_fields s f 0).1]; exact h.zero,
   by
    show ((s.setProc s.current fun p => { p with regs := f p.regs }).ptable s.current).state = _
    rw [(setProc_regs_fields s f s.current).1]; exact h.run,
   h.cur⟩

theorem Slots.of_finish (hn : 0 < K.NPROC) {s t : KState}
    (hp : ∀ i, i < K.NPROC → (s.ptable i).pid = i)
    (hz : (s.ptable 0).state = procstate.P_FREE) (hc : s.current < K.NPROC)
    (h : exception_finish K s = Outcome.resumed t) : Slots K t ∧ t.ptable = s.ptable := by
  unfold exception_finish at h
  split at h
  · rename_i hr
    simp only [Outcome.resumed.injEq] at h
    rw [← h]
    exact ⟨⟨hp, hz, hr, hc⟩, rfl⟩
  · exact Slots.of_schedule hn hp hz h

/-- A system call of a running process: the state in which a process runs next has a
well-formed process table, and the descriptor of every process that is neither the
caller nor Free is as before. -/
theorem syscall_slots (hn : 0 < K.NPROC) {s : KState} (regs : regstate) (hS : Slots K s) :
    (∀ v t, syscall K regs s = SysResult.ret v t →
      (∀ i, i < K.NPROC → (t.ptable i).pid = i) ∧ (t.ptable 0).state = procstate.P_FREE ∧
      (t.ptable t.current).state = procstate.P_RUNNABLE ∧ t.current = s.current ∧
      ∀ q, q ≠ s.current → (s.ptable q).state ≠ procstate.P_FREE → t.ptable q = s.ptable q) ∧
    (∀ t, syscall K regs s = SysResult.noreturn (Outcome.resumed t) →
      Slots K t ∧
      ∀ q, q ≠ s.current → (s.ptable q).state ≠ procstate.P_FREE → t.ptable q = s.ptable q) := by
  have h0 := hS.of_saveRegs (fun _ => regs)
  have hc0 : s.current ≠ 0 := by
    intro hh
    have := hS.run
    rw [hh, hS.zero] at this
    exact absurd this (by decide)
  have hoth : ∀ q, q ≠ s.current →
      (s.setProc s.current fun p => { p with regs := regs }).ptable q = s.ptable q :=
    fun q hq => (setProc_regs_fields s (fun _ => regs) q).2.2.2 hq
  set s0 := s.setProc s.current fun p => { p with regs := regs } with hs0
  have hcur0 : s0.current = s.current := rfl
  have hyield : ∀ (u : KState), (∀ i, i < K.NPROC → (u.ptable i).pid = i) →
      (u.ptable 0).state = procstate.P_FREE →
      (∀ q, q ≠ s.current → (s.ptable q).state ≠ procstate.P_FREE → u.ptable q = s.ptable q) →
      ∀ t, schedule K (u.setProc u.current fun p => { p with regs := { p.regs with reg_rax := 0 } })
        = Outcome.resumed t → u.current = s.current →
      Slots K t ∧
      ∀ q, q ≠ s.current → (s.ptable q).state ≠ procstate.P_FREE → t.ptable q = s.ptable q := by
    intro u hp hz ho t ht hcu
    have e := setProc_regs_fields u (fun r => { r with reg_rax := 0 })
    obtain ⟨b1, b2⟩ := Slots.of_schedule hn
      (fun i hi => by rw [(e i).2.2.1]; exact hp i hi) (by rw [(e 0).1]; exact hz) ht
    refine ⟨b1, fun q hq hf => ?_⟩
    rw [b2, (e q).2.2.2 (by rw [hcu]; exact hq)]
    exact ho q hq hf
  constructor
  · intro v t ht
    unfold syscall at ht
    simp only at ht
    split at ht
    · exact absurd ht (by simp)
    · split at ht
      · simp only [SysResult.ret.injEq] at ht
        rw [← ht.2]
        exact ⟨h0.pids, h0.zero, h0.run, rfl, fun q hq _ => hoth q hq⟩
      · split at ht
        · exact absurd ht (by simp)
        · split at ht
          · have hpa := ofOption_cases.1 v t ht
            have e1 := sys_page_alloc_ptable hpa
            have e2 := sys_page_alloc_current hpa
            refine ⟨by rw [e1]; exact h0.pids, by rw [e1]; exact h0.zero, ?_, e2,
              fun q hq _ => by rw [e1]; exact hoth q hq⟩
            rw [e1, e2]
            exact h0.run
          · split at ht
            · have hf := ofOption_cases.1 v t ht
              obtain ⟨c1, c2⟩ := sys_fork_procs hf
              rcases c2 with ⟨_, c3⟩ | ⟨_, c3, c4, c5, c6, _, c8, c9⟩
              · refine ⟨fun i hi => by rw [(c3 i).2.1]; exact h0.pids i hi,
                  by rw [(c3 0).1]; exact h0.zero, ?_, c1, fun q hq hf => ?_⟩
                · rw [c1, (c3 _).1]
                  exact h0.run
                · rw [(c3 q).2.2.2 (by rw [hoth q hq]; exact hf)]
                  exact hoth q hq
              · have hvc : v ≠ s0.current := by
                  intro hh
                  rw [hh] at c5
                  have := h0.run
                  rw [c5] at this
                  exact absurd this (by decide)
                refine ⟨fun i hi => ?_, ?_, ?_, c1, fun q hq hf => ?_⟩
                · by_cases hiv : i = v
                  · rw [hiv]; exact c8
                  · rw [c6 i hiv]; exact h0.pids i hi
                · rw [c6 0 (fun hh => c3 hh.symm)]
                  exact h0.zero
                · rw [c1, c6 _ (fun hh => hvc hh.symm)]
                  exact h0.run
                · have hqv : q ≠ v := by
                    intro hh
                    rw [hh, ← hoth v (by rw [← hh]; exact hq)] at hf
                    exact hf c5
                  rw [c6 q hqv]
                  exact hoth q hq
            · split at ht
              · split at ht <;> exact absurd ht (by simp)
              · exact absurd ht (by simp)
  · intro t ht
    unfold syscall at ht
    simp only at ht
    split at ht
    · exact absurd ht (by simp)
    · split at ht
      · exact absurd ht (by simp)
      · split at ht
        · simp only [SysResult.noreturn.injEq] at ht
          exact hyield s0 h0.pids h0.zero (fun q hq _ => hoth q hq) t ht rfl
        · split at ht
          · exact absurd ht (ofOption_cases.2 t)
          · split at ht
            · exact absurd ht (ofOption_cases.2 t)
            · split at ht
              · split at ht
                · exact absurd ht (by simp)
                · rename_i s1 hs1
                  simp only [SysResult.noreturn.injEq] at ht
                  have e1 := proc_free_ptable hs1
                  have e2 := proc_free_current hs1
                  have hpid : (s0.ptable s0.current).pid = s.current := h0.pids _ h0.cur
                  rw [hpid] at e1
                  refine hyield s1 (fun i hi => ?_) ?_ (fun q hq _ => ?_) t ht e2
                  · rw [e1]
                    by_cases hi2 : i = s.current
                    · simp only [upd, if_pos hi2]
                      rw [hi2]
                      exact h0.pids _ h0.cur
                    · simp only [upd, if_neg hi2]
                      exact h0.pids i hi
                  · rw [e1]
                    simp only [upd, if_neg (fun hh : 0 = s.current => hc0 hh.symm)]
                    exact h0.zero
                  · rw [e1]
                    simp only [upd, if_neg hq]
                    exact hoth q hq
              · exact absurd ht (by simp)

/-- A trap of a running process: the state in which a process runs next has a
well-formed process table, and the descriptor of every process that is neither the
interrupted process nor Free is as before. -/
theorem exception_slots (hn : 0 < K.NPROC) {s : KState} (regs : regstate) (t : KState)
    (hS : Slots K s) (ht : exception K regs s = Outcome.resumed t) :
    Slots K t ∧
    ∀ q, q ≠ s.current → (s.ptable q).state ≠ procstate.P_FREE → t.ptable q = s.ptable q := by
  have h0 := hS.of_saveRegs (fun _ => regs)
  have hoth : ∀ q, q ≠ s.current →
      (s.setProc s.current fun p => { p with regs := regs }).ptable q = s.ptable q :=
    fun q hq => (setProc_regs_fields s (fun _ => regs) q).2.2.2 hq
  have hc0 : s.current ≠ 0 := by
    intro hh
    have := hS.run
    rw [hh, hS.zero] at this
    exact absurd this (by decide)
  unfold exception at ht
  simp only at ht
  split at ht
  · split at ht
    · rename_i v s1 hs1
      obtain ⟨b1, b2, b3, b4, b5⟩ := (syscall_slots hn regs h0).1 v s1 hs1
      have e := setProc_regs_fields s1 (fun r => { r with reg_rax := v })
      obtain ⟨c1, c2⟩ := Slots.of_finish hn (fun i hi => by rw [(e i).2.2.1]; exact b1 i hi)
        (by rw [(e 0).1]; exact b2) (by show s1.current < _; rw [b4]; exact hS.cur) ht
      refine ⟨c1, fun q hq hf => ?_⟩
      rw [c2, (e q).2.2.2 (by rw [b4]; exact hq), b5 q hq (by rw [hoth q hq]; exact hf)]
      exact hoth q hq
    · rename_i o ho
      rw [ht] at ho
      obtain ⟨b1, b2⟩ := (syscall_slots hn regs h0).2 t ho
      refine ⟨b1, fun q hq hf => ?_⟩
      rw [b2 q hq (by rw [hoth q hq]; exact hf)]
      exact hoth q hq
  · split at ht
    · obtain ⟨c1, c2⟩ := Slots.of_schedule (s := { (s.setProc s.current fun p =>
        { p with regs := regs }) with ticks := (s.setProc s.current fun p =>
        { p with regs := regs }).ticks + 1 }) hn h0.pids h0.zero ht
      exact ⟨c1, fun q hq _ => by rw [c2]; exact hoth q hq⟩
    · split at ht
      · split at ht
        · exact absurd ht (by simp)
        · have hp : ∀ q, q ≠ s.current →
              ((s.setProc s.current fun p => { p with regs := regs }).setProc s.current
                fun p => { p with state := procstate.P_BROKEN }).ptable q = s.ptable q := by
            intro q hq
            simp only [KState.setProc, upd, if_neg hq]
          obtain ⟨c1, c2⟩ := Slots.of_finish (s := (s.setProc s.current fun p =>
            { p with regs := regs }).setProc s.current
              fun p => { p with state := procstate.P_BROKEN }) hn (fun i hi => by
              by_cases hi2 : i = s.current
              · rw [hi2]
                simp only [KState.setProc, upd, if_true]
                exact hS.pids _ hS.cur
              · rw [hp i hi2]
                exact hS.pids i hi)
            (by rw [hp 0 (fun hh => hc0 hh.symm)]; exact hS.zero) hS.cur ht
          exact ⟨c1, fun q hq _ => by rw [c2]; exact hp q hq⟩
      · exact absurd ht (by simp)

/-! ## The process table after boot -/

theorem setup_kernel_loop_procs (pt : Nat) : ∀ (n va : Nat) (s t : KState),
    setup_kernel_loop K pt n va s = some t → t.ptable = s.ptable ∧ t.current = s.current := by
  intro n
  induction n with
  | zero => intro va s t h; simp [setup_kernel_loop] at h
  | succ n ih =>
    intro va s t h
    simp only [setup_kernel_loop] at h
    split at h
    · split at h
      · exact absurd h (by simp)
      · rename_i r hr
        split at h
        · obtain ⟨a1, a2⟩ := ih _ _ _ h
          exact ⟨a1.trans (vmiter_map_ptable hr), a2.trans (vmiter_map_current hr)⟩
        · exact absurd h (by simp)
    · simp only [Option.some.injEq] at h
      rw [← h]
      exact ⟨rfl, rfl⟩

theorem setup_segment_pages_procs (pt : Nat) (w : Bool) (stop : Nat) :
    ∀ (n a : Nat) (s t : KState), setup_segment_pages K pt w stop n a s = some t →
    t.ptable = s.ptable ∧ t.current = s.current := by
  intro n
  induction n with
  | zero => intro a s t h; simp [setup_segment_pages] at h
  | succ n ih =>
    intro a s t h
    simp only [setup_segment_pages] at h
    split at h
    · split at h
      · exact absurd h (by simp)
      · split at h
        · exact absurd h (by simp)
        · rename_i r2 hr2
          split at h
          · obtain ⟨a1, a2⟩ := ih _ _ _ h
            exact ⟨a1.trans ((vmiter_map_ptable hr2).trans (kalloc_ptable_eq _ s).1),
              a2.trans ((vmiter_map_current hr2).trans (kalloc_ptable_eq _ s).2.1)⟩
          · exact absurd h (by simp)
    · simp only [Option.some.injEq] at h
      rw [← h]
      exact ⟨rfl, rfl⟩

theorem setup_alloc_procs (pt : Nat) : ∀ (gs : List segment) (s t : KState),
    setup_alloc K pt gs s = some t → t.ptable = s.ptable ∧ t.current = s.current := by
  intro gs
  induction gs with
  | nil =>
    intro s t h
    simp only [setup_alloc, Option.some.injEq] at h
    rw [← h]
    exact ⟨rfl, rfl⟩
  | cons g gs ih =>
    intro s t h
    simp only [setup_alloc] at h
    split at h
    · exact absurd h (by simp)
    · rename_i s1 hs1
      obtain ⟨a1, a2⟩ := ih _ _ h
      obtain ⟨b1, b2⟩ := setup_segment_pages_procs _ _ _ _ _ _ _ hs1
      exact ⟨a1.trans b1, a2.trans b2⟩

theorem setup_copy_procs (pt : Nat) : ∀ (gs : List segment) (s : KState),
    (setup_copy K pt gs s).ptable = s.ptable ∧ (setup_copy K pt gs s).current = s.current := by
  intro gs
  induction gs with
  | nil => intro s; exact ⟨rfl, rfl⟩
  | cons g gs ih =>
    intro s
    simp only [setup_copy]
    exact ⟨(ih _).1, (ih _).2⟩

/-- `process_setup(pid, n)` changes the descriptor of `pid` only, which becomes
Runnable and keeps its pid. -/
theorem process_setup_procs (E : BootEnv) (c n : Nat) (s t : KState)
    (h : process_setup K E c n s = some t) :
    t.current = s.current ∧ (∀ q, q ≠ c → t.ptable q = s.ptable q) ∧
    (t.ptable c).state = procstate.P_RUNNABLE ∧ (t.ptable c).pid = (s.ptable c).pid := by
  unfold process_setup at h
  simp only at h
  split at h
  · exact absurd h (by simp)
  rename_i s2 hs2
  split at h
  · exact absurd h (by simp)
  rename_i s3 hs3
  split at h
  · exact absurd h (by simp)
  split at h
  · exact absurd h (by simp)
  rename_i r7 hr7
  split at h
  · exact absurd h (by simp)
  simp only [Option.some.injEq] at h
  obtain ⟨a1, a2⟩ := setup_kernel_loop_procs _ _ _ _ _ hs2
  obtain ⟨b1, b2⟩ := setup_alloc_procs _ _ _ _ hs3
  have c1 := (setup_copy_procs (K := K) (kalloc K K.PAGESIZE
    (s.setProc c fun p => { p with regs := E.init_regs })).1 (E.programs n).segments s3)
  have e7 := vmiter_map_ptable hr7
  have f7 := vmiter_map_current hr7
  rw [(kalloc_ptable_eq _ _).1] at e7
  rw [(kalloc_ptable_eq _ _).2.1] at f7
  rw [← h]
  refine ⟨?_, fun q hq => ?_, ?_, ?_⟩
  · show r7.2.current = s.current
    rw [f7]
    show (setup_copy K _ _ s3).current = _
    rw [c1.2, b2, a2]
    exact (kalloc_ptable_eq _ _).2.1
  · rw [setProc_ptable_ne _ _ _ hq, e7, setProc_ptable_ne _ _ _ hq, c1.1, b1, a1,
      setProc_ptable_ne _ _ _ hq, (kalloc_ptable_eq _ _).1, setProc_ptable_ne _ _ _ hq]
  · rw [setProc_ptable_self]
  · rw [setProc_ptable_self]
    show (r7.2.ptable c).pid = _
    rw [e7, setProc_ptable_self]
    show ((setup_copy K _ _ s3).ptable c).pid = _
    rw [c1.1, b1, a1, setProc_ptable_self]
    show ((kalloc K K.PAGESIZE _).2.ptable c).pid = _
    rw [(kalloc_ptable_eq _ _).1, setProc_ptable_self]

theorem setup_default_procs (E : BootEnv) : ∀ (n i : Nat) (s t : KState),
    setup_default K E n i s = some t →
    t.current = s.current ∧ (∀ q, q < i ∨ i + n ≤ q → t.ptable q = s.ptable q) ∧
    (∀ q, i ≤ q → q < i + n → (t.ptable q).state = procstate.P_RUNNABLE ∧
      (t.ptable q).pid = (s.ptable q).pid) := by
  intro n
  induction n with
  | zero =>
    intro i s t h
    simp only [setup_default, Option.some.injEq] at h
    rw [← h]
    exact ⟨rfl, fun _ _ => rfl, fun q h1 h2 => absurd h2 (by omega)⟩
  | succ n ih =>
    intro i s t h
    obtain ⟨t1, e1, r1⟩ := setup_default_succ E n i s t h
    obtain ⟨a1, a2, a3, a4⟩ := process_setup_procs E i (i - 1) s t1 e1
    obtain ⟨b1, b2, b3⟩ := ih _ _ _ r1
    refine ⟨b1.trans a1, fun q hq => ?_, fun q h1 h2 => ?_⟩
    · rw [b2 q (by omega), a2 q (by omega)]
    · by_cases hqi : q = i
      · rw [hqi, b2 i (Or.inl (by omega))]
        exact ⟨a3, a4⟩
      · obtain ⟨c1, c2⟩ := b3 q (by omega) (by omega)
        rw [a2 q hqi] at c2
        exact ⟨c1, c2⟩

/-- The state before the first `process_setup`: every slot of the table carries
its index as pid and is Free. -/
theorem kernel_init_procs (E : BootEnv) (s0 : KState) (h : kernel_init K E = some s0) :
    ∀ p, p < K.NPROC → (s0.ptable p).pid = p ∧ (s0.ptable p).state = procstate.P_FREE := by
  unfold kernel_init at h
  simp only at h
  split at h
  · exact absurd h (by simp)
  · rename_i s1 _
    simp only [Option.some.injEq] at h
    intro p hp
    rw [← h]
    exact (init_ptable_spec K.NPROC 0 s1).2.2.2.1 p (Nat.zero_le _) (by omega)

/-- At the first `run` the process table is well formed. -/
theorem kernel_slots (hn : 1 < K.NPROC) (E : BootEnv) (command : Option String) (s : KState)
    (hs : kernel K E command = Outcome.resumed s) : Slots K s := by
  rw [kernel_after_init] at hs
  cases h0 : kernel_init K E with
  | none => rw [h0] at hs; exact absurd hs (by simp)
  | some s0 =>
    rw [h0] at hs
    simp only at hs
    have hini := kernel_init_procs E s0 h0
    have hfin : ∀ (s3 : KState), (∀ i, i < K.NPROC → (s3.ptable i).pid = i) →
        (s3.ptable 0).state = procstate.P_FREE →
        (if (s3.ptable 1).state = procstate.P_RUNNABLE
          then Outcome.resumed { s3 with current := 1 } else Outcome.halted) =
          Outcome.resumed s → Slots K s := by
      intro s3 h1 h2 hh
      split at hh
      · rename_i hr
        simp only [Outcome.resumed.injEq] at hh
        rw [← hh]
        exact ⟨h1, h2, hr, hn⟩
      · exact absurd hh (by simp)
    have hone : ∀ n s3, process_setup K E 1 n s0 = some s3 →
        (∀ i, i < K.NPROC → (s3.ptable i).pid = i) ∧ (s3.ptable 0).state = procstate.P_FREE := by
      intro n s3 h3
      obtain ⟨_, a2, _, a4⟩ := process_setup_procs E 1 n s0 s3 h3
      refine ⟨fun i hi => ?_, ?_⟩
      · by_cases h1 : i = 1
        · rw [h1, a4]; exact (hini 1 hn).1
        · rw [a2 i h1]; exact (hini i hi).1
      · rw [a2 0 (by decide)]
        exact (hini 0 (by omega)).2
    by_cases hc1 : command = some "fork"
    · rw [if_pos hc1] at hs
      cases h3 : process_setup K E 1 4 s0 with
      | none => rw [h3] at hs; exact absurd hs (by simp)
      | some s3 =>
        rw [h3] at hs
        exact hfin s3 (hone 4 s3 h3).1 (hone 4 s3 h3).2 hs
    · by_cases hc2 : command = some "forkexit"
      · rw [if_neg hc1, if_pos hc2] at hs
        cases h3 : process_setup K E 1 5 s0 with
        | none => rw [h3] at hs; exact absurd hs (by simp)
        | some s3 =>
          rw [h3] at hs
          exact hfin s3 (hone 5 s3 h3).1 (hone 5 s3 h3).2 hs
      · rw [if_neg hc1, if_neg hc2] at hs
        cases h3 : setup_default K E 4 1 s0 with
        | none => rw [h3] at hs; exact absurd hs (by simp)
        | some s3 =>
          rw [h3] at hs
          obtain ⟨_, a2, a3⟩ := setup_default_procs E 4 1 s0 s3 h3
          refine hfin s3 (fun i hi => ?_) ?_ hs
          · by_cases h1 : 1 ≤ i ∧ i < 5
            · rw [(a3 i h1.1 (by omega)).2]
              exact (hini i hi).1
            · rw [a2 i (by omega)]
              exact (hini i hi).1
          · rw [a2 0 (Or.inl (by decide))]
            exact (hini 0 (by omega)).2

/-- In every state in which a process runs, the process table is well formed. -/
theorem reachable_slots (hn : 1 < K.NPROC) (E : BootEnv) (command : Option String)
    (s : KState) (hs : Reachable K E command s) : Slots K s := by
  induction hs with
  | boot s h => exact kernel_slots hn E command s h
  | store s t va b _ h ih =>
    unfold user_store at h
    simp only at h
    split at h
    · simp only [Option.some.injEq] at h
      rw [← h]
      exact ⟨ih.pids, ih.zero, ih.run, ih.cur⟩
    · exact absurd h (by simp)
  | trap s t regs _ h ih => exact (exception_slots (by omega) regs t ih h).1
  | sysret s t regs v _ h ih =>
    obtain ⟨b1, b2, b3, b4, _⟩ := (syscall_slots (by omega) regs ih).1 v t h
    exact ⟨b1, b2, b3, by rw [b4]; exact ih.cur⟩
  | sysrun s t regs _ h ih => exact ((syscall_slots (by omega) regs ih).2 t h).1

end SlotFacts

section TableClaims

variable {K : Config}

/-- C15: for every state.  If no slot in `1..NPROC-1` is Free, `SYSCALL_FORK`
returns -1 and leaves the whole state unchanged.  If `c` is the smallest Free slot in
`1..NPROC-1`, the slot search yields `c`, and whenever the system call returns, with
value `v` in state `t`, the child it chose is `c`: the descriptor of every other slot
is as before, the page table of slot `c` is what the first `kalloc` of the fork
returned, and either `v = c` and slot `c` is Runnable with pid `c` and the registers
of the caller with `rax = 0`, or `v = -1` and slot `c` is Free. -/
theorem fork_chooses_first_free (K : Config) (s : KState) :
    ((∀ j, 1 ≤ j → j < K.NPROC → (s.ptable j).state ≠ procstate.P_FREE) →
      sys_fork K s = some (UINTPTR_MAX, s)) ∧
    (∀ c, 1 ≤ c → c < K.NPROC → (s.ptable c).state = procstate.P_FREE →
      (∀ j, 1 ≤ j → j < c → (s.ptable j).state ≠ procstate.P_FREE) →
      fork_find K s (K.NPROC - 1) 1 = c ∧
      ∀ v t, sys_fork K s = some (v, t) →
        (∀ q, q ≠ c → t.ptable q = s.ptable q) ∧
        (t.ptable c).pagetable = (kalloc K K.PAGESIZE s).1 ∧
        ((v = c ∧ (t.ptable c).state = procstate.P_RUNNABLE ∧ (t.ptable c).pid = c ∧
            (t.ptable c).regs = { (s.ptable s.current).regs with reg_rax := 0 }) ∨
         (v = UINTPTR_MAX ∧ (t.ptable c).state = procstate.P_FREE))) := by
  constructor
  · intro h
    rcases fork_find_least (K := K) s (K.NPROC - 1) 1 (by decide) with ⟨h0, _⟩ | ⟨h1, h2, h3, _⟩
    · unfold sys_fork
      simp only [if_pos h0]
    · exact absurd h3 (h _ h1 (by omega))
  · intro c hc1 hc2 hcf hmin
    have hfind : fork_find K s (K.NPROC - 1) 1 = c := by
      rcases fork_find_least (K := K) s (K.NPROC - 1) 1 (by decide) with
        ⟨_, h0⟩ | ⟨h1, h2, h3, h4⟩
      · exact absurd hcf (h0 c hc1 (by omega))
      · rcases Nat.lt_trichotomy (fork_find K s (K.NPROC - 1) 1) c with hlt | heq | hgt
        · exact absurd h3 (hmin _ h1 hlt)
        · exact heq
        · exact absurd hcf (h4 c hc1 hgt)
    refine ⟨hfind, fun v t hres => ?_⟩
    obtain ⟨a1, a2, a3⟩ := sys_fork_table hres (by rw [hfind]; omega)
    rw [hfind] at a1 a2 a3
    refine ⟨a1, a2, ?_⟩
    obtain ⟨_, hcase⟩ := sys_fork_procs hres
    rcases hcase with ⟨b1, b2⟩ | ⟨b1, _, _, _, _, b6, b7, b8⟩
    · right
      refine ⟨b1, ?_⟩
      rw [(b2 c).1]
      exact hcf
    · rw [hfind] at b1
      rw [b1] at b6 b7 b8
      exact Or.inl ⟨b1, b8, b7, b6⟩

set_option maxRecDepth 1000000 in
theorem toyBoot_table_facts :
    ((toyBoot.setProc toyBoot.current fun p => { p with regs := sysregs 5 0 }).ptable 1).state
      = procstate.P_RUNNABLE ∧
    ((toyBoot.setProc toyBoot.current fun p => { p with regs := sysregs 5 0 }).ptable 2).state
      = procstate.P_FREE ∧
    (kalloc toy toy.PAGESIZE
      (toyBoot.setProc toyBoot.current fun p => { p with regs := sysregs 5 0 })).1 = 512 :=
  toy_page_facts.2.2.2.1

/-- The first fork of the small machine: slot 1, which the search examines first,
is the Runnable caller, slot 2 is the smallest Free slot; the fork returns 2, slot 2
is Runnable with pid 2, and its page table is the frame at 512 that `kalloc`
returned. -/
theorem fork_chooses_first_free_witness :
    (1 ≤ 2 ∧ 2 < toy.NPROC ∧
      ((toyBoot.setProc toyBoot.current fun p => { p with regs := sysregs 5 0 }).ptable 2).state
        = procstate.P_FREE ∧
      ((toyBoot.setProc toyBoot.current fun p => { p with regs := sysregs 5 0 }).ptable 1).state
        = procstate.P_RUNNABLE) ∧
    sys_fork toy (toyBoot.setProc toyBoot.current fun p => { p with regs := sysregs 5 0 }) =
      some (2, (syscall toy (sysregs 5 0) toyBoot).state zeroState) ∧
    (kalloc toy toy.PAGESIZE
      (toyBoot.setProc toyBoot.current fun p => { p with regs := sysregs 5 0 })).1 = 512 ∧
    ((∀ q, q ≠ 2 → ((syscall toy (sysregs 5 0) toyBoot).state zeroState).ptable q =
        (toyBoot.setProc toyBoot.current fun p => { p with regs := sysregs 5 0 }).ptable q) ∧
      (((syscall toy (sysregs 5 0) toyBoot).state zeroState).ptable 2).pagetable =
        (kalloc toy toy.PAGESIZE
          (toyBoot.setProc toyBoot.current fun p => { p with regs := sysregs 5 0 })).1 ∧
      ((2 = 2 ∧
          (((syscall toy (sysregs 5 0) toyBoot).state zeroState).ptable 2).state
            = procstate.P_RUNNABLE ∧
          (((syscall toy (sysregs 5 0) toyBoot).state zeroState).ptable 2).pid = 2 ∧
          (((syscall toy (sysregs 5 0) toyBoot).state zeroState).ptable 2).regs =
            { ((toyBoot.setProc toyBoot.current fun p => { p with regs := sysregs 5 0 }).ptable
                (toyBoot.setProc toyBoot.current
                  fun p => { p with regs := sysregs 5 0 }).current).regs with reg_rax := 0 }) ∨
        (2 = UINTPTR_MAX ∧
          (((syscall toy (sysregs 5 0) toyBoot).state zeroState).ptable 2).state
            = procstate.P_FREE))) := by
  have h1 := toyBoot_table_facts.1
  have h2 := toyBoot_table_facts.2.1
  have h3 := toyBoot_table_facts.2.2
  exact ⟨⟨by decide, by decide, h2, h1⟩, toy_fork_boot, h3,
    ((fork_chooses_first_free toy _).2 2 (by decide) (by decide) h2
      (fun j hj1 hj2 => by
        have hj : j = 1 := by omega
        rw [hj, h1]
        decide)).2 2 _ toy_fork_boot⟩

/-- C16: in every state `s` in which the current process is Runnable, when the trap
is the system call `SYSCALL_FORK` (whose number differs from those of the cases
tested before it) and the fork succeeds with child `c`, then `exception` resumes the
parent, in a state `t2` in which: the saved registers of the child are those of the
trap with `rax` replaced by 0; the child is Runnable with pid `c`; the saved
registers of the parent are those of the trap with `rax` replaced by `c`; the parent
is Runnable and is the current process. -/
theorem fork_sets_registers (K : Config) (s : KState)
    (hrun : (s.ptable s.current).state = procstate.P_RUNNABLE)
    (regs : regstate) (c : Nat) (t : KState)
    (hint : regs.reg_intno = K.INT_SYSCALL) (hno : regs.reg_rax = K.SYSCALL_FORK)
    (hd : K.SYSCALL_FORK ≠ K.SYSCALL_PANIC ∧ K.SYSCALL_FORK ≠ K.SYSCALL_GETPID ∧
      K.SYSCALL_FORK ≠ K.SYSCALL_YIELD ∧ K.SYSCALL_FORK ≠ K.SYSCALL_PAGE_ALLOC)
    (hf : sys_fork K (s.setProc s.current fun p => { p with regs := regs }) = some (c, t))
    (hc : c ≠ UINTPTR_MAX) :
    ∃ t2, exception K regs s = Outcome.resumed t2 ∧ t2.current = s.current ∧ c ≠ s.current ∧
      (t2.ptable c).regs = { regs with reg_rax := 0 } ∧
      (t2.ptable c).state = procstate.P_RUNNABLE ∧ (t2.ptable c).pid = c ∧
      (t2.ptable s.current).regs = { regs with reg_rax := c } ∧
      (t2.ptable s.current).state = procstate.P_RUNNABLE := by
  obtain ⟨htc, hcase⟩ := sys_fork_procs hf
  have htc : t.current = s.current := htc
  rcases hcase with ⟨h1, _⟩ | ⟨_, c3, c4, c5, c6, c7, c8, c9⟩
  · exact absurd h1 hc
  have hself : (s.setProc s.current fun p => { p with regs := regs }).ptable s.current =
      { (s.ptable s.current) with regs := regs } := setProc_ptable_self _ _ _
  have hne : c ≠ s.current := by
    intro hh
    rw [hh, hself] at c5
    rw [hrun] at c5
    exact absurd c5 (by decide)
  have htpar : t.ptable s.current = { (s.ptable s.current) with regs := regs } := by
    rw [c6 _ (Ne.symm hne), hself]
  have hcregs : (t.ptable c).regs = { regs with reg_rax := 0 } := by
    rw [c7]
    show { ((s.setProc s.current fun p => { p with regs := regs }).ptable s.current).regs
      with reg_rax := 0 } = _
    rw [hself]
  have hsys : syscall K regs (s.setProc s.current fun p => { p with regs := regs }) =
      SysResult.ret c t := by
    unfold syscall
    simp only
    rw [if_neg (by rw [hno]; exact hd.1), if_neg (by rw [hno]; exact hd.2.1),
      if_neg (by rw [hno]; exact hd.2.2.1), if_neg (by rw [hno]; exact hd.2.2.2), if_pos hno,
      setProc_regs_twice, hf]
    rfl
  refine ⟨t.setProc t.current fun p => { p with regs := { p.regs with reg_rax := c } },
    ?_, htc, hne, ?_, ?_, ?_, ?_, ?_⟩
  · unfold exception
    simp only
    rw [if_pos hint, hsys]
    simp only
    unfold exception_finish
    rw [if_pos]
    simp only [KState.setProc, upd, if_true]
    rw [htc, htpar]
    exact hrun
  · simp only [KState.setProc, upd, htc, if_neg hne]
    exact hcregs
  · simp only [KState.setProc, upd, htc, if_neg hne]
    exact c9
  · simp only [KState.setProc, upd, htc, if_neg hne]
    exact c8
  · simp only [KState.setProc, upd, htc, if_true]
    rw [htpar]
  · simp only [KState.setProc, upd, htc, if_true]
    rw [htpar]
    exact hrun

/-- The first fork of the small machine: process 1, which is Runnable and not the
first slot that the search examines, is resumed with `rax = 2`; the child 2 is
Runnable with `rax = 0`. -/
theorem fork_sets_registers_witness :
    (toyBoot.ptable toyBoot.current).state = procstate.P_RUNNABLE ∧
    sys_fork toy (toyBoot.setProc toyBoot.current fun p => { p with regs := sysregs 5 0 }) =
      some (2, (syscall toy (sysregs 5 0) toyBoot).state zeroState) ∧
    ∃ t2, exception toy (sysregs 5 0) toyBoot = Outcome.resumed t2 ∧
      t2.current = toyBoot.current ∧ 2 ≠ toyBoot.current ∧
      (t2.ptable 2).regs = { sysregs 5 0 with reg_rax := 0 } ∧
      (t2.ptable 2).state = procstate.P_RUNNABLE ∧ (t2.ptable 2).pid = 2 ∧
      (t2.ptable toyBoot.current).regs = { sysregs 5 0 with reg_rax := 2 } ∧
      (t2.ptable toyBoot.current).state = procstate.P_RUNNABLE :=
  ⟨(reachable_slots (by decide) toyEnv _ toyBoot toyBoot_reachable).run, toy_fork_boot,
   fork_sets_registers toy toyBoot
     (reachable_slots (by decide) toyEnv _ toyBoot toyBoot_reachable).run
     (sysregs 5 0) 2 _ rfl rfl (by decide) toy_fork_boot (by decide)⟩

/-- C30: on a machine whose process table has a slot 1, in every state reachable
from boot (a state in which a process runs, at the first `run` or after any sequence
of traps, system calls and user stores): every descriptor of `ptable` carries its
index as pid; slot 0 is Free; the process that runs is not process 0 (its slot index
and its pid are not 0), and neither is a process that `schedule()` runs from this
state; and `SYSCALL_FORK` of the running process, if it returns, returns -1 or a
child pid that is not 0 and whose slot is not slot 0. -/
theorem reachable_pid_zero_unused (K : Config) (hn : 1 < K.NPROC) (E : BootEnv)
    (command : Option String) (s : KState) (hs : Reachable K E command s) :
    (∀ i, i < K.NPROC → (s.ptable i).pid = i) ∧
    (s.ptable 0).state = procstate.P_FREE ∧
    s.current ≠ 0 ∧ (s.ptable s.current).pid ≠ 0 ∧
    (∀ t, schedule K s = Outcome.resumed t → t.current ≠ 0 ∧ (t.ptable t.current).pid ≠ 0) ∧
    (∀ regs v t, sys_fork K (s.setProc s.current fun p => { p with regs := regs }) = some (v, t) →
      v ≠ 0 ∧ (t.ptable 0).state = procstate.P_FREE ∧
      (v ≠ UINTPTR_MAX → (t.ptable v).pid = v ∧ (t.ptable v).state = procstate.P_RUNNABLE)) := by
  have hS := reachable_slots hn E command s hs
  have hne : ∀ (u : KState), Slots K u → u.current ≠ 0 ∧ (u.ptable u.current).pid ≠ 0 := by
    intro u hu
    have hq0 : u.current ≠ 0 := by
      intro hh
      have := hu.run
      rw [hh, hu.zero] at this
      exact absurd this (by decide)
    rw [hu.pids _ hu.cur]
    exact ⟨hq0, hq0⟩
  refine ⟨hS.pids, hS.zero, (hne s hS).1, (hne s hS).2, ?_, ?_⟩
  · intro t ht
    exact hne t (Slots.of_schedule (by omega) hS.pids hS.zero ht).1
  · intro regs v t hf
    have h0 := hS.of_saveRegs (fun _ => regs)
    obtain ⟨_, hcase⟩ := sys_fork_procs hf
    rcases hcase with ⟨h1, h2⟩ | ⟨_, c3, _, _, c6, _, c8, c9⟩
    · refine ⟨by rw [h1]; decide, ?_, fun hh => absurd h1 hh⟩
      rw [(h2 0).1]
      exact h0.zero
    · refine ⟨c3, ?_, fun _ => ⟨c8, c9⟩⟩
      rw [c6 0 (fun hh => c3 hh.symm)]
      exact h0.zero

/-- The small machine after its first fork, a state in which process 1 runs and
process 2 exists: slot 0 is Free and the pids are the slot indices. -/
theorem reachable_pid_zero_unused_witness :
    1 < toy.NPROC ∧ Reachable toy toyEnv (some "fork") toyForked ∧
    ((∀ i, i < toy.NPROC → (toyForked.ptable i).pid = i) ∧
    (toyForked.ptable 0).state = procstate.P_FREE ∧
    toyForked.current ≠ 0 ∧ (toyForked.ptable toyForked.current).pid ≠ 0 ∧
    (∀ t, schedule toy toyForked = Outcome.resumed t →
      t.current ≠ 0 ∧ (t.ptable t.current).pid ≠ 0) ∧
    (∀ regs v t,
      sys_fork toy (toyForked.setProc toyForked.current fun p => { p with regs := regs })
        = some (v, t) →
      v ≠ 0 ∧ (t.ptable 0).state = procstate.P_FREE ∧
      (v ≠ UINTPTR_MAX → (t.ptable v).pid = v ∧ (t.ptable v).state = procstate.P_RUNNABLE))) :=
  ⟨by decide, toyForked_reachable,
   reachable_pid_zero_unused toy (by decide) toyEnv (some "fork") toyForked
     toyForked_reachable⟩

/-- C31: when `kernel(command)` reaches its call of `run`, the process it runs is
process 1.  For the command "fork" the state is that after `process_setup(1, 4)` on
the cleared process table, slot 1 is Runnable and every other slot of the table is
Free; for "forkexit" the same with `process_setup(1, 5)`; for every other command,
and for none, the state is that after `process_setup(1, 0)`, `process_setup(2, 1)`,
`process_setup(3, 2)` and `process_setup(4, 3)`, in this order, slots 1 to 4 are
Runnable and every other slot of the table is Free. -/
theorem kernel_sets_up_processes (K : Config) (E : BootEnv)
    (command : Option String) (s : KState)
    (hs : kernel K E command = Outcome.resumed s) :
    s.current = 1 ∧
    (command = some "fork" →
      (∃ s0 t, kernel_init K E = some s0 ∧
        (∀ p, p < K.NPROC → (s0.ptable p).state = procstate.P_FREE) ∧
        process_setup K E 1 4 s0 = some t ∧ s = { t with current := 1 }) ∧
      (s.ptable 1).state = procstate.P_RUNNABLE ∧
      ∀ p, p < K.NPROC → p ≠ 1 → (s.ptable p).state = procstate.P_FREE) ∧
    (command = some "forkexit" →
      (∃ s0 t, kernel_init K E = some s0 ∧
        (∀ p, p < K.NPROC → (s0.ptable p).state = procstate.P_FREE) ∧
        process_setup K E 1 5 s0 = some t ∧ s = { t with current := 1 }) ∧
      (s.ptable 1).state = procstate.P_RUNNABLE ∧
      ∀ p, p < K.NPROC → p ≠ 1 → (s.ptable p).state = procstate.P_FREE) ∧
    (command ≠ some "fork" → command ≠ some "forkexit" →
      (∃ s0 t1 t2 t3 t4, kernel_init K E = some s0 ∧
        (∀ p, p < K.NPROC → (s0.ptable p).state = procstate.P_FREE) ∧
        process_setup K E 1 0 s0 = some t1 ∧ process_setup K E 2 1 t1 = some t2 ∧
        process_setup K E 3 2 t2 = some t3 ∧ process_setup K E 4 3 t3 = some t4 ∧
        s = { t4 with current := 1 }) ∧
      (∀ p, 1 ≤ p → p ≤ 4 → (s.ptable p).state = procstate.P_RUNNABLE) ∧
      ∀ p, p < K.NPROC → ¬ (1 ≤ p ∧ p ≤ 4) → (s.ptable p).state = procstate.P_FREE) := by
  rw [kernel_after_init] at hs
  have h0 : ∃ s0, kernel_init K E = some s0 := by
    cases hk : kernel_init K E with
    | none => rw [hk] at hs; exact absurd hs (by simp)
    | some s0 => exact ⟨s0, rfl⟩
  obtain ⟨s0, h0⟩ := h0
  rw [h0] at hs
  simp only at hs
  have hfr : ∀ p, p < K.NPROC → (s0.ptable p).state = procstate.P_FREE :=
    fun p hp => (kernel_init_procs E s0 h0 p hp).2
  have hfin : ∀ (s3 : KState),
      (if (s3.ptable 1).state = procstate.P_RUNNABLE
        then Outcome.resumed { s3 with current := 1 } else Outcome.halted) =
        Outcome.resumed s → s = { s3 with current := 1 } := by
    intro s3 hh
    split at hh
    · simp only [Outcome.resumed.injEq] at hh
      exact hh.symm
    · exact absurd hh (by simp)
  have hone : ∀ n, (if command = some "fork" then process_setup K E 1 4 s0
          else if command = some "forkexit" then process_setup K E 1 5 s0
          else setup_default K E 4 1 s0) = process_setup K E 1 n s0 →
      s.current = 1 ∧ (∃ s0 t, kernel_init K E = some s0 ∧
        (∀ p, p < K.NPROC → (s0.ptable p).state = procstate.P_FREE) ∧
        process_setup K E 1 n s0 = some t ∧ s = { t with current := 1 }) ∧
      (s.ptable 1).state = procstate.P_RUNNABLE ∧
      ∀ p, p < K.NPROC → p ≠ 1 → (s.ptable p).state = procstate.P_FREE := by
    intro n hr
    rw [hr] at hs
    cases h1 : process_setup K E 1 n s0 with
    | none => rw [h1] at hs; exact absurd hs (by simp)
    | some t =>
      rw [h1] at hs
      simp only at hs
      have hst := hfin t hs
      obtain ⟨_, a2, a3, _⟩ := process_setup_procs E 1 n s0 t h1
      rw [hst]
      refine ⟨rfl, ⟨s0, t, h0, hfr, h1, rfl⟩, a3, ?_⟩
      intro p hpn hp
      show (t.ptable p).state = procstate.P_FREE
      rw [a2 p hp]
      exact hfr p hpn
  by_cases hc1 : command = some "fork"
  · obtain ⟨b1, b2⟩ := hone 4 (by rw [if_pos hc1])
    refine ⟨b1, fun _ => b2, fun h => ?_, fun h => absurd hc1 h⟩
    rw [hc1] at h
    exact absurd h (by decide)
  · by_cases hc2 : command = some "forkexit"
    · obtain ⟨b1, b2⟩ := hone 5 (by rw [if_neg hc1, if_pos hc2])
      exact ⟨b1, fun h => absurd h hc1, fun _ => b2, fun _ h => absurd hc2 h⟩
    · rw [if_neg hc1, if_neg hc2] at hs
      cases h1 : setup_default K E 4 1 s0 with
      | none => rw [h1] at hs; exact absurd hs (by simp)
      | some t4 =>
        rw [h1] at hs
        simp only at hs
        have hst := hfin t4 hs
        obtain ⟨t1, t2, t3, e1, e2, e3, e4⟩ := setup_default_four E s0 t4 h1
        obtain ⟨_, a2, a3⟩ := setup_default_procs E 4 1 s0 t4 h1
        rw [hst]
        refine ⟨rfl, fun h => absurd h hc1, fun h => absurd h hc2, fun _ _ =>
          ⟨⟨s0, t1, t2, t3, t4, h0, hfr, e1, e2, e3, e4, rfl⟩, ?_, ?_⟩⟩
        · intro p hp1 hp4
          exact (a3 p hp1 (by omega)).1
        · intro p hpn hp
          show (t4.ptable p).state = procstate.P_FREE
          rw [a2 p (by omega)]
          exact hfr p hpn

/-- On the small machine `kernel("fork")` runs process 1, the only process that is
not Free; on the wider machine `kernel` without a command runs process 1 with the
processes 1 to 4 Runnable and every other slot Free. -/
theorem kernel_sets_up_processes_witness :
    (toyBoot.current = 1 ∧ (toyBoot.ptable 1).state = procstate.P_RUNNABLE ∧
      ∀ p, p < toy.NPROC → p ≠ 1 → (toyBoot.ptable p).state = procstate.P_FREE) ∧
    (toyWideBoot.current = 1 ∧
      (∀ p, 1 ≤ p → p ≤ 4 → (toyWideBoot.ptable p).state = procstate.P_RUNNABLE) ∧
      ∀ p, p < toyWide.NPROC → ¬ (1 ≤ p ∧ p ≤ 4) →
        (toyWideBoot.ptable p).state = procstate.P_FREE) :=
  ⟨⟨(kernel_sets_up_processes toy toyEnv (some "fork") toyBoot
      (Outcome.eq_resumed_state _ _ toy_runs.1)).1,
    ((kernel_sets_up_processes toy toyEnv (some "fork") toyBoot
      (Outcome.eq_resumed_state _ _ toy_runs.1)).2.1 rfl).2.1,
    ((kernel_sets_up_processes toy toyEnv (some "fork") toyBoot
      (Outcome.eq_resumed_state _ _ toy_runs.1)).2.1 rfl).2.2⟩,
   ⟨(kernel_sets_up_processes toyWide toyTwoEnv none toyWideBoot
      (Outcome.eq_resumed_state _ _ toyWide_runs)).1,
    ((kernel_sets_up_processes toyWide toyTwoEnv none toyWideBoot
      (Outcome.eq_resumed_state _ _ toyWide_runs)).2.2.2 (by decide) (by decide)).2.1,
    ((kernel_sets_up_processes toyWide toyTwoEnv none toyWideBoot
      (Outcome.eq_resumed_state _ _ toyWide_runs)).2.2.2 (by decide) (by decide)).2.2⟩⟩

end TableClaims

section ImageFacts

/-! ## Executions of the small machine from an image with a segment of three pages -/

/-- A system call 5 of the small machine that returns `v` is a `SYSCALL_FORK` with
this result on the state with the saved registers. -/
theorem toy_fork_of_value (s : KState) (v : Nat)
    (h : (syscall toy (sysregs 5 0) s).value = some v) :
    sys_fork toy (s.setProc s.current fun p => { p with regs := sysregs 5 0 }) =
      some (v, (syscall toy (sysregs 5 0) s).state zeroState) := by
  rw [toy_syscall_fork] at h ⊢
  exact ofOption_value _ _ h

set_option maxRecDepth 1000000 in
/-- The run of the small machine from the image badProg 709 647 709: boot and the fork of process 1. -/
theorem shared_facts :
    ((kernel toy (badEnv 709 647 709) (some "fork")).isResumed = true ∧
    (exception toy (sysregs 5 0) sharedBoot).isResumed = true) ∧
    ((sharedBoot.ptable 1).pagetable = 192 ∧
    readQ sharedBoot.mem 192 = 224 + 7 ∧ readQ sharedBoot.mem 224 = 256 + 7 ∧
    readQ sharedBoot.mem (256 + 8) = 384 + 7 ∧
    readQ sharedBoot.mem 384 = 709 ∧ readQ sharedBoot.mem (384 + 8) = 647 ∧
    readQ sharedBoot.mem (384 + 16) = 709 ∧
    sharedBoot.pages 12 = { owner := -1, sharers := 0 } ∧
    sharedBoot.pages 13 = { owner := -1, sharers := 0 } ∧
    (∀ i, i < 32 → sharedBoot.mem (416 + i) = 0)) ∧
    (sharedBoot.current = 1 ∧ (sharedBoot.ptable 1).state = procstate.P_RUNNABLE ∧
    (({ pt := (sharedBoot.ptable sharedBoot.current).pagetable, va := 128 } : vmiter).user
        toy sharedBoot.mem = true ∧
      ({ pt := (sharedBoot.ptable sharedBoot.current).pagetable, va := 128 } : vmiter).writable
        toy sharedBoot.mem = false ∧
      ({ pt := (sharedBoot.ptable sharedBoot.current).pagetable, va := 128 } : vmiter).pa
        toy sharedBoot.mem = 704) ∧
    (({ pt := (sharedBoot.ptable sharedBoot.current).pagetable, va := 192 } : vmiter).user
        toy sharedBoot.mem = true ∧
      ({ pt := (sharedBoot.ptable sharedBoot.current).pagetable, va := 192 } : vmiter).writable
        toy sharedBoot.mem = false ∧
      ({ pt := (sharedBoot.ptable sharedBoot.current).pagetable, va := 192 } : vmiter).pa
        toy sharedBoot.mem = 704) ∧
    (({ pt := (sharedBoot.ptable sharedBoot.current).pagetable, va := 160 } : vmiter).user
        toy sharedBoot.mem = true ∧
      ({ pt := (sharedBoot.ptable sharedBoot.current).pagetable, va := 160 } : vmiter).writable
        toy sharedBoot.mem = true ∧
      ({ pt := (sharedBoot.ptable sharedBoot.current).pagetable, va := 160 } : vmiter).pa
        toy sharedBoot.mem = 640) ∧
    sharedBoot.pages 22 = { owner := 0, sharers := 0 } ∧
    sharedBoot.pages 20 = { owner := 0, sharers := 0 } ∧
    mappers toy sharedBoot 22 = 1) ∧
    ((syscall toy (sysregs 5 0) sharedBoot).value = some 2 ∧
    ((syscall toy (sysregs 5 0) sharedBoot).state zeroState).pages 22
      = { owner := 0, sharers := 2 } ∧
    ({ pt := (((syscall toy (sysregs 5 0) sharedBoot).state zeroState).ptable 2).pagetable,
       va := 160 } : vmiter).pa toy ((syscall toy (sysregs 5 0) sharedBoot).state zeroState).mem
      = 640) ∧
    (cursorOK toy sharedForked ∧ (kalloc toy toy.PAGESIZE sharedForked).1 = 704 ∧
    sharedForked.pages 22 = { owner := 0, sharers := 2 } ∧
    (sharedForked.ptable 1).state = procstate.P_RUNNABLE ∧
    (sharedForked.ptable 2).state = procstate.P_RUNNABLE ∧
    (({ pt := (sharedForked.ptable 1).pagetable, va := 160 } : vmiter).user
        toy sharedForked.mem = true ∧
      ({ pt := (sharedForked.ptable 1).pagetable, va := 160 } : vmiter).writable
        toy sharedForked.mem = true ∧
      ({ pt := (sharedForked.ptable 1).pagetable, va := 160 } : vmiter).pa
        toy sharedForked.mem = 640) ∧
    (({ pt := (sharedForked.ptable 2).pagetable, va := 160 } : vmiter).user
        toy sharedForked.mem = true ∧
      ({ pt := (sharedForked.ptable 2).pagetable, va := 160 } : vmiter).writable
        toy sharedForked.mem = true ∧
      ({ pt := (sharedForked.ptable 2).pagetable, va := 160 } : vmiter).pa
        toy sharedForked.mem = 640)) := by
  decide!

set_option maxRecDepth 1000000 in
theorem sharedBoot_runs :
    (kernel toy (badEnv 709 647 709) (some "fork")).isResumed = true ∧
    (exception toy (sysregs 5 0) sharedBoot).isResumed = true :=
  shared_facts.1

theorem sharedBoot_reachable : Reachable toy (badEnv 709 647 709) (some "fork") sharedBoot :=
  Reachable.boot _ (Outcome.eq_resumed_state _ _ sharedBoot_runs.1)

theorem sharedForked_reachable :
    Reachable toy (badEnv 709 647 709) (some "fork") sharedForked :=
  Reachable.trap _ _ _ sharedBoot_reachable (Outcome.eq_resumed_state _ _ sharedBoot_runs.2)

/-- What `process_setup` has built from the image `badProg 709 647 709`: the bytes of
the third page of the segment lie in frame 12, the page-table page of the pages 4 to
7, and not in frame 13, which `process_setup` allocated for page 5. -/
theorem shared_setup_facts :
    (sharedBoot.ptable 1).pagetable = 192 ∧
    readQ sharedBoot.mem 192 = 224 + 7 ∧ readQ sharedBoot.mem 224 = 256 + 7 ∧
    readQ sharedBoot.mem (256 + 8) = 384 + 7 ∧
    readQ sharedBoot.mem 384 = 709 ∧ readQ sharedBoot.mem (384 + 8) = 647 ∧
    readQ sharedBoot.mem (384 + 16) = 709 ∧
    sharedBoot.pages 12 = { owner := -1, sharers := 0 } ∧
    sharedBoot.pages 13 = { owner := -1, sharers := 0 } ∧
    (∀ i, i < 32 → sharedBoot.mem (416 + i) = 0) :=
  shared_facts.2.1

set_option maxRecDepth 1000000 in
theorem shared_boot_facts :
    sharedBoot.current = 1 ∧ (sharedBoot.ptable 1).state = procstate.P_RUNNABLE ∧
    (({ pt := (sharedBoot.ptable sharedBoot.current).pagetable, va := 128 } : vmiter).user
        toy sharedBoot.mem = true ∧
      ({ pt := (sharedBoot.ptable sharedBoot.current).pagetable, va := 128 } : vmiter).writable
        toy sharedBoot.mem = false ∧
      ({ pt := (sharedBoot.ptable sharedBoot.current).pagetable, va := 128 } : vmiter).pa
        toy sharedBoot.mem = 704) ∧
    (({ pt := (sharedBoot.ptable sharedBoot.current).pagetable, va := 192 } : vmiter).user
        toy sharedBoot.mem = true ∧
      ({ pt := (sharedBoot.ptable sharedBoot.current).pagetable, va := 192 } : vmiter).writable
        toy sharedBoot.mem = false ∧
      ({ pt := (sharedBoot.ptable sharedBoot.current).pagetable, va := 192 } : vmiter).pa
        toy sharedBoot.mem = 704) ∧
    (({ pt := (sharedBoot.ptable sharedBoot.current).pagetable, va := 160 } : vmiter).user
        toy sharedBoot.mem = true ∧
      ({ pt := (sharedBoot.ptable sharedBoot.current).pagetable, va := 160 } : vmiter).writable
        toy sharedBoot.mem = true ∧
      ({ pt := (sharedBoot.ptable sharedBoot.current).pagetable, va := 160 } : vmiter).pa
        toy sharedBoot.mem = 640) ∧
    sharedBoot.pages 22 = { owner := 0, sharers := 0 } ∧
    sharedBoot.pages 20 = { owner := 0, sharers := 0 } ∧
    mappers toy sharedBoot 22 = 1 :=
  shared_facts.2.2.1

set_option maxRecDepth 1000000 in
theorem shared_fork_facts :
    (syscall toy (sysregs 5 0) sharedBoot).value = some 2 ∧
    ((syscall toy (sysregs 5 0) sharedBoot).state zeroState).pages 22
      = { owner := 0, sharers := 2 } ∧
    ({ pt := (((syscall toy (sysregs 5 0) sharedBoot).state zeroState).ptable 2).pagetable,
       va := 160 } : vmiter).pa toy ((syscall toy (sysregs 5 0) sharedBoot).state zeroState).mem
      = 640 :=
  shared_facts.2.2.2.1

set_option maxRecDepth 1000000 in
theorem shared_forked_facts :
    cursorOK toy sharedForked ∧ (kalloc toy toy.PAGESIZE sharedForked).1 = 704 ∧
    sharedForked.pages 22 = { owner := 0, sharers := 2 } ∧
    (sharedForked.ptable 1).state = procstate.P_RUNNABLE ∧
    (sharedForked.ptable 2).state = procstate.P_RUNNABLE ∧
    (({ pt := (sharedForked.ptable 1).pagetable, va := 160 } : vmiter).user
        toy sharedForked.mem = true ∧
      ({ pt := (sharedForked.ptable 1).pagetable, va := 160 } : vmiter).writable
        toy sharedForked.mem = true ∧
      ({ pt := (sharedForked.ptable 1).pagetable, va := 160 } : vmiter).pa
        toy sharedForked.mem = 640) ∧
    (({ pt := (sharedForked.ptable 2).pagetable, va := 160 } : vmiter).user
        toy sharedForked.mem = true ∧
      ({ pt := (sharedForked.ptable 2).pagetable, va := 160 } : vmiter).writable
        toy sharedForked.mem = true ∧
      ({ pt := (sharedForked.ptable 2).pagetable, va := 160 } : vmiter).pa
        toy sharedForked.mem = 640) :=
  shared_facts.2.2.2.2

/-- The fork of `sharedBoot` succeeds and returns the child 2. -/
theorem shared_fork :
    sys_fork toy (sharedBoot.setProc sharedBoot.current fun p => { p with regs := sysregs 5 0 }) =
      some (2, (syscall toy (sysregs 5 0) sharedBoot).state zeroState) :=
  toy_fork_of_value _ _ shared_fork_facts.1

/-- C2 (the code differs), failing input: the small machine boots the image
`badProg 709 647 709`, whose segment of three pages gets the frames 10, 11 and 13
while frame 12 becomes a page-table page; the copy loop of `process_setup` writes the
third page of the image into frame 12, so that process 1 maps the free frame 22
read-only at the pages 4 and 6.  Process 1 forks; the fork raises the sharers count
of frame 22 to 2.  In this reachable state `kalloc` returns frame 22 (address 704),
a frame that is free and has sharers count 2. -/
theorem kalloc_hands_out_shared_frame :
    Reachable toy (badEnv 709 647 709) (some "fork") sharedForked ∧
    cursorOK toy sharedForked ∧
    (kalloc toy toy.PAGESIZE sharedForked).1 = 704 ∧ 704 / toy.PAGESIZE = 22 ∧
    (sharedForked.pages 22).owner = 0 ∧ (sharedForked.pages 22).sharers = 2 := by
  obtain ⟨h1, h2, h3, _⟩ := shared_forked_facts
  refine ⟨sharedForked_reachable, h1, h2, by decide, ?_, ?_⟩ <;> rw [h3]

/-- C3 (the code differs), failing input: the small machine boots the image
`badProg 709 647 709` (see `shared_setup_facts`), after which process 1 maps frame 22
read-only and user-accessibly at page 4 and at page 6.  Its fork succeeds with child
2, and the sharers count of frame 22 rises from 0 to 2, not to 1. -/
theorem fork_counts_shared_frame_twice :
    Reachable toy (badEnv 709 647 709) (some "fork") sharedBoot ∧
    sys_fork toy (sharedBoot.setProc sharedBoot.current fun p => { p with regs := sysregs 5 0 }) =
      some (2, (syscall toy (sysregs 5 0) sharedBoot).state zeroState) ∧
    ({ pt := (sharedBoot.ptable sharedBoot.current).pagetable, va := 128 } : vmiter).pa
        toy sharedBoot.mem / toy.PAGESIZE = 22 ∧
    (sharedBoot.pages 22).sharers = 0 ∧
    (((syscall toy (sysregs 5 0) sharedBoot).state zeroState).pages 22).sharers = 2 ∧
    ¬ forkShares toy sharedBoot ((syscall toy (sysregs 5 0) sharedBoot).state zeroState) 2 := by
  obtain ⟨_, _, ⟨a1, a2, a3⟩, _, _, a4, _⟩ := shared_boot_facts
  obtain ⟨_, b2, _⟩ := shared_fork_facts
  refine ⟨sharedBoot_reachable, shared_fork, by rw [a3]; decide, by rw [a4], by rw [b2],
    fun h => ?_⟩
  have h1 := (h 128 (by decide) (by decide) (by decide) a1 a2).2.2.2
  rw [a3] at h1
  have h2 : (704 : Nat) / toy.PAGESIZE = 22 := by decide
  rw [h2, b2, a4] at h1
  exact absurd h1 (by decide)

/-- C10 (the code differs), failing input: the small machine boots the image
`badProg 709 647 709` (see `shared_setup_facts`) and process 1 forks.  In the state
reached, frame 22 is allocatable and free (`owner == 0`) and has sharers count 2. -/
theorem free_frame_with_sharers :
    Reachable toy (badEnv 709 647 709) (some "fork") sharedForked ∧
    isFreeFrame toy sharedForked 22 ∧ (sharedForked.pages 22).sharers = 2 := by
  obtain ⟨_, _, h3, _⟩ := shared_forked_facts
  refine ⟨sharedForked_reachable, ⟨by decide, ?_⟩, ?_⟩ <;> rw [h3]

/-! ### A user-accessible page below `PROC_START_ADDR` -/

set_option maxRecDepth 1000000 in
theorem toy_exit_reads :
    (toyBoot.ptable toyBoot.current).pid = 1 ∧
    proc_free_walk_reads toy
      (((toyBoot.setProc toyBoot.current fun p => { p with regs := sysregs 6 0 }).setProc 1
        fun p => { p with state := procstate.P_FREE }).ptable 1).pagetable
      (toy.MEMSIZE_VIRTUAL + 1) 0
      ((toyBoot.setProc toyBoot.current fun p => { p with regs := sysregs 6 0 }).setProc 1
        fun p => { p with state := procstate.P_FREE })
      = [0, 10, 12, 576460752303423487] ∧
    ({ pt := (toyBoot.ptable 1).pagetable, va := 192 } : vmiter).present toy toyBoot.mem
      = false :=
  toy_page_facts.2.2.2.2.1

/-- C18 (the code differs), failing input: on the small machine, in the state in
which process 1 first runs, process 1 calls `Exit`, so `syscall` saves the registers
and calls `proc_free(1)`, which sets the state of process 1 to Free and starts its
first loop.  The loop visits the pages 0, 2, 4 and 6 and reads, at line 169,
`pages[pit.pa() / PAGESIZE]` for each of them: the entries 0, 10 and 12, and for page
6, which process 1 does not map, the entry 576460752303423487, as `pit.pa()` is then
`2^64 - 1`.  The array `pages` has `NPAGES = 29` entries. -/
theorem proc_free_reads_outside_pages :
    Reachable toy toyEnv (some "fork") toyBoot ∧
    (toyBoot.ptable toyBoot.current).pid = 1 ∧
    proc_free_walk_reads toy
      (((toyBoot.setProc toyBoot.current fun p => { p with regs := sysregs 6 0 }).setProc 1
        fun p => { p with state := procstate.P_FREE }).ptable 1).pagetable
      (toy.MEMSIZE_VIRTUAL + 1) 0
      ((toyBoot.setProc toyBoot.current fun p => { p with regs := sysregs 6 0 }).setProc 1
        fun p => { p with state := procstate.P_FREE })
      = [0, 10, 12, 576460752303423487] ∧
    ({ pt := (toyBoot.ptable 1).pagetable, va := 192 } : vmiter).present toy toyBoot.mem
      = false ∧
    UINTPTR_MAX / toy.PAGESIZE = 576460752303423487 ∧ toy.NPAGES = 29 :=
  ⟨toyBoot_reachable, toy_exit_reads.1, toy_exit_reads.2.1, toy_exit_reads.2.2,
    by decide, by decide⟩

/-! ### The claims that hold only for boots with consecutive frames -/

end ImageFacts

section TableCount

variable {K : Config}

theorem missing_le_level (m : Nat → Nat) : ∀ (l tbl va : Nat), missing K m l tbl va ≤ l := by
  intro l
  induction l with
  | zero => intro tbl va; simp [missing]
  | succ l ih =>
    intro tbl va
    simp only [missing]
    split
    · exact Nat.le_succ_of_le (ih _ _)
    · exact Nat.le_refl _

/-- With a free frame for every missing level, `vm_map` succeeds; the other free
frames stay free. -/
theorem vm_map_needs (hK : K.WF) (n : Nat) : ∀ (l tbl va pa perm : Nat) (s : KState),
    cursorOK K s → FreeN K s (n + missing K s.mem l tbl va) →
    (vm_map K l tbl va pa perm s).1 = 0 ∧ cursorOK K (vm_map K l tbl va pa perm s).2 ∧
    FreeN K (vm_map K l tbl va pa perm s).2 n := by
  intro l
  induction l with
  | zero =>
    intro tbl va pa perm s hc h
    exact ⟨rfl, hc, (h.fewer (by omega)).same_pages rfl⟩
  | succ l ih =>
    intro tbl va pa perm s hc h
    simp only [vm_map]
    simp only [missing] at h
    split
    · rename_i hp
      rw [if_pos hp] at h
      exact ih _ _ _ _ s hc h
    · rename_i hp
      rw [if_neg hp] at h
      split
      · exact ⟨rfl, hc, h.fewer (by omega)⟩
      · obtain ⟨hne, hc2, h2⟩ := kalloc_free hK s (n + l) hc h
        rw [if_neg hne]
        apply vm_map_free hK n l
        · exact hc2
        · exact h2.same_pages rfl

/-- A mapping without permissions takes no frame. -/
theorem vm_map_no_perm (n : Nat) : ∀ (l tbl va pa perm : Nat) (s : KState), perm = 0 →
    cursorOK K s → FreeN K s n →
    (vm_map K l tbl va pa perm s).1 = 0 ∧ cursorOK K (vm_map K l tbl va pa perm s).2 ∧
    FreeN K (vm_map K l tbl va pa perm s).2 n := by
  intro l
  induction l with
  | zero =>
    intro tbl va pa perm s _ hc h
    exact ⟨rfl, hc, h.same_pages rfl⟩
  | succ l ih =>
    intro tbl va pa perm s hp0 hc h
    simp only [vm_map]
    split
    · exact ih _ _ _ _ s hp0 hc h
    · first
        | exact ⟨rfl, hc, h⟩
        | (rw [if_pos hp0]; exact ⟨rfl, hc, h⟩)

/-- A walk that ends in an entry other than 0 has found every level: for an address
with the same indices on the upper `a` levels, at most `l - a` levels are missing. -/
theorem missing_le_of_walk (m : Nat → Nat) : ∀ (l tbl va vb a : Nat), a ≤ l →
    (∀ i, l - a < i → i ≤ l → pageindex K va i = pageindex K vb i) →
    vm_walk K m l tbl vb ≠ 0 → missing K m l tbl va ≤ l - a := by
  intro l
  induction l with
  | zero => intro tbl va vb a _ _ _; simp [missing]
  | succ l ih =>
    intro tbl va vb a ha hidx hw
    rcases Nat.eq_zero_or_pos a with h0 | h0
    · subst h0
      exact missing_le_level m _ _ _
    · obtain ⟨b, rfl⟩ : ∃ b, a = b + 1 := ⟨a - 1, by omega⟩
      have hi := hidx (l + 1) (by omega) (le_refl _)
      simp only [vm_walk] at hw
      simp only [missing]
      rw [hi]
      split at hw
      · rename_i hp
        rw [if_pos hp]
        have := ih (pte_pa K (readQ m (tbl + 8 * pageindex K vb (l + 1)))) va vb b (by omega)
          (fun i h1 h2 => hidx i (by omega) (by omega)) hw
        omega
      · exact absurd rfl hw

/-- Pages of one region of level `j` have the same indices on the levels from `j`
upwards. -/
theorem pageindex_region (hP : 0 < K.PAGESIZE) (va v j i : Nat) (hji : j ≤ i)
    (h : v / K.NENT ^ j = va / K.PAGESIZE / K.NENT ^ j) :
    pageindex K va i = pageindex K (v * K.PAGESIZE) i := by
  unfold pageindex
  rw [frame_mul hP]
  have e : K.NENT ^ i = K.NENT ^ j * K.NENT ^ (i - j) := by
    rw [← pow_add]
    congr 1
    omega
  rw [e, ← Nat.div_div_eq_div_mul, ← Nat.div_div_eq_div_mul, h]

/-- If the region of level `j` of `va` holds an entry, the table pages of the levels
from `j - 1` upwards exist. -/
theorem missing_le_region (hK : K.Geom) (m : Nat → Nat) (pt va j : Nat) (hj1 : 1 ≤ j)
    (hj3 : j ≤ 3) (hne : ¬ regionEmpty K m pt j (va / K.PAGESIZE / K.NENT ^ j)) :
    missing K m 3 pt va ≤ j - 1 := by
  unfold regionEmpty at hne
  push_neg at hne
  obtain ⟨v, _, hr, hw⟩ := hne
  have := missing_le_of_walk (K := K) m 3 pt va (v * K.PAGESIZE) (3 - (j - 1)) (by omega)
    (fun i h1 _ => pageindex_region hK.page_pos va v j i (by omega) hr) hw
  omega

/-- `vm_map` allocates at most one table page for every level on which the region of
the address is still empty. -/
theorem missing_le_empties (hK : K.Geom) (m : Nat → Nat) (pt va : Nat) :
    missing K m 3 pt va ≤ emptiesAt K m pt va := by
  unfold emptiesAt emptyAt
  by_cases h1 : regionEmpty K m pt 1 (va / K.PAGESIZE / K.NENT ^ 1)
  · by_cases h2 : regionEmpty K m pt 2 (va / K.PAGESIZE / K.NENT ^ 2)
    · by_cases h3 : regionEmpty K m pt 3 (va / K.PAGESIZE / K.NENT ^ 3)
      · rw [if_pos h1, if_pos h2, if_pos h3]
        exact missing_le_level m 3 pt va
      · have := missing_le_region hK m pt va 3 (by omega) (by omega) h3
        rw [if_pos h1, if_pos h2, if_neg h3]
        omega
    · have := missing_le_region hK m pt va 2 (by omega) (by omega) h2
      rw [if_pos h1, if_neg h2]
      omega
  · have := missing_le_region hK m pt va 1 (by omega) (by omega) h1
    omega

theorem countP_range_drop (p q : Nat → Bool) (n r0 : Nat) (hr : r0 < n)
    (hpq : ∀ r, p r = true → q r = true) (hp : p r0 = false) :
    (List.range n).countP p + (if q r0 = true then 1 else 0) ≤ (List.range n).countP q := by
  induction n with
  | zero => omega
  | succ n ih =>
    rw [List.range_succ, List.countP_append, List.countP_append, List.countP_singleton,
      List.countP_singleton]
    have hm : (if p n = true then 1 else 0) ≤ (if q n = true then 1 else 0) := by
      by_cases hpn : p n = true
      · rw [if_pos hpn, if_pos (hpq n hpn)]
      · rw [if_neg hpn]; exact Nat.zero_le _
    rcases Nat.lt_succ_iff_lt_or_eq.1 hr with h | h
    · have h1 := ih h
      generalize (if p n = true then 1 else 0) = a at hm ⊢
      generalize (if q n = true then 1 else 0) = b at hm ⊢
      generalize (if q r0 = true then 1 else 0) = d at h1 ⊢
      omega
    · subst h
      have h1 : (List.range r0).countP p ≤ (List.range r0).countP q :=
        List.countP_mono_left fun x _ hx => hpq x hx
      rw [if_neg (by rw [hp]; simp)]
      generalize (if q r0 = true then 1 else 0) = b
      omega

/-- The number of a region of a page below `MEMSIZE_VIRTUAL` is one of those counted. -/
theorem region_lt (hK : K.Geom) (hval : K.MEMSIZE_VIRTUAL % K.PAGESIZE = 0) (va j : Nat)
    (hva : va < K.MEMSIZE_VIRTUAL) :
    va / K.PAGESIZE < K.VPAGES ∧ va / K.PAGESIZE / K.NENT ^ j < K.regions j := by
  have hP := hK.page_pos
  have hN : 0 < K.NENT ^ j := pow_pos hK.nent_pos j
  have h1 : va / K.PAGESIZE < K.VPAGES := by
    unfold Config.VPAGES
    rw [Nat.div_lt_iff_lt_mul hP, aligned_eq (K := K) _ hval]
    exact hva
  refine ⟨h1, ?_⟩
  unfold Config.regions
  have h2 : va / K.PAGESIZE + K.NENT ^ j ≤ K.VPAGES + K.NENT ^ j - 1 := by omega
  have h3 := Nat.div_le_div_right (c := K.NENT ^ j) h2
  rw [Nat.add_div_right _ hN] at h3
  omega

/-- The regions that are empty after a step were empty before it, and a region that
has got an entry is no longer counted. -/
theorem regionsLeft_drop (hK : K.Geom) (hval : K.MEMSIZE_VIRTUAL % K.PAGESIZE = 0)
    (m m1 : Nat → Nat) (pt va j : Nat) (hva : va < K.MEMSIZE_VIRTUAL)
    (hne : vm_walk K m1 3 pt (va / K.PAGESIZE * K.PAGESIZE) ≠ 0)
    (hmono : ∀ v, v < K.VPAGES → vm_walk K m 3 pt (v * K.PAGESIZE) ≠ 0 →
      vm_walk K m1 3 pt (v * K.PAGESIZE) ≠ 0) :
    regionsLeft K m1 pt j + emptyAt K m pt j va ≤ regionsLeft K m pt j := by
  obtain ⟨h1, h2⟩ := region_lt hK hval va j hva
  have := countP_range_drop (fun r => decide (regionEmpty K m1 pt j r))
    (fun r => decide (regionEmpty K m pt j r)) (K.regions j) (va / K.PAGESIZE / K.NENT ^ j) h2
    (fun r hr => by
      rw [decide_eq_true_eq] at hr ⊢
      intro v hv hvr
      by_contra hh
      exact hmono v hv hh (hr v hv hvr))
    (by
      rw [decide_eq_false_iff_not]
      intro hh
      exact hne (hh _ h1 rfl))
  unfold regionsLeft emptyAt
  simp only [decide_eq_true_eq] at this
  exact this

theorem tablesLeft_drop (hK : K.Geom) (hval : K.MEMSIZE_VIRTUAL % K.PAGESIZE = 0)
    (m m1 : Nat → Nat) (pt va : Nat) (hva : va < K.MEMSIZE_VIRTUAL)
    (hne : vm_walk K m1 3 pt (va / K.PAGESIZE * K.PAGESIZE) ≠ 0)
    (hmono : ∀ v, v < K.VPAGES → vm_walk K m 3 pt (v * K.PAGESIZE) ≠ 0 →
      vm_walk K m1 3 pt (v * K.PAGESIZE) ≠ 0) :
    tablesLeft K m1 pt + emptiesAt K m pt va ≤ tablesLeft K m pt := by
  have h1 := regionsLeft_drop hK hval m m1 pt va 1 hva hne hmono
  have h2 := regionsLeft_drop hK hval m m1 pt va 2 hva hne hmono
  have h3 := regionsLeft_drop hK hval m m1 pt va 3 hva hne hmono
  unfold tablesLeft emptiesAt
  omega

theorem regionsLeft_mono (m m1 : Nat → Nat) (pt j : Nat)
    (hmono : ∀ v, v < K.VPAGES → vm_walk K m 3 pt (v * K.PAGESIZE) ≠ 0 →
      vm_walk K m1 3 pt (v * K.PAGESIZE) ≠ 0) :
    regionsLeft K m1 pt j ≤ regionsLeft K m pt j := by
  unfold regionsLeft
  apply List.countP_mono_left
  intro r _ hr
  rw [decide_eq_true_eq] at hr ⊢
  intro v hv hvr
  by_contra hh
  exact hmono v hv hh (hr v hv hvr)

theorem tablesLeft_mono (m m1 : Nat → Nat) (pt : Nat)
    (hmono : ∀ v, v < K.VPAGES → vm_walk K m 3 pt (v * K.PAGESIZE) ≠ 0 →
      vm_walk K m1 3 pt (v * K.PAGESIZE) ≠ 0) :
    tablesLeft K m1 pt ≤ tablesLeft K m pt := by
  have h1 := regionsLeft_mono m m1 pt 1 hmono
  have h2 := regionsLeft_mono m m1 pt 2 hmono
  have h3 := regionsLeft_mono m m1 pt 3 hmono
  unfold tablesLeft
  omega

theorem tablesLeft_le (m : Nat → Nat) (pt : Nat) : tablesLeft K m pt ≤ K.TABLES := by
  have h : ∀ j, regionsLeft K m pt j ≤ K.regions j := by
    intro j
    unfold regionsLeft
    have := List.countP_le_length (fun r => decide (regionEmpty K m pt j r))
      (l := List.range (K.regions j))
    rw [List.length_range] at this
    exact this
  have h1 := h 1
  have h2 := h 2
  have h3 := h 3
  unfold tablesLeft Config.TABLES
  omega

/-- The levels on which the region of a page is empty are among the table pages that
the tree can still need. -/
theorem emptiesAt_le (hK : K.Geom) (hval : K.MEMSIZE_VIRTUAL % K.PAGESIZE = 0)
    (m : Nat → Nat) (pt va : Nat) (hva : va < K.MEMSIZE_VIRTUAL) :
    emptiesAt K m pt va ≤ tablesLeft K m pt := by
  have h : ∀ j, emptyAt K m pt j va ≤ regionsLeft K m pt j := by
    intro j
    have := countP_range_drop (fun _ => false) (fun r => decide (regionEmpty K m pt j r))
      (K.regions j) (va / K.PAGESIZE / K.NENT ^ j) (region_lt hK hval va j hva).2
      (fun r hr => absurd hr (by simp)) rfl
    unfold regionsLeft emptyAt
    simp only [decide_eq_true_eq] at this
    have h0 : (List.range (K.regions j)).countP (fun _ => false) = 0 := by
      rw [List.countP_eq_zero]
      intro a _
      simp
    omega
  have h1 := h 1
  have h2 := h 2
  have h3 := h 3
  unfold tablesLeft emptiesAt
  omega

theorem regionEmpty_congr {m m1 : Nat → Nat} {pt : Nat}
    (h : ∀ vb, vm_walk K m1 3 pt vb = vm_walk K m 3 pt vb) (j r : Nat) :
    regionEmpty K m1 pt j r ↔ regionEmpty K m pt j r := by
  unfold regionEmpty
  constructor
  · intro hh v hv hvr
    rw [← h]
    exact hh v hv hvr
  · intro hh v hv hvr
    rw [h]
    exact hh v hv hvr

theorem tablesLeft_congr {m m1 : Nat → Nat} {pt : Nat}
    (h : ∀ vb, vm_walk K m1 3 pt vb = vm_walk K m 3 pt vb) :
    tablesLeft K m1 pt = tablesLeft K m pt ∧
    ∀ va, emptiesAt K m1 pt va = emptiesAt K m pt va := by
  have e : ∀ j r, decide (regionEmpty K m1 pt j r) = decide (regionEmpty K m pt j r) := by
    intro j r
    exact decide_eq_decide.2 (regionEmpty_congr h j r)
  constructor
  · unfold tablesLeft regionsLeft
    simp only [e]
  · intro va
    unfold emptiesAt emptyAt
    simp only [regionEmpty_congr h]

end TableCount

section TightSetup

variable {K : Config}

/-- One page of a segment or the stack page, with a free frame for the page and for
every table page that the tree can still need. -/
theorem setup_step_tight (hK : K.Geom) {s : KState} {c cpt : Nat} {rolek : Roles} {sk : KState}
    {role1 : Roles} (si : SetupInv K s c cpt rolek sk role1) (a perm : Nat)
    (hval : K.MEMSIZE_VIRTUAL % K.PAGESIZE = 0) (hal : a % K.PAGESIZE = 0)
    (hlt : a < K.MEMSIZE_VIRTUAL) (hge : K.PROC_START_ADDR ≤ a)
    (hperm : perm = PTE_P + PTE_W + PTE_U ∨ perm = PTE_P + PTE_U) (n0 : Nat)
    (hF : FreeN K sk (n0 + tablesLeft K sk.mem cpt + 1)) :
    (kalloc K K.PAGESIZE sk).1 ≠ 0 ∧
    (vm_map K 3 cpt a (kalloc K K.PAGESIZE sk).1 perm (kalloc K K.PAGESIZE sk).2).1 = 0 ∧
    FreeN K (vm_map K 3 cpt a (kalloc K K.PAGESIZE sk).1 perm (kalloc K K.PAGESIZE sk).2).2
      (n0 + tablesLeft K
        (vm_map K 3 cpt a (kalloc K K.PAGESIZE sk).1 perm (kalloc K K.PAGESIZE sk).2).2.mem cpt) ∧
    ∃ role2, SetupInv K s c cpt rolek
      (vm_map K 3 cpt a (kalloc K K.PAGESIZE sk).1 perm (kalloc K K.PAGESIZE sk).2).2 role2 := by
  have hP := hK.page_pos
  have hc : cursorOK K sk := si.mid.inv.cursor
  obtain ⟨hne, hc2, h2⟩ := kalloc_free hK.wf sk (n0 + tablesLeft K sk.mem cpt) hc hF
  obtain ⟨f, role2, _, si2, _, hw1, hw2⟩ := setup_step_fun hK si a perm hlt hge hperm hne
  have hpe := kalloc_ptable_eq (K := K) K.PAGESIZE sk
  have hke : ∀ vb, vm_walk K (kalloc K K.PAGESIZE sk).2.mem 3 cpt vb =
      vm_walk K sk.mem 3 cpt vb := by
    intro vb
    have := kalloc_child_ent hK si.mid vb
    rw [ent_eq _ c cpt (by rw [hpe.1]; exact si.mid.croot), ent_eq _ c cpt si.mid.croot] at this
    exact this
  have hA := missing_le_empties hK (kalloc K K.PAGESIZE sk).2.mem cpt a
  rw [(tablesLeft_congr hke).2 a] at hA
  have hB0 := emptiesAt_le hK hval sk.mem cpt a hlt
  obtain ⟨hrc, _, hF3⟩ := vm_map_needs hK.wf
    (n0 + tablesLeft K sk.mem cpt - missing K (kalloc K K.PAGESIZE sk).2.mem 3 cpt a) 3 cpt a
    (kalloc K K.PAGESIZE sk).1 perm (kalloc K K.PAGESIZE sk).2 hc2 (h2.fewer (by omega))
  have hp0 : f * K.PAGESIZE + perm ≠ 0 := by
    rcases hperm with e | e <;> rw [e] <;> simp only [PTE_P, PTE_W, PTE_U] <;> omega
  have hne1 : vm_walk K
      (vm_map K 3 cpt a (kalloc K K.PAGESIZE sk).1 perm (kalloc K K.PAGESIZE sk).2).2.mem 3 cpt
      (a / K.PAGESIZE * K.PAGESIZE) ≠ 0 := by
    rw [aligned_eq (K := K) a hal, ← ent_eq _ c cpt si2.mid.croot, hw1 hrc a (samePage_refl _)]
    exact hp0
  have hmono : ∀ v, v < K.VPAGES → vm_walk K sk.mem 3 cpt (v * K.PAGESIZE) ≠ 0 →
      vm_walk K
        (vm_map K 3 cpt a (kalloc K K.PAGESIZE sk).1 perm (kalloc K K.PAGESIZE sk).2).2.mem 3 cpt
        (v * K.PAGESIZE) ≠ 0 := by
    intro v _ hv
    rw [← ent_eq _ c cpt si2.mid.croot]
    by_cases hs : samePage K (v * K.PAGESIZE) a
    · rw [hw1 hrc _ hs]
      exact hp0
    · rw [hw2 _ hs, ent_eq _ c cpt si.mid.croot]
      exact hv
  have hB := tablesLeft_drop hK hval sk.mem _ cpt a hlt hne1 hmono
  exact ⟨hne, hrc, hF3.fewer (by omega), role2, si2⟩

/-- The loop over the pages of one segment, with a free frame for each of its pages
and for every table page that the tree can still need. -/
theorem setup_segment_pages_tight (hK : K.Geom) {s : KState} {c cpt : Nat} {rolek : Roles}
    (w : Bool) (stop : Nat) (hval : K.MEMSIZE_VIRTUAL % K.PAGESIZE = 0)
    (hstop : stop ≤ K.MEMSIZE_VIRTUAL) (n0 : Nat) :
    ∀ (k fuel a : Nat) (sk : KState) (role1 : Roles), a % K.PAGESIZE = 0 →
    K.PROC_START_ADDR ≤ a → stop ≤ a + k * K.PAGESIZE → k < fuel →
    SetupInv K s c cpt rolek sk role1 → FreeN K sk (n0 + tablesLeft K sk.mem cpt + k) →
    ∃ t, setup_segment_pages K cpt w stop fuel a sk = some t ∧
      FreeN K t (n0 + tablesLeft K t.mem cpt) := by
  have hP := hK.page_pos
  intro k
  induction k with
  | zero =>
    intro fuel a sk role1 _ _ hk hf _ hF
    obtain ⟨f, rfl⟩ : ∃ f, fuel = f + 1 := ⟨fuel - 1, by omega⟩
    rw [setup_segment_pages, if_neg (by omega)]
    exact ⟨sk, rfl, hF.fewer (by omega)⟩
  | succ k ih =>
    intro fuel a sk role1 hal hge hk hf si hF
    obtain ⟨f, rfl⟩ : ∃ f, fuel = f + 1 := ⟨fuel - 1, by omega⟩
    rw [setup_segment_pages]
    by_cases hlt : a < stop
    · rw [if_pos hlt]
      simp only
      have hperm : (if w = true then PTE_P + PTE_W + PTE_U else PTE_P + PTE_U) =
          PTE_P + PTE_W + PTE_U ∨
          (if w = true then PTE_P + PTE_W + PTE_U else PTE_P + PTE_U) = PTE_P + PTE_U := by
        cases w <;> simp
      obtain ⟨hne, hrc, hF2, role2, si2⟩ := setup_step_tight hK si a _ hval hal (by omega) hge
        hperm (n0 + k) (hF.fewer (by omega))
      rw [if_neg hne, vmiter_map_eq _ _ _ _ _ hal (canonical_of_lt_virt hK a (by omega)),
        if_neg (fun hh => by
          rcases hperm with e | e <;> rw [e] at hh <;> exact absurd hh.2 (by decide))]
      simp only
      rw [if_pos hrc]
      apply ih f (a + K.PAGESIZE) _ role2 (by rw [Nat.add_mod_right]; exact hal) (by omega)
        (by rw [Nat.succ_mul] at hk; omega) (by omega) si2
      exact hF2.fewer (by omega)
    · rw [if_neg hlt]
      exact ⟨sk, rfl, hF.fewer (by omega)⟩

/-- The number of pages of a segment that is not empty is at most its size, and the
pages reach the end of the segment. -/
theorem segPages_bounds (hK : K.Geom) (g : segment) (hsz : 0 < g.size) :
    segPages K g ≤ g.size ∧
    g.va + g.size ≤ g.va / K.PAGESIZE * K.PAGESIZE + segPages K g * K.PAGESIZE := by
  have hP := hK.page_pos
  have hP8 := hK.page_ge
  have hr := Nat.mod_lt g.va hP
  have hdm := Nat.div_add_mod g.va K.PAGESIZE
  rw [Nat.mul_comm] at hdm
  unfold segPages
  constructor
  · apply Nat.le_of_lt_succ
    rw [Nat.div_lt_iff_lt_mul hP]
    obtain ⟨q, hq⟩ : ∃ q, g.size = q + 1 := ⟨g.size - 1, by omega⟩
    rw [hq]
    have h1 : q ≤ q * K.PAGESIZE := Nat.le_mul_of_pos_right _ hP
    have h2 : (q + 1 + 1) * K.PAGESIZE = q * K.PAGESIZE + 2 * K.PAGESIZE := by ring
    rw [h2]
    omega
  · have h1 := Nat.div_add_mod (g.va % K.PAGESIZE + g.size + K.PAGESIZE - 1) K.PAGESIZE
    have h2 := Nat.mod_lt (g.va % K.PAGESIZE + g.size + K.PAGESIZE - 1) hP
    rw [Nat.mul_comm] at h1
    omega

/-- The loop of `process_setup` that allocates the pages of the segments, with a free
frame for every page of every segment and for every table page that the tree can
still need. -/
theorem setup_alloc_tight (hK : K.Geom) {s : KState} {c cpt : Nat} {rolek : Roles}
    (hval : K.MEMSIZE_VIRTUAL % K.PAGESIZE = 0) (n0 : Nat) :
    ∀ (gs : List segment) (sk : KState) (role1 : Roles),
    (∀ g ∈ gs, K.PROC_START_ADDR ≤ g.va ∧ g.va + g.size ≤ K.MEMSIZE_VIRTUAL ∧ 0 < g.size) →
    SetupInv K s c cpt rolek sk role1 →
    FreeN K sk (n0 + tablesLeft K sk.mem cpt + (gs.map (segPages K)).sum) →
    ∃ t, setup_alloc K cpt gs sk = some t ∧ FreeN K t (n0 + tablesLeft K t.mem cpt) := by
  have hP := hK.page_pos
  intro gs
  induction gs with
  | nil =>
    intro sk role1 _ _ hF
    exact ⟨sk, rfl, hF.fewer (by simp)⟩
  | cons g gs ih =>
    intro sk role1 hgs si hF
    obtain ⟨hg1, hg2, hg3⟩ := hgs g (List.mem_cons_self _ _)
    obtain ⟨hb1, hb2⟩ := segPages_bounds hK g hg3
    have hge : K.PROC_START_ADDR ≤ g.va / K.PAGESIZE * K.PAGESIZE := by
      have h2 := aligned_eq (K := K) _ hK.start_al
      have h3 : K.PROC_START_ADDR / K.PAGESIZE ≤ g.va / K.PAGESIZE := Nat.div_le_div_right hg1
      have := Nat.mul_le_mul_right K.PAGESIZE h3
      omega
    simp only [List.map_cons, List.sum_cons] at hF
    obtain ⟨s1, e1, f1⟩ := setup_segment_pages_tight hK g.writable (g.va + g.size) hval hg2
      (n0 + (gs.map (segPages K)).sum) (segPages K g) (g.size + 1)
      (g.va / K.PAGESIZE * K.PAGESIZE) sk role1 (Nat.mul_mod_left _ _) hge hb2 (by omega) si
      (hF.fewer (by omega))
    obtain ⟨role2, si2, _⟩ := setup_segment_pages_spec hK g.writable (g.va + g.size) hg2 _ _ _ _
      (Nat.mul_mod_left _ _) hge si s1 e1
    obtain ⟨t, e2, f2⟩ := ih s1 role2 (fun x hx => hgs x (List.mem_cons_of_mem _ hx)) si2
      (f1.fewer (by omega))
    refine ⟨t, ?_, f2⟩
    simp only [setup_alloc]
    rw [e1]
    exact e2

/-- One step of the first loop of `process_setup`: the page at `va` gets the entry of
the kernel page table, if that entry is present, and no entry otherwise. -/
theorem setup_kernel_step (hK : K.Geom) {s : KState} {c cpt : Nat} {rolek : Roles} {sk : KState}
    {role1 : Roles} (si : SetupInv K s c cpt rolek sk role1) (va : Nat)
    (hal : va % K.PAGESIZE = 0) (hlt : va < K.PROC_START_ADDR) :
    ∃ role2, SetupInv K s c cpt rolek
      (vm_map K 3 cpt va
        (if vmiter.pa K sk.mem { pt := K.kernel_pagetable, va := va } = UINTPTR_MAX ∧
            vmiter.perm K sk.mem { pt := K.kernel_pagetable, va := va } = 0 then 0
          else vmiter.pa K sk.mem { pt := K.kernel_pagetable, va := va })
        (vmiter.perm K sk.mem { pt := K.kernel_pagetable, va := va }) sk).2 role2 ∧
      ((vm_map K 3 cpt va
        (if vmiter.pa K sk.mem { pt := K.kernel_pagetable, va := va } = UINTPTR_MAX ∧
            vmiter.perm K sk.mem { pt := K.kernel_pagetable, va := va } = 0 then 0
          else vmiter.pa K sk.mem { pt := K.kernel_pagetable, va := va })
        (vmiter.perm K sk.mem { pt := K.kernel_pagetable, va := va }) sk).1 = 0 →
        ∀ vb, samePage K vb va →
          (vm_map K 3 cpt va
            (if vmiter.pa K sk.mem { pt := K.kernel_pagetable, va := va } = UINTPTR_MAX ∧
                vmiter.perm K sk.mem { pt := K.kernel_pagetable, va := va } = 0 then 0
              else vmiter.pa K sk.mem { pt := K.kernel_pagetable, va := va })
            (vmiter.perm K sk.mem { pt := K.kernel_pagetable, va := va }) sk).2.ent K c vb =
          copyEntry (vm_walk K sk.mem 3 K.kernel_pagetable va)) ∧
      (∀ vb, ¬ samePage K vb va →
        (vm_map K 3 cpt va
          (if vmiter.pa K sk.mem { pt := K.kernel_pagetable, va := va } = UINTPTR_MAX ∧
              vmiter.perm K sk.mem { pt := K.kernel_pagetable, va := va } = 0 then 0
            else vmiter.pa K sk.mem { pt := K.kernel_pagetable, va := va })
          (vmiter.perm K sk.mem { pt := K.kernel_pagetable, va := va }) sk).2.ent K c vb =
        sk.ent K c vb) ∧
      (vmiter.perm K sk.mem { pt := K.kernel_pagetable, va := va } = 0 →
        copyEntry (vm_walk K sk.mem 3 K.kernel_pagetable va) = 0) ∧
      (vmiter.perm K sk.mem { pt := K.kernel_pagetable, va := va } ≠ 0 →
        copyEntry (vm_walk K sk.mem 3 K.kernel_pagetable va) ≠ 0) := by
  obtain ⟨_, _, w3, w4⟩ := vmiter_at (K := K) sk.mem K.kernel_pagetable va _ rfl hal
  rw [w3, w4]
  obtain ⟨hsum, h0⟩ := copy_args hK (vm_walk K sk.mem 3 K.kernel_pagetable va)
  have h64 : (if (if hasflag (vm_walk K sk.mem 3 K.kernel_pagetable va) PTE_P = true
        then pte_pa K (vm_walk K sk.mem 3 K.kernel_pagetable va) else UINTPTR_MAX)
        = UINTPTR_MAX ∧
      (if hasflag (vm_walk K sk.mem 3 K.kernel_pagetable va) PTE_P = true
        then pte_flags K (vm_walk K sk.mem 3 K.kernel_pagetable va) else 0) = 0 then 0
      else (if hasflag (vm_walk K sk.mem 3 K.kernel_pagetable va) PTE_P = true
        then pte_pa K (vm_walk K sk.mem 3 K.kernel_pagetable va) else UINTPTR_MAX)) +
      (if hasflag (vm_walk K sk.mem 3 K.kernel_pagetable va) PTE_P = true
        then pte_flags K (vm_walk K sk.mem 3 K.kernel_pagetable va) else 0) < 2 ^ 64 := by
    rw [hsum]
    split
    · exact vm_walk_lt _ _ _ _
    · norm_num
  obtain ⟨role2, hm, he, hw1, hw2⟩ := fork_map hK si.mid va _ _ h64 h0
  have hinv := si.mid.inv.install hK c (ghost_live sk c) hm _ rfl rfl rfl
    (fun t => Or.inl rfl) (by
      intro _ hu
      rw [hsum] at hu ⊢
      by_cases hp : hasflag (vm_walk K sk.mem 3 K.kernel_pagetable va) PTE_P = true
      · rw [if_pos hp] at hu ⊢
        obtain ⟨e1, e2⟩ := si.kview.entries va hal hlt hu
        have hsame : samePage K va K.console := by rw [e1]; exact samePage_refl _
        refine ⟨?_, fun _ => e2, fun hh => absurd hsame hh⟩
        cases hr : role1 (vm_walk K sk.mem 3 K.kernel_pagetable va / K.PAGESIZE) with
        | none => rfl
        | some x =>
          obtain ⟨p, π⟩ := x
          have := (si.mid.inv.typed _ p π hr).2.1
          unfold pte_pa at e2
          rw [e2] at this
          exact absurd this (by simp)
      · rw [if_neg hp] at hu
        exact absurd hu not_userPresent_zero)
  have si2 := si.of_ext hK he hinv
  rw [hsum] at hw1
  refine ⟨role2, si2, fun hrc vb hs => hw1 vb hrc hs, fun vb hs => hw2 vb (fun hh => hs hh.2),
    ?_, ?_⟩
  · intro hp0
    unfold copyEntry
    by_cases hp : hasflag (vm_walk K sk.mem 3 K.kernel_pagetable va) PTE_P = true
    · rw [if_pos hp] at hp0
      exact absurd hp0 (pte_flags_ne_zero hK _ hp)
    · rw [if_neg hp]
  · intro hp0
    unfold copyEntry
    by_cases hp : hasflag (vm_walk K sk.mem 3 K.kernel_pagetable va) PTE_P = true
    · rw [if_pos hp]
      intro hz
      rw [hz, hasflag_zero] at hp
      exact absurd hp (by simp)
    · rw [if_neg hp] at hp0
      exact absurd rfl hp0

/-- The first loop of `process_setup`, with a free frame for every table page that
the tree can still need. -/
theorem setup_kernel_loop_tight (hK : K.Geom) {s : KState} {c cpt : Nat} {rolek : Roles}
    (hval : K.MEMSIZE_VIRTUAL % K.PAGESIZE = 0)
    (hvs : K.PROC_START_ADDR + K.PAGESIZE ≤ K.MEMSIZE_VIRTUAL) (n0 : Nat) :
    ∀ (k fuel va : Nat) (sk : KState) (role1 : Roles), va % K.PAGESIZE = 0 →
    va + k * K.PAGESIZE = K.PROC_START_ADDR → k < fuel →
    SetupInv K s c cpt rolek sk role1 →
    (∀ vb, vb % K.PAGESIZE = 0 → va ≤ vb → vb < K.MEMSIZE_VIRTUAL → sk.ent K c vb = 0) →
    FreeN K sk (n0 + tablesLeft K sk.mem cpt) →
    ∃ t, setup_kernel_loop K cpt fuel va sk = some t ∧
      FreeN K t (n0 + tablesLeft K t.mem cpt) := by
  have hP := hK.page_pos
  intro k
  induction k with
  | zero =>
    intro fuel va sk role1 _ hva hf _ _ hF
    obtain ⟨f, rfl⟩ : ∃ f, fuel = f + 1 := ⟨fuel - 1, by omega⟩
    rw [setup_kernel_loop, if_neg (by omega)]
    exact ⟨sk, rfl, hF⟩
  | succ k ih =>
    intro fuel va sk role1 hal hva hf si hz hF
    obtain ⟨f, rfl⟩ : ∃ f, fuel = f + 1 := ⟨fuel - 1, by omega⟩
    have hlt : va < K.PROC_START_ADDR := by
      rw [← hva, Nat.add_mul, Nat.one_mul]
      omega
    have hlv : va < K.MEMSIZE_VIRTUAL := by omega
    have hcan : va_is_canonical K va = true := canonical_of_lt_virt hK va hlv
    have hc : cursorOK K sk := si.mid.inv.cursor
    rw [setup_kernel_loop, if_pos hlt]
    simp only
    rw [vmiter_map_eq _ _ _ _ _ hal hcan]
    simp only
    obtain ⟨role2, si2, hw1, hw2, hz0, hnz⟩ := setup_kernel_step hK si va hal hlt
    have hspan : ∀ v, v < K.VPAGES → v * K.PAGESIZE < K.VA_SPAN := by
      intro v hv
      apply lt_span_of_lt_virt hK
      unfold Config.VPAGES at hv
      have := Nat.mul_lt_mul_of_pos_right hv hP
      rw [aligned_eq (K := K) _ hval] at this
      exact this
    have hvirt : ∀ v, v < K.VPAGES → v * K.PAGESIZE < K.MEMSIZE_VIRTUAL := by
      intro v hv
      unfold Config.VPAGES at hv
      have := Nat.mul_lt_mul_of_pos_right hv hP
      rw [aligned_eq (K := K) _ hval] at this
      exact this
    have hstep : (vm_map K 3 cpt va
        (if vmiter.pa K sk.mem { pt := K.kernel_pagetable, va := va } = UINTPTR_MAX ∧
            vmiter.perm K sk.mem { pt := K.kernel_pagetable, va := va } = 0 then 0
          else vmiter.pa K sk.mem { pt := K.kernel_pagetable, va := va })
        (vmiter.perm K sk.mem { pt := K.kernel_pagetable, va := va }) sk).1 = 0 ∧
        FreeN K (vm_map K 3 cpt va
          (if vmiter.pa K sk.mem { pt := K.kernel_pagetable, va := va } = UINTPTR_MAX ∧
              vmiter.perm K sk.mem { pt := K.kernel_pagetable, va := va } = 0 then 0
            else vmiter.pa K sk.mem { pt := K.kernel_pagetable, va := va })
          (vmiter.perm K sk.mem { pt := K.kernel_pagetable, va := va }) sk).2
          (n0 + tablesLeft K (vm_map K 3 cpt va
            (if vmiter.pa K sk.mem { pt := K.kernel_pagetable, va := va } = UINTPTR_MAX ∧
                vmiter.perm K sk.mem { pt := K.kernel_pagetable, va := va } = 0 then 0
              else vmiter.pa K sk.mem { pt := K.kernel_pagetable, va := va })
            (vmiter.perm K sk.mem { pt := K.kernel_pagetable, va := va }) sk).2.mem cpt) := by
      generalize hX : vm_map K 3 cpt va
        (if vmiter.pa K sk.mem { pt := K.kernel_pagetable, va := va } = UINTPTR_MAX ∧
            vmiter.perm K sk.mem { pt := K.kernel_pagetable, va := va } = 0 then 0
          else vmiter.pa K sk.mem { pt := K.kernel_pagetable, va := va })
        (vmiter.perm K sk.mem { pt := K.kernel_pagetable, va := va }) sk = X
        at si2 hw1 hw2
      by_cases hp0 : vmiter.perm K sk.mem { pt := K.kernel_pagetable, va := va } = 0
      · obtain ⟨hrc, _, hF2⟩ := vm_map_no_perm (K := K) (n0 + tablesLeft K sk.mem cpt) 3 cpt va
          (if vmiter.pa K sk.mem { pt := K.kernel_pagetable, va := va } = UINTPTR_MAX ∧
              vmiter.perm K sk.mem { pt := K.kernel_pagetable, va := va } = 0 then 0
            else vmiter.pa K sk.mem { pt := K.kernel_pagetable, va := va })
          (vmiter.perm K sk.mem { pt := K.kernel_pagetable, va := va }) sk hp0 hc hF
        rw [hX] at hrc hF2
        refine ⟨hrc, hF2.fewer ?_⟩
        have := tablesLeft_mono (K := K) sk.mem X.2.mem cpt (by
          intro v hv hne
          rw [← ent_eq _ c cpt si2.mid.croot]
          rw [← ent_eq _ c cpt si.mid.croot] at hne
          by_cases hs : samePage K (v * K.PAGESIZE) va
          · have hev : v * K.PAGESIZE = va :=
              (samePage_aligned hK _ _ (hspan v hv) (lt_span_of_lt_virt hK va hlv)
                (Nat.mul_mod_left _ _) hal).1 hs
            rw [hev] at hne
            exact absurd (hz va hal (le_refl _) hlv) hne
          · rw [hw2 _ hs]
            exact hne)
        omega
      · have hA := missing_le_empties hK sk.mem cpt va
        have hB0 := emptiesAt_le hK hval sk.mem cpt va hlv
        obtain ⟨hrc, _, hF2⟩ := vm_map_needs hK.wf
          (n0 + tablesLeft K sk.mem cpt - missing K sk.mem 3 cpt va) 3 cpt va
          (if vmiter.pa K sk.mem { pt := K.kernel_pagetable, va := va } = UINTPTR_MAX ∧
              vmiter.perm K sk.mem { pt := K.kernel_pagetable, va := va } = 0 then 0
            else vmiter.pa K sk.mem { pt := K.kernel_pagetable, va := va })
          (vmiter.perm K sk.mem { pt := K.kernel_pagetable, va := va }) sk hc
          (hF.fewer (by omega))
        rw [hX] at hrc hF2
        refine ⟨hrc, hF2.fewer ?_⟩
        have hB := tablesLeft_drop hK hval sk.mem X.2.mem cpt va hlv (by
            rw [aligned_eq (K := K) va hal, ← ent_eq _ c cpt si2.mid.croot,
              hw1 hrc va (samePage_refl _)]
            exact hnz hp0) (by
          intro v hv hne
          rw [← ent_eq _ c cpt si2.mid.croot]
          by_cases hs : samePage K (v * K.PAGESIZE) va
          · rw [hw1 hrc _ hs]
            exact hnz hp0
          · rw [hw2 _ hs, ent_eq _ c cpt si.mid.croot]
            exact hne)
        omega
    generalize vm_map K 3 cpt va
      (if vmiter.pa K sk.mem { pt := K.kernel_pagetable, va := va } = UINTPTR_MAX ∧
          vmiter.perm K sk.mem { pt := K.kernel_pagetable, va := va } = 0 then 0
        else vmiter.pa K sk.mem { pt := K.kernel_pagetable, va := va })
      (vmiter.perm K sk.mem { pt := K.kernel_pagetable, va := va }) sk = X
      at si2 hw1 hw2 hstep ⊢
    rw [if_pos hstep.1]
    apply ih f (va + K.PAGESIZE) X.2 role2 (by rw [Nat.add_mod_right]; exact hal)
      (by rw [← hva, Nat.add_mul, Nat.one_mul]; omega) (by omega) si2
    · intro vb hvb h1 h2
      rw [hw2 vb (not_samePage_aligned hK vb va hvb hal (lt_span_of_lt_virt hK vb h2)
        (lt_span_of_lt_virt hK va hlv) (by omega))]
      exact hz vb hvb (by omega) h2
    · exact hstep.2

end TightSetup

section TightProcess

variable {K : Config}

/-- The state of `process_setup` after the root table is allocated satisfies the
invariant of the loops, and the new tree has no entry. -/
theorem setup_root (hK : K.Geom) (E : BootEnv) (c : Nat) {s : KState} {role rolek : Roles}
    (h : Inv K s role) (kv : KView K s.mem rolek) (hc : ¬ s.live c) (hcn : c < K.NPROC) (f : Nat)
    (hf2 : isFreeFrame K (s.setProc c fun p => { p with regs := E.init_regs }) f)
    (hf3 : (kalloc K K.PAGESIZE (s.setProc c fun p => { p with regs := E.init_regs })).2 =
      kalloc_at K (s.setProc c fun p => { p with regs := E.init_regs }) (f * K.PAGESIZE)) :
    SetupInv K (s.setProc c fun p => { p with regs := E.init_regs }) c (f * K.PAGESIZE) rolek
      ((kalloc_at K (s.setProc c fun p => { p with regs := E.init_regs })
        (f * K.PAGESIZE)).setProc c fun p => { p with pagetable := f * K.PAGESIZE })
      (addRoot role f c) ∧
    ∀ vb, KState.ent K ((kalloc_at K (s.setProc c fun p => { p with regs := E.init_regs })
        (f * K.PAGESIZE)).setProc c fun p => { p with pagetable := f * K.PAGESIZE }) c vb = 0 := by
  have hP := hK.page_pos
  have h0 := h.setRegs hK c (fun _ => E.init_regs)
  have hc0 : ¬ (s.setProc c fun p => { p with regs := E.init_regs }).live c := by
    simp only [KState.live, KState.setProc, upd, if_true]
    exact hc
  have hcf2 : (s.ptable c).state = procstate.P_FREE := by
    unfold KState.live at hc
    simpa using hc
  have hcurs : cursorOK K (kalloc_at K (s.setProc c fun p => { p with regs := E.init_regs })
      (f * K.PAGESIZE)) := by
    rw [← hf3]; exact kalloc_cursorOK hK.wf _ _ h0.cursor
  have hrk : rolek f = none := by
    cases hr : rolek f with
    | none => rfl
    | some x =>
      have := kv.na f (by rw [hr]; simp)
      rw [hf2.1] at this
      exact absurd this (by simp)
  constructor
  · exact
      { mid :=
          { inv := by
              refine h0.new_root hK c hc0 hcn f hf2 hcurs _ ?_ ?_ ?_ ?_ ?_ ?_ ?_
              · rfl
              · rfl
              · rfl
              · intro q hq
                simp [KState.ghost, KState.setProc, upd, hq, kalloc_at]
              · simp [KState.ghost, KState.setProc, upd]
              · simp [KState.ghost, KState.setProc, upd, kalloc_at]
              · exact ghost_live _ c
            current_eq := rfl
            ptable_old := fun q hq => by simp [KState.setProc, upd, hq, kalloc_at]
            cstate := by
              simp only [KState.setProc, upd, if_true, kalloc_at]
              exact hcf2
            cpid := by simp [KState.setProc, upd, kalloc_at]
            croot := by simp [KState.setProc, upd]
            others_mem := fun a q π hr hq => by
              show (kalloc_at K _ (f * K.PAGESIZE)).mem a = _
              simp only [kalloc_at]
              rw [memset_frame hP, if_neg]
              intro hh
              rw [hh] at hr
              simp only [addRoot, if_true, Option.some.injEq, Prod.mk.injEq] at hr
              exact hq hr.1.symm }
        kview := kv.congr_view hK (fun a ha => by
          show (kalloc_at K _ (f * K.PAGESIZE)).mem a = _
          simp only [kalloc_at]
          rw [memset_frame hP, if_neg]
          · rfl
          · intro hh
            rw [hh] at ha
            exact ha hrk) }
  · intro vb
    unfold KState.ent
    have hpt : (((kalloc_at K (s.setProc c fun p => { p with regs := E.init_regs })
        (f * K.PAGESIZE)).setProc c fun p => { p with pagetable := f * K.PAGESIZE }).ptable
          c).pagetable = f * K.PAGESIZE := by
      simp [KState.setProc, upd]
    rw [hpt]
    apply vm_walk_zero hK _ 3 _ (Nat.mul_mod_left _ _)
    intro a ha
    rw [frame_mul hP] at ha
    show (kalloc_at K _ (f * K.PAGESIZE)).mem a = 0
    simp only [kalloc_at]
    rw [memset_frame hP, if_pos ha]

/-- With a free frame for the root table, for every table page below it that the
pages below `MEMSIZE_VIRTUAL` can need, for every page of every segment and for the
stack page, `process_setup` of a Free slot returns, for a program whose segments are
not empty, lie between `PROC_START_ADDR` and `MEMSIZE_VIRTUAL` and are found in
consecutive frames by the copy loop; the free frames beyond this number are still
free afterwards. -/
theorem process_setup_tight (hK : K.Geom) (E : BootEnv) (c n : Nat)
    (hseg : ∀ g ∈ (E.programs n).segments,
      K.PROC_START_ADDR ≤ g.va ∧ g.va + g.size ≤ K.MEMSIZE_VIRTUAL ∧ g.data_size ≤ g.size ∧
      0 < g.size)
    (hval : K.MEMSIZE_VIRTUAL % K.PAGESIZE = 0)
    (hvs : K.PROC_START_ADDR + K.PAGESIZE ≤ K.MEMSIZE_VIRTUAL)
    {s : KState} {role rolek : Roles} (h : Inv K s role) (kv : KView K s.mem rolek)
    (hfit : setupFits K E c n s) (hc : ¬ s.live c) (hcn : c < K.NPROC) (m : Nat)
    (hF : FreeN K s (m + setupFrames K (E.programs n))) :
    ∃ t, process_setup K E c n s = some t ∧ FreeN K t m := by
  have hP := hK.page_pos
  have h0 := h.setRegs hK c (fun _ => E.init_regs)
  have hF0 : FreeN K (s.setProc c fun p => { p with regs := E.init_regs })
      (m + K.TABLES + ((E.programs n).segments.map (segPages K)).sum + 1 + 1) :=
    (hF.fewer (by unfold setupFrames; omega)).same_pages rfl
  obtain ⟨hne0, _, f1⟩ := kalloc_free hK.wf _ _ h0.cursor hF0
  rcases kalloc_spec hK.wf _ h0.cursor with ⟨hz, _, _⟩ | ⟨f, hf1, hf2, hf3⟩
  · exact absurd hz hne0
  obtain ⟨si1, hent1⟩ := setup_root hK E c h kv hc hcn f hf2 hf3
  have hmap := setup_mapped_eq (K := K) E c n s
  unfold process_setup
  simp only
  rw [hf1, hf3] at hmap ⊢
  rw [hf3] at f1
  have f1b : FreeN K ((kalloc_at K (s.setProc c fun p => { p with regs := E.init_regs })
      (f * K.PAGESIZE)).setProc c fun p => { p with pagetable := f * K.PAGESIZE })
      (m + K.TABLES + ((E.programs n).segments.map (segPages K)).sum + 1) :=
    f1.same_pages rfl
  generalize hs1 : ((kalloc_at K (s.setProc c fun p => { p with regs := E.init_regs })
        (f * K.PAGESIZE)).setProc c fun p => { p with pagetable := f * K.PAGESIZE }) = s1
    at si1 hent1 hmap f1b ⊢
  have hTL := tablesLeft_le (K := K) s1.mem (f * K.PAGESIZE)
  obtain ⟨s2, e2, f2⟩ := setup_kernel_loop_tight hK hval hvs
    (m + ((E.programs n).segments.map (segPages K)).sum + 1) (K.PROC_START_ADDR / K.PAGESIZE)
    (K.PROC_START_ADDR + 1) 0 s1 _ (Nat.zero_mod _)
    (by rw [Nat.zero_add]; exact aligned_eq (K := K) _ hK.start_al)
    (by have := Nat.div_le_self K.PROC_START_ADDR K.PAGESIZE; omega) si1
    (fun vb _ _ _ => hent1 vb) (f1b.fewer (by omega))
  rw [e2]
  simp only
  obtain ⟨role2, si2, _⟩ := setup_kernel_loop_fun hK _ 0 _ _ (Nat.zero_mod _) si1 s2 e2
  obtain ⟨s3, e3, f3⟩ := setup_alloc_tight hK hval (m + 1) (E.programs n).segments s2 role2
    (fun g hg => ⟨(hseg g hg).1, (hseg g hg).2.1, (hseg g hg).2.2.2⟩) si2 (f2.fewer (by omega))
  rw [e3]
  simp only
  obtain ⟨role3, si3, _, _, ma2⟩ := setup_alloc_fun hK _ s2 role2
    (fun g hg => ⟨(hseg g hg).1, (hseg g hg).2.1⟩) si2 s3 e3
  have hfit3 : ∀ g ∈ (E.programs n).segments, copyFits K s3.mem (f * K.PAGESIZE) g := by
    intro g hg
    have := hfit s3 (hmap s2 s3 e2 e3) g hg
    rw [si3.mid.croot] at this
    exact this
  obtain ⟨si4, _, e4⟩ := setup_copy_fun hK (E.programs n).segments s3
    (fun g hg => ⟨(hseg g hg).1, (hseg g hg).2.1, hfit3 g hg, (hseg g hg).2.2.1,
      fun i hi => by
        obtain ⟨f2, w2, _, a2, _⟩ := ma2 g hg (g.va + i)
          (by have := Nat.div_mul_le_self g.va K.PAGESIZE; omega) (by omega)
        rw [a2]
        exact userPresent_seg hK f2 w2⟩) si3
  have si5 : SetupInv K (s.setProc c fun p => { p with regs := E.init_regs }) c (f * K.PAGESIZE)
      rolek ((setup_copy K (f * K.PAGESIZE) (E.programs n).segments s3).setProc c fun p =>
        { p with regs := { p.regs with reg_rip := (E.programs n).entry } }) role3 :=
    { mid := si4.mid.childRegs hK _
      kview := si4.kview }
  have hw5 : ∀ vb, vm_walk K (setup_copy K (f * K.PAGESIZE) (E.programs n).segments s3).mem 3
      (f * K.PAGESIZE) vb = vm_walk K s3.mem 3 (f * K.PAGESIZE) vb := by
    intro vb
    have := e4 vb
    rw [ent_eq _ c _ si4.mid.croot, ent_eq _ c _ si3.mid.croot] at this
    exact this
  have f5 : FreeN K ((setup_copy K (f * K.PAGESIZE) (E.programs n).segments s3).setProc c fun p =>
        { p with regs := { p.regs with reg_rip := (E.programs n).entry } })
      (m + tablesLeft K (setup_copy K (f * K.PAGESIZE) (E.programs n).segments s3).mem
        (f * K.PAGESIZE) + 1) := by
    rw [(tablesLeft_congr hw5).1]
    exact (f3.fewer (by omega)).same_pages (setup_copy_pages (K := K) _ _ s3).1
  have hsa : (K.MEMSIZE_VIRTUAL - K.PAGESIZE) % K.PAGESIZE = 0 := by
    obtain ⟨k, hk⟩ := Nat.dvd_of_mod_eq_zero hval
    have hk1 : 1 ≤ k := by
      rcases Nat.eq_zero_or_pos k with h0 | h0
      · rw [h0] at hk; omega
      · exact h0
    obtain ⟨j, hj⟩ : ∃ j, k = j + 1 := ⟨k - 1, by omega⟩
    rw [hk, hj, Nat.mul_add, Nat.mul_one, Nat.add_sub_cancel]
    exact Nat.mul_mod_right _ _
  have hslt : K.MEMSIZE_VIRTUAL - K.PAGESIZE < K.MEMSIZE_VIRTUAL := by omega
  obtain ⟨hne6, hrc7, f7, _⟩ := setup_step_tight hK si5 (K.MEMSIZE_VIRTUAL - K.PAGESIZE)
    (PTE_P + PTE_W + PTE_U) hval hsa hslt (by omega) (Or.inl rfl) m f5
  rw [if_neg hne6, vmiter_map_eq _ _ _ _ _ hsa (canonical_of_lt_virt hK _ hslt),
    if_neg (fun hh => absurd hh.2 (by decide))]
  simp only
  rw [if_neg (fun hh => hh hrc7)]
  exact ⟨_, rfl, (f7.fewer (by omega)).same_pages rfl⟩

end TightProcess

section SetupTheorems

variable {K : Config}

/-- What `vmiter` reports for the copy of a leaf entry and for the entry itself. -/
theorem vmiter_copy (m : Nat → Nat) (pt kpt va ke : Nat) (hal : va % K.PAGESIZE = 0)
    (hc : vm_walk K m 3 pt va = copyEntry ke) (hk : vm_walk K m 3 kpt va = ke) :
    ({ pt := pt, va := va } : vmiter).present K m =
      ({ pt := kpt, va := va } : vmiter).present K m ∧
    ({ pt := pt, va := va } : vmiter).pa K m = ({ pt := kpt, va := va } : vmiter).pa K m ∧
    ({ pt := pt, va := va } : vmiter).perm K m = ({ pt := kpt, va := va } : vmiter).perm K m := by
  obtain ⟨_, _, a3, a4⟩ := vmiter_at (K := K) m pt va _ hc hal
  obtain ⟨_, _, b3, b4⟩ := vmiter_at (K := K) m kpt va _ hk hal
  have a0 := vmiter_present_at (K := K) m pt va _ hc
  have b0 := vmiter_present_at (K := K) m kpt va _ hk
  rw [a0, a3, a4, b0, b3, b4]
  unfold copyEntry
  by_cases hp : hasflag ke PTE_P = true
  · simp only [if_pos hp, and_self]
  · simp only [if_neg hp, hasflag_zero]
    simp [hp]

theorem stack_aligned (hP : 0 < K.PAGESIZE) (hval : K.MEMSIZE_VIRTUAL % K.PAGESIZE = 0)
    (hvs : K.PROC_START_ADDR + K.PAGESIZE ≤ K.MEMSIZE_VIRTUAL) :
    (K.MEMSIZE_VIRTUAL - K.PAGESIZE) % K.PAGESIZE = 0 := by
  obtain ⟨k, hk⟩ := Nat.dvd_of_mod_eq_zero hval
  have hk1 : 1 ≤ k := by
    rcases Nat.eq_zero_or_pos k with h0 | h0
    · rw [h0] at hk; omega
    · exact h0
  obtain ⟨j, hj⟩ : ∃ j, k = j + 1 := ⟨k - 1, by omega⟩
  rw [hk, hj, Nat.mul_add, Nat.mul_one, Nat.add_sub_cancel]
  exact Nat.mul_mod_right _ _

set_option maxRecDepth 1000000 in
/-- Evaluation of `process_setup(1, n)` on the small machine, from the state after
the kernel's initialisation: the copy loop finds the segments of `toyLongProg` in
consecutive frames; `process_setup` of `toyMixProg` returns and maps page 2 writable;
`process_setup` of `badProg 709 647 709` returns, the copy loop does not find its
segment in consecutive frames, and page 5 is mapped writable; `process_setup` of
`toyLowProg` returns, and process 1 maps address 0 to frame 10, the kernel page table
to frame 0. -/
theorem toy_image_facts :
    setupFits toy toyLongEnv 1 0 toyInit ∧
    ((process_setup toy toyMixEnv 1 0 toyInit).isSome = true ∧
      ({ pt := (toyMixSetup.ptable 1).pagetable, va := 64 } : vmiter).writable toy
        toyMixSetup.mem = true) ∧
    ((process_setup toy (badEnv 709 647 709) 1 4 toyInit).isSome = true ∧
      ¬ setupFits toy (badEnv 709 647 709) 1 4 toyInit ∧
      ({ pt := (badSetup.ptable 1).pagetable, va := 160 } : vmiter).writable toy
        badSetup.mem = true) ∧
    ((process_setup toy toyLowEnv 1 0 toyInit).isSome = true ∧
      setupFits toy toyLowEnv 1 0 toyInit ∧
      ({ pt := (toyLowSetup.ptable 1).pagetable, va := 0 } : vmiter).pa toy toyLowSetup.mem
        = 320 ∧
      ({ pt := toy.kernel_pagetable, va := 0 } : vmiter).pa toy toyLowSetup.mem = 0) := by
  decide!

set_option maxRecDepth 1000000 in
/-- Evaluation on the machine `toyGap`: `process_setup(1, 4)` of the Free process 1
returns, the copy loop does not find the segment of `gapProg` in consecutive frames,
and afterwards process 1 maps address 0 while the kernel page table does not. -/
theorem toyGap_facts :
    (kernel_init toyGap gapEnv).isSome = true ∧
    (gapInit.ptable 1).state = procstate.P_FREE ∧
    (process_setup toyGap gapEnv 1 4 gapInit).isSome = true ∧
    ¬ setupFits toyGap gapEnv 1 4 gapInit ∧
    ({ pt := (gapSetup.ptable 1).pagetable, va := 0 } : vmiter).present toyGap gapSetup.mem
      = true ∧
    ({ pt := toyGap.kernel_pagetable, va := 0 } : vmiter).present toyGap gapSetup.mem
      = false := by
  decide!

theorem toyLong_segments (g : segment) (hg : g ∈ (toyLongEnv.programs 0).segments) :
    toy.PROC_START_ADDR ≤ g.va ∧ g.va + g.size ≤ toy.MEMSIZE_VIRTUAL - toy.PAGESIZE ∧
    g.data_size ≤ g.size ∧ 0 < g.size := by
  have : g ∈ toyLongProg.segments := hg
  simp only [toyLongProg, List.mem_cons, List.mem_singleton, List.not_mem_nil, or_false] at this
  rcases this with h | h <;> subst h <;> decide

/-- C29 (as stated): two machines on which a frame behind a mapping below
`PROC_START_ADDR` changes.  (1) On `toyK`, whose kernel region is mapped one to one
and contains allocatable frames, `process_setup(1, 4)` of the Free process 1
returns; afterwards process 1 maps the kernel page at address 64 to frame 2, which
was free before and is owned afterwards (it holds the root page table of process
1).  (2) On `toyGap` the four pages of the program's segment get the frames 8, 9, 17
and 18, which are not consecutive, so the copy loop of `process_setup(1, 4)` clears
128 bytes from frame 8 on, among them the level-4 page of the kernel page table in
frame 11; afterwards the mappings of process 1 below `PROC_START_ADDR` are no longer
those of the kernel page table.  (3) On the small machine the program `toyLowProg`
has a segment at address 0, below `PROC_START_ADDR`, in one page; after
`process_setup(1, 0)` process 1 maps address 0 to the frame of that segment and not
to the frame of the kernel page table. -/
theorem setup_changes_kernel_mapped_frame :
    (process_setup toyK toyKEnv 1 4 toyKInit = some toyKSetup ∧
      (toyKInit.ptable 1).state = procstate.P_FREE ∧
      ¬ setupKeepsKernelFrames toyK toyKInit toyKSetup 1) ∧
    (kernel_init toyGap gapEnv = some gapInit ∧
      (gapInit.ptable 1).state = procstate.P_FREE ∧
      ¬ setupFits toyGap gapEnv 1 4 gapInit ∧
      process_setup toyGap gapEnv 1 4 gapInit = some gapSetup ∧
      ¬ setupCopiesKernel toyGap gapSetup 1) ∧
    (process_setup toy toyLowEnv 1 0 toyInit = some toyLowSetup ∧
      (toyInit.ptable 1).state = procstate.P_FREE ∧
      setupFits toy toyLowEnv 1 0 toyInit ∧
      (∃ g ∈ (toyLowEnv.programs 0).segments, g.va < toy.PROC_START_ADDR) ∧
      ¬ setupCopiesKernel toy toyLowSetup 1) := by
  refine ⟨⟨getD_of_isSome _ _ toyK_setup_runs.2.1, toyK_setup_runs.2.2, fun h => ?_⟩,
    ⟨getD_of_isSome _ _ toyGap_facts.1, toyGap_facts.2.1, toyGap_facts.2.2.2.1,
      getD_of_isSome _ _ toyGap_facts.2.2.1, fun h => ?_⟩,
    getD_of_isSome _ _ toy_image_facts.2.2.2.1, toy_init_facts.2.2, toy_image_facts.2.2.2.2.1,
    ⟨_, List.mem_cons_self _ _, by decide⟩, fun h => ?_⟩
  · have h1 := h 64 (by decide) (by decide) toyK_setup_facts.1
    rw [toyK_setup_facts.2.1] at h1
    have h2 : (64 : Nat) / toyK.PAGESIZE = 2 := by decide
    rw [h2] at h1
    have h3 := congrArg pageinfo.owner h1
    rw [toyK_setup_facts.2.2.1, toyK_setup_facts.2.2.2] at h3
    exact absurd h3 (by decide)
  · have h1 := (h 0 (by decide) (by decide)).1
    rw [toyGap_facts.2.2.2.2.1, toyGap_facts.2.2.2.2.2] at h1
    exact absurd h1 (by decide)
  · have h1 := (h 0 (by decide) (by decide)).2.1
    rw [toy_image_facts.2.2.2.2.2.1, toy_image_facts.2.2.2.2.2.2] at h1
    exact absurd h1 (by decide)

/-- C29 (amended): in a state that satisfies the kernel invariant, for a Free slot
`c < NPROC` and a program whose segments lie between `PROC_START_ADDR` and
`MEMSIZE_VIRTUAL` and are found in consecutive frames by the copy loop:
`process_setup(c, n)` returns if no segment is empty and one frame for the root
table, `TABLES` frames for the other page-table pages, one frame for every page of
every segment and one for the stack are free; and when it returns, at every
page-aligned address below `PROC_START_ADDR` process `c` has the mapping of the
kernel page table (present or not, same physical address, same permissions), the
kernel page table translates these addresses as before the call, and every frame
that was not free before the call, in particular every frame that is not
allocatable, has the owner and sharers count it had. -/
theorem process_setup_copies_kernel (K : Config) (hK : K.Geom) (E : BootEnv) (c n : Nat)
    (s : KState) (role rolek : Roles) (hinv : Inv K s role) (kv : KView K s.mem rolek)
    (hc : (s.ptable c).state = procstate.P_FREE) (hcn : c < K.NPROC)
    (hval : K.MEMSIZE_VIRTUAL % K.PAGESIZE = 0)
    (hvs : K.PROC_START_ADDR + K.PAGESIZE ≤ K.MEMSIZE_VIRTUAL)
    (hseg : ∀ g ∈ (E.programs n).segments,
      K.PROC_START_ADDR ≤ g.va ∧ g.va + g.size ≤ K.MEMSIZE_VIRTUAL ∧ g.data_size ≤ g.size)
    (hfit : setupFits K E c n s) :
    ((∀ g ∈ (E.programs n).segments, 0 < g.size) →
      setupFrames K (E.programs n) ≤ freeCount K s → ∃ t, process_setup K E c n s = some t) ∧
    ∀ t, process_setup K E c n s = some t →
      setupCopiesKernel K t c ∧
      (∀ va, va % K.PAGESIZE = 0 → va < K.PROC_START_ADDR →
        ({ pt := K.kernel_pagetable, va := va } : vmiter).present K t.mem =
          ({ pt := K.kernel_pagetable, va := va } : vmiter).present K s.mem ∧
        ({ pt := K.kernel_pagetable, va := va } : vmiter).pa K t.mem =
          ({ pt := K.kernel_pagetable, va := va } : vmiter).pa K s.mem ∧
        ({ pt := K.kernel_pagetable, va := va } : vmiter).perm K t.mem =
          ({ pt := K.kernel_pagetable, va := va } : vmiter).perm K s.mem) ∧
      (∀ f, ¬ isFreeFrame K s f → t.pages f = s.pages f) ∧
      (∀ f, K.allocatable_physical_address (f * K.PAGESIZE) = false →
        t.pages f = s.pages f) := by
  refine ⟨fun hpos hfree => ?_, fun t ht => ?_⟩
  · obtain ⟨t, ht, _⟩ := process_setup_tight hK E c n
      (fun g hg => ⟨(hseg g hg).1, (hseg g hg).2.1, (hseg g hg).2.2, hpos g hg⟩) hval hvs hinv kv
      hfit (not_live_of_state hc) hcn 0 (FreeN.of_count s _ (by omega))
    exact ⟨t, ht⟩
  obtain ⟨_, _, _, _, _, p6, p7, p8, _, _⟩ := process_setup_fun hK E c n hseg hval hvs hinv kv
    hfit (not_live_of_state hc) hcn t ht
  refine ⟨?_, ?_, p6, ?_⟩
  · intro va hal hlt
    exact vmiter_copy t.mem _ _ va _ hal (p8 va hal hlt) (p7 va)
  · intro va hal _
    obtain ⟨_, _, a3, a4⟩ := vmiter_at (K := K) t.mem K.kernel_pagetable va _ (p7 va) hal
    obtain ⟨_, _, b3, b4⟩ := vmiter_at (K := K) s.mem K.kernel_pagetable va _ rfl hal
    have a0 := vmiter_present_at (K := K) t.mem K.kernel_pagetable va _ (p7 va)
    have b0 := vmiter_present_at (K := K) s.mem K.kernel_pagetable va _ rfl
    rw [a0, a3, a4, b0, b3, b4]
    exact ⟨rfl, rfl, rfl⟩
  · intro f hf
    apply p6
    intro hh
    have := hh.1
    rw [hf] at this
    exact absurd this (by simp)

/-- On the small machine, with 23 free frames after the kernel's initialisation,
`process_setup(1, 0)` of the program `toyLongProg`, whose first segment has two
pages, returns and gives process 1 the mappings of the kernel page table; the frames
that were not free keep owner and sharers count. -/
theorem process_setup_copies_kernel_witness :
    (toyInit.ptable 1).state = procstate.P_FREE ∧
    (toyLongEnv.programs 0).segments.length = 2 ∧
    setupFrames toy (toyLongEnv.programs 0) ≤ freeCount toy toyInit ∧
    ∃ t, process_setup toy toyLongEnv 1 0 toyInit = some t ∧
      setupCopiesKernel toy t 1 ∧
      (∀ f, ¬ isFreeFrame toy toyInit f → t.pages f = toyInit.pages f) := by
  have hi := getD_of_isSome _ zeroState toy_init_facts.1
  obtain ⟨h1, ⟨rolek, h2⟩, _, _⟩ := kernel_init_inv toy_geom toyEnv (some "fork") toy_boot_ok
    toyInit hi
  have hb : setupFrames toy (toyLongEnv.programs 0) ≤ freeCount toy toyInit := by
    rw [toy_init_facts.2.1]
    decide
  have H := process_setup_copies_kernel toy toy_geom toyLongEnv 1 0 toyInit _ rolek h1 h2
    toy_init_facts.2.2 (by decide) (by decide) (by decide)
    (fun g hg => by
      obtain ⟨a1, a2, a3, _⟩ := toyLong_segments g hg
      exact ⟨a1, le_trans a2 (Nat.sub_le _ _), a3⟩)
    toy_image_facts.1
  obtain ⟨t, ht⟩ := H.1 (fun g hg => (toyLong_segments g hg).2.2.2) hb
  exact ⟨toy_init_facts.2.2, rfl, hb, t, ht, (H.2 t ht).1, (H.2 t ht).2.2.1⟩

/-- C28 (as stated): three images whose read-only segment ends up mapped writable.
(1) On the machine `toyK`, `process_setup(1, 4)` of the Free process 1 with the
program `toyKSegProg` returns; the program has a read-only segment that covers the
page at address 352, and afterwards this page is mapped writable: it is the stack
page, which `process_setup` maps last.  (2) On the small machine the three pages of
the read-only segment of `badProg 709 647 709` get frames that are not consecutive,
the copy loop writes the image over a page-table page of the process, and afterwards
the page at address 160 of the segment is mapped writable.  (3) The program
`toyMixProg` has a read-only and a writable segment on the page at address 64;
afterwards the page is mapped writable. -/
theorem setup_maps_readonly_segment_writable :
    (process_setup toyK toyKSegEnv 1 4 toyKInit = some toyKSegSetup ∧
      (toyKInit.ptable 1).state = procstate.P_FREE ∧
      (∃ g ∈ (toyKSegEnv.programs 4).segments,
        g.va / toyK.PAGESIZE * toyK.PAGESIZE = 352 ∧ g.writable = false) ∧
      ({ pt := (toyKSegSetup.ptable 1).pagetable, va := 352 } : vmiter).writable toyK
        toyKSegSetup.mem = true) ∧
    (process_setup toy (badEnv 709 647 709) 1 4 toyInit = some badSetup ∧
      (toyInit.ptable 1).state = procstate.P_FREE ∧
      ¬ setupFits toy (badEnv 709 647 709) 1 4 toyInit ∧
      (∃ g ∈ ((badEnv 709 647 709).programs 4).segments,
        g.va ≤ 160 ∧ 160 < g.va + g.size ∧ g.writable = false) ∧
      ({ pt := (badSetup.ptable 1).pagetable, va := 160 } : vmiter).writable toy
        badSetup.mem = true) ∧
    (process_setup toy toyMixEnv 1 0 toyInit = some toyMixSetup ∧
      ¬ (toyMixEnv.programs 0).segments.Pairwise (segApart toy) ∧
      (∃ g ∈ (toyMixEnv.programs 0).segments,
        g.va ≤ 64 ∧ 64 < g.va + g.size ∧ g.writable = false) ∧
      ({ pt := (toyMixSetup.ptable 1).pagetable, va := 64 } : vmiter).writable toy
        toyMixSetup.mem = true) :=
  ⟨⟨getD_of_isSome _ _ toyK_seg_facts.1, toyK_setup_runs.2.2,
      ⟨_, List.mem_cons_self _ _, by decide, rfl⟩, toyK_seg_facts.2⟩,
    ⟨getD_of_isSome _ _ toy_image_facts.2.2.1.1, toy_init_facts.2.2, toy_image_facts.2.2.1.2.1,
      ⟨_, List.mem_cons_self _ _, by decide, by decide, rfl⟩, toy_image_facts.2.2.1.2.2⟩,
    getD_of_isSome _ _ toy_image_facts.2.1.1, by decide,
      ⟨_, List.mem_cons_self _ _, by decide, by decide, rfl⟩, toy_image_facts.2.1.2⟩

/-- C28 (amended): in a state that satisfies the kernel invariant, for a Free slot
`c < NPROC` and a program whose segments lie between `PROC_START_ADDR` and the stack
page, have no page in common and are found in consecutive frames by the copy loop:
`process_setup(c, n)` returns if no segment is empty and one frame for the root
table, `TABLES` frames for the other page-table pages, one frame for every page of
every segment and one for the stack are free; and when it returns, the process is
Runnable, its saved `reg_rip` is the entry point of the program, its saved `reg_rsp`
is `MEMSIZE_VIRTUAL`, the page at `MEMSIZE_VIRTUAL - PAGESIZE` is mapped present,
writable and user-accessible to a frame that was free before, and the page of every
address of every segment is mapped present and user-accessible, writable exactly if
the segment is writable, to a frame that was free before and that differs from the
stack frame and from the frames of the other pages of the segments. -/
theorem process_setup_builds_process (K : Config) (hK : K.Geom) (E : BootEnv) (c n : Nat)
    (s : KState) (role rolek : Roles) (hinv : Inv K s role) (kv : KView K s.mem rolek)
    (hc : (s.ptable c).state = procstate.P_FREE) (hcn : c < K.NPROC)
    (hval : K.MEMSIZE_VIRTUAL % K.PAGESIZE = 0)
    (hvs : K.PROC_START_ADDR + K.PAGESIZE ≤ K.MEMSIZE_VIRTUAL)
    (hseg : ∀ g ∈ (E.programs n).segments,
      K.PROC_START_ADDR ≤ g.va ∧ g.va + g.size ≤ K.MEMSIZE_VIRTUAL - K.PAGESIZE ∧
      g.data_size ≤ g.size)
    (hpw : (E.programs n).segments.Pairwise (segApart K))
    (hfit : setupFits K E c n s) :
    ((∀ g ∈ (E.programs n).segments, 0 < g.size) →
      setupFrames K (E.programs n) ≤ freeCount K s → ∃ t, process_setup K E c n s = some t) ∧
    ∀ t, process_setup K E c n s = some t →
      (t.ptable c).state = procstate.P_RUNNABLE ∧
      (t.ptable c).regs.reg_rip = (E.programs n).entry ∧
      (t.ptable c).regs.reg_rsp = K.MEMSIZE_VIRTUAL ∧
      (({ pt := (t.ptable c).pagetable, va := K.MEMSIZE_VIRTUAL - K.PAGESIZE } : vmiter).present
          K t.mem = true ∧
        ({ pt := (t.ptable c).pagetable, va := K.MEMSIZE_VIRTUAL - K.PAGESIZE } : vmiter).writable
          K t.mem = true ∧
        ({ pt := (t.ptable c).pagetable, va := K.MEMSIZE_VIRTUAL - K.PAGESIZE } : vmiter).user
          K t.mem = true ∧
        isFreeFrame K s
          (({ pt := (t.ptable c).pagetable, va := K.MEMSIZE_VIRTUAL - K.PAGESIZE } : vmiter).pa
            K t.mem / K.PAGESIZE)) ∧
      ∀ g ∈ (E.programs n).segments, ∀ a, g.va ≤ a → a < g.va + g.size →
        ({ pt := (t.ptable c).pagetable, va := a / K.PAGESIZE * K.PAGESIZE } : vmiter).present
          K t.mem = true ∧
        ({ pt := (t.ptable c).pagetable, va := a / K.PAGESIZE * K.PAGESIZE } : vmiter).user
          K t.mem = true ∧
        ({ pt := (t.ptable c).pagetable, va := a / K.PAGESIZE * K.PAGESIZE } : vmiter).writable
          K t.mem = g.writable ∧
        isFreeFrame K s
          (({ pt := (t.ptable c).pagetable, va := a / K.PAGESIZE * K.PAGESIZE } : vmiter).pa
            K t.mem / K.PAGESIZE) ∧
        ({ pt := (t.ptable c).pagetable, va := a / K.PAGESIZE * K.PAGESIZE } : vmiter).pa
            K t.mem ≠
          ({ pt := (t.ptable c).pagetable, va := K.MEMSIZE_VIRTUAL - K.PAGESIZE } : vmiter).pa
            K t.mem ∧
        ∀ g2 ∈ (E.programs n).segments, ∀ a2, g2.va ≤ a2 → a2 < g2.va + g2.size →
          a2 / K.PAGESIZE ≠ a / K.PAGESIZE →
          ({ pt := (t.ptable c).pagetable, va := a2 / K.PAGESIZE * K.PAGESIZE } : vmiter).pa
              K t.mem ≠
            ({ pt := (t.ptable c).pagetable, va := a / K.PAGESIZE * K.PAGESIZE } : vmiter).pa
              K t.mem := by
  have hP := hK.page_pos
  have hseg2 : ∀ g ∈ (E.programs n).segments,
      K.PROC_START_ADDR ≤ g.va ∧ g.va + g.size ≤ K.MEMSIZE_VIRTUAL ∧ g.data_size ≤ g.size :=
    fun g hg => ⟨(hseg g hg).1, by have := (hseg g hg).2.1; omega, (hseg g hg).2.2⟩
  refine ⟨fun hpos hfree => ?_, fun t ht => ?_⟩
  · obtain ⟨t, ht, _⟩ := process_setup_tight hK E c n
      (fun g hg => ⟨(hseg2 g hg).1, (hseg2 g hg).2.1, (hseg2 g hg).2.2, hpos g hg⟩) hval hvs
      hinv kv hfit (not_live_of_state hc) hcn 0 (FreeN.of_count s _ (by omega))
    exact ⟨t, ht⟩
  obtain ⟨⟨role2, hi2, _⟩, p2, _, _, p5, _, _, _, ⟨fs, hfs, hes⟩, p10⟩ :=
    process_setup_fun hK E c n hseg2 hval hvs hinv kv hfit (not_live_of_state hc) hcn t ht
  have hl : t.live c := by
    unfold KState.live
    rw [p2]
    decide
  have hsp := (hi2.spaces c hl).2
  have hsa := stack_aligned hP hval hvs
  have hslt : K.MEMSIZE_VIRTUAL - K.PAGESIZE < K.MEMSIZE_VIRTUAL := by omega
  have hstk : K.MEMSIZE_VIRTUAL - K.PAGESIZE < K.VA_SPAN := lt_span_of_lt_virt hK _ hslt
  have hsa2 := aligned_eq (K := K) _ hsa
  have hspan : ∀ g ∈ (E.programs n).segments, ∀ a, a < g.va + g.size → a < K.VA_SPAN :=
    fun g hg a ha => lt_span_of_lt_virt hK _ (by have := hseg2 g hg; omega)
  -- the leaf entry of the page of an address of a segment
  have hview : ∀ g ∈ (E.programs n).segments, ∀ a, g.va ≤ a → a < g.va + g.size →
      ∃ f, isFreeFrame K s f ∧
      t.ent K c (a / K.PAGESIZE * K.PAGESIZE) = f * K.PAGESIZE + segPerm g.writable ∧
      t.ent K c a = f * K.PAGESIZE + segPerm g.writable := by
    intro g hg a ha1 ha2
    obtain ⟨f, w, hf, he, hw⟩ := p10 g hg (a - g.va) (by omega)
      (by have := (hseg g hg).2.1; omega)
    have hga : g.va + (a - g.va) = a := by omega
    rw [hga, hw hpw] at he
    exact ⟨f, hf, by rw [ent_samePage t c _ _ (samePage_round hK a)]; exact he, he⟩
  have hes2 : t.ent K c (K.MEMSIZE_VIRTUAL - K.PAGESIZE) = fs * K.PAGESIZE + segPerm true := hes
  obtain ⟨s1, s2, s3, s4⟩ := vmiter_of_entry hK t.mem (t.ptable c).pagetable
    (K.MEMSIZE_VIRTUAL - K.PAGESIZE) fs (segPerm true) hsa (segPerm_lt hK true) hes2
  obtain ⟨ft1, ft2, ft3⟩ := segPerm_flags true
  rw [ft1] at s1 s2 s3 s4
  rw [ft2] at s3
  rw [ft3] at s2
  rw [if_pos rfl] at s4
  have hus : userPresent (t.ent K c (K.MEMSIZE_VIRTUAL - K.PAGESIZE)) := by
    rw [hes2]; exact userPresent_seg hK fs true
  have hncs := not_console_above hK _ hstk (by omega : K.PROC_START_ADDR ≤
    K.MEMSIZE_VIRTUAL - K.PAGESIZE)
  refine ⟨p2, by rw [p5], by rw [p5], ⟨s1, s2, s3, by rw [s4, frame_mul hP]; exact hfs⟩, ?_⟩
  intro g hg a ha1 ha2
  obtain ⟨f, hf, hea, heg⟩ := hview g hg a ha1 ha2
  obtain ⟨g1, g2, g3, g4⟩ := vmiter_of_entry hK t.mem (t.ptable c).pagetable
    (a / K.PAGESIZE * K.PAGESIZE) f (segPerm g.writable) (Nat.mul_mod_left _ _)
    (segPerm_lt hK g.writable) hea
  obtain ⟨fg1, fg2, fg3⟩ := segPerm_flags g.writable
  rw [fg1] at g1 g2 g3 g4
  rw [fg2] at g3
  rw [fg3] at g2
  rw [if_pos rfl] at g4
  have hug : userPresent (t.ent K c a) := by
    rw [heg]; exact userPresent_seg hK f g.writable
  have hncg := not_console_above hK a (hspan g hg a ha2) (le_trans (hseg g hg).1 ha1)
  have hfr : t.ent K c a / K.PAGESIZE = f := by
    rw [heg]; exact frame_add hP f _ (segPerm_lt hK g.writable)
  refine ⟨g1, g3, by rw [g2]; simp, by rw [g4, frame_mul hP]; exact hf, ?_, ?_⟩
  · rw [g4, s4]
    intro hh
    have hff : f = fs := Nat.eq_of_mul_eq_mul_right hP hh
    have hsm := hsp.inj a (K.MEMSIZE_VIRTUAL - K.PAGESIZE) hug hus hncg hncs (by
      rw [hfr, hes2, frame_add hP fs _ (segPerm_lt hK true), hff])
    refine not_samePage_lt hK a _ hstk ?_ hsm
    rw [Nat.div_lt_iff_lt_mul hP, hsa2]
    have := (hseg g hg).2.1
    omega
  · intro g2' hg2 a2 hb1 hb2 hne
    obtain ⟨f2, _, hea2, heg2⟩ := hview g2' hg2 a2 hb1 hb2
    obtain ⟨_, _, _, k4⟩ := vmiter_of_entry hK t.mem (t.ptable c).pagetable
      (a2 / K.PAGESIZE * K.PAGESIZE) f2 (segPerm g2'.writable) (Nat.mul_mod_left _ _)
      (segPerm_lt hK g2'.writable) hea2
    rw [(segPerm_flags g2'.writable).1, if_pos rfl] at k4
    rw [k4, g4]
    intro hh
    have hff : f2 = f := Nat.eq_of_mul_eq_mul_right hP hh
    have hug2 : userPresent (t.ent K c a2) := by
      rw [heg2]; exact userPresent_seg hK f2 g2'.writable
    have hsm := hsp.inj a2 a hug2 hug
      (not_console_above hK a2 (hspan g2' hg2 a2 hb2) (le_trans (hseg g2' hg2).1 hb1)) hncg (by
        rw [hfr, heg2, frame_add hP f2 _ (segPerm_lt hK g2'.writable), hff])
    rw [samePage_iff hK, vpn_of_lt hK _ (hspan g2' hg2 a2 hb2),
      vpn_of_lt hK _ (hspan g hg a ha2)] at hsm
    exact hne hsm

/-- On the small machine, with 23 free frames after the kernel's initialisation,
`process_setup(1, 0)` of the program `toyLongProg`, with a read-only segment of two
pages and a writable segment, returns and makes process 1 Runnable, with entry point
64 and stack pointer 256; the second page of the read-only segment is mapped
read-only, to another frame than the first, and the page of the writable segment is
mapped writable. -/
theorem process_setup_builds_process_witness :
    (toyInit.ptable 1).state = procstate.P_FREE ∧
    setupFrames toy (toyLongEnv.programs 0) ≤ freeCount toy toyInit ∧
    ∃ t, process_setup toy toyLongEnv 1 0 toyInit = some t ∧
      (t.ptable 1).state = procstate.P_RUNNABLE ∧
      (t.ptable 1).regs.reg_rip = (toyLongEnv.programs 0).entry ∧
      (t.ptable 1).regs.reg_rsp = toy.MEMSIZE_VIRTUAL ∧
      ({ pt := (t.ptable 1).pagetable, va := toy.MEMSIZE_VIRTUAL - toy.PAGESIZE } : vmiter).writable
        toy t.mem = true ∧
      ({ pt := (t.ptable 1).pagetable, va := 96 } : vmiter).present toy t.mem = true ∧
      ({ pt := (t.ptable 1).pagetable, va := 96 } : vmiter).writable toy t.mem = false ∧
      ({ pt := (t.ptable 1).pagetable, va := 64 } : vmiter).pa toy t.mem ≠
        ({ pt := (t.ptable 1).pagetable, va := 96 } : vmiter).pa toy t.mem ∧
      ({ pt := (t.ptable 1).pagetable, va := 160 } : vmiter).writable toy t.mem = true := by
  have hi := getD_of_isSome _ zeroState toy_init_facts.1
  obtain ⟨h1, ⟨rolek, h2⟩, _, _⟩ := kernel_init_inv toy_geom toyEnv (some "fork") toy_boot_ok
    toyInit hi
  have hb : setupFrames toy (toyLongEnv.programs 0) ≤ freeCount toy toyInit := by
    rw [toy_init_facts.2.1]
    decide
  have H := process_setup_builds_process toy toy_geom toyLongEnv 1 0 toyInit _ rolek h1 h2
    toy_init_facts.2.2 (by decide) (by decide) (by decide)
    (fun g hg => by
      obtain ⟨a1, a2, a3, _⟩ := toyLong_segments g hg
      exact ⟨a1, a2, a3⟩)
    (by decide) toy_image_facts.1
  obtain ⟨t, ht⟩ := H.1 (fun g hg => (toyLong_segments g hg).2.2.2) hb
  obtain ⟨a1, a2, a3, ⟨_, a4, _⟩, a5⟩ := H.2 t ht
  obtain ⟨b1, _, b3, _, _, b6⟩ := a5 _ (List.mem_cons_self _ _) 100 (by decide) (by decide)
  obtain ⟨_, _, c3, _⟩ := a5 _ (List.mem_cons_of_mem _ (List.mem_cons_self _ _)) 170
    (by decide) (by decide)
  have b7 := b6 _ (List.mem_cons_self _ _) 70 (by decide) (by decide) (by decide)
  exact ⟨toy_init_facts.2.2, hb, t, ht, a1, a2, a3, a4, b1, b3, b7, c3⟩

end SetupTheorems

section FourSetups

variable {K : Config}

end FourSetups

end Weensy

namespace M61

theorem overflowed_pos (a b : Nat) (ha : 0 < a) :
    overflowed a b = some (decide (2 ^ 64 ≤ a * b)) := by
  unfold overflowed
  simp only [if_neg (Nat.pos_iff_ne_zero.1 ha), Option.some.injEq, decide_eq_decide]
  constructor
  · intro h
    by_contra hlt
    have hlt1 : a * b < 2 ^ 64 := Nat.lt_of_not_le hlt
    rw [Nat.mod_eq_of_lt hlt1, Nat.mul_div_cancel_left b ha] at h
    exact h rfl
  · intro h he
    have h1 : a * (a * b % 2 ^ 64 / a) ≤ a * b % 2 ^ 64 := Nat.mul_div_le _ _
    rw [he] at h1
    have h2 : a * b % 2 ^ 64 < 2 ^ 64 := Nat.mod_lt _ (by decide)
    omega

/-- C40: `overflowed(a, b)` divides by `a`, so for `a == 0` its behaviour is
undefined, and with it that of `m61_calloc(0, sz)`.  For `a > 0` the result is true
exactly when the product does not fit in 64 bits.  A pair whose product fits can
still make `m61_calloc` return `nullptr`: `m61_calloc(1, 2^64 - 1)` fails inside
`m61_malloc`. -/
theorem overflowed_divides_by_zero :
    (∀ b, overflowed 0 b = none) ∧
    (∀ E g sz, m61_calloc E g 0 sz = none) ∧
    (∀ a b, 0 < a → overflowed a b = some (decide (2 ^ 64 ≤ a * b))) ∧
    overflowed 1 (2 ^ 64 - 1) = some false ∧
    (m61_calloc env0 gstats0 1 (2 ^ 64 - 1)).map Prod.fst = some 0 := by
  refine ⟨fun b => rfl, fun E g sz => rfl, fun a b ha => overflowed_pos a b ha, ?_, ?_⟩
  · decide
  · decide

/-- The check is right for `overflowed(3, 5)`: the product fits. -/
theorem overflowed_divides_by_zero_witness :
    overflowed 3 5 = some (decide (2 ^ 64 ≤ 3 * 5)) :=
  overflowed_divides_by_zero.2.2.1 3 5 (by decide)

end M61

namespace Io61

theorem wrap32_small (x : Int) (h0 : 0 ≤ x) (h1 : x < 2 ^ 31) : wrap32 x = x := by
  unfold wrap32
  omega

theorem aligned_small (pos : Int) (h0 : 0 ≤ pos) (h1 : pos < 2 ^ 31) :
    wrap32 (wrap32 pos - Int.tmod pos BUFSIZE) = pos - pos % 4096 := by
  have ht : Int.tmod pos BUFSIZE = pos % 4096 := by
    unfold BUFSIZE
    exact Int.tmod_eq_emod h0 (by decide)
  rw [wrap32_small pos h0 h1, ht, wrap32_small _ (by omega) (by omega)]

theorem fill_at_boundary (w : OsFile) (f : io61_file) (al : Int) (hal : 0 ≤ al)
    (hb : f.bufsize = BUFSIZE) :
    ∃ w2 f2, io61_fill (sys_lseek w al).1
        { f with end_tag := al, pos_tag := al, tag := al } = some (w2, f2) ∧
      f2.bufsize = BUFSIZE ∧ f2.tag = al ∧ al ≤ f2.end_tag ∧
      (f2.end_tag ≤ al ∨ f2.end_tag ≤ w.data.length) := by
  have hls : (sys_lseek w al).1 = { w with off := al.toNat } := by
    unfold sys_lseek
    rw [if_neg (by omega)]
  rw [hls]
  unfold io61_fill
  have hi1 : invariant { f with end_tag := al, pos_tag := al, tag := al } := by
    unfold invariant
    simp only [hb, BUFSIZE]
    omega
  rw [if_neg (not_not.2 hi1)]
  simp only [sys_read, hb, BUFSIZE, ge_iff_le, Nat.cast_nonneg, if_true, List.length_take,
    List.length_drop]
  have hn : ((min (Int.toNat 4096) (w.data.length - al.toNat) : Nat) : Int) ≤ 4096 := by
    have : Int.toNat 4096 = 4096 := rfl
    rw [this]
    omega
  rw [if_neg]
  · refine ⟨_, _, rfl, rfl, rfl, ?_, ?_⟩
    · show al ≤ al + _
      omega
    · show al + _ ≤ al ∨ al + _ ≤ _
      have : Int.toNat 4096 = 4096 := rfl
      rw [this]
      omega
  · rw [not_not]
    unfold invariant
    simp only
    omega

/-- C38: `io61_seek` on a read cache to a position beyond the end of the file that is
not a multiple of 4096 and lies outside the cached range returns 0 with `pos_tag`
beyond `end_tag`: the invariant is broken, and the assertions at the start of the
next `io61_fill` or `io61_read` fail. -/
theorem seek_beyond_end_breaks_invariant (w : OsFile) (f : io61_file) (pos : Int)
    (hm : f.mode ≠ O_WRONLY) (hb : f.bufsize = BUFSIZE) (hinv : invariant f)
    (h0 : 0 ≤ pos) (h31 : pos < 2 ^ 31) (hout : f.end_tag < pos)
    (hlen : (w.data.length : Int) < pos) (hna : pos % 4096 ≠ 0) :
    ∃ w1 f1, io61_seek w f pos = some (w1, f1, 0) ∧ f1.tag ≤ f1.end_tag ∧
      f1.end_tag < f1.pos_tag ∧ ¬ invariant f1 ∧
      io61_fill w1 f1 = none ∧ ∀ sz, io61_read w1 f1 sz = none := by
  have hcache := hinv.1
  obtain ⟨w2, f2, hf, _, ht, hle, hend⟩ :=
    fill_at_boundary w f (pos - pos % 4096) (by omega) hb
  have hbad : ¬ invariant { f2 with pos_tag := pos } := by
    unfold invariant
    simp only
    omega
  refine ⟨w2, { f2 with pos_tag := pos }, ?_, ?_, ?_, hbad, ?_, ?_⟩
  · unfold io61_seek
    rw [if_neg hm, if_neg (by omega)]
    simp only [aligned_small pos h0 h31, hf]
  · show f2.tag ≤ f2.end_tag
    omega
  · show f2.end_tag < pos
    omega
  · unfold io61_fill
    rw [if_pos hbad]
  · intro sz
    unfold io61_read
    rw [if_pos hbad]

/-- A fresh read cache on a file of ten bytes: `io61_seek(f, 100)` returns 0 and
leaves a cache on which `io61_fill` and `io61_read` fail their assertions. -/
theorem seek_beyond_end_breaks_invariant_witness :
    invariant freshReader ∧
    ∃ w1 f1, io61_seek tenBytes freshReader 100 = some (w1, f1, 0) ∧ f1.tag ≤ f1.end_tag ∧
      f1.end_tag < f1.pos_tag ∧ ¬ invariant f1 ∧
      io61_fill w1 f1 = none ∧ ∀ sz, io61_read w1 f1 sz = none :=
  ⟨by decide, seek_beyond_end_breaks_invariant tenBytes freshReader 100 (by decide) rfl
    (by decide) (by decide) (by decide) (by decide) (by decide) (by decide)⟩

theorem flush_empty (w : OsFile) (f : io61_file) (hi : invariant f) (he : f.pos_tag = f.tag) :
    io61_flush w f = some (w, { f with tag := f.pos_tag, is_dirty := false }, 0) := by
  unfold io61_flush
  rw [if_neg (not_not.2 hi)]
  simp [he, sys_write]

/-- C39: `io61_writec` does not mark the cache dirty, so on a clean write cache that
is not full a byte accepted by `io61_writec` is dropped by the `io61_seek` that
follows: the seek returns 0, the file has the bytes it had before `io61_writec`, the
cache is empty at the new position, and a later `io61_flush` writes nothing. -/
theorem writec_then_seek_drops_byte (w : OsFile) (f : io61_file) (ch : Nat) (pos : Int)
    (hm : f.mode = O_WRONLY) (hd : f.is_dirty = false)
    (hfull : f.end_tag ≠ f.tag + f.bufsize) (hlo : f.tag ≤ f.pos_tag)
    (hhi : f.pos_tag - f.tag < BUFSIZE) (hb : 0 ≤ f.bufsize) (hpos : 0 ≤ pos) :
    ∃ f1 w2 f2, io61_writec w f ch = some (w, f1, 0) ∧
      f1.cbuf (f.pos_tag - f.tag).toNat = ch % 256 ∧ f1.pos_tag = f.pos_tag + 1 ∧
      io61_seek w f1 pos = some (w2, f2, 0) ∧ w2.data = w.data ∧
      f2.tag = pos ∧ f2.pos_tag = pos ∧ f2.end_tag = pos ∧
      (io61_flush w2 f2).map (fun r => r.1.data) = some w.data := by
  have hw : io61_writec w f ch = some (w,
      { f with cbuf := fun j => if j = (f.pos_tag - f.tag).toNat then ch % 256 else f.cbuf j,
               pos_tag := f.pos_tag + 1, end_tag := f.end_tag + 1 }, 0) := by
    unfold io61_writec
    rw [if_neg hfull]
    simp only
    rw [if_neg (by omega)]
  have hl : sys_lseek w pos = ({ w with off := pos.toNat }, pos) := by
    unfold sys_lseek
    rw [if_neg (by omega)]
  refine ⟨_, { w with off := pos.toNat },
    { f with cbuf := fun j => if j = (f.pos_tag - f.tag).toNat then ch % 256 else f.cbuf j,
             pos_tag := pos, end_tag := pos, tag := pos },
    hw, ?_, rfl, ?_, rfl, rfl, rfl, rfl, ?_⟩
  · simp
  · unfold io61_seek
    simp only [hm, hd, if_true, Bool.false_eq_true, if_false, hl]
  · rw [flush_empty]
    · rfl
    · unfold invariant
      simp only
      omega
    · rfl

/-- On an empty file with a fresh write cache: after `io61_writec(f, 120)` and
`io61_seek(f, 5)` the file is still empty and nothing is left to flush. -/
theorem writec_then_seek_drops_byte_witness :
    ∃ f1 w2 f2, io61_writec emptyFile freshWriter 120 = some (emptyFile, f1, 0) ∧
      f1.cbuf (freshWriter.pos_tag - freshWriter.tag).toNat = 120 % 256 ∧
      f1.pos_tag = freshWriter.pos_tag + 1 ∧
      io61_seek emptyFile f1 5 = some (w2, f2, 0) ∧ w2.data = emptyFile.data ∧
      f2.tag = 5 ∧ f2.pos_tag = 5 ∧ f2.end_tag = 5 ∧
      (io61_flush w2 f2).map (fun r => r.1.data) = some emptyFile.data :=
  writec_then_seek_drops_byte emptyFile freshWriter 120 5 rfl rfl (by decide) (by decide)
    (by decide) (by decide) (by decide)

end Io61

namespace Pong

@[simp] theorem setBall_width (b : pong_board) (r v : Option Nat) :
    (b.setBall r v).width_ = b.width_ := by
  cases r <;> rfl

@[simp] theorem setBall_height (b : pong_board) (r v : Option Nat) :
    (b.setBall r v).height_ = b.height_ := by
  cases r <;> rfl

theorem setBall_cellRef (b : pong_board) (r v : Option Nat) (x y : Int) :
    (b.setBall r v).cellRef x y = b.cellRef x y := by
  unfold pong_board.cellRef
  simp

theorem get_setBall_same (b : pong_board) (r v : Option Nat) :
    ((b.setBall r v).get r).ball_ = v := by
  cases r <;> simp [pong_board.setBall, pong_board.get]

theorem get_setBall_other (b : pong_board) (r q v : Option Nat) (h : q ≠ r) :
    (b.setBall r v).get q = b.get q := by
  cases r with
  | none =>
    cases q with
    | none => exact absurd rfl h
    | some j => rfl
  | some i =>
    cases q with
    | none => rfl
    | some j =>
      have hji : j ≠ i := fun e => h (by rw [e])
      simp [pong_board.setBall, pong_board.get, hji]

/-- Two positions on the board with the same cell are the same position. -/
theorem cellRef_inj (b : pong_board) (x y x1 y1 : Int) (i : Nat)
    (h : b.cellRef x y = some i) (h1 : b.cellRef x1 y1 = some i) : x = x1 ∧ y = y1 := by
  unfold pong_board.cellRef at h h1
  by_cases hc : x < 0 ∨ x ≥ b.width_ ∨ y < 0 ∨ y ≥ b.height_
  · rw [if_pos hc] at h; exact absurd h (by simp)
  by_cases hc1 : x1 < 0 ∨ x1 ≥ b.width_ ∨ y1 < 0 ∨ y1 ≥ b.height_
  · rw [if_pos hc1] at h1; exact absurd h1 (by simp)
  rw [if_neg hc] at h
  rw [if_neg hc1] at h1
  simp only [Option.some.injEq] at h h1
  simp only [not_or, not_lt, ge_iff_le, not_le] at hc hc1
  have hy : 0 ≤ y * b.width_ := mul_nonneg hc.2.2.1 (by omega)
  have hy1 : 0 ≤ y1 * b.width_ := mul_nonneg hc1.2.2.1 (by omega)
  have he : y * b.width_ + x = y1 * b.width_ + x1 := by omega
  have hyy : y = y1 := by
    rcases lt_trichotomy y y1 with hl | hl | hl
    · have : (y1 - y - 1) * b.width_ ≥ 0 := mul_nonneg (by omega) (by omega)
      nlinarith
    · exact hl
    · have : (y - y1 - 1) * b.width_ ≥ 0 := mul_nonneg (by omega) (by omega)
      nlinarith
  subst hyy
  exact ⟨by omega, rfl⟩

theorem bounced_nonzero (board : pong_board) (b : pong_ball) (h : ¬ (b.dx_ = 0 ∧ b.dy_ = 0)) :
    ¬ ((bounced board b).1 = 0 ∧ (bounced board b).2 = 0) := by
  unfold bounced
  simp only
  intro hh
  apply h
  constructor
  · have := hh.1
    split at this <;> omega
  · have := hh.2
    split at this <;> omega

theorem setBallAt_same (h : Nat → pong_ball) (a : Nat) (v : pong_ball) :
    setBallAt h a v a = v := by
  simp [setBallAt]

theorem setBallAt_pos (h0 h : Nat → pong_ball) (a : Nat) (v : pong_ball)
    (hp : ∀ j, (h j).x_ = (h0 j).x_ ∧ (h j).y_ = (h0 j).y_)
    (hx : v.x_ = (h a).x_) (hy : v.y_ = (h a).y_) :
    ∀ j, (setBallAt h a v j).x_ = (h0 j).x_ ∧ (setBallAt h a v j).y_ = (h0 j).y_ := by
  intro j
  unfold setBallAt
  by_cases hj : j = a
  · rw [if_pos hj, hx, hy, hj]
    exact hp a
  · rw [if_neg hj]
    exact hp j

theorem collide_pos (h : Nat → pong_ball) (this o j : Nat) :
    (collide h this o j).x_ = (h j).x_ ∧ (collide h this o j).y_ = (h j).y_ := by
  have h1 : ∀ j, (collideX h this o j).x_ = (h j).x_ ∧ (collideX h this o j).y_ = (h j).y_ := by
    unfold collideX
    by_cases hc : (h o).dx_ ≠ (h this).dx_
    · rw [if_pos hc]
      exact setBallAt_pos h _ _ _
        (setBallAt_pos h h _ _ (fun _ => ⟨rfl, rfl⟩) rfl rfl) rfl rfl
    · rw [if_neg hc]
      exact fun _ => ⟨rfl, rfl⟩
  unfold collide
  generalize collideX h this o = h2 at h1 ⊢
  unfold collideY
  by_cases hc : (h2 o).dy_ ≠ (h2 this).dy_
  · rw [if_pos hc]
    refine setBallAt_pos h _ _ _ (setBallAt_pos h _ _ _ h1 ?_ ?_) ?_ ?_ j <;> rfl
  · rw [if_neg hc]
    exact h1 j

/-- C33 (amended): for every board whose off-board cell is an obstacle and every ball
stored in its cell for which the nine mutexes of lines 98-106 lie inside `mutexes_`
and are pairwise different, `move()` (called by a thread that holds no mutex, no
other thread at work) returns; it returns true exactly when the position of the ball
changed.  When it returns true the ball has moved by its direction as
reflected at lines 117-124 (`bounced`) into an on-board cell that is no obstacle and
no paddle and held no ball; the old cell has no ball, the new cell has this ball, and
the direction of the ball is then zero if the new cell is sticky and the reflected
direction otherwise.  When it returns false the position of the ball and the `ball_`
of every cell are as before. -/
theorem move_moves_by_bounced_direction (g : Game) (this : Nat)
    (hobst : g.board.obstacle_cell_.type_ = pong_celltype.cell_obstacle)
    (hlock : locksTaken g.board (g.balls this).x_ = true)
    (hst : (g.board.cell (g.balls this).x_ (g.balls this).y_).ball_ = some this) :
    ∃ r g1, pong_ball.move g this = some (r, g1) ∧
      (r = true ↔ ¬ ((g1.balls this).x_ = (g.balls this).x_ ∧
                     (g1.balls this).y_ = (g.balls this).y_)) ∧
      (r = true →
        (g1.balls this).x_ = (g.balls this).x_ + (bounced g.board (g.balls this)).1 ∧
        (g1.balls this).y_ = (g.balls this).y_ + (bounced g.board (g.balls this)).2 ∧
        (0 ≤ (g1.balls this).x_ ∧ (g1.balls this).x_ < g.board.width_ ∧
          0 ≤ (g1.balls this).y_ ∧ (g1.balls this).y_ < g.board.height_) ∧
        (g.board.cell (g1.balls this).x_ (g1.balls this).y_).type_
          ≠ pong_celltype.cell_obstacle ∧
        (g.board.cell (g1.balls this).x_ (g1.balls this).y_).type_
          ≠ pong_celltype.cell_paddle ∧
        (g.board.cell (g1.balls this).x_ (g1.balls this).y_).ball_ = none ∧
        (g1.board.cell (g.balls this).x_ (g.balls this).y_).ball_ = none ∧
        (g1.board.cell (g1.balls this).x_ (g1.balls this).y_).ball_ = some this ∧
        ((g1.balls this).dx_, (g1.balls this).dy_) =
          (if (g.board.cell (g1.balls this).x_ (g1.balls this).y_).type_
              = pong_celltype.cell_sticky then (0, 0)
           else bounced g.board (g.balls this))) ∧
      (r = false →
        (g1.balls this).x_ = (g.balls this).x_ ∧ (g1.balls this).y_ = (g.balls this).y_ ∧
        ∀ x y, (g1.board.cell x y).ball_ = (g.board.cell x y).ball_) := by
  have hst1 : (g.board.get (g.board.cellRef (g.balls this).x_ (g.balls this).y_)).ball_
      = some this := hst
  unfold pong_ball.move
  simp only [hlock, Bool.true_eq_false, hst1, ne_eq, not_true_eq_false, if_false]
  by_cases hz : (g.balls this).dx_ = 0 ∧ (g.balls this).dy_ = 0
  · rw [if_pos hz]
    refine ⟨false, g, rfl, ?_, ?_, ?_⟩
    · simp
    · intro h; exact absurd h (by simp)
    · intro _; exact ⟨rfl, rfl, fun _ _ => rfl⟩
  rw [if_neg hz]
  have hnz := bounced_nonzero g.board (g.balls this) hz
  cases hnb : (g.board.get (g.board.cellRef
      ((g.balls this).x_ + (bounced g.board (g.balls this)).1)
      ((g.balls this).y_ + (bounced g.board (g.balls this)).2))).ball_ with
  | some o =>
    simp only
    refine ⟨false, _, rfl, ?_, ?_, ?_⟩
    · have hp := collide_pos (setBallAt g.balls this
        { (g.balls this) with dx_ := (bounced g.board (g.balls this)).1,
                              dy_ := (bounced g.board (g.balls this)).2 }) this o this
      simp only [setBallAt_same] at hp
      simp [hp.1, hp.2]
    · intro h; exact absurd h (by simp)
    · intro _
      have hp := collide_pos (setBallAt g.balls this
        { (g.balls this) with dx_ := (bounced g.board (g.balls this)).1,
                              dy_ := (bounced g.board (g.balls this)).2 }) this o this
      simp only [setBallAt_same] at hp
      exact ⟨hp.1, hp.2, fun _ _ => rfl⟩
  | none =>
    simp only
    by_cases hbl : blocks (g.board.get (g.board.cellRef
        ((g.balls this).x_ + (bounced g.board (g.balls this)).1)
        ((g.balls this).y_ + (bounced g.board (g.balls this)).2))).type_ = true
    · rw [if_pos hbl]
      refine ⟨false, _, rfl, ?_, ?_, ?_⟩
      · simp [setBallAt_same]
      · intro h; exact absurd h (by simp)
      · intro _
        exact ⟨by simp [setBallAt_same], by simp [setBallAt_same], fun _ _ => rfl⟩
    · rw [if_neg hbl]
      have hty : (g.board.get (g.board.cellRef
          ((g.balls this).x_ + (bounced g.board (g.balls this)).1)
          ((g.balls this).y_ + (bounced g.board (g.balls this)).2))).type_
            ≠ pong_celltype.cell_obstacle ∧
          (g.board.get (g.board.cellRef
          ((g.balls this).x_ + (bounced g.board (g.balls this)).1)
          ((g.balls this).y_ + (bounced g.board (g.balls this)).2))).type_
            ≠ pong_celltype.cell_paddle := by
        unfold blocks at hbl
        simp only [decide_eq_true_eq, not_or] at hbl
        exact hbl
      cases hnx : g.board.cellRef
          ((g.balls this).x_ + (bounced g.board (g.balls this)).1)
          ((g.balls this).y_ + (bounced g.board (g.balls this)).2) with
      | none =>
        rw [hnx] at hty
        exact absurd hobst hty.1
      | some i =>
        have hon : 0 ≤ (g.balls this).x_ + (bounced g.board (g.balls this)).1 ∧
            (g.balls this).x_ + (bounced g.board (g.balls this)).1 < g.board.width_ ∧
            0 ≤ (g.balls this).y_ + (bounced g.board (g.balls this)).2 ∧
            (g.balls this).y_ + (bounced g.board (g.balls this)).2 < g.board.height_ := by
          unfold pong_board.cellRef at hnx
          by_cases hc : (g.balls this).x_ + (bounced g.board (g.balls this)).1 < 0 ∨
              (g.balls this).x_ + (bounced g.board (g.balls this)).1 ≥ g.board.width_ ∨
              (g.balls this).y_ + (bounced g.board (g.balls this)).2 < 0 ∨
              (g.balls this).y_ + (bounced g.board (g.balls this)).2 ≥ g.board.height_
          · rw [if_pos hc] at hnx; exact absurd hnx (by simp)
          · simp only [not_or, not_lt, ge_iff_le, not_le] at hc
            exact ⟨hc.1, hc.2.1, hc.2.2.1, hc.2.2.2⟩
        have hne : g.board.cellRef (g.balls this).x_ (g.balls this).y_ ≠ some i := by
          intro he
          obtain ⟨h1, h2⟩ := cellRef_inj g.board _ _ _ _ i he hnx
          exact hnz ⟨by omega, by omega⟩
        rw [hnx] at hty hnb
        refine ⟨true, _, rfl, ?_, ?_, ?_⟩
        · simp only [setBallAt_same, true_iff]
          intro hh
          exact hnz ⟨by omega, by omega⟩
        · intro _
          simp only [setBallAt_same, true_and]
          refine ⟨hon, ?_, ?_, ?_, ?_, ?_, ?_⟩
          · show (g.board.get (g.board.cellRef _ _)).type_ ≠ _
            rw [hnx]; exact hty.1
          · show (g.board.get (g.board.cellRef _ _)).type_ ≠ _
            rw [hnx]; exact hty.2
          · show (g.board.get (g.board.cellRef _ _)).ball_ = _
            rw [hnx]; exact hnb
          · show (pong_board.get _ (pong_board.cellRef _ _ _)).ball_ = none
            rw [setBall_cellRef, setBall_cellRef, get_setBall_other _ _ _ _ hne,
              get_setBall_same]
          · show (pong_board.get _ (pong_board.cellRef _ _ _)).ball_ = some this
            rw [setBall_cellRef, setBall_cellRef, hnx, get_setBall_same]
          · have hcell : (g.board.cell ((g.balls this).x_ + (bounced g.board (g.balls this)).1)
                ((g.balls this).y_ + (bounced g.board (g.balls this)).2)) = g.board.get (some i) := by
              unfold pong_board.cell
              rw [hnx]
            rw [hcell]
            by_cases hs : (g.board.get (some i)).type_ = pong_celltype.cell_sticky
            · simp [hs]
            · simp [hs]
        · intro h; exact absurd h (by simp)

/-- On a board of three by three empty cells the ball in the middle with direction
(1, 1) is stored in its cell and its nine mutexes are different ones of the array,
and `move()` behaves as the theorem says. -/
theorem move_moves_by_bounced_direction_witness :
    locksTaken openGame.board (openGame.balls 7).x_ = true ∧
    (openGame.board.cell (openGame.balls 7).x_ (openGame.balls 7).y_).ball_ = some 7 ∧
    ∃ r g1, pong_ball.move openGame 7 = some (r, g1) ∧
      (r = true ↔ ¬ ((g1.balls 7).x_ = (openGame.balls 7).x_ ∧
                     (g1.balls 7).y_ = (openGame.balls 7).y_)) ∧
      (r = true →
        (g1.balls 7).x_ = (openGame.balls 7).x_ + (bounced openGame.board (openGame.balls 7)).1 ∧
        (g1.balls 7).y_ = (openGame.balls 7).y_ + (bounced openGame.board (openGame.balls 7)).2 ∧
        (0 ≤ (g1.balls 7).x_ ∧ (g1.balls 7).x_ < openGame.board.width_ ∧
          0 ≤ (g1.balls 7).y_ ∧ (g1.balls 7).y_ < openGame.board.height_) ∧
        (openGame.board.cell (g1.balls 7).x_ (g1.balls 7).y_).type_
          ≠ pong_celltype.cell_obstacle ∧
        (openGame.board.cell (g1.balls 7).x_ (g1.balls 7).y_).type_
          ≠ pong_celltype.cell_paddle ∧
        (openGame.board.cell (g1.balls 7).x_ (g1.balls 7).y_).ball_ = none ∧
        (g1.board.cell (openGame.balls 7).x_ (openGame.balls 7).y_).ball_ = none ∧
        (g1.board.cell (g1.balls 7).x_ (g1.balls 7).y_).ball_ = some 7 ∧
        ((g1.balls 7).dx_, (g1.balls 7).dy_) =
          (if (openGame.board.cell (g1.balls 7).x_ (g1.balls 7).y_).type_
              = pong_celltype.cell_sticky then (0, 0)
           else bounced openGame.board (openGame.balls 7))) ∧
      (r = false →
        (g1.balls 7).x_ = (openGame.balls 7).x_ ∧ (g1.balls 7).y_ = (openGame.balls 7).y_ ∧
        ∀ x y, (g1.board.cell x y).ball_ = (openGame.board.cell x y).ball_) :=
  ⟨by decide, by decide,
    move_moves_by_bounced_direction openGame 7 rfl (by decide) (by decide)⟩

/-- C33, counterexample.  On a board of three cells in one row the ball in the right
cell, with direction (1, 0), is stored in its cell, and the nine mutexes of
lines 98-106 are nine different mutexes of the array.  `move()` reflects the ball at
the right edge and moves it into the sticky middle cell: it returns true, the
position changes by (-1, 0), which is neither the direction (1, 0) the ball had
before the call nor the direction (0, 0) it has after the call.  On a board of two
cells in one row the ball in the left cell is stored in its cell, yet `move()` does
not return: `mutexes_[x_ + 2]` and `mutexes_[x_ + width_]` are the same mutex.  And
for a ball constructed at the off-board position (-1, 0), which the constructor
stores in the off-board cell, `move()` does not return either: `mutexes_[x_]` is no
element of the array. -/
theorem move_displacement_differs_from_direction :
    ((edgeGame.board.cell (edgeGame.balls 7).x_ (edgeGame.balls 7).y_).ball_ = some 7 ∧
     edgeGame.board.width_ = 3 ∧
     (lockIndices edgeGame.board (edgeGame.balls 7).x_).Nodup ∧
     (∀ i ∈ lockIndices edgeGame.board (edgeGame.balls 7).x_,
        0 ≤ i ∧ i < (edgeGame.board.width_ + 2) * (edgeGame.board.height_ + 2)) ∧
     ((edgeGame.balls 7).x_, (edgeGame.balls 7).y_, (edgeGame.balls 7).dx_,
       (edgeGame.balls 7).dy_) = (2, 0, 1, 0) ∧
     (pong_ball.move edgeGame 7).map (fun r => (r.1, (r.2.balls 7).x_, (r.2.balls 7).y_,
       (r.2.balls 7).dx_, (r.2.balls 7).dy_)) = some (true, 1, 0, 0, 0)) ∧
    ((narrowGame.board.cell (narrowGame.balls 7).x_ (narrowGame.balls 7).y_).ball_ = some 7 ∧
     narrowGame.board.width_ = 2 ∧
     (narrowGame.balls 7).x_ + 2 = (narrowGame.balls 7).x_ + narrowGame.board.width_ ∧
     pong_ball.move narrowGame 7 = none) ∧
    ((outsideGame.board.cell (outsideGame.balls 7).x_ (outsideGame.balls 7).y_).ball_ = some 7 ∧
     (outsideGame.balls 7).x_ < 0 ∧
     pong_ball.move outsideGame 7 = none) := by
  refine ⟨⟨by decide, by decide, by decide, by decide, by decide, by decide⟩,
    ⟨by decide, by decide, by decide, rfl⟩, ⟨by decide, by decide, rfl⟩⟩

end Pong
